import Mathlib

/-!
# Cognon neuron simulator: embedding and verification

Shallow embedding of the neuron engine of the Cognon simulator
(`src/trunk/neuron.cc`, `src/neuron.h`, `src/cognon.h`, `src/trunk/compat.h`,
`src/trunk/wordset.h`) together with theorems about it.

Modelling conventions.

* `int32` values are integers (`Int`).  Signed overflow is undefined in the
  source language, so signed additions are the mathematical ones; every
  conversion between signed and unsigned types is written out with an explicit
  modulus.
* `double` values are elements of a type `F` with the operations and the order
  the code uses (`DoubleModel F`).  Addition is not assumed associative or
  exact: the only laws are that the order is total (no NaN), that adding the
  same value to both sides of `≤` keeps `≤` (rounding is monotone) and that
  `a ≤ a + 1`.  The rationals are an instance, used for concrete runs.
* `CHECK(...)` is `assert`: a failed check aborts, modelled as
  `Except.error Fault.check`.  Undefined behaviour the code can reach (integer
  division by zero, an out-of-range cast) is `Fault.undefined`, and the
  exception thrown by `vector::resize` on an impossible size is
  `Fault.lengthError`.
* `std::vector` is `List`; an element is read with `List.getD` and written with
  `List.set`.
* The random generator is the stream of values `Rand32()` returns:
  `rand k` is the value of the call number `k` made by `Init`.
-/

set_option linter.unusedSectionVars false

namespace Cognon

/-! ## Numbers -/

/-- The operations on `double` used by the simulator, with the order laws the
proofs rely on.  `F` stands for the `double` values of a run in which no NaN
occurs: the order is total, rounded addition is monotone, and adding `1.0`
does not decrease a value.  Nothing else is assumed of the arithmetic. -/
class DoubleModel (F : Type) extends LinearOrder F, Add F, Mul F, Div F, Neg F, Zero F, One F where
  /-- Conversion `static_cast<double>(int32)`. -/
  ofInt : Int → F
  /-- The integer value of `floor(x)`. -/
  floor : F → Int
  /-- The constant `kEpsilon = 1.0e-6` (`src/cognon.h:106`). -/
  kEpsilon : F
  /-- Rounded addition is monotone in its left argument. -/
  add_mono_left : ∀ a b c : F, a ≤ b → a + c ≤ b + c
  /-- Adding `1.0` never decreases a value. -/
  le_add_one : ∀ a : F, a ≤ a + 1

export DoubleModel (kEpsilon)

/-- Exact rational arithmetic as a model of `double`. -/
instance instDoubleModelRat : DoubleModel ℚ where
  ofInt := fun z => (z : ℚ)
  floor := fun x => Rat.floor x
  kEpsilon := 1 / 1000000
  add_mono_left := fun _ _ c h => add_le_add_right h c
  le_add_one := fun _ => le_add_of_nonneg_right zero_le_one

/-- The sentinel `kDisabled = (1 << 29)` (`src/cognon.h:100`). -/
def kDisabled : Int := 536870912

/-- Conversion of an `int32` to `uint32` (value modulo `2^32`). -/
def toUInt32 (x : Int) : Nat := (x % 4294967296).toNat

/-- Conversion of a `uint32` value to `int32` (two's complement). -/
def toInt32 (x : Nat) : Int :=
  if x % 4294967296 < 2147483648 then ((x % 4294967296 : Nat) : Int)
  else ((x % 4294967296 : Nat) : Int) - 4294967296

/-- What can stop an operation before it returns. -/
inductive Fault where
  /-- A `CHECK` (that is `assert`) failed. -/
  | check
  /-- Undefined behaviour: division by zero, cast out of range. -/
  | undefined
  /-- The `std::length_error` of `vector::resize`. -/
  | lengthError
  deriving DecidableEq

/-- Equality of results is decidable, for the concrete runs. -/
instance instDecidableEqExcept {ε α : Type} [DecidableEq ε] [DecidableEq α] :
    DecidableEq (Except ε α)
  | .ok a, .ok b =>
    if h : a = b then isTrue (by rw [h]) else isFalse (fun h1 => h (Except.ok.inj h1))
  | .error a, .error b =>
    if h : a = b then isTrue (by rw [h]) else isFalse (fun h1 => h (Except.error.inj h1))
  | .ok _, .error _ => isFalse (fun h => Except.noConfusion h)
  | .error _, .ok _ => isFalse (fun h => Except.noConfusion h)

/-! ## Configuration, words, neuron state -/

/-- The class `NeuronConfig` (`src/trunk/compat.h:198-283`): each
`VALUE_PARAMETER` is a value with a presence flag, here an `Option`. -/
structure NeuronConfig (F : Type) where
  c : Option Int
  d1 : Option Int
  d2 : Option Int
  h : Option F
  q : Option F
  r : Option Int
  g_m : Option F
  h_m : Option F
  deriving DecidableEq

/-- A word, `typedef vector<pair<int32, int32> > Word` (`src/trunk/wordset.h:58`):
pairs (synapse, input delay). -/
abbrev Word := List (Int × Int)

/-- The two learning strategies (`src/neuron.h:47-65`). -/
inductive Learn where
  | LearnSynapseAtrophy
  | LearnSynapseStrength
  deriving DecidableEq

/-- The data members of `class Neuron` (`src/neuron.h:145-164`).  `learn` is
`none` for the null pointer of a neuron that was never initialised. -/
structure Neuron (F : Type) where
  config : NeuronConfig F
  C : Int
  D1 : Int
  D2 : Int
  H : F
  Q : F
  Q_after : F
  R : Int
  G_m : F
  H_m : F
  length : Int
  delays : List Int
  containers : List Int
  frozen : List Bool
  strength : List F
  sum : List F
  learn : Option Learn
  deriving DecidableEq

section Code

variable {F : Type} [DoubleModel F]

/-- The constructor `Neuron::Neuron()` (`src/trunk/neuron.cc:74-79`). -/
def newNeuron : Neuron F where
  config := ⟨none, none, none, none, none, none, none, none⟩
  C := 1
  D1 := 1
  D2 := 1
  H := 1
  Q := 1
  Q_after := -1
  R := 1
  G_m := -1
  H_m := -1
  length := -1
  delays := []
  containers := []
  frozen := []
  strength := []
  sum := []
  learn := none

/-- The accessor `slots()` (`src/neuron.h:119`): the sum `D1_ + D2_`, taken in
the integers.  It is the value of the `int32` sum of the code when the sum is
an `int32` value, as it is in the documented domain `D1 + D2 <= kDisabled`
(`src/cognon.h:96-99`); outside of it the sum of the code overflows.  The
theorems on the slot that `Expose` returns state the range of the sum. -/
def Neuron.slots (n : Neuron F) : Int := n.D1 + n.D2

/-- The accessor `delays(i)` (`src/neuron.h:130`). -/
def Neuron.delays_at (n : Neuron F) (i : Int) : Int := n.delays.getD i.toNat 0

/-- The accessor `containers(i)` (`src/neuron.h:133`). -/
def Neuron.containers_at (n : Neuron F) (i : Int) : Int := n.containers.getD i.toNat 0

/-- The accessor `frozen(i)` (`src/neuron.h:136`). -/
def Neuron.frozen_at (n : Neuron F) (i : Int) : Bool := n.frozen.getD i.toNat false

/-- The accessor `strength(i)` (`src/neuron.h:139`). -/
def Neuron.strength_at (n : Neuron F) (i : Int) : F := n.strength.getD i.toNat 0

/-- The accessor `sum(i)` (`src/neuron.h:142`). -/
def Neuron.sum_at (n : Neuron F) (i : Int) : F := n.sum.getD i.toNat 0

/-- The setter `set_H` (`src/neuron.h:128`). -/
def Neuron.set_H (n : Neuron F) (value : F) : Neuron F := { n with H := value }

/-- The setter `set_delays` (`src/neuron.h:131`). -/
def Neuron.set_delays (n : Neuron F) (i : Int) (value : Int) : Neuron F :=
  { n with delays := n.delays.set i.toNat value }

/-- The setter `set_frozen` (`src/neuron.h:137`). -/
def Neuron.set_frozen (n : Neuron F) (i : Int) (value : Bool) : Neuron F :=
  { n with frozen := n.frozen.set i.toNat value }

/-- The setter `set_strength` (`src/neuron.h:140`). -/
def Neuron.set_strength (n : Neuron F) (i : Int) (value : F) : Neuron F :=
  { n with strength := n.strength.set i.toNat value }

/-- The call `v.resize(k)` of `std::vector`: keep the first `k` elements and pad
with value-initialised ones. -/
def resize {α : Type} (v : List α) (k : Nat) (dflt : α) : List α :=
  v.take k ++ List.replicate (k - v.length) dflt

/-- The loop of `Neuron::Init` that draws the delay and the container of every
synapse (`src/trunk/neuron.cc:124-137`): `k` iterations remain, `i` is the
loop index.  `Rand32() % D2_` is computed on `uint32` and stored in an
`int32`. -/
def initLoop (rand : Nat → Nat) : Nat → Nat → Neuron F → Except Fault (Neuron F)
  | 0, _, n => .ok n
  | k + 1, i, n =>
    if toUInt32 n.D2 = 0 then .error .undefined
    else
      let dl := toInt32 ((rand (2 * i) % 4294967296) % toUInt32 n.D2)
      if ¬ (0 ≤ dl ∧ dl < n.D2) then .error .check
      else if toUInt32 n.C = 0 then .error .undefined
      else
        let ct := toInt32 ((rand (2 * i + 1) % 4294967296) % toUInt32 n.C)
        if ¬ (0 ≤ ct ∧ ct < n.C) then .error .check
        else
          initLoop rand k (i + 1)
            { n with delays := n.delays.set i dl
                     containers := n.containers.set i ct
                     frozen := n.frozen.set i false
                     strength := n.strength.set i 1 }

/-- The assignments of `Neuron::Init` that copy the configuration and compute
the synapse count `fl` (`src/trunk/neuron.cc:94-112`). -/
def initFields (self : Neuron F) (config : NeuronConfig F) (c d1 d2 : Int) (h q : F) (r : Int)
    (fl : Int) : Neuron F :=
  { self with
      config := config, C := c, D1 := d1, D2 := d2, H := h, Q := q, R := r
      Q_after := -1
      G_m := match config.g_m with
        | some g => g
        | none => -1
      H_m := match config.h_m with
        | some g => g
        | none => -1
      length := fl }

/-- The conditional resize of `Neuron::Init` (`src/trunk/neuron.cc:115-121`).  A
vector has fewer than `2^63` elements, so `delays_.size() != length_`, which
compares the size with the `size_t` value of `length_`, is true for every
negative `length_`; `resize` then throws `std::length_error`. -/
def initResize (n : Neuron F) : Except Fault (Neuron F) :=
  if (n.delays.length : Int) ≠ n.length then
    if n.length < 0 then .error .lengthError
    else
      .ok { n with
              delays := resize n.delays n.length.toNat 0
              containers := resize n.containers n.length.toNat 0
              frozen := resize n.frozen n.length.toNat false
              strength := resize n.strength n.length.toNat 0
              sum := resize n.sum n.C.toNat 0 }
  else .ok n

/-- The choice of the learning strategy at the end of `Neuron::Init`
(`src/trunk/neuron.cc:139-143`). -/
def initLearn (config : NeuronConfig F) (n : Neuron F) : Neuron F :=
  { n with learn :=
      if config.g_m.isSome ∧ config.h_m.isSome then some .LearnSynapseStrength
      else some .LearnSynapseAtrophy }

/-- The function `Neuron::Init` (`src/trunk/neuron.cc:81-144`).  The cast
`static_cast<int32>(floor(...))` is undefined when the value is not an
`int32`. -/
def Neuron.Init (self : Neuron F) (config : NeuronConfig F) (rand : Nat → Nat) :
    Except Fault (Neuron F) :=
  match config.c, config.d1, config.d2, config.h, config.q, config.r with
  | some c, some d1, some d2, some h, some q, some r =>
    if ¬ (1 ≤ c) then .error .check
    else if ¬ (d1 ≤ d2) then .error .check
    else if ¬ ((1 : F) ≤ h) then .error .check
    else
      let fl := DoubleModel.floor (DoubleModel.ofInt c * h * q * DoubleModel.ofInt r + kEpsilon)
      if ¬ (-2147483648 ≤ fl ∧ fl < 2147483648) then .error .undefined
      else
        match initResize (initFields self config c d1 d2 h q r fl) with
        | .error e => .error e
        | .ok n2 =>
          match initLoop rand n2.length.toNat 0 n2 with
          | .error e => .error e
          | .ok n3 => .ok (initLearn config n3)
  | _, _, _, _, _, _ => .error .check

/-! ## Expose -/

/-- The loop that zeroes the per-container sums
(`src/trunk/neuron.cc:155-157`). -/
def clearSums (C : Int) (sum : List F) : List F :=
  (List.range C.toNat).foldl (fun s i => s.set i 0) sum

/-- The loop over the entries of the word for one delay slot `d`
(`src/trunk/neuron.cc:159-171`), on the scratch sums. -/
def accumulate (n : Neuron F) (d : Int) : Word → List F → Except Fault (List F)
  | [], sum => .ok sum
  | (synapse, delay) :: rest, sum =>
    if ¬ (0 ≤ synapse ∧ synapse < n.length) then .error .check
    else if ¬ (delay = kDisabled ∨ (0 ≤ delay ∧ delay < n.D1)) then .error .check
    else if n.delays_at synapse + delay = d then
      if ¬ (0 ≤ n.containers_at synapse ∧ n.containers_at synapse < n.C) then .error .check
      else
        accumulate n d rest
          (sum.set (n.containers_at synapse).toNat
            (sum.getD (n.containers_at synapse).toNat 0 + n.strength_at synapse))
    else accumulate n d rest sum

/-- The scan of the containers for one that fired
(`src/trunk/neuron.cc:174-177`). -/
def anyFired (C : Int) (H : F) (sum : List F) : Bool :=
  (List.range C.toNat).any fun i => decide (H ≤ sum.getD i 0 + kEpsilon)

/-- The loop over the delay slots of `Neuron::Expose`
(`src/trunk/neuron.cc:154-179`): `k` slots remain, `d` is the current one. -/
def exposeLoop (n : Neuron F) (word : Word) : Nat → Int → List F → Except Fault (Int × List F)
  | 0, _, sum => .ok (kDisabled, sum)
  | k + 1, d, sum =>
    match accumulate n d word (clearSums n.C sum) with
    | .error e => .error e
    | .ok sum1 =>
      if anyFired n.C n.H sum1 then .ok (d, sum1)
      else exposeLoop n word k (d + 1) sum1

/-- The function `Neuron::Expose` (`src/trunk/neuron.cc:146-180`): the value
returned and the neuron afterwards. -/
def Neuron.Expose (n : Neuron F) (word : Word) : Except Fault (Int × Neuron F) :=
  if ¬ ((n.sum.length : Int) = n.C) then .error .check
  else if ¬ ((n.delays.length : Int) = n.length) then .error .check
  else if ¬ ((n.strength.length : Int) = n.length) then .error .check
  else if ¬ ((n.containers.length : Int) = n.length) then .error .check
  else
    match exposeLoop n word n.slots.toNat 0 n.sum with
    | .error e => .error e
    | .ok (d, sum1) => .ok (d, { n with sum := sum1 })

/-! ## Training -/

/-- The virtual call `learn_->UpdateSynapse(synapse)`
(`src/trunk/neuron.cc:41-43` and `63-67`). -/
def UpdateSynapse (n : Neuron F) (synapse : Int) : Except Fault (Neuron F) :=
  match n.learn with
  | none => .error .undefined
  | some .LearnSynapseAtrophy => .ok (n.set_frozen synapse true)
  | some .LearnSynapseStrength =>
    match n.config.g_m with
    | none => .error .check
    | some g => .ok ((n.set_strength synapse g).set_frozen synapse true)

/-- The inner loop of `Neuron::Train` over the entries of the word, for the
container `i` (`src/trunk/neuron.cc:196-203`). -/
def trainEntries (d i : Int) : Word → Neuron F → Except Fault (Neuron F)
  | [], n => .ok n
  | (synapse, delay) :: rest, n =>
    if n.delays_at synapse + delay = d ∧ n.containers_at synapse = i then
      match UpdateSynapse n synapse with
      | .error e => .error e
      | .ok n1 => trainEntries d i rest n1
    else trainEntries d i rest n

/-- The outer loop of `Neuron::Train` over the containers
(`src/trunk/neuron.cc:193-204`): `k` containers remain, `i` is the current
one. -/
def trainContainers (word : Word) (d : Int) : Nat → Int → Neuron F → Except Fault (Neuron F)
  | 0, _, n => .ok n
  | k + 1, i, n =>
    if n.sum_at i + kEpsilon < n.H then trainContainers word d k (i + 1) n
    else
      match trainEntries d i word n with
      | .error e => .error e
      | .ok n1 => trainContainers word d k (i + 1) n1

/-- The function `Neuron::Train` (`src/trunk/neuron.cc:182-206`). -/
def Neuron.Train (n : Neuron F) (word : Word) : Except Fault (Int × Neuron F) :=
  if ¬ ((n.sum.length : Int) = n.C) then .error .check
  else if ¬ ((n.delays.length : Int) = n.length) then .error .check
  else if ¬ ((n.containers.length : Int) = n.length) then .error .check
  else if n.learn = none then .error .check
  else
    match n.Expose word with
    | .error e => .error e
    | .ok (d, n1) =>
      if d = kDisabled then .ok (d, n1)
      else
        match trainContainers word d n1.C.toNat 0 n1 with
        | .error e => .error e
        | .ok n2 => .ok (d, n2)

/-- The function `Neuron::StartTraining` (`src/trunk/neuron.cc:208-212`) with
the `StartTraining` of the two strategies (`39` and `58-61`). -/
def Neuron.StartTraining (n : Neuron F) : Except Fault (Neuron F) :=
  match n.learn with
  | none => .error .check
  | some .LearnSynapseAtrophy => .ok n
  | some .LearnSynapseStrength =>
    match n.config.h with
    | none => .error .check
    | some h => .ok (n.set_H h)

/-- The first `k` iterations of the loop of
`LearnSynapseAtrophy::FinishTraining` (`src/trunk/neuron.cc:46-51`). -/
def atrophyLoop (n : Neuron F) (k : Nat) : Neuron F :=
  (List.range k).foldl
    (fun m (i : Nat) =>
      if ¬ m.frozen_at (i : Int) then (m.set_strength (i : Int) 0).set_delays (i : Int) kDisabled
      else m)
    n

/-- The function `LearnSynapseAtrophy::FinishTraining`
(`src/trunk/neuron.cc:45-52`). -/
def atrophyFinish (n : Neuron F) : Neuron F :=
  atrophyLoop n n.length.toNat

/-- The count of frozen synapses in `Neuron::FinishTraining`
(`src/trunk/neuron.cc:220-223`). -/
def frozenCount (n : Neuron F) : Int :=
  (List.range n.length.toNat).foldl
    (fun count (i : Nat) => if n.frozen_at (i : Int) then count + 1 else count) 0

/-- The function `Neuron::FinishTraining` (`src/trunk/neuron.cc:214-225`) with
the `FinishTraining` of the two strategies (`45-52` and `69-72`). -/
def Neuron.FinishTraining (n : Neuron F) : Except Fault (Neuron F) :=
  match n.learn with
  | none => .error .check
  | some l =>
    if ¬ ((n.frozen.length : Int) = n.length) then .error .check
    else
      match l with
      | .LearnSynapseAtrophy =>
        .ok { atrophyFinish n with
                Q_after := DoubleModel.ofInt (frozenCount (atrophyFinish n))
                  / DoubleModel.ofInt n.length }
      | .LearnSynapseStrength =>
        match n.config.h_m with
        | none => .error .check
        | some hm =>
          .ok { n.set_H hm with
                  Q_after := DoubleModel.ofInt (frozenCount n) / DoubleModel.ofInt n.length }

/-- The calls `Train(w_1)`, ..., `Train(w_n)` in order, as made by the loop of
`Alice::Train` (`src/alice.cc:34-39`): the values returned and the neuron
afterwards. -/
def trainEach : List Word → Neuron F → Except Fault (List Int × Neuron F)
  | [], n => .ok ([], n)
  | w :: ws, n =>
    match n.Train w with
    | .error e => .error e
    | .ok (d, n1) =>
      match trainEach ws n1 with
      | .error e => .error e
      | .ok (ds, n2) => .ok (d :: ds, n2)

/-- A training cycle: `StartTraining`, `Train` on every word in order,
`FinishTraining` (`src/alice.cc:33-40`, `src/neuron_test.cc:302-320`). -/
def trainingCycle (ws : List Word) (n : Neuron F) : Except Fault (List Int × Neuron F) :=
  match n.StartTraining with
  | .error e => .error e
  | .ok n1 =>
    match trainEach ws n1 with
    | .error e => .error e
    | .ok (ds, n2) =>
      match n2.FinishTraining with
      | .error e => .error e
      | .ok n3 => .ok (ds, n3)

/-! ## Predicates used in the statements -/

/-- The checks on a word entry made by `Neuron::Expose`
(`src/trunk/neuron.cc:162-163`), for every entry of the word: the synapse is in
`[0, length)` and the input delay is `kDisabled` or in `[0, D1)`. -/
def ValidWord (n : Neuron F) (word : Word) : Prop :=
  ∀ e ∈ word, (0 ≤ e.1 ∧ e.1 < n.length) ∧ (e.2 = kDisabled ∨ (0 ≤ e.2 ∧ e.2 < n.D1))

instance (n : Neuron F) (word : Word) : Decidable (ValidWord n word) := by
  unfold ValidWord; infer_instance

/-- The consistency checks at the start of `Neuron::Expose`, `Neuron::Train`
and `Neuron::FinishTraining` (`src/trunk/neuron.cc:147-150`, `183-185`,
`216`). -/
def Consistent (n : Neuron F) : Prop :=
  (n.sum.length : Int) = n.C ∧ (n.delays.length : Int) = n.length ∧
  (n.strength.length : Int) = n.length ∧ (n.containers.length : Int) = n.length ∧
  (n.frozen.length : Int) = n.length

instance (n : Neuron F) : Decidable (Consistent n) := by
  unfold Consistent; infer_instance

/-- Every synapse is assigned to a container in `[0, C)`
(the check of `src/trunk/neuron.cc:168`). -/
def ContainersInRange (n : Neuron F) : Prop :=
  ∀ c ∈ n.containers, 0 ≤ c ∧ c < n.C

instance (n : Neuron F) : Decidable (ContainersInRange n) := by
  unfold ContainersInRange; infer_instance

/-- The four synapse vectors have the same size: they are only ever resized
together (`src/trunk/neuron.cc:116-119`). -/
def Aligned (n : Neuron F) : Prop :=
  n.containers.length = n.delays.length ∧ n.frozen.length = n.delays.length ∧
  n.strength.length = n.delays.length

instance (n : Neuron F) : Decidable (Aligned n) := by
  unfold Aligned; infer_instance

/-- The sum `S(c,d)` of the specification: the strengths of the synapses `s`
of the word entries `(s,t)` with `delays(s) + t == d` and `containers(s) == c`,
added in word order starting from `0.0`. -/
def specSum (n : Neuron F) (word : Word) (c d : Int) : F :=
  ((word.filter fun e => decide (n.delays_at e.1 + e.2 = d ∧ n.containers_at e.1 = c)).map
    fun e => n.strength_at e.1).foldl (fun a x => a + x) 0

/-- Some container reaches the threshold in the delay slot `d`:
`H <= S(c,d) + 1e-6` for some `c` in `[0, C)`. -/
def Fires (n : Neuron F) (word : Word) (d : Int) : Prop :=
  ∃ c : Int, 0 ≤ c ∧ c < n.C ∧ n.H ≤ specSum n word c d + kEpsilon

/-- The first-fire policy of the specification: `r` is the smallest slot of
`[0, D1 + D2)` in which the neuron fires, or `kDisabled` when there is none. -/
def FirstFire (n : Neuron F) (word : Word) (r : Int) : Prop :=
  (0 ≤ r ∧ r < n.D1 + n.D2 ∧ Fires n word r ∧ ∀ d : Int, 0 ≤ d → d < r → ¬ Fires n word d) ∨
  (r = kDisabled ∧ ∀ d : Int, 0 ≤ d → d < n.D1 + n.D2 → ¬ Fires n word d)

/-- The word entries that contribute to the firing in slot `d`: those `(s,t)`
with `delays(s) + t == d` whose container reached the threshold. -/
def contributing (n : Neuron F) (word : Word) (d : Int) : Word :=
  word.filter fun e =>
    decide (n.delays_at e.1 + e.2 = d ∧ n.H ≤ specSum n word (n.containers_at e.1) d + kEpsilon)

/-- The checks that guard a call of `UpdateSynapse` hold: the strategy object
exists (`CHECK_NOTNULL(learn_.get())`, `src/trunk/neuron.cc:186`) and, for the
strength strategy, `G_m` is present (`CHECK(neuron_->config().has_g_m())`,
`src/trunk/neuron.cc:64`). -/
def LearnReady (n : Neuron F) : Prop :=
  n.learn = some .LearnSynapseAtrophy ∨
    (n.learn = some .LearnSynapseStrength ∧ n.config.g_m.isSome = true)

instance (n : Neuron F) : Decidable (LearnReady n) := by
  unfold LearnReady; infer_instance

/-- The synapses on which the inner loop of `Neuron::Train` calls
`UpdateSynapse` for the container `i`, in call order
(`src/trunk/neuron.cc:196-203`). -/
def entrySynapses (n : Neuron F) (word : Word) (d i : Int) : List Int :=
  (word.filter fun e => decide (n.delays_at e.1 + e.2 = d ∧ n.containers_at e.1 = i)).map
    Prod.fst

/-- The synapses on which `Neuron::Train` calls `UpdateSynapse`, in call
order, for the containers `i, i + 1, ..., i + k - 1`
(`src/trunk/neuron.cc:193-204`). -/
def containerSynapses (n : Neuron F) (word : Word) (d : Int) : Nat → Int → List Int
  | 0, _ => []
  | k + 1, i =>
    (if n.sum_at i + kEpsilon < n.H then [] else entrySynapses n word d i)
      ++ containerSynapses n word d k (i + 1)

/-- The malformed configurations of the specification: one of `C`, `D1`,
`D2`, `H`, `Q`, `R` is absent, or `C < 1`, or `D1 > D2`, or `H < 1`. -/
def Malformed (cfg : NeuronConfig F) : Prop :=
  match cfg.c, cfg.d1, cfg.d2, cfg.h, cfg.q, cfg.r with
  | some c, some d1, some d2, some h, some _, some _ => c < 1 ∨ d1 > d2 ∨ h < 1
  | _, _, _, _, _, _ => True

instance (cfg : NeuronConfig F) : Decidable (Malformed cfg) := by
  unfold Malformed; split <;> infer_instance

/-! ## Wordset and Alice -/

/-- The data members of `class Wordset` (`src/trunk/wordset.h:103-109`); the
random generator is not part of the model. -/
structure Wordset where
  num_words : Int
  word_length : Int
  num_delays : Int
  refractory_period : Int
  num_active : Int
  words : List Word
  delays : List Int
  deriving DecidableEq

/-- The accessor `size()` (`src/trunk/wordset.h:79`): `words_.size()`. -/
def Wordset.size (w : Wordset) : Int := (w.words.length : Int)

/-- The accessor `get_word(i)` (`src/trunk/wordset.h:85`), called with
`0 <= i < size()` only. -/
def Wordset.get_word (w : Wordset) (i : Int) : Word := w.words.getD i.toNat []

/-- The function `Wordset::delay` (`src/wordset.cc:167-171`). -/
def Wordset.delay (w : Wordset) (word : Int) : Int :=
  if 0 ≤ word ∧ word < (w.delays.length : Int) then w.delays.getD word.toNat 0 else kDisabled

/-- The function `Wordset::set_delay` (`src/wordset.cc:174-178`): the wordset
afterwards (the value returned is not used by the callers). -/
def Wordset.set_delay (w : Wordset) (word : Int) (delay : Int) : Wordset :=
  if 0 ≤ word ∧ word < (w.delays.length : Int) then
    { w with delays := w.delays.set word.toNat delay }
  else w

/-- The loop of `Alice::Train` (`src/alice.cc:34-39`): `k` words remain, `i`
is the loop index. -/
def aliceTrainLoop : Nat → Nat → Wordset → Neuron F → Except Fault (Wordset × Neuron F)
  | 0, _, words, n => .ok (words, n)
  | k + 1, i, words, n =>
    match n.Train (words.get_word (i : Int)) with
    | .error e => .error e
    | .ok (delay, n1) =>
      if delay < 0 ∨ n1.slots ≤ delay then aliceTrainLoop k (i + 1) words n1
      else aliceTrainLoop k (i + 1) (words.set_delay (i : Int) delay) n1

/-- The function `Alice::Train` (`src/alice.cc:29-41`): the wordset and the
neuron afterwards. -/
def Alice.Train (words : Wordset) (n : Neuron F) : Except Fault (Wordset × Neuron F) :=
  match n.StartTraining with
  | .error e => .error e
  | .ok n1 =>
    match aliceTrainLoop words.words.length 0 words n1 with
    | .error e => .error e
    | .ok (words1, n2) =>
      match n2.FinishTraining with
      | .error e => .error e
      | .ok n3 => .ok (words1, n3)

/-- The statement `if (v->size() < k) v->resize(k)` on a `vector<int32>`
(`src/alice.cc:62-63`, `src/trunk/neuron.cc:235-236`).  The comparison is made
on `size_t`, so a negative `k` is a huge size and `resize` throws. -/
def growTo (v : List Int) (k : Int) : Except Fault (List Int) :=
  if k < 0 then .error .lengthError
  else if v.length < k.toNat then .ok (resize v k.toNat 0)
  else .ok v

/-- The statement `(*v)[i]++` on a `vector<int32>`. -/
def bump (v : List Int) (i : Nat) : List Int := v.set i (v.getD i 0 + 1)

/-- The loop over the entries of the word in `Neuron::GetInputDelayHistogram`
(`src/trunk/neuron.cc:243-252`).  It has no checks: an index outside a vector
is undefined behaviour. -/
def histAccumulate (n : Neuron F) (d : Int) : Word → List F → Except Fault (List F)
  | [], sum => .ok sum
  | (synapse, delay) :: rest, sum =>
    if ¬ (0 ≤ synapse ∧ synapse < (n.delays.length : Int)) then .error .undefined
    else if n.delays_at synapse + delay = d then
      if ¬ (synapse < (n.containers.length : Int) ∧ synapse < (n.strength.length : Int) ∧
          0 ≤ n.containers_at synapse ∧ n.containers_at synapse < (sum.length : Int)) then
        .error .undefined
      else
        histAccumulate n d rest
          (sum.set (n.containers_at synapse).toNat
            (sum.getD (n.containers_at synapse).toNat 0 + n.strength_at synapse))
    else histAccumulate n d rest sum

/-- The loop that tracks the maximal sum in `Neuron::GetInputDelayHistogram`
(`src/trunk/neuron.cc:255-260`): `k` containers remain, `i` is the loop index,
the pair is `(m, max_sum)`. -/
def histMaxLoop (d : Int) (sum : List F) : Nat → Nat → Int × F → Int × F
  | 0, _, acc => acc
  | k + 1, i, (m, max_sum) =>
    if m < 0 ∨ max_sum < sum.getD i 0 then histMaxLoop d sum k (i + 1) (d, sum.getD i 0)
    else histMaxLoop d sum k (i + 1) (m, max_sum)

/-- The loop that fills `histogram` and `H_histogram` in
`Neuron::GetInputDelayHistogram` (`src/trunk/neuron.cc:262-271`).  The cast of
`floor(...)` to `int` is undefined outside the `int` range; the comparison
`H_histogram->size() <= bucket` is made on `size_t`, so a negative bucket leads
to `resize(bucket + 1)` with a huge size (`std::length_error`) or, for
`bucket == -1`, to an access at index `-1`. -/
def histBucketLoop (H : F) (d : Int) (sum : List F) :
    Nat → Nat → List Int → List Int → Except Fault (List Int × List Int)
  | 0, _, histogram, H_histogram => .ok (histogram, H_histogram)
  | k + 1, i, histogram, H_histogram =>
    let bucket := DoubleModel.floor (sum.getD i 0 + kEpsilon)
    if ¬ (-2147483648 ≤ bucket ∧ bucket < 2147483648) then .error .undefined
    else if bucket < -1 then .error .lengthError
    else if bucket = -1 then .error .undefined
    else if bucket = 2147483647 ∧ H_histogram.length ≤ bucket.toNat then .error .undefined
    else
      histBucketLoop H d sum k (i + 1)
        (if H ≤ sum.getD i 0 + kEpsilon then bump histogram d.toNat else histogram)
        (bump
          (if H_histogram.length ≤ bucket.toNat then resize H_histogram (bucket.toNat + 1) 0
            else H_histogram)
          bucket.toNat)

/-- The local state of the loop over the delay slots in
`Neuron::GetInputDelayHistogram`. -/
structure HistState (F : Type) where
  sum : List F
  m : Int
  max_sum : F
  histogram : List Int
  H_histogram : List Int

/-- The loop over the delay slots in `Neuron::GetInputDelayHistogram`
(`src/trunk/neuron.cc:238-272`): `k` slots remain, `d` is the current one.
Writing `sum_[i]` for `i < C_` is undefined when `sum_` is shorter than
`C_`. -/
def histSlots (n : Neuron F) (word : Word) : Nat → Int → HistState F → Except Fault (HistState F)
  | 0, _, st => .ok st
  | k + 1, d, st =>
    if ¬ (n.C ≤ (st.sum.length : Int)) then .error .undefined
    else
      match histAccumulate n d word (clearSums n.C st.sum) with
      | .error e => .error e
      | .ok sum1 =>
        match histBucketLoop n.H d sum1 n.C.toNat 0 st.histogram st.H_histogram with
        | .error e => .error e
        | .ok (histogram1, H_histogram1) =>
          histSlots n word k (d + 1)
            { sum := sum1
              m := (histMaxLoop d sum1 n.C.toNat 0 (st.m, st.max_sum)).1
              max_sum := (histMaxLoop d sum1 n.C.toNat 0 (st.m, st.max_sum)).2
              histogram := histogram1
              H_histogram := H_histogram1 }

/-- The function `Neuron::GetInputDelayHistogram`
(`src/trunk/neuron.cc:227-276`): the neuron and the three histograms
afterwards.  The three vectors are distinct objects. -/
def Neuron.GetInputDelayHistogram (n : Neuron F) (word : Word)
    (histogram max_histogram H_histogram : List Int) :
    Except Fault (Neuron F × List Int × List Int × List Int) :=
  match growTo histogram (n.slots + 1) with
  | .error e => .error e
  | .ok histogram0 =>
    match growTo max_histogram (n.slots + 1) with
    | .error e => .error e
    | .ok max_histogram0 =>
      match histSlots n word n.slots.toNat 0
          { sum := n.sum, m := -1, max_sum := -1, histogram := histogram0,
            H_histogram := H_histogram } with
      | .error e => .error e
      | .ok st =>
        .ok ({ n with sum := st.sum }, st.histogram,
          if 0 ≤ st.m then bump max_histogram0 st.m.toNat else max_histogram0, st.H_histogram)

/-- The four histograms that `Alice::TrainHistogram` fills
(`src/alice.cc:45-48`); they are distinct vectors. -/
structure Histograms where
  delay_histogram : List Int
  input_delay_histogram : List Int
  input_max_sum_delay_histogram : List Int
  H_histogram : List Int
  deriving DecidableEq

/-- The loop of `Alice::TrainHistogram` (`src/alice.cc:57-69`): `k` words
remain, `i` is the loop index. -/
def trainHistogramLoop :
    Nat → Nat → Wordset → Neuron F → Histograms → Except Fault (Wordset × Neuron F × Histograms)
  | 0, _, words, n, hs => .ok (words, n, hs)
  | k + 1, i, words, n, hs =>
    match n.Train (words.get_word (i : Int)) with
    | .error e => .error e
    | .ok (delay, n1) =>
      if delay < 0 ∨ n1.slots ≤ delay then trainHistogramLoop k (i + 1) words n1 hs
      else
        match growTo hs.delay_histogram (delay + 1) with
        | .error e => .error e
        | .ok dh =>
          match n1.GetInputDelayHistogram ((words.set_delay (i : Int) delay).get_word (i : Int))
              hs.input_delay_histogram hs.input_max_sum_delay_histogram hs.H_histogram with
          | .error e => .error e
          | .ok (n2, h1, h2, h3) =>
            trainHistogramLoop k (i + 1) (words.set_delay (i : Int) delay) n2
              { delay_histogram := bump dh delay.toNat
                input_delay_histogram := h1
                input_max_sum_delay_histogram := h2
                H_histogram := h3 }

/-- The function `Alice::TrainHistogram` (`src/alice.cc:43-71`). -/
def Alice.TrainHistogram (words : Wordset) (n : Neuron F) (hs : Histograms) :
    Except Fault (Wordset × Neuron F × Histograms) :=
  match n.StartTraining with
  | .error e => .error e
  | .ok n1 =>
    match trainHistogramLoop words.words.length 0 words n1 hs with
    | .error e => .error e
    | .ok (words1, n2, hs1) =>
      match n2.FinishTraining with
      | .error e => .error e
      | .ok n3 => .ok (words1, n3, hs1)

/-! ## Bob -/

/-- The loop of `Bob::TestTrainingSet` (`src/bob.cc:67-74`): `k` words remain,
`i` is the loop index. -/
def testTrainingSetLoop :
    Nat → Nat → Wordset → Neuron F → Int → Int → Except Fault (Int × Int × Neuron F)
  | 0, _, _, n, true_true, true_false => .ok (true_true, true_false, n)
  | k + 1, i, words, n, true_true, true_false =>
    match n.Expose (words.get_word (i : Int)) with
    | .error e => .error e
    | .ok (slot, n1) =>
      if 0 ≤ slot ∧ slot = words.delay (i : Int) ∧ slot < n1.slots then
        testTrainingSetLoop k (i + 1) words n1 (true_true + 1) true_false
      else testTrainingSetLoop k (i + 1) words n1 true_true (true_false + 1)

/-- The function `Bob::TestTrainingSet` (`src/bob.cc:65-75`): the two counters
and the neuron afterwards. -/
def Bob.TestTrainingSet (words : Wordset) (n : Neuron F) (true_true true_false : Int) :
    Except Fault (Int × Int × Neuron F) :=
  testTrainingSetLoop words.words.length 0 words n true_true true_false

/-- The statements `test.Init(); while (training.find(test.get_word(0)) !=
training.end()) test.Init();` of `Bob::TestTestSet` (`src/bob.cc:95-98`).
The wordset `test` holds one word, which each call of `test.Init()` draws
anew: `draw j` is the outcome of the call number `j` on `test` (the word
drawn, or the fault that stopped the call).  `training` holds the words of the
training set; two words are equivalent for the order of `set<Word>` exactly
when they are equal, so `find` succeeds exactly on the members.  The loop
has no bound in the source: `fuel` bounds the number of calls of `Init`, and
the result is `none` when it is used up.  Otherwise the result is the number
of the next call and the word kept. -/
def drawFresh (draw : Nat → Except Fault Word) (training : List Word) :
    Nat → Nat → Option (Except Fault (Nat × Word))
  | 0, _ => none
  | fuel + 1, j =>
    match draw j with
    | .error e => some (.error e)
    | .ok w =>
      if w ∈ training then drawFresh draw training fuel (j + 1)
      else some (.ok (j + 1, w))

/-- What `Bob::TestTestSet` leaves: the two counters, the neuron, and the
words that were passed to `Expose`, in call order. -/
structure TestSetResult (F : Type) where
  false_true : Int
  false_false : Int
  neuron : Neuron F
  exposed : List Word
  deriving DecidableEq

/-- The loop of `Bob::TestTestSet` (`src/bob.cc:94-105`): `k` test words
remain, `j` is the number of the next call of `test.Init()`, `exposed` lists
the words passed to `Expose` so far. -/
def testTestSetLoop (draw : Nat → Except Fault Word) (training : List Word) (fuel : Nat) :
    Nat → Nat → Neuron F → Int → Int → List Word → Option (Except Fault (TestSetResult F))
  | 0, _, n, false_true, false_false, exposed =>
    some (.ok ⟨false_true, false_false, n, exposed⟩)
  | k + 1, j, n, false_true, false_false, exposed =>
    match drawFresh draw training fuel j with
    | none => none
    | some (.error e) => some (.error e)
    | some (.ok (j1, w)) =>
      match n.Expose w with
      | .error e => some (.error e)
      | .ok (slot, n1) =>
        if 0 ≤ slot ∧ slot < n1.slots then
          testTestSetLoop draw training fuel k j1 n1 (false_true + 1) false_false (exposed ++ [w])
        else
          testTestSetLoop draw training fuel k j1 n1 false_true (false_false + 1) (exposed ++ [w])

/-- The function `Bob::TestTestSet` (`src/bob.cc:81-106`): the two counters,
the neuron afterwards and the words that were passed to `Expose`.
`test.CopyFrom(1, words)` configures `test` and makes the call number 0 of
`test.Init()`. -/
def Bob.TestTestSet (draw : Nat → Except Fault Word) (fuel : Nat) (words : Wordset)
    (n : Neuron F) (num_test_words : Int) (false_true false_false : Int) :
    Option (Except Fault (TestSetResult F)) :=
  match draw 0 with
  | .error e => some (.error e)
  | .ok _ =>
    testTestSetLoop draw words.words fuel num_test_words.toNat 1 n false_true false_false []

/-- The number of test words that `RunExperiment` passes to `Bob::Test`
(`src/cognon.cc:351`). -/
def testWordCount (num_test_words : Option Int) : Int :=
  match num_test_words with
  | some k => k
  | none => 100000

/-- The functions of `<math.h>` that `Bob` calls. -/
structure MathFns (F : Type) where
  log : F → F
  lgamma : F → F
  pow : F → F → F
  log2 : F → F

/-- The `double` value of a decimal literal, given as a fraction. -/
def lit (a b : Int) : F := DoubleModel.ofInt a / DoubleModel.ofInt b

/-- A quotient `x / static_cast<double>(k)` whose divisor is a sum of
counters.  For `k == 0` the quotient is a NaN or an infinity, which is not a
value of the model (and the behaviour is undefined in ISO C++): it is reported
as `Fault.undefined`. -/
def divByCount (x : F) (k : Int) : Except Fault F :=
  if k = 0 then .error .undefined else .ok (x / DoubleModel.ofInt k)

/-- The function `Bob::BitsPerNeuron` (`src/bob.cc:108-133`).  `a - b` is
written `a + -b`. -/
def Bob.BitsPerNeuron (m : MathFns F) (num_words true_true true_false false_true
    false_false : Int) : Except Fault F :=
  match divByCount (DoubleModel.ofInt false_true : F) (false_false + false_true) with
  | .error e => .error e
  | .ok qf =>
    match divByCount (DoubleModel.ofInt true_true : F) (true_true + true_false) with
    | .error e => .error e
    | .ok prob_learn0 =>
      let prob_false0 : F := 1 / DoubleModel.ofInt 360 + qf
      if prob_learn0 < prob_false0 then .ok 0
      else
        let prob_false1 : F :=
          if lit 999999 1000000 ≤ prob_false0 then lit 999999 1000000 else prob_false0
        let prob_learn1 : F :=
          if lit 999999 1000000 ≤ prob_learn0 then lit 999999 1000000 else prob_learn0
        let prob_false : F :=
          if prob_false1 < lit 1 10000000 then lit 1 10000000 else prob_false1
        let prob_learn : F :=
          if prob_learn1 < lit 1 10000000 then lit 1 10000000 else prob_learn1
        let infoValue : F :=
          m.log (1 + -prob_learn) + -(m.log (1 + -prob_false))
            + -(prob_learn * m.log (1 + -prob_learn))
            + prob_learn * m.log (1 + -prob_false)
            + prob_learn * m.log prob_learn
            + -(prob_learn * m.log prob_false)
        .ok ((DoubleModel.ofInt num_words * infoValue) / m.log (DoubleModel.ofInt 2))

/-- The function `lchoose` (`src/bob.cc:136-138`). -/
def lchoose (m : MathFns F) (n k : F) : F :=
  m.lgamma (n + 1) + -(m.lgamma (n + -k + 1)) + -(m.lgamma (k + 1))

/-- The function `Bob::MutualInformation` (`src/bob.cc:140-171`). -/
def Bob.MutualInformation (m : MathFns F) (n : Neuron F) (true_true true_false false_true
    false_false : Int) : Except Fault F :=
  if true_true = 0 then .ok 0
  else
    let Z : F := m.pow (DoubleModel.ofInt 2) (DoubleModel.ofInt n.length)
    let num_words : F := DoubleModel.ofInt (true_true + true_false)
    let num_words_learned : F := DoubleModel.ofInt true_true
    match divByCount (DoubleModel.ofInt true_true : F) (true_true + true_false) with
    | .error e => .error e
    | .ok prob_learn =>
      match divByCount (DoubleModel.ofInt false_true : F) (false_true + false_false) with
      | .error e => .error e
      | .ok prob_false0 =>
        let prob_false : F :=
          if prob_false0 < lit 1 10000000 then lit 1 1000000 else prob_false0
        let result0 : F :=
          (lchoose m (Z * prob_learn) num_words_learned
            + -(lchoose m ((Z + -num_words) * prob_false + num_words_learned)
                ((Z + -num_words) * prob_false)))
            / m.log (DoubleModel.ofInt 2)
        let result : F :=
          if 1 < n.D1 then
            result0 + (num_words_learned * m.log2 (DoubleModel.ofInt n.D1) + -0)
          else result0
        .ok (if result < 0 then 0 else result)

/-- The values that `Bob::Test` passes to `AddSample`, in the order of the
calls (`src/bob.cc:43-62`), named after the statistic that receives them. -/
structure TestSamples (F : Type) where
  true_true : F
  true_false : F
  true_count : F
  false_true : F
  false_false : F
  false_count : F
  bits_per_neuron : F
  bits_per_neuron_per_refractory_period : F
  mutual_information : F
  deriving DecidableEq

/-- The function `Bob::Test` (`src/bob.cc:32-63`): the samples it adds to the
statistics, and the neuron afterwards.  An absent `r` of the configuration
reads as 0 (`src/trunk/compat.h:113-125`). -/
def Bob.Test (m : MathFns F) (draw : Nat → Except Fault Word) (fuel : Nat)
    (num_test_words : Int) (words : Wordset) (n : Neuron F) :
    Option (Except Fault (TestSamples F × Neuron F)) :=
  match Bob.TestTrainingSet words n 0 0 with
  | .error e => some (.error e)
  | .ok (true_true, true_false, n1) =>
    match divByCount (DoubleModel.ofInt true_true : F) (true_true + true_false),
        divByCount (DoubleModel.ofInt true_false : F) (true_true + true_false) with
    | .ok s1, .ok s2 =>
      match Bob.TestTestSet draw fuel words n1 num_test_words 0 0 with
      | none => none
      | some (.error e) => some (.error e)
      | some (.ok ⟨false_true, false_false, n2, _⟩) =>
        match divByCount (DoubleModel.ofInt false_true : F) (false_true + false_false),
            divByCount (DoubleModel.ofInt false_false : F) (false_true + false_false) with
        | .ok s4, .ok s5 =>
          match Bob.BitsPerNeuron m words.size true_true true_false false_true false_false with
          | .error e => some (.error e)
          | .ok bits =>
            match divByCount bits (match n2.config.r with
                | some r => r
                | none => 0) with
            | .error e => some (.error e)
            | .ok s8 =>
              match Bob.MutualInformation m n2 true_true true_false false_true false_false with
              | .error e => some (.error e)
              | .ok s9 =>
                some (.ok (
                  { true_true := s1
                    true_false := s2
                    true_count := DoubleModel.ofInt (true_true + true_false)
                    false_true := s4
                    false_false := s5
                    false_count := DoubleModel.ofInt (false_true + false_false)
                    bits_per_neuron := bits
                    bits_per_neuron_per_refractory_period := s8
                    mutual_information := s9 }, n2))
        | .error e, _ => some (.error e)
        | _, .error e => some (.error e)
    | .error e, _ => some (.error e)
    | _, .error e => some (.error e)

/-- Whether `Bob::TestTrainingSet` counts the word `i` in `true_true`: the
delay that `Expose` returns lies in `[0, slots)` and equals the recorded delay
of the word (`src/bob.cc:68-69`). -/
def trainingHit (n : Neuron F) (words : Wordset) (i : Nat) : Bool :=
  match n.Expose (words.get_word (i : Int)) with
  | .error _ => false
  | .ok (slot, _) => decide (0 ≤ slot ∧ slot = words.delay (i : Int) ∧ slot < n.slots)

/-- Whether `Bob::TestTestSet` counts the word `w` in `false_true`: the delay
that `Expose` returns lies in `[0, slots)` (`src/bob.cc:99-100`). -/
def testHit (n : Neuron F) (w : Word) : Bool :=
  match n.Expose w with
  | .error _ => false
  | .ok (slot, _) => decide (0 ≤ slot ∧ slot < n.slots)

/-- The words that the calls number `j`, ..., `j + k - 1` of `test.Init()`
draw, in order (a call that stops on a fault draws none). -/
def drawn (draw : Nat → Except Fault Word) (j k : Nat) : List Word :=
  (List.range' j k).filterMap fun i =>
    match draw i with
    | .error _ => none
    | .ok w => some w

/-! ## The original simulator -/

/-- The data members of `cognon_orig::Neuron` (`src/cognon-orig.h:109-122`),
without the random generator.  The arrays are lists whose length is the
allocated size; `frozen` holds the values 0 and 1 as `false` and `true`. -/
structure OrigNeuron (F : Type) where
  l : Int
  delays : List Int
  containers : List Int
  frozen : List Bool
  sum : List F
  C : Int
  D1 : Int
  D2 : Int
  H : F
  Q : F
  R : Int
  Qafter : F
  deriving DecidableEq

/-- The data members of `cognon_orig::NeuronStrength`
(`src/cognon-orig.h:306-311`), a subclass of `cognon_orig::Neuron`. -/
structure OrigNeuronStrength (F : Type) extends OrigNeuron F where
  G_m : F
  H_m : F
  strength : List F
  deriving DecidableEq

/-- The accessor `slots()` (`src/cognon-orig.h:151`): the sum `D1 + D2`,
taken in the integers.  It is the value of the `int` sum of the code when the
sum is an `int` value; the theorems on the original simulator are stated for
`D1 + D2 <= kDisabled = 2^29`, where it is. -/
def OrigNeuron.slots (o : OrigNeuron F) : Int := o.D1 + o.D2

/-- The function `copy_word` of the replay test (`src/neuron_test.cc:94-102`):
the sparse copy of the dense word `values` of `N` entries. -/
def copy_word (max_delay N : Int) (values : List Int) : Word :=
  (List.range N.toNat).filterMap fun i =>
    if 0 ≤ values.getD i 0 ∧ values.getD i 0 < max_delay then some ((i : Int), values.getD i 0)
    else none

/-- The loop over the synapses for one delay slot `d` in the two `train`
functions (`src/cognon-orig.h:209-214` and `358-363`): `k` synapses remain, `i`
is the loop index, `weight i` is what an aligned synapse `i` adds to the sum of
its container (`1.0` in `Neuron`, `strength[i]` in `NeuronStrength`; `none`
when `strength[i]` is outside the array).  An access outside an array is
undefined behaviour. -/
def origAccumulate (delays containers word : List Int) (weight : Nat → Option F) (d : Int) :
    Nat → Nat → List F → Except Fault (List F)
  | 0, _, sum => .ok sum
  | k + 1, i, sum =>
    if ¬ (i < delays.length ∧ i < word.length) then .error .undefined
    else if delays.getD i 0 + word.getD i 0 = d then
      match weight i with
      | none => .error .undefined
      | some x =>
        if ¬ (i < containers.length ∧ 0 ≤ containers.getD i 0 ∧
            containers.getD i 0 < (sum.length : Int)) then .error .undefined
        else
          origAccumulate delays containers word weight d k (i + 1)
            (sum.set (containers.getD i 0).toNat
              (sum.getD (containers.getD i 0).toNat 0 + x))
    else origAccumulate delays containers word weight d k (i + 1) sum

/-- The scan of the containers in the two `train` functions
(`src/cognon-orig.h:217-235` and `366-387`): the first container whose sum
reaches the threshold `thr`, if any. -/
def origFired (C : Int) (thr : F) (sum : List F) : Option Nat :=
  (List.range C.toNat).find? fun i => decide (thr ≤ sum.getD i 0 + kEpsilon)

/-- The loop over the delay slots in the two `train` functions
(`src/cognon-orig.h:201-236` and `350-388`): `k` slots remain, `d` is the
current one (`offset` is the constant 0, so `d == _d`).  The loop stops at the
first slot in which a container fires; the result is that slot with the first
container that fired, or `none`, and the sums. -/
def origSlots (l C : Int) (delays containers word : List Int) (weight : Nat → Option F)
    (thr : F) : Nat → Int → List F → Except Fault (Option (Int × Nat) × List F)
  | 0, _, sum => .ok (none, sum)
  | k + 1, d, sum =>
    if ¬ (C ≤ (sum.length : Int)) then .error .undefined
    else
      match origAccumulate delays containers word weight d l.toNat 0 (clearSums C sum) with
      | .error e => .error e
      | .ok sum1 =>
        match origFired C thr sum1 with
        | some i => .ok (some (d, i), sum1)
        | none => origSlots l C delays containers word weight thr k (d + 1) sum1

/-- The loop that freezes the synapses which contributed to the firing of the
container `i` in slot `d` (`src/cognon-orig.h:228-231` and `378-383`): `k`
synapses remain, `j` is the loop index.  With `g = some G_m` the strength of
the synapse is set too (`NeuronStrength`). -/
def origFreeze (delays containers word : List Int) (d i : Int) (g : Option F) :
    Nat → Nat → List Bool × List F → Except Fault (List Bool × List F)
  | 0, _, st => .ok st
  | k + 1, j, (frozen, strength) =>
    if ¬ (j < delays.length ∧ j < word.length) then .error .undefined
    else if delays.getD j 0 + word.getD j 0 = d then
      if ¬ (j < containers.length) then .error .undefined
      else if containers.getD j 0 = i then
        match g with
        | none =>
          if ¬ (j < frozen.length) then .error .undefined
          else origFreeze delays containers word d i g k (j + 1) (frozen.set j true, strength)
        | some x =>
          if ¬ (j < frozen.length ∧ j < strength.length) then .error .undefined
          else
            origFreeze delays containers word d i g k (j + 1)
              (frozen.set j true, strength.set j x)
      else origFreeze delays containers word d i g k (j + 1) (frozen, strength)
    else origFreeze delays containers word d i g k (j + 1) (frozen, strength)

/-- The function `cognon_orig::Neuron::train` (`src/cognon-orig.h:194-239`):
the value returned and the neuron afterwards. -/
def OrigNeuron.train (o : OrigNeuron F) (word : List Int) (do_freeze : Bool) :
    Except Fault (Int × OrigNeuron F) :=
  match origSlots o.l o.C o.delays o.containers word (fun _ => some 1) o.H o.slots.toNat 0
      o.sum with
  | .error e => .error e
  | .ok (none, sum1) => .ok (kDisabled, { o with sum := sum1 })
  | .ok (some (d, i), sum1) =>
    if do_freeze then
      match origFreeze o.delays o.containers word d (i : Int) (none : Option F) o.l.toNat 0
          (o.frozen, []) with
      | .error e => .error e
      | .ok (frozen1, _) => .ok (d, { o with sum := sum1, frozen := frozen1 })
    else .ok (d, { o with sum := sum1 })

/-- The function `cognon_orig::NeuronStrength::train`
(`src/cognon-orig.h:343-391`): the threshold is `H` when `do_freeze` is set and
`H_m` otherwise. -/
def OrigNeuronStrength.train (o : OrigNeuronStrength F) (word : List Int) (do_freeze : Bool) :
    Except Fault (Int × OrigNeuronStrength F) :=
  match origSlots o.l o.C o.delays o.containers word (fun i => o.strength[i]?)
      (if do_freeze then o.H else o.H_m) o.slots.toNat 0 o.sum with
  | .error e => .error e
  | .ok (none, sum1) => .ok (kDisabled, { o with sum := sum1 })
  | .ok (some (d, i), sum1) =>
    if do_freeze then
      match origFreeze o.delays o.containers word d (i : Int) (some o.G_m) o.l.toNat 0
          (o.frozen, o.strength) with
      | .error e => .error e
      | .ok (frozen1, strength1) =>
        .ok (d, { o with sum := sum1, frozen := frozen1, strength := strength1 })
    else .ok (d, { o with sum := sum1 })

/-- The loop of `cognon_orig::Neuron::clean` (`src/cognon-orig.h:247-253`):
`k` synapses remain, `i` is the loop index, the pair is `count` and the
delays. -/
def origCleanLoop (frozen : List Bool) : Nat → Nat → Int × List Int → Except Fault (Int × List Int)
  | 0, _, st => .ok st
  | k + 1, i, (count, delays) =>
    if ¬ (i < frozen.length) then .error .undefined
    else if frozen.getD i false then origCleanLoop frozen k (i + 1) (count + 1, delays)
    else if ¬ (i < delays.length) then .error .undefined
    else origCleanLoop frozen k (i + 1) (count, delays.set i kDisabled)

/-- The function `cognon_orig::Neuron::clean` (`src/cognon-orig.h:242-255`). -/
def OrigNeuron.clean (o : OrigNeuron F) : Except Fault (OrigNeuron F) :=
  match origCleanLoop o.frozen o.l.toNat 0 (0, o.delays) with
  | .error e => .error e
  | .ok (count, delays1) =>
    .ok { o with
            delays := delays1
            Qafter := DoubleModel.ofInt count
              / (DoubleModel.ofInt o.C * o.H * DoubleModel.ofInt o.R) }

/-- The loop of `cognon_orig::NeuronStrength::clean`
(`src/cognon-orig.h:399-403`). -/
def origCountLoop (frozen : List Bool) : Nat → Nat → Int → Except Fault Int
  | 0, _, count => .ok count
  | k + 1, i, count =>
    if ¬ (i < frozen.length) then .error .undefined
    else if frozen.getD i false then origCountLoop frozen k (i + 1) (count + 1)
    else origCountLoop frozen k (i + 1) count

/-- The function `cognon_orig::NeuronStrength::clean`
(`src/cognon-orig.h:394-405`). -/
def OrigNeuronStrength.clean (o : OrigNeuronStrength F) : Except Fault (OrigNeuronStrength F) :=
  match origCountLoop o.frozen o.l.toNat 0 0 with
  | .error e => .error e
  | .ok count =>
    .ok { o with
            Qafter := DoubleModel.ofInt count
              / (DoubleModel.ofInt o.C * o.H * DoubleModel.ofInt o.R) }

/-- The calls `train(w_1, 1)`, ..., `train(w_n, 1)` on a `cognon_orig::Neuron`
in order, as made by the replay test (`src/neuron_test.cc:201-208`). -/
def origTrainEach : List (List Int) → OrigNeuron F → Except Fault (List Int × OrigNeuron F)
  | [], o => .ok ([], o)
  | w :: ws, o =>
    match o.train w true with
    | .error e => .error e
    | .ok (d, o1) =>
      match origTrainEach ws o1 with
      | .error e => .error e
      | .ok (ds, o2) => .ok (d :: ds, o2)

/-- The calls `train(w_1, 1)`, ..., `train(w_n, 1)` on a
`cognon_orig::NeuronStrength` in order. -/
def origStrengthTrainEach :
    List (List Int) → OrigNeuronStrength F → Except Fault (List Int × OrigNeuronStrength F)
  | [], o => .ok ([], o)
  | w :: ws, o =>
    match o.train w true with
    | .error e => .error e
    | .ok (d, o1) =>
      match origStrengthTrainEach ws o1 with
      | .error e => .error e
      | .ok (ds, o2) => .ok (d :: ds, o2)

/-- A dense word for a neuron with `l` synapses and `D1` input delays: `l`
entries, each `kDisabled` or in `[0, D1)` (`src/cognon-orig.h:476-481`). -/
def DenseWord (l D1 : Int) (w : List Int) : Prop :=
  (w.length : Int) = l ∧ ∀ x ∈ w, x = kDisabled ∨ (0 ≤ x ∧ x < D1)

instance (l D1 : Int) (w : List Int) : Decidable (DenseWord l D1 w) := by
  unfold DenseWord; infer_instance

/-- Corresponding states of the original and the new neuron: same size, same
numbers of containers and delays, same delay and container for every synapse,
arrays of the sizes that `initialize` and `Init` allocate, every container in
`[0, C)` and no negative delay (a delay is in `[0, D2)` or `kDisabled`). -/
def Corresponds (o : OrigNeuron F) (n : Neuron F) : Prop :=
  o.l = n.length ∧ o.C = n.C ∧ o.D1 = n.D1 ∧ o.D2 = n.D2 ∧
  o.delays = n.delays ∧ o.containers = n.containers ∧
  (o.sum.length : Int) = o.C ∧ (o.frozen.length : Int) = o.l ∧ Consistent n ∧
  ContainersInRange n ∧ ∀ x ∈ n.delays, 0 ≤ x

instance (o : OrigNeuron F) (n : Neuron F) : Decidable (Corresponds o n) := by
  unfold Corresponds; infer_instance

/-- At most one container reaches the threshold in the delay slot `d`:
`H <= S(c,d) + 1e-6` holds for one `c` in `[0, C)` at most. -/
def SingleFire (n : Neuron F) (word : Word) (d : Int) : Prop :=
  ∀ c1 ∈ List.range n.C.toNat, ∀ c2 ∈ List.range n.C.toNat,
    n.H ≤ specSum n word (c1 : Int) d + kEpsilon →
    n.H ≤ specSum n word (c2 : Int) d + kEpsilon → c1 = c2

instance (n : Neuron F) (word : Word) (d : Int) : Decidable (SingleFire n word d) :=
  inferInstanceAs (Decidable (∀ c1 ∈ List.range n.C.toNat, ∀ c2 ∈ List.range n.C.toNat,
    n.H ≤ specSum n word (c1 : Int) d + kEpsilon →
    n.H ≤ specSum n word (c2 : Int) d + kEpsilon → c1 = c2))

/-- In the calls `Train(w_1)`, ..., `Train(w_n)` made in order on the neuron,
every call that fires does so in a slot in which a single container reaches
the threshold. -/
def singleFireRun : List Word → Neuron F → Bool
  | [], _ => true
  | w :: ws, n =>
    match n.Train w with
    | .error _ => true
    | .ok (d, n1) => decide (d = kDisabled ∨ SingleFire n w d) && singleFireRun ws n1

/-! ## Statistic and Histogram -/

/-- The class `Statistic` (`src/trunk/compat.h:345-387`).  Each
`VALUE_PARAMETER` is a value with a presence flag, here an `Option`: the flag
is cleared only by `clear_...()`, which also sets the value to 0, so an absent
field reads as 0. -/
structure Statistic (F : Type) where
  count_ : Option Int
  sum_ : Option F
  ssum_ : Option F
  values_ : List F
  deriving DecidableEq

/-- The constructor `Statistic()` (`src/trunk/compat.h:361-368`). -/
def Statistic.empty : Statistic F := ⟨none, none, none, []⟩

/-- The accessor `has_count()`. -/
def Statistic.has_count (s : Statistic F) : Bool := s.count_.isSome

/-- The accessor `count()`. -/
def Statistic.count (s : Statistic F) : Int := s.count_.getD 0

/-- The accessor `has_sum()`. -/
def Statistic.has_sum (s : Statistic F) : Bool := s.sum_.isSome

/-- The accessor `sum()`. -/
def Statistic.sum (s : Statistic F) : F := s.sum_.getD 0

/-- The accessor `has_ssum()`. -/
def Statistic.has_ssum (s : Statistic F) : Bool := s.ssum_.isSome

/-- The accessor `ssum()`. -/
def Statistic.ssum (s : Statistic F) : F := s.ssum_.getD 0

/-- The accessor `values_size()`.  Where the code compares it with the
`int32` value `count()`, the count is converted to `size_t`; a negative count
then differs from every size, as it does on the integers. -/
def Statistic.values_size (s : Statistic F) : Int := (s.values_.length : Int)

/-- The first `CHECK` of `AddSample`, `Mean`, `Stddev` and `operator+=`
(`src/cognon.cc:34-36`, `52-54`, `65-67`, `88-93`). -/
def checkValues (s : Statistic F) : Prop :=
  (¬ s.has_count = true ∧ s.values_size = 0) ∨
    (s.has_count = true ∧ (s.values_size = 0 ∨ s.count = s.values_size))

instance (s : Statistic F) : Decidable (checkValues s) := by
  unfold checkValues; infer_instance

/-- The second `CHECK` of `AddSample`, `Mean`, `Stddev` and `operator+=`
(`src/cognon.cc:37-39`, `55-57`, `68-70`, `94-99`). -/
def checkSums (s : Statistic F) : Prop :=
  ¬ s.has_count = true ∨ s.count = 0 ∨
    (0 < s.count ∧ s.has_sum = true ∧ s.has_ssum = true)

instance (s : Statistic F) : Decidable (checkSums s) := by
  unfold checkSums; infer_instance

/-- The largest `int32` value. -/
def int32Max : Int := 2147483647

/-- The function `AddSample(double, Statistic*)` (`src/cognon.cc:33-49`).
The increment `count() + 1` is an `int32` addition: its overflow is undefined
behaviour. -/
def AddSample (v : F) (stat : Statistic F) : Except Fault (Statistic F) :=
  if ¬ checkValues stat then .error .check
  else if ¬ checkSums stat then .error .check
  else if int32Max < stat.count + 1 then .error .undefined
  else
    .ok { count_ := some (stat.count + 1)
          sum_ := some (stat.sum + v)
          ssum_ := some (stat.ssum + v * v)
          values_ :=
            if ¬ stat.has_count = true ∨ stat.count = 0 ∨ stat.count = stat.values_size then
              stat.values_ ++ [v]
            else stat.values_ }

/-- The function `Mean` (`src/cognon.cc:51-62`). -/
def Mean (stat : Statistic F) : Except Fault F :=
  if ¬ checkValues stat then .error .check
  else if ¬ checkSums stat then .error .check
  else if stat.has_count = true ∧ stat.has_sum = true ∧ 0 < stat.count then
    .ok (stat.sum / DoubleModel.ofInt stat.count)
  else .ok (-1)

/-- The function `Stddev` (`src/cognon.cc:64-79`), with `sqrt` of `<math.h>`
as a parameter.  The product `count() * (count() - 1)` is an `int32`
multiplication, converted to `double` afterwards: its overflow is undefined
behaviour.  `a - b` is written `a + -b`. -/
def Stddev (sqrt : F → F) (stat : Statistic F) : Except Fault F :=
  if ¬ checkValues stat then .error .check
  else if ¬ checkSums stat then .error .check
  else if stat.has_count = true ∧ 1 < stat.count ∧ stat.has_sum = true ∧
      stat.has_ssum = true then
    if int32Max < stat.count * (stat.count - 1) then .error .undefined
    else
      let v : F := DoubleModel.ofInt stat.count * stat.ssum + -(stat.sum * stat.sum)
      let v1 : F := v / DoubleModel.ofInt (stat.count * (stat.count - 1))
      .ok (if 0 ≤ v1 then sqrt v1 else 0)
  else .ok (-1)

/-- The macro `PB_OPERATOR_PLUS(count)` in `operator+=`
(`src/cognon.cc:113-119`): an `int32` addition when both fields are present. -/
def plusCount (a b : Option Int) : Except Fault (Option Int) :=
  match a, b with
  | some x, some y =>
    if int32Max < x + y ∨ x + y < -2147483648 then .error .undefined else .ok (some (x + y))
  | none, some y => .ok (some y)
  | some x, none => .ok (some x)
  | none, none => .ok none

/-- The macro `PB_OPERATOR_PLUS` for the `double` fields `sum` and `ssum`
(`src/cognon.cc:113-121`). -/
def plusValue (a b : Option F) : Option F :=
  match a, b with
  | some x, some y => some (x + y)
  | none, some y => some y
  | some x, none => some x
  | none, none => none

/-- The function `operator+=(Statistic&, const Statistic&)`
(`src/cognon.cc:87-123`) for two distinct objects `a` and `b`: the value of
`a` afterwards. -/
def Statistic.plusAssign (a b : Statistic F) : Except Fault (Statistic F) :=
  if ¬ checkValues a then .error .check
  else if ¬ checkValues b then .error .check
  else if ¬ checkSums a then .error .check
  else if ¬ checkSums b then .error .check
  else
    match plusCount a.count_ b.count_ with
    | .error e => .error e
    | .ok c =>
      .ok { count_ := c
            sum_ := plusValue a.sum_ b.sum_
            ssum_ := plusValue a.ssum_ b.ssum_
            values_ :=
              if a.has_count = true ∧ 0 < a.count ∧ b.has_count = true ∧ 0 < b.count ∧
                  (a.count ≠ a.values_size ∨ b.count ≠ b.values_size) then []
              else a.values_ ++ b.values_ }

/-- The function `operator+(const Statistic&, const Statistic&)`
(`src/cognon.cc:81-85`): `operator+=` on a copy of `a`. -/
def Statistic.plus (a b : Statistic F) : Except Fault (Statistic F) :=
  a.plusAssign b

/-- The function `StatisticStripValues` (`src/cognon.cc:208-210`). -/
def StatisticStripValues (stat : Statistic F) : Statistic F :=
  { stat with values_ := [] }

/-- The calls `AddSample(v_1, &stat)`, ..., `AddSample(v_n, &stat)` in
order. -/
def addSamples : List F → Statistic F → Except Fault (Statistic F)
  | [], stat => .ok stat
  | v :: vs, stat =>
    match AddSample v stat with
    | .error e => .error e
    | .ok stat1 => addSamples vs stat1

/-- The class `Histogram` (`src/trunk/compat.h:394-417`). -/
structure Histogram (F : Type) where
  values_ : List (Statistic F)
  deriving DecidableEq

/-- The constructor `Histogram()` (`src/trunk/compat.h:399-405`). -/
def Histogram.empty : Histogram F := ⟨[]⟩

/-- The accessor `values_size()` of a histogram. -/
def Histogram.values_size (h : Histogram F) : Int := (h.values_.length : Int)

/-- The accessor `values(i)` of a histogram, for `i` inside the vector. -/
def Histogram.values (h : Histogram F) (i : Nat) : Statistic F :=
  h.values_.getD i Statistic.empty

/-- The function `AddSample(int32, double, Histogram*)`
(`src/cognon.cc:125-131`): empty buckets are added up to `bucket`, then the
sample is added to that bucket.  A negative `bucket` is an access outside the
vector. -/
def Histogram.AddSample (bucket : Int) (v : F) (hist : Histogram F) :
    Except Fault (Histogram F) :=
  let values1 :=
    hist.values_ ++ List.replicate (bucket + 1 - hist.values_size).toNat Statistic.empty
  if ¬ (0 ≤ bucket ∧ bucket < (values1.length : Int)) then .error .undefined
  else
    match Cognon.AddSample v (values1.getD bucket.toNat Statistic.empty) with
    | .error e => .error e
    | .ok s => .ok ⟨values1.set bucket.toNat s⟩

/-- The loop of `SetHistogram` (`src/cognon.cc:134-136`), from the last
index down to 0: `k` iterations remain, the current index is `k - 1`. -/
def setHistogramLoop (data : List Int) : Nat → Histogram F → Except Fault (Histogram F)
  | 0, h => .ok h
  | k + 1, h =>
    match Histogram.AddSample (k : Int) (DoubleModel.ofInt (data.getD k 0)) h with
    | .error e => .error e
    | .ok h1 => setHistogramLoop data k h1

/-- The function `SetHistogram` (`src/cognon.cc:133-137`). -/
def SetHistogram (data : List Int) (result : Histogram F) : Except Fault (Histogram F) :=
  setHistogramLoop data data.length result

/-- The loops `for (j = 0; j < count; ++j) AddSample(0.0, s)` of the
histogram `operator+=` (`src/cognon.cc:155-157` and `162-164`): `k`
iterations remain. -/
def addZeros : Nat → Statistic F → Except Fault (Statistic F)
  | 0, s => .ok s
  | k + 1, s =>
    match AddSample 0 s with
    | .error e => .error e
    | .ok s1 => addZeros k s1

/-- The first loop of the histogram `operator+=` (`src/cognon.cc:150-160`),
over the buckets of `b`: the list holds the buckets of `b` from index `i` on,
`a` is the current bucket vector of the left operand. -/
def histMergeLoop (a_count : Int) :
    List (Statistic F) → Nat → List (Statistic F) → Except Fault (List (Statistic F))
  | [], _, a => .ok a
  | bi :: rest, i, a =>
    if i < a.length then
      match (a.getD i Statistic.empty).plusAssign bi with
      | .error e => .error e
      | .ok s => histMergeLoop a_count rest (i + 1) (a.set i s)
    else
      match addZeros a_count.toNat Statistic.empty with
      | .error e => .error e
      | .ok s0 =>
        if ¬ (i < (a ++ [s0]).length) then .error .undefined
        else
          match ((a ++ [s0]).getD i Statistic.empty).plusAssign bi with
          | .error e => .error e
          | .ok s => histMergeLoop a_count rest (i + 1) ((a ++ [s0]).set i s)

/-- The second loop of the histogram `operator+=` (`src/cognon.cc:161-165`):
`k` buckets remain, `i` is the loop index. -/
def histPadLoop (b_count : Int) :
    Nat → Nat → List (Statistic F) → Except Fault (List (Statistic F))
  | 0, _, a => .ok a
  | k + 1, i, a =>
    match addZeros b_count.toNat (a.getD i Statistic.empty) with
    | .error e => .error e
    | .ok s => histPadLoop b_count k (i + 1) (a.set i s)

/-- The count of bucket 0, or 0 for a histogram without buckets
(`src/cognon.cc:147-148`). -/
def Histogram.firstCount (h : Histogram F) : Int :=
  if 0 < h.values_size then (h.values 0).count else 0

/-- The function `operator+=(Histogram&, const Histogram&)`
(`src/cognon.cc:145-167`) for two distinct objects `a` and `b`: the value of
`a` afterwards. -/
def Histogram.plusAssign (a b : Histogram F) : Except Fault (Histogram F) :=
  match histMergeLoop a.firstCount b.values_ 0 a.values_ with
  | .error e => .error e
  | .ok a1 =>
    match histPadLoop b.firstCount (a1.length - b.values_.length) b.values_.length a1 with
    | .error e => .error e
    | .ok a2 => .ok ⟨a2⟩

/-- The function `operator+(const Histogram&, const Histogram&)`
(`src/cognon.cc:139-143`): `operator+=` on a copy of `a`. -/
def Histogram.plus (a b : Histogram F) : Except Fault (Histogram F) :=
  a.plusAssign b

/-- The statistics that can be built from an empty `Statistic` with
`AddSample`, `operator+=`, `operator+` and `StatisticStripValues`. -/
inductive Reachable : Statistic F → Prop
  | empty : Reachable Statistic.empty
  | addSample (v : F) (s s1 : Statistic F) :
      Reachable s → AddSample v s = .ok s1 → Reachable s1
  | plusAssign (a b r : Statistic F) :
      Reachable a → Reachable b → a.plusAssign b = .ok r → Reachable r
  | plus (a b r : Statistic F) :
      Reachable a → Reachable b → a.plus b = .ok r → Reachable r
  | strip (s : Statistic F) : Reachable s → Reachable (StatisticStripValues s)

/-- The list of values of a statistic is complete: it has `count()`
entries. -/
def Statistic.complete (s : Statistic F) : Prop := s.count = s.values_size

instance (s : Statistic F) : Decidable s.complete := by
  unfold Statistic.complete; infer_instance

/-! ## Generation of wordsets -/

/-- Conversion of an `int32` to `uint64` (value modulo `2^64`), as in
`scratch % num_delays_`. -/
def toUInt64 (x : Int) : Nat := (x % 18446744073709551616).toNat

/-- The state of the bit source of `Wordset::InitOrig`
(`src/wordset.cc:95-97`): `valid_bits`, `scratch`, and the number `pos` of
calls of `Rand64()` made so far. -/
structure Scratch where
  valid_bits : Int
  scratch : Nat
  pos : Nat
  deriving DecidableEq

/-- The macro `RANDOM_UPDATE` (`src/wordset.cc:99-105`).  `rand64 p` is the
value that the call number `p` of `random_->Rand64()` returns; `scratch` is a
`uint64`, so the left shift is taken modulo `2^64`. -/
def randomUpdate (rand64 : Nat → Nat) (nbits : Int) (st : Scratch) : Scratch :=
  if st.valid_bits - nbits ≤ nbits + 3 then
    ⟨64, rand64 st.pos % 18446744073709551616, st.pos + 1⟩
  else
    ⟨st.valid_bits - nbits,
      Nat.xor (st.scratch >>> nbits.toNat)
        ((st.scratch <<< (61 - nbits).toNat) % 18446744073709551616),
      st.pos⟩

/-- The loop that counts the bits of `max(refractory_period_, num_delays_)`
(`src/wordset.cc:108-109`): `k` bounds the iterations, 32 for a `uint32`. -/
def countBits : Nat → Nat → Int → Int
  | 0, _, nbits => nbits
  | k + 1, tmp, nbits => if tmp = 0 then nbits else countBits k (tmp >>> 1) (nbits + 1)

/-- The loop over the synapses of one word in `Wordset::InitOrig`
(`src/wordset.cc:127-134`): `k` synapses remain, `j` is the loop index. The
delay `scratch % num_delays_` is computed on `uint64` and stored in an
`int32`; for `num_delays_ == 0` it is a division by zero. -/
def origWordLoop (rand64 : Nat → Nat) (refractory_period num_delays nbits : Int) :
    Nat → Int → Scratch → Word → Except Fault (Word × Scratch)
  | 0, _, st, word => .ok (word, st)
  | k + 1, j, st, word =>
    if (randomUpdate rand64 nbits st).scratch % toUInt64 refractory_period = 0 then
      if toUInt64 num_delays = 0 then .error .undefined
      else
        origWordLoop rand64 refractory_period num_delays nbits k (j + 1)
          (randomUpdate rand64 nbits (randomUpdate rand64 nbits st))
          (word ++ [(j, toInt32
            ((randomUpdate rand64 nbits (randomUpdate rand64 nbits st)).scratch
              % toUInt64 num_delays))])
    else
      origWordLoop rand64 refractory_period num_delays nbits k (j + 1)
        (randomUpdate rand64 nbits st) word

/-- The loop over the words in `Wordset::InitOrig` (`src/wordset.cc:123-135`):
`k` words remain, `i` is the loop index. -/
def origWordsLoop (rand64 : Nat → Nat) (word_length refractory_period num_delays nbits : Int) :
    Nat → Nat → Scratch → List Word → List Int → Except Fault (List Word × List Int × Scratch)
  | 0, _, st, words, delays => .ok (words, delays, st)
  | k + 1, i, st, words, delays =>
    match origWordLoop rand64 refractory_period num_delays nbits word_length.toNat 0 st [] with
    | .error e => .error e
    | .ok (word, st1) =>
      origWordsLoop rand64 word_length refractory_period num_delays nbits k (i + 1) st1
        (words.set i word) (delays.set i kDisabled)

/-- The function `Wordset::InitOrig` (`src/wordset.cc:89-137`), called with
`0 < refractory_period_` only: the wordset afterwards and the number of calls
of `Rand64()` made so far, `p` before the call.  A negative `num_words_`
differs from every size as a `size_t`, and `resize` then throws
`std::length_error`. -/
def Wordset.InitOrig (rand64 : Nat → Nat) (p : Nat) (w : Wordset) :
    Except Fault (Wordset × Nat) :=
  if w.num_words < 0 then .error .lengthError
  else
    match origWordsLoop rand64 w.word_length w.refractory_period w.num_delays
        (countBits 32 (toUInt32 (max w.refractory_period w.num_delays)) 0)
        w.num_words.toNat 0 ⟨64, rand64 p % 18446744073709551616, p + 1⟩
        (resize w.words w.num_words.toNat []) (resize w.delays w.num_words.toNat 0) with
    | .error e => .error e
    | .ok (words1, delays1, st) => .ok ({ w with words := words1, delays := delays1 }, st.pos)

/-- The loop `while (active.find(k = Rand64() % word_length_) != active.end())`
of `Wordset::InitFixed` (`src/wordset.cc:151`), which has no bound: with
`fuel` draws at most, the synapse found and the number of calls of `Rand64()`
made so far; `none` when the fuel runs out. -/
def fixedDraw (rand64 : Nat → Nat) (word_length : Int) (active : List Int) :
    Nat → Nat → Option (Int × Nat)
  | 0, _ => none
  | fuel + 1, p =>
    if toInt32 ((rand64 p % 18446744073709551616) % toUInt64 word_length) ∈ active then
      fixedDraw rand64 word_length active fuel (p + 1)
    else some (toInt32 ((rand64 p % 18446744073709551616) % toUInt64 word_length), p + 1)

/-- The loop over the active synapses of one word in `Wordset::InitFixed`
(`src/wordset.cc:149-156`): `k` entries remain. -/
def fixedWordLoop (rand64 : Nat → Nat) (word_length num_delays : Int) (fuel : Nat) :
    Nat → Nat → List Int → Word → Option (Except Fault (Word × Nat))
  | 0, p, _, word => some (.ok (word, p))
  | k + 1, p, active, word =>
    match fixedDraw rand64 word_length active fuel p with
    | none => none
    | some (s, p1) =>
      if toUInt64 num_delays = 0 then some (.error .undefined)
      else
        fixedWordLoop rand64 word_length num_delays fuel k (p1 + 1) (active ++ [s])
          (word ++ [(s, toInt32 ((rand64 p1 % 18446744073709551616) % toUInt64 num_delays))])

/-- The order `operator<` of `std::pair<int32, int32>` that `std::sort` uses,
as a non-strict relation. -/
def pairLe (a b : Int × Int) : Prop := a.1 < b.1 ∨ (a.1 = b.1 ∧ a.2 ≤ b.2)

instance : DecidableRel pairLe := fun a b => by
  unfold pairLe; infer_instance

/-- The loop over the words in `Wordset::InitFixed`
(`src/wordset.cc:145-158`): `k` words remain, `i` is the loop index. -/
def fixedWordsLoop (rand64 : Nat → Nat) (word_length num_delays num_active : Int) (fuel : Nat) :
    Nat → Nat → Nat → List Word → List Int → Option (Except Fault (List Word × List Int × Nat))
  | 0, _, p, words, delays => some (.ok (words, delays, p))
  | k + 1, i, p, words, delays =>
    match fixedWordLoop rand64 word_length num_delays fuel num_active.toNat p [] [] with
    | none => none
    | some (.error e) => some (.error e)
    | some (.ok (word, p1)) =>
      fixedWordsLoop rand64 word_length num_delays num_active fuel k (i + 1) p1
        (words.set i (word.insertionSort pairLe)) (delays.set i kDisabled)

/-- The function `Wordset::InitFixed` (`src/wordset.cc:139-159`). -/
def Wordset.InitFixed (rand64 : Nat → Nat) (fuel : Nat) (p : Nat) (w : Wordset) :
    Option (Except Fault (Wordset × Nat)) :=
  if w.num_words < 0 then some (.error .lengthError)
  else if ¬ (0 < w.num_active ∧ w.num_active < w.word_length) then some (.error .check)
  else
    match fixedWordsLoop rand64 w.word_length w.num_delays w.num_active fuel
        w.num_words.toNat 0 p
        (resize w.words w.num_words.toNat []) (resize w.delays w.num_words.toNat 0) with
    | none => none
    | some (.error e) => some (.error e)
    | some (.ok (words1, delays1, p1)) =>
      some (.ok ({ w with words := words1, delays := delays1 }, p1))

/-- The function `Wordset::Init` (`src/wordset.cc:82-87`). -/
def Wordset.Init (rand64 : Nat → Nat) (fuel : Nat) (p : Nat) (w : Wordset) :
    Option (Except Fault (Wordset × Nat)) :=
  if ¬ (0 < w.refractory_period ∨ 0 < w.num_active) then some (.error .check)
  else if 0 < w.refractory_period then some (w.InitOrig rand64 p)
  else w.InitFixed rand64 fuel p

/-- The function `Wordset::Config` (`src/wordset.cc:56-64`). -/
def Wordset.Config (rand64 : Nat → Nat) (fuel : Nat) (p : Nat) (w : Wordset)
    (num_words word_length num_delays refractory_period : Int) :
    Option (Except Fault (Wordset × Nat)) :=
  Wordset.Init rand64 fuel p
    { w with
        num_words := num_words
        word_length := word_length
        num_delays := num_delays
        refractory_period := refractory_period }

/-- The function `Wordset::ConfigFixed` (`src/wordset.cc:66-70`). -/
def Wordset.ConfigFixed (rand64 : Nat → Nat) (fuel : Nat) (p : Nat) (w : Wordset)
    (num_words word_length num_delays num_active : Int) :
    Option (Except Fault (Wordset × Nat)) :=
  Wordset.Config rand64 fuel p { w with num_active := num_active }
    num_words word_length num_delays (-1)

/-- The function `Wordset::set_size` (`src/wordset.cc:161-164`). -/
def Wordset.set_size (rand64 : Nat → Nat) (fuel : Nat) (p : Nat) (w : Wordset)
    (num_words : Int) : Option (Except Fault (Wordset × Nat)) :=
  Wordset.Init rand64 fuel p { w with num_words := num_words }

/-- The constructor `Wordset()` (`src/wordset.cc:51-54`). -/
def Wordset.new : Wordset := ⟨-1, -1, -1, -1, -1, [], []⟩

/-- The integer nearest to `m`, the even one of the two when `m` lies half way
between them: the rounding of the significand in the default rounding mode of
IEEE 754 arithmetic. -/
def roundHalfEven (m : ℚ) : ℤ :=
  if m - (⌊m⌋ : ℚ) < 1 / 2 then ⌊m⌋
  else if 1 / 2 < m - (⌊m⌋ : ℚ) then ⌊m⌋ + 1
  else if ⌊m⌋ % 2 = 0 then ⌊m⌋ else ⌊m⌋ + 1

/-- The exponent of the last place of a positive value `x` in a format with 53
significant bits: `2 ^ (binade x + 52) ≤ x < 2 ^ (binade x + 53)`. -/
def binade (x : ℚ) : ℤ := Int.log 2 x - 52

/-- A positive value rounded to 53 significant bits. -/
def roundPos (x : ℚ) : ℚ := (roundHalfEven (x / 2 ^ binade x) : ℚ) * 2 ^ binade x

/-- The rounding of a real result to the type `double` (IEEE 754 binary64: 53
significant bits, round to nearest, ties to even).  The range of the exponent
is left unbounded: neither overflow to an infinity nor the subnormal numbers
are part of the model. -/
def round53 (q : ℚ) : ℚ :=
  if 0 < q then roundPos q else if q < 0 then -roundPos (-q) else 0

/-- The laws of a rounding function that the arithmetic of `Binary64` rests
on: a rounded value is kept, and rounding is monotone and odd. -/
class Rounding (r : ℚ → ℚ) : Prop where
  /-- A rounded value is kept by rounding. -/
  idem : ∀ q, r (r q) = r q
  /-- Rounding is monotone. -/
  mono : ∀ x y, x ≤ y → r x ≤ r y
  /-- Rounding is odd. -/
  neg : ∀ q, r (-q) = -r q

/-- Rounding to 53 significant bits keeps the laws of rounding. -/
instance instRoundingRound53 : Rounding round53 := by
  have rhe_bounds : ∀ (m : ℚ),
      ⌊m⌋ ≤ roundHalfEven m ∧ roundHalfEven m ≤ ⌊m⌋ + 1 := by
    intro m
    unfold roundHalfEven
    split
    · omega
    · split
      · omega
      · split <;> omega
  have rhe_int : ∀ (z : ℤ),
      roundHalfEven (z : ℚ) = z := by
    intro z
    unfold roundHalfEven
    rw [Int.floor_intCast, sub_self, if_pos (by norm_num)]
  have rhe_mono : ∀ (m n : ℚ) (h : m ≤ n),
      roundHalfEven m ≤ roundHalfEven n := by
    intro m n h
    have hf : ⌊m⌋ ≤ ⌊n⌋ := Int.floor_mono h
    rcases lt_or_eq_of_le hf with hlt | heq
    · have := (rhe_bounds m).2
      have := (rhe_bounds n).1
      omega
    · unfold roundHalfEven
      rw [← heq]
      have hfr : m - (⌊m⌋ : ℚ) ≤ n - (⌊m⌋ : ℚ) := by linarith
      by_cases h1 : n - (⌊m⌋ : ℚ) < 1 / 2
      · rw [if_pos h1, if_pos (lt_of_le_of_lt hfr h1)]
      · rw [if_neg h1]
        by_cases h2 : 1 / 2 < n - (⌊m⌋ : ℚ)
        · rw [if_pos h2]
          split
          · omega
          · split
            · omega
            · split <;> omega
        · rw [if_neg h2]
          have hn : n - (⌊m⌋ : ℚ) = 1 / 2 := le_antisymm (not_lt.1 h2) (not_lt.1 h1)
          by_cases h3 : m - (⌊m⌋ : ℚ) < 1 / 2
          · rw [if_pos h3]
            split <;> omega
          · rw [if_neg h3, if_neg (by linarith)]
  have binade_spec : ∀ (x : ℚ) (hx : 0 < x),
      (2 : ℚ) ^ (binade x + 52) ≤ x ∧ x < (2 : ℚ) ^ (binade x + 53) := by
    intro x hx
    unfold binade
    have h1 := Int.zpow_log_le_self (b := 2) (by norm_num) hx
    have h2 := Int.lt_zpow_succ_log_self (b := 2) (by norm_num) x
    simp only [Nat.cast_ofNat] at h1 h2
    constructor
    · rw [sub_add_cancel]
      exact h1
    · have : Int.log 2 x - 52 + 53 = Int.log 2 x + 1 := by ring
      rw [this]
      exact h2
  have binade_unique : ∀ (x : ℚ) (hx : 0 < x) (k : ℤ)
      (h1 : (2 : ℚ) ^ (k + 52) ≤ x) (h2 : x < (2 : ℚ) ^ (k + 53)),
      binade x = k := by
    intro x hx k h1 h2
    unfold binade
    have a1 := (Int.zpow_le_iff_le_log (b := 2) (by norm_num) hx (x := k + 52)).1
      (by simpa using h1)
    have a2 := (Int.lt_zpow_iff_log_lt (b := 2) (by norm_num) hx (x := k + 53)).1
      (by simpa using h2)
    omega
  have mant_bounds : ∀ (x : ℚ) (hx : 0 < x),
      (2 : ℚ) ^ (52 : ℕ) ≤ x / 2 ^ binade x ∧ x / 2 ^ binade x < (2 : ℚ) ^ (53 : ℕ) := by
    intro x hx
    obtain ⟨h1, h2⟩ := binade_spec x hx
    have hp : (0 : ℚ) < 2 ^ binade x := zpow_pos (by norm_num) _
    rw [zpow_add₀ (by norm_num : (2 : ℚ) ≠ 0)] at h1 h2
    constructor
    · rw [le_div_iff₀ hp]
      have : (2 : ℚ) ^ (52 : ℤ) = 2 ^ (52 : ℕ) := by norm_cast
      rw [← this]
      linarith
    · rw [div_lt_iff₀ hp]
      have : (2 : ℚ) ^ (53 : ℤ) = 2 ^ (53 : ℕ) := by norm_cast
      rw [← this]
      linarith
  have rhe_mant : ∀ (x : ℚ) (hx : 0 < x),
      (2 : ℤ) ^ (52 : ℕ) ≤ roundHalfEven (x / 2 ^ binade x) ∧
        roundHalfEven (x / 2 ^ binade x) ≤ (2 : ℤ) ^ (53 : ℕ) := by
    intro x hx
    obtain ⟨h1, h2⟩ := mant_bounds x hx
    have a := rhe_mono ((2 : ℤ) ^ (52 : ℕ) : ℤ) (x / 2 ^ binade x) (by push_cast; exact h1)
    rw [rhe_int] at a
    have b := (rhe_bounds (x / 2 ^ binade x)).2
    have c : ⌊x / 2 ^ binade x⌋ < (2 : ℤ) ^ (53 : ℕ) := by
      rw [Int.floor_lt]
      push_cast
      exact h2
    exact ⟨a, by omega⟩
  have roundPos_pos : ∀ (x : ℚ) (hx : 0 < x),
      0 < roundPos x := by
    intro x hx
    unfold roundPos
    have := (rhe_mant x hx).1
    have hp : (0 : ℚ) < 2 ^ binade x := zpow_pos (by norm_num) _
    have : (0 : ℚ) < (roundHalfEven (x / 2 ^ binade x) : ℚ) := by
      have h2 : (0 : ℤ) < roundHalfEven (x / 2 ^ binade x) := by
        have : (0 : ℤ) < 2 ^ (52 : ℕ) := by norm_num
        omega
      exact_mod_cast h2
    positivity
  have roundPos_mono : ∀ (x y : ℚ) (hx : 0 < x) (h : x ≤ y),
      roundPos x ≤ roundPos y := by
    intro x y hx h
    have hy : 0 < y := lt_of_lt_of_le hx h
    have he : binade x ≤ binade y := by
      unfold binade
      have := Int.log_mono_right (b := 2) hx h
      omega
    unfold roundPos
    rcases lt_or_eq_of_le he with hlt | heq
    · have a := (rhe_mant x hx).2
      have b := (rhe_mant y hy).1
      have a' : (roundHalfEven (x / 2 ^ binade x) : ℚ) ≤ 2 ^ (53 : ℕ) := by exact_mod_cast a
      have b' : (2 : ℚ) ^ (52 : ℕ) ≤ (roundHalfEven (y / 2 ^ binade y) : ℚ) := by exact_mod_cast b
      have hpx : (0 : ℚ) < 2 ^ binade x := zpow_pos (by norm_num) _
      have hpy : (0 : ℚ) < 2 ^ binade y := zpow_pos (by norm_num) _
      calc (roundHalfEven (x / 2 ^ binade x) : ℚ) * 2 ^ binade x
          ≤ 2 ^ (53 : ℕ) * 2 ^ binade x := by gcongr
        _ = 2 ^ (binade x + 1) * 2 ^ (52 : ℕ) := by
            rw [zpow_add₀ (by norm_num : (2 : ℚ) ≠ 0)]
            ring
        _ ≤ 2 ^ binade y * 2 ^ (52 : ℕ) := by
            gcongr
            · norm_num
            · omega
        _ = 2 ^ (52 : ℕ) * 2 ^ binade y := by ring
        _ ≤ (roundHalfEven (y / 2 ^ binade y) : ℚ) * 2 ^ binade y := by gcongr
    · rw [← heq]
      have hpx : (0 : ℚ) < 2 ^ binade x := zpow_pos (by norm_num) _
      have hm : x / 2 ^ binade x ≤ y / 2 ^ binade x := by gcongr
      have := rhe_mono _ _ hm
      have h' : (roundHalfEven (x / 2 ^ binade x) : ℚ) ≤ (roundHalfEven (y / 2 ^ binade x) : ℚ) := by
        exact_mod_cast this
      gcongr
  have roundPos_of_binade : ∀ (x : ℚ) (hx : 0 < x) (k : ℤ)
      (h1 : (2 : ℚ) ^ (k + 52) ≤ x) (h2 : x < (2 : ℚ) ^ (k + 53)),
      roundPos x = (roundHalfEven (x / 2 ^ k) : ℚ) * 2 ^ k := by
    intro x hx k h1 h2
    unfold roundPos
    rw [binade_unique x hx k h1 h2]
  have roundPos_idem : ∀ (x : ℚ) (hx : 0 < x),
      roundPos (roundPos x) = roundPos x := by
    intro x hx
    obtain ⟨a, b⟩ := rhe_mant x hx
    have hp : (0 : ℚ) < 2 ^ binade x := zpow_pos (by norm_num) _
    have hpos := roundPos_pos x hx
    have hdef : roundPos x = (roundHalfEven (x / 2 ^ binade x) : ℚ) * 2 ^ binade x := rfl
    rcases lt_or_eq_of_le b with hlt | heq
    · rw [roundPos_of_binade (roundPos x) hpos (binade x)]
      · rw [hdef, mul_div_assoc, div_self (ne_of_gt hp), mul_one, rhe_int]
      · rw [hdef, zpow_add₀ (by norm_num : (2 : ℚ) ≠ 0), mul_comm]
        have : (2 : ℚ) ^ (52 : ℤ) ≤ (roundHalfEven (x / 2 ^ binade x) : ℚ) := by
          have : (2 : ℚ) ^ (52 : ℤ) = ((2 ^ (52 : ℕ) : ℤ) : ℚ) := by norm_cast
          rw [this]
          exact_mod_cast a
        gcongr
      · have h53 : (roundHalfEven (x / 2 ^ binade x) : ℚ) < (2 : ℚ) ^ (53 : ℤ) := by
          have : (2 : ℚ) ^ (53 : ℤ) = ((2 ^ (53 : ℕ) : ℤ) : ℚ) := by norm_cast
          rw [this]
          exact_mod_cast hlt
        have h54 := mul_lt_mul_of_pos_right h53 hp
        rw [hdef, zpow_add₀ (by norm_num : (2 : ℚ) ≠ 0), mul_comm (2 ^ binade x)]
        exact h54
    · have hval : roundPos x = 2 ^ (binade x + 53) := by
        rw [hdef, heq, zpow_add₀ (by norm_num : (2 : ℚ) ≠ 0)]
        push_cast
        have : (2 : ℚ) ^ (53 : ℤ) = 2 ^ (53 : ℕ) := by norm_cast
        rw [this]
        ring
      rw [roundPos_of_binade (roundPos x) hpos (binade x + 1)]
      · rw [hval]
        have e1 : (2 : ℚ) ^ (binade x + 53) / 2 ^ (binade x + 1) = ((2 ^ (52 : ℕ) : ℤ) : ℚ) := by
          rw [← zpow_sub₀ (by norm_num : (2 : ℚ) ≠ 0)]
          have : binade x + 53 - (binade x + 1) = 52 := by ring
          rw [this]
          norm_cast
        rw [e1, rhe_int]
        have e2 : (((2 : ℤ) ^ (52 : ℕ) : ℤ) : ℚ) = (2 : ℚ) ^ (52 : ℤ) := by norm_cast
        rw [e2, ← zpow_add₀ (by norm_num : (2 : ℚ) ≠ 0)]
        congr 1
        ring
      · rw [hval]
        have : binade x + 1 + 52 = binade x + 53 := by ring
        rw [this]
      · rw [hval]
        apply zpow_lt_zpow_right₀ (by norm_num)
        omega
  have round53_mono : ∀ (x y : ℚ) (h : x ≤ y),
      round53 x ≤ round53 y := by
    intro x y h
    unfold round53
    by_cases hx : 0 < x
    · have hy : 0 < y := lt_of_lt_of_le hx h
      rw [if_pos hx, if_pos hy]
      exact roundPos_mono x y hx h
    · rw [if_neg hx]
      by_cases hx2 : x < 0
      · rw [if_pos hx2]
        have hnx := roundPos_pos (-x) (by linarith)
        by_cases hy : 0 < y
        · rw [if_pos hy]
          have := roundPos_pos y hy
          linarith
        · rw [if_neg hy]
          by_cases hy2 : y < 0
          · rw [if_pos hy2]
            have := roundPos_mono (-y) (-x) (by linarith) (by linarith)
            linarith
          · rw [if_neg hy2]
            linarith
      · rw [if_neg hx2]
        by_cases hy : 0 < y
        · rw [if_pos hy]
          exact le_of_lt (roundPos_pos y hy)
        · rw [if_neg hy, if_neg (by linarith)]
  have round53_idem : ∀ (q : ℚ),
      round53 (round53 q) = round53 q := by
    intro q
    unfold round53
    by_cases hq : 0 < q
    · rw [if_pos hq, if_pos (roundPos_pos q hq)]
      exact roundPos_idem q hq
    · rw [if_neg hq]
      by_cases hq2 : q < 0
      · rw [if_pos hq2]
        have hp := roundPos_pos (-q) (by linarith)
        rw [if_neg (by linarith), if_pos (by linarith), neg_neg, roundPos_idem (-q) (by linarith)]
      · rw [if_neg hq2]
        simp
  have round53_neg : ∀ (q : ℚ),
      round53 (-q) = -round53 q := by
    intro q
    unfold round53
    by_cases hq : 0 < q
    · rw [if_pos hq, if_neg (by linarith), if_pos (by linarith), neg_neg]
    · rw [if_neg hq]
      by_cases hq2 : q < 0
      · rw [if_pos hq2, if_pos (by linarith), neg_neg]
      · rw [if_neg hq2, if_neg (by linarith), if_neg (by linarith), neg_zero]
  exact ⟨round53_idem, round53_mono, round53_neg⟩

/-- A value of the type `double`: a rational number that rounding to 53
significant bits keeps. -/
structure Binary64 where
  /-- The value as a rational number. -/
  val : ℚ
  /-- The value has at most 53 significant bits. -/
  rep : round53 val = val

/-- The `double` nearest to a rational number. -/
def Binary64.round (q : ℚ) : Binary64 := ⟨round53 q, Rounding.idem q⟩

/-- The order of `double` values is the order of their values. -/
instance instLinearOrderBinary64 : LinearOrder Binary64 :=
  LinearOrder.lift' (fun a : Binary64 => a.val) (fun a b h => by
    cases a
    cases b
    simp only at h
    subst h
    rfl)

/-- The arithmetic of the type `double`: every operation returns the exact
result rounded to 53 significant bits.  A division by zero, which the
arithmetic of `double` answers with an infinity or a NaN, is not part of the
model (it reads as 0). -/
instance instDoubleModelBinary64 : DoubleModel Binary64 where
  add := fun a b => Binary64.round (a.val + b.val)
  mul := fun a b => Binary64.round (a.val * b.val)
  div := fun a b => Binary64.round (a.val / b.val)
  neg := fun a => ⟨-a.val, by rw [Rounding.neg (r := round53), a.rep]⟩
  zero := Binary64.round 0
  one := Binary64.round 1
  ofInt := fun z => Binary64.round (z : ℚ)
  floor := fun x => ⌊x.val⌋
  kEpsilon := Binary64.round (1 / 1000000)
  add_mono_left := fun a b c h =>
    have h1 : a.val ≤ b.val := h
    Rounding.mono (r := round53) (a.val + c.val) (b.val + c.val) (add_le_add_right h1 c.val)
  le_add_one := fun a => by
    have h0 : round53 0 = 0 := by simp [round53]
    have h1 : (0 : ℚ) ≤ round53 1 := by
      have := Rounding.mono (r := round53) 0 1 (by norm_num)
      rw [h0] at this
      exact this
    have h2 := Rounding.mono (r := round53) a.val (a.val + round53 1) (by linarith)
    rw [a.rep] at h2
    exact h2

/-- The accumulation of the results of the jobs into one result
(`src/cognon.cc:364-366`, `(*result_) += temp_` as each job is deleted), for
one `Statistic`: `acc += t` for each `t` of the list in order. -/
def mergeAll (acc : Statistic F) : List (Statistic F) → Except Fault (Statistic F)
  | [] => .ok acc
  | t :: ts =>
    match acc.plusAssign t with
    | .error e => .error e
    | .ok acc1 => mergeAll acc1 ts

/-! ## The numerical-analysis tool -/

/-- The function `malloc2D` (`src/cognon_stats.cc:246-255`): `n` rows of `m`
elements, all `0.0`. -/
def malloc2D (n m : Int) : List (List F) :=
  List.replicate n.toNat (List.replicate m.toNat 0)

/-- The loop of `mean` (`src/cognon_stats.cc:236-241`) on the array `prob`,
a list whose length is the allocated number of elements: `k` iterations
remain, `i` is the loop index, and the pair holds `result` and `prob_sum`.
Reading `prob[i]` outside the array is undefined behaviour.  The `assert`
stops the program on an element outside `[0, 1]` (a NaN is not a value of the
model). -/
def meanLoop (prob : List F) : Nat → Nat → F × F → Except Fault (F × F)
  | 0, _, acc => .ok acc
  | k + 1, i, (result, prob_sum) =>
    match prob.get? i with
    | none => .error .undefined
    | some x =>
      if ¬ (0 ≤ x ∧ x ≤ 1) then .error .check
      else meanLoop prob k (i + 1) (result + DoubleModel.ofInt (i : Int) * x, prob_sum + x)

/-- The function `mean` (`src/cognon_stats.cc:232-244`): the loop runs for
`i = 0, ..., n`.  `a - b` is written `a + -b`. -/
def mean (n : Int) (prob : List F) : Except Fault F :=
  match meanLoop prob (n + 1).toNat 0 (0, 0) with
  | .error e => .error e
  | .ok (result, prob_sum) =>
    if ¬ (1 + -kEpsilon ≤ prob_sum ∧ prob_sum ≤ 1 + kEpsilon) then .error .check
    else .ok result

/-- The loop of `expected_strengthen_synapses`
(`src/cognon_stats.cc:189-191`): `k` iterations remain, `i` is the loop
index. -/
def expectedLoop (nSynapses : Int) (probs : List (List F)) :
    Nat → Nat → List F → Except Fault (List F)
  | 0, _, result => .ok result
  | k + 1, i, result =>
    match probs.get? i with
    | none => .error .undefined
    | some row =>
      match mean (nSynapses + 1) row with
      | .error e => .error e
      | .ok v => expectedLoop nSynapses probs k (i + 1) (result.set i v)

/-- The function `expected_strengthen_synapses`
(`src/cognon_stats.cc:184-194`), with the array that
`prob_strengthen_synapses(nSynapses, rate, G, H, w)` returned as the parameter
`probs`: that function allocates it with `malloc2D(w + 1, nSynapses + 1)` and
only assigns elements of it (`src/cognon_stats.cc:126-181`).  The value is the
array `result` of `w + 1` elements. -/
def expected_strengthen_synapses (nSynapses w : Int) (probs : List (List F)) :
    Except Fault (List F) :=
  expectedLoop nSynapses probs (w + 1).toNat 0 (List.replicate (w + 1).toNat 0)

/-! ## The order of words -/

/-- The function `operator<` on pairs (`src/wordset.cc:45-49`). -/
def pairLess (a b : Int × Int) : Bool :=
  if a.1 < b.1 then true
  else if a.1 = b.1 ∧ a.2 < b.2 then true
  else false

/-- The function `operator<` on `Word` (`src/wordset.cc:28-43`): the loop
over the two words, and the comparison of the ends after it. -/
def wordLess : Word → Word → Bool
  | a :: as, b :: bs =>
    if pairLess a b then true
    else if pairLess b a then false
    else if a.1 < b.1 then true
    else if b.1 < a.1 then false
    else if a.2 < b.2 then true
    else if b.2 < a.2 then false
    else wordLess as bs
  | [], _ :: _ => true
  | _, _ => false

/-- The order of pairs in the words of the claim: by synapse, then by
delay. -/
def lexPair (a b : Int × Int) : Prop := a.1 < b.1 ∨ (a.1 = b.1 ∧ a.2 < b.2)

/-- The lexicographic order on the sequences of pairs in the words of the
claim: the first pair that differs decides, and a proper prefix is smaller. -/
def lexWord (a b : Word) : Prop := List.Lex lexPair a b

/-! ## RunConfiguration -/

/-- The class `TrainConfig` (`src/trunk/compat.h:289-333`): each parameter is
a value with a presence flag, and an absent parameter reads as 0. -/
structure TrainConfig (F : Type) where
  config : Option (NeuronConfig F)
  w : Option Int
  num_active : Option Int
  num_test_words : Option Int

/-- The default number of test words of one experiment
(`src/cognon.cc:394-400`), for `N > 0` experiments. -/
def defaultTestWords (N : Int) : Int :=
  if (if Int.tmod 1000000 N ≠ 0 then Int.tdiv 1000000 N + 1 else Int.tdiv 1000000 N) < 1000
  then 1000
  else (if Int.tmod 1000000 N ≠ 0 then Int.tdiv 1000000 N + 1 else Int.tdiv 1000000 N)

/-- The function `RunConfiguration` (`src/cognon.cc:376-410`) up to the call
of `RunParallel`: the jobs it creates, each given as the configuration that
its `Run()` passes to `RunExperiment`.  `RunParallel` calls `Run()` of every
job once (`src/compat.cc:65-85`).  The product `N * w` is an `int32`
multiplication: its overflow is undefined behaviour, as is the division by
`w == 0`. -/
def RunConfiguration (repetitions : Int) (config : TrainConfig F) :
    Except Fault (List (TrainConfig F)) :=
  if int32Max < repetitions * config.w.getD 0 ∨ repetitions * config.w.getD 0 < -2147483648
  then .error .undefined
  else if repetitions * config.w.getD 0 < 10000 ∧ config.w.getD 0 = 0 then .error .undefined
  else
    let N : Int :=
      if repetitions * config.w.getD 0 < 10000 then
        (if Int.tmod 10000 (config.w.getD 0) ≠ 0 then Int.tdiv 10000 (config.w.getD 0) + 1
         else Int.tdiv 10000 (config.w.getD 0))
      else repetitions
    if ¬ (repetitions ≤ N) then .error .check
    else if ¬ (0 < N) then .error .check
    else
      .ok (List.replicate N.toNat
        { config with
            num_test_words :=
              match config.num_test_words with
              | some k => some k
              | none => some (defaultTestWords N) })

/-- A word entry is enabled on a neuron: neither the delay of its synapse nor
its input delay is `kDisabled`. -/
def enabledEntry (n : Neuron F) (e : Int × Int) : Bool :=
  decide (n.delays_at e.1 ≠ kDisabled ∧ e.2 ≠ kDisabled)

/-- The order `pairLe` is total. -/
instance instIsTotalPairLe : IsTotal (Int × Int) pairLe :=
  ⟨fun a b => by unfold pairLe; omega⟩

/-- The order `pairLe` is transitive. -/
instance instIsTransPairLe : IsTrans (Int × Int) pairLe :=
  ⟨fun a b c h1 h2 => by unfold pairLe at *; omega⟩

/-- The function `Wordset::CopyFrom` (`src/wordset.cc:72-80`). -/
def Wordset.CopyFrom (rand64 : Nat → Nat) (fuel : Nat) (p : Nat) (w : Wordset)
    (num_words : Int) (other : Wordset) : Option (Except Fault (Wordset × Nat)) :=
  if 0 < other.refractory_period then
    w.Config rand64 fuel p num_words other.word_length other.num_delays other.refractory_period
  else
    w.ConfigFixed rand64 fuel p num_words other.word_length other.num_delays other.num_active

/-- The configuration of the example of the claim, for a wordset of one word:
the fixed policy with `wordLength = 2`, `numActive = 1` and `numDelays = 1`. -/
def TinyFixed (t : Wordset) : Prop :=
  t.num_words = 1 ∧ t.word_length = 2 ∧ t.num_delays = 1 ∧ t.num_active = 1 ∧
    t.refractory_period = -1

instance (t : Wordset) : Decidable (TinyFixed t) := by
  unfold TinyFixed; infer_instance

/-- The count of the synapses whose strength is `g`, as the test
`CheckSynapseStrength` makes it (`src/neuron_test.cc:386-389`). -/
def strengthCount (n : Neuron F) (g : F) : Int :=
  (List.range n.length.toNat).foldl
    (fun count (i : Nat) => if n.strength_at (i : Int) = g then count + 1 else count) 0

/-- The count that the histogram `operator+=` uses for the index `i` of an
operand (`src/cognon.cc:147-165`): the count of the bucket `i` where the
operand has one, and otherwise the count of its bucket 0, which is the number
of samples `0.0` that stand in for the missing bucket. -/
def Histogram.paddedCount (h : Histogram F) (i : Nat) : Int :=
  if i < h.values_.length then (h.values i).count else h.firstCount

/-- The sum of the bucket `i` of an operand of the histogram `operator+=`,
and `0.0` where the operand has no such bucket. -/
def Histogram.paddedSum (h : Histogram F) (i : Nat) : F :=
  if i < h.values_.length then (h.values i).sum else 0

/-- The sum of squares of the bucket `i` of an operand of the histogram
`operator+=`, and `0.0` where the operand has no such bucket. -/
def Histogram.paddedSsum (h : Histogram F) (i : Nat) : F :=
  if i < h.values_.length then (h.values i).ssum else 0

/-- Exact arithmetic in an ordered field with a floor function: the arithmetic
"over the reals" of the specification, in which no operation is rounded.  It
is not the arithmetic of `double`, which is `Binary64`. -/
def exactModel (K : Type) [LinearOrderedField K] [FloorRing K] : DoubleModel K where
  ofInt := fun z => (z : K)
  floor := fun x => Int.floor x
  kEpsilon := 1 / 1000000
  add_mono_left := fun _ _ c h => add_le_add_right h c
  le_add_one := fun _ => le_add_of_nonneg_right zero_le_one

/-- The expression `infoValue` of `Bob::BitsPerNeuron`
(`src/bob.cc:124-129`).  `a - b` is written `a + -b`. -/
def infoValue (m : MathFns F) (prob_learn prob_false : F) : F :=
  m.log (1 + -prob_learn) + -(m.log (1 + -prob_false))
    + -(prob_learn * m.log (1 + -prob_learn))
    + prob_learn * m.log (1 + -prob_false)
    + prob_learn * m.log prob_learn
    + -(prob_learn * m.log prob_false)

/-- The clamping of a probability in `Bob::BitsPerNeuron`
(`src/bob.cc:118-121`): first to at most `0.999999`, then to at least
`0.0000001`. -/
def clampProbability (p : F) : F :=
  let p1 : F := if lit 999999 1000000 ≤ p then lit 999999 1000000 else p
  if p1 < lit 1 10000000 then lit 1 10000000 else p1

/-- The partial sum `x + x^2/2 + ... + x^n/n` of the series of
`-log (1 - x)`. -/
def logSeries (x : ℚ) : Nat → ℚ
  | 0 => 0
  | n + 1 => logSeries x n + x ^ (n + 1) / ((n : ℚ) + 1)

/-- The number of terms of the series that `logApprox` adds. -/
def logTerms : Nat := 600

/-- A rational approximation of the natural logarithm: 600 terms of the
series of `-log (1 - x)`, with `x = 1 - q` for `q < 3/2` and `x = 1 - 1/q`
(and the opposite sign) from `3/2` on.  The error is at most
`x^601 / (1 - x)`. -/
def logApprox (q : ℚ) : ℚ :=
  if q ≤ 0 then 0
  else if q < 3 / 2 then -logSeries (1 - q) logTerms
  else logSeries (1 - 1 / q) logTerms

/-- A function `log` of `<math.h>` on `double`: the `double` nearest to the
rational approximation `logApprox` of the natural logarithm. -/
def log64 (x : Binary64) : Binary64 := Binary64.round (logApprox x.val)

/-- The rational number `m * 2^k`. -/
def dy (m k : ℤ) : ℚ := (m : ℚ) * 2 ^ k

/-- The `double` value `m * 2^k`, for a significand `m` of 53 bits. -/
def dyadic (m k : ℤ) : Binary64 := Binary64.round (dy m k)

end Code

/-! ## Concrete data for the example runs -/

/-- A random stream for the example runs: the call number `k` of `Rand32()`
returns `5 * k + k / 2`. -/
def exampleRand : Nat → Nat := fun k => 5 * k + k / 2

/-- An atrophy configuration: `C = 2`, `D1 = 2`, `D2 = 3`, `H = 2`, `Q = 1`,
`R = 2`, no `G_m`, no `H_m` (8 synapses). -/
def exampleConfig : NeuronConfig ℚ :=
  ⟨some 2, some 2, some 3, some 2, some 1, some 2, none, none⟩

/-- The neuron that `Init` builds from `exampleConfig` and `exampleRand`. -/
def exampleNeuron : Neuron ℚ where
  config := exampleConfig
  C := 2
  D1 := 2
  D2 := 3
  H := 2
  Q := 1
  Q_after := -1
  R := 2
  G_m := -1
  H_m := -1
  length := 8
  delays := [0, 2, 1, 0, 2, 1, 0, 2]
  containers := [1, 0, 1, 0, 1, 0, 1, 0]
  frozen := [false, false, false, false, false, false, false, false]
  strength := [1, 1, 1, 1, 1, 1, 1, 1]
  sum := [0, 0]
  learn := some .LearnSynapseAtrophy

/-- A word on which `exampleNeuron` fires in slot 1: the synapses 0, 6 and 2
reach container 1 in that slot, the synapse 3 reaches container 0. -/
def exampleWord : Word := [(0, 1), (3, 1), (6, 1), (2, 0)]

/-- Three words: the first fires in slot 1, the second in slot 2, the third
does not fire. -/
def exampleWords : List Word :=
  [[(0, 1), (3, 1), (6, 1), (2, 0)], [(1, 0), (5, 1)], [(3, 0), (6, 0), (7, 1)]]

/-- The neuron `exampleNeuron` after `Train(exampleWord)`. -/
def exampleTrained : Neuron ℚ :=
  { exampleNeuron with
      frozen := [true, false, true, false, false, false, true, false]
      sum := [1, 3] }

/-- The neuron `exampleNeuron` after the training cycle on `exampleWords`: the
synapses 3, 4 and 7 were never frozen and are disabled. -/
def exampleCycled : Neuron ℚ :=
  { exampleNeuron with
      Q_after := 5 / 8
      delays := [0, 2, 1, 536870912, 536870912, 1, 0, 536870912]
      frozen := [true, true, true, false, false, true, true, false]
      strength := [1, 1, 1, 0, 0, 1, 1, 0] }

/-- The neuron `exampleNeuron` after `Expose(exampleWord)`. -/
def exampleExposed : Neuron ℚ :=
  { exampleNeuron with sum := [1, 3] }

/-- The configuration of the test `CheckNeuronLength`
(`src/neuron_test.cc:274-288`): `C = 1`, `D1 = 1`, `D2 = 1`, `H = 10`,
`Q = 64.001 / 100`, `R = 10`. -/
def checkLengthConfig : NeuronConfig ℚ :=
  ⟨some 1, some 1, some 1, some 10, some (64001 / 100000), some 10, none, none⟩

/-- The neuron that `Init` builds from `checkLengthConfig`. -/
def checkLengthNeuron : Neuron ℚ where
  config := checkLengthConfig
  C := 1
  D1 := 1
  D2 := 1
  H := 10
  Q := 64001 / 100000
  Q_after := -1
  R := 10
  G_m := -1
  H_m := -1
  length := 64
  delays := List.replicate 64 0
  containers := List.replicate 64 0
  frozen := List.replicate 64 false
  strength := List.replicate 64 1
  sum := [0]
  learn := some .LearnSynapseAtrophy

/-- A configuration without any field. -/
def emptyConfig : NeuronConfig ℚ := ⟨none, none, none, none, none, none, none, none⟩

/-- A configuration with all six required fields, `C = 1 >= 1`,
`D1 = -1 <= D2 = -1`, `H = 1 >= 1`, `Q = 1`, `R = 1`. -/
def negativeDelayConfig : NeuronConfig ℚ :=
  ⟨some 1, some (-1), some (-1), some 1, some 1, some 1, none, none⟩

/-- A configuration with no synapse: `C = 1`, `H = 1`, `Q = 0`, `R = 1`. -/
def zeroSynapseConfig : NeuronConfig ℚ :=
  ⟨some 1, some 1, some 1, some 1, some 0, some 1, none, none⟩

/-- The neuron that `Init` builds from `zeroSynapseConfig` on a new neuron: no
vector was resized, the scratch sums are empty. -/
def zeroSynapseNeuron : Neuron ℚ where
  config := zeroSynapseConfig
  C := 1
  D1 := 1
  D2 := 1
  H := 1
  Q := 0
  Q_after := -1
  R := 1
  G_m := -1
  H_m := -1
  length := 0
  delays := []
  containers := []
  frozen := []
  strength := []
  sum := []
  learn := some .LearnSynapseAtrophy

/-- A configuration with one container and two synapses: `C = 1`, `H = 2`,
`Q = 1`, `R = 1`. -/
def oneContainerConfig : NeuronConfig ℚ :=
  ⟨some 1, some 1, some 1, some 2, some 1, some 1, none, none⟩

/-- A configuration with two containers and two synapses: `C = 2`, `H = 1`,
`Q = 1`, `R = 1`. -/
def twoContainerConfig : NeuronConfig ℚ :=
  ⟨some 2, some 1, some 1, some 1, some 1, some 1, none, none⟩

/-- The neuron that `Init` builds from `oneContainerConfig`. -/
def oneContainerNeuron : Neuron ℚ where
  config := oneContainerConfig
  C := 1
  D1 := 1
  D2 := 1
  H := 2
  Q := 1
  Q_after := -1
  R := 1
  G_m := -1
  H_m := -1
  length := 2
  delays := [0, 0]
  containers := [0, 0]
  frozen := [false, false]
  strength := [1, 1]
  sum := [0]
  learn := some .LearnSynapseAtrophy

/-- The neuron `oneContainerNeuron` after a second `Init`, with
`twoContainerConfig`: the scratch sums still have one entry. -/
def reinitNeuron : Neuron ℚ where
  config := twoContainerConfig
  C := 2
  D1 := 1
  D2 := 1
  H := 1
  Q := 1
  Q_after := -1
  R := 1
  G_m := -1
  H_m := -1
  length := 2
  delays := [0, 0]
  containers := [1, 0]
  frozen := [false, false]
  strength := [1, 1]
  sum := [0]
  learn := some .LearnSynapseAtrophy

/-- A configuration with the strength strategy: `C = 1`, `D1 = 1`, `D2 = 1`,
`H = 2`, `Q = 1`, `R = 2` (four synapses), `G_m = 2`, `H_m = 4 = H * G_m`. -/
def strengthConfig : NeuronConfig ℚ :=
  ⟨some 1, some 1, some 1, some 2, some 1, some 2, some 2, some 4⟩

/-- The neuron that `Init` builds from `strengthConfig`. -/
def strengthNeuron : Neuron ℚ where
  config := strengthConfig
  C := 1
  D1 := 1
  D2 := 1
  H := 2
  Q := 1
  Q_after := -1
  R := 2
  G_m := 2
  H_m := 4
  length := 4
  delays := [0, 0, 0, 0]
  containers := [0, 0, 0, 0]
  frozen := [false, false, false, false]
  strength := [1, 1, 1, 1]
  sum := [0]
  learn := some .LearnSynapseStrength

/-- Two training words for `strengthNeuron`: the first activates the synapses
0 and 1, the second only the synapse 0. -/
def strengthWords : List Word := [[(0, 0), (1, 0)], [(0, 0)]]

/-- The neuron `strengthNeuron` after `StartTraining` and `Train` on the two
`strengthWords`. -/
def strengthTrained : Neuron ℚ :=
  { strengthNeuron with
      frozen := [true, true, false, false]
      strength := [2, 2, 1, 1]
      sum := [2] }

/-- The neuron `strengthNeuron` after a training cycle on `strengthWords`. -/
def strengthCycled : Neuron ℚ :=
  { strengthTrained with
      H := 4
      Q_after := 1 / 2 }

/-- A wordset holding the three `exampleWords`, as `Wordset::Init` leaves it:
every recorded delay is `kDisabled`. -/
def exampleWordset : Wordset where
  num_words := 3
  word_length := 8
  num_delays := 2
  refractory_period := 2
  num_active := -1
  words := exampleWords
  delays := [kDisabled, kDisabled, kDisabled]

/-- The wordset `exampleWordset` after `Alice::Train` on `exampleNeuron`. -/
def exampleWordsetTrained : Wordset :=
  { exampleWordset with delays := [1, 2, kDisabled] }

/-- Four empty histograms. -/
def emptyHistograms : Histograms := ⟨[], [], [], []⟩

/-- The histograms after `Alice::TrainHistogram` on `exampleWordset` and
`exampleNeuron`, starting from `emptyHistograms`. -/
def exampleHistograms : Histograms where
  delay_histogram := [0, 1, 1]
  input_delay_histogram := [0, 1, 1, 0, 0, 0]
  input_max_sum_delay_histogram := [0, 1, 1, 0, 0, 0]
  H_histogram := [17, 1, 1, 1]

/-- A stream of outcomes of `test.Init()` for the example runs: no call stops
on a fault; the calls number 2, 5, 8, ... draw the training word
`exampleWord`, the calls number 0, 3, 6, ... draw `exampleWord` with one more
entry, and the other calls draw a word with one entry. -/
def exampleDraw : Nat → Except Fault Word := fun j =>
  .ok (if j % 3 = 2 then exampleWord
    else if j % 3 = 0 then exampleWord ++ [(1, 0)]
    else [((j : Int) % 8, 0)])

/-- A stand-in for the functions of `<math.h>` on the rationals.  The example
runs that use it stop before any of these functions is called. -/
def exampleMath : MathFns ℚ where
  log := fun _ => 0
  lgamma := fun _ => 0
  pow := fun _ _ => 0
  log2 := fun _ => 0

/-- A wordset with no word. -/
def emptyWordset : Wordset where
  num_words := 0
  word_length := 8
  num_delays := 2
  refractory_period := 2
  num_active := -1
  words := []
  delays := []

/-- The state of a `cognon_orig::Neuron` that corresponds to `exampleNeuron`. -/
def exampleOrig : OrigNeuron ℚ where
  l := 8
  delays := [0, 2, 1, 0, 2, 1, 0, 2]
  containers := [1, 0, 1, 0, 1, 0, 1, 0]
  frozen := [false, false, false, false, false, false, false, false]
  sum := [0, 0]
  C := 2
  D1 := 2
  D2 := 3
  H := 2
  Q := 1
  R := 2
  Qafter := -1

/-- The dense form of `exampleWord`: the synapses 0, 3 and 6 carry the input
delay 1, the synapse 2 the input delay 0, the others are silent. -/
def exampleDense : List Int :=
  [1, kDisabled, 0, 1, kDisabled, kDisabled, 1, kDisabled]

/-- The state of a `cognon_orig::NeuronStrength` that corresponds to
`strengthNeuron`, with the same `G_m` and `H_m`. -/
def strengthOrig : OrigNeuronStrength ℚ where
  l := 4
  delays := [0, 0, 0, 0]
  containers := [0, 0, 0, 0]
  frozen := [false, false, false, false]
  sum := [0]
  C := 1
  D1 := 1
  D2 := 1
  H := 2
  Q := 1
  R := 2
  Qafter := -1
  G_m := 2
  H_m := 4
  strength := [1, 1, 1, 1]

/-- The dense forms of the two `strengthWords`. -/
def strengthDense : List (List Int) :=
  [[0, 0, kDisabled, kDisabled], [0, kDisabled, kDisabled, kDisabled]]

/-- A `cognon_orig::Neuron` with two containers of one synapse each: `C = 2`,
`H = 1`, `D1 = 1`, `D2 = 1`, both delays 0. -/
def pairOrig : OrigNeuron ℚ where
  l := 2
  delays := [0, 0]
  containers := [0, 1]
  frozen := [false, false]
  sum := [0, 0]
  C := 2
  D1 := 1
  D2 := 1
  H := 1
  Q := 1
  R := 1
  Qafter := -1

/-- The state of the new neuron that corresponds to `pairOrig`. -/
def pairNeuron : Neuron ℚ where
  config := twoContainerConfig
  C := 2
  D1 := 1
  D2 := 1
  H := 1
  Q := 1
  Q_after := -1
  R := 1
  G_m := -1
  H_m := -1
  length := 2
  delays := [0, 0]
  containers := [0, 1]
  frozen := [false, false]
  strength := [1, 1]
  sum := [0, 0]
  learn := some .LearnSynapseAtrophy

/-- The neuron `pairOrig` after `train(w, 1)` on the dense word `[0, 0]`:
only the synapse of the first container is frozen. -/
def pairOrigTrained : OrigNeuron ℚ :=
  { pairOrig with
      frozen := [true, false]
      sum := [1, 1] }

/-- The neuron `pairOrigTrained` after `clean()`: the synapse 1 is
disabled. -/
def pairOrigCleaned : OrigNeuron ℚ :=
  { pairOrigTrained with
      delays := [0, kDisabled]
      Qafter := 1 / 2 }

/-- The neuron `pairNeuron` after a training cycle on the sparse copy of the
dense word `[0, 0]`: both synapses are frozen. -/
def pairCycled : Neuron ℚ :=
  { pairNeuron with
      frozen := [true, true]
      sum := [1, 1]
      Q_after := 1 }

/-- The state of a `cognon_orig::Neuron` that corresponds to
`oneContainerNeuron`. -/
def oneContainerOrig : OrigNeuron ℚ where
  l := 2
  delays := [0, 0]
  containers := [0, 0]
  frozen := [false, false]
  sum := [0]
  C := 1
  D1 := 1
  D2 := 1
  H := 2
  Q := 1
  R := 1
  Qafter := -1

/-- Two dense training words for `oneContainerOrig`: the first activates both
synapses, the second only the synapse 0. -/
def oneContainerDense : List (List Int) := [[0, 0], [0, kDisabled]]

/-- Two dense training words for `pairOrig`: the first activates the synapse
0 only, the second no synapse. -/
def pairDense : List (List Int) := [[0, kDisabled], [kDisabled, kDisabled]]

/-- The three samples of the end-to-end scenario of `CheckStatistic`
(`src/cognon_test.cc:47-80`). -/
def exampleSamples : List ℚ := [3, 4, 5]

/-- The statistic that holds the three `exampleSamples`. -/
def exampleStatistic : Statistic ℚ := ⟨some 3, some 12, some 50, [3, 4, 5]⟩

/-- A statistic of 65536 samples with sum 0 and sum of squares 65536 (for
instance 32768 samples `1.0` and 32768 samples `-1.0`), without the list of
values. -/
def wideStatistic : Statistic ℚ := ⟨some 65536, some 0, some 65536, []⟩

/-- The statistic that holds the sample 3 alone. -/
def singleStatistic : Statistic ℚ := ⟨some 1, some 3, some 9, [3]⟩

/-- The statistic that holds the samples 5, 6, 7 of `CheckStatistic`
(`src/cognon_test.cc:135-140`). -/
def secondStatistic : Statistic ℚ := ⟨some 3, some 18, some 110, [5, 6, 7]⟩

/-- The combination of `exampleStatistic` and `secondStatistic`. -/
def combinedStatistic : Statistic ℚ := ⟨some 6, some 30, some 160, [3, 4, 5, 5, 6, 7]⟩

/-- The histogram that `SetHistogram` builds from the data 0, 3, 5, 1
(`src/cognon_test.cc:380-395`). -/
def histogramA : Histogram ℚ :=
  ⟨[⟨some 1, some 0, some 0, [0]⟩, ⟨some 1, some 3, some 9, [3]⟩,
    ⟨some 1, some 5, some 25, [5]⟩, ⟨some 1, some 1, some 1, [1]⟩]⟩

/-- The histogram that `SetHistogram` builds from the data 1, 4
(`src/cognon_test.cc:397-410`). -/
def histogramB : Histogram ℚ :=
  ⟨[⟨some 1, some 1, some 1, [1]⟩, ⟨some 1, some 4, some 16, [4]⟩]⟩

/-- The histogram `histogramA + histogramB`. -/
def histogramAB : Histogram ℚ :=
  ⟨[⟨some 2, some 1, some 1, [0, 1]⟩, ⟨some 2, some 7, some 25, [3, 4]⟩,
    ⟨some 2, some 5, some 25, [5, 0]⟩, ⟨some 2, some 1, some 1, [1, 0]⟩]⟩

/-- The histogram `histogramB + histogramB`. -/
def histogramBB : Histogram ℚ :=
  ⟨[⟨some 2, some 2, some 2, [1, 1]⟩, ⟨some 2, some 8, some 32, [4, 4]⟩]⟩

/-- The histogram `histogramA + histogramBB` (`src/cognon_test.cc:549-566`). -/
def histogramABB : Histogram ℚ :=
  ⟨[⟨some 3, some 2, some 2, [0, 1, 1]⟩, ⟨some 3, some 11, some 41, [3, 4, 4]⟩,
    ⟨some 3, some 5, some 25, [5, 0, 0]⟩, ⟨some 3, some 1, some 1, [1, 0, 0]⟩]⟩

/-- A stream of `Rand64()` values for the example runs. -/
def exampleRand64 : Nat → Nat :=
  fun p => (6364136223846793005 * (p + 1) + 1442695040888963407 * (p * p + 3))
    % 18446744073709551616

/-- The wordset that `Config(2, 6, 3, 2)` builds on a new `Wordset` from the
stream `exampleRand64`. -/
def exampleOrigWordset : Wordset where
  num_words := 2
  word_length := 6
  num_delays := 3
  refractory_period := 2
  num_active := -1
  words := [[(0, 0), (1, 2), (2, 0), (3, 2), (5, 0)], [(0, 1), (2, 2), (3, 1), (4, 2)]]
  delays := [kDisabled, kDisabled]

/-- The wordset that `ConfigFixed(2, 8, 4, 3)` builds on a new `Wordset` from
the stream `exampleRand64`. -/
def exampleFixedWordset : Wordset where
  num_words := 2
  word_length := 8
  num_delays := 4
  refractory_period := -1
  num_active := 3
  words := [[(0, 0), (2, 2), (6, 2)], [(0, 0), (2, 2), (4, 0)]]
  delays := [kDisabled, kDisabled]

/-- The wordset that `set_size(3)` builds from `exampleOrigWordset` with the
stream `exampleRand64` read from the position 1. -/
def exampleResizedWordset : Wordset where
  num_words := 3
  word_length := 6
  num_delays := 3
  refractory_period := 2
  num_active := -1
  words := [[(2, 1), (3, 2), (4, 2), (5, 0)], [(1, 0), (4, 2)], [(1, 0), (5, 2)]]
  delays := [kDisabled, kDisabled, kDisabled]

/-- A stream of `Rand64()` values that counts: the call number `p` returns
`p`. -/
def countingRand64 : Nat → Nat := fun p => p

/-- The wordset that `ConfigFixed(2, 8, 4, 3)` builds on a new `Wordset` from
the stream `countingRand64`. -/
def exampleCountingWordset : Wordset where
  num_words := 2
  word_length := 8
  num_delays := 4
  refractory_period := -1
  num_active := 3
  words := [[(0, 1), (2, 3), (4, 1)], [(0, 1), (2, 3), (6, 3)]]
  delays := [kDisabled, kDisabled]

/-- The value `9007199254740992.0`, that is `2^53`. -/
def bigValue : Binary64 := Binary64.round 9007199254740992

/-- The square of `bigValue`, `2^106`. -/
def bigSquare : Binary64 := Binary64.round 81129638414606681695789005144064

/-- The statistic of the one sample `2^53`. -/
def bigSample : Statistic Binary64 := ⟨some 1, some bigValue, some bigSquare, [bigValue]⟩

/-- The statistic of the one sample `1.0`. -/
def oneSample : Statistic Binary64 := ⟨some 1, some 1, some 1, [1]⟩

/-- The statistic `bigSample + oneSample`: the sum `2^53 + 1` is rounded to
`2^53`. -/
def bigOne : Statistic Binary64 := ⟨some 2, some bigValue, some bigSquare, [bigValue, 1]⟩

/-- The statistic `(bigSample + oneSample) + oneSample`. -/
def leftSum : Statistic Binary64 := ⟨some 3, some bigValue, some bigSquare, [bigValue, 1, 1]⟩

/-- The statistic `oneSample + oneSample`. -/
def oneOne : Statistic Binary64 :=
  ⟨some 2, some (Binary64.round 2), some (Binary64.round 2), [1, 1]⟩

/-- The statistic `bigSample + (oneSample + oneSample)`: the sum `2^53 + 2` is
a `double`. -/
def rightSum : Statistic Binary64 :=
  ⟨some 3, some (Binary64.round 9007199254740994), some bigSquare, [bigValue, 1, 1]⟩

/-- The statistic `(oneSample + oneSample) + bigSample`. -/
def lastSum : Statistic Binary64 :=
  ⟨some 3, some (Binary64.round 9007199254740994), some bigSquare, [1, 1, bigValue]⟩

/-- The statistic of the samples 5, 6, 7, 3. -/
def tailStatistic : Statistic ℚ := ⟨some 4, some 21, some 119, [5, 6, 7, 3]⟩

/-- The statistic of the samples 3, 4, 5, 5, 6, 7, 3. -/
def tripleStatistic : Statistic ℚ := ⟨some 7, some 33, some 169, [3, 4, 5, 5, 6, 7, 3]⟩

/-- The statistic of the samples 3, 4, 5, 3, 5, 6, 7. -/
def swappedStatistic : Statistic ℚ := ⟨some 7, some 33, some 169, [3, 4, 5, 3, 5, 6, 7]⟩

/-- A configuration with 3000 words to learn and no number of test words. -/
def exampleTrainConfig : TrainConfig ℚ := ⟨some exampleConfig, some 3000, none, none⟩

/-- A word for `exampleCycled` with two disabled entries: the synapse 3 has
the delay `kDisabled`, and the entry of the synapse 2 has the input delay
`kDisabled`. -/
def disabledWord : Word := [(0, 1), (3, 1), (6, 1), (2, 536870912)]

/-- A training wordset of the fixed policy with `wordLength = 2`,
`numActive = 1` and `numDelays = 1` that holds both words the generator can
draw. -/
def tinyWordset : Wordset where
  num_words := 2
  word_length := 2
  num_delays := 1
  refractory_period := -1
  num_active := 1
  words := [[(0, 0)], [(1, 0)]]
  delays := [536870912, 536870912]

/-- The wordset `test` of `TestTestSet` after `test.CopyFrom(1, tinyWordset)`
on a stream of zeros. -/
def tinyTest : Wordset where
  num_words := 1
  word_length := 2
  num_delays := 1
  refractory_period := -1
  num_active := 1
  words := [[(0, 0)]]
  delays := [536870912]

/-- The neuron `strengthNeuron` after a training cycle on the one word
`[(0, 0), (0, 0)]`, which lists the synapse 0 twice. -/
def strengthDuplicate : Neuron ℚ :=
  { strengthNeuron with
      H := 4
      Q_after := 1 / 4
      frozen := [true, false, false, false]
      strength := [2, 1, 1, 1]
      sum := [2] }

/-- The strength configuration `strengthConfig` with `G_m = 1`. -/
def unitGainConfig : NeuronConfig ℚ :=
  ⟨some 1, some 1, some 1, some 2, some 1, some 2, some 1, some 4⟩

/-- The neuron that `Init` builds from `unitGainConfig`. -/
def unitGainNeuron : Neuron ℚ :=
  { strengthNeuron with config := unitGainConfig, G_m := 1 }

/-- The neuron `unitGainNeuron` after a training cycle on the one word
`[(0, 0), (1, 0)]`. -/
def unitGainCycled : Neuron ℚ :=
  { unitGainNeuron with
      H := 4
      Q_after := 1 / 2
      frozen := [true, true, false, false]
      sum := [2] }

/-- The histogram `histogramBB + histogramA`. -/
def histogramBBA : Histogram ℚ :=
  ⟨[⟨some 3, some 2, some 2, [1, 1, 0]⟩, ⟨some 3, some 11, some 41, [4, 4, 3]⟩,
    ⟨some 3, some 5, some 25, [0, 0, 5]⟩, ⟨some 3, some 1, some 1, [0, 0, 1]⟩]⟩

/-- The histogram `histogramBB + histogramB`. -/
def histogramBBB : Histogram ℚ :=
  ⟨[⟨some 3, some 3, some 3, [1, 1, 1]⟩, ⟨some 3, some 12, some 48, [4, 4, 4]⟩]⟩

/-- The histogram `(histogramA + histogramBB) + histogramB`, which is also
`histogramA + (histogramBB + histogramB)`. -/
def histogramABBB : Histogram ℚ :=
  ⟨[⟨some 4, some 3, some 3, [0, 1, 1, 1]⟩, ⟨some 4, some 15, some 57, [3, 4, 4, 4]⟩,
    ⟨some 4, some 5, some 25, [5, 0, 0, 0]⟩, ⟨some 4, some 1, some 1, [1, 0, 0, 0]⟩]⟩

/-- The histogram with the one sample `2^53` in bucket 0. -/
def bigHistogram : Histogram Binary64 := ⟨[bigSample]⟩

/-- The histogram with the one sample `1.0` in bucket 0. -/
def oneHistogram : Histogram Binary64 := ⟨[oneSample]⟩

/-- The functions of `<math.h>` for a run of `Bob::BitsPerNeuron` on `double`
values: `log` is `log64`.  `BitsPerNeuron` calls no other function of
`<math.h>`; `lgamma` and `pow` are stand-ins. -/
def mathLog64 : MathFns Binary64 where
  log := log64
  lgamma := fun _ => 0
  pow := fun _ _ => 0
  log2 := fun x => log64 x / log64 (DoubleModel.ofInt 2)

/-! ## Lemmas on lists -/

theorem getD_set_self {α : Type} (l : List α) (i : Nat) (v dflt : α) (h : i < l.length) :
    (l.set i v).getD i dflt = v := by
  simp [List.getD_eq_getElem?_getD, List.getElem?_set, h]

theorem getD_set_other {α : Type} (l : List α) (i j : Nat) (v dflt : α) (h : i ≠ j) :
    (l.set i v).getD j dflt = l.getD j dflt := by
  simp [List.getD_eq_getElem?_getD, List.getElem?_set, h]

section Proofs

variable {F : Type} [DoubleModel F]

/-! ## Expose -/

theorem clearSums_aux (sum : List F) (k : Nat) (hk : k ≤ sum.length) :
    ((List.range k).foldl (fun s i => s.set i (0 : F)) sum).length = sum.length ∧
    ∀ c, ((List.range k).foldl (fun s i => s.set i (0 : F)) sum).getD c 0
      = if c < k then 0 else sum.getD c 0 := by
  induction k with
  | zero => simp
  | succ k ih =>
    have ih1 := ih (Nat.le_of_succ_le hk)
    rw [List.range_succ, List.foldl_append]
    simp only [List.foldl_cons, List.foldl_nil, List.length_set]
    refine ⟨ih1.1, fun c => ?_⟩
    by_cases hc : k = c
    · subst hc
      rw [getD_set_self _ _ _ _ (by rw [ih1.1]; exact hk)]
      simp
    · rw [getD_set_other _ _ _ _ _ hc, ih1.2 c]
      have : c < k + 1 ↔ c < k := by omega
      simp [this]

theorem clearSums_length (C : Int) (sum : List F) (h : (sum.length : Int) = C) :
    (clearSums C sum).length = sum.length :=
  (clearSums_aux sum C.toNat (by omega)).1

theorem clearSums_getD (C : Int) (sum : List F) (h : (sum.length : Int) = C) (c : Nat) :
    (clearSums C sum).getD c 0 = 0 := by
  have := (clearSums_aux sum C.toNat (by omega)).2 c
  unfold clearSums
  rw [this]
  split
  · rfl
  · rw [List.getD_eq_default]
    omega

theorem containers_at_range (n : Neuron F) (hcont : ContainersInRange n)
    (hclen : (n.containers.length : Int) = n.length) (s : Int) (h0 : 0 ≤ s)
    (h1 : s < n.length) : 0 ≤ n.containers_at s ∧ n.containers_at s < n.C := by
  unfold Neuron.containers_at
  have hs : s.toNat < n.containers.length := by omega
  rw [List.getD_eq_getElem?_getD, List.getElem?_eq_getElem hs]
  exact hcont _ (List.getElem_mem hs)

theorem accumulate_spec (n : Neuron F) (d : Int) (hcont : ContainersInRange n)
    (hclen : (n.containers.length : Int) = n.length) :
    ∀ (word : Word) (sum : List F), ValidWord n word → (sum.length : Int) = n.C →
    ∃ sum1, accumulate n d word sum = .ok sum1 ∧ sum1.length = sum.length ∧
      ∀ c : Nat, (c : Int) < n.C →
        sum1.getD c 0 =
          ((word.filter fun e =>
              decide (n.delays_at e.1 + e.2 = d ∧ n.containers_at e.1 = (c : Int))).map
            fun e => n.strength_at e.1).foldl (fun a x => a + x) (sum.getD c 0) := by
  intro word
  induction word with
  | nil =>
    intro sum _ _
    exact ⟨sum, rfl, rfl, fun c _ => rfl⟩
  | cons e rest ih =>
    intro sum hv hlen
    obtain ⟨s, t⟩ := e
    have hhead := hv (s, t) (List.mem_cons_self _ _)
    have hrest : ValidWord n rest := fun x hx => hv x (List.mem_cons_of_mem _ hx)
    simp only at hhead
    have hcr := containers_at_range n hcont hclen s hhead.1.1 hhead.1.2
    unfold accumulate
    simp only [hhead.1, hhead.2, and_self, not_true_eq_false, if_false, hcr]
    by_cases hm : n.delays_at s + t = d
    · simp only [hm, if_true]
      have hk : (n.containers_at s).toNat < sum.length := by omega
      obtain ⟨sum1, h1, h2, h3⟩ := ih
        (sum.set (n.containers_at s).toNat
          (sum.getD (n.containers_at s).toNat 0 + n.strength_at s)) hrest
        (by rw [List.length_set]; exact hlen)
      refine ⟨sum1, h1, by rw [h2, List.length_set], fun c hc => ?_⟩
      rw [h3 c hc]
      by_cases hcc : n.containers_at s = (c : Int)
      · have hcn : (n.containers_at s).toNat = c := by omega
        rw [List.filter_cons_of_pos (by simp [hm, hcc])]
        rw [hcn, getD_set_self _ _ _ _ (by omega)]
        simp [List.foldl_cons]
      · have hcn : (n.containers_at s).toNat ≠ c := by omega
        rw [List.filter_cons_of_neg (by simp [hcc])]
        rw [getD_set_other _ _ _ _ _ hcn]
    · simp only [hm, if_false]
      obtain ⟨sum1, h1, h2, h3⟩ := ih sum hrest hlen
      refine ⟨sum1, h1, h2, fun c hc => ?_⟩
      rw [h3 c hc, List.filter_cons_of_neg (by simp [hm])]

theorem anyFired_iff (C : Int) (H : F) (sum : List F) :
    anyFired C H sum = true ↔ ∃ c : Nat, (c : Int) < C ∧ H ≤ sum.getD c 0 + kEpsilon := by
  unfold anyFired
  simp only [List.any_eq_true, List.mem_range, decide_eq_true_eq]
  constructor
  · rintro ⟨c, hc, h⟩
    exact ⟨c, by omega, h⟩
  · rintro ⟨c, hc, h⟩
    exact ⟨c, by omega, h⟩

theorem fires_iff (n : Neuron F) (word : Word) (d : Int) :
    Fires n word d ↔ ∃ c : Nat, (c : Int) < n.C ∧ n.H ≤ specSum n word (c : Int) d + kEpsilon := by
  constructor
  · rintro ⟨c, h0, h1, h2⟩
    refine ⟨c.toNat, by omega, ?_⟩
    rw [Int.toNat_of_nonneg h0]
    exact h2
  · rintro ⟨c, h1, h2⟩
    exact ⟨(c : Int), by omega, h1, h2⟩

theorem exposeLoop_spec (n : Neuron F) (word : Word) (hcont : ContainersInRange n)
    (hclen : (n.containers.length : Int) = n.length) (hv : ValidWord n word) :
    ∀ (k : Nat) (d : Int) (sum : List F), (sum.length : Int) = n.C →
    ∃ r sum1, exposeLoop n word k d sum = .ok (r, sum1) ∧ (sum1.length : Int) = n.C ∧
      ((d ≤ r ∧ r < d + k ∧ Fires n word r ∧ (∀ x : Int, d ≤ x → x < r → ¬ Fires n word x) ∧
          ∀ c : Nat, (c : Int) < n.C → sum1.getD c 0 = specSum n word (c : Int) r) ∨
        (r = kDisabled ∧ sum1.length = sum.length ∧ (k = 0 → sum1 = sum) ∧
          ∀ x : Int, d ≤ x → x < d + k → ¬ Fires n word x)) := by
  intro k
  induction k with
  | zero =>
    intro d sum hlen
    exact ⟨kDisabled, sum, rfl, hlen, Or.inr ⟨rfl, rfl, fun _ => rfl, fun x h1 h2 => by omega⟩⟩
  | succ k ih =>
    intro d sum hlen
    have hcl := clearSums_length n.C sum hlen
    obtain ⟨sum1, h1, h2, h3⟩ := accumulate_spec n d hcont hclen word (clearSums n.C sum) hv
      (by rw [hcl]; exact hlen)
    have hsum : ∀ c : Nat, (c : Int) < n.C → sum1.getD c 0 = specSum n word (c : Int) d := by
      intro c hc
      rw [h3 c hc, clearSums_getD n.C sum hlen c]
      rfl
    have hfire : anyFired n.C n.H sum1 = true ↔ Fires n word d := by
      rw [anyFired_iff, fires_iff]
      constructor
      · rintro ⟨c, hc, h⟩
        exact ⟨c, hc, by rw [← hsum c hc]; exact h⟩
      · rintro ⟨c, hc, h⟩
        exact ⟨c, hc, by rw [hsum c hc]; exact h⟩
    have hlen1 : (sum1.length : Int) = n.C := by rw [h2, hcl]; exact hlen
    unfold exposeLoop
    simp only [h1]
    by_cases hf : anyFired n.C n.H sum1 = true
    · simp only [hf, if_true]
      exact ⟨d, sum1, rfl, hlen1,
        Or.inl ⟨le_refl d, by omega, hfire.1 hf, fun x hx1 hx2 => by omega, hsum⟩⟩
    · simp only [hf]
      obtain ⟨r, sum2, g1, g2, g3⟩ := ih (d + 1) sum1 hlen1
      refine ⟨r, sum2, g1, g2, ?_⟩
      have hnf : ¬ Fires n word d := fun h => hf (hfire.2 h)
      rcases g3 with ⟨a1, a2, a3, a4, a5⟩ | ⟨b1, b2, _, b4⟩
      · refine Or.inl ⟨by omega, by push_cast; omega, a3, fun x hx1 hx2 => ?_, a5⟩
        by_cases hxd : x = d
        · rw [hxd]; exact hnf
        · exact a4 x (by omega) hx2
      · refine Or.inr ⟨b1, by rw [b2, h2, hcl], fun h => by omega, fun x hx1 hx2 => ?_⟩
        by_cases hxd : x = d
        · rw [hxd]; exact hnf
        · exact b4 x (by omega) (by push_cast at hx2; omega)

/-- The value of `Expose` on a consistent neuron and a valid word, with the
scratch sums it leaves when the neuron fired. -/
theorem expose_spec (n : Neuron F) (word : Word) (hc : Consistent n)
    (hcont : ContainersInRange n) (hv : ValidWord n word) :
    ∃ r sum1, n.Expose word = .ok (r, { n with sum := sum1 }) ∧ (sum1.length : Int) = n.C ∧
      FirstFire n word r ∧
      (r ≠ kDisabled → ∀ c : Nat, (c : Int) < n.C → sum1.getD c 0 = specSum n word (c : Int) r) := by
  obtain ⟨c1, c2, c3, c4, c5⟩ := hc
  obtain ⟨r, sum1, h1, h2, h3⟩ := exposeLoop_spec n word hcont c4 hv n.slots.toNat 0 n.sum c1
  refine ⟨r, sum1, ?_, h2, ?_, ?_⟩
  · unfold Neuron.Expose
    simp [c1, c2, c3, c4, h1]
  · rcases h3 with ⟨a1, a2, a3, a4, _⟩ | ⟨b1, _, _, b4⟩
    · refine Or.inl ⟨a1, ?_, a3, a4⟩
      unfold Neuron.slots at a2
      omega
    · refine Or.inr ⟨b1, fun x hx1 hx2 => b4 x hx1 ?_⟩
      unfold Neuron.slots
      omega
  · intro hr
    rcases h3 with ⟨_, _, _, _, a5⟩ | ⟨b1, _⟩
    · exact a5
    · exact absurd b1 hr

/-- The fields of a neuron that `Expose` reads, apart from the scratch sums. -/
theorem accumulate_congr (n m : Neuron F) (d : Int) (h1 : n.length = m.length)
    (h2 : n.D1 = m.D1) (h3 : n.C = m.C) (h4 : n.delays = m.delays)
    (h5 : n.containers = m.containers) (h6 : n.strength = m.strength) :
    ∀ (word : Word) (sum : List F), accumulate n d word sum = accumulate m d word sum := by
  intro word
  induction word with
  | nil => intro sum; rfl
  | cons e rest ih =>
    intro sum
    obtain ⟨s, t⟩ := e
    unfold accumulate
    simp only [Neuron.delays_at, Neuron.containers_at, Neuron.strength_at, h1, h2, h3, h4, h5,
      h6, ih]

theorem exposeLoop_congr (n m : Neuron F) (word : Word) (h1 : n.length = m.length)
    (h2 : n.D1 = m.D1) (h3 : n.C = m.C) (h4 : n.delays = m.delays)
    (h5 : n.containers = m.containers) (h6 : n.strength = m.strength) (h7 : n.H = m.H) :
    ∀ (k : Nat) (d : Int) (sum : List F),
      exposeLoop n word k d sum = exposeLoop m word k d sum := by
  intro k
  induction k with
  | zero => intro d sum; rfl
  | succ k ih =>
    intro d sum
    unfold exposeLoop
    simp only [accumulate_congr n m d h1 h2 h3 h4 h5 h6, h3, h7, ih]

theorem clearSums_eq (C : Int) (sum sum1 : List F) (h : (sum.length : Int) = C)
    (h1 : sum1.length = sum.length) : clearSums C sum1 = clearSums C sum := by
  have e1 := clearSums_length C sum h
  have e2 := clearSums_length C sum1 (by omega)
  apply List.ext_getElem (by omega)
  intro i hi1 hi2
  rw [← List.getD_eq_getElem _ 0 hi1, ← List.getD_eq_getElem _ 0 hi2,
    clearSums_getD C sum h, clearSums_getD C sum1 (by omega)]

theorem exposeLoop_sum_irrel (n : Neuron F) (word : Word) (k : Nat) (d : Int)
    (sum sum1 : List F) (h : (sum.length : Int) = n.C) (h1 : sum1.length = sum.length) :
    exposeLoop n word (k + 1) d sum1 = exposeLoop n word (k + 1) d sum := by
  unfold exposeLoop
  rw [clearSums_eq n.C sum sum1 h h1]

theorem accumulate_length (n : Neuron F) (d : Int) :
    ∀ (word : Word) (sum sum1 : List F), accumulate n d word sum = .ok sum1 →
      sum1.length = sum.length := by
  intro word
  induction word with
  | nil =>
    intro sum sum1 h
    simp only [accumulate, Except.ok.injEq] at h
    rw [← h]
  | cons e rest ih =>
    intro sum sum1 h
    obtain ⟨s, t⟩ := e
    unfold accumulate at h
    split at h
    · exact absurd h (by simp)
    · split at h
      · exact absurd h (by simp)
      · split at h
        · split at h
          · exact absurd h (by simp)
          · rw [ih _ _ h, List.length_set]
        · exact ih _ _ h

theorem exposeLoop_length (n : Neuron F) (word : Word) :
    ∀ (k : Nat) (d : Int) (sum sum1 : List F) (r : Int), (sum.length : Int) = n.C →
      exposeLoop n word k d sum = .ok (r, sum1) → sum1.length = sum.length := by
  intro k
  induction k with
  | zero =>
    intro d sum sum1 r _ h
    simp only [exposeLoop, Except.ok.injEq, Prod.mk.injEq] at h
    rw [← h.2]
  | succ k ih =>
    intro d sum sum1 r hlen h
    unfold exposeLoop at h
    split at h
    · exact absurd h (by simp)
    · rename_i sum2 hacc
      have hl := accumulate_length n d word _ _ hacc
      rw [clearSums_length n.C sum hlen] at hl
      split at h
      · simp only [Except.ok.injEq, Prod.mk.injEq] at h
        rw [← h.2, hl]
      · rw [ih _ _ _ _ (by omega) h, hl]

/-- The shape of a successful `Expose`: the checks hold and the loop returned. -/
theorem expose_ok_iff (n : Neuron F) (word : Word) (r : Int) (n1 : Neuron F) :
    n.Expose word = .ok (r, n1) ↔
      ((n.sum.length : Int) = n.C ∧ (n.delays.length : Int) = n.length ∧
        (n.strength.length : Int) = n.length ∧ (n.containers.length : Int) = n.length) ∧
      ∃ sum1, exposeLoop n word n.slots.toNat 0 n.sum = .ok (r, sum1) ∧
        n1 = { n with sum := sum1 } := by
  unfold Neuron.Expose
  constructor
  · intro h
    split at h
    · exact absurd h (by simp)
    · split at h
      · exact absurd h (by simp)
      · split at h
        · exact absurd h (by simp)
        · split at h
          · exact absurd h (by simp)
          · rename_i c1 c2 c3 c4
            refine ⟨⟨not_not.1 c1, not_not.1 c2, not_not.1 c3, not_not.1 c4⟩, ?_⟩
            split at h
            · exact absurd h (by simp)
            · rename_i d sum1 hl
              simp only [Except.ok.injEq, Prod.mk.injEq] at h
              exact ⟨sum1, by rw [hl, h.1], h.2.symm⟩
  · rintro ⟨⟨c1, c2, c3, c4⟩, sum1, hl, rfl⟩
    simp [c1, c2, c3, c4, hl]

/-- The sums that the loop over the word entries leaves when it completes. -/
theorem accumulate_ok_spec (n : Neuron F) (d : Int) :
    ∀ (word : Word) (sum sum1 : List F), accumulate n d word sum = .ok sum1 →
      (sum.length : Int) = n.C →
      ∀ c : Nat, (c : Int) < n.C →
        sum1.getD c 0 =
          ((word.filter fun e =>
              decide (n.delays_at e.1 + e.2 = d ∧ n.containers_at e.1 = (c : Int))).map
            fun e => n.strength_at e.1).foldl (fun a x => a + x) (sum.getD c 0) := by
  intro word
  induction word with
  | nil =>
    intro sum sum1 h _ c _
    simp only [accumulate, Except.ok.injEq] at h
    rw [← h]
    rfl
  | cons e rest ih =>
    intro sum sum1 h hlen c hc
    obtain ⟨s, t⟩ := e
    unfold accumulate at h
    by_cases k1 : 0 ≤ s ∧ s < n.length
    · by_cases k2 : t = kDisabled ∨ (0 ≤ t ∧ t < n.D1)
      · simp only [k1, k2, and_self, not_true_eq_false, if_false] at h
        by_cases hm : n.delays_at s + t = d
        · simp only [hm, if_true] at h
          by_cases k3 : 0 ≤ n.containers_at s ∧ n.containers_at s < n.C
          · simp only [k3, and_self, not_true_eq_false, if_false] at h
            rw [ih _ _ h (by rw [List.length_set]; exact hlen) c hc]
            by_cases hcc : n.containers_at s = (c : Int)
            · have hcn : (n.containers_at s).toNat = c := by omega
              rw [List.filter_cons_of_pos (by simp [hm, hcc])]
              rw [hcn, getD_set_self _ _ _ _ (by omega)]
              simp [List.foldl_cons]
            · have hcn : (n.containers_at s).toNat ≠ c := by omega
              rw [List.filter_cons_of_neg (by simp [hcc])]
              rw [getD_set_other _ _ _ _ _ hcn]
          · simp [k3] at h
        · simp only [hm, if_false] at h
          rw [ih _ _ h hlen c hc, List.filter_cons_of_neg (by simp [hm])]
      · simp [k1, k2] at h
    · simp [k1] at h

/-- The value that the loop over the delay slots returns when it completes. -/
theorem exposeLoop_ok_spec (n : Neuron F) (word : Word) :
    ∀ (k : Nat) (d : Int) (sum sum1 : List F) (r : Int),
      exposeLoop n word k d sum = .ok (r, sum1) → (sum.length : Int) = n.C →
      (d ≤ r ∧ r < d + k ∧ Fires n word r ∧ ∀ x : Int, d ≤ x → x < r → ¬ Fires n word x) ∨
        (r = kDisabled ∧ ∀ x : Int, d ≤ x → x < d + k → ¬ Fires n word x) := by
  intro k
  induction k with
  | zero =>
    intro d sum sum1 r h _
    simp only [exposeLoop, Except.ok.injEq, Prod.mk.injEq] at h
    exact Or.inr ⟨h.1.symm, fun x h1 h2 => by omega⟩
  | succ k ih =>
    intro d sum sum1 r h hlen
    unfold exposeLoop at h
    have hcl := clearSums_length n.C sum hlen
    cases hacc : accumulate n d word (clearSums n.C sum) with
    | error e => rw [hacc] at h; exact absurd h (by simp)
    | ok sum2 =>
      rw [hacc] at h
      simp only at h
      have h3 := accumulate_ok_spec n d word _ sum2 hacc (by rw [hcl]; exact hlen)
      have h2 := accumulate_length n d word _ sum2 hacc
      have hsum : ∀ c : Nat, (c : Int) < n.C → sum2.getD c 0 = specSum n word (c : Int) d := by
        intro c hc
        rw [h3 c hc, clearSums_getD n.C sum hlen c]
        rfl
      have hfire : anyFired n.C n.H sum2 = true ↔ Fires n word d := by
        rw [anyFired_iff, fires_iff]
        constructor
        · rintro ⟨c, hc, hh⟩
          exact ⟨c, hc, by rw [← hsum c hc]; exact hh⟩
        · rintro ⟨c, hc, hh⟩
          exact ⟨c, hc, by rw [hsum c hc]; exact hh⟩
      by_cases hf : anyFired n.C n.H sum2 = true
      · simp only [hf, if_true, Except.ok.injEq, Prod.mk.injEq] at h
        rw [← h.1]
        exact Or.inl ⟨le_refl d, by omega, hfire.1 hf, fun x hx1 hx2 => by omega⟩
      · simp only [hf] at h
        have hnf : ¬ Fires n word d := fun hh => hf (hfire.2 hh)
        rcases ih (d + 1) sum2 sum1 r h (by rw [h2, hcl]; exact hlen) with
          ⟨a1, a2, a3, a4⟩ | ⟨b1, b4⟩
        · refine Or.inl ⟨by omega, by push_cast; omega, a3, fun x hx1 hx2 => ?_⟩
          by_cases hxd : x = d
          · rw [hxd]; exact hnf
          · exact a4 x (by omega) hx2
        · refine Or.inr ⟨b1, fun x hx1 hx2 => ?_⟩
          by_cases hxd : x = d
          · rw [hxd]; exact hnf
          · exact b4 x (by omega) (by push_cast at hx2; omega)

/-- Whenever `Expose` returns, on any neuron and any word, its value follows
the first-fire policy. -/
theorem expose_ok_firstFire (n : Neuron F) (word : Word) (r : Int) (n1 : Neuron F)
    (h : n.Expose word = .ok (r, n1)) : FirstFire n word r := by
  obtain ⟨⟨c1, _, _, _⟩, sum1, hl, _⟩ := (expose_ok_iff n word r n1).1 h
  rcases exposeLoop_ok_spec n word _ _ _ _ _ hl c1 with ⟨a1, a2, a3, a4⟩ | ⟨b1, b4⟩
  · refine Or.inl ⟨a1, ?_, a3, a4⟩
    unfold Neuron.slots at a2
    omega
  · refine Or.inr ⟨b1, fun x hx1 hx2 => b4 x hx1 ?_⟩
    unfold Neuron.slots
    omega

theorem expose_sum_irrel (n : Neuron F) (word : Word) (s : List F)
    (hs : s.length = n.sum.length) :
    ({ n with sum := s }.Expose word).map Prod.fst = (n.Expose word).map Prod.fst := by
  unfold Neuron.Expose
  simp only [hs, Neuron.slots]
  by_cases c1 : (n.sum.length : Int) = n.C
  · by_cases c2 : (n.delays.length : Int) = n.length
    · by_cases c3 : (n.strength.length : Int) = n.length
      · by_cases c4 : (n.containers.length : Int) = n.length
        · simp only [c1, c2, c3, c4, not_true_eq_false, if_false]
          rw [exposeLoop_congr { n with sum := s } n word rfl rfl rfl rfl rfl rfl rfl]
          cases hk : (n.D1 + n.D2).toNat with
          | zero => simp [exposeLoop, Except.map]
          | succ k =>
            rw [exposeLoop_sum_irrel n word k 0 n.sum s c1 hs]
        · simp [c4, Except.map]
      · simp [c3, Except.map]
    · simp [c2, Except.map]
  · simp [c1, Except.map]

theorem expose_fixpoint (n : Neuron F) (word : Word) (d : Int) (n1 : Neuron F)
    (h : n.Expose word = .ok (d, n1)) :
    n1 = { n with sum := n1.sum } ∧ n1.sum.length = n.sum.length ∧
      n1.Expose word = .ok (d, n1) := by
  obtain ⟨⟨c1, c2, c3, c4⟩, sum1, hl, rfl⟩ := (expose_ok_iff n word d n1).1 h
  have hlen := exposeLoop_length n word _ _ _ _ _ c1 hl
  refine ⟨rfl, hlen, ?_⟩
  rw [expose_ok_iff]
  refine ⟨⟨by simp only [hlen]; exact c1, c2, c3, c4⟩, sum1, ?_, rfl⟩
  rw [exposeLoop_congr { n with sum := sum1 } n word rfl rfl rfl rfl rfl rfl rfl]
  simp only [Neuron.slots] at hl ⊢
  cases hk : (n.D1 + n.D2).toNat with
  | zero =>
    rw [hk] at hl
    simp only [exposeLoop, Except.ok.injEq, Prod.mk.injEq] at hl ⊢
    exact ⟨hl.1, trivial⟩
  | succ k =>
    rw [hk] at hl
    rw [exposeLoop_sum_irrel n word k 0 n.sum sum1 c1 hlen]
    exact hl

/-! ## Train -/

theorem updateSynapse_ok (n : Neuron F) (s : Int) (hl : LearnReady n) :
    ∃ n1, UpdateSynapse n s = .ok n1 ∧
      n1 = { n with frozen := n1.frozen, strength := n1.strength } ∧
      n1.frozen = n.frozen.set s.toNat true ∧
      (n.learn = some .LearnSynapseAtrophy → n1.strength = n.strength) := by
  rcases hl with h | ⟨h, hg⟩
  · have e : UpdateSynapse n s = .ok (n.set_frozen s true) := by
      unfold UpdateSynapse
      rw [h]
    exact ⟨_, e, rfl, rfl, fun _ => rfl⟩
  · cases hgm : n.config.g_m with
    | none => rw [hgm] at hg; exact absurd hg (by simp)
    | some g =>
      have e : UpdateSynapse n s = .ok ((n.set_strength s g).set_frozen s true) := by
        unfold UpdateSynapse
        rw [h, hgm]
      exact ⟨_, e, rfl, rfl, fun h1 => by rw [h] at h1; exact absurd h1 (by simp)⟩

theorem learnReady_congr (n m : Neuron F) (h1 : m.learn = n.learn) (h2 : m.config = n.config)
    (hl : LearnReady n) : LearnReady m := by
  unfold LearnReady at hl ⊢
  rw [h1, h2]
  exact hl

theorem entrySynapses_congr (n m : Neuron F) (word : Word) (d i : Int)
    (h1 : m.delays = n.delays) (h2 : m.containers = n.containers) :
    entrySynapses m word d i = entrySynapses n word d i := by
  unfold entrySynapses Neuron.delays_at Neuron.containers_at
  rw [h1, h2]

theorem containerSynapses_congr (n m : Neuron F) (word : Word) (d : Int)
    (h1 : m.delays = n.delays) (h2 : m.containers = n.containers) (h3 : m.sum = n.sum)
    (h4 : m.H = n.H) :
    ∀ (k : Nat) (i : Int), containerSynapses m word d k i = containerSynapses n word d k i := by
  intro k
  induction k with
  | zero => intro i; rfl
  | succ k ih =>
    intro i
    unfold containerSynapses
    rw [ih, entrySynapses_congr n m word d i h1 h2]
    unfold Neuron.sum_at
    rw [h3, h4]

theorem updateAll_ok (L : List Int) :
    ∀ n : Neuron F, LearnReady n →
    ∃ n1, L.foldlM UpdateSynapse n = .ok n1 ∧
      n1 = { n with frozen := n1.frozen, strength := n1.strength } ∧
      n1.frozen = L.foldl (fun f s => f.set s.toNat true) n.frozen ∧
      (n.learn = some .LearnSynapseAtrophy → n1.strength = n.strength) := by
  induction L with
  | nil =>
    intro n _
    exact ⟨n, rfl, rfl, rfl, fun _ => rfl⟩
  | cons s rest ih =>
    intro n hl
    obtain ⟨n1, h1, h2, h3, h4⟩ := updateSynapse_ok n s hl
    have hl1 : LearnReady n1 :=
      learnReady_congr n n1 (by rw [h2]) (by rw [h2]) hl
    obtain ⟨n2, g1, g2, g3, g4⟩ := ih n1 hl1
    refine ⟨n2, ?_, ?_, ?_, ?_⟩
    · rw [List.foldlM_cons, h1]
      exact g1
    · rw [g2, h2]
    · rw [g3, h3]
      rfl
    · intro ha
      rw [g4 (by rw [h2]; exact ha), h4 ha]

theorem trainEntries_eq (d i : Int) :
    ∀ (word : Word) (n : Neuron F), LearnReady n →
      trainEntries d i word n = (entrySynapses n word d i).foldlM UpdateSynapse n := by
  intro word
  induction word with
  | nil => intro n _; rfl
  | cons e rest ih =>
    intro n hl
    obtain ⟨s, t⟩ := e
    unfold trainEntries
    by_cases hm : n.delays_at s + t = d ∧ n.containers_at s = i
    · obtain ⟨n1, h1, h2, _, _⟩ := updateSynapse_ok n s hl
      have hl1 : LearnReady n1 :=
        learnReady_congr n n1 (by rw [h2]) (by rw [h2]) hl
      have he : entrySynapses n ((s, t) :: rest) d i = s :: entrySynapses n1 rest d i := by
        rw [entrySynapses_congr n n1 rest d i (by rw [h2]) (by rw [h2])]
        unfold entrySynapses
        rw [List.filter_cons_of_pos (by simpa using hm)]
        rfl
      rw [he, List.foldlM_cons, h1]
      simp only [hm, and_self, if_true]
      exact ih n1 hl1
    · have he : entrySynapses n ((s, t) :: rest) d i = entrySynapses n rest d i := by
        unfold entrySynapses
        rw [List.filter_cons_of_neg (by simpa using hm)]
      rw [he]
      simp only [hm, if_false]
      exact ih n hl

theorem trainContainers_eq (word : Word) (d : Int) :
    ∀ (k : Nat) (i : Int) (n : Neuron F), LearnReady n →
      trainContainers word d k i n
        = (containerSynapses n word d k i).foldlM UpdateSynapse n := by
  intro k
  induction k with
  | zero => intro i n _; rfl
  | succ k ih =>
    intro i n hl
    unfold trainContainers containerSynapses
    by_cases hs : n.sum_at i + kEpsilon < n.H
    · simp only [hs, if_true, List.nil_append]
      exact ih (i + 1) n hl
    · simp only [hs, if_false]
      rw [trainEntries_eq d i word n hl, List.foldlM_append]
      obtain ⟨n1, h1, h2, _, _⟩ := updateAll_ok (entrySynapses n word d i) n hl
      have hl1 : LearnReady n1 :=
        learnReady_congr n n1 (by rw [h2]) (by rw [h2]) hl
      rw [h1]
      rw [← containerSynapses_congr n n1 word d (by rw [h2]) (by rw [h2]) (by rw [h2])
        (by rw [h2]) k (i + 1)]
      exact ih (i + 1) n1 hl1

theorem mem_entrySynapses (n : Neuron F) (word : Word) (d i s : Int) :
    s ∈ entrySynapses n word d i ↔
      ∃ t, (s, t) ∈ word ∧ n.delays_at s + t = d ∧ n.containers_at s = i := by
  unfold entrySynapses
  simp only [List.mem_map, List.mem_filter, decide_eq_true_eq, Prod.exists, exists_and_right,
    exists_eq_right]

theorem mem_containerSynapses (n : Neuron F) (word : Word) (d : Int) :
    ∀ (k : Nat) (i s : Int), s ∈ containerSynapses n word d k i ↔
      ∃ t, (s, t) ∈ word ∧ n.delays_at s + t = d ∧
        (i ≤ n.containers_at s ∧ n.containers_at s < i + k) ∧
        ¬ (n.sum_at (n.containers_at s) + kEpsilon < n.H) := by
  intro k
  induction k with
  | zero =>
    intro i s
    simp only [containerSynapses, List.not_mem_nil, false_iff, not_exists, not_and]
    intro t _ _ h
    omega
  | succ k ih =>
    intro i s
    unfold containerSynapses
    rw [List.mem_append, ih]
    constructor
    · rintro (h | ⟨t, h1, h2, h3, h4⟩)
      · by_cases hs : n.sum_at i + kEpsilon < n.H
        · simp [hs] at h
        · simp only [hs, if_false] at h
          obtain ⟨t, h1, h2, h3⟩ := (mem_entrySynapses n word d i s).1 h
          exact ⟨t, h1, h2, by push_cast; omega, by rw [h3]; exact hs⟩
      · exact ⟨t, h1, h2, by push_cast; omega, h4⟩
    · rintro ⟨t, h1, h2, h3, h4⟩
      by_cases hi : n.containers_at s = i
      · left
        rw [hi] at h4
        simp only [h4, if_false]
        exact (mem_entrySynapses n word d i s).2 ⟨t, h1, h2, hi⟩
      · right
        exact ⟨t, h1, h2, by push_cast at h3; omega, h4⟩

theorem mem_contributing (n : Neuron F) (word : Word) (d s : Int) :
    s ∈ (contributing n word d).map Prod.fst ↔
      ∃ t, (s, t) ∈ word ∧ n.delays_at s + t = d ∧
        n.H ≤ specSum n word (n.containers_at s) d + kEpsilon := by
  unfold contributing
  simp only [List.mem_map, List.mem_filter, decide_eq_true_eq, Prod.exists, exists_and_right,
    exists_eq_right]

theorem foldl_set_true_length (L : List Int) :
    ∀ f : List Bool, (L.foldl (fun f s => f.set s.toNat true) f).length = f.length := by
  induction L with
  | nil => intro f; rfl
  | cons s rest ih =>
    intro f
    rw [List.foldl_cons, ih, List.length_set]

theorem foldl_set_true_getD (L : List Int) :
    ∀ (f : List Bool) (j : Nat),
      (L.foldl (fun f s => f.set s.toNat true) f).getD j false = true ↔
        f.getD j false = true ∨ (j < f.length ∧ ∃ s ∈ L, s.toNat = j) := by
  induction L with
  | nil => intro f j; simp
  | cons s rest ih =>
    intro f j
    rw [List.foldl_cons, ih, List.length_set]
    by_cases hj : s.toNat = j
    · by_cases hlt : j < f.length
      · rw [← hj, getD_set_self _ _ _ _ (by omega)]
        simp only [true_or, true_iff]
        exact Or.inr ⟨by omega, s, List.mem_cons_self _ _, rfl⟩
      · rw [List.getD_eq_default _ _ (by rw [List.length_set]; omega),
          List.getD_eq_default _ _ (by omega)]
        simp [hlt]
    · rw [getD_set_other _ _ _ _ _ hj]
      constructor
      · rintro (h | ⟨h1, x, hx, h2⟩)
        · exact Or.inl h
        · exact Or.inr ⟨h1, x, List.mem_cons_of_mem _ hx, h2⟩
      · rintro (h | ⟨h1, x, hx, h2⟩)
        · exact Or.inl h
        · rcases List.mem_cons.1 hx with rfl | hx1
          · exact absurd h2 hj
          · exact Or.inr ⟨h1, x, hx1, h2⟩

/-- The value and the effect of `Train` on a consistent neuron and a valid
word. -/
theorem train_spec (n : Neuron F) (word : Word) (hc : Consistent n)
    (hcont : ContainersInRange n) (hv : ValidWord n word) (hl : LearnReady n) :
    ∃ r sum1 n2, n.Expose word = .ok (r, { n with sum := sum1 }) ∧
      n.Train word = .ok (r, n2) ∧ FirstFire n word r ∧ (sum1.length : Int) = n.C ∧
      (r = kDisabled → n2 = { n with sum := sum1 }) ∧
      (r ≠ kDisabled →
        ∃ L : List Int, L.foldlM UpdateSynapse { n with sum := sum1 } = .ok n2 ∧
          (∀ s, s ∈ L ↔ s ∈ (contributing n word r).map Prod.fst) ∧
          n2 = { n with sum := sum1, frozen := n2.frozen, strength := n2.strength } ∧
          n2.frozen = L.foldl (fun f s => f.set s.toNat true) n.frozen ∧
          (n.learn = some .LearnSynapseAtrophy → n2.strength = n.strength)) := by
  obtain ⟨r, sum1, h1, h2, h3, h4⟩ := expose_spec n word hc hcont hv
  obtain ⟨c1, c2, c3, c4, c5⟩ := hc
  have hln : n.learn ≠ none := by
    rcases hl with h | ⟨h, _⟩ <;> rw [h] <;> simp
  have hl1 : LearnReady { n with sum := sum1 } := learnReady_congr n _ rfl rfl hl
  obtain ⟨n2, g1, g2, g3, g4⟩ :=
    updateAll_ok (containerSynapses { n with sum := sum1 } word r n.C.toNat 0) _ hl1
  by_cases hr : r = kDisabled
  · refine ⟨r, sum1, { n with sum := sum1 }, h1, ?_, h3, h2, fun _ => rfl,
      fun h => absurd hr h⟩
    unfold Neuron.Train
    simp [c1, c2, c4, hln, h1, hr]
  · refine ⟨r, sum1, n2, h1, ?_, h3, h2, fun h => absurd h hr, fun _ =>
      ⟨_, g1, ?_, ?_, g3, g4⟩⟩
    · unfold Neuron.Train
      simp only [c1, c2, c4, hln, h1, hr, not_true_eq_false, if_false]
      rw [trainContainers_eq word r n.C.toNat 0 _ hl1, g1]
    · intro s
      rw [mem_containerSynapses, mem_contributing]
      constructor
      · rintro ⟨t, e1, e2, e3, e4⟩
        refine ⟨t, e1, e2, ?_⟩
        have e5 := h4 hr (n.containers_at s).toNat (by
          have := e3.1; have := e3.2
          simp only [Neuron.containers_at] at *
          omega)
        have e6 : ((n.containers_at s).toNat : Int) = n.containers_at s := by
          have := e3.1
          simp only [Neuron.containers_at] at *
          omega
        rw [e6] at e5
        have e7 := not_lt.1 e4
        simp only [Neuron.sum_at, Neuron.containers_at] at e7 e5 ⊢
        rw [e5] at e7
        exact e7
      · rintro ⟨t, e1, e2, e3⟩
        have hvs := hv (s, t) e1
        have hcr := containers_at_range n hcont c4 s hvs.1.1 hvs.1.2
        refine ⟨t, e1, e2, ⟨hcr.1, by simp only [Neuron.containers_at] at *; omega⟩, ?_⟩
        have e5 := h4 hr (n.containers_at s).toNat (by omega)
        have e6 : ((n.containers_at s).toNat : Int) = n.containers_at s := by omega
        rw [e6] at e5
        apply not_lt.2
        simp only [Neuron.sum_at, Neuron.containers_at] at e5 ⊢
        rw [e5]
        exact e3
    · rw [g2]

/-! ## Init -/

theorem rand_mod_range (r : Nat) (x : Int) (h1 : 1 ≤ x) (h2 : x < 2147483648) :
    toUInt32 x ≠ 0 ∧ 0 ≤ toInt32 ((r % 4294967296) % toUInt32 x) ∧
      toInt32 ((r % 4294967296) % toUInt32 x) < x := by
  have hx : toUInt32 x = x.toNat := by
    unfold toUInt32
    rw [Int.emod_eq_of_lt (by omega) (by omega)]
  have hpos : 0 < x.toNat := by omega
  have hm := Nat.mod_lt (r % 4294967296) hpos
  rw [hx]
  generalize (r % 4294967296) % x.toNat = m at hm
  refine ⟨by omega, ?_, ?_⟩
  · unfold toInt32
    split <;> omega
  · unfold toInt32
    split <;> omega

theorem initLoop_ok (rand : Nat → Nat) :
    ∀ (k i : Nat) (n : Neuron F), 1 ≤ n.D2 → n.D2 < 2147483648 → 1 ≤ n.C →
      n.C < 2147483648 → ∃ n1, initLoop rand k i n = .ok n1 := by
  intro k
  induction k with
  | zero => intro i n _ _ _ _; exact ⟨n, rfl⟩
  | succ k ih =>
    intro i n h1 h2 h3 h4
    obtain ⟨a1, a2, a3⟩ := rand_mod_range (rand (2 * i)) n.D2 h1 h2
    obtain ⟨b1, b2, b3⟩ := rand_mod_range (rand (2 * i + 1)) n.C h3 h4
    unfold initLoop
    simp only [a1, a2, a3, b1, b2, b3, and_self, not_true_eq_false, if_false]
    exact ih (i + 1) _ h1 h2 h3 h4

theorem initLoop_fail (rand : Nat → Nat) (k i : Nat) (n : Neuron F) (h : n.D2 < 1) :
    ∃ e, initLoop rand (k + 1) i n = .error e := by
  unfold initLoop
  by_cases h0 : toUInt32 n.D2 = 0
  · exact ⟨.undefined, by simp [h0]⟩
  · refine ⟨.check, ?_⟩
    simp only [h0, if_false]
    rw [if_pos]
    intro hh
    omega

theorem initLoop_spec (rand : Nat → Nat) :
    ∀ (k i : Nat) (n n1 : Neuron F), initLoop rand k i n = .ok n1 →
      i + k ≤ n.delays.length → Aligned n →
      n1 = { n with delays := n1.delays, containers := n1.containers, frozen := n1.frozen,
                    strength := n1.strength } ∧
      n1.delays.length = n.delays.length ∧ Aligned n1 ∧
      (∀ j, i ≤ j → j < i + k →
        (0 ≤ n1.delays.getD j 0 ∧ n1.delays.getD j 0 < n.D2) ∧
        (0 ≤ n1.containers.getD j 0 ∧ n1.containers.getD j 0 < n.C) ∧
        n1.frozen.getD j false = false ∧ n1.strength.getD j 0 = 1) ∧
      (∀ j, j < i →
        n1.delays.getD j 0 = n.delays.getD j 0 ∧
        n1.containers.getD j 0 = n.containers.getD j 0 ∧
        n1.frozen.getD j false = n.frozen.getD j false ∧
        n1.strength.getD j 0 = n.strength.getD j 0) := by
  intro k
  induction k with
  | zero =>
    intro i n n1 h _ ha
    simp only [initLoop, Except.ok.injEq] at h
    subst h
    exact ⟨rfl, rfl, ha, fun j h1 h2 => by omega, fun j _ => ⟨rfl, rfl, rfl, rfl⟩⟩
  | succ k ih =>
    intro i n n1 h hlen ha
    unfold initLoop at h
    by_cases hz : toUInt32 n.D2 = 0
    · simp [hz] at h
    · by_cases hdl : 0 ≤ toInt32 ((rand (2 * i) % 4294967296) % toUInt32 n.D2) ∧
          toInt32 ((rand (2 * i) % 4294967296) % toUInt32 n.D2) < n.D2
      · by_cases hzc : toUInt32 n.C = 0
        · simp [hz, hdl, hzc] at h
        · by_cases hct : 0 ≤ toInt32 ((rand (2 * i + 1) % 4294967296) % toUInt32 n.C) ∧
              toInt32 ((rand (2 * i + 1) % 4294967296) % toUInt32 n.C) < n.C
          · simp only [hz, hdl, hzc, hct, and_self, not_true_eq_false, if_false] at h
            have hdl1 := hdl
            have hct1 := hct
            obtain ⟨a1, a2, a3⟩ := ha
            obtain ⟨g1, g2, g3, g4, g5⟩ := ih (i + 1) _ n1 h
              (by simp only [List.length_set]; omega)
              (by simp only [Aligned, List.length_set]; exact ⟨a1, a2, a3⟩)
            simp only [List.length_set] at g2
            refine ⟨?_, g2, g3, ?_, ?_⟩
            · rw [g1]
            · intro j hj1 hj2
              by_cases hji : j = i
              · subst hji
                have := g5 j (by omega)
                rw [this.1, this.2.1, this.2.2.1, this.2.2.2]
                rw [getD_set_self _ _ _ _ (by omega), getD_set_self _ _ _ _ (by omega),
                  getD_set_self _ _ _ _ (by omega), getD_set_self _ _ _ _ (by omega)]
                exact ⟨hdl1, hct1, rfl, rfl⟩
              · exact g4 j (by omega) (by omega)
            · intro j hj
              have := g5 j (by omega)
              rw [this.1, this.2.1, this.2.2.1, this.2.2.2]
              have hne : i ≠ j := by omega
              rw [getD_set_other _ _ _ _ _ hne, getD_set_other _ _ _ _ _ hne,
                getD_set_other _ _ _ _ _ hne, getD_set_other _ _ _ _ _ hne]
              exact ⟨rfl, rfl, rfl, rfl⟩
          · simp [hz, hdl, hzc, hct] at h
      · simp [hz, hdl] at h

theorem initLoop_shape (rand : Nat → Nat) :
    ∀ (k i : Nat) (n n1 : Neuron F), initLoop rand k i n = .ok n1 →
      n1 = { n with delays := n1.delays, containers := n1.containers, frozen := n1.frozen,
                    strength := n1.strength } ∧
      n1.delays.length = n.delays.length := by
  intro k
  induction k with
  | zero =>
    intro i n n1 h
    simp only [initLoop, Except.ok.injEq] at h
    subst h
    exact ⟨rfl, rfl⟩
  | succ k ih =>
    intro i n n1 h
    unfold initLoop at h
    by_cases hz : toUInt32 n.D2 = 0
    · simp [hz] at h
    · by_cases hdl : 0 ≤ toInt32 ((rand (2 * i) % 4294967296) % toUInt32 n.D2) ∧
          toInt32 ((rand (2 * i) % 4294967296) % toUInt32 n.D2) < n.D2
      · by_cases hzc : toUInt32 n.C = 0
        · simp [hz, hdl, hzc] at h
        · by_cases hct : 0 ≤ toInt32 ((rand (2 * i + 1) % 4294967296) % toUInt32 n.C) ∧
              toInt32 ((rand (2 * i + 1) % 4294967296) % toUInt32 n.C) < n.C
          · simp only [hz, hdl, hzc, hct, and_self, not_true_eq_false, if_false] at h
            obtain ⟨g1, g2⟩ := ih (i + 1) _ n1 h
            simp only [List.length_set] at g2
            exact ⟨by rw [g1], g2⟩
          · simp [hz, hdl, hzc, hct] at h
      · simp [hz, hdl] at h

/-- The shape lemma and the element lemma of the loop of `Init` together. -/
theorem initLoop_spec_general (rand : Nat → Nat) (k i : Nat) (n n1 : Neuron F)
    (h : initLoop rand k i n = .ok n1) :
    n1 = { n with delays := n1.delays, containers := n1.containers, frozen := n1.frozen,
                  strength := n1.strength } ∧
    n1.delays.length = n.delays.length ∧
    (i + k ≤ n.delays.length → Aligned n →
      Aligned n1 ∧
      ∀ j, i ≤ j → j < i + k →
        (0 ≤ n1.delays.getD j 0 ∧ n1.delays.getD j 0 < n.D2) ∧
        (0 ≤ n1.containers.getD j 0 ∧ n1.containers.getD j 0 < n.C) ∧
        n1.frozen.getD j false = false ∧ n1.strength.getD j 0 = 1) := by
  obtain ⟨a1, a2⟩ := initLoop_shape rand k i n n1 h
  refine ⟨a1, a2, fun h1 h2 => ?_⟩
  obtain ⟨_, _, b3, b4, _⟩ := initLoop_spec rand k i n n1 h h1 h2
  exact ⟨b3, b4⟩

theorem resize_length {α : Type} (v : List α) (k : Nat) (dflt : α) :
    (resize v k dflt).length = k := by
  unfold resize
  rw [List.length_append, List.length_take, List.length_replicate]
  omega

theorem initResize_spec (n n2 : Neuron F) (h : initResize n = .ok n2) :
    n2 = { n with delays := n2.delays, containers := n2.containers, frozen := n2.frozen,
                  strength := n2.strength, sum := n2.sum } ∧
    0 ≤ n.length ∧ (n2.delays.length : Int) = n.length ∧
    n2.sum = (if (n.delays.length : Int) ≠ n.length then resize n.sum n.C.toNat 0 else n.sum) ∧
    (Aligned n → Aligned n2) := by
  unfold initResize at h
  by_cases k5 : (n.delays.length : Int) ≠ n.length
  · by_cases k6 : n.length < 0
    · simp [k5, k6] at h
    · rw [if_pos k5, if_neg k6] at h
      simp only [Except.ok.injEq] at h
      subst h
      rw [if_pos k5]
      simp only [resize_length, Aligned, and_self, implies_true, and_true, true_and]
      omega
  · rw [if_neg k5] at h
    simp only [Except.ok.injEq] at h
    subst h
    rw [if_neg k5]
    exact ⟨rfl, by omega, not_not.1 k5, rfl, fun h => h⟩

/-- What `Init` leaves when it completes. -/
theorem init_spec (self : Neuron F) (cfg : NeuronConfig F) (rand : Nat → Nat) (n : Neuron F)
    (h : self.Init cfg rand = .ok n) :
    ∃ c d1 d2 hh q r, cfg.c = some c ∧ cfg.d1 = some d1 ∧ cfg.d2 = some d2 ∧
      cfg.h = some hh ∧ cfg.q = some q ∧ cfg.r = some r ∧
      1 ≤ c ∧ d1 ≤ d2 ∧ (1 : F) ≤ hh ∧
      n.config = cfg ∧ n.C = c ∧ n.D1 = d1 ∧ n.D2 = d2 ∧ n.H = hh ∧ n.Q = q ∧ n.R = r ∧
      n.Q_after = -1 ∧
      n.length = DoubleModel.floor (DoubleModel.ofInt c * hh * q * DoubleModel.ofInt r + kEpsilon) ∧
      0 ≤ n.length ∧ n.length < 2147483648 ∧
      n.learn = (if cfg.g_m.isSome ∧ cfg.h_m.isSome then some .LearnSynapseStrength
        else some .LearnSynapseAtrophy) ∧
      n.sum = (if (self.delays.length : Int) ≠ n.length then resize self.sum c.toNat 0
        else self.sum) ∧
      (Aligned self → (n.delays.length : Int) = n.length ∧ Aligned n ∧
        ∀ j : Nat, (j : Int) < n.length →
          (0 ≤ n.delays.getD j 0 ∧ n.delays.getD j 0 < d2) ∧
          (0 ≤ n.containers.getD j 0 ∧ n.containers.getD j 0 < c) ∧
          n.frozen.getD j false = false ∧ n.strength.getD j 0 = 1) := by
  unfold Neuron.Init at h
  split at h
  · rename_i c d1 d2 hh q r e1 e2 e3 e4 e5 e6
    refine ⟨c, d1, d2, hh, q, r, e1, e2, e3, e4, e5, e6, ?_⟩
    by_cases k1 : 1 ≤ c
    · by_cases k2 : d1 ≤ d2
      · by_cases k3 : (1 : F) ≤ hh
        · simp only [k1, k2, k3, not_true_eq_false, if_false] at h
          generalize DoubleModel.floor (DoubleModel.ofInt c * hh * q * DoubleModel.ofInt r + kEpsilon)
            = fl at h ⊢
          by_cases k4 : -2147483648 ≤ fl ∧ fl < 2147483648
          · simp only [k4, and_self, not_true_eq_false, if_false] at h
            cases hr : initResize (initFields self cfg c d1 d2 hh q r fl) with
            | error e => rw [hr] at h; exact absurd h (by simp)
            | ok n2 =>
              rw [hr] at h
              simp only at h
              cases hi : initLoop rand n2.length.toNat 0 n2 with
              | error e => rw [hi] at h; exact absurd h (by simp)
              | ok n3 =>
                rw [hi] at h
                simp only [Except.ok.injEq] at h
                obtain ⟨r1, r2, r3, r4, r5⟩ := initResize_spec _ n2 hr
                have f1 : n2.config = cfg ∧ n2.C = c ∧ n2.D1 = d1 ∧ n2.D2 = d2 ∧ n2.H = hh ∧
                    n2.Q = q ∧ n2.R = r ∧ n2.Q_after = -1 ∧ n2.length = fl := by
                  rw [r1]
                  exact ⟨rfl, rfl, rfl, rfl, rfl, rfl, rfl, rfl, rfl⟩
                obtain ⟨f11, f12, f13, f14, f15, f16, f17, f18, f19⟩ := f1
                have r2a : 0 ≤ fl := r2
                have r3a : (n2.delays.length : Int) = fl := r3
                have r4a : n2.sum = (if (self.delays.length : Int) ≠ fl
                    then resize self.sum c.toNat 0 else self.sum) := r4
                obtain ⟨g1, g2, g4⟩ := initLoop_spec_general rand n2.length.toNat 0 n2 n3 hi
                have f2 : n3.config = n2.config ∧ n3.C = n2.C ∧ n3.D1 = n2.D1 ∧ n3.D2 = n2.D2 ∧
                    n3.H = n2.H ∧ n3.Q = n2.Q ∧ n3.R = n2.R ∧ n3.Q_after = n2.Q_after ∧
                    n3.length = n2.length ∧ n3.sum = n2.sum := by
                  rw [g1]
                  exact ⟨rfl, rfl, rfl, rfl, rfl, rfl, rfl, rfl, rfl, rfl⟩
                obtain ⟨f21, f22, f23, f24, f25, f26, f27, f28, f29, f20⟩ := f2
                rw [← h]
                refine ⟨k1, k2, k3, ?_, ?_, ?_, ?_, ?_, ?_, ?_, ?_, ?_, ?_, ?_, rfl, ?_, ?_⟩
                · show n3.config = cfg
                  rw [f21, f11]
                · show n3.C = c
                  rw [f22, f12]
                · show n3.D1 = d1
                  rw [f23, f13]
                · show n3.D2 = d2
                  rw [f24, f14]
                · show n3.H = hh
                  rw [f25, f15]
                · show n3.Q = q
                  rw [f26, f16]
                · show n3.R = r
                  rw [f27, f17]
                · show n3.Q_after = -1
                  rw [f28, f18]
                · show n3.length = fl
                  rw [f29, f19]
                · show 0 ≤ n3.length
                  rw [f29, f19]
                  exact r2a
                · show n3.length < 2147483648
                  rw [f29, f19]
                  exact k4.2
                · show n3.sum = _
                  rw [f20, r4a]
                  show _ = (if (self.delays.length : Int) ≠ n3.length then _ else _)
                  rw [f29, f19]
                · intro ha
                  have ha2 : Aligned n2 := r5 ha
                  obtain ⟨t1, t2⟩ := g4 (by rw [f19]; omega) ha2
                  refine ⟨?_, ?_, fun j hj => ?_⟩
                  · show (n3.delays.length : Int) = n3.length
                    rw [g2, f29, f19]
                    exact r3a
                  · exact t1
                  · have hj1 : (j : Int) < n3.length := hj
                    rw [f29] at hj1
                    have := t2 j (Nat.zero_le j) (by omega)
                    rw [f14, f12] at this
                    exact this
          · simp [k4] at h
        · simp [k1, k2, k3] at h
      · simp [k1, k2] at h
    · simp [k1] at h
  · exact absurd h (by simp)

/-! ## Neurons that differ only in the frozen flags and the scratch sums -/

theorem specSum_congr (n m : Neuron F) (word : Word) (c d : Int) (h1 : m.delays = n.delays)
    (h2 : m.containers = n.containers) (h3 : m.strength = n.strength) :
    specSum m word c d = specSum n word c d := by
  unfold specSum Neuron.delays_at Neuron.containers_at Neuron.strength_at
  rw [h1, h2, h3]

theorem fires_congr (n m : Neuron F) (word : Word) (d : Int) (h1 : m.delays = n.delays)
    (h2 : m.containers = n.containers) (h3 : m.strength = n.strength) (h4 : m.C = n.C)
    (h5 : m.H = n.H) : Fires m word d ↔ Fires n word d := by
  unfold Fires
  simp only [specSum_congr n m word _ d h1 h2 h3, h4, h5]

theorem firstFire_congr (n m : Neuron F) (word : Word) (r : Int) (h1 : m.delays = n.delays)
    (h2 : m.containers = n.containers) (h3 : m.strength = n.strength) (h4 : m.C = n.C)
    (h5 : m.H = n.H) (h6 : m.D1 = n.D1) (h7 : m.D2 = n.D2) :
    FirstFire m word r ↔ FirstFire n word r := by
  unfold FirstFire
  simp only [fires_congr n m word _ h1 h2 h3 h4 h5, h6, h7]

theorem contributing_congr (n m : Neuron F) (word : Word) (d : Int) (h1 : m.delays = n.delays)
    (h2 : m.containers = n.containers) (h3 : m.strength = n.strength) (h5 : m.H = n.H) :
    contributing m word d = contributing n word d := by
  unfold contributing
  simp only [specSum_congr n m word _ d h1 h2 h3, h5, Neuron.delays_at, Neuron.containers_at,
    h1, h2]

theorem firstFire_unique (n : Neuron F) (word : Word) (r r1 : Int) (h : FirstFire n word r)
    (h1 : FirstFire n word r1) : r = r1 := by
  rcases h with ⟨a1, a2, a3, a4⟩ | ⟨b1, b2⟩
  · rcases h1 with ⟨c1, c2, c3, c4⟩ | ⟨d1, d2⟩
    · by_contra hne
      rcases lt_or_gt_of_ne hne with hlt | hgt
      · exact c4 r a1 hlt a3
      · exact a4 r1 c1 hgt c3
    · exact absurd a3 (d2 r a1 a2)
  · rcases h1 with ⟨c1, c2, c3, c4⟩ | ⟨d1, d2⟩
    · exact absurd c3 (b2 r1 c1 c2)
    · rw [b1, d1]

/-- The relation between the neuron `n0` at the start of an atrophy training
cycle and the neuron `n` at a later point of the cycle: only the frozen flags
and the scratch sums differ, and no frozen flag was reset. -/
theorem train_atrophy_step (n0 n : Neuron F) (word : Word) (hc : Consistent n0)
    (hcont : ContainersInRange n0) (hla : n0.learn = some .LearnSynapseAtrophy)
    (hv : ValidWord n0 word)
    (hn : n = { n0 with frozen := n.frozen, sum := n.sum })
    (hfl : n.frozen.length = n0.frozen.length) (hsl : (n.sum.length : Int) = n0.C) :
    ∃ r n1, n.Train word = .ok (r, n1) ∧ FirstFire n0 word r ∧
      n1 = { n0 with frozen := n1.frozen, sum := n1.sum } ∧
      n1.frozen.length = n0.frozen.length ∧ (n1.sum.length : Int) = n0.C ∧
      (∀ j, n.frozen.getD j false = true → n1.frozen.getD j false = true) ∧
      (r ≠ kDisabled → ∀ s ∈ (contributing n0 word r).map Prod.fst,
        n1.frozen.getD s.toNat false = true) := by
  obtain ⟨c1, c2, c3, c4, c5⟩ := hc
  have e1 : n.delays = n0.delays := by rw [hn]
  have e2 : n.containers = n0.containers := by rw [hn]
  have e3 : n.strength = n0.strength := by rw [hn]
  have e4 : n.C = n0.C := by rw [hn]
  have e5 : n.H = n0.H := by rw [hn]
  have e6 : n.D1 = n0.D1 := by rw [hn]
  have e7 : n.D2 = n0.D2 := by rw [hn]
  have e8 : n.length = n0.length := by rw [hn]
  have e9 : n.learn = n0.learn := by rw [hn]
  have hcn : Consistent n := by
    unfold Consistent
    rw [e1, e2, e3, e4, e8, hfl]
    exact ⟨hsl, c2, c3, c4, c5⟩
  have hcontn : ContainersInRange n := by
    unfold ContainersInRange
    rw [e2, e4]
    exact hcont
  have hvn : ValidWord n word := by
    unfold ValidWord
    rw [e8, e6]
    exact hv
  have hln : LearnReady n := Or.inl (by rw [e9, hla])
  obtain ⟨r, sum1, n2, t1, t2, t3, t4, t5, t6⟩ := train_spec n word hcn hcontn hvn hln
  refine ⟨r, n2, t2, (firstFire_congr n0 n word r e1 e2 e3 e4 e5 e6 e7).1 t3, ?_⟩
  by_cases hr : r = kDisabled
  · have := t5 hr
    subst this
    refine ⟨by simp only []; rw [hn], hfl, by rw [← e4]; exact t4, fun j h => h,
      fun h => absurd hr h⟩
  · obtain ⟨L, u1, u2, u3, u4, u5⟩ := t6 hr
    have hstr : n2.strength = n0.strength := by rw [u5 (by rw [e9, hla]), e3]
    have hfr : n2.frozen.length = n0.frozen.length := by
      rw [u4, foldl_set_true_length, hfl]
    refine ⟨?_, hfr, ?_, ?_, ?_⟩
    · rw [u3, hn]
      simp only []
      rw [← hstr, u3]
    · rw [u3]
      simp only []
      rw [← e4]
      exact t4
    · intro j hj
      rw [u4, foldl_set_true_getD]
      exact Or.inl hj
    · intro _ s hs
      rw [← contributing_congr n0 n word r e1 e2 e3 e5] at hs
      have hsL := (u2 s).2 hs
      obtain ⟨t, m1, _, _⟩ := (mem_contributing n word r s).1 hs
      have hvs := hvn (s, t) m1
      simp only at hvs
      rw [u4, foldl_set_true_getD]
      refine Or.inr ⟨?_, s, hsL, rfl⟩
      have : (n.frozen.length : Int) = n.length := hcn.2.2.2.2
      omega

theorem trainEach_atrophy (n0 : Neuron F) (hc : Consistent n0) (hcont : ContainersInRange n0)
    (hla : n0.learn = some .LearnSynapseAtrophy) :
    ∀ (ws : List Word) (n : Neuron F), (∀ w ∈ ws, ValidWord n0 w) →
      n = { n0 with frozen := n.frozen, sum := n.sum } →
      n.frozen.length = n0.frozen.length → (n.sum.length : Int) = n0.C →
      ∃ ds n1, trainEach ws n = .ok (ds, n1) ∧
        n1 = { n0 with frozen := n1.frozen, sum := n1.sum } ∧
        n1.frozen.length = n0.frozen.length ∧ (n1.sum.length : Int) = n0.C ∧
        (∀ j, n.frozen.getD j false = true → n1.frozen.getD j false = true) ∧
        List.Forall₂ (fun w r => ValidWord n0 w ∧ FirstFire n0 w r ∧
          (r ≠ kDisabled → ∀ s ∈ (contributing n0 w r).map Prod.fst,
            n1.frozen.getD s.toNat false = true)) ws ds := by
  intro ws
  induction ws with
  | nil =>
    intro n _ hn hfl hsl
    exact ⟨[], n, rfl, hn, hfl, hsl, fun j h => h, List.Forall₂.nil⟩
  | cons w rest ih =>
    intro n hv hn hfl hsl
    obtain ⟨r, n1, a1, a2, a3, a4, a5, a6, a7⟩ :=
      train_atrophy_step n0 n w hc hcont hla (hv w (List.mem_cons_self _ _)) hn hfl hsl
    obtain ⟨ds, n2, b1, b2, b3, b4, b5, b6⟩ :=
      ih n1 (fun x hx => hv x (List.mem_cons_of_mem _ hx)) a3 a4 a5
    refine ⟨r :: ds, n2, ?_, b2, b3, b4, fun j h => b5 j (a6 j h), ?_⟩
    · unfold trainEach
      rw [a1]
      simp only [b1]
    · exact List.Forall₂.cons
        ⟨hv w (List.mem_cons_self _ _), a2, fun hr s hs => b5 _ (a7 hr s hs)⟩ b6

theorem atrophyLoop_spec (n : Neuron F) (hs : n.strength.length = n.delays.length) :
    ∀ k : Nat, k ≤ n.delays.length →
    atrophyLoop n k
      = { n with delays := (atrophyLoop n k).delays, strength := (atrophyLoop n k).strength } ∧
    (atrophyLoop n k).delays.length = n.delays.length ∧
    (atrophyLoop n k).strength.length = n.strength.length ∧
    ∀ j,
      (atrophyLoop n k).delays.getD j 0
        = (if j < k ∧ n.frozen.getD j false = false then kDisabled else n.delays.getD j 0) ∧
      (atrophyLoop n k).strength.getD j 0
        = (if j < k ∧ n.frozen.getD j false = false then 0 else n.strength.getD j 0) := by
  intro k
  induction k with
  | zero =>
    intro _
    simp only [atrophyLoop, List.range_zero, List.foldl_nil, Nat.not_lt_zero, false_and, if_false,
      and_self, implies_true]
  | succ k ih =>
    intro hk
    have hstep : atrophyLoop n (k + 1) =
        (if ¬ (atrophyLoop n k).frozen_at (k : Int) then
          ((atrophyLoop n k).set_strength (k : Int) 0).set_delays (k : Int) kDisabled
        else atrophyLoop n k) := by
      unfold atrophyLoop
      rw [List.range_succ, List.foldl_append]
      rfl
    rw [hstep]
    generalize atrophyLoop n k = m at ih ⊢
    obtain ⟨h1, h2, h3, h4⟩ := ih (by omega)
    have hfz : m.frozen_at (k : Int) = n.frozen.getD k false := by
      rw [h1]
      simp only [Neuron.frozen_at, Int.toNat_ofNat]
    by_cases hf : n.frozen.getD k false = true
    · rw [hfz, hf]
      simp only [not_true_eq_false, if_false]
      refine ⟨h1, h2, h3, fun j => ?_⟩
      rw [(h4 j).1, (h4 j).2]
      by_cases hjk : j = k
      · subst hjk
        rw [if_neg (by omega), if_neg (by rw [hf]; simp), if_neg (by omega),
          if_neg (by rw [hf]; simp)]
        exact ⟨rfl, rfl⟩
      · have : j < k + 1 ↔ j < k := by omega
        simp only [this]
        exact ⟨trivial, trivial⟩
    · have hf1 : n.frozen.getD k false = false := by simpa using hf
      rw [hfz, hf1]
      simp only [Bool.false_eq_true, not_false_eq_true, if_true, Neuron.set_delays,
        Neuron.set_strength, Int.toNat_ofNat, List.length_set]
      refine ⟨by rw [h1], h2, h3, fun j => ?_⟩
      by_cases hjk : j = k
      · subst hjk
        rw [getD_set_self _ _ _ _ (by omega), getD_set_self _ _ _ _ (by omega),
          if_pos ⟨by omega, hf1⟩, if_pos ⟨by omega, hf1⟩]
        exact ⟨rfl, rfl⟩
      · have hne : k ≠ j := fun h => hjk h.symm
        rw [getD_set_other _ _ _ _ _ hne, getD_set_other _ _ _ _ _ hne, (h4 j).1, (h4 j).2]
        have : j < k + 1 ↔ j < k := by omega
        simp only [this]
        exact ⟨trivial, trivial⟩

/-! ## Sums of unit strengths -/

theorem foldl_add_mono (l : List F) :
    ∀ a b : F, a ≤ b → l.foldl (fun x y => x + y) a ≤ l.foldl (fun x y => x + y) b := by
  induction l with
  | nil => intro a b h; exact h
  | cons x rest ih =>
    intro a b h
    simp only [List.foldl_cons]
    exact ih _ _ (DoubleModel.add_mono_left a b x h)

theorem onesSum_mono (k j : Nat) :
    (List.replicate k (1 : F)).foldl (fun x y => x + y) 0
      ≤ (List.replicate (k + j) (1 : F)).foldl (fun x y => x + y) 0 := by
  induction j with
  | zero => exact le_refl _
  | succ j ih =>
    refine le_trans ih ?_
    have : k + (j + 1) = (k + j) + 1 := by omega
    rw [this, List.replicate_succ, List.foldl_cons]
    exact foldl_add_mono _ _ _ (DoubleModel.le_add_one 0)

theorem map_eq_replicate_of_forall {α β : Type} (f : α → β) (a : β) :
    ∀ l : List α, (∀ e ∈ l, f e = a) → l.map f = List.replicate l.length a := by
  intro l
  induction l with
  | nil => intro _; rfl
  | cons x rest ih =>
    intro h
    rw [List.map_cons, List.length_cons, List.replicate_succ, h x (List.mem_cons_self _ _),
      ih (fun e he => h e (List.mem_cons_of_mem _ he))]

/-- The sums of a neuron whose unfrozen synapses were disabled, against the
sums of the neuron it comes from. -/
theorem atrophied_specSum (n0 n3 : Neuron F) (word : Word) (c d : Int)
    (hv : ValidWord n0 word) (hd : d < kDisabled)
    (hslen : (n0.strength.length : Int) = n0.length)
    (hone : ∀ x ∈ n0.strength, x = 1) (fz : Nat → Bool)
    (hcont : n3.containers = n0.containers)
    (hdel : ∀ j : Nat, (j : Int) < n0.length →
      n3.delays.getD j 0 = if fz j = true then n0.delays.getD j 0 else kDisabled)
    (hstr : ∀ j : Nat, (j : Int) < n0.length →
      n3.strength.getD j 0 = if fz j = true then 1 else 0) :
    specSum n3 word c d ≤ specSum n0 word c d ∧
    ((∀ e ∈ word, n0.delays_at e.1 + e.2 = d → n0.containers_at e.1 = c →
        fz e.1.toNat = true) → specSum n3 word c d = specSum n0 word c d) := by
  have hstep : ∀ e ∈ word,
      decide (n3.delays_at e.1 + e.2 = d ∧ n3.containers_at e.1 = c)
        = (fz e.1.toNat && decide (n0.delays_at e.1 + e.2 = d ∧ n0.containers_at e.1 = c)) := by
    intro e he
    have hve := hv e he
    have hj : ((e.1.toNat : Nat) : Int) < n0.length := by omega
    have h1 := hdel e.1.toNat hj
    simp only [Neuron.delays_at, Neuron.containers_at, hcont]
    rw [h1]
    by_cases hf : fz e.1.toNat = true
    · simp [hf]
    · have hf1 : fz e.1.toNat = false := by simpa using hf
      simp only [hf1, Bool.false_eq_true, if_false, Bool.false_and, decide_eq_false_iff_not,
        not_and]
      intro hk
      unfold kDisabled at hk hd hve
      omega
  have hfilter : (word.filter fun e =>
      decide (n3.delays_at e.1 + e.2 = d ∧ n3.containers_at e.1 = c))
      = (word.filter fun e =>
          decide (n0.delays_at e.1 + e.2 = d ∧ n0.containers_at e.1 = c)).filter
          fun e => fz e.1.toNat := by
    rw [List.filter_filter]
    exact List.filter_congr hstep
  obtain ⟨L0, hL0⟩ : ∃ L0, L0 = word.filter fun e =>
      decide (n0.delays_at e.1 + e.2 = d ∧ n0.containers_at e.1 = c) := ⟨_, rfl⟩
  have hmem : ∀ e ∈ L0, e ∈ word ∧ (n0.delays_at e.1 + e.2 = d ∧ n0.containers_at e.1 = c) := by
    intro e he
    rw [hL0] at he
    have h2 := List.mem_filter.1 he
    exact ⟨h2.1, by simpa using h2.2⟩
  have hm0 : (L0.map fun e => n0.strength_at e.1) = List.replicate L0.length 1 := by
    apply map_eq_replicate_of_forall
    intro e he
    have hve := hv e (hmem e he).1
    unfold Neuron.strength_at
    have hlt : e.1.toNat < n0.strength.length := by omega
    rw [List.getD_eq_getElem _ _ hlt]
    exact hone _ (List.getElem_mem hlt)
  have hm3 : ((L0.filter fun e => fz e.1.toNat).map fun e => n3.strength_at e.1)
      = List.replicate (L0.filter fun e => fz e.1.toNat).length 1 := by
    apply map_eq_replicate_of_forall
    intro e he
    have hfe : fz e.1.toNat = true := (List.mem_filter.1 he).2
    have hve := hv e (hmem e (List.mem_of_mem_filter he)).1
    unfold Neuron.strength_at
    rw [hstr e.1.toNat (by omega), if_pos hfe]
  unfold specSum
  rw [hfilter, ← hL0, hm0, hm3]
  constructor
  · have hle := List.length_filter_le (fun e : Int × Int => fz e.1.toNat) L0
    obtain ⟨j, hj⟩ := Nat.exists_eq_add_of_le hle
    rw [hj]
    exact onesSum_mono _ _
  · intro hall
    have : (L0.filter fun e => fz e.1.toNat) = L0 := by
      rw [List.filter_eq_self]
      intro e he
      exact hall e (hmem e he).1 (hmem e he).2.1 (hmem e he).2.2
    rw [this]

/-! ## The atrophy training cycle -/

/-- A complete atrophy training cycle on valid words: it returns, and the
neuron it leaves is described synapse by synapse from the neuron `n0` it
started from and the frozen flags `n2.frozen` at the end of the `Train`
calls. -/
theorem cycle_atrophy (n0 : Neuron F) (ws : List Word)
    (hlen : (n0.delays.length : Int) = n0.length ∧ (n0.strength.length : Int) = n0.length ∧
      (n0.containers.length : Int) = n0.length ∧ (n0.frozen.length : Int) = n0.length)
    (hsum : ws ≠ [] → (n0.sum.length : Int) = n0.C)
    (hcont : ContainersInRange n0) (hla : n0.learn = some .LearnSynapseAtrophy)
    (hv : ∀ w ∈ ws, ValidWord n0 w) :
    ∃ (ds : List Int) (n2 n3 : Neuron F), trainingCycle ws n0 = .ok (ds, n3) ∧
      n2.frozen.length = n0.frozen.length ∧
      n3 = { n0 with frozen := n2.frozen, sum := n3.sum, delays := n3.delays,
                     strength := n3.strength, Q_after := n3.Q_after } ∧
      (ws ≠ [] → (n3.sum.length : Int) = n0.C) ∧ n3.delays.length = n0.delays.length ∧
      n3.strength.length = n0.strength.length ∧
      (∀ j : Nat, (j : Int) < n0.length →
        n3.delays.getD j 0
          = (if n2.frozen.getD j false = true then n0.delays.getD j 0 else kDisabled) ∧
        n3.strength.getD j 0
          = (if n2.frozen.getD j false = true then n0.strength.getD j 0 else 0)) ∧
      (∀ j, n0.frozen.getD j false = true → n2.frozen.getD j false = true) ∧
      List.Forall₂ (fun w r => ValidWord n0 w ∧ FirstFire n0 w r ∧
        (r ≠ kDisabled → ∀ s ∈ (contributing n0 w r).map Prod.fst,
          n2.frozen.getD s.toNat false = true)) ws ds := by
  obtain ⟨c2, c3, c4, c5⟩ := hlen
  have htrain : ∃ (ds : List Int) (n2 : Neuron F), trainEach ws n0 = .ok (ds, n2) ∧
      n2 = { n0 with frozen := n2.frozen, sum := n2.sum } ∧
      n2.frozen.length = n0.frozen.length ∧ (ws ≠ [] → (n2.sum.length : Int) = n0.C) ∧
      (∀ j, n0.frozen.getD j false = true → n2.frozen.getD j false = true) ∧
      List.Forall₂ (fun w r => ValidWord n0 w ∧ FirstFire n0 w r ∧
        (r ≠ kDisabled → ∀ s ∈ (contributing n0 w r).map Prod.fst,
          n2.frozen.getD s.toNat false = true)) ws ds := by
    by_cases hne : ws = []
    · subst hne
      exact ⟨[], n0, rfl, rfl, rfl, fun h => absurd rfl h, fun j h => h, List.Forall₂.nil⟩
    · have hc : Consistent n0 := ⟨hsum hne, c2, c3, c4, c5⟩
      obtain ⟨ds, n2, a1, a2, a3, a4, a5, a6⟩ :=
        trainEach_atrophy n0 hc hcont hla ws n0 hv rfl rfl hc.1
      exact ⟨ds, n2, a1, a2, a3, fun _ => a4, a5, a6⟩
  obtain ⟨ds, n2, a1, a2, a3, a4, a5, a6⟩ := htrain
  have e1 : n2.delays = n0.delays := by rw [a2]
  have e3 : n2.strength = n0.strength := by rw [a2]
  have e8 : n2.length = n0.length := by rw [a2]
  have e9 : n2.learn = n0.learn := by rw [a2]
  have hk : n2.length.toNat ≤ n2.delays.length := by rw [e1, e8]; omega
  obtain ⟨b1, b2, b3, b4⟩ := atrophyLoop_spec n2 (by rw [e1, e3]; omega) n2.length.toNat hk
  obtain ⟨n3, hn3⟩ : ∃ n3 : Neuron F, n3 = { atrophyFinish n2 with
      Q_after := DoubleModel.ofInt (frozenCount (atrophyFinish n2))
        / DoubleModel.ofInt n2.length } := ⟨_, rfl⟩
  have hfin : n2.FinishTraining = .ok n3 := by
    unfold Neuron.FinishTraining
    rw [e9, hla, hn3]
    simp only [a3, c5, e8, not_true_eq_false, if_false]
  have d1 : n3.delays = (atrophyLoop n2 n2.length.toNat).delays := by rw [hn3]; rfl
  have d2 : n3.strength = (atrophyLoop n2 n2.length.toNat).strength := by rw [hn3]; rfl
  have d3 : n3.sum = n2.sum := by
    rw [hn3]
    show (atrophyLoop n2 n2.length.toNat).sum = n2.sum
    rw [b1]
  have d4 : n3 = { n0 with frozen := n2.frozen, sum := n3.sum, delays := n3.delays,
                           strength := n3.strength, Q_after := n3.Q_after } := by
    rw [hn3]
    simp only [atrophyFinish]
    rw [b1, a2]
  refine ⟨ds, n2, n3, ?_, a3, d4, ?_, ?_, ?_, ?_, a5, a6⟩
  · unfold trainingCycle Neuron.StartTraining
    rw [hla]
    simp only [a1, hfin]
  · intro hne
    rw [d3]
    exact a4 hne
  · rw [d1, b2, e1]
  · rw [d2, b3, e3]
  · intro j hj
    rw [d1, d2, (b4 j).1, (b4 j).2, e1, e3]
    have hjk : j < n2.length.toNat := by rw [e8]; omega
    by_cases hf : n2.frozen.getD j false = true
    · have hneg : ¬ (j < n2.length.toNat ∧ n2.frozen.getD j false = false) := by
        rw [hf]
        simp
      rw [if_neg hneg, if_neg hneg, if_pos hf, if_pos hf]
      exact ⟨rfl, rfl⟩
    · have hf1 : n2.frozen.getD j false = false := by simpa using hf
      have hpos : j < n2.length.toNat ∧ n2.frozen.getD j false = false := ⟨hjk, hf1⟩
      rw [if_pos hpos, if_pos hpos, if_neg hf, if_neg hf]
      exact ⟨rfl, rfl⟩

/-- After an atrophy training cycle every word of the cycle is answered by
`Expose` with the value `Train` returned for it. -/
theorem atrophy_recall (n0 : Neuron F) (ws : List Word)
    (hlen : (n0.delays.length : Int) = n0.length ∧ (n0.strength.length : Int) = n0.length ∧
      (n0.containers.length : Int) = n0.length ∧ (n0.frozen.length : Int) = n0.length)
    (hsum : ws ≠ [] → (n0.sum.length : Int) = n0.C)
    (hcont : ContainersInRange n0) (hla : n0.learn = some .LearnSynapseAtrophy)
    (hone : ∀ x ∈ n0.strength, x = 1) (hslots : n0.D1 + n0.D2 ≤ kDisabled)
    (hv : ∀ w ∈ ws, ValidWord n0 w) :
    ∃ (ds : List Int) (n3 : Neuron F), trainingCycle ws n0 = .ok (ds, n3) ∧
      List.Forall₂ (fun w r => FirstFire n0 w r ∧ ∃ n4, n3.Expose w = .ok (r, n4)) ws ds := by
  obtain ⟨ds, n2, n3, a1, a2, a3, a4, a5, a6, a7, _, a9⟩ :=
    cycle_atrophy n0 ws hlen hsum hcont hla hv
  refine ⟨ds, n3, a1, ?_⟩
  by_cases hne : ws = []
  · subst hne
    cases a9
    exact List.Forall₂.nil
  have a4 := a4 hne
  refine a9.imp ?_
  intro w r ⟨hvw, hff, hfz⟩
  refine ⟨hff, ?_⟩
  obtain ⟨c2, c3, c4, c5⟩ := hlen
  have e2 : n3.containers = n0.containers := by rw [a3]
  have e4 : n3.C = n0.C := by rw [a3]
  have e5 : n3.H = n0.H := by rw [a3]
  have e6 : n3.D1 = n0.D1 := by rw [a3]
  have e7 : n3.D2 = n0.D2 := by rw [a3]
  have e8 : n3.length = n0.length := by rw [a3]
  have e10 : n3.frozen = n2.frozen := by rw [a3]
  have hc3 : Consistent n3 := by
    unfold Consistent
    rw [e4, e8, e2, a5, a6, e10, a2]
    exact ⟨a4, c2, c3, c4, c5⟩
  have hcont3 : ContainersInRange n3 := by
    unfold ContainersInRange
    rw [e2, e4]
    exact hcont
  have hv3 : ValidWord n3 w := by
    unfold ValidWord
    rw [e8, e6]
    exact hvw
  obtain ⟨r3, sum3, g1, _, g3, _⟩ := expose_spec n3 w hc3 hcont3 hv3
  have hstr : ∀ j : Nat, (j : Int) < n0.length →
      n3.strength.getD j 0 = if n2.frozen.getD j false = true then 1 else 0 := by
    intro j hj
    rw [(a7 j hj).2]
    have hlt : j < n0.strength.length := by omega
    rw [List.getD_eq_getElem _ _ hlt, hone _ (List.getElem_mem hlt)]
  have hdel : ∀ j : Nat, (j : Int) < n0.length →
      n3.delays.getD j 0 = if n2.frozen.getD j false = true then n0.delays.getD j 0
        else kDisabled := fun j hj => (a7 j hj).1
  have hdown : ∀ d : Int, d < n0.D1 + n0.D2 → Fires n3 w d → Fires n0 w d := by
    rintro d hd ⟨c, k1, k2, k3⟩
    have hle := (atrophied_specSum n0 n3 w c d hvw (by omega) c3 hone
      (fun j => n2.frozen.getD j false) e2 hdel hstr).1
    refine ⟨c, k1, by rw [← e4]; exact k2, ?_⟩
    rw [e5] at k3
    exact le_trans k3 (DoubleModel.add_mono_left _ _ _ hle)
  have hff3 : FirstFire n3 w r := by
    rcases hff with ⟨b1, b2, b3, b4⟩ | ⟨b1, b2⟩
    · refine Or.inl ⟨b1, by rw [e6, e7]; exact b2, ?_, fun d hd1 hd2 hf =>
        b4 d hd1 hd2 (hdown d (by omega) hf)⟩
      have hrne : r ≠ kDisabled := by omega
      obtain ⟨c, k1, k2, k3⟩ := b3
      have heq := (atrophied_specSum n0 n3 w c r hvw (by omega) c3 hone
        (fun j => n2.frozen.getD j false) e2 hdel hstr).2 (by
          intro e he h1 h2
          apply hfz hrne e.1
          rw [mem_contributing]
          exact ⟨e.2, he, h1, by rw [h2]; exact k3⟩)
      exact ⟨c, k1, by rw [e4]; exact k2, by rw [e5, heq]; exact k3⟩
    · refine Or.inr ⟨b1, fun d hd1 hd2 hf => ?_⟩
      rw [e6, e7] at hd2
      exact b2 d hd1 hd2 (hdown d hd2 hf)
  have : r3 = r := firstFire_unique n3 w r3 r g3 hff3
  rw [this] at g1
  exact ⟨_, g1⟩

/-! ## When `Init` completes -/

theorem initResize_ok (n : Neuron F) (h : 0 ≤ n.length) :
    ∃ n2, initResize n = .ok n2 ∧ n2.length = n.length ∧ n2.C = n.C ∧ n2.D2 = n.D2 := by
  unfold initResize
  by_cases k5 : (n.delays.length : Int) ≠ n.length
  · rw [if_pos k5, if_neg (by omega)]
    exact ⟨_, rfl, rfl, rfl, rfl⟩
  · rw [if_neg k5]
    exact ⟨_, rfl, rfl, rfl, rfl⟩

theorem initResize_fail (n : Neuron F) (h : n.length < 0) :
    initResize n = .error .lengthError := by
  unfold initResize
  rw [if_pos (by omega), if_pos h]

/-- The configurations on which `Init` completes. -/
theorem init_ok_iff (self : Neuron F) (cfg : NeuronConfig F) (rand : Nat → Nat)
    (c d1 d2 : Int) (hh q : F) (r : Int) (e1 : cfg.c = some c) (e2 : cfg.d1 = some d1)
    (e3 : cfg.d2 = some d2) (e4 : cfg.h = some hh) (e5 : cfg.q = some q) (e6 : cfg.r = some r)
    (hc : c < 2147483648) (hd : d2 < 2147483648) :
    (∃ n, self.Init cfg rand = .ok n) ↔
      1 ≤ c ∧ d1 ≤ d2 ∧ (1 : F) ≤ hh ∧
      0 ≤ DoubleModel.floor (DoubleModel.ofInt c * hh * q * DoubleModel.ofInt r + kEpsilon) ∧
      DoubleModel.floor (DoubleModel.ofInt c * hh * q * DoubleModel.ofInt r + kEpsilon)
        < 2147483648 ∧
      (DoubleModel.floor (DoubleModel.ofInt c * hh * q * DoubleModel.ofInt r + kEpsilon) = 0 ∨
        1 ≤ d2) := by
  unfold Neuron.Init
  simp only [e1, e2, e3, e4, e5, e6]
  generalize DoubleModel.floor (DoubleModel.ofInt c * hh * q * DoubleModel.ofInt r + kEpsilon) = fl
  by_cases k1 : 1 ≤ c
  · by_cases k2 : d1 ≤ d2
    · by_cases k3 : (1 : F) ≤ hh
      · simp only [k1, k2, k3, not_true_eq_false, if_false, true_and]
        by_cases k4 : -2147483648 ≤ fl ∧ fl < 2147483648
        · simp only [k4, and_self, not_true_eq_false, if_false, true_and]
          by_cases k5 : 0 ≤ fl
          · obtain ⟨n2, r1, r2, r3, r4⟩ :=
              initResize_ok (initFields self cfg c d1 d2 hh q r fl) k5
            have r2a : n2.length = fl := r2
            have r3a : n2.C = c := r3
            have r4a : n2.D2 = d2 := r4
            rw [r1]
            simp only [k5, true_and]
            by_cases k6 : 1 ≤ d2
            · obtain ⟨n3, hn3⟩ := initLoop_ok rand n2.length.toNat 0 n2 (by omega) (by omega)
                (by omega) (by omega)
              rw [hn3]
              simp only [k6, or_true, iff_true]
              exact ⟨_, rfl⟩
            · by_cases k7 : fl = 0
              · rw [r2a, k7]
                simp only [Int.toNat_zero, initLoop, true_or, iff_true]
                exact ⟨_, rfl⟩
              · obtain ⟨k, hk⟩ : ∃ k, n2.length.toNat = k + 1 :=
                  ⟨n2.length.toNat - 1, by omega⟩
                obtain ⟨e, he⟩ := initLoop_fail rand k 0 n2 (by omega)
                rw [hk, he]
                simp only [k6, k7, or_self, iff_false, not_exists]
                intro x hx
                exact absurd hx (by simp)
          · rw [initResize_fail _ (by simp only [initFields]; omega)]
            simp only [k5, false_and, iff_false, not_exists]
            intro x hx
            exact absurd hx (by simp)
        · simp only [k4, not_false_eq_true, if_true]
          constructor
          · rintro ⟨x, hx⟩
            exact absurd hx (by simp)
          · rintro ⟨h1, h2, _⟩
            exact absurd ⟨by omega, h2⟩ k4
      · simp [k1, k2, k3]
    · simp [k1, k2]
  · simp [k1]

theorem init_malformed (self : Neuron F) (cfg : NeuronConfig F) (rand : Nat → Nat)
    (h : Malformed cfg) : self.Init cfg rand = .error .check := by
  unfold Malformed at h
  unfold Neuron.Init
  split
  · rename_i c d1 d2 hh q r e1 e2 e3 e4 e5 e6
    simp only [e1, e2, e3, e4, e5, e6] at h
    by_cases k1 : 1 ≤ c
    · by_cases k2 : d1 ≤ d2
      · by_cases k3 : (1 : F) ≤ hh
        · rcases h with h | h | h
          · omega
          · omega
          · exact absurd h (not_lt.2 k3)
        · simp [k1, k2, k3]
      · simp [k1, k2]
    · simp [k1]
  · rfl

/-! ## Train against Expose, without assumptions on the word -/

theorem train_of_expose (n : Neuron F) (word : Word) (hl : LearnReady n) (r : Int)
    (n1 : Neuron F) (h : n.Expose word = .ok (r, n1)) :
    ∃ n2, n.Train word = .ok (r, n2) ∧ (r = kDisabled → n2 = n1) := by
  obtain ⟨⟨c1, c2, c3, c4⟩, sum1, _, hn1⟩ := (expose_ok_iff n word r n1).1 h
  have hln : n.learn ≠ none := by
    rcases hl with h1 | ⟨h1, _⟩ <;> rw [h1] <;> simp
  have hl1 : LearnReady n1 := learnReady_congr n n1 (by rw [hn1]) (by rw [hn1]) hl
  by_cases hr : r = kDisabled
  · refine ⟨n1, ?_, fun _ => rfl⟩
    unfold Neuron.Train
    simp [c1, c2, c4, hln, h, hr]
  · obtain ⟨n2, g1, _⟩ := updateAll_ok (containerSynapses n1 word r n1.C.toNat 0) n1 hl1
    refine ⟨n2, ?_, fun h1 => absurd h1 hr⟩
    unfold Neuron.Train
    simp only [c1, c2, c4, hln, h, hr, not_true_eq_false, if_false]
    rw [trainContainers_eq word r n1.C.toNat 0 n1 hl1, g1]

theorem expose_of_train (n : Neuron F) (word : Word) (r : Int) (n2 : Neuron F)
    (h : n.Train word = .ok (r, n2)) :
    ∃ n1, n.Expose word = .ok (r, n1) ∧ (r = kDisabled → n2 = n1) := by
  unfold Neuron.Train at h
  split at h
  · exact absurd h (by simp)
  · split at h
    · exact absurd h (by simp)
    · split at h
      · exact absurd h (by simp)
      · split at h
        · exact absurd h (by simp)
        · split at h
          · exact absurd h (by simp)
          · rename_i d n1 hex
            split at h
            · rename_i hd
              simp only [Except.ok.injEq, Prod.mk.injEq] at h
              refine ⟨n1, by rw [hex, h.1], fun _ => h.2.symm⟩
            · rename_i hd
              split at h
              · exact absurd h (by simp)
              · simp only [Except.ok.injEq, Prod.mk.injEq] at h
                refine ⟨n1, by rw [hex, h.1], fun hk => ?_⟩
                rw [← h.1] at hk
                exact absurd hk hd

/-! ## Counting frozen synapses -/

theorem foldl_count (p : Nat → Bool) (l : List Nat) :
    ∀ c0 : Int, l.foldl (fun count (i : Nat) => if p i = true then count + 1 else count) c0
      = c0 + ((l.filter p).length : Int) := by
  induction l with
  | nil => intro c0; simp
  | cons x rest ih =>
    intro c0
    rw [List.foldl_cons, ih]
    by_cases hp : p x = true
    · rw [if_pos hp, List.filter_cons_of_pos hp, List.length_cons]
      push_cast
      omega
    · rw [if_neg hp, List.filter_cons_of_neg hp]

theorem frozenCount_eq (n : Neuron F) :
    frozenCount n
      = (((List.range n.length.toNat).filter fun i => n.frozen.getD i false).length : Int) := by
  unfold frozenCount
  have := foldl_count (fun i => n.frozen.getD i false) (List.range n.length.toNat) 0
  simp only [zero_add] at this
  rw [← this]
  rfl

theorem getD_false_of_all_false (l : List Bool) (h : ∀ b ∈ l, b = false) (j : Nat) :
    l.getD j false = false := by
  by_cases hj : j < l.length
  · rw [List.getD_eq_getElem _ _ hj]
    exact h _ (List.getElem_mem hj)
  · rw [List.getD_eq_default _ _ (by omega)]

/-- On a neuron without frozen synapses, setting the flags of the synapses
`L` (valid and pairwise distinct) leaves exactly `L.length` frozen synapses. -/
theorem frozenCount_after (n n2 : Neuron F) (L : List Int)
    (hfresh : ∀ b ∈ n.frozen, b = false) (hlen : (n.frozen.length : Int) = n.length)
    (hn2 : n2.length = n.length)
    (hfz : ∀ j, n2.frozen.getD j false = true ↔
      n.frozen.getD j false = true ∨ (j < n.frozen.length ∧ ∃ s ∈ L, s.toNat = j))
    (hvalid : ∀ s ∈ L, 0 ≤ s ∧ s < n.length) (hnd : L.Nodup) :
    frozenCount n2 = (L.length : Int) := by
  rw [frozenCount_eq]
  have hB : (L.map Int.toNat).Nodup := by
    apply List.Nodup.map_on _ hnd
    intro x hx y hy hxy
    have := hvalid x hx
    have := hvalid y hy
    omega
  have hA : ((List.range n2.length.toNat).filter fun i => n2.frozen.getD i false).Nodup :=
    (List.nodup_range _).filter _
  have hperm : ((List.range n2.length.toNat).filter fun i => n2.frozen.getD i false).Perm
      (L.map Int.toNat) := by
    rw [List.perm_ext_iff_of_nodup hA hB]
    intro j
    rw [List.mem_filter, List.mem_range, hfz, List.mem_map, hn2]
    constructor
    · rintro ⟨_, h | ⟨_, s, hs, rfl⟩⟩
      · rw [getD_false_of_all_false _ hfresh] at h
        exact absurd h (by simp)
      · exact ⟨s, hs, rfl⟩
    · rintro ⟨s, hs, rfl⟩
      have := hvalid s hs
      exact ⟨by omega, Or.inr ⟨by omega, s, hs, rfl⟩⟩
  rw [hperm.length_eq, List.length_map]

/-- What `Init` establishes for the training theorems: the containers are in
range, every strength is `1.0`, and the synapse vectors have `length`
entries. -/
theorem init_ready (self : Neuron F) (cfg : NeuronConfig F) (rand : Nat → Nat) (n0 : Neuron F)
    (ha : Aligned self) (hinit : self.Init cfg rand = .ok n0) :
    ContainersInRange n0 ∧ (∀ x ∈ n0.strength, x = 1) ∧ (∀ b ∈ n0.frozen, b = false) ∧
      (∀ x ∈ n0.delays, 0 ≤ x ∧ x < n0.D2) ∧
      (n0.delays.length : Int) = n0.length ∧ (n0.strength.length : Int) = n0.length ∧
      (n0.containers.length : Int) = n0.length ∧ (n0.frozen.length : Int) = n0.length ∧
      n0.learn = (if cfg.g_m.isSome ∧ cfg.h_m.isSome then some .LearnSynapseStrength
        else some .LearnSynapseAtrophy) := by
  obtain ⟨c, d1, d2, hh, q, r, _, _, _, _, _, _, _, _, _, _, f2, _, f4, _, _, _, _, _, _, _, f11,
    _, f13⟩ := init_spec self cfg rand n0 hinit
  obtain ⟨g1, ⟨g2, g3, g4⟩, g5⟩ := f13 ha
  refine ⟨?_, ?_, ?_, ?_, g1, by omega, by omega, by omega, f11⟩
  · intro x hx
    obtain ⟨j, hj, rfl⟩ := List.mem_iff_getElem.1 hx
    have := (g5 j (by omega)).2.1
    rw [List.getD_eq_getElem _ _ hj] at this
    rw [f2]
    exact this
  · intro x hx
    obtain ⟨j, hj, rfl⟩ := List.mem_iff_getElem.1 hx
    have := (g5 j (by omega)).2.2.2
    rw [List.getD_eq_getElem _ _ hj] at this
    exact this
  · intro x hx
    obtain ⟨j, hj, rfl⟩ := List.mem_iff_getElem.1 hx
    have := (g5 j (by omega)).2.2.1
    rw [List.getD_eq_getElem _ _ hj] at this
    exact this
  · intro x hx
    obtain ⟨j, hj, rfl⟩ := List.mem_iff_getElem.1 hx
    have := (g5 j (by omega)).1
    rw [List.getD_eq_getElem _ _ hj] at this
    rw [f4]
    exact this

/-! ## The claims -/

/-- C1: on a neuron and a word for which the `int32` sums of `Expose` do not
overflow (the number of slots `D1 + D2` and the sum `delays(s) + t` of every
word entry are `int32` values), whenever `Expose(word)` returns it returns the
smallest `d` in `[0, D1 + D2)` for which some container `c` satisfies
`H <= S(c,d) + 1e-6`, and `kDisabled` if there is no such `d`; and it does
return, with that value, on every neuron that passes the consistency checks
(vector sizes, containers in `[0, C)`) and every word whose entries have a
synapse in `[0, length)` and an input delay in `[0, D1)` or `kDisabled`.  The
sums do not overflow in the documented domain: `0 <= D1`, `0 <= D2`,
`D1 + D2 <= kDisabled = 2^29`, synapse delays in `[0, D2)` or `kDisabled`, and
a valid word. -/
theorem c1_expose_first_fire (n : Neuron F) (word : Word) :
    ((-2147483648 ≤ n.D1 + n.D2 ∧ n.D1 + n.D2 ≤ 2147483647) →
      (∀ e ∈ word,
        -2147483648 ≤ n.delays_at e.1 + e.2 ∧ n.delays_at e.1 + e.2 ≤ 2147483647) →
      (∀ r n1, n.Expose word = .ok (r, n1) → FirstFire n word r) ∧
      (Consistent n → ContainersInRange n → ValidWord n word →
        ∃ r n1, n.Expose word = .ok (r, n1) ∧ FirstFire n word r)) ∧
    (0 ≤ n.D1 → 0 ≤ n.D2 → n.D1 + n.D2 ≤ 536870912 →
      (∀ x ∈ n.delays, x = kDisabled ∨ (0 ≤ x ∧ x < n.D2)) →
      (n.delays.length : Int) = n.length → ValidWord n word →
      (-2147483648 ≤ n.D1 + n.D2 ∧ n.D1 + n.D2 ≤ 2147483647) ∧
      (∀ e ∈ word,
        -2147483648 ≤ n.delays_at e.1 + e.2 ∧ n.delays_at e.1 + e.2 ≤ 2147483647)) := by
  refine ⟨fun _ _ => ⟨fun r n1 h => expose_ok_firstFire n word r n1 h, fun hc hcont hv => ?_⟩,
    fun hD1 hD2 hD hdel hlen hv => ⟨by omega, fun e he => ?_⟩⟩
  · obtain ⟨r, sum1, h1, _⟩ := expose_spec n word hc hcont hv
    exact ⟨r, _, h1, expose_ok_firstFire n word r _ h1⟩
  · obtain ⟨⟨s0, s1⟩, hin⟩ := hv e he
    have hlt : e.1.toNat < n.delays.length := by omega
    have hm := hdel _ (List.getElem_mem hlt)
    unfold Neuron.delays_at
    rw [List.getD_eq_getElem _ _ hlt]
    unfold kDisabled at hm hin
    omega

/-- C1 on `exampleNeuron` and `exampleWord`, which are in the documented
domain: `Expose` returns 1, the first slot in which the neuron fires. -/
theorem c1_expose_first_fire_witness :
    ((-2147483648 ≤ exampleNeuron.D1 + exampleNeuron.D2 ∧
        exampleNeuron.D1 + exampleNeuron.D2 ≤ 2147483647) ∧
      (∀ e ∈ exampleWord, -2147483648 ≤ exampleNeuron.delays_at e.1 + e.2 ∧
        exampleNeuron.delays_at e.1 + e.2 ≤ 2147483647)) ∧
    (exampleNeuron.Expose exampleWord = .ok (1, exampleExposed) ∧
      FirstFire exampleNeuron exampleWord 1) ∧
    (Consistent exampleNeuron ∧ ContainersInRange exampleNeuron ∧
      ValidWord exampleNeuron exampleWord ∧
      ∃ r n1, exampleNeuron.Expose exampleWord = .ok (r, n1) ∧
        FirstFire exampleNeuron exampleWord r) := by
  have hdom := (c1_expose_first_fire exampleNeuron exampleWord).2 (by decide) (by decide)
    (by decide) (by decide) (by decide) (by decide)
  have key := (c1_expose_first_fire exampleNeuron exampleWord).1 hdom.1 hdom.2
  exact ⟨hdom, ⟨by decide!, key.1 1 exampleExposed (by decide!)⟩, by decide, by decide,
    by decide, key.2 (by decide) (by decide) (by decide)⟩

/-- C2: `Train(word)` returns exactly the value `Expose(word)` returns on the
same neuron: whenever `Train` returns, `Expose` returns the same value, and
when that value is `kDisabled` the delays, containers, frozen flags,
strengths and the threshold `H` are unchanged; whenever `Expose` returns and
the strategy object passes its checks, `Train` returns the same value; and on
a consistent neuron and a valid word both return. -/
theorem c2_train_returns_expose (n : Neuron F) (word : Word) :
    (∀ r n2, n.Train word = .ok (r, n2) →
      ∃ n1, n.Expose word = .ok (r, n1) ∧
        (r = kDisabled → n2.delays = n.delays ∧ n2.containers = n.containers ∧
          n2.frozen = n.frozen ∧ n2.strength = n.strength ∧ n2.H = n.H)) ∧
    (LearnReady n → ∀ r n1, n.Expose word = .ok (r, n1) → ∃ n2, n.Train word = .ok (r, n2)) ∧
    (Consistent n → ContainersInRange n → ValidWord n word → LearnReady n →
      ∃ r n1 n2, n.Expose word = .ok (r, n1) ∧ n.Train word = .ok (r, n2)) := by
  refine ⟨fun r n2 h => ?_, fun hl r n1 h => ?_, fun hc hcont hv hl => ?_⟩
  · obtain ⟨n1, h1, h2⟩ := expose_of_train n word r n2 h
    refine ⟨n1, h1, fun hr => ?_⟩
    rw [h2 hr, (expose_fixpoint n word r n1 h1).1]
    exact ⟨rfl, rfl, rfl, rfl, rfl⟩
  · obtain ⟨n2, h2, _⟩ := train_of_expose n word hl r n1 h
    exact ⟨n2, h2⟩
  · obtain ⟨r, sum1, n2, h1, h2, _⟩ := train_spec n word hc hcont hv hl
    exact ⟨r, _, n2, h1, h2⟩

/-- C2 on `exampleNeuron`: a word that does not fire, and `exampleWord`. -/
theorem c2_train_returns_expose_witness :
    (exampleNeuron.Train [(3, 0), (6, 0), (7, 1)]
        = .ok (kDisabled, { exampleNeuron with sum := [0, 0] })) ∧
      (∃ n1, exampleNeuron.Expose [(3, 0), (6, 0), (7, 1)] = .ok (kDisabled, n1) ∧
        (kDisabled = kDisabled →
          ({ exampleNeuron with sum := [0, 0] } : Neuron ℚ).delays = exampleNeuron.delays ∧
          ({ exampleNeuron with sum := [0, 0] } : Neuron ℚ).containers
            = exampleNeuron.containers ∧
          ({ exampleNeuron with sum := [0, 0] } : Neuron ℚ).frozen = exampleNeuron.frozen ∧
          ({ exampleNeuron with sum := [0, 0] } : Neuron ℚ).strength = exampleNeuron.strength ∧
          ({ exampleNeuron with sum := [0, 0] } : Neuron ℚ).H = exampleNeuron.H)) ∧
      LearnReady exampleNeuron ∧ exampleNeuron.Expose exampleWord = .ok (1, exampleExposed) ∧
      (∃ n2, exampleNeuron.Train exampleWord = .ok (1, n2)) :=
  ⟨by decide!,
    (c2_train_returns_expose exampleNeuron [(3, 0), (6, 0), (7, 1)]).1 kDisabled _ (by decide!),
    by decide, by decide!,
    (c2_train_returns_expose exampleNeuron exampleWord).2.1 (by decide) 1 exampleExposed
      (by decide!)⟩

/-- C3: when `Train(word)` fires at delay `d` (consistent neuron, valid
word), the calls of `UpdateSynapse` are made on a list `L` of synapses whose
members are exactly the synapses `s` with a word entry `(s,t)` such that
`delays(s) + t == d` and the container of `s` reached the threshold at `d`
(every such container), and the neuron afterwards is the result of these
calls.  Under the atrophy strategy the only change is in the frozen flags:
a synapse is frozen afterwards exactly if it was frozen before or is one of
those synapses; so on a neuron without frozen synapses and a word (a sparse
mapping: its synapse indices are pairwise distinct), the number of frozen
synapses afterwards equals the number of contributing word entries. -/
theorem c3_train_updates_contributing (n : Neuron F) (word : Word) (hc : Consistent n)
    (hcont : ContainersInRange n) (hv : ValidWord n word) (hl : LearnReady n)
    (d : Int) (n2 : Neuron F) (ht : n.Train word = .ok (d, n2)) (hd : d ≠ kDisabled) :
    ∃ (n1 : Neuron F) (L : List Int), n.Expose word = .ok (d, n1) ∧
      (∀ s, s ∈ L ↔ s ∈ (contributing n word d).map Prod.fst) ∧
      L.foldlM UpdateSynapse n1 = .ok n2 ∧
      (n.learn = some .LearnSynapseAtrophy →
        n2 = { n1 with frozen := n2.frozen } ∧ n2.frozen.length = n.frozen.length ∧
        (∀ s : Int, 0 ≤ s → s < n.length →
          (n2.frozen_at s = true ↔
            n.frozen_at s = true ∨ s ∈ (contributing n word d).map Prod.fst)) ∧
        ((∀ b ∈ n.frozen, b = false) → (word.map Prod.fst).Nodup →
          frozenCount n2 = ((contributing n word d).length : Int))) := by
  obtain ⟨r, sum1, n2a, h1, h2, _, _, _, h6⟩ := train_spec n word hc hcont hv hl
  rw [h2] at ht
  simp only [Except.ok.injEq, Prod.mk.injEq] at ht
  obtain ⟨rfl, rfl⟩ := ht
  obtain ⟨L, u1, u2, u3, u4, u5⟩ := h6 hd
  obtain ⟨c1, c2, c3, c4, c5⟩ := hc
  have hvalid : ∀ s ∈ (contributing n word r).map Prod.fst, 0 ≤ s ∧ s < n.length := by
    intro s hs
    obtain ⟨t, m1, _, _⟩ := (mem_contributing n word r s).1 hs
    exact (hv (s, t) m1).1
  have hget : ∀ j, n2a.frozen.getD j false = true ↔
      n.frozen.getD j false = true ∨
        (j < n.frozen.length ∧ ∃ s ∈ (contributing n word r).map Prod.fst, s.toNat = j) := by
    intro j
    rw [u4, foldl_set_true_getD]
    constructor
    · rintro (h | ⟨k1, s, k2, k3⟩)
      · exact Or.inl h
      · exact Or.inr ⟨k1, s, (u2 s).1 k2, k3⟩
    · rintro (h | ⟨k1, s, k2, k3⟩)
      · exact Or.inl h
      · exact Or.inr ⟨k1, s, (u2 s).2 k2, k3⟩
  refine ⟨_, L, h1, u2, u1, fun ha => ⟨?_, ?_, ?_, ?_⟩⟩
  · rw [u3]
    simp only []
    rw [u5 ha]
  · rw [u4, foldl_set_true_length]
  · intro s hs0 hs1
    unfold Neuron.frozen_at
    rw [hget]
    constructor
    · rintro (h | ⟨_, x, k2, k3⟩)
      · exact Or.inl h
      · have := hvalid x k2
        have hx : x = s := by omega
        rw [← hx]
        exact Or.inr k2
    · rintro (h | h)
      · exact Or.inl h
      · exact Or.inr ⟨by omega, s, h, rfl⟩
  · intro hfresh hnd
    have hnd2 : ((contributing n word r).map Prod.fst).Nodup := by
      unfold contributing
      exact hnd.sublist ((List.filter_sublist _).map Prod.fst)
    have := frozenCount_after n n2a _ hfresh c5 (by rw [u3]) hget hvalid hnd2
    rw [this, List.length_map]

/-- C3 on `exampleNeuron` and `exampleWord`, which fires in slot 1. -/
theorem c3_train_updates_contributing_witness :
    Consistent exampleNeuron ∧ ContainersInRange exampleNeuron ∧
      ValidWord exampleNeuron exampleWord ∧ LearnReady exampleNeuron ∧
      exampleNeuron.Train exampleWord = .ok (1, exampleTrained) ∧ (1 : Int) ≠ kDisabled ∧
      ∃ (n1 : Neuron ℚ) (L : List Int), exampleNeuron.Expose exampleWord = .ok (1, n1) ∧
        (∀ s, s ∈ L ↔ s ∈ (contributing exampleNeuron exampleWord 1).map Prod.fst) ∧
        L.foldlM UpdateSynapse n1 = .ok exampleTrained ∧
        (exampleNeuron.learn = some .LearnSynapseAtrophy →
          exampleTrained = { n1 with frozen := exampleTrained.frozen } ∧
          exampleTrained.frozen.length = exampleNeuron.frozen.length ∧
          (∀ s : Int, 0 ≤ s → s < exampleNeuron.length →
            (exampleTrained.frozen_at s = true ↔
              exampleNeuron.frozen_at s = true ∨
                s ∈ (contributing exampleNeuron exampleWord 1).map Prod.fst)) ∧
          ((∀ b ∈ exampleNeuron.frozen, b = false) → (exampleWord.map Prod.fst).Nodup →
            frozenCount exampleTrained
              = ((contributing exampleNeuron exampleWord 1).length : Int))) :=
  ⟨by decide, by decide, by decide, by decide, by decide!, by decide,
    c3_train_updates_contributing exampleNeuron exampleWord (by decide) (by decide) (by decide)
      (by decide) 1 exampleTrained (by decide!) (by decide)⟩

/-- A training cycle on a non-empty sequence of words completes only if the
scratch sums pass the check at the start of `Train`. -/
theorem cycle_sum_ok (n0 : Neuron F) (ws : List Word) (ds : List Int) (n3 : Neuron F)
    (hla : n0.learn = some .LearnSynapseAtrophy) (hne : ws ≠ [])
    (h : trainingCycle ws n0 = .ok (ds, n3)) : (n0.sum.length : Int) = n0.C := by
  by_contra hs
  cases ws with
  | nil => exact hne rfl
  | cons w rest =>
    have ht : n0.Train w = .error .check := by
      unfold Neuron.Train
      rw [if_pos hs]
    unfold trainingCycle Neuron.StartTraining trainEach at h
    rw [hla] at h
    simp only [ht] at h
    exact absurd h (by simp)

/-- C4: for an atrophy neuron `n0` freshly initialised by `Init` (no `G_m` or
no `H_m`) with `D1 + D2 <= 2^29` and every finite sequence of valid words:
after `StartTraining`, `Train(w_1)`, ..., `Train(w_n)` and `FinishTraining`,
`Expose(w_i)` returns, for every `i`, exactly the value `Train(w_i)` returned
during the cycle, which is the first firing slot of `w_i` on `n0`, or
`kDisabled` for a word that did not fire; and the cycle does complete when
the scratch sums of `n0` have `C` entries (the check at the start of
`Train`). -/
theorem c4_atrophy_recall (self : Neuron F) (cfg : NeuronConfig F) (rand : Nat → Nat)
    (n0 : Neuron F) (ws : List Word) (ha : Aligned self)
    (hinit : self.Init cfg rand = .ok n0)
    (hatrophy : ¬ (cfg.g_m.isSome = true ∧ cfg.h_m.isSome = true))
    (hslots : n0.D1 + n0.D2 ≤ 536870912)
    (hv : ∀ w ∈ ws, ValidWord n0 w) :
    (∀ (ds : List Int) (n3 : Neuron F), trainingCycle ws n0 = .ok (ds, n3) →
      List.Forall₂ (fun w r => FirstFire n0 w r ∧ ∃ n4, n3.Expose w = .ok (r, n4)) ws ds) ∧
    ((n0.sum.length : Int) = n0.C →
      ∃ (ds : List Int) (n3 : Neuron F), trainingCycle ws n0 = .ok (ds, n3)) := by
  obtain ⟨g1, g2, _, _, g5, g6, g7, g8, g9⟩ := init_ready self cfg rand n0 ha hinit
  rw [if_neg hatrophy] at g9
  constructor
  · intro ds n3 h
    obtain ⟨ds1, n31, k1, k2⟩ := atrophy_recall n0 ws ⟨g5, g6, g7, g8⟩
      (fun hne => cycle_sum_ok n0 ws ds n3 g9 hne h) g1 g9 g2 hslots hv
    rw [k1] at h
    simp only [Except.ok.injEq, Prod.mk.injEq] at h
    rw [← h.1, ← h.2]
    exact k2
  · intro hsum
    obtain ⟨ds1, n31, k1, _⟩ := atrophy_recall n0 ws ⟨g5, g6, g7, g8⟩ (fun _ => hsum) g1 g9 g2
      hslots hv
    exact ⟨ds1, n31, k1⟩

/-- C4 on the neuron built from `exampleConfig` and the three `exampleWords`:
the cycle returns 1, 2 and `kDisabled`, and so does `Expose` afterwards. -/
theorem c4_atrophy_recall_witness :
    Aligned (newNeuron : Neuron ℚ) ∧
      (newNeuron : Neuron ℚ).Init exampleConfig exampleRand = .ok exampleNeuron ∧
      ¬ (exampleConfig.g_m.isSome = true ∧ exampleConfig.h_m.isSome = true) ∧
      exampleNeuron.D1 + exampleNeuron.D2 ≤ 536870912 ∧
      (∀ w ∈ exampleWords, ValidWord exampleNeuron w) ∧
      trainingCycle exampleWords exampleNeuron = .ok ([1, 2, kDisabled], exampleCycled) ∧
      List.Forall₂
        (fun w r => FirstFire exampleNeuron w r ∧ ∃ n4, exampleCycled.Expose w = .ok (r, n4))
        exampleWords [1, 2, kDisabled] :=
  ⟨by decide, by decide!, by decide, by decide, by decide, by decide!,
    (c4_atrophy_recall newNeuron exampleConfig exampleRand exampleNeuron exampleWords (by decide)
      (by decide!) (by decide) (by decide) (by decide)).1 [1, 2, kDisabled] exampleCycled
      (by decide!)⟩

/-- C5: for an atrophy neuron initialised by `Init` and driven by
`StartTraining`, any sequence of `Train` calls on valid words and
`FinishTraining`: afterwards every synapse `i` is either frozen with
`0 <= delays(i) < D2` and strength `1.0`, or not frozen with
`delays(i) == kDisabled` and strength `0`, and every container is in `[0, C)`;
and the cycle does complete when the scratch sums of the initialised neuron
have `C` entries (the check at the start of `Train`). -/
theorem c5_atrophy_final_state (self : Neuron F) (cfg : NeuronConfig F) (rand : Nat → Nat)
    (n0 : Neuron F) (ws : List Word) (ha : Aligned self)
    (hinit : self.Init cfg rand = .ok n0)
    (hatrophy : ¬ (cfg.g_m.isSome = true ∧ cfg.h_m.isSome = true))
    (hv : ∀ w ∈ ws, ValidWord n0 w) :
    (∀ (ds : List Int) (n3 : Neuron F), trainingCycle ws n0 = .ok (ds, n3) →
      n3.length = n0.length ∧ n3.D2 = n0.D2 ∧ n3.C = n0.C ∧
      ∀ i : Int, 0 ≤ i → i < n3.length →
        ((n3.frozen_at i = true ∧ 0 ≤ n3.delays_at i ∧ n3.delays_at i < n3.D2 ∧
            n3.strength_at i = 1) ∨
          (n3.frozen_at i = false ∧ n3.delays_at i = kDisabled ∧ n3.strength_at i = 0)) ∧
        0 ≤ n3.containers_at i ∧ n3.containers_at i < n3.C) ∧
    ((n0.sum.length : Int) = n0.C →
      ∃ (ds : List Int) (n3 : Neuron F), trainingCycle ws n0 = .ok (ds, n3)) := by
  obtain ⟨g1, g2, _, g4, g5, g6, g7, g8, g9⟩ := init_ready self cfg rand n0 ha hinit
  rw [if_neg hatrophy] at g9
  constructor
  · intro ds3 n33 h
    obtain ⟨ds, n2, n3, a1, a2, a3, a4, a5, a6, a7, _, _⟩ :=
      cycle_atrophy n0 ws ⟨g5, g6, g7, g8⟩ (fun hne => cycle_sum_ok n0 ws ds3 n33 g9 hne h)
        g1 g9 hv
    rw [a1] at h
    simp only [Except.ok.injEq, Prod.mk.injEq] at h
    rw [← h.2]
    have e2 : n3.containers = n0.containers := by rw [a3]
    have e4 : n3.C = n0.C := by rw [a3]
    have e7 : n3.D2 = n0.D2 := by rw [a3]
    have e8 : n3.length = n0.length := by rw [a3]
    have e10 : n3.frozen = n2.frozen := by rw [a3]
    refine ⟨e8, e7, e4, fun i hi0 hi1 => ⟨?_, ?_⟩⟩
    · have hj : ((i.toNat : Nat) : Int) < n0.length := by omega
      have hd := (a7 i.toNat hj).1
      have hs := (a7 i.toNat hj).2
      unfold Neuron.frozen_at Neuron.delays_at Neuron.strength_at
      rw [e10, e7]
      by_cases hf : n2.frozen.getD i.toNat false = true
      · left
        rw [if_pos hf] at hd hs
        have hlt1 : i.toNat < n0.delays.length := by omega
        have hlt2 : i.toNat < n0.strength.length := by omega
        rw [hd, hs, List.getD_eq_getElem _ _ hlt1, List.getD_eq_getElem _ _ hlt2]
        have k1 := g4 _ (List.getElem_mem hlt1)
        exact ⟨hf, k1.1, k1.2, g2 _ (List.getElem_mem hlt2)⟩
      · right
        rw [if_neg hf] at hd hs
        exact ⟨by simpa using hf, hd, hs⟩
    · have := containers_at_range n0 g1 g7 i hi0 (by omega)
      unfold Neuron.containers_at at this ⊢
      rw [e2, e4]
      exact this
  · intro hsum
    obtain ⟨ds, n2, n3, a1, _⟩ :=
      cycle_atrophy n0 ws ⟨g5, g6, g7, g8⟩ (fun _ => hsum) g1 g9 hv
    exact ⟨ds, n3, a1⟩

/-- C5 on the neuron built from `exampleConfig` and the three `exampleWords`. -/
theorem c5_atrophy_final_state_witness :
    Aligned (newNeuron : Neuron ℚ) ∧
      (newNeuron : Neuron ℚ).Init exampleConfig exampleRand = .ok exampleNeuron ∧
      ¬ (exampleConfig.g_m.isSome = true ∧ exampleConfig.h_m.isSome = true) ∧
      (∀ w ∈ exampleWords, ValidWord exampleNeuron w) ∧
      trainingCycle exampleWords exampleNeuron = .ok ([1, 2, kDisabled], exampleCycled) ∧
      (exampleCycled.length = exampleNeuron.length ∧ exampleCycled.D2 = exampleNeuron.D2 ∧
        exampleCycled.C = exampleNeuron.C ∧
        ∀ i : Int, 0 ≤ i → i < exampleCycled.length →
          ((exampleCycled.frozen_at i = true ∧ 0 ≤ exampleCycled.delays_at i ∧
              exampleCycled.delays_at i < exampleCycled.D2 ∧ exampleCycled.strength_at i = 1) ∨
            (exampleCycled.frozen_at i = false ∧ exampleCycled.delays_at i = kDisabled ∧
              exampleCycled.strength_at i = 0)) ∧
          0 ≤ exampleCycled.containers_at i ∧
          exampleCycled.containers_at i < exampleCycled.C) :=
  ⟨by decide, by decide!, by decide, by decide, by decide!,
    (c5_atrophy_final_state newNeuron exampleConfig exampleRand exampleNeuron exampleWords
      (by decide) (by decide!) (by decide) (by decide)).1 [1, 2, kDisabled] exampleCycled
      (by decide!)⟩

/-- C6: `Expose` is a read-only query.  The value it returns does not depend
on the previous contents of the scratch sums (any other contents of the same
size give the same value, or the same abort); and when it returns, the neuron
afterwards differs from the neuron before only in the scratch sums (delays,
containers, frozen flags, strengths and `H` are untouched), and exposing the
same word again returns the same value and leaves the neuron as it is, so any
number of repetitions returns the identical delay. -/
theorem c6_expose_read_only (n : Neuron F) (word : Word) :
    (∀ s : List F, s.length = n.sum.length →
      ({ n with sum := s }.Expose word).map Prod.fst = (n.Expose word).map Prod.fst) ∧
    (∀ d n1, n.Expose word = .ok (d, n1) →
      n1 = { n with sum := n1.sum } ∧ n1.sum.length = n.sum.length ∧
        n1.Expose word = .ok (d, n1)) :=
  ⟨fun s hs => expose_sum_irrel n word s hs, fun d n1 h => expose_fixpoint n word d n1 h⟩

/-- C6 on `exampleNeuron` and `exampleWord`. -/
theorem c6_expose_read_only_witness :
    (([7, 9] : List ℚ).length = exampleNeuron.sum.length ∧
      ({ exampleNeuron with sum := [7, 9] }.Expose exampleWord).map Prod.fst
        = (exampleNeuron.Expose exampleWord).map Prod.fst) ∧
      (exampleNeuron.Expose exampleWord = .ok (1, exampleExposed) ∧
        exampleExposed = { exampleNeuron with sum := exampleExposed.sum } ∧
        exampleExposed.sum.length = exampleNeuron.sum.length ∧
        exampleExposed.Expose exampleWord = .ok (1, exampleExposed)) :=
  ⟨⟨by decide, (c6_expose_read_only exampleNeuron exampleWord).1 [7, 9] (by decide)⟩,
    by decide!, (c6_expose_read_only exampleNeuron exampleWord).2 1 exampleExposed (by decide!)⟩

/-- C7: after `Init(config)` the synapse count is
`length() == floor(C*H*Q*R + 1e-6)` for the `C`, `H`, `Q`, `R` of the
configuration (the product is formed from left to right). -/
theorem c7_init_length (self : Neuron F) (cfg : NeuronConfig F) (rand : Nat → Nat)
    (n : Neuron F) (h : self.Init cfg rand = .ok n) :
    ∃ c hh q r, cfg.c = some c ∧ cfg.h = some hh ∧ cfg.q = some q ∧ cfg.r = some r ∧
      n.length
        = DoubleModel.floor (DoubleModel.ofInt c * hh * q * DoubleModel.ofInt r + kEpsilon) := by
  obtain ⟨c, d1, d2, hh, q, r, e1, _, _, e4, e5, e6, _, _, _, _, _, _, _, _, _, _, _, f9, _⟩ :=
    init_spec self cfg rand n h
  exact ⟨c, hh, q, r, e1, e4, e5, e6, f9⟩

/-- The example of C7: `C = 1`, `H = 10`, `Q = 64.001 / 100`, `R = 10` gives
64 synapses. -/
theorem c7_init_length_witness :
    (newNeuron : Neuron ℚ).Init checkLengthConfig exampleRand = .ok checkLengthNeuron ∧
      checkLengthNeuron.length = 64 ∧
      ∃ c hh q r, checkLengthConfig.c = some c ∧ checkLengthConfig.h = some hh ∧
        checkLengthConfig.q = some q ∧ checkLengthConfig.r = some r ∧
        checkLengthNeuron.length
          = DoubleModel.floor (DoubleModel.ofInt c * hh * q * DoubleModel.ofInt r + kEpsilon) :=
  ⟨by decide!, rfl,
    c7_init_length newNeuron checkLengthConfig exampleRand checkLengthNeuron (by decide!)⟩

/-- C8: for every configuration and every random stream, immediately after
`Init` (on a neuron whose synapse vectors have equal sizes, as they always
have) every synapse `i` in `[0, length)` has `0 <= delays(i) < D2`,
`0 <= containers(i) < C`, `frozen(i) == false` and `strength(i) == 1.0`. -/
theorem c8_init_synapses (self : Neuron F) (cfg : NeuronConfig F) (rand : Nat → Nat)
    (n : Neuron F) (ha : Aligned self) (h : self.Init cfg rand = .ok n) :
    ∃ c d2, cfg.c = some c ∧ cfg.d2 = some d2 ∧
      ∀ i : Int, 0 ≤ i → i < n.length →
        (0 ≤ n.delays_at i ∧ n.delays_at i < d2) ∧
        (0 ≤ n.containers_at i ∧ n.containers_at i < c) ∧
        n.frozen_at i = false ∧ n.strength_at i = 1 := by
  obtain ⟨c, d1, d2, hh, q, r, e1, _, e3, _, _, _, _, _, _, _, _, _, _, _, _, _, _, _, _, _, _, _,
    f13⟩ := init_spec self cfg rand n h
  obtain ⟨_, _, g5⟩ := f13 ha
  exact ⟨c, d2, e1, e3, fun i hi0 hi1 => g5 i.toNat (by omega)⟩

/-- C8 on the neuron built from `exampleConfig`. -/
theorem c8_init_synapses_witness :
    Aligned (newNeuron : Neuron ℚ) ∧
      (newNeuron : Neuron ℚ).Init exampleConfig exampleRand = .ok exampleNeuron ∧
      ∃ c d2, exampleConfig.c = some c ∧ exampleConfig.d2 = some d2 ∧
        ∀ i : Int, 0 ≤ i → i < exampleNeuron.length →
          (0 ≤ exampleNeuron.delays_at i ∧ exampleNeuron.delays_at i < d2) ∧
          (0 ≤ exampleNeuron.containers_at i ∧ exampleNeuron.containers_at i < c) ∧
          exampleNeuron.frozen_at i = false ∧ exampleNeuron.strength_at i = 1 :=
  ⟨by decide, by decide!,
    c8_init_synapses newNeuron exampleConfig exampleRand exampleNeuron (by decide) (by decide!)⟩

/-- C9, as stated, fails: the configuration `C = 1`, `D1 = -1`, `D2 = -1`,
`H = 1`, `Q = 1`, `R = 1` is malformed in none of the stated ways, and `Init`
aborts on it, at the check `0 <= delays_[i] && delays_[i] < D2_`. -/
theorem c9_init_abort_counterexample :
    ¬ Malformed negativeDelayConfig ∧
      (newNeuron : Neuron ℚ).Init negativeDelayConfig exampleRand = .error .check := by
  decide!

/-- C9, amended: `Init(config)` aborts on a failed check whenever the
configuration is malformed in one of the stated ways (a required field absent,
`C < 1`, `D1 > D2`, `H < 1`); and for a configuration with the six required
fields (`C` and `D2` being `int32` values) whose synapse count
`floor(C*H*Q*R + 1e-6)` is an `int32` value, `Init` completes exactly when the
configuration is not malformed, the count is not negative and, unless the
count is 0, `D2 >= 1`. -/
theorem c9_init_abort_amended (self : Neuron F) (cfg : NeuronConfig F) (rand : Nat → Nat) :
    (Malformed cfg → self.Init cfg rand = .error .check) ∧
    (∀ (c d1 d2 : Int) (hh q : F) (r : Int), cfg.c = some c → cfg.d1 = some d1 →
      cfg.d2 = some d2 → cfg.h = some hh → cfg.q = some q → cfg.r = some r →
      c < 2147483648 → d2 < 2147483648 →
      -2147483648
        ≤ DoubleModel.floor (DoubleModel.ofInt c * hh * q * DoubleModel.ofInt r + kEpsilon) →
      DoubleModel.floor (DoubleModel.ofInt c * hh * q * DoubleModel.ofInt r + kEpsilon)
        < 2147483648 →
      ((∃ n, self.Init cfg rand = .ok n) ↔
        ¬ Malformed cfg ∧
        0 ≤ DoubleModel.floor (DoubleModel.ofInt c * hh * q * DoubleModel.ofInt r + kEpsilon) ∧
        (DoubleModel.floor (DoubleModel.ofInt c * hh * q * DoubleModel.ofInt r + kEpsilon) = 0 ∨
          1 ≤ d2))) := by
  refine ⟨init_malformed self cfg rand, ?_⟩
  intro c d1 d2 hh q r e1 e2 e3 e4 e5 e6 hc hd _ hfl
  rw [init_ok_iff self cfg rand c d1 d2 hh q r e1 e2 e3 e4 e5 e6 hc hd]
  have hm : ¬ Malformed cfg ↔ 1 ≤ c ∧ d1 ≤ d2 ∧ (1 : F) ≤ hh := by
    unfold Malformed
    simp only [e1, e2, e3, e4, e5, e6, not_or, not_lt, gt_iff_lt]
  rw [hm]
  tauto

/-- The amended C9 on a configuration without fields (aborts) and on
`exampleConfig` (completes). -/
theorem c9_init_abort_amended_witness :
    (Malformed emptyConfig ∧
      (newNeuron : Neuron ℚ).Init emptyConfig exampleRand = .error .check) ∧
    ((2 : Int) < 2147483648 ∧ (3 : Int) < 2147483648 ∧
      -2147483648 ≤ DoubleModel.floor
        (DoubleModel.ofInt 2 * (2 : ℚ) * 1 * DoubleModel.ofInt 2 + kEpsilon) ∧
      DoubleModel.floor (DoubleModel.ofInt 2 * (2 : ℚ) * 1 * DoubleModel.ofInt 2 + kEpsilon)
        < 2147483648 ∧
      ((∃ n, (newNeuron : Neuron ℚ).Init exampleConfig exampleRand = .ok n) ↔
        ¬ Malformed exampleConfig ∧
        0 ≤ DoubleModel.floor
          (DoubleModel.ofInt 2 * (2 : ℚ) * 1 * DoubleModel.ofInt 2 + kEpsilon) ∧
        (DoubleModel.floor
            (DoubleModel.ofInt 2 * (2 : ℚ) * 1 * DoubleModel.ofInt 2 + kEpsilon) = 0 ∨
          (1 : Int) ≤ 3))) :=
  ⟨⟨by decide, (c9_init_abort_amended newNeuron emptyConfig exampleRand).1 (by decide)⟩,
    by decide, by decide, by decide!, by decide!,
    (c9_init_abort_amended newNeuron exampleConfig exampleRand).2 2 2 3 2 1 2 rfl rfl rfl rfl
      rfl rfl (by decide) (by decide) (by decide!) (by decide!)⟩

/-- C10 at the failing inputs: a neuron initialised with `C = 1`, `H = 2`,
`Q = 1`, `R = 1` (two synapses) and initialised again with `C = 2`, `H = 1`,
`Q = 1`, `R = 1` (two synapses again) keeps its scratch sums of one entry, so
the check `sum_.size() == C_` at the start of `Expose` and of `Train` fails;
and a new neuron initialised with `Q = 0` (no synapse) keeps its empty scratch
sums, with the same effect. -/
theorem c10_reinit_keeps_sum_size :
    ((newNeuron : Neuron ℚ).Init oneContainerConfig exampleRand = .ok oneContainerNeuron ∧
      oneContainerNeuron.Init twoContainerConfig exampleRand = .ok reinitNeuron ∧
      reinitNeuron.sum.length = 1 ∧ reinitNeuron.C = 2 ∧
      reinitNeuron.Expose [] = .error .check ∧ reinitNeuron.Train [] = .error .check) ∧
    ((newNeuron : Neuron ℚ).Init zeroSynapseConfig exampleRand = .ok zeroSynapseNeuron ∧
      zeroSynapseNeuron.sum.length = 0 ∧ zeroSynapseNeuron.C = 1 ∧
      zeroSynapseNeuron.Expose [] = .error .check ∧
      zeroSynapseNeuron.Train [] = .error .check) := by
  decide!

/-! ## What `Train` leaves unchanged -/

theorem updateSynapse_frame (n n1 : Neuron F) (s : Int) (h : UpdateSynapse n s = .ok n1) :
    n1 = { n with frozen := n1.frozen, strength := n1.strength } ∧
      n1.frozen.length = n.frozen.length ∧ n1.strength.length = n.strength.length := by
  unfold UpdateSynapse at h
  split at h
  · exact absurd h (by simp)
  · simp only [Except.ok.injEq] at h
    subst h
    simp [Neuron.set_frozen]
  · split at h
    · exact absurd h (by simp)
    · simp only [Except.ok.injEq] at h
      subst h
      simp [Neuron.set_frozen, Neuron.set_strength]

theorem trainEntries_frame (d i : Int) :
    ∀ (word : Word) (n n1 : Neuron F), trainEntries d i word n = .ok n1 →
      n1 = { n with frozen := n1.frozen, strength := n1.strength } ∧
        n1.frozen.length = n.frozen.length ∧ n1.strength.length = n.strength.length := by
  intro word
  induction word with
  | nil =>
    intro n n1 h
    simp only [trainEntries, Except.ok.injEq] at h
    subst h
    exact ⟨rfl, rfl, rfl⟩
  | cons e rest ih =>
    intro n n1 h
    obtain ⟨s, t⟩ := e
    unfold trainEntries at h
    split at h
    · split at h
      · exact absurd h (by simp)
      · rename_i n2 hu
        obtain ⟨a1, a2, a3⟩ := updateSynapse_frame n n2 s hu
        obtain ⟨b1, b2, b3⟩ := ih n2 n1 h
        refine ⟨?_, by omega, by omega⟩
        rw [b1, a1]
    · exact ih n n1 h

theorem trainContainers_frame (word : Word) (d : Int) :
    ∀ (k : Nat) (i : Int) (n n1 : Neuron F), trainContainers word d k i n = .ok n1 →
      n1 = { n with frozen := n1.frozen, strength := n1.strength } ∧
        n1.frozen.length = n.frozen.length ∧ n1.strength.length = n.strength.length := by
  intro k
  induction k with
  | zero =>
    intro i n n1 h
    simp only [trainContainers, Except.ok.injEq] at h
    subst h
    exact ⟨rfl, rfl, rfl⟩
  | succ k ih =>
    intro i n n1 h
    unfold trainContainers at h
    split at h
    · exact ih _ n n1 h
    · split at h
      · exact absurd h (by simp)
      · rename_i n2 hu
        obtain ⟨a1, a2, a3⟩ := trainEntries_frame d i word n n2 hu
        obtain ⟨b1, b2, b3⟩ := ih _ n2 n1 h
        refine ⟨?_, by omega, by omega⟩
        rw [b1, a1]

/-- Whenever `Train` returns, the neuron differs from the one before only in
the scratch sums, the frozen flags and the strengths, and no vector changed
its size. -/
theorem train_frame (n : Neuron F) (word : Word) (r : Int) (n2 : Neuron F)
    (h : n.Train word = .ok (r, n2)) :
    n2 = { n with sum := n2.sum, frozen := n2.frozen, strength := n2.strength } ∧
      n2.frozen.length = n.frozen.length ∧ n2.strength.length = n.strength.length ∧
      n2.sum.length = n.sum.length := by
  unfold Neuron.Train at h
  split at h
  · exact absurd h (by simp)
  · split at h
    · exact absurd h (by simp)
    · split at h
      · exact absurd h (by simp)
      · split at h
        · exact absurd h (by simp)
        · split at h
          · exact absurd h (by simp)
          · rename_i d n1 hex
            obtain ⟨e1, e2, _⟩ := expose_fixpoint n word d n1 hex
            split at h
            · simp only [Except.ok.injEq, Prod.mk.injEq] at h
              rw [← h.2]
              refine ⟨?_, ?_, ?_, e2⟩
              · rw [e1]
              · rw [e1]
              · rw [e1]
            · split at h
              · exact absurd h (by simp)
              · rename_i n3 htc
                simp only [Except.ok.injEq, Prod.mk.injEq] at h
                obtain ⟨a1, a2, a3⟩ := trainContainers_frame word d _ _ n1 n3 htc
                rw [← h.2]
                refine ⟨?_, ?_, ?_, ?_⟩
                · rw [a1, e1]
                · rw [a2, e1]
                · rw [a3, e1]
                · rw [a1]
                  exact e2

theorem trainEach_frame :
    ∀ (ws : List Word) (n : Neuron F) (ds : List Int) (n2 : Neuron F),
      trainEach ws n = .ok (ds, n2) →
      n2 = { n with sum := n2.sum, frozen := n2.frozen, strength := n2.strength } ∧
        n2.frozen.length = n.frozen.length ∧ n2.strength.length = n.strength.length ∧
        n2.sum.length = n.sum.length ∧ ds.length = ws.length := by
  intro ws
  induction ws with
  | nil =>
    intro n ds n2 h
    simp only [trainEach, Except.ok.injEq, Prod.mk.injEq] at h
    rw [← h.1, ← h.2]
    exact ⟨rfl, rfl, rfl, rfl, rfl⟩
  | cons w rest ih =>
    intro n ds n2 h
    unfold trainEach at h
    split at h
    · exact absurd h (by simp)
    · rename_i d n1 ht
      split at h
      · exact absurd h (by simp)
      · rename_i ds1 n3 hr
        simp only [Except.ok.injEq, Prod.mk.injEq] at h
        obtain ⟨a1, a2, a3, a4⟩ := train_frame n w d n1 ht
        obtain ⟨b1, b2, b3, b4, b5⟩ := ih n1 ds1 n3 hr
        rw [← h.1, ← h.2]
        refine ⟨?_, by omega, by omega, by omega, by simp [b5]⟩
        rw [b1, a1]

theorem atrophyLoop_H (n : Neuron F) : ∀ k : Nat, (atrophyLoop n k).H = n.H := by
  intro k
  induction k with
  | zero => rfl
  | succ k ih =>
    unfold atrophyLoop at ih ⊢
    rw [List.range_succ, List.foldl_append]
    simp only [List.foldl_cons, List.foldl_nil]
    split
    · simp only [Neuron.set_strength, Neuron.set_delays]
      exact ih
    · exact ih

/-- The threshold after `FinishTraining`, for each strategy. -/
theorem finishTraining_H (m : Neuron F) (hlen : (m.frozen.length : Int) = m.length) :
    (m.learn = some .LearnSynapseAtrophy → ∃ m3, m.FinishTraining = .ok m3 ∧ m3.H = m.H) ∧
    (∀ hm, m.learn = some .LearnSynapseStrength → m.config.h_m = some hm →
      ∃ m3, m.FinishTraining = .ok m3 ∧ m3.H = hm) := by
  constructor
  · intro hl
    have e : m.FinishTraining = .ok { atrophyFinish m with
        Q_after := DoubleModel.ofInt (frozenCount (atrophyFinish m))
          / DoubleModel.ofInt m.length } := by
      unfold Neuron.FinishTraining
      rw [hl]
      simp only [hlen, not_true_eq_false, if_false]
    exact ⟨_, e, atrophyLoop_H m _⟩
  · intro hm hl hc
    have e : m.FinishTraining = .ok { m.set_H hm with
        Q_after := DoubleModel.ofInt (frozenCount m) / DoubleModel.ofInt m.length } := by
      unfold Neuron.FinishTraining
      rw [hl]
      simp only [hlen, not_true_eq_false, if_false, hc]
    exact ⟨_, e, rfl⟩

/-- C11: let `n0` be the neuron that `Init` leaves for a configuration `cfg`.
If both `G_m` and `H_m` are present the strength strategy is chosen: on every
later state `m` of the neuron (same configuration and strategy, whatever its
threshold is) `StartTraining` returns and sets `H` to `config.H`,
`FinishTraining` returns and sets `H` to `config.H_m`; in particular, after
`StartTraining` on `n0` and any sequence of `Train` calls the threshold is
still `config.H`, and after the `FinishTraining` that follows it is
`config.H_m`.  If `G_m` or `H_m` is absent the atrophy strategy is chosen:
`StartTraining` returns the neuron as it is and `FinishTraining` leaves `H`
as it is, also after any sequence of `Train` calls. -/
theorem c11_strength_threshold (self : Neuron F) (cfg : NeuronConfig F) (rand : Nat → Nat)
    (n0 : Neuron F) (ha : Aligned self) (hinit : self.Init cfg rand = .ok n0) :
    (∀ g hm, cfg.g_m = some g → cfg.h_m = some hm →
      n0.learn = some .LearnSynapseStrength ∧
      ∃ h, cfg.h = some h ∧ n0.H = h ∧
        (∀ m : Neuron F, m.config = n0.config → m.learn = n0.learn →
          m.StartTraining = .ok (m.set_H h) ∧
          ((m.frozen.length : Int) = m.length →
            ∃ m3, m.FinishTraining = .ok m3 ∧ m3.H = hm)) ∧
        ∀ (ws : List Word) (ds : List Int) (n2 : Neuron F),
          trainEach ws (n0.set_H h) = .ok (ds, n2) →
          n2.H = h ∧ ∃ n3, n2.FinishTraining = .ok n3 ∧ n3.H = hm ∧
            trainingCycle ws n0 = .ok (ds, n3)) ∧
    ((cfg.g_m = none ∨ cfg.h_m = none) →
      n0.learn = some .LearnSynapseAtrophy ∧
        (∀ m : Neuron F, m.config = n0.config → m.learn = n0.learn →
          m.StartTraining = .ok m ∧
          ((m.frozen.length : Int) = m.length →
            ∃ m3, m.FinishTraining = .ok m3 ∧ m3.H = m.H)) ∧
        ∀ (ws : List Word) (ds : List Int) (n2 : Neuron F),
          trainEach ws n0 = .ok (ds, n2) →
          n2.H = n0.H ∧ ∃ n3, n2.FinishTraining = .ok n3 ∧ n3.H = n0.H ∧
            trainingCycle ws n0 = .ok (ds, n3)) := by
  obtain ⟨c, d1, d2, hh, q, r, _, _, _, f4, _, _, _, _, _, f10, _, _, _, f14, _, _, _, _, _, _,
    _, _, _⟩ := init_spec self cfg rand n0 hinit
  obtain ⟨_, _, _, _, _, _, _, g8, g9⟩ := init_ready self cfg rand n0 ha hinit
  constructor
  · intro g hm hg hhm
    have hl : n0.learn = some .LearnSynapseStrength := by
      rw [g9, hg, hhm]
      simp
    have hstart : ∀ m : Neuron F, m.config = n0.config → m.learn = n0.learn →
        m.StartTraining = .ok (m.set_H hh) := by
      intro m mc ml
      unfold Neuron.StartTraining
      rw [ml, hl, mc, f10, f4]
    refine ⟨hl, hh, f4, f14, fun m mc ml => ⟨hstart m mc ml, fun mlen => ?_⟩,
      fun ws ds n2 ht => ?_⟩
    · exact (finishTraining_H m mlen).2 hm (by rw [ml, hl]) (by rw [mc, f10, hhm])
    · obtain ⟨a1, a2, _, _, _⟩ := trainEach_frame ws _ ds n2 ht
      have a3 : n2.H = hh := by rw [a1]; rfl
      have a4 : (n2.frozen.length : Int) = n2.length := by
        rw [a2, a1]
        exact g8
      obtain ⟨n3, b1, b2⟩ := (finishTraining_H n2 a4).2 hm (by rw [a1]; exact hl)
        (by rw [a1]; show n0.config.h_m = some hm; rw [f10, hhm])
      refine ⟨a3, n3, b1, b2, ?_⟩
      unfold trainingCycle
      rw [hstart n0 rfl rfl]
      simp only [ht, b1]
  · intro hno
    have hl : n0.learn = some .LearnSynapseAtrophy := by
      rw [g9]
      rcases hno with h | h <;> rw [h] <;> simp
    have hstart : ∀ m : Neuron F, m.config = n0.config → m.learn = n0.learn →
        m.StartTraining = .ok m := by
      intro m _ ml
      unfold Neuron.StartTraining
      rw [ml, hl]
    refine ⟨hl, fun m mc ml => ⟨hstart m mc ml, fun mlen => ?_⟩, fun ws ds n2 ht => ?_⟩
    · exact (finishTraining_H m mlen).1 (by rw [ml, hl])
    · obtain ⟨a1, a2, _, _, _⟩ := trainEach_frame ws _ ds n2 ht
      have a3 : n2.H = n0.H := by rw [a1]
      have a4 : (n2.frozen.length : Int) = n2.length := by
        rw [a2, a1]
        exact g8
      obtain ⟨n3, b1, b2⟩ := (finishTraining_H n2 a4).1 (by rw [a1]; exact hl)
      refine ⟨a3, n3, b1, by rw [b2, a3], ?_⟩
      unfold trainingCycle
      rw [hstart n0 rfl rfl]
      simp only [ht, b1]

/-! ## The strength strategy -/

theorem foldl_set_length {α : Type} (v : α) (L : List Int) :
    ∀ f : List α, (L.foldl (fun f s => f.set s.toNat v) f).length = f.length := by
  induction L with
  | nil => intro f; rfl
  | cons s rest ih =>
    intro f
    rw [List.foldl_cons, ih, List.length_set]

theorem foldl_set_getD {α : Type} (v dflt : α) (L : List Int) :
    ∀ (f : List α) (j : Nat),
      (L.foldl (fun f s => f.set s.toNat v) f).getD j dflt
        = if j < f.length ∧ ∃ s ∈ L, s.toNat = j then v else f.getD j dflt := by
  induction L with
  | nil => intro f j; simp
  | cons s rest ih =>
    intro f j
    rw [List.foldl_cons, ih, List.length_set]
    by_cases hlt : j < f.length
    · by_cases hr : ∃ x ∈ rest, x.toNat = j
      · obtain ⟨x, hx, hxj⟩ := hr
        rw [if_pos ⟨hlt, x, hx, hxj⟩, if_pos ⟨hlt, x, List.mem_cons_of_mem _ hx, hxj⟩]
      · rw [if_neg (fun h => hr h.2)]
        by_cases hj : s.toNat = j
        · rw [← hj, getD_set_self _ _ _ _ (by omega),
            if_pos ⟨by omega, s, List.mem_cons_self _ _, rfl⟩]
        · rw [getD_set_other _ _ _ _ _ hj, if_neg]
          rintro ⟨_, x, hx, hxj⟩
          rcases List.mem_cons.1 hx with rfl | hx1
          · exact hj hxj
          · exact hr ⟨x, hx1, hxj⟩
    · rw [if_neg (fun h => hlt h.1), if_neg (fun h => hlt h.1),
        List.getD_eq_default _ _ (by rw [List.length_set]; omega),
        List.getD_eq_default _ _ (by omega)]

theorem updateAll_strength (g : F) (L : List Int) :
    ∀ n n1 : Neuron F, n.learn = some .LearnSynapseStrength → n.config.g_m = some g →
      L.foldlM UpdateSynapse n = .ok n1 →
      n1.strength = L.foldl (fun f s => f.set s.toNat g) n.strength := by
  induction L with
  | nil =>
    intro n n1 _ _ h
    simp only [List.foldlM_nil, pure, Except.pure, Except.ok.injEq] at h
    rw [← h]
    rfl
  | cons s rest ih =>
    intro n n1 hl hg h
    have e : UpdateSynapse n s = .ok ((n.set_strength s g).set_frozen s true) := by
      unfold UpdateSynapse
      rw [hl, hg]
    rw [List.foldlM_cons, e] at h
    have := ih _ n1 (by exact hl) (by exact hg) h
    rw [this]
    rfl

/-- One `Train` call of a strength training cycle.  `n0` is the neuron at the
start of the calls and `n` the neuron at a later point: they differ only in
the frozen flags, the strengths and the scratch sums. -/
theorem train_strength_step (n0 n : Neuron F) (g : F) (word : Word) (hc : Consistent n0)
    (hcont : ContainersInRange n0) (hls : n0.learn = some .LearnSynapseStrength)
    (hg : n0.config.g_m = some g) (hv : ValidWord n0 word)
    (hn : n = { n0 with frozen := n.frozen, strength := n.strength, sum := n.sum })
    (hfl : n.frozen.length = n0.frozen.length) (hstl : n.strength.length = n0.strength.length)
    (hsl : (n.sum.length : Int) = n0.C) :
    ∃ r n1, n.Train word = .ok (r, n1) ∧ FirstFire n word r ∧
      n1 = { n0 with frozen := n1.frozen, strength := n1.strength, sum := n1.sum } ∧
      n1.frozen.length = n0.frozen.length ∧ n1.strength.length = n0.strength.length ∧
      (n1.sum.length : Int) = n0.C ∧
      (∀ j, n.frozen.getD j false = true → n1.frozen.getD j false = true) ∧
      (∀ j, n.strength.getD j 0 = g → n1.strength.getD j 0 = g) ∧
      (∀ j, n1.strength.getD j 0 = n.strength.getD j 0 ∨ n1.strength.getD j 0 = g) ∧
      (∀ j, n1.frozen.getD j false = true →
        n.frozen.getD j false = true ∨ n1.strength.getD j 0 = g) ∧
      (r ≠ kDisabled → ∀ s ∈ (contributing n word r).map Prod.fst,
        n1.frozen.getD s.toNat false = true ∧ n1.strength.getD s.toNat 0 = g) := by
  obtain ⟨c1, c2, c3, c4, c5⟩ := hc
  have e1 : n.delays = n0.delays := by rw [hn]
  have e2 : n.containers = n0.containers := by rw [hn]
  have e4 : n.C = n0.C := by rw [hn]
  have e6 : n.D1 = n0.D1 := by rw [hn]
  have e8 : n.length = n0.length := by rw [hn]
  have e9 : n.learn = n0.learn := by rw [hn]
  have e10 : n.config = n0.config := by rw [hn]
  have hcn : Consistent n := by
    unfold Consistent
    rw [e1, e2, e4, e8, hfl, hstl]
    exact ⟨hsl, c2, c3, c4, c5⟩
  have hcontn : ContainersInRange n := by
    unfold ContainersInRange
    rw [e2, e4]
    exact hcont
  have hvn : ValidWord n word := by
    unfold ValidWord
    rw [e8, e6]
    exact hv
  have hln : LearnReady n := Or.inr ⟨by rw [e9, hls], by rw [e10, hg]; rfl⟩
  obtain ⟨r, sum1, n2, t1, t2, t3, t4, t5, t6⟩ := train_spec n word hcn hcontn hvn hln
  refine ⟨r, n2, t2, t3, ?_⟩
  by_cases hr : r = kDisabled
  · have := t5 hr
    subst this
    refine ⟨by simp only []; rw [hn], hfl, hstl, by rw [← e4]; exact t4, fun j h => h,
      fun j h => h, fun j => Or.inl rfl, fun j h => Or.inl h, fun h => absurd hr h⟩
  · obtain ⟨L, u1, u2, u3, u4, _⟩ := t6 hr
    have u5 : n2.strength = L.foldl (fun f s => f.set s.toNat g) n.strength :=
      updateAll_strength g L { n with sum := sum1 } n2 (e9.trans hls)
        ((congrArg NeuronConfig.g_m e10).trans hg) u1
    have hfr : n2.frozen.length = n0.frozen.length := by
      rw [u4, foldl_set_true_length, hfl]
    have hsr : n2.strength.length = n0.strength.length := by
      rw [u5, foldl_set_length, hstl]
    refine ⟨?_, hfr, hsr, ?_, ?_, ?_, ?_, ?_, ?_⟩
    · rw [u3, hn]
    · rw [u3]
      simp only []
      rw [← e4]
      exact t4
    · intro j hj
      rw [u4, foldl_set_true_getD]
      exact Or.inl hj
    · intro j hj
      rw [u5, foldl_set_getD]
      split
      · rfl
      · exact hj
    · intro j
      rw [u5, foldl_set_getD]
      split
      · exact Or.inr rfl
      · exact Or.inl rfl
    · intro j hj
      rw [u4, foldl_set_true_getD] at hj
      rcases hj with hj | ⟨hj1, x, hx, hxj⟩
      · exact Or.inl hj
      · refine Or.inr ?_
        have a1 : (n.frozen.length : Int) = n.length := hcn.2.2.2.2
        have a2 : (n.strength.length : Int) = n.length := hcn.2.2.1
        have a3 : j < n.strength.length := by omega
        rw [u5, foldl_set_getD, if_pos ⟨a3, x, hx, hxj⟩]
    · intro _ s hs
      have hsL := (u2 s).2 hs
      obtain ⟨t, m1, _, _⟩ := (mem_contributing n word r s).1 hs
      have hvs := hvn (s, t) m1
      simp only at hvs
      have a1 : (n.frozen.length : Int) = n.length := hcn.2.2.2.2
      have a2 : (n.strength.length : Int) = n.length := hcn.2.2.1
      constructor
      · rw [u4, foldl_set_true_getD]
        exact Or.inr ⟨by omega, s, hsL, rfl⟩
      · rw [u5, foldl_set_getD, if_pos ⟨by omega, s, hsL, rfl⟩]

theorem trainEach_strength (n0 : Neuron F) (g : F) (hc : Consistent n0)
    (hcont : ContainersInRange n0) (hls : n0.learn = some .LearnSynapseStrength)
    (hg : n0.config.g_m = some g) :
    ∀ (ws : List Word) (n : Neuron F), (∀ w ∈ ws, ValidWord n0 w) →
      n = { n0 with frozen := n.frozen, strength := n.strength, sum := n.sum } →
      n.frozen.length = n0.frozen.length → n.strength.length = n0.strength.length →
      (n.sum.length : Int) = n0.C →
      ∃ ds n1, trainEach ws n = .ok (ds, n1) ∧
        n1 = { n0 with frozen := n1.frozen, strength := n1.strength, sum := n1.sum } ∧
        n1.frozen.length = n0.frozen.length ∧ n1.strength.length = n0.strength.length ∧
        (n1.sum.length : Int) = n0.C ∧
        (∀ j, n.frozen.getD j false = true → n1.frozen.getD j false = true) ∧
        (∀ j, n.strength.getD j 0 = g → n1.strength.getD j 0 = g) ∧
        (∀ j, n1.strength.getD j 0 = n.strength.getD j 0 ∨ n1.strength.getD j 0 = g) ∧
        (∀ j, n1.frozen.getD j false = true →
          n.frozen.getD j false = true ∨ n1.strength.getD j 0 = g) ∧
        List.Forall₂ (fun w r => ∃ m : Neuron F,
          m = { n0 with frozen := m.frozen, strength := m.strength, sum := m.sum } ∧
          FirstFire m w r ∧
          (r ≠ kDisabled → ∀ s ∈ (contributing m w r).map Prod.fst,
            n1.frozen.getD s.toNat false = true ∧ n1.strength.getD s.toNat 0 = g)) ws ds := by
  intro ws
  induction ws with
  | nil =>
    intro n _ hn hfl hstl hsl
    exact ⟨[], n, rfl, hn, hfl, hstl, hsl, fun j h => h, fun j h => h, fun j => Or.inl rfl,
      fun j h => Or.inl h, List.Forall₂.nil⟩
  | cons w rest ih =>
    intro n hv hn hfl hstl hsl
    obtain ⟨r, n1, a1, a2, a3, a4, a5, a6, a7, a8, a9, a10, a11⟩ :=
      train_strength_step n0 n g w hc hcont hls hg (hv w (List.mem_cons_self _ _)) hn hfl hstl
        hsl
    obtain ⟨ds, n2, b1, b2, b3, b4, b5, b6, b7, b8, b9, b10⟩ :=
      ih n1 (fun x hx => hv x (List.mem_cons_of_mem _ hx)) a3 a4 a5 a6
    refine ⟨r :: ds, n2, ?_, b2, b3, b4, b5, fun j h => b6 j (a7 j h), fun j h => b7 j (a8 j h),
      ?_, ?_, ?_⟩
    · unfold trainEach
      rw [a1]
      simp only [b1]
    · intro j
      rcases b8 j with h | h
      · rcases a9 j with h1 | h1
        · exact Or.inl (h.trans h1)
        · exact Or.inr (h.trans h1)
      · exact Or.inr h
    · intro j hj
      rcases b9 j hj with h | h
      · rcases a10 j h with h1 | h1
        · exact Or.inl h1
        · exact Or.inr (b7 j h1)
      · exact Or.inr h
    · exact List.Forall₂.cons
        ⟨n, hn, a2, fun hr s hs => ⟨b6 _ (a11 hr s hs).1, b7 _ (a11 hr s hs).2⟩⟩ b10

/-- A training cycle on a non-empty sequence of words completes only if the
scratch sums pass the check at the start of `Train`, whatever the strategy. -/
theorem cycle_sum_check (n0 : Neuron F) (ws : List Word) (ds : List Int) (n3 : Neuron F)
    (hne : ws ≠ []) (h : trainingCycle ws n0 = .ok (ds, n3)) : (n0.sum.length : Int) = n0.C := by
  by_contra hs
  cases ws with
  | nil => exact hne rfl
  | cons w rest =>
    have ht : ∀ x : F, (n0.set_H x).Train w = .error .check := by
      intro x
      have hs1 : ¬ ((n0.set_H x).sum.length : Int) = (n0.set_H x).C := hs
      unfold Neuron.Train
      rw [if_pos hs1]
    have ht0 : n0.Train w = .error .check := by
      unfold Neuron.Train
      rw [if_pos hs]
    unfold trainingCycle Neuron.StartTraining trainEach at h
    split at h
    · exact absurd h (by simp)
    · rename_i n1 h1
      split at h1
      · exact absurd h1 (by simp)
      · simp only [Except.ok.injEq] at h1
        rw [← h1] at h
        simp only [ht0] at h
        exact absurd h (by simp)
      · split at h1
        · exact absurd h1 (by simp)
        · simp only [Except.ok.injEq] at h1
          rw [← h1] at h
          simp only [ht] at h
          exact absurd h (by simp)

/-- A complete strength training cycle on valid words: it returns, and the
neuron it leaves is described from the neuron `n0` it started from. -/
theorem cycle_strength (n0 : Neuron F) (ws : List Word) (h g hm : F)
    (hlen : (n0.delays.length : Int) = n0.length ∧ (n0.strength.length : Int) = n0.length ∧
      (n0.containers.length : Int) = n0.length ∧ (n0.frozen.length : Int) = n0.length)
    (hsum : (n0.sum.length : Int) = n0.C)
    (hcont : ContainersInRange n0) (hls : n0.learn = some .LearnSynapseStrength)
    (hh : n0.config.h = some h) (hg : n0.config.g_m = some g) (hhm : n0.config.h_m = some hm)
    (hv : ∀ w ∈ ws, ValidWord n0 w) :
    ∃ (ds : List Int) (n3 : Neuron F), trainingCycle ws n0 = .ok (ds, n3) ∧
      n3 = { n0 with H := hm, frozen := n3.frozen, strength := n3.strength, sum := n3.sum,
                     Q_after := n3.Q_after } ∧
      n3.frozen.length = n0.frozen.length ∧ n3.strength.length = n0.strength.length ∧
      (n3.sum.length : Int) = n0.C ∧
      (∀ j, n0.frozen.getD j false = true → n3.frozen.getD j false = true) ∧
      (∀ j, n0.strength.getD j 0 = g → n3.strength.getD j 0 = g) ∧
      (∀ j, n3.strength.getD j 0 = n0.strength.getD j 0 ∨ n3.strength.getD j 0 = g) ∧
      (∀ j, n3.frozen.getD j false = true →
        n0.frozen.getD j false = true ∨ n3.strength.getD j 0 = g) ∧
      List.Forall₂ (fun w r => ∃ m : Neuron F,
        m = { n0 with H := h, frozen := m.frozen, strength := m.strength, sum := m.sum } ∧
        FirstFire m w r ∧
        (r ≠ kDisabled → ∀ s ∈ (contributing m w r).map Prod.fst,
          n3.frozen.getD s.toNat false = true ∧ n3.strength.getD s.toNat 0 = g)) ws ds := by
  obtain ⟨l1, l2, l3, l4⟩ := hlen
  have hst : n0.StartTraining = .ok (n0.set_H h) := by
    unfold Neuron.StartTraining
    rw [hls, hh]
  obtain ⟨ds, n2, b1, b2, b3, b4, b5, b6, b7, b8, b9, b10⟩ :=
    trainEach_strength (n0.set_H h) g ⟨hsum, l1, l2, l3, l4⟩ hcont hls hg ws (n0.set_H h) hv rfl
      rfl rfl hsum
  have hfin : n2.FinishTraining = .ok { n2.set_H hm with
      Q_after := DoubleModel.ofInt (frozenCount n2) / DoubleModel.ofInt n2.length } := by
    have k1 : n2.learn = some .LearnSynapseStrength := by rw [b2]; exact hls
    have k2 : n2.config.h_m = some hm := by rw [b2]; exact hhm
    have k3 : (n2.frozen.length : Int) = n2.length := by
      rw [b3, b2]
      exact l4
    unfold Neuron.FinishTraining
    rw [k1]
    simp only [k3, not_true_eq_false, if_false, k2]
  obtain ⟨n3, hn3⟩ : ∃ n3 : Neuron F, n3 = { n2.set_H hm with
      Q_after := DoubleModel.ofInt (frozenCount n2) / DoubleModel.ofInt n2.length } := ⟨_, rfl⟩
  rw [← hn3] at hfin
  have f1 : n3.frozen = n2.frozen := by rw [hn3]; rfl
  have f2 : n3.strength = n2.strength := by rw [hn3]; rfl
  have f3 : n3.sum = n2.sum := by rw [hn3]; rfl
  refine ⟨ds, n3, ?_, ?_, ?_, ?_, ?_, ?_, ?_, ?_, ?_, ?_⟩
  · unfold trainingCycle
    rw [hst]
    simp only [b1, hfin]
  · rw [hn3, b2]
    rfl
  · rw [f1]; exact b3
  · rw [f2]; exact b4
  · rw [f3]; exact b5
  · rw [f1]; exact b6
  · rw [f2]; exact b7
  · rw [f2]; exact b8
  · rw [f1, f2]; exact b9
  · rw [f1, f2]; exact b10

/-- C11 on the neuron built from `strengthConfig`: `StartTraining` sets `H`
to 2, it is still 2 after `Train` on the two `strengthWords`, and
`FinishTraining` sets it to 4. -/
theorem c11_strength_threshold_witness :
    Aligned (newNeuron : Neuron ℚ) ∧
      (newNeuron : Neuron ℚ).Init strengthConfig exampleRand = .ok strengthNeuron ∧
      strengthNeuron.StartTraining = .ok (strengthNeuron.set_H 2) ∧
      trainEach strengthWords (strengthNeuron.set_H 2) = .ok ([0, 0], strengthTrained) ∧
      strengthTrained.H = 2 ∧
      ∃ n3, strengthTrained.FinishTraining = .ok n3 ∧ n3.H = 4 ∧
        trainingCycle strengthWords strengthNeuron = .ok ([0, 0], n3) := by
  obtain ⟨_, h, h1, _, h3, h4⟩ :=
    (c11_strength_threshold newNeuron strengthConfig exampleRand strengthNeuron (by decide)
      (by decide!)).1 2 4 rfl rfl
  have hh : h = 2 := (Option.some.inj h1).symm
  subst hh
  have ht : trainEach strengthWords (strengthNeuron.set_H 2) = .ok ([0, 0], strengthTrained) := by
    decide!
  exact ⟨by decide, by decide!, (h3 strengthNeuron rfl rfl).1, ht, (h4 _ _ _ ht).1,
    (h4 _ _ _ ht).2⟩

/-- C12, as stated, fails: on the strength neuron built from `strengthConfig`
(`H = 2`, `G_m = 2`, `H_m = 4`) the training cycle on the two valid
`strengthWords` returns slot 0 for both words, and afterwards `Expose` on the
second word returns `kDisabled`.  (The first word strengthened synapse 0 to
`G_m = 2`, so the second word reached `H = 2` with one synapse during training
and cannot reach `H_m = 4` afterwards.) -/
theorem c12_strength_recall_counterexample :
    (newNeuron : Neuron ℚ).Init strengthConfig exampleRand = .ok strengthNeuron ∧
      strengthConfig.g_m = some 2 ∧ strengthConfig.h_m = some 4 ∧
      (∀ w ∈ strengthWords, ValidWord strengthNeuron w) ∧
      trainingCycle strengthWords strengthNeuron = .ok ([0, 0], strengthCycled) ∧
      strengthWords.getD 1 [] = [(0, 0)] ∧
      strengthCycled.Expose [(0, 0)] = .ok (kDisabled, { strengthCycled with sum := [0] }) ∧
      kDisabled ≠ 0 :=
  ⟨by decide!, rfl, rfl, by decide, by decide!, rfl, by decide!, by decide⟩

theorem cycle_nil (n0 : Neuron F) (ds : List Int) (n3 : Neuron F)
    (h : trainingCycle [] n0 = .ok (ds, n3)) :
    ds = [] ∧ ∃ n1, n0.StartTraining = .ok n1 ∧ n1.FinishTraining = .ok n3 := by
  unfold trainingCycle at h
  split at h
  · exact absurd h (by simp)
  · rename_i n1 h1
    simp only [trainEach] at h
    split at h
    · exact absurd h (by simp)
    · rename_i n4 h4
      simp only [Except.ok.injEq, Prod.mk.injEq] at h
      exact ⟨h.1.symm, n1, h1, by rw [h4, h.2]⟩

/-- The parts of a training cycle that returned. -/
theorem cycle_parts (ws : List Word) (n0 : Neuron F) (ds : List Int) (n3 : Neuron F)
    (h : trainingCycle ws n0 = .ok (ds, n3)) :
    ∃ n1 n2, n0.StartTraining = .ok n1 ∧ trainEach ws n1 = .ok (ds, n2) ∧
      n2.FinishTraining = .ok n3 := by
  unfold trainingCycle at h
  split at h
  · exact absurd h (by simp)
  · rename_i n1 h1
    split at h
    · exact absurd h (by simp)
    · rename_i ds1 n2 h2
      split at h
      · exact absurd h (by simp)
      · rename_i n4 h4
        simp only [Except.ok.injEq, Prod.mk.injEq] at h
        exact ⟨n1, n2, h1, by rw [h2, h.1], by rw [h4, h.2]⟩

/-- The calls of a training loop that returned, one by one: the call number
`i` is made on the neuron that the calls before it left, returns the entry `i`
of the values, and the calls after it lead to the final neuron. -/
theorem trainEach_steps : ∀ (ws : List Word) (n : Neuron F) (ds : List Int) (n2 : Neuron F),
    trainEach ws n = .ok (ds, n2) →
    ds.length = ws.length ∧ ∀ i : Nat, i < ws.length → ∃ m m1 : Neuron F,
      trainEach (ws.take i) n = .ok (ds.take i, m) ∧
      m.Train (ws.getD i []) = .ok (ds.getD i 0, m1) ∧
      trainEach (ws.drop (i + 1)) m1 = .ok (ds.drop (i + 1), n2) := by
  intro ws
  induction ws with
  | nil =>
    intro n ds n2 h
    simp only [trainEach, Except.ok.injEq, Prod.mk.injEq] at h
    rw [← h.1]
    exact ⟨rfl, fun i hi => absurd hi (by simp)⟩
  | cons w rest ih =>
    intro n ds n2 h
    unfold trainEach at h
    split at h
    · exact absurd h (by simp)
    · rename_i d n1 h1
      split at h
      · exact absurd h (by simp)
      · rename_i ds1 n3 h3
        simp only [Except.ok.injEq, Prod.mk.injEq] at h
        obtain ⟨hd, hn⟩ := h
        subst hd
        subst hn
        obtain ⟨k1, k2⟩ := ih n1 ds1 n3 h3
        refine ⟨by simp [k1], fun i hi => ?_⟩
        cases i with
        | zero => exact ⟨n, n1, rfl, h1, h3⟩
        | succ j =>
          obtain ⟨m, m1, a1, a2, a3⟩ := k2 j (by simpa using hi)
          refine ⟨m, m1, ?_, a2, a3⟩
          show trainEach (w :: rest.take j) n = .ok (d :: ds1.take j, m)
          unfold trainEach
          rw [h1]
          simp only [a1]

/-- One call of a strength training loop that returned: it is made on a
neuron that differs from the first one in the frozen flags, the strengths and
the scratch sums only, its value is the first firing slot on that neuron, and
the synapses that contribute to the firing are frozen with strength `G_m` at
the end of the loop. -/
theorem strength_step_at (n0 : Neuron F) (g : F) (hc : Consistent n0)
    (hcont : ContainersInRange n0) (hls : n0.learn = some .LearnSynapseStrength)
    (hg : n0.config.g_m = some g) (ws : List Word) (hv : ∀ w ∈ ws, ValidWord n0 w)
    (ds : List Int) (n2 : Neuron F) (h : trainEach ws n0 = .ok (ds, n2)) (i : Nat)
    (hi : i < ws.length) :
    ∃ m m1 : Neuron F, trainEach (ws.take i) n0 = .ok (ds.take i, m) ∧
      m.Train (ws.getD i []) = .ok (ds.getD i 0, m1) ∧
      m = { n0 with frozen := m.frozen, strength := m.strength, sum := m.sum } ∧
      FirstFire m (ws.getD i []) (ds.getD i 0) ∧
      (ds.getD i 0 ≠ kDisabled →
        ∀ s ∈ (contributing m (ws.getD i []) (ds.getD i 0)).map Prod.fst,
          n2.frozen.getD s.toNat false = true ∧ n2.strength.getD s.toNat 0 = g) := by
  obtain ⟨_, hsteps⟩ := trainEach_steps ws n0 ds n2 h
  obtain ⟨m, m1, s1, s2, s3⟩ := hsteps i hi
  have hwi : ws.getD i [] ∈ ws := by
    rw [List.getD_eq_getElem _ _ hi]
    exact List.getElem_mem _
  obtain ⟨ds1, m', b1, b2, b3, b4, b5, _⟩ :=
    trainEach_strength n0 g hc hcont hls hg (ws.take i) n0
      (fun w hw => hv w (List.mem_of_mem_take hw)) rfl rfl rfl hc.1
  rw [s1] at b1
  simp only [Except.ok.injEq, Prod.mk.injEq] at b1
  obtain ⟨_, e1⟩ := b1
  subst e1
  obtain ⟨r, m1', a1, a2, a3, a4, a5, a6, _, _, _, _, a11⟩ :=
    train_strength_step n0 m g (ws.getD i []) hc hcont hls hg (hv _ hwi) b2 b3 b4 b5
  rw [s2] at a1
  simp only [Except.ok.injEq, Prod.mk.injEq] at a1
  obtain ⟨e2, e3⟩ := a1
  subst e2
  subst e3
  obtain ⟨ds2, n2', c1, _, _, _, _, c6, c7, _⟩ :=
    trainEach_strength n0 g hc hcont hls hg (ws.drop (i + 1)) m1
      (fun w hw => hv w (List.mem_of_mem_drop hw)) a3 a4 a5 a6
  rw [s3] at c1
  simp only [Except.ok.injEq, Prod.mk.injEq] at c1
  obtain ⟨_, e4⟩ := c1
  subst e4
  exact ⟨m, m1, s1, s2, b2, a2, fun hr s hs => ⟨c6 _ (a11 hr s hs).1, c7 _ (a11 hr s hs).2⟩⟩

/-- C12, amended, in the documented domain `0 <= D1`,
`D1 + D2 <= kDisabled = 2^29`: for the strength neuron `n0` that `Init` leaves
(both `G_m` and `H_m` present) and every sequence of valid words, whenever the
training cycle `StartTraining`, `Train(w_1)`, ..., `Train(w_n)`,
`FinishTraining` returns: the threshold is `config.H_m`, delays and containers
are those of `n0`, every strength is `1.0` or `G_m`, and `Expose(w)` returns
the first slot in which some container's sum of these final strengths reaches
`H_m`, or `kDisabled`.  For each trained word `w_i`, with `m` the neuron that
`StartTraining` and the calls `Train(w_1)`, ..., `Train(w_(i-1))` left: the
value `d_i` is what `Train(w_i)` returned on `m`, and it is the first firing
slot of `w_i` for the threshold `config.H` and the strengths of `m`; if `d_i`
is a slot, every synapse of a word entry aligned at `d_i` in a container that
reaches the threshold there ends frozen with strength `G_m`; and `Expose(w_i)`
returns `d_i` after the cycle exactly when `d_i` is also the first firing slot
for `H_m` and the final strengths.  The cycle and every later `Expose` on a
valid word do return when the scratch sums of `n0` have `C` entries.  In this
domain the `int32` sums that `Expose` forms, `D1 + D2` and `delays(s) + t`, do
not overflow. -/
theorem c12_strength_recall (self : Neuron F) (cfg : NeuronConfig F) (rand : Nat → Nat)
    (n0 : Neuron F) (ws : List Word) (g hm : F) (ha : Aligned self)
    (hinit : self.Init cfg rand = .ok n0) (hg : cfg.g_m = some g) (hhm : cfg.h_m = some hm)
    (hD1 : 0 ≤ n0.D1) (hslots : n0.D1 + n0.D2 ≤ 536870912)
    (hv : ∀ w ∈ ws, ValidWord n0 w) :
    (∀ (ds : List Int) (n3 : Neuron F), trainingCycle ws n0 = .ok (ds, n3) →
      n3.H = hm ∧ n3.delays = n0.delays ∧ n3.containers = n0.containers ∧
      (∀ j : Nat, n3.strength.getD j 0 = 1 ∨ n3.strength.getD j 0 = g
        ∨ n0.length ≤ (j : Int)) ∧
      (∀ (w : Word) (r : Int) (n4 : Neuron F), n3.Expose w = .ok (r, n4) → FirstFire n3 w r) ∧
      ds.length = ws.length ∧
      ∃ n1 : Neuron F, n0.StartTraining = .ok n1 ∧ cfg.h = some n1.H ∧
        ∀ i : Nat, i < ws.length → ∃ m m1 : Neuron F,
          trainEach (ws.take i) n1 = .ok (ds.take i, m) ∧
          m.Train (ws.getD i []) = .ok (ds.getD i 0, m1) ∧
          m.H = n1.H ∧ m.delays = n0.delays ∧ m.containers = n0.containers ∧
          FirstFire m (ws.getD i []) (ds.getD i 0) ∧
          (ds.getD i 0 ≠ kDisabled →
            ∀ s ∈ (contributing m (ws.getD i []) (ds.getD i 0)).map Prod.fst,
              n3.strength_at s = g ∧ n3.frozen_at s = true) ∧
          (∀ (r : Int) (n4 : Neuron F), n3.Expose (ws.getD i []) = .ok (r, n4) →
            (r = ds.getD i 0 ↔ FirstFire n3 (ws.getD i []) (ds.getD i 0)))) ∧
    ((n0.sum.length : Int) = n0.C →
      ∃ (ds : List Int) (n3 : Neuron F), trainingCycle ws n0 = .ok (ds, n3) ∧
        ∀ w, ValidWord n0 w → ∃ r n4, n3.Expose w = .ok (r, n4)) ∧
    ((-2147483648 ≤ n0.D1 + n0.D2 ∧ n0.D1 + n0.D2 ≤ 2147483647) ∧
      ∀ w ∈ ws, ∀ e ∈ w,
        -2147483648 ≤ n0.delays_at e.1 + e.2 ∧ n0.delays_at e.1 + e.2 ≤ 2147483647) := by
  obtain ⟨c, d1, d2, hh, q, r, _, _, _, f4, _, _, _, f8, _, f10, _, f12, f13, f14, _, _, _, _,
    _, _, _, _, _⟩ := init_spec self cfg rand n0 hinit
  obtain ⟨g1, g2, _, g4, g5, g6, g7, g8, g9⟩ := init_ready self cfg rand n0 ha hinit
  have hl : n0.learn = some .LearnSynapseStrength := by
    rw [g9, hg, hhm]
    simp
  have k1 : n0.config.h = some hh := by rw [f10, f4]
  have k2 : n0.config.g_m = some g := by rw [f10, hg]
  have k3 : n0.config.h_m = some hm := by rw [f10, hhm]
  have hD2 : n0.D1 ≤ n0.D2 := by rw [f12, f13]; exact f8
  have hone : ∀ j : Nat, (j : Int) < n0.length → n0.strength.getD j 0 = 1 := by
    intro j hj
    have hj1 : j < n0.strength.length := by omega
    rw [List.getD_eq_getElem _ _ hj1]
    exact g2 _ (List.getElem_mem _)
  have hst : n0.StartTraining = .ok (n0.set_H hh) := by
    unfold Neuron.StartTraining
    rw [hl, k1]
  have main : (n0.sum.length : Int) = n0.C →
      ∃ (ds : List Int) (n3 : Neuron F), trainingCycle ws n0 = .ok (ds, n3) ∧
      (∀ w, ValidWord n0 w → ∃ r n4, n3.Expose w = .ok (r, n4)) ∧
      n3.H = hm ∧ n3.delays = n0.delays ∧ n3.containers = n0.containers ∧
      (∀ j : Nat, n3.strength.getD j 0 = 1 ∨ n3.strength.getD j 0 = g
        ∨ n0.length ≤ (j : Int)) := by
    intro hsum
    obtain ⟨ds, n3, a1, a2, a3, a4, a5, _, _, a8, _, _⟩ :=
      cycle_strength n0 ws hh g hm ⟨g5, g6, g7, g8⟩ hsum g1 hl k1 k2 k3 hv
    have e1 : n3.delays = n0.delays := by rw [a2]
    have e2 : n3.containers = n0.containers := by rw [a2]
    have e3 : n3.C = n0.C := by rw [a2]
    have e4 : n3.length = n0.length := by rw [a2]
    have e5 : n3.D1 = n0.D1 := by rw [a2]
    refine ⟨ds, n3, a1, ?_, by rw [a2], e1, e2, ?_⟩
    · intro w hw
      have hc3 : Consistent n3 := by
        unfold Consistent
        rw [e1, e2, e3, e4, a3, a4]
        exact ⟨a5, g5, g6, g7, g8⟩
      have hcont3 : ContainersInRange n3 := by
        unfold ContainersInRange
        rw [e2, e3]
        exact g1
      have hv3 : ValidWord n3 w := by
        unfold ValidWord
        rw [e4, e5]
        exact hw
      obtain ⟨r, sum1, b1, _⟩ := expose_spec n3 w hc3 hcont3 hv3
      exact ⟨r, _, b1⟩
    · intro j
      by_cases hj : (j : Int) < n0.length
      · rcases a8 j with h | h
        · exact Or.inl (h.trans (hone j hj))
        · exact Or.inr (Or.inl h)
      · exact Or.inr (Or.inr (by omega))
  refine ⟨?_, ?_, ⟨by omega, by omega⟩, fun w hw e he => ?_⟩
  rotate_left 2
  · obtain ⟨⟨s0, s1⟩, hin⟩ := hv w hw e he
    have hlt : e.1.toNat < n0.delays.length := by omega
    have hm := g4 _ (List.getElem_mem hlt)
    unfold Neuron.delays_at
    rw [List.getD_eq_getElem _ _ hlt]
    unfold kDisabled at hin
    omega
  · intro ds n3 hcyc
    obtain ⟨n1, n2, p1, p2, p3⟩ := cycle_parts ws n0 ds n3 hcyc
    rw [hst] at p1
    simp only [Except.ok.injEq] at p1
    subst p1
    have hlen := (trainEach_steps ws _ ds n2 p2).1
    have hglobal : n3.H = hm ∧ n3.delays = n0.delays ∧ n3.containers = n0.containers ∧
        (∀ j : Nat, n3.strength.getD j 0 = 1 ∨ n3.strength.getD j 0 = g
          ∨ n0.length ≤ (j : Int)) := by
      by_cases hne : ws = []
      · subst hne
        simp only [trainEach, Except.ok.injEq, Prod.mk.injEq] at p2
        rw [← p2.2] at p3
        have s4 : (n0.set_H hh).FinishTraining = .ok { (n0.set_H hh).set_H hm with
            Q_after := DoubleModel.ofInt (frozenCount (n0.set_H hh))
              / DoubleModel.ofInt (n0.set_H hh).length } := by
          have k4 : (n0.set_H hh).learn = some .LearnSynapseStrength := hl
          have k5 : (n0.set_H hh).config.h_m = some hm := k3
          have k6 : ((n0.set_H hh).frozen.length : Int) = (n0.set_H hh).length := g8
          unfold Neuron.FinishTraining
          rw [k4]
          simp only [k6, not_true_eq_false, if_false, k5]
        rw [s4] at p3
        simp only [Except.ok.injEq] at p3
        rw [← p3]
        refine ⟨rfl, rfl, rfl, fun j => ?_⟩
        by_cases hj : (j : Int) < n0.length
        · exact Or.inl (hone j hj)
        · exact Or.inr (Or.inr (by omega))
      · obtain ⟨ds1, n31, t1, _, t3, t4, t5, t6⟩ :=
          main (cycle_sum_check n0 ws ds n3 hne hcyc)
        rw [t1] at hcyc
        simp only [Except.ok.injEq, Prod.mk.injEq] at hcyc
        rw [← hcyc.2]
        exact ⟨t3, t4, t5, t6⟩
    refine ⟨hglobal.1, hglobal.2.1, hglobal.2.2.1, hglobal.2.2.2,
      fun w r n4 hex => expose_ok_firstFire _ w r n4 hex, hlen, n0.set_H hh, hst, f4,
      fun i hi => ?_⟩
    have hne : ws ≠ [] := by
      intro h0
      rw [h0] at hi
      exact absurd hi (by simp)
    have hsum := cycle_sum_check n0 ws ds n3 hne hcyc
    have hc1 : Consistent (n0.set_H hh) := ⟨hsum, g5, g6, g7, g8⟩
    obtain ⟨m, m1, q1, q2, q3, q4, q5⟩ :=
      strength_step_at (n0.set_H hh) g hc1 g1 hl k2 ws hv ds n2 p2 i hi
    have hfin : n3.frozen = n2.frozen ∧ n3.strength = n2.strength := by
      have k4 : n2.learn = some .LearnSynapseStrength := by
        obtain ⟨ds', n2', b1, b2, _⟩ :=
          trainEach_strength (n0.set_H hh) g hc1 g1 hl k2 ws (n0.set_H hh) hv rfl rfl rfl hsum
        rw [p2] at b1
        simp only [Except.ok.injEq, Prod.mk.injEq] at b1
        rw [b1.2, b2]
        exact hl
      unfold Neuron.FinishTraining at p3
      rw [k4] at p3
      simp only at p3
      split at p3
      · exact absurd p3 (by simp)
      · split at p3
        · exact absurd p3 (by simp)
        · simp only [Except.ok.injEq] at p3
          rw [← p3]
          exact ⟨rfl, rfl⟩
    have r1 : m.H = (n0.set_H hh).H := (congrArg Neuron.H q3).trans rfl
    have r2 : m.delays = n0.delays := (congrArg Neuron.delays q3).trans rfl
    have r3 : m.containers = n0.containers := (congrArg Neuron.containers q3).trans rfl
    refine ⟨m, m1, q1, q2, r1, r2, r3, q4, fun hd s hs => ?_,
      fun r n4 hex => ?_⟩
    · have := q5 hd s hs
      simp only [Neuron.strength_at, Neuron.frozen_at]
      rw [hfin.1, hfin.2]
      exact ⟨this.2, this.1⟩
    · have hff := expose_ok_firstFire n3 _ r n4 hex
      exact ⟨fun h => h ▸ hff, fun h => firstFire_unique n3 _ r _ hff h⟩
  · intro hsum
    obtain ⟨ds1, n31, t1, t2, _⟩ := main hsum
    exact ⟨ds1, n31, t1, t2⟩

/-- C12 (amended) on the neuron built from `strengthConfig` and the two
`strengthWords`, which are in the documented domain: the cycle returns slot 0
for both words, each value being the first firing slot on the neuron that the
calls before it left. -/
theorem c12_strength_recall_witness :
    Aligned (newNeuron : Neuron ℚ) ∧
      (newNeuron : Neuron ℚ).Init strengthConfig exampleRand = .ok strengthNeuron ∧
      strengthConfig.g_m = some 2 ∧ strengthConfig.h_m = some 4 ∧
      0 ≤ strengthNeuron.D1 ∧ strengthNeuron.D1 + strengthNeuron.D2 ≤ 536870912 ∧
      (∀ w ∈ strengthWords, ValidWord strengthNeuron w) ∧
      trainingCycle strengthWords strengthNeuron = .ok ([0, 0], strengthCycled) ∧
      strengthCycled.H = 4 ∧ strengthCycled.delays = strengthNeuron.delays ∧
      (∃ n1 : Neuron ℚ, strengthNeuron.StartTraining = .ok n1 ∧
        strengthConfig.h = some n1.H ∧
        ∀ i : Nat, i < strengthWords.length → ∃ m m1 : Neuron ℚ,
          trainEach (strengthWords.take i) n1 = .ok (([0, 0] : List Int).take i, m) ∧
          m.Train (strengthWords.getD i []) = .ok (([0, 0] : List Int).getD i 0, m1) ∧
          m.H = n1.H ∧ m.delays = strengthNeuron.delays ∧
          m.containers = strengthNeuron.containers ∧
          FirstFire m (strengthWords.getD i []) (([0, 0] : List Int).getD i 0) ∧
          (([0, 0] : List Int).getD i 0 ≠ kDisabled →
            ∀ s ∈ (contributing m (strengthWords.getD i [])
                (([0, 0] : List Int).getD i 0)).map Prod.fst,
              strengthCycled.strength_at s = 2 ∧ strengthCycled.frozen_at s = true) ∧
          (∀ (r : Int) (n4 : Neuron ℚ),
            strengthCycled.Expose (strengthWords.getD i []) = .ok (r, n4) →
            (r = ([0, 0] : List Int).getD i 0 ↔
              FirstFire strengthCycled (strengthWords.getD i [])
                (([0, 0] : List Int).getD i 0)))) ∧
      (strengthNeuron.sum.length : Int) = strengthNeuron.C ∧
      ∃ (ds : List Int) (n3 : Neuron ℚ),
        trainingCycle strengthWords strengthNeuron = .ok (ds, n3) ∧
        ∀ w, ValidWord strengthNeuron w → ∃ r n4, n3.Expose w = .ok (r, n4) :=
  ⟨by decide, by decide!, rfl, rfl, by decide, by decide, by decide, by decide!,
    ((c12_strength_recall newNeuron strengthConfig exampleRand strengthNeuron strengthWords 2 4
      (by decide) (by decide!) rfl rfl (by decide) (by decide) (by decide)).1 [0, 0]
      strengthCycled (by decide!)).1,
    ((c12_strength_recall newNeuron strengthConfig exampleRand strengthNeuron strengthWords 2 4
      (by decide) (by decide!) rfl rfl (by decide) (by decide) (by decide)).1 [0, 0]
      strengthCycled (by decide!)).2.1,
    ((c12_strength_recall newNeuron strengthConfig exampleRand strengthNeuron strengthWords 2 4
      (by decide) (by decide!) rfl rfl (by decide) (by decide) (by decide)).1 [0, 0]
      strengthCycled (by decide!)).2.2.2.2.2.2,
    by decide,
    (c12_strength_recall newNeuron strengthConfig exampleRand strengthNeuron strengthWords 2 4
      (by decide) (by decide!) rfl rfl (by decide) (by decide) (by decide)).2.1 (by decide)⟩

/-! ## Alice -/

theorem set_delay_eq (w : Wordset) (i : Nat) (d : Int) :
    w.set_delay (i : Int) d = { w with delays := (w.set_delay (i : Int) d).delays } ∧
      (w.set_delay (i : Int) d).delays.length = w.delays.length ∧
      ∀ j : Nat, (w.set_delay (i : Int) d).delays.getD j 0
        = if j = i ∧ i < w.delays.length then d else w.delays.getD j 0 := by
  unfold Wordset.set_delay
  by_cases h : i < w.delays.length
  · have h1 : 0 ≤ (i : Int) ∧ (i : Int) < (w.delays.length : Int) := ⟨by omega, by omega⟩
    rw [if_pos h1]
    refine ⟨rfl, by simp, fun j => ?_⟩
    simp only [Int.toNat_ofNat]
    by_cases hj : j = i
    · subst hj
      rw [getD_set_self _ _ _ _ h, if_pos ⟨rfl, h⟩]
    · rw [getD_set_other _ _ _ _ _ (fun e => hj e.symm), if_neg (fun e => hj e.1)]
  · have h1 : ¬ (0 ≤ (i : Int) ∧ (i : Int) < (w.delays.length : Int)) := by omega
    rw [if_neg h1]
    exact ⟨rfl, rfl, fun j => by rw [if_neg (fun e => h e.2)]⟩

theorem get_word_drop (w : Wordset) (i : Nat) (h : i < w.words.length) :
    w.words.drop i = w.get_word (i : Int) :: w.words.drop (i + 1) := by
  unfold Wordset.get_word
  simp only [Int.toNat_ofNat]
  rw [List.getD_eq_getElem _ _ h]
  exact List.drop_eq_getElem_cons h

theorem recorded_shift (i k j len : Nat) (delay slots : Int) (ds : List Int) (hj : i + 1 ≤ j) :
    (i + 1 ≤ j ∧ j < i + 1 + k ∧ j < len ∧
        0 ≤ ds.getD (j - (i + 1)) 0 ∧ ds.getD (j - (i + 1)) 0 < slots) ↔
      (i ≤ j ∧ j < i + (k + 1) ∧ j < len ∧
        0 ≤ (delay :: ds).getD (j - i) 0 ∧ (delay :: ds).getD (j - i) 0 < slots) := by
  have e : j - i = (j - (i + 1)) + 1 := by omega
  rw [e, List.getD_cons_succ]
  constructor
  · rintro ⟨_, _, h3, h4, h5⟩
    exact ⟨by omega, by omega, h3, h4, h5⟩
  · rintro ⟨_, _, h3, h4, h5⟩
    exact ⟨by omega, by omega, h3, h4, h5⟩

theorem aliceTrainLoop_ok :
    ∀ (k i : Nat) (words : Wordset) (n : Neuron F) (words1 : Wordset) (n2 : Neuron F),
      i + k = words.words.length → aliceTrainLoop k i words n = .ok (words1, n2) →
      ∃ ds, trainEach (words.words.drop i) n = .ok (ds, n2) ∧ ds.length = k ∧
        words1 = { words with delays := words1.delays } ∧
        words1.delays.length = words.delays.length ∧
        ∀ j : Nat, words1.delays.getD j 0 =
          if i ≤ j ∧ j < i + k ∧ j < words.delays.length ∧
              0 ≤ ds.getD (j - i) 0 ∧ ds.getD (j - i) 0 < n.slots
          then ds.getD (j - i) 0 else words.delays.getD j 0 := by
  intro k
  induction k with
  | zero =>
    intro i words n words1 n2 hik h
    simp only [aliceTrainLoop, Except.ok.injEq, Prod.mk.injEq] at h
    have hd : words.words.drop i = [] := List.drop_of_length_le (by omega)
    refine ⟨[], ?_, rfl, by rw [← h.1], by rw [← h.1], fun j => ?_⟩
    · rw [hd, ← h.2]
      rfl
    · have hn : ¬ (i ≤ j ∧ j < i + 0 ∧ j < words.delays.length ∧
          0 ≤ ([] : List Int).getD (j - i) 0 ∧ ([] : List Int).getD (j - i) 0 < n.slots) := by
        omega
      rw [← h.1, if_neg hn]
  | succ k ih =>
    intro i words n words1 n2 hik h
    have hi : i < words.words.length := by omega
    unfold aliceTrainLoop at h
    split at h
    · exact absurd h (by simp)
    · rename_i delay n1 ht
      have hs : n1.slots = n.slots := by
        have := (train_frame n _ delay n1 ht).1
        rw [this]
        rfl
      rw [get_word_drop words i hi]
      split at h
      · rename_i hbad
        rw [hs] at hbad
        obtain ⟨ds, a1, a2, a3, a4, a5⟩ := ih (i + 1) words n1 words1 n2 (by omega) h
        refine ⟨delay :: ds, ?_, by simp [a2], a3, a4, fun j => ?_⟩
        · unfold trainEach
          rw [ht]
          simp only [a1]
        · rw [a5 j, hs]
          by_cases hj1 : i + 1 ≤ j
          · simp only [recorded_shift i k j words.delays.length delay n.slots ds hj1]
            have e : j - i = (j - (i + 1)) + 1 := by omega
            rw [e, List.getD_cons_succ]
          · have hn1 : ¬ (i + 1 ≤ j ∧ j < i + 1 + k ∧ j < words.delays.length ∧
                0 ≤ ds.getD (j - (i + 1)) 0 ∧ ds.getD (j - (i + 1)) 0 < n.slots) :=
              fun e => hj1 e.1
            rw [if_neg hn1]
            by_cases hj : j = i
            · subst hj
              have hn2 : ¬ (j ≤ j ∧ j < j + (k + 1) ∧ j < words.delays.length ∧
                  0 ≤ (delay :: ds).getD (j - j) 0 ∧ (delay :: ds).getD (j - j) 0 < n.slots) := by
                simp only [Nat.sub_self, List.getD_cons_zero]
                omega
              rw [if_neg hn2]
            · have hn2 : ¬ (i ≤ j ∧ j < i + (k + 1) ∧ j < words.delays.length ∧
                  0 ≤ (delay :: ds).getD (j - i) 0 ∧ (delay :: ds).getD (j - i) 0 < n.slots) :=
                fun e => by omega
              rw [if_neg hn2]
      · rename_i hgood
        rw [hs] at hgood
        obtain ⟨s1, s2, s3⟩ := set_delay_eq words i delay
        have hw : (words.set_delay (i : Int) delay).words = words.words := by rw [s1]
        obtain ⟨ds, a1, a2, a3, a4, a5⟩ :=
          ih (i + 1) (words.set_delay (i : Int) delay) n1 words1 n2
            (by rw [hw]; omega) h
        refine ⟨delay :: ds, ?_, by simp [a2], ?_, by rw [a4, s2], fun j => ?_⟩
        · unfold trainEach
          rw [ht]
          rw [hw] at a1
          simp only [a1]
        · rw [a3, s1]
        · rw [a5 j, hs, s2, s3 j]
          by_cases hj1 : i + 1 ≤ j
          · simp only [recorded_shift i k j words.delays.length delay n.slots ds hj1]
            have e : j - i = (j - (i + 1)) + 1 := by omega
            have hji : ¬ (j = i ∧ i < words.delays.length) := fun e => by omega
            rw [e, List.getD_cons_succ, if_neg hji]
          · have hn1 : ¬ (i + 1 ≤ j ∧ j < i + 1 + k ∧ j < words.delays.length ∧
                0 ≤ ds.getD (j - (i + 1)) 0 ∧ ds.getD (j - (i + 1)) 0 < n.slots) :=
              fun e => hj1 e.1
            rw [if_neg hn1]
            by_cases hj : j = i
            · subst hj
              by_cases hl : j < words.delays.length
              · have hp : j ≤ j ∧ j < j + (k + 1) ∧ j < words.delays.length ∧
                    0 ≤ (delay :: ds).getD (j - j) 0 ∧ (delay :: ds).getD (j - j) 0 < n.slots := by
                  simp only [Nat.sub_self, List.getD_cons_zero]
                  omega
                rw [if_pos ⟨rfl, hl⟩, if_pos hp]
                simp only [Nat.sub_self, List.getD_cons_zero]
              · have hn2 : ¬ (j ≤ j ∧ j < j + (k + 1) ∧ j < words.delays.length ∧
                    0 ≤ (delay :: ds).getD (j - j) 0 ∧ (delay :: ds).getD (j - j) 0 < n.slots) :=
                  fun e => hl e.2.2.1
                rw [if_neg (fun e => hl e.2), if_neg hn2]
            · have hn2 : ¬ (i ≤ j ∧ j < i + (k + 1) ∧ j < words.delays.length ∧
                  0 ≤ (delay :: ds).getD (j - i) 0 ∧ (delay :: ds).getD (j - i) 0 < n.slots) :=
                fun e => by omega
              rw [if_neg (fun e => hj e.1), if_neg hn2]

theorem aliceTrainLoop_total :
    ∀ (k i : Nat) (words : Wordset) (n : Neuron F) (ds : List Int) (n2 : Neuron F),
      i + k = words.words.length → trainEach (words.words.drop i) n = .ok (ds, n2) →
      ∃ words1, aliceTrainLoop k i words n = .ok (words1, n2) := by
  intro k
  induction k with
  | zero =>
    intro i words n ds n2 hik h
    have hd : words.words.drop i = [] := List.drop_of_length_le (by omega)
    rw [hd] at h
    simp only [trainEach, Except.ok.injEq, Prod.mk.injEq] at h
    exact ⟨words, by rw [← h.2]; rfl⟩
  | succ k ih =>
    intro i words n ds n2 hik h
    have hi : i < words.words.length := by omega
    rw [get_word_drop words i hi] at h
    unfold trainEach at h
    split at h
    · exact absurd h (by simp)
    · rename_i delay n1 ht
      split at h
      · exact absurd h (by simp)
      · rename_i ds1 n3 hr
        simp only [Except.ok.injEq, Prod.mk.injEq] at h
        unfold aliceTrainLoop
        rw [ht]
        simp only []
        split
        · rw [← h.2]
          exact ih (i + 1) words n1 ds1 n3 (by omega) hr
        · rw [← h.2]
          have hw : (words.set_delay (i : Int) delay).words = words.words := by
            rw [(set_delay_eq words i delay).1]
          refine ih (i + 1) (words.set_delay (i : Int) delay) n1 ds1 n3 ?_ ?_
          · rw [hw]
            omega
          · rw [hw]
            exact hr

theorem startTraining_frame (n n1 : Neuron F) (h : n.StartTraining = .ok n1) :
    n1 = { n with H := n1.H } := by
  unfold Neuron.StartTraining at h
  split at h
  · exact absurd h (by simp)
  · simp only [Except.ok.injEq] at h
    rw [← h]
  · split at h
    · exact absurd h (by simp)
    · simp only [Except.ok.injEq] at h
      rw [← h]
      rfl

/-- C15: `Alice::Train(words, neuron)` is the training cycle on the words of
the wordset in index order (`StartTraining`, then `Train` on `word_0`,
`word_1`, ... in this order, then `FinishTraining`): it returns exactly when
the cycle returns, and with the same neuron.  The words are not changed, and
afterwards `words.delay(i)` is, for every word `i` (that has an entry in the
delay vector, as after `Wordset::Init`), the value `d` that `Train(word_i)`
returned if `0 <= d < neuron.slots()`, and otherwise the value it had before
the call, which is `kDisabled` for a wordset left by `Init`. -/
theorem c15_alice_train (words : Wordset) (n : Neuron F) :
    (∀ (words1 : Wordset) (n3 : Neuron F), Alice.Train words n = .ok (words1, n3) →
      ∃ ds : List Int, trainingCycle words.words n = .ok (ds, n3) ∧
        ds.length = words.words.length ∧ words1.words = words.words ∧
        words1.delays.length = words.delays.length ∧
        ∀ i : Nat, i < words.words.length → i < words.delays.length →
          words1.delay (i : Int) =
            if 0 ≤ ds.getD i 0 ∧ ds.getD i 0 < n.slots then ds.getD i 0
            else words.delay (i : Int)) ∧
    (∀ (ds : List Int) (n3 : Neuron F), trainingCycle words.words n = .ok (ds, n3) →
      ∃ words1, Alice.Train words n = .ok (words1, n3)) := by
  constructor
  · intro words1 n3 h
    unfold Alice.Train at h
    split at h
    · exact absurd h (by simp)
    · rename_i n1 h1
      split at h
      · exact absurd h (by simp)
      · rename_i words2 n2 h2
        split at h
        · exact absurd h (by simp)
        · rename_i n4 h4
          simp only [Except.ok.injEq, Prod.mk.injEq] at h
          obtain ⟨ds, a1, a2, a3, a4, a5⟩ :=
            aliceTrainLoop_ok words.words.length 0 words n1 words2 n2 (by omega) h2
          rw [List.drop_zero] at a1
          have hs : n1.slots = n.slots := by
            rw [startTraining_frame n n1 h1]
            rfl
          refine ⟨ds, ?_, a2, by rw [← h.1, a3], by rw [← h.1, a4], fun i hi1 hi2 => ?_⟩
          · unfold trainingCycle
            rw [h1]
            simp only [a1, h4, h.2]
          · have hi3 : 0 ≤ (i : Int) ∧ (i : Int) < (words.delays.length : Int) := by omega
            have hi4 : 0 ≤ (i : Int) ∧ (i : Int) < (words1.delays.length : Int) := by
              rw [← h.1, a4]
              exact hi3
            unfold Wordset.delay
            rw [if_pos hi3, if_pos hi4, ← h.1]
            simp only [Int.toNat_ofNat]
            rw [a5 i, hs]
            simp only [Nat.sub_zero]
            by_cases hval : 0 ≤ ds.getD i 0 ∧ ds.getD i 0 < n.slots
            · rw [if_pos hval, if_pos ⟨by omega, by omega, hi2, hval⟩]
            · rw [if_neg hval, if_neg (fun e => hval e.2.2.2)]
  · intro ds n3 h
    unfold trainingCycle at h
    split at h
    · exact absurd h (by simp)
    · rename_i n1 h1
      split at h
      · exact absurd h (by simp)
      · rename_i ds1 n2 h2
        split at h
        · exact absurd h (by simp)
        · rename_i n4 h4
          simp only [Except.ok.injEq, Prod.mk.injEq] at h
          obtain ⟨words1, a1⟩ :=
            aliceTrainLoop_total words.words.length 0 words n1 ds1 n2 (by omega)
              (by rw [List.drop_zero]; exact h2)
          refine ⟨words1, ?_⟩
          unfold Alice.Train
          rw [h1]
          simp only [a1, h4, h.2]

/-! ## The scratch sums do not influence training -/

theorem expose_sum_replace (n : Neuron F) (word : Word) (s : List F)
    (hs : s.length = n.sum.length) (d : Int) (n1 : Neuron F)
    (h : n.Expose word = .ok (d, n1)) :
    (n.slots.toNat = 0 ∧ d = kDisabled ∧ n1 = n ∧
        ({ n with sum := s } : Neuron F).Expose word = .ok (kDisabled, { n with sum := s })) ∨
      (n.slots.toNat ≠ 0 ∧ ({ n with sum := s } : Neuron F).Expose word = .ok (d, n1)) := by
  obtain ⟨⟨c1, c2, c3, c4⟩, sum1, hl, hn1⟩ := (expose_ok_iff n word d n1).1 h
  cases hk : n.slots.toNat with
  | zero =>
    rw [hk] at hl
    simp only [exposeLoop, Except.ok.injEq, Prod.mk.injEq] at hl
    refine Or.inl ⟨rfl, hl.1.symm, by rw [hn1, ← hl.2], ?_⟩
    rw [expose_ok_iff]
    refine ⟨⟨by simp only [hs]; exact c1, c2, c3, c4⟩, s, ?_, rfl⟩
    have : ({ n with sum := s } : Neuron F).slots.toNat = 0 := hk
    rw [this]
    rfl
  | succ k =>
    rw [hk] at hl
    refine Or.inr ⟨by omega, ?_⟩
    rw [expose_ok_iff]
    refine ⟨⟨by simp only [hs]; exact c1, c2, c3, c4⟩, sum1, ?_, by rw [hn1]⟩
    have : ({ n with sum := s } : Neuron F).slots.toNat = k + 1 := hk
    rw [this, exposeLoop_congr { n with sum := s } n word rfl rfl rfl rfl rfl rfl rfl]
    show exposeLoop n word (k + 1) 0 s = _
    rw [exposeLoop_sum_irrel n word k 0 n.sum s c1 hs]
    exact hl

/-- Replacing the contents of the scratch sums (not their number) before
`Train` changes neither the value returned nor the neuron afterwards, apart
from the contents of the scratch sums. -/
theorem train_sum_irrel (n : Neuron F) (word : Word) (s : List F)
    (hs : s.length = n.sum.length) (r : Int) (n2 : Neuron F)
    (h : n.Train word = .ok (r, n2)) :
    ∃ s2, ({ n with sum := s } : Neuron F).Train word = .ok (r, { n2 with sum := s2 }) ∧
      s2.length = n2.sum.length := by
  have h0 := h
  unfold Neuron.Train at h
  split at h
  · exact absurd h (by simp)
  · rename_i c1
    split at h
    · exact absurd h (by simp)
    · rename_i c2
      split at h
      · exact absurd h (by simp)
      · rename_i c3
        split at h
        · exact absurd h (by simp)
        · rename_i c4
          split at h
          · exact absurd h (by simp)
          · rename_i d n1 hex
            have k1 : ¬ ¬ ((({ n with sum := s } : Neuron F).sum.length : Int)
                = ({ n with sum := s } : Neuron F).C) := by
              simp only [hs]
              exact c1
            have k2 : ¬ ¬ ((({ n with sum := s } : Neuron F).delays.length : Int)
                = ({ n with sum := s } : Neuron F).length) := c2
            have k3 : ¬ ¬ ((({ n with sum := s } : Neuron F).containers.length : Int)
                = ({ n with sum := s } : Neuron F).length) := c3
            have k4 : ¬ (({ n with sum := s } : Neuron F).learn = none) := c4
            rcases expose_sum_replace n word s hs d n1 hex with ⟨_, e2, e3, e4⟩ | ⟨_, e2⟩
            · rw [if_pos e2] at h
              simp only [Except.ok.injEq, Prod.mk.injEq] at h
              refine ⟨s, ?_, by rw [← h.2, e3, hs]⟩
              unfold Neuron.Train
              rw [if_neg k1, if_neg k2, if_neg k3, if_neg k4, e4]
              simp only [if_true]
              rw [← h.1, e2, ← h.2, e3]
            · refine ⟨n2.sum, ?_, rfl⟩
              unfold Neuron.Train
              rw [if_neg k1, if_neg k2, if_neg k3, if_neg k4, e2]
              exact h

/-! ## The instrumentation of `TrainHistogram` -/

theorem clearSums_length_any (C : Int) (sum : List F) :
    (clearSums C sum).length = sum.length := by
  unfold clearSums
  generalize List.range C.toNat = L
  induction L generalizing sum with
  | nil => rfl
  | cons a rest ih =>
    rw [List.foldl_cons, ih, List.length_set]

theorem histAccumulate_length (n : Neuron F) (d : Int) :
    ∀ (word : Word) (sum sum1 : List F), histAccumulate n d word sum = .ok sum1 →
      sum1.length = sum.length := by
  intro word
  induction word with
  | nil =>
    intro sum sum1 h
    simp only [histAccumulate, Except.ok.injEq] at h
    rw [← h]
  | cons e rest ih =>
    intro sum sum1 h
    obtain ⟨s, t⟩ := e
    unfold histAccumulate at h
    split at h
    · exact absurd h (by simp)
    · split at h
      · split at h
        · exact absurd h (by simp)
        · rw [ih _ _ h, List.length_set]
      · exact ih _ _ h

theorem histSlots_length (n : Neuron F) (word : Word) :
    ∀ (k : Nat) (d : Int) (st st1 : HistState F), histSlots n word k d st = .ok st1 →
      st1.sum.length = st.sum.length := by
  intro k
  induction k with
  | zero =>
    intro d st st1 h
    simp only [histSlots, Except.ok.injEq] at h
    rw [← h]
  | succ k ih =>
    intro d st st1 h
    unfold histSlots at h
    split at h
    · exact absurd h (by simp)
    · split at h
      · exact absurd h (by simp)
      · rename_i sum1 hacc
        split at h
        · exact absurd h (by simp)
        · have := ih _ _ _ h
          rw [this]
          simp only []
          rw [histAccumulate_length n d word _ _ hacc, clearSums_length_any]

/-- Whenever `GetInputDelayHistogram` returns, it has changed nothing in the
neuron but the contents of the scratch sums. -/
theorem getInputDelayHistogram_frame (n : Neuron F) (word : Word) (h1 h2 h3 : List Int)
    (n2 : Neuron F) (r1 r2 r3 : List Int)
    (h : n.GetInputDelayHistogram word h1 h2 h3 = .ok (n2, r1, r2, r3)) :
    n2 = { n with sum := n2.sum } ∧ n2.sum.length = n.sum.length := by
  unfold Neuron.GetInputDelayHistogram at h
  split at h
  · exact absurd h (by simp)
  · split at h
    · exact absurd h (by simp)
    · split at h
      · exact absurd h (by simp)
      · rename_i st hst
        simp only [Except.ok.injEq, Prod.mk.injEq] at h
        rw [← h.1]
        exact ⟨rfl, histSlots_length n word _ _ _ _ hst⟩

theorem growTo_bump (v v1 : List Int) (d : Nat) (h : growTo v ((d : Int) + 1) = .ok v1) :
    ∀ x : Nat, (bump v1 d).getD x 0 = v.getD x 0 + if x = d then 1 else 0 := by
  have hv : v1 = v ++ List.replicate (d + 1 - v.length) 0 := by
    unfold growTo at h
    rw [if_neg (by omega)] at h
    have e : ((d : Int) + 1).toNat = d + 1 := by omega
    rw [e] at h
    split at h
    · simp only [Except.ok.injEq] at h
      rw [← h]
      unfold resize
      rw [List.take_of_length_le (by omega)]
    · simp only [Except.ok.injEq] at h
      rw [← h]
      have : d + 1 - v.length = 0 := by omega
      rw [this]
      simp
  have hget : ∀ x : Nat, v1.getD x 0 = v.getD x 0 := by
    intro x
    rw [hv]
    by_cases hx : x < v.length
    · rw [List.getD_append _ _ _ _ hx]
    · rw [List.getD_append_right _ _ _ _ (by omega), List.getD_eq_default v _ (by omega)]
      rw [List.getD_eq_getElem?_getD, List.getElem?_replicate]
      split <;> rfl
  have hlen : d < v1.length := by
    rw [hv, List.length_append, List.length_replicate]
    omega
  intro x
  unfold bump
  by_cases hx : x = d
  · subst hx
    rw [getD_set_self _ _ _ _ hlen, if_pos rfl, hget]
  · rw [getD_set_other _ _ _ _ _ (fun e => hx e.symm), if_neg hx, hget]
    omega

theorem count_cons_int (a x : Int) (l : List Int) :
    ((List.count x (a :: l) : Nat) : Int) = (List.count x l : Nat) + if x = a then 1 else 0 := by
  rw [List.count_cons]
  by_cases h : x = a
  · subst h
    simp
  · have : (a == x) = false := by
      rw [beq_eq_false_iff_ne]
      exact fun e => h e.symm
    simp [this, h]

theorem trainHistogramLoop_ok :
    ∀ (k i : Nat) (words : Wordset) (n n' : Neuron F) (hs : Histograms) (words1 : Wordset)
      (n2' : Neuron F) (hs1 : Histograms),
      i + k = words.words.length →
      n' = { n with sum := n'.sum } → n'.sum.length = n.sum.length →
      trainHistogramLoop k i words n' hs = .ok (words1, n2', hs1) →
      ∃ (n2 : Neuron F) (ds : List Int), aliceTrainLoop k i words n = .ok (words1, n2) ∧
        trainEach (words.words.drop i) n = .ok (ds, n2) ∧
        n2' = { n2 with sum := n2'.sum } ∧ n2'.sum.length = n2.sum.length ∧
        ∀ x : Nat, hs1.delay_histogram.getD x 0
          = hs.delay_histogram.getD x 0
            + if (x : Int) < n.slots then ((List.count (x : Int) ds : Nat) : Int) else 0 := by
  intro k
  induction k with
  | zero =>
    intro i words n n' hs words1 n2' hs1 hik hrel hlen h
    simp only [trainHistogramLoop, Except.ok.injEq, Prod.mk.injEq] at h
    have hd : words.words.drop i = [] := List.drop_of_length_le (by omega)
    refine ⟨n, [], ?_, ?_, ?_, ?_, fun x => ?_⟩
    · rw [← h.1]
      rfl
    · rw [hd]
      rfl
    · rw [← h.2.1]
      exact hrel
    · rw [← h.2.1]
      exact hlen
    · rw [← h.2.2]
      simp
  | succ k ih =>
    intro i words n n' hs words1 n2' hs1 hik hrel hlen h
    have hi : i < words.words.length := by omega
    unfold trainHistogramLoop at h
    split at h
    · exact absurd h (by simp)
    · rename_i delay n1' ht'
      obtain ⟨s2, t1, t2⟩ := train_sum_irrel n' _ n.sum hlen.symm delay n1' ht'
      have hn : ({ n' with sum := n.sum } : Neuron F) = n := by
        rw [hrel]
      rw [hn] at t1
      obtain ⟨n1, hn1⟩ : ∃ n1 : Neuron F, n1 = { n1' with sum := s2 } := ⟨_, rfl⟩
      rw [← hn1] at t1
      have r1 : n1' = { n1 with sum := n1'.sum } := by rw [hn1]
      have r2 : n1'.sum.length = n1.sum.length := by rw [hn1]; exact t2.symm
      have hs1' : n1.slots = n1'.slots := by rw [hn1]; rfl
      have hs2 : n1.slots = n.slots := by
        have := (train_frame n _ delay n1 t1).1
        rw [this]
        rfl
      rw [get_word_drop words i hi]
      split at h
      · rename_i hbad
        obtain ⟨n2, ds, a1, a2, a3, a4, a5⟩ :=
          ih (i + 1) words n1 n1' hs words1 n2' hs1 (by omega) r1 r2 h
        refine ⟨n2, delay :: ds, ?_, ?_, a3, a4, fun x => ?_⟩
        · unfold aliceTrainLoop
          rw [t1]
          simp only []
          rw [hs1', if_pos hbad]
          exact a1
        · unfold trainEach
          rw [t1]
          simp only [a2]
        · rw [a5 x, hs2, count_cons_int]
          rw [← hs1', hs2] at hbad
          by_cases hx : (x : Int) < n.slots
          · rw [if_pos hx, if_pos hx, if_neg (by omega), add_zero]
          · rw [if_neg hx, if_neg hx]
      · rename_i hgood
        split at h
        · exact absurd h (by simp)
        · rename_i dh hg
          split at h
          · exact absurd h (by simp)
          · rename_i n2'' q1 q2 q3 hgi
            obtain ⟨g1, g2⟩ := getInputDelayHistogram_frame n1' _ _ _ _ n2'' q1 q2 q3 hgi
            have hw : (words.set_delay (i : Int) delay).words = words.words := by
              rw [(set_delay_eq words i delay).1]
            have r3 : n2'' = { n1 with sum := n2''.sum } := by
              rw [g1, hn1]
            obtain ⟨n2, ds, a1, a2, a3, a4, a5⟩ :=
              ih (i + 1) (words.set_delay (i : Int) delay) n1 n2'' _ words1 n2' hs1
                (by rw [hw]; omega) r3 (by rw [g2, r2]) h
            refine ⟨n2, delay :: ds, ?_, ?_, a3, a4, fun x => ?_⟩
            · unfold aliceTrainLoop
              rw [t1]
              simp only []
              rw [hs1', if_neg hgood]
              exact a1
            · unfold trainEach
              rw [t1]
              rw [hw] at a2
              simp only [a2]
            · rw [← hs1', hs2] at hgood
              have hd0 : 0 ≤ delay := by omega
              have hde : ((delay.toNat : Nat) : Int) = delay := by omega
              have hg1 : growTo hs.delay_histogram (((delay.toNat : Nat) : Int) + 1) = .ok dh := by
                rw [hde]
                exact hg
              rw [a5 x, hs2, count_cons_int]
              simp only []
              rw [growTo_bump _ _ _ hg1 x]
              by_cases hxd : x = delay.toNat
              · have hx1 : (x : Int) = delay := by omega
                rw [if_pos hxd, if_pos (by omega), if_pos (by omega), if_pos hx1]
                omega
              · have hx1 : ¬ (x : Int) = delay := by omega
                rw [if_neg hxd, if_neg hx1]
                by_cases hx : (x : Int) < n.slots
                · rw [if_pos hx, if_pos hx]
                  omega
                · rw [if_neg hx, if_neg hx]
                  omega

theorem atrophyLoop_sum (n : Neuron F) (s : List F) :
    ∀ k : Nat, atrophyLoop { n with sum := s } k = { atrophyLoop n k with sum := s } := by
  intro k
  induction k with
  | zero => rfl
  | succ k ih =>
    unfold atrophyLoop at ih ⊢
    rw [List.range_succ, List.foldl_append, List.foldl_append, ih]
    simp only [List.foldl_cons, List.foldl_nil]
    by_cases hf : (List.foldl
        (fun m (i : Nat) =>
          if ¬ m.frozen_at (i : Int) then
            (m.set_strength (i : Int) 0).set_delays (i : Int) kDisabled
          else m) n (List.range k)).frozen_at (k : Int) = true
    · have hf1 : ({ List.foldl
          (fun m (i : Nat) =>
            if ¬ m.frozen_at (i : Int) then
              (m.set_strength (i : Int) 0).set_delays (i : Int) kDisabled
            else m) n (List.range k) with sum := s } : Neuron F).frozen_at (k : Int) = true := hf
      rw [if_neg (by rw [hf1]; simp), if_neg (by rw [hf]; simp)]
    · have hf1 : ¬ ({ List.foldl
          (fun m (i : Nat) =>
            if ¬ m.frozen_at (i : Int) then
              (m.set_strength (i : Int) 0).set_delays (i : Int) kDisabled
            else m) n (List.range k) with sum := s } : Neuron F).frozen_at (k : Int) = true := hf
      rw [if_pos hf1, if_pos hf]
      rfl

theorem finishTraining_cases (m : Neuron F) :
    (m.learn = none → m.FinishTraining = .error .check) ∧
    (m.learn ≠ none → ¬ (m.frozen.length : Int) = m.length →
      m.FinishTraining = .error .check) ∧
    (m.learn = some .LearnSynapseAtrophy → (m.frozen.length : Int) = m.length →
      m.FinishTraining = .ok { atrophyFinish m with
        Q_after := DoubleModel.ofInt (frozenCount (atrophyFinish m))
          / DoubleModel.ofInt m.length }) ∧
    (m.learn = some .LearnSynapseStrength → (m.frozen.length : Int) = m.length →
      m.config.h_m = none → m.FinishTraining = .error .check) ∧
    (∀ hm, m.learn = some .LearnSynapseStrength → (m.frozen.length : Int) = m.length →
      m.config.h_m = some hm → m.FinishTraining = .ok { m.set_H hm with
        Q_after := DoubleModel.ofInt (frozenCount m) / DoubleModel.ofInt m.length }) := by
  refine ⟨fun hl => ?_, fun hl hlen => ?_, fun hl hlen => ?_, fun hl hlen hc => ?_,
    fun hm hl hlen hc => ?_⟩
  · unfold Neuron.FinishTraining
    rw [hl]
  · unfold Neuron.FinishTraining
    cases h : m.learn with
    | none => exact absurd h hl
    | some l => simp only [hlen, not_false_eq_true, if_true]
  · unfold Neuron.FinishTraining
    rw [hl]
    simp only [hlen, not_true_eq_false, if_false]
  · unfold Neuron.FinishTraining
    rw [hl]
    simp only [hlen, not_true_eq_false, if_false, hc]
  · unfold Neuron.FinishTraining
    rw [hl]
    simp only [hlen, not_true_eq_false, if_false, hc]

/-- `FinishTraining` does not read the scratch sums and does not write
them. -/
theorem finishTraining_sum (n : Neuron F) (s : List F) :
    ({ n with sum := s } : Neuron F).FinishTraining
      = match n.FinishTraining with
        | .error e => .error e
        | .ok m => .ok { m with sum := s } := by
  obtain ⟨n', hn'⟩ : ∃ n' : Neuron F, n' = { n with sum := s } := ⟨_, rfl⟩
  rw [← hn']
  have l1 : n'.learn = n.learn := by rw [hn']
  have l2 : n'.frozen = n.frozen := by rw [hn']
  have l3 : n'.length = n.length := by rw [hn']
  have l4 : n'.config = n.config := by rw [hn']
  obtain ⟨a1, a2, a3, a4, a5⟩ := finishTraining_cases n
  obtain ⟨b1, b2, b3, b4, b5⟩ := finishTraining_cases n'
  cases hl : n.learn with
  | none => rw [a1 hl, b1 (l1.trans hl)]
  | some l =>
    have hne : n.learn ≠ none := by rw [hl]; simp
    by_cases hlen : (n.frozen.length : Int) = n.length
    · have hlen' : (n'.frozen.length : Int) = n'.length := by rw [l2, l3]; exact hlen
      cases l with
      | LearnSynapseAtrophy =>
        rw [a3 hl hlen, b3 (l1.trans hl) hlen']
        simp only [Except.ok.injEq]
        have e1 : atrophyFinish n' = { atrophyFinish n with sum := s } := by
          rw [hn']
          exact atrophyLoop_sum n s _
        rw [e1, l3]
        rfl
      | LearnSynapseStrength =>
        cases hm : n.config.h_m with
        | none => rw [a4 hl hlen hm, b4 (l1.trans hl) hlen' (by rw [l4]; exact hm)]
        | some v =>
          rw [a5 v hl hlen hm, b5 v (l1.trans hl) hlen' (by rw [l4]; exact hm)]
          simp only [Except.ok.injEq]
          rw [hn']
          rfl
    · rw [a2 hne hlen, b2 (by rw [l1]; exact hne) (by rw [l2, l3]; exact hlen)]

theorem count_recorded (slots : Int) (x : Int) (hx1 : 0 ≤ x) (hx2 : x < slots)
    (hx3 : x ≠ kDisabled) :
    ∀ ds : List Int,
      List.count x (ds.map fun d => if 0 ≤ d ∧ d < slots then d else kDisabled)
        = List.count x ds := by
  intro ds
  induction ds with
  | nil => rfl
  | cons a rest ih =>
    rw [List.map_cons, List.count_cons, List.count_cons, ih]
    by_cases ha : 0 ≤ a ∧ a < slots
    · rw [if_pos ha]
    · rw [if_neg ha]
      have h1 : (kDisabled == x) = false := by
        rw [beq_eq_false_iff_ne]
        exact fun e => hx3 e.symm
      have h2 : (a == x) = false := by
        rw [beq_eq_false_iff_ne]
        intro e
        subst e
        exact ha ⟨hx1, hx2⟩
      rw [h1, h2]

/-- C16: whenever `Alice::TrainHistogram` returns, `Alice::Train` on the same
neuron and wordset returns too, with the same wordset afterwards (same words,
same recorded delays) and a neuron that differs from the one
`TrainHistogram` leaves at most in the contents of the scratch sums: delays,
containers, frozen flags, strengths, `H`, `Q_after` and every other member are
identical.  In addition, for every `d`, `delay_histogram[d]` has grown by the
number of words for which `Train` returned `d`, when `d < slots()`, and is
unchanged otherwise; for a wordset whose delays were all `kDisabled` before
the call this number is the number of words whose recorded delay is `d`. -/
theorem c16_train_histogram (words : Wordset) (n : Neuron F) (hs : Histograms) :
    ∀ (words1 : Wordset) (n3 : Neuron F) (hs1 : Histograms),
      Alice.TrainHistogram words n hs = .ok (words1, n3, hs1) →
      ∃ (n3' : Neuron F) (ds : List Int),
        Alice.Train words n = .ok (words1, n3') ∧
        trainingCycle words.words n = .ok (ds, n3') ∧
        n3 = { n3' with sum := n3.sum } ∧ n3.sum.length = n3'.sum.length ∧
        (∀ x : Nat, hs1.delay_histogram.getD x 0
          = hs.delay_histogram.getD x 0
            + if (x : Int) < n.slots then ((List.count (x : Int) ds : Nat) : Int) else 0) ∧
        (words.delays = List.replicate words.words.length kDisabled →
          ∀ x : Nat, (x : Int) < n.slots → (x : Int) ≠ kDisabled →
            hs1.delay_histogram.getD x 0
              = hs.delay_histogram.getD x 0
                + ((List.count (x : Int) words1.delays : Nat) : Int)) := by
  intro words1 n3 hs1 h
  unfold Alice.TrainHistogram at h
  split at h
  · exact absurd h (by simp)
  · rename_i n1 h1
    split at h
    · exact absurd h (by simp)
    · rename_i words2 n2' hs2 h2
      split at h
      · exact absurd h (by simp)
      · rename_i n4 h4
        simp only [Except.ok.injEq, Prod.mk.injEq] at h
        obtain ⟨e1, e2, e3⟩ := h
        subst e1 e2 e3
        obtain ⟨n2, ds, a1, a2, a3, a4, a5⟩ :=
          trainHistogramLoop_ok words.words.length 0 words n1 n1 hs words2 n2' hs2 (by omega)
            rfl rfl h2
        rw [List.drop_zero] at a2
        have hsl : n1.slots = n.slots := by
          rw [startTraining_frame n n1 h1]
          rfl
        have hfin := finishTraining_sum n2 n2'.sum
        rw [← a3, h4] at hfin
        cases hf : n2.FinishTraining with
        | error e =>
          rw [hf] at hfin
          exact absurd hfin (by simp)
        | ok n3' =>
          rw [hf] at hfin
          simp only [Except.ok.injEq] at hfin
          have hsum : n4.sum.length = n3'.sum.length := by
            have k1 : n3'.sum = n2.sum := by
              have := finishTraining_sum n2 n2.sum
              have e : ({ n2 with sum := n2.sum } : Neuron F) = n2 := rfl
              rw [e, hf] at this
              simp only [Except.ok.injEq] at this
              rw [this]
            rw [hfin, k1]
            exact a4
          have hcount : ∀ x : Nat, hs2.delay_histogram.getD x 0
              = hs.delay_histogram.getD x 0
                + if (x : Int) < n.slots then ((List.count (x : Int) ds : Nat) : Int) else 0 := by
            intro x
            rw [a5 x, hsl]
          refine ⟨n3', ds, ?_, ?_, ?_, hsum, hcount, fun hdis x hx1 hx2 => ?_⟩
          · unfold Alice.Train
            rw [h1]
            simp only [a1, hf]
          · unfold trainingCycle
            rw [h1]
            simp only [a2, hf]
          · rw [hfin]
          · obtain ⟨ds1, b1, b2, _, b4, b5⟩ :=
              aliceTrainLoop_ok words.words.length 0 words n1 words2 n2 (by omega) a1
            rw [List.drop_zero, a2] at b1
            simp only [Except.ok.injEq, Prod.mk.injEq] at b1
            have hds : ds1 = ds := b1.1.symm
            subst hds
            have hlen : words.delays.length = words.words.length := by
              rw [hdis, List.length_replicate]
            have hrec : words2.delays
                = ds1.map fun d => if 0 ≤ d ∧ d < n.slots then d else kDisabled := by
              apply List.ext_getElem
              · rw [b4, List.length_map, b2, hlen]
              · intro j hj1 hj2
                rw [← List.getD_eq_getElem _ 0 hj1, b5 j, List.getElem_map]
                have hj3 : j < ds1.length := by
                  rw [List.length_map] at hj2
                  exact hj2
                simp only [Nat.sub_zero]
                rw [List.getD_eq_getElem _ 0 hj3, hsl]
                by_cases hval : 0 ≤ ds1[j] ∧ ds1[j] < n.slots
                · rw [if_pos hval, if_pos ⟨by omega, by omega, by omega, hval⟩]
                · have hj4 : j < words.words.length := by omega
                  rw [if_neg hval, if_neg (fun e => hval e.2.2.2), hdis,
                    List.getD_eq_getElem?_getD, List.getElem?_replicate, if_pos hj4]
                  rfl
            rw [hcount x, if_pos hx1, hrec,
              count_recorded n.slots (x : Int) (by omega) hx1 hx2]

/-- C15 on `exampleWordset` and `exampleNeuron`: the recorded delays are 1, 2
and `kDisabled`. -/
theorem c15_alice_train_witness :
    Alice.Train exampleWordset exampleNeuron = .ok (exampleWordsetTrained, exampleCycled) ∧
      ∃ ds : List Int, trainingCycle exampleWordset.words exampleNeuron = .ok (ds, exampleCycled) ∧
        ds.length = exampleWordset.words.length ∧
        exampleWordsetTrained.words = exampleWordset.words ∧
        exampleWordsetTrained.delays.length = exampleWordset.delays.length ∧
        ∀ i : Nat, i < exampleWordset.words.length → i < exampleWordset.delays.length →
          exampleWordsetTrained.delay (i : Int) =
            if 0 ≤ ds.getD i 0 ∧ ds.getD i 0 < exampleNeuron.slots then ds.getD i 0
            else exampleWordset.delay (i : Int) :=
  ⟨by decide!,
    (c15_alice_train exampleWordset exampleNeuron).1 exampleWordsetTrained exampleCycled
      (by decide!)⟩

/-- C16 on `exampleWordset`, `exampleNeuron` and empty histograms:
`TrainHistogram` returns, the words with recorded delay 1 and 2 are counted in
`delay_histogram`, and `Train` leaves the same wordset and the same neuron. -/
theorem c16_train_histogram_witness :
    Alice.TrainHistogram exampleWordset exampleNeuron emptyHistograms
        = .ok (exampleWordsetTrained, exampleCycled, exampleHistograms) ∧
      exampleWordset.delays = List.replicate exampleWordset.words.length kDisabled ∧
      ∃ (n3' : Neuron ℚ) (ds : List Int),
        Alice.Train exampleWordset exampleNeuron = .ok (exampleWordsetTrained, n3') ∧
        trainingCycle exampleWordset.words exampleNeuron = .ok (ds, n3') ∧
        exampleCycled = { n3' with sum := exampleCycled.sum } ∧
        exampleCycled.sum.length = n3'.sum.length ∧
        (∀ x : Nat, exampleHistograms.delay_histogram.getD x 0
          = emptyHistograms.delay_histogram.getD x 0
            + if (x : Int) < exampleNeuron.slots then ((List.count (x : Int) ds : Nat) : Int)
              else 0) ∧
        (exampleWordset.delays = List.replicate exampleWordset.words.length kDisabled →
          ∀ x : Nat, (x : Int) < exampleNeuron.slots → (x : Int) ≠ kDisabled →
            exampleHistograms.delay_histogram.getD x 0
              = emptyHistograms.delay_histogram.getD x 0
                + ((List.count (x : Int) exampleWordsetTrained.delays : Nat) : Int)) :=
  ⟨by decide!, by decide,
    c16_train_histogram exampleWordset exampleNeuron emptyHistograms exampleWordsetTrained
      exampleCycled exampleHistograms (by decide!)⟩

/-! ## Bob: the confusion counts -/

theorem filter_partition {α : Type} (p : α → Bool) (l : List α) :
    ((l.filter p).length : Int) + ((l.filter fun a => !p a).length : Int) = (l.length : Int) := by
  induction l with
  | nil => rfl
  | cons a rest ih =>
    cases hp : p a
    · rw [List.filter_cons_of_neg (by simp [hp]), List.filter_cons_of_pos (by simp [hp])]
      simp only [List.length_cons]
      push_cast
      omega
    · rw [List.filter_cons_of_pos (by simp [hp]), List.filter_cons_of_neg (by simp [hp])]
      simp only [List.length_cons]
      push_cast
      omega

/-- `Expose` on a neuron `n` reached from `n0` by changing the contents of the
scratch sums returns what `Expose` returns on `n0`. -/
theorem expose_of_sum_changed (n0 n : Neuron F) (w : Word)
    (hn : n = { n0 with sum := n.sum }) (hl : n.sum.length = n0.sum.length)
    (r : Int) (n1 : Neuron F) (h : n.Expose w = .ok (r, n1)) :
    (∃ m, n0.Expose w = .ok (r, m)) ∧ n1 = { n0 with sum := n1.sum } ∧
      n1.sum.length = n0.sum.length ∧ n1.slots = n0.slots := by
  obtain ⟨e1, e2, _⟩ := expose_fixpoint n w r n1 h
  have h1 := expose_sum_irrel n0 w n.sum hl
  rw [← hn, h] at h1
  refine ⟨?_, by rw [e1, hn], by rw [e2, hl], by rw [e1, hn]; rfl⟩
  cases h0 : n0.Expose w with
  | error e =>
    rw [h0] at h1
    simp [Except.map] at h1
  | ok p =>
    rw [h0] at h1
    simp only [Except.map, Except.ok.injEq] at h1
    exact ⟨p.2, by rw [h1]⟩

theorem expose_to_sum_changed (n0 n : Neuron F) (w : Word)
    (hn : n = { n0 with sum := n.sum }) (hl : n.sum.length = n0.sum.length)
    (r : Int) (m : Neuron F) (h : n0.Expose w = .ok (r, m)) :
    ∃ n1, n.Expose w = .ok (r, n1) := by
  have h1 := expose_sum_irrel n0 w n.sum hl
  rw [← hn, h] at h1
  cases h0 : n.Expose w with
  | error e =>
    rw [h0] at h1
    simp [Except.map] at h1
  | ok p =>
    rw [h0] at h1
    simp only [Except.map, Except.ok.injEq] at h1
    exact ⟨p.2, by rw [← h1]⟩

theorem testTrainingSetLoop_ok (words : Wordset) (n0 : Neuron F) :
    ∀ (k i : Nat) (n : Neuron F) (tt tf tt1 tf1 : Int) (n1 : Neuron F),
      n = { n0 with sum := n.sum } → n.sum.length = n0.sum.length →
      testTrainingSetLoop k i words n tt tf = .ok (tt1, tf1, n1) →
      n1 = { n0 with sum := n1.sum } ∧ n1.sum.length = n0.sum.length ∧
        (∀ j ∈ List.range' i k, ∃ r m, n0.Expose (words.get_word (j : Int)) = .ok (r, m)) ∧
        tt1 = tt + (((List.range' i k).filter (trainingHit n0 words)).length : Int) ∧
        tf1 = tf + (((List.range' i k).filter fun j => !trainingHit n0 words j).length : Int) := by
  intro k
  induction k with
  | zero =>
    intro i n tt tf tt1 tf1 n1 hn hl h
    simp only [testTrainingSetLoop, Except.ok.injEq, Prod.mk.injEq] at h
    obtain ⟨h1, h2, h3⟩ := h
    subst h1 h2 h3
    exact ⟨hn, hl, by simp, by simp, by simp⟩
  | succ k ih =>
    intro i n tt tf tt1 tf1 n1 hn hl h
    unfold testTrainingSetLoop at h
    split at h
    · exact absurd h (by simp)
    · rename_i slot n2 hex
      obtain ⟨⟨m, e1⟩, e2, e3, e4⟩ := expose_of_sum_changed n0 n _ hn hl slot n2 hex
      have hhit : trainingHit n0 words i
          = decide (0 ≤ slot ∧ slot = words.delay (i : Int) ∧ slot < n2.slots) := by
        unfold trainingHit
        rw [e1, e4]
      rw [List.range'_succ]
      split at h
      · rename_i hc
        obtain ⟨a1, a2, a3, a4, a5⟩ := ih (i + 1) n2 _ _ tt1 tf1 n1 e2 e3 h
        have hp : trainingHit n0 words i = true := by rw [hhit]; simpa using hc
        refine ⟨a1, a2, ?_, ?_, ?_⟩
        · intro j hj
          rcases List.mem_cons.1 hj with rfl | hj1
          · exact ⟨slot, m, e1⟩
          · exact a3 j hj1
        · rw [a4, List.filter_cons_of_pos hp, List.length_cons]
          push_cast
          omega
        · rw [a5, List.filter_cons_of_neg (by simp [hp])]
      · rename_i hc
        obtain ⟨a1, a2, a3, a4, a5⟩ := ih (i + 1) n2 _ _ tt1 tf1 n1 e2 e3 h
        have hp : trainingHit n0 words i = false := by rw [hhit]; simpa using hc
        refine ⟨a1, a2, ?_, ?_, ?_⟩
        · intro j hj
          rcases List.mem_cons.1 hj with rfl | hj1
          · exact ⟨slot, m, e1⟩
          · exact a3 j hj1
        · rw [a4, List.filter_cons_of_neg (by simp [hp])]
        · rw [a5, List.filter_cons_of_pos (by simp [hp]), List.length_cons]
          push_cast
          omega

theorem testTrainingSetLoop_total (words : Wordset) (n0 : Neuron F) :
    ∀ (k i : Nat) (n : Neuron F) (tt tf : Int),
      n = { n0 with sum := n.sum } → n.sum.length = n0.sum.length →
      (∀ j ∈ List.range' i k, ∃ r m, n0.Expose (words.get_word (j : Int)) = .ok (r, m)) →
      ∃ tt1 tf1 n1, testTrainingSetLoop k i words n tt tf = .ok (tt1, tf1, n1) := by
  intro k
  induction k with
  | zero =>
    intro i n tt tf _ _ _
    exact ⟨tt, tf, n, rfl⟩
  | succ k ih =>
    intro i n tt tf hn hl hex
    rw [List.range'_succ] at hex
    obtain ⟨r, m, e1⟩ := hex i (List.mem_cons_self _ _)
    obtain ⟨n2, e2⟩ := expose_to_sum_changed n0 n _ hn hl r m e1
    obtain ⟨_, e3, e4, _⟩ := expose_of_sum_changed n0 n _ hn hl r n2 e2
    unfold testTrainingSetLoop
    rw [e2]
    simp only []
    split
    · exact ih (i + 1) n2 _ _ e3 e4 (fun j hj => hex j (List.mem_cons_of_mem _ hj))
    · exact ih (i + 1) n2 _ _ e3 e4 (fun j hj => hex j (List.mem_cons_of_mem _ hj))

theorem drawn_succ (draw : Nat → Except Fault Word) (j k : Nat) :
    drawn draw j (k + 1)
      = (match draw j with
          | .error _ => []
          | .ok w => [w]) ++ drawn draw (j + 1) k := by
  unfold drawn
  rw [List.range'_succ, List.filterMap_cons]
  cases draw j <;> rfl

theorem drawFresh_ok (draw : Nat → Except Fault Word) (training : List Word) :
    ∀ (fuel j j1 : Nat) (w : Word), drawFresh draw training fuel j = some (.ok (j1, w)) →
      j < j1 ∧ w ∉ training ∧
        (drawn draw j (j1 - j)).filter (fun x => decide (x ∉ training)) = [w] := by
  intro fuel
  induction fuel with
  | zero =>
    intro j j1 w h
    simp [drawFresh] at h
  | succ fuel ih =>
    intro j j1 w h
    unfold drawFresh at h
    split at h
    · simp at h
    · rename_i w0 hd
      split at h
      · rename_i hin
        obtain ⟨a1, a2, a3⟩ := ih (j + 1) j1 w h
        refine ⟨by omega, a2, ?_⟩
        have e : j1 - j = (j1 - (j + 1)) + 1 := by omega
        rw [e, drawn_succ, hd]
        simp only [List.singleton_append]
        rw [List.filter_cons_of_neg (by simpa using hin)]
        exact a3
      · rename_i hin
        simp only [Option.some.injEq, Except.ok.injEq, Prod.mk.injEq] at h
        obtain ⟨h1, h2⟩ := h
        subst h1 h2
        refine ⟨by omega, hin, ?_⟩
        have e : j + 1 - j = 0 + 1 := by omega
        rw [e, drawn_succ, hd]
        simp only [List.singleton_append]
        rw [List.filter_cons_of_pos (by simpa using hin)]
        simp [drawn]

theorem drawn_append (draw : Nat → Except Fault Word) (j a b : Nat) :
    drawn draw j (a + b) = drawn draw j a ++ drawn draw (j + a) b := by
  induction a generalizing j with
  | zero => simp [drawn]
  | succ a ih =>
    have e : a + 1 + b = (a + b) + 1 := by omega
    rw [e, drawn_succ, drawn_succ, ih (j + 1), List.append_assoc]
    have e1 : j + 1 + a = j + (a + 1) := by omega
    rw [e1]

theorem testTestSetLoop_ok (draw : Nat → Except Fault Word) (training : List Word)
    (fuel : Nat) (n0 : Neuron F) :
    ∀ (k j : Nat) (n : Neuron F) (ft ff : Int) (ex : List Word) (ft1 ff1 : Int)
      (n1 : Neuron F) (ex1 : List Word),
      n = { n0 with sum := n.sum } → n.sum.length = n0.sum.length →
      testTestSetLoop draw training fuel k j n ft ff ex = some (.ok ⟨ft1, ff1, n1, ex1⟩) →
      n1 = { n0 with sum := n1.sum } ∧ n1.sum.length = n0.sum.length ∧
      ∃ (new : List Word) (j1 : Nat), ex1 = ex ++ new ∧ new.length = k ∧ j ≤ j1 ∧
        new = (drawn draw j (j1 - j)).filter (fun x => decide (x ∉ training)) ∧
        (∀ w ∈ new, ∃ r m, n0.Expose w = .ok (r, m)) ∧
        ft1 = ft + ((new.filter (testHit n0)).length : Int) ∧
        ff1 = ff + ((new.filter fun w => !testHit n0 w).length : Int) := by
  intro k
  induction k with
  | zero =>
    intro j n ft ff ex ft1 ff1 n1 ex1 hn hl h
    simp only [testTestSetLoop, Option.some.injEq, Except.ok.injEq, TestSetResult.mk.injEq] at h
    obtain ⟨h1, h2, h3, h4⟩ := h
    subst h1 h2 h3 h4
    exact ⟨hn, hl, [], j, by simp, rfl, le_refl _, by simp [drawn], by simp, by simp, by simp⟩
  | succ k ih =>
    intro j n ft ff ex ft1 ff1 n1 ex1 hn hl h
    unfold testTestSetLoop at h
    split at h
    · simp at h
    · simp at h
    · rename_i j1 w hdf
      obtain ⟨d1, d2, d3⟩ := drawFresh_ok draw training fuel j j1 w hdf
      split at h
      · simp at h
      · rename_i slot n2 hex
        obtain ⟨⟨m, e1⟩, e2, e3, e4⟩ := expose_of_sum_changed n0 n _ hn hl slot n2 hex
        have hhit : testHit n0 w = decide (0 ≤ slot ∧ slot < n2.slots) := by
          unfold testHit
          rw [e1, e4]
        have hcomb : ∀ (new : List Word) (j2 : Nat), j1 ≤ j2 →
            new = (drawn draw j1 (j2 - j1)).filter (fun x => decide (x ∉ training)) →
            w :: new = (drawn draw j (j2 - j)).filter (fun x => decide (x ∉ training)) := by
          intro new j2 hj2 hnew
          have e : j2 - j = (j1 - j) + (j2 - j1) := by omega
          have e5 : j + (j1 - j) = j1 := by omega
          rw [e, drawn_append, List.filter_append, d3, e5, ← hnew]
          rfl
        split at h
        · rename_i hc
          obtain ⟨a1, a2, new, j2, b1, b2, b3, b4, b5, b6, b7⟩ :=
            ih j1 n2 _ _ _ ft1 ff1 n1 ex1 e2 e3 h
          have hp : testHit n0 w = true := by rw [hhit]; simpa using hc
          refine ⟨a1, a2, w :: new, j2, ?_, by simp [b2], by omega, hcomb new j2 b3 b4, ?_, ?_, ?_⟩
          · rw [b1, List.append_assoc]
            rfl
          · intro x hx
            rcases List.mem_cons.1 hx with rfl | hx1
            · exact ⟨slot, m, e1⟩
            · exact b5 x hx1
          · rw [b6, List.filter_cons_of_pos hp, List.length_cons]
            push_cast
            omega
          · rw [b7, List.filter_cons_of_neg (by simp [hp])]
        · rename_i hc
          obtain ⟨a1, a2, new, j2, b1, b2, b3, b4, b5, b6, b7⟩ :=
            ih j1 n2 _ _ _ ft1 ff1 n1 ex1 e2 e3 h
          have hp : testHit n0 w = false := by rw [hhit]; simpa using hc
          refine ⟨a1, a2, w :: new, j2, ?_, by simp [b2], by omega, hcomb new j2 b3 b4, ?_, ?_, ?_⟩
          · rw [b1, List.append_assoc]
            rfl
          · intro x hx
            rcases List.mem_cons.1 hx with rfl | hx1
            · exact ⟨slot, m, e1⟩
            · exact b5 x hx1
          · rw [b6, List.filter_cons_of_neg (by simp [hp])]
          · rw [b7, List.filter_cons_of_pos (by simp [hp]), List.length_cons]
            push_cast
            omega

theorem drawFresh_mono (draw : Nat → Except Fault Word) (training : List Word) (a : Nat) :
    ∀ (fuel j : Nat) (x : Except Fault (Nat × Word)),
      drawFresh draw training fuel j = some x →
      drawFresh draw training (fuel + a) j = some x := by
  intro fuel
  induction fuel with
  | zero =>
    intro j x h
    simp [drawFresh] at h
  | succ fuel ih =>
    intro j x h
    have e : fuel + 1 + a = (fuel + a) + 1 := by omega
    rw [e]
    unfold drawFresh at h ⊢
    split
    · rename_i e0 hd
      rw [hd] at h
      exact h
    · rename_i w hd
      rw [hd] at h
      simp only [] at h
      split
      · rename_i hin
        rw [if_pos hin] at h
        exact ih _ _ h
      · rename_i hin
        rw [if_neg hin] at h
        exact h

theorem drawFresh_total (draw : Nat → Except Fault Word) (training : List Word) :
    ∀ (d j : Nat), (∀ i, j ≤ i → i < j + d → ∃ w, draw i = .ok w ∧ w ∈ training) →
      (∃ w, draw (j + d) = .ok w ∧ w ∉ training) →
      ∃ w, drawFresh draw training (d + 1) j = some (.ok (j + d + 1, w)) := by
  intro d
  induction d with
  | zero =>
    intro j _ h
    obtain ⟨w, h1, h2⟩ := h
    refine ⟨w, ?_⟩
    unfold drawFresh
    rw [Nat.add_zero] at h1
    rw [h1]
    simp only [h2, if_false, Nat.add_zero]
  | succ d ih =>
    intro j hall h
    obtain ⟨w0, h1, h2⟩ := hall j (le_refl _) (by omega)
    have e : j + (d + 1) = (j + 1) + d := by omega
    rw [e] at h
    obtain ⟨w, hw⟩ := ih (j + 1) (fun i hi1 hi2 => hall i (by omega) (by omega)) h
    refine ⟨w, ?_⟩
    unfold drawFresh
    rw [h1]
    simp only [h2, if_true]
    rw [hw, e]

theorem testTestSetLoop_mono (draw : Nat → Except Fault Word) (training : List Word)
    (fuel a : Nat) :
    ∀ (k j : Nat) (n : Neuron F) (ft ff : Int) (ex : List Word)
      (x : Except Fault (TestSetResult F)),
      testTestSetLoop draw training fuel k j n ft ff ex = some x →
      testTestSetLoop draw training (fuel + a) k j n ft ff ex = some x := by
  intro k
  induction k with
  | zero =>
    intro j n ft ff ex x h
    exact h
  | succ k ih =>
    intro j n ft ff ex x h
    unfold testTestSetLoop at h ⊢
    cases hd : drawFresh draw training fuel j with
    | none =>
      rw [hd] at h
      simp at h
    | some y =>
      rw [hd] at h
      rw [drawFresh_mono draw training a fuel j y hd]
      cases y with
      | error e => exact h
      | ok p =>
        obtain ⟨j1, w⟩ := p
        simp only [] at h ⊢
        split
        · rename_i e0 hex
          rw [hex] at h
          exact h
        · rename_i slot n1 hex
          rw [hex] at h
          simp only [] at h
          split
          · rename_i hc
            rw [if_pos hc] at h
            exact ih _ _ _ _ _ _ h
          · rename_i hc
            rw [if_neg hc] at h
            exact ih _ _ _ _ _ _ h

/-- The loop of `TestTestSet` returns, for enough fuel, when no call of
`test.Init()` stops on a fault, words outside the training set keep being
drawn, and `Expose` returns on the words drawn. -/
theorem testTestSetLoop_total (draw : Nat → Except Fault Word) (training : List Word)
    (n0 : Neuron F) (hdraw : ∀ j, ∃ w, draw j = .ok w)
    (hfresh : ∀ j, ∃ j1, j ≤ j1 ∧ ∃ w, draw j1 = .ok w ∧ w ∉ training)
    (hex : ∀ j w, draw j = .ok w → ∃ r m, n0.Expose w = .ok (r, m)) :
    ∀ (k j : Nat) (n : Neuron F) (ft ff : Int) (ex : List Word),
      n = { n0 with sum := n.sum } → n.sum.length = n0.sum.length →
      ∃ fuel res, testTestSetLoop draw training fuel k j n ft ff ex = some (.ok res) := by
  intro k
  induction k with
  | zero =>
    intro j n ft ff ex _ _
    exact ⟨0, _, rfl⟩
  | succ k ih =>
    intro j n ft ff ex hn hl
    have hfirst : ∃ d, (∀ i, j ≤ i → i < j + d → ∃ w, draw i = .ok w ∧ w ∈ training) ∧
        ∃ w, draw (j + d) = .ok w ∧ w ∉ training := by
      classical
      obtain ⟨j1, hj1, hw⟩ := hfresh j
      have hex1 : ∃ d, ∃ w, draw (j + d) = .ok w ∧ w ∉ training :=
        ⟨j1 - j, by rw [show j + (j1 - j) = j1 by omega]; exact hw⟩
      refine ⟨Nat.find hex1, fun i hi1 hi2 => ?_, Nat.find_spec hex1⟩
      obtain ⟨w, hw1⟩ := hdraw i
      refine ⟨w, hw1, ?_⟩
      by_contra hnot
      have := Nat.find_min hex1 (m := i - j) (by omega)
      apply this
      rw [show j + (i - j) = i by omega]
      exact ⟨w, hw1, hnot⟩
    obtain ⟨d, hd1, hd2⟩ := hfirst
    obtain ⟨w, hw⟩ := drawFresh_total draw training d j hd1 hd2
    obtain ⟨a1, _, a3⟩ := drawFresh_ok draw training (d + 1) j _ w hw
    obtain ⟨w1, hw1, _⟩ := hd2
    have hw2 : ∃ i, draw i = .ok w := by
      have := a3
      have hmem : w ∈ (drawn draw j (j + d + 1 - j)).filter (fun x => decide (x ∉ training)) := by
        rw [this]
        exact List.mem_singleton_self _
      have hmem1 := (List.mem_filter.1 hmem).1
      unfold drawn at hmem1
      rw [List.mem_filterMap] at hmem1
      obtain ⟨i, _, hi⟩ := hmem1
      refine ⟨i, ?_⟩
      cases hdi : draw i with
      | error e =>
        rw [hdi] at hi
        simp at hi
      | ok x =>
        rw [hdi] at hi
        simp only [Option.some.injEq] at hi
        rw [hi]
    obtain ⟨i, hi⟩ := hw2
    obtain ⟨r, m, e1⟩ := hex i w hi
    obtain ⟨n2, e2⟩ := expose_to_sum_changed n0 n _ hn hl r m e1
    obtain ⟨_, e3, e4, _⟩ := expose_of_sum_changed n0 n _ hn hl r n2 e2
    by_cases hc : 0 ≤ r ∧ r < n2.slots
    · obtain ⟨fuel, res, hres⟩ := ih (j + d + 1) n2 (ft + 1) ff (ex ++ [w]) e3 e4
      refine ⟨fuel + (d + 1), res, ?_⟩
      unfold testTestSetLoop
      have := drawFresh_mono draw training fuel (d + 1) j _ hw
      rw [show d + 1 + fuel = fuel + (d + 1) by omega] at this
      rw [this]
      simp only [e2, hc, and_self, if_true]
      exact testTestSetLoop_mono draw training fuel (d + 1) _ _ _ _ _ _ _ hres
    · obtain ⟨fuel, res, hres⟩ := ih (j + d + 1) n2 ft (ff + 1) (ex ++ [w]) e3 e4
      refine ⟨fuel + (d + 1), res, ?_⟩
      unfold testTestSetLoop
      have := drawFresh_mono draw training fuel (d + 1) j _ hw
      rw [show d + 1 + fuel = fuel + (d + 1) by omega] at this
      rw [this]
      simp only [e2, hc, if_false]
      exact testTestSetLoop_mono draw training fuel (d + 1) _ _ _ _ _ _ _ hres

/-- C17: whenever `TestTrainingSet` returns, `true_true` has grown by the
number of training words for which `Expose` returns a delay that lies in
`[0, slots)` and equals the recorded delay of the word, `true_false` by the
number of the other training words, so together by `size(trainWords)`; and it
does return when `Expose` returns on every training word.  Whenever
`TestTestSet` returns, `false_true` has grown by the number of exposed test
words for which `Expose` returns a delay in `[0, slots)`, `false_false` by the
number of the other exposed test words, and the number of exposed test words
is `num_test_words` (none when it is negative); and it does return, for enough
fuel, when no call of `test.Init()` stops on a fault, words outside the
training set keep being drawn and `Expose` returns on the words drawn.
`RunExperiment` passes 100000 for `num_test_words` when the configuration has
none. -/
theorem c17_confusion_counts (words : Wordset) (n : Neuron F) (draw : Nat → Except Fault Word)
    (tt0 tf0 ft0 ff0 : Int) :
    (∀ (tt tf : Int) (n1 : Neuron F),
      Bob.TestTrainingSet words n tt0 tf0 = .ok (tt, tf, n1) →
      tt = tt0 + (((List.range words.words.length).filter (trainingHit n words)).length : Int) ∧
      tf = tf0
        + (((List.range words.words.length).filter fun i => !trainingHit n words i).length : Int) ∧
      tt + tf = tt0 + tf0 + words.size) ∧
    ((∀ w ∈ words.words, ∃ r m, n.Expose w = .ok (r, m)) →
      ∃ tt tf n1, Bob.TestTrainingSet words n tt0 tf0 = .ok (tt, tf, n1)) ∧
    (∀ (fuel : Nat) (num_test_words : Int) (ft ff : Int) (n1 : Neuron F) (exposed : List Word),
      Bob.TestTestSet draw fuel words n num_test_words ft0 ff0 = some (.ok ⟨ft, ff, n1, exposed⟩) →
      ft = ft0 + ((exposed.filter (testHit n)).length : Int) ∧
      ff = ff0 + ((exposed.filter fun w => !testHit n w).length : Int) ∧
      exposed.length = num_test_words.toNat ∧
      (0 ≤ num_test_words → ft + ff = ft0 + ff0 + num_test_words) ∧
      (num_test_words < 0 → ft + ff = ft0 + ff0)) ∧
    ((∀ j, ∃ w, draw j = .ok w) →
      (∀ j, ∃ j1, j ≤ j1 ∧ ∃ w, draw j1 = .ok w ∧ w ∉ words.words) →
      (∀ j w, draw j = .ok w → ∃ r m, n.Expose w = .ok (r, m)) →
      ∀ num_test_words : Int, ∃ fuel res,
        Bob.TestTestSet draw fuel words n num_test_words ft0 ff0 = some (.ok res)) ∧
    testWordCount none = 100000 ∧ ∀ k, testWordCount (some k) = k := by
  refine ⟨fun tt tf n1 h => ?_, fun hex => ?_, fun fuel ntw ft ff n1 exposed h => ?_,
    fun hdraw hfresh hex ntw => ?_, rfl, fun k => rfl⟩
  · unfold Bob.TestTrainingSet at h
    obtain ⟨_, _, _, a4, a5⟩ :=
      testTrainingSetLoop_ok words n words.words.length 0 n tt0 tf0 tt tf n1 rfl rfl h
    rw [← List.range_eq_range'] at a4 a5
    refine ⟨a4, a5, ?_⟩
    have := filter_partition (trainingHit n words) (List.range words.words.length)
    rw [List.length_range] at this
    unfold Wordset.size
    omega
  · unfold Bob.TestTrainingSet
    refine testTrainingSetLoop_total words n words.words.length 0 n tt0 tf0 rfl rfl
      (fun j hj => ?_)
    rw [List.mem_range'_1] at hj
    have hj1 : j < words.words.length := by omega
    unfold Wordset.get_word
    simp only [Int.toNat_ofNat]
    rw [List.getD_eq_getElem _ _ hj1]
    exact hex _ (List.getElem_mem _)
  · unfold Bob.TestTestSet at h
    split at h
    · simp at h
    · obtain ⟨_, _, new, j1, b1, b2, _, _, _, b6, b7⟩ :=
        testTestSetLoop_ok draw words.words fuel n ntw.toNat 1 n ft0 ff0 [] ft ff n1 exposed
          rfl rfl h
      rw [List.nil_append] at b1
      subst b1
      have := filter_partition (testHit n) exposed
      refine ⟨b6, b7, b2, fun h0 => ?_, fun h0 => ?_⟩
      · omega
      · omega
  · obtain ⟨w0, hw0⟩ := hdraw 0
    obtain ⟨fuel, res, hres⟩ :=
      testTestSetLoop_total draw words.words n hdraw hfresh hex ntw.toNat 1 n ft0 ff0 [] rfl rfl
    refine ⟨fuel, res, ?_⟩
    unfold Bob.TestTestSet
    rw [hw0]
    exact hres

/-- C18: whenever `TestTestSet` returns, every word it passed to `Expose` is
different from every word of the training set, and the words passed to
`Expose` are, in order, exactly the words outside the training set among the
words drawn by the calls of `test.Init()` made in the loop: a drawn word that
is in the training set is dropped and the next one is drawn. -/
theorem c18_test_words_fresh (words : Wordset) (n : Neuron F)
    (draw : Nat → Except Fault Word) (fuel : Nat) (num_test_words ft0 ff0 : Int) :
    ∀ (ft ff : Int) (n1 : Neuron F) (exposed : List Word),
      Bob.TestTestSet draw fuel words n num_test_words ft0 ff0 = some (.ok ⟨ft, ff, n1, exposed⟩) →
      (∀ w ∈ exposed, ∀ i : Nat, i < words.words.length → w ≠ words.get_word (i : Int)) ∧
      ∃ j1 : Nat, 1 ≤ j1 ∧
        exposed = (drawn draw 1 (j1 - 1)).filter (fun x => decide (x ∉ words.words)) := by
  intro ft ff n1 exposed h
  unfold Bob.TestTestSet at h
  split at h
  · simp at h
  · obtain ⟨_, _, new, j1, b1, _, b3, b4, _, _, _⟩ :=
      testTestSetLoop_ok draw words.words fuel n num_test_words.toNat 1 n ft0 ff0 [] ft ff n1
        exposed rfl rfl h
    rw [List.nil_append] at b1
    subst b1
    refine ⟨fun w hw i hi hwi => ?_, j1, b3, b4⟩
    rw [b4] at hw
    have hnot := (List.mem_filter.1 hw).2
    simp only [decide_eq_true_eq] at hnot
    apply hnot
    rw [hwi]
    unfold Wordset.get_word
    simp only [Int.toNat_ofNat]
    rw [List.getD_eq_getElem _ _ hi]
    exact List.getElem_mem _

/-- C17 on `exampleWordsetTrained` and `exampleCycled`: two training words
are recognised and one is not; of three test words one fires and two do
not. -/
theorem c17_confusion_counts_witness :
    Bob.TestTrainingSet exampleWordsetTrained exampleCycled 0 0 = .ok (2, 1, exampleCycled) ∧
      (2 : Int) + 1 = 0 + 0 + exampleWordsetTrained.size ∧
      Bob.TestTestSet exampleDraw 2 exampleWordsetTrained exampleCycled 3 0 0
        = some (.ok ⟨1, 2, exampleCycled,
            [[(1, 0)], [(0, 1), (3, 1), (6, 1), (2, 0), (1, 0)], [(4, 0)]]⟩) ∧
      ((0 : Int) ≤ 3 → (1 : Int) + 2 = 0 + 0 + 3) :=
  ⟨by decide!,
    ((c17_confusion_counts exampleWordsetTrained exampleCycled exampleDraw 0 0 0 0).1 2 1
      exampleCycled (by decide!)).2.2,
    by decide!,
    ((c17_confusion_counts exampleWordsetTrained exampleCycled exampleDraw 0 0 0 0).2.2.1 2 3 1 2
      exampleCycled [[(1, 0)], [(0, 1), (3, 1), (6, 1), (2, 0), (1, 0)], [(4, 0)]]
      (by decide!)).2.2.2.1⟩

/-- C18 on the same run: the training word drawn by the call number 2 is not
among the three words exposed. -/
theorem c18_test_words_fresh_witness :
    Bob.TestTestSet exampleDraw 2 exampleWordsetTrained exampleCycled 3 0 0
        = some (.ok ⟨1, 2, exampleCycled,
            [[(1, 0)], [(0, 1), (3, 1), (6, 1), (2, 0), (1, 0)], [(4, 0)]]⟩) ∧
      exampleDraw 2 = .ok (exampleWordsetTrained.get_word 0) ∧
      ∀ w ∈ [[(1, 0)], [(0, 1), (3, 1), (6, 1), (2, 0), (1, 0)], [(4, 0)]],
        ∀ i : Nat, i < exampleWordsetTrained.words.length →
          w ≠ exampleWordsetTrained.get_word (i : Int) :=
  ⟨by decide!, by decide,
    (c18_test_words_fresh exampleWordsetTrained exampleCycled exampleDraw 2 3 0 0 1 2
      exampleCycled [[(1, 0)], [(0, 1), (3, 1), (6, 1), (2, 0), (1, 0)], [(4, 0)]]
      (by decide!)).1⟩

/-! ## Bob: the information measures -/

/-- C19, as stated, fails in its example: with `true_true = 0` and
`true_false = 0` the quotient `true_true / (true_true + true_false)` is
`0 / 0`, the comparison `prob_learn < prob_false` is not taken and
`BitsPerNeuron` does not return 0; likewise with `true_true = 0`,
`true_false = 5` and both test counters 0. -/
theorem c19_bits_boundary_counterexample :
    Bob.BitsPerNeuron exampleMath 10 0 0 0 1 = .error .undefined ∧
      Bob.BitsPerNeuron exampleMath 10 0 5 0 0 = .error .undefined ∧
      Bob.BitsPerNeuron exampleMath 10 0 0 0 1 ≠ .ok 0 ∧
      Bob.BitsPerNeuron exampleMath 10 0 5 0 0 ≠ .ok 0 :=
  ⟨by decide!, by decide!, by decide!, by decide!⟩

/-- C19, amended: for all counters whose totals `true_true + true_false` and
`false_false + false_true` are not zero, `BitsPerNeuron` returns, and it
returns exactly 0 when `prob_learn = true_true / (true_true + true_false)` is
smaller than `prob_false = 1/360 + false_true / (false_false + false_true)`,
whatever `num_words` and the functions of `<math.h>` are; whenever it
returns, the totals are not zero.  In exact arithmetic, `true_true = 0` with
`true_false > 0`, counters `false_true >= 0`, `false_false >= 0` and a non-zero
test total gives 0. -/
theorem c19_bits_boundary (m : MathFns F) (num_words tt tf ft ff : Int) :
    (tt + tf ≠ 0 → ff + ft ≠ 0 →
      (∃ v, Bob.BitsPerNeuron m num_words tt tf ft ff = .ok v) ∧
      ((DoubleModel.ofInt tt / DoubleModel.ofInt (tt + tf) : F)
          < 1 / DoubleModel.ofInt 360 + DoubleModel.ofInt ft / DoubleModel.ofInt (ff + ft) →
        Bob.BitsPerNeuron m num_words tt tf ft ff = .ok 0)) ∧
    (∀ v, Bob.BitsPerNeuron m num_words tt tf ft ff = .ok v → tt + tf ≠ 0 ∧ ff + ft ≠ 0) ∧
    (∀ (m1 : MathFns ℚ), 0 < tf → 0 ≤ ft → 0 ≤ ff → 0 < ff + ft →
      Bob.BitsPerNeuron m1 num_words 0 tf ft ff = .ok 0) := by
  refine ⟨fun h1 h2 => ⟨?_, fun hlt => ?_⟩, fun v h => ?_, fun m1 h1 h2 h3 h4 => ?_⟩
  · unfold Bob.BitsPerNeuron divByCount
    rw [if_neg h2, if_neg h1]
    simp only []
    split
    · exact ⟨_, rfl⟩
    · exact ⟨_, rfl⟩
  · unfold Bob.BitsPerNeuron divByCount
    rw [if_neg h2, if_neg h1]
    simp only []
    rw [if_pos hlt]
  · unfold Bob.BitsPerNeuron divByCount at h
    by_cases h2 : ff + ft = 0
    · rw [if_pos h2] at h
      exact absurd h (by simp)
    · by_cases h1 : tt + tf = 0
      · rw [if_neg h2, if_pos h1] at h
        exact absurd h (by simp)
      · exact ⟨h1, h2⟩
  · have e1 : (0 : Int) + tf ≠ 0 := by omega
    have e2 : ff + ft ≠ 0 := by omega
    unfold Bob.BitsPerNeuron divByCount
    rw [if_neg e2, if_neg e1]
    simp only []
    have hlt : (DoubleModel.ofInt 0 / DoubleModel.ofInt (0 + tf) : ℚ)
        < 1 / DoubleModel.ofInt 360 + DoubleModel.ofInt ft / DoubleModel.ofInt (ff + ft) := by
      show ((0 : Int) : ℚ) / ((0 + tf : Int) : ℚ)
        < 1 / ((360 : Int) : ℚ) + ((ft : Int) : ℚ) / ((ff + ft : Int) : ℚ)
      have p1 : (0 : ℚ) ≤ ((ft : Int) : ℚ) / ((ff + ft : Int) : ℚ) := by
        apply div_nonneg
        · exact_mod_cast h2
        · exact_mod_cast h4.le
      have p2 : (0 : ℚ) < 1 / ((360 : Int) : ℚ) := by norm_num
      simp only [Int.cast_zero, zero_div]
      linarith
    rw [if_pos hlt]

/-- C19 (amended) on counters with prob_learn `1/4` and prob_false
`1/360 + 1/2`. -/
theorem c19_bits_boundary_witness :
    (1 : Int) + 3 ≠ 0 ∧ (2 : Int) + 2 ≠ 0 ∧
      ((DoubleModel.ofInt 1 / DoubleModel.ofInt (1 + 3) : ℚ)
        < 1 / DoubleModel.ofInt 360 + DoubleModel.ofInt 2 / DoubleModel.ofInt (2 + 2)) ∧
      Bob.BitsPerNeuron exampleMath 7 1 3 2 2 = .ok 0 :=
  ⟨by decide, by decide, by decide!,
    ((c19_bits_boundary exampleMath 7 1 3 2 2).1 (by decide) (by decide)).2 (by decide!)⟩

/-- One delay slot: the loop of the original simulator over all synapses
computes the sums that the new simulator computes from the sparse copy of the
word. -/
theorem origAccumulate_sim (n : Neuron F) (word : List Int) (weight : Nat → Option F) (d : Int)
    (hlen : (n.delays.length : Int) = n.length) (hcl : (n.containers.length : Int) = n.length)
    (hwl : (word.length : Int) = n.length)
    (hcont : ContainersInRange n) (hpos : ∀ x ∈ n.delays, 0 ≤ x)
    (hword : ∀ x ∈ word, x = kDisabled ∨ (0 ≤ x ∧ x < n.D1))
    (hd : d < kDisabled)
    (hweight : ∀ i : Nat, (i : Int) < n.length → n.delays.getD i 0 < kDisabled →
      weight i = some (n.strength.getD i 0)) :
    ∀ (k i : Nat) (sum : List F), ((i + k : Nat) : Int) = n.length →
      (sum.length : Int) = n.C →
      origAccumulate n.delays n.containers word weight d k i sum
        = accumulate n d
            ((List.range' i k).filterMap fun i =>
              if 0 ≤ word.getD i 0 ∧ word.getD i 0 < n.D1 then some ((i : Int), word.getD i 0)
              else none) sum := by
  intro k
  induction k with
  | zero =>
    intro i sum _ _
    rfl
  | succ k ih =>
    intro i sum hik hsum
    have hi1 : i < n.delays.length := by omega
    have hi2 : i < word.length := by omega
    have hi3 : i < n.containers.length := by omega
    have hdi : 0 ≤ n.delays.getD i 0 := by
      rw [List.getD_eq_getElem _ _ hi1]
      exact hpos _ (List.getElem_mem _)
    have hwi : word.getD i 0 = kDisabled ∨ (0 ≤ word.getD i 0 ∧ word.getD i 0 < n.D1) := by
      rw [List.getD_eq_getElem _ _ hi2]
      exact hword _ (List.getElem_mem _)
    have hci : 0 ≤ n.containers.getD i 0 ∧ n.containers.getD i 0 < n.C := by
      rw [List.getD_eq_getElem _ _ hi3]
      exact hcont _ (List.getElem_mem _)
    have hnext := ih (i + 1) sum (by rw [← hik]; push_cast; omega) hsum
    unfold origAccumulate
    rw [List.range'_succ, List.filterMap_cons]
    rw [if_neg (by simp only [not_not]; exact ⟨hi1, hi2⟩)]
    by_cases hcopy : 0 ≤ word.getD i 0 ∧ word.getD i 0 < n.D1
    · rw [if_pos hcopy]
      simp only []
      unfold accumulate
      have c1 : ¬ ¬ (0 ≤ (i : Int) ∧ (i : Int) < n.length) := by
        simp only [not_not]
        omega
      have c2 : ¬ ¬ (word.getD i 0 = kDisabled ∨ (0 ≤ word.getD i 0 ∧ word.getD i 0 < n.D1)) := by
        simp only [not_not]
        exact Or.inr hcopy
      rw [if_neg c1, if_neg c2]
      have e1 : n.delays_at (i : Int) = n.delays.getD i 0 := by
        simp [Neuron.delays_at]
      have e2 : n.containers_at (i : Int) = n.containers.getD i 0 := by
        simp [Neuron.containers_at]
      have e3 : n.strength_at (i : Int) = n.strength.getD i 0 := by
        simp [Neuron.strength_at]
      rw [e1, e2, e3]
      by_cases hal : n.delays.getD i 0 + word.getD i 0 = d
      · rw [if_pos hal, if_pos hal]
        rw [hweight i (by omega) (by omega)]
        simp only []
        have c3 : ¬ ¬ (i < n.containers.length ∧ 0 ≤ n.containers.getD i 0 ∧
            n.containers.getD i 0 < (sum.length : Int)) := by
          simp only [not_not]
          exact ⟨hi3, hci.1, by omega⟩
        have c4 : ¬ ¬ (0 ≤ n.containers.getD i 0 ∧ n.containers.getD i 0 < n.C) := by
          simp only [not_not]
          exact hci
        rw [if_neg c3, if_neg c4]
        exact ih (i + 1) _ (by rw [← hik]; push_cast; omega)
          (by rw [List.length_set]; exact hsum)
      · rw [if_neg hal, if_neg hal]
        exact hnext
    · rw [if_neg hcopy]
      simp only []
      have hk : word.getD i 0 = kDisabled := by
        rcases hwi with h | h
        · exact h
        · exact absurd h hcopy
      have hal : ¬ n.delays.getD i 0 + word.getD i 0 = d := by
        rw [hk]
        omega
      rw [if_neg hal]
      exact hnext

theorem origFired_spec (C : Int) (thr : F) (sum : List F) :
    (origFired C thr sum = none ↔ anyFired C thr sum = false) ∧
    ∀ i0, origFired C thr sum = some i0 →
      (i0 : Int) < C ∧ thr ≤ sum.getD i0 0 + kEpsilon ∧ anyFired C thr sum = true := by
  unfold origFired anyFired
  constructor
  · rw [List.find?_eq_none]
    constructor
    · intro h
      rw [Bool.eq_false_iff]
      intro hany
      rw [List.any_eq_true] at hany
      obtain ⟨x, hx, hp⟩ := hany
      exact h x hx hp
    · intro h x hx hp
      rw [Bool.eq_false_iff] at h
      apply h
      rw [List.any_eq_true]
      exact ⟨x, hx, hp⟩
  · intro i0 h
    have h1 := List.find?_some h
    have h2 := List.mem_of_find?_eq_some h
    rw [List.mem_range] at h2
    refine ⟨by omega, by simpa using h1, ?_⟩
    rw [List.any_eq_true]
    exact ⟨i0, List.mem_range.2 h2, h1⟩

/-- The loop over the delay slots: when the new simulator returns `r` on the
sparse copy of the word, the original simulator stops in the same slot (or in
none when `r` is `kDisabled`) with the same sums. -/
theorem origSlots_sim (n : Neuron F) (word : List Int) (weight : Nat → Option F)
    (hlen : (n.delays.length : Int) = n.length) (hcl : (n.containers.length : Int) = n.length)
    (hwl : (word.length : Int) = n.length)
    (hcont : ContainersInRange n) (hpos : ∀ x ∈ n.delays, 0 ≤ x)
    (hword : ∀ x ∈ word, x = kDisabled ∨ (0 ≤ x ∧ x < n.D1))
    (hweight : ∀ i : Nat, (i : Int) < n.length → n.delays.getD i 0 < kDisabled →
      weight i = some (n.strength.getD i 0)) :
    ∀ (k : Nat) (d : Int) (sum sum1 : List F) (r : Int), 0 ≤ d → d + k ≤ kDisabled →
      (sum.length : Int) = n.C →
      exposeLoop n (copy_word n.D1 n.length word) k d sum = .ok (r, sum1) →
      (sum1.length : Int) = n.C ∧
      ((r = kDisabled ∧
          origSlots n.length n.C n.delays n.containers word weight n.H k d sum
            = .ok (none, sum1)) ∨
        (r ≠ kDisabled ∧ ∃ i0 : Nat, origFired n.C n.H sum1 = some i0 ∧
          origSlots n.length n.C n.delays n.containers word weight n.H k d sum
            = .ok (some (r, i0), sum1))) := by
  intro k
  induction k with
  | zero =>
    intro d sum sum1 r _ _ hsum h
    simp only [exposeLoop, Except.ok.injEq, Prod.mk.injEq] at h
    rw [← h.1, ← h.2]
    exact ⟨hsum, Or.inl ⟨rfl, rfl⟩⟩
  | succ k ih =>
    intro d sum sum1 r hd0 hdk hsum h
    have hcs := clearSums_length n.C sum hsum
    have hacc := origAccumulate_sim n word weight d hlen hcl hwl hcont hpos hword
      (by push_cast at hdk; omega) hweight n.length.toNat 0 (clearSums n.C sum)
      (by simp only [Nat.zero_add]; omega) (by rw [hcs]; omega)
    have hcopy : copy_word n.D1 n.length word
        = (List.range' 0 n.length.toNat).filterMap fun i =>
            if 0 ≤ word.getD i 0 ∧ word.getD i 0 < n.D1 then some ((i : Int), word.getD i 0)
            else none := by
      unfold copy_word
      rw [List.range_eq_range']
    rw [← hcopy] at hacc
    unfold exposeLoop at h
    unfold origSlots
    rw [if_neg (by simp only [not_not]; omega), hacc]
    split at h
    · exact absurd h (by simp)
    · rename_i sum2 hacc2
      have hl2 : (sum2.length : Int) = n.C := by
        rw [accumulate_length n d _ _ _ hacc2, hcs]
        omega
      try rw [hacc2]
      try simp only []
      obtain ⟨f1, f2⟩ := origFired_spec n.C n.H sum2
      split at h
      · rename_i hany
        simp only [Except.ok.injEq, Prod.mk.injEq] at h
        cases hof : origFired n.C n.H sum2 with
        | none =>
          rw [f1.1 hof] at hany
          exact absurd hany (by simp)
        | some i0 =>
          rw [← h.1, ← h.2]
          refine ⟨hl2, Or.inr ⟨?_, i0, hof, rfl⟩⟩
          push_cast at hdk
          unfold kDisabled at hdk ⊢
          omega
      · rename_i hany
        have hof : origFired n.C n.H sum2 = none := f1.2 (by simpa using hany)
        rw [hof]
        simp only []
        exact ih (d + 1) sum2 sum1 r (by omega) (by push_cast at hdk ⊢; omega) hl2 h

theorem origSlots_sum_irrel (l C : Int) (delays containers word : List Int)
    (weight : Nat → Option F) (thr : F) (k : Nat) (d : Int) (s1 s2 : List F)
    (h1 : (s1.length : Int) = C) (h2 : s2.length = s1.length) :
    origSlots l C delays containers word weight thr (k + 1) d s2
      = origSlots l C delays containers word weight thr (k + 1) d s1 := by
  unfold origSlots
  rw [clearSums_eq C s1 s2 h1 h2, h2]

theorem copy_word_mem (max_delay N : Int) (values : List Int) (e : Int × Int) :
    e ∈ copy_word max_delay N values ↔
      ∃ i : Nat, (i : Int) < N ∧ e = ((i : Int), values.getD i 0) ∧
        0 ≤ values.getD i 0 ∧ values.getD i 0 < max_delay := by
  unfold copy_word
  rw [List.mem_filterMap]
  constructor
  · rintro ⟨i, hi, h⟩
    rw [List.mem_range] at hi
    split at h
    · rename_i hc
      simp only [Option.some.injEq] at h
      exact ⟨i, by omega, h.symm, hc.1, hc.2⟩
    · exact absurd h (by simp)
  · rintro ⟨i, hi, he, hc⟩
    refine ⟨i, List.mem_range.2 (by omega), ?_⟩
    rw [if_pos hc, he]

theorem copy_word_valid (n : Neuron F) (values : List Int) :
    ValidWord n (copy_word n.D1 n.length values) := by
  intro e he
  obtain ⟨i, hi, rfl, h1, h2⟩ := (copy_word_mem n.D1 n.length values e).1 he
  exact ⟨⟨by simp, hi⟩, Or.inr ⟨h1, h2⟩⟩

/-- `Expose` on the sparse copy of a dense word against the slot loop of the
original simulator started on scratch sums `s` of the same size. -/
theorem origSlots_corr (n : Neuron F) (word : List Int) (weight : Nat → Option F)
    (s : List F) (hs : (s.length : Int) = n.C) (hc : Consistent n)
    (hcont : ContainersInRange n) (hpos : ∀ x ∈ n.delays, 0 ≤ x)
    (hden : DenseWord n.length n.D1 word) (hslots : n.D1 + n.D2 ≤ kDisabled)
    (hweight : ∀ i : Nat, (i : Int) < n.length → n.delays.getD i 0 < kDisabled →
      weight i = some (n.strength.getD i 0)) :
    ∃ r sum1, n.Expose (copy_word n.D1 n.length word) = .ok (r, { n with sum := sum1 }) ∧
      (sum1.length : Int) = n.C ∧ FirstFire n (copy_word n.D1 n.length word) r ∧
      ((r = kDisabled ∧ ∃ s1 : List F, (s1.length : Int) = n.C ∧
          origSlots n.length n.C n.delays n.containers word weight n.H n.slots.toNat 0 s
            = .ok (none, s1)) ∨
        (r ≠ kDisabled ∧ ∃ i0 : Nat, origFired n.C n.H sum1 = some i0 ∧
          origSlots n.length n.C n.delays n.containers word weight n.H n.slots.toNat 0 s
            = .ok (some (r, i0), sum1))) := by
  obtain ⟨r, sum1, e1, e2, e3, _⟩ :=
    expose_spec n _ hc hcont (copy_word_valid n word)
  obtain ⟨c1, c2, _, c4, _⟩ := hc
  obtain ⟨_, sum2, hl, hn1⟩ := (expose_ok_iff n _ r _).1 e1
  have hsum2 : sum2 = sum1 := by
    have := congrArg Neuron.sum hn1
    exact this.symm
  rw [hsum2] at hl
  refine ⟨r, sum1, e1, e2, e3, ?_⟩
  have hk : (0 : Int) + (n.slots.toNat : Nat) ≤ kDisabled := by
    unfold Neuron.slots kDisabled at *
    omega
  obtain ⟨_, hsim⟩ := origSlots_sim n word weight c2 c4 hden.1 hcont hpos hden.2 hweight
    n.slots.toNat 0 n.sum sum1 r (le_refl _) hk c1 hl
  cases hkk : n.slots.toNat with
  | zero =>
    rw [hkk] at hsim hl
    simp only [exposeLoop, Except.ok.injEq, Prod.mk.injEq] at hl
    refine Or.inl ⟨hl.1.symm, s, hs, rfl⟩
  | succ k =>
    rw [hkk] at hsim
    rw [origSlots_sum_irrel n.length n.C n.delays n.containers word weight n.H k 0 n.sum s c1
      (by omega)]
    rcases hsim with ⟨h1, h2⟩ | ⟨h1, i0, h2, h3⟩
    · exact Or.inl ⟨h1, sum1, e2, h2⟩
    · exact Or.inr ⟨h1, i0, h2, h3⟩

theorem origFreeze_spec (delays containers word : List Int) (d i : Int) (g : Option F) :
    ∀ (k j : Nat) (frozen : List Bool) (strength : List F),
      j + k ≤ delays.length → j + k ≤ word.length → j + k ≤ containers.length →
      j + k ≤ frozen.length → (g.isSome = true → j + k ≤ strength.length) →
      ∃ frozen1 strength1,
        origFreeze delays containers word d i g k j (frozen, strength)
          = .ok (frozen1, strength1) ∧
        frozen1.length = frozen.length ∧ strength1.length = strength.length ∧
        (∀ x : Nat, frozen1.getD x false = true ↔
          (frozen.getD x false = true ∨ (j ≤ x ∧ x < j + k ∧
            delays.getD x 0 + word.getD x 0 = d ∧ containers.getD x 0 = i))) ∧
        (g = none → strength1 = strength) ∧
        (∀ gv, g = some gv → ∀ x : Nat, strength1.getD x 0 =
          if j ≤ x ∧ x < j + k ∧ delays.getD x 0 + word.getD x 0 = d ∧ containers.getD x 0 = i
          then gv else strength.getD x 0) := by
  intro k
  induction k with
  | zero =>
    intro j frozen strength _ _ _ _ _
    refine ⟨frozen, strength, rfl, rfl, rfl, fun x => ?_, fun _ => rfl, fun gv _ x => ?_⟩
    · constructor
      · exact fun h => Or.inl h
      · rintro (h | h)
        · exact h
        · omega
    · rw [if_neg (by omega)]
  | succ k ih =>
    intro j frozen strength h1 h2 h3 h4 h5
    unfold origFreeze
    rw [if_neg (by simp only [not_not]; omega)]
    by_cases hal : delays.getD j 0 + word.getD j 0 = d
    · rw [if_pos hal, if_neg (by simp only [not_not]; omega)]
      by_cases hct : containers.getD j 0 = i
      · rw [if_pos hct]
        cases g with
        | none =>
          simp only []
          rw [if_neg (by simp only [not_not]; omega)]
          obtain ⟨f1, s1, a1, a2, a3, a4, a5, a6⟩ :=
            ih (j + 1) (frozen.set j true) strength (by omega) (by omega) (by omega)
              (by rw [List.length_set]; omega) (by simp)
          refine ⟨f1, s1, a1, by rw [a2, List.length_set], a3, fun x => ?_, fun _ => a5 rfl,
            fun gv hg => absurd hg (by simp)⟩
          rw [a4 x]
          by_cases hx : x = j
          · subst hx
            rw [getD_set_self _ _ _ _ (by omega)]
            simp only [true_or, true_iff]
            exact Or.inr ⟨le_refl _, by omega, hal, hct⟩
          · rw [getD_set_other _ _ _ _ _ (fun e => hx e.symm)]
            constructor
            · rintro (h | ⟨q1, q2, q3, q4⟩)
              · exact Or.inl h
              · exact Or.inr ⟨by omega, by omega, q3, q4⟩
            · rintro (h | ⟨q1, q2, q3, q4⟩)
              · exact Or.inl h
              · exact Or.inr ⟨by omega, by omega, q3, q4⟩
        | some gv =>
          simp only []
          have h6 := h5 rfl
          rw [if_neg (by simp only [not_not]; omega)]
          obtain ⟨f1, s1, a1, a2, a3, a4, a5, a6⟩ :=
            ih (j + 1) (frozen.set j true) (strength.set j gv) (by omega) (by omega) (by omega)
              (by rw [List.length_set]; omega) (fun _ => by rw [List.length_set]; omega)
          refine ⟨f1, s1, a1, by rw [a2, List.length_set], by rw [a3, List.length_set],
            fun x => ?_, fun hg => absurd hg (by simp), fun gv1 hg x => ?_⟩
          · rw [a4 x]
            by_cases hx : x = j
            · subst hx
              rw [getD_set_self _ _ _ _ (by omega)]
              simp only [true_or, true_iff]
              exact Or.inr ⟨le_refl _, by omega, hal, hct⟩
            · rw [getD_set_other _ _ _ _ _ (fun e => hx e.symm)]
              constructor
              · rintro (h | ⟨q1, q2, q3, q4⟩)
                · exact Or.inl h
                · exact Or.inr ⟨by omega, by omega, q3, q4⟩
              · rintro (h | ⟨q1, q2, q3, q4⟩)
                · exact Or.inl h
                · exact Or.inr ⟨by omega, by omega, q3, q4⟩
          · rw [a6 gv1 hg x]
            have hgv : gv1 = gv := (Option.some.inj hg).symm
            by_cases hx : x = j
            · subst hx
              rw [if_neg (by omega), getD_set_self _ _ _ _ (by omega),
                if_pos ⟨le_refl _, by omega, hal, hct⟩, hgv]
            · rw [getD_set_other _ _ _ _ _ (fun e => hx e.symm)]
              by_cases hc : j + 1 ≤ x ∧ x < j + 1 + k ∧
                  delays.getD x 0 + word.getD x 0 = d ∧ containers.getD x 0 = i
              · rw [if_pos hc, if_pos ⟨by omega, by omega, hc.2.2.1, hc.2.2.2⟩]
              · rw [if_neg hc, if_neg]
                rintro ⟨q1, q2, q3, q4⟩
                exact hc ⟨by omega, by omega, q3, q4⟩
      · rw [if_neg hct]
        obtain ⟨f1, s1, a1, a2, a3, a4, a5, a6⟩ :=
          ih (j + 1) frozen strength (by omega) (by omega) (by omega) (by omega)
            (fun hg => by have := h5 hg; omega)
        refine ⟨f1, s1, a1, a2, a3, fun x => ?_, a5, fun gv hg x => ?_⟩
        · rw [a4 x]
          constructor
          · rintro (h | ⟨q1, q2, q3, q4⟩)
            · exact Or.inl h
            · exact Or.inr ⟨by omega, by omega, q3, q4⟩
          · rintro (h | ⟨q1, q2, q3, q4⟩)
            · exact Or.inl h
            · refine Or.inr ⟨?_, by omega, q3, q4⟩
              by_contra hlt
              have : x = j := by omega
              subst this
              exact hct q4
        · rw [a6 gv hg x]
          by_cases hc : j + 1 ≤ x ∧ x < j + 1 + k ∧
              delays.getD x 0 + word.getD x 0 = d ∧ containers.getD x 0 = i
          · rw [if_pos hc, if_pos ⟨by omega, by omega, hc.2.2.1, hc.2.2.2⟩]
          · rw [if_neg hc, if_neg]
            rintro ⟨q1, q2, q3, q4⟩
            apply hc
            refine ⟨?_, by omega, q3, q4⟩
            by_contra hlt
            have : x = j := by omega
            subst this
            exact hct q4
    · rw [if_neg hal]
      obtain ⟨f1, s1, a1, a2, a3, a4, a5, a6⟩ :=
        ih (j + 1) frozen strength (by omega) (by omega) (by omega) (by omega)
          (fun hg => by have := h5 hg; omega)
      refine ⟨f1, s1, a1, a2, a3, fun x => ?_, a5, fun gv hg x => ?_⟩
      · rw [a4 x]
        constructor
        · rintro (h | ⟨q1, q2, q3, q4⟩)
          · exact Or.inl h
          · exact Or.inr ⟨by omega, by omega, q3, q4⟩
        · rintro (h | ⟨q1, q2, q3, q4⟩)
          · exact Or.inl h
          · refine Or.inr ⟨?_, by omega, q3, q4⟩
            by_contra hlt
            have : x = j := by omega
            subst this
            exact hal q3
      · rw [a6 gv hg x]
        by_cases hc : j + 1 ≤ x ∧ x < j + 1 + k ∧
            delays.getD x 0 + word.getD x 0 = d ∧ containers.getD x 0 = i
        · rw [if_pos hc, if_pos ⟨by omega, by omega, hc.2.2.1, hc.2.2.2⟩]
        · rw [if_neg hc, if_neg]
          rintro ⟨q1, q2, q3, q4⟩
          apply hc
          refine ⟨?_, by omega, q3, q4⟩
          by_contra hlt
          have : x = j := by omega
          subst this
          exact hal q3

/-- One call of `cognon_orig::Neuron::train` against `Expose` of the new
simulator on the sparse copy of the word, for corresponding states with unit
strengths on the enabled synapses. -/
theorem orig_train_plain (o : OrigNeuron F) (n : Neuron F) (w : List Int)
    (hc : Corresponds o n) (hslots : n.D1 + n.D2 ≤ kDisabled)
    (hw : DenseWord n.length n.D1 w) (hH : o.H = n.H)
    (hone : ∀ i : Nat, (i : Int) < n.length →
      n.strength.getD i 0 = 1 ∨ n.delays.getD i 0 = kDisabled) :
    ∃ (r : Int) (sum1 s1 : List F) (frozen1 : List Bool),
      n.Expose (copy_word n.D1 n.length w) = .ok (r, { n with sum := sum1 }) ∧
      FirstFire n (copy_word n.D1 n.length w) r ∧
      (sum1.length : Int) = n.C ∧ (s1.length : Int) = n.C ∧
      o.train w false = .ok (r, { o with sum := s1 }) ∧
      o.train w true = .ok (r, { o with sum := s1, frozen := frozen1 }) ∧
      frozen1.length = o.frozen.length ∧
      (r = kDisabled → frozen1 = o.frozen) ∧
      (r ≠ kDisabled → s1 = sum1 ∧ ∃ i0 : Nat, origFired n.C n.H sum1 = some i0 ∧
        ∀ x : Nat, frozen1.getD x false = true ↔
          (o.frozen.getD x false = true ∨ ((x : Int) < n.length ∧
            n.delays.getD x 0 + w.getD x 0 = r ∧ n.containers.getD x 0 = (i0 : Int)))) := by
  obtain ⟨h1, h2, h3, h4, h5, h6, h7, h8, h9, h10, h11⟩ := hc
  have hweight : ∀ i : Nat, (i : Int) < n.length → n.delays.getD i 0 < kDisabled →
      (fun _ : Nat => (some 1 : Option F)) i = some (n.strength.getD i 0) := by
    intro i hi hd
    rcases hone i hi with h | h
    · simp only [h]
    · omega
  obtain ⟨r, sum1, e1, e2, e3, e4⟩ :=
    origSlots_corr n w (fun _ => some 1) o.sum (by rw [h7, h2]) h9 h10 h11 hw hslots hweight
  have key : origSlots o.l o.C o.delays o.containers w (fun _ => (some 1 : Option F)) o.H
      o.slots.toNat 0 o.sum
      = origSlots n.length n.C n.delays n.containers w (fun _ => some 1) n.H n.slots.toNat 0
        o.sum := by
    unfold OrigNeuron.slots Neuron.slots
    rw [h1, h2, h3, h4, h5, h6, hH]
  obtain ⟨c1, c2, c3, c4, c5⟩ := h9
  rcases e4 with ⟨r1, s1, r2, r3⟩ | ⟨r1, i0, r2, r3⟩
  · refine ⟨r, sum1, s1, o.frozen, e1, e3, e2, r2, ?_, ?_, rfl, fun _ => rfl,
      fun h => absurd r1 h⟩
    · unfold OrigNeuron.train
      rw [key, r3, r1]
    · unfold OrigNeuron.train
      rw [key, r3, r1]
  · obtain ⟨f1, st1, a1, a2, _, a4, _, _⟩ :=
      origFreeze_spec n.delays n.containers w r (i0 : Int) (none : Option F) n.length.toNat 0
        o.frozen [] (by omega) (by have := hw.1; omega) (by omega) (by omega) (by simp)
    refine ⟨r, sum1, sum1, f1, e1, e3, e2, e2, ?_, ?_, a2, fun h => absurd h r1,
      fun _ => ⟨rfl, i0, r2, fun x => ?_⟩⟩
    · unfold OrigNeuron.train
      rw [key, r3]
      simp
    · unfold OrigNeuron.train
      rw [key, r3]
      simp only [if_true]
      rw [h1, h5, h6, a1]
    · rw [a4 x]
      constructor
      · rintro (h | ⟨_, q2, q3, q4⟩)
        · exact Or.inl h
        · exact Or.inr ⟨by omega, q3, q4⟩
      · rintro (h | ⟨q2, q3, q4⟩)
        · exact Or.inl h
        · exact Or.inr ⟨by omega, by omega, q3, q4⟩

/-- One call of `cognon_orig::NeuronStrength::train` against `Expose` of the
new simulator on the sparse copy of the word, for corresponding states with
the same strengths; `thr` is the threshold of the call. -/
theorem orig_train_strength (o : OrigNeuronStrength F) (n : Neuron F) (w : List Int)
    (hc : Corresponds o.toOrigNeuron n) (hslots : n.D1 + n.D2 ≤ kDisabled)
    (hw : DenseWord n.length n.D1 w) (hstr : o.strength = n.strength) (do_freeze : Bool)
    (hH : (if do_freeze then o.H else o.H_m) = n.H) :
    ∃ (r : Int) (sum1 s1 : List F) (frozen1 : List Bool) (strength1 : List F),
      n.Expose (copy_word n.D1 n.length w) = .ok (r, { n with sum := sum1 }) ∧
      FirstFire n (copy_word n.D1 n.length w) r ∧
      (sum1.length : Int) = n.C ∧ (s1.length : Int) = n.C ∧
      (do_freeze = false → o.train w do_freeze = .ok (r, { o with sum := s1 })) ∧
      (do_freeze = true → o.train w do_freeze
        = .ok (r, { o with sum := s1, frozen := frozen1, strength := strength1 })) ∧
      frozen1.length = o.frozen.length ∧ strength1.length = o.strength.length ∧
      (r = kDisabled → frozen1 = o.frozen ∧ strength1 = o.strength) ∧
      (r ≠ kDisabled → s1 = sum1 ∧ ∃ i0 : Nat, origFired n.C n.H sum1 = some i0 ∧
        (∀ x : Nat, frozen1.getD x false = true ↔
          (o.frozen.getD x false = true ∨ ((x : Int) < n.length ∧
            n.delays.getD x 0 + w.getD x 0 = r ∧ n.containers.getD x 0 = (i0 : Int)))) ∧
        ∀ x : Nat, strength1.getD x 0 =
          if (x : Int) < n.length ∧ n.delays.getD x 0 + w.getD x 0 = r ∧
              n.containers.getD x 0 = (i0 : Int)
          then o.G_m else o.strength.getD x 0) := by
  obtain ⟨h1, h2, h3, h4, h5, h6, h7, h8, h9, h10, h11⟩ := hc
  obtain ⟨c1, c2, c3, c4, c5⟩ := h9
  have hweight : ∀ i : Nat, (i : Int) < n.length → n.delays.getD i 0 < kDisabled →
      (fun i : Nat => o.strength[i]?) i = some (n.strength.getD i 0) := by
    intro i hi _
    simp only [hstr]
    have : i < n.strength.length := by omega
    rw [List.getD_eq_getElem _ _ this, List.getElem?_eq_getElem this]
  obtain ⟨r, sum1, e1, e2, e3, e4⟩ :=
    origSlots_corr n w (fun i => o.strength[i]?) o.sum (by rw [h7, h2])
      ⟨c1, c2, c3, c4, c5⟩ h10 h11 hw hslots hweight
  have key : origSlots o.l o.C o.delays o.containers w (fun i => o.strength[i]?)
      (if do_freeze then o.H else o.H_m) o.slots.toNat 0 o.sum
      = origSlots n.length n.C n.delays n.containers w (fun i => o.strength[i]?) n.H
        n.slots.toNat 0 o.sum := by
    unfold OrigNeuron.slots Neuron.slots
    rw [h1, h2, h3, h4, h5, h6, hH]
  rcases e4 with ⟨r1, s1, r2, r3⟩ | ⟨r1, i0, r2, r3⟩
  · refine ⟨r, sum1, s1, o.frozen, o.strength, e1, e3, e2, r2, fun _ => ?_, fun _ => ?_, rfl,
      rfl, fun _ => ⟨rfl, rfl⟩, fun h => absurd r1 h⟩
    · unfold OrigNeuronStrength.train
      rw [key, r3, r1]
    · unfold OrigNeuronStrength.train
      rw [key, r3, r1]
  · obtain ⟨f1, st1, a1, a2, a3, a4, _, a6⟩ :=
      origFreeze_spec n.delays n.containers w r (i0 : Int) (some o.G_m) n.length.toNat 0
        o.frozen o.strength (by omega) (by have := hw.1; omega) (by omega)
        (by have : (o.frozen.length : Int) = o.l := h8; omega) (fun _ => by rw [hstr]; omega)
    refine ⟨r, sum1, sum1, f1, st1, e1, e3, e2, e2, fun hf => ?_, fun hf => ?_, a2, a3,
      fun h => absurd h r1, fun _ => ⟨rfl, i0, r2, fun x => ?_, fun x => ?_⟩⟩
    · unfold OrigNeuronStrength.train
      rw [key, r3, hf]
      simp
    · unfold OrigNeuronStrength.train
      rw [key, r3, hf]
      simp only [if_true]
      rw [h1, h5, h6, a1]
    · rw [a4 x]
      constructor
      · rintro (h | ⟨_, q2, q3, q4⟩)
        · exact Or.inl h
        · exact Or.inr ⟨by omega, q3, q4⟩
      · rintro (h | ⟨q2, q3, q4⟩)
        · exact Or.inl h
        · exact Or.inr ⟨by omega, by omega, q3, q4⟩
    · rw [a6 o.G_m rfl x]
      by_cases hcnd : (x : Int) < n.length ∧ n.delays.getD x 0 + w.getD x 0 = r ∧
          n.containers.getD x 0 = (i0 : Int)
      · rw [if_pos hcnd, if_pos ⟨by omega, by omega, hcnd.2.1, hcnd.2.2⟩]
      · rw [if_neg hcnd, if_neg]
        rintro ⟨_, q2, q3, q4⟩
        exact hcnd ⟨by omega, q3, q4⟩

/-- C13, in the documented domain `D1 + D2 <= kDisabled = 2^29`, where
`kDisabled` is no delay slot (`src/cognon.h:96-99`): for corresponding states
of the original and the new neuron and every dense word `w` over `[0, D1)` and
`kDisabled`, the new simulator on the sparse copy of `w` and the original one
on `w` both return, and return the same value: `Expose` against
`Neuron::train(w, 0)` and `Train` against `Neuron::train(w, 1)` when the
thresholds are equal and every synapse that is not disabled has strength 1.0;
`Expose` against `NeuronStrength::train(w, 0)` when the strengths are equal
and the threshold of the new neuron is `H_m`; `Train` against
`NeuronStrength::train(w, 1)` when the strengths are equal and the threshold
of the new neuron is `H`. -/
theorem c13_same_slot (o : OrigNeuron F) (n : Neuron F) (w : List Int)
    (hc : Corresponds o n) (hslots : n.D1 + n.D2 ≤ 536870912)
    (hw : DenseWord n.length n.D1 w) :
    (o.H = n.H →
      (∀ i ∈ List.range n.length.toNat,
        n.strength.getD i 0 = 1 ∨ n.delays.getD i 0 = kDisabled) →
      (∃ r o1 n1, o.train w false = .ok (r, o1) ∧
        n.Expose (copy_word n.D1 o.l w) = .ok (r, n1)) ∧
      (LearnReady n → ∃ r o1 n1, o.train w true = .ok (r, o1) ∧
        n.Train (copy_word n.D1 o.l w) = .ok (r, n1))) ∧
    (∀ os : OrigNeuronStrength F, os.toOrigNeuron = o → os.strength = n.strength →
      (os.H_m = n.H → ∃ r os1 n1, os.train w false = .ok (r, os1) ∧
        n.Expose (copy_word n.D1 o.l w) = .ok (r, n1)) ∧
      (os.H = n.H → LearnReady n → ∃ r os1 n1, os.train w true = .ok (r, os1) ∧
        n.Train (copy_word n.D1 o.l w) = .ok (r, n1))) := by
  have hl : o.l = n.length := hc.1
  rw [hl]
  constructor
  · intro hH hone
    have hone1 : ∀ i : Nat, (i : Int) < n.length →
        n.strength.getD i 0 = 1 ∨ n.delays.getD i 0 = kDisabled :=
      fun i hi => hone i (List.mem_range.2 (by omega))
    obtain ⟨r, sum1, s1, f1, e1, _, _, _, e5, e6, _⟩ :=
      orig_train_plain o n w hc hslots hw hH hone1
    refine ⟨⟨r, _, _, e5, e1⟩, fun hlr => ?_⟩
    obtain ⟨n2, t1, _⟩ := train_of_expose n _ hlr r _ e1
    exact ⟨r, _, n2, e6, t1⟩
  · intro os hos hstr
    subst hos
    constructor
    · intro hH
      obtain ⟨r, sum1, s1, f1, st1, e1, _, _, _, e5, _⟩ :=
        orig_train_strength os n w hc hslots hw hstr false (by simpa using hH)
      exact ⟨r, _, _, e5 rfl, e1⟩
    · intro hH hlr
      obtain ⟨r, sum1, s1, f1, st1, e1, _, _, _, _, e6, _⟩ :=
        orig_train_strength os n w hc hslots hw hstr true (by simpa using hH)
      obtain ⟨n2, t1, _⟩ := train_of_expose n _ hlr r _ e1
      exact ⟨r, _, n2, e6 rfl, t1⟩

/-- C13 on `exampleOrig`, `exampleNeuron` and the dense form of
`exampleWord`: both simulators fire in slot 1; and on `strengthOrig`,
`strengthNeuron` and the dense form of the first of the `strengthWords`: both
simulators fire in slot 0 when training. -/
theorem c13_same_slot_witness :
    Corresponds exampleOrig exampleNeuron ∧ exampleNeuron.D1 + exampleNeuron.D2 ≤ 536870912 ∧
      DenseWord exampleNeuron.length exampleNeuron.D1 exampleDense ∧
      exampleOrig.H = exampleNeuron.H ∧
      exampleOrig.train exampleDense false = .ok (1, { exampleOrig with sum := [1, 3] }) ∧
      copy_word exampleNeuron.D1 exampleOrig.l exampleDense = [(0, 1), (2, 0), (3, 1), (6, 1)] ∧
      (∃ r o1 n1, exampleOrig.train exampleDense false = .ok (r, o1) ∧
        exampleNeuron.Expose (copy_word exampleNeuron.D1 exampleOrig.l exampleDense)
          = .ok (r, n1)) ∧
      Corresponds strengthOrig.toOrigNeuron strengthNeuron ∧
      strengthOrig.train [0, 0, kDisabled, kDisabled] true
        = .ok (0, { strengthOrig with
                      sum := [2]
                      frozen := [true, true, false, false]
                      strength := [2, 2, 1, 1] }) ∧
      (∃ r os1 n1, strengthOrig.train [0, 0, kDisabled, kDisabled] true = .ok (r, os1) ∧
        strengthNeuron.Train
            (copy_word strengthNeuron.D1 strengthOrig.l [0, 0, kDisabled, kDisabled])
          = .ok (r, n1)) :=
  ⟨by decide, by decide, by decide, by decide, by decide!, by decide,
    (((c13_same_slot exampleOrig exampleNeuron exampleDense (by decide) (by decide)
      (by decide)).1 (by decide) (by decide!)).1),
    by decide, by decide!,
    (((c13_same_slot strengthOrig.toOrigNeuron strengthNeuron [0, 0, kDisabled, kDisabled]
      (by decide) (by decide) (by decide)).2 strengthOrig rfl (by decide!)).2 (by decide!)
      (by decide))⟩

theorem singleFireRun_cons (w : Word) (ws : List Word) (n : Neuron F)
    (h : singleFireRun (w :: ws) n = true) (d : Int) (n1 : Neuron F)
    (ht : n.Train w = .ok (d, n1)) :
    (d ≠ kDisabled → SingleFire n w d) ∧ singleFireRun ws n1 = true := by
  unfold singleFireRun at h
  rw [ht] at h
  simp only [Bool.and_eq_true, decide_eq_true_eq] at h
  exact ⟨fun hd => h.1.resolve_left hd, h.2⟩

/-- With one container every run has a single container that fires. -/
theorem singleFireRun_one : ∀ (ws : List Word) (n : Neuron F), n.C = 1 →
    singleFireRun ws n = true := by
  intro ws
  induction ws with
  | nil => intro n _; rfl
  | cons w rest ih =>
    intro n hC
    unfold singleFireRun
    cases ht : n.Train w with
    | error e => rfl
    | ok p =>
      obtain ⟨d, n1⟩ := p
      simp only [Bool.and_eq_true, decide_eq_true_eq]
      have hC1 : n1.C = 1 := by
        rw [(train_frame n w d n1 ht).1]
        exact hC
      refine ⟨Or.inr ?_, ih n1 hC1⟩
      intro c1 h1 c2 h2 _ _
      rw [hC] at h1 h2
      have e1 := List.mem_range.1 h1
      have e2 := List.mem_range.1 h2
      have e3 : (1 : Int).toNat = 1 := rfl
      omega

/-- The container that the original simulator finds fired reaches the
threshold in the slot that `Expose` returns. -/
theorem fired_specSum (n : Neuron F) (word : Word) (hc : Consistent n)
    (hcont : ContainersInRange n) (hv : ValidWord n word) (r : Int) (sum1 : List F)
    (he : n.Expose word = .ok (r, { n with sum := sum1 })) (hr : r ≠ kDisabled) (i0 : Nat)
    (hf : origFired n.C n.H sum1 = some i0) :
    n.H ≤ specSum n word (i0 : Int) r + kEpsilon := by
  obtain ⟨r1, sum2, h1, _, _, h4⟩ := expose_spec n word hc hcont hv
  have e := he.symm.trans h1
  simp only [Except.ok.injEq, Prod.mk.injEq] at e
  obtain ⟨er, es⟩ := e
  subst er
  have es1 : sum1 = sum2 := congrArg Neuron.sum es
  subst es1
  obtain ⟨b1, b2, _⟩ := (origFired_spec n.C n.H sum1).2 i0 hf
  rw [← h4 hr i0 b1]
  exact b2

theorem list_ext_getD {α : Type} (d : α) (l1 l2 : List α) (hl : l1.length = l2.length)
    (h : ∀ x : Nat, l1.getD x d = l2.getD x d) : l1 = l2 := by
  apply List.ext_getElem hl
  intro x h1 h2
  have := h x
  rw [List.getD_eq_getElem _ _ h1, List.getD_eq_getElem _ _ h2] at this
  exact this

theorem bool_list_ext (l1 l2 : List Bool) (hl : l1.length = l2.length)
    (h : ∀ x : Nat, l1.getD x false = true ↔ l2.getD x false = true) : l1 = l2 :=
  list_ext_getD false l1 l2 hl fun x => Bool.eq_iff_iff.2 (h x)

theorem getD_mem {α : Type} (l : List α) (x : Nat) (d : α) (h : x < l.length) :
    l.getD x d ∈ l := by
  rw [List.getD_eq_getElem _ _ h]
  exact List.getElem_mem _

/-- When a single container `i0` reaches the threshold in the firing slot,
the synapses that `Train` updates on the sparse copy of a dense word are the
synapses of the container `i0` whose delay and word entry add up to the
firing slot. -/
theorem contributing_dense (n : Neuron F) (w : List Int) (r : Int) (hcons : Consistent n)
    (hcont : ContainersInRange n) (hd : ∀ x ∈ n.delays, 0 ≤ x)
    (hsf : SingleFire n (copy_word n.D1 n.length w) r)
    (hslots : n.D1 + n.D2 ≤ kDisabled) (hw : DenseWord n.length n.D1 w)
    (hff : FirstFire n (copy_word n.D1 n.length w) r) (hr : r ≠ kDisabled) (L : List Int)
    (hL : ∀ s, s ∈ L ↔ s ∈ (contributing n (copy_word n.D1 n.length w) r).map Prod.fst)
    (i0 : Nat) (hi0 : (i0 : Int) < n.C)
    (hfire : n.H ≤ specSum n (copy_word n.D1 n.length w) (i0 : Int) r + kEpsilon) (x : Nat) :
    ((x : Int) < n.length ∧ ∃ s ∈ L, s.toNat = x) ↔
      ((x : Int) < n.length ∧ n.delays.getD x 0 + w.getD x 0 = r ∧
        n.containers.getD x 0 = (i0 : Int)) := by
  obtain ⟨c1, c2, c3, c4, c5⟩ := hcons
  rcases hff with ⟨f1, f2, _, _⟩ | ⟨h, _⟩
  swap
  · exact absurd h hr
  constructor
  · rintro ⟨hx, s, hs, hsx⟩
    obtain ⟨t, m1, m2, m3⟩ := (mem_contributing n _ r s).1 ((hL s).1 hs)
    obtain ⟨i, _, e, _, _⟩ := (copy_word_mem n.D1 n.length w (s, t)).1 m1
    have es : s = (i : Int) := congrArg Prod.fst e
    have et : t = w.getD i 0 := congrArg Prod.snd e
    have hix : i = x := by omega
    subst hix
    have hcr := hcont _ (getD_mem n.containers i 0 (by omega))
    have hca : n.containers_at s = n.containers.getD i 0 := by
      rw [es]
      simp only [Neuron.containers_at, Int.toNat_ofNat]
    rw [hca] at m3
    have hc0 : ((n.containers.getD i 0).toNat : Int) = n.containers.getD i 0 :=
      Int.toNat_of_nonneg hcr.1
    have heq : (n.containers.getD i 0).toNat = i0 :=
      hsf _ (List.mem_range.2 (by omega)) i0 (List.mem_range.2 (by omega))
        (by rw [hc0]; exact m3) hfire
    refine ⟨hx, ?_, by omega⟩
    rw [← et, ← m2, es]
    simp only [Neuron.delays_at, Int.toNat_ofNat]
  · rintro ⟨hx, hal, hci⟩
    refine ⟨hx, (x : Int), (hL _).2 ?_, by simp⟩
    rw [mem_contributing]
    have hwx := hw.2 _ (getD_mem w x 0 (by have := hw.1; omega))
    have hdx := hd _ (getD_mem n.delays x 0 (by omega))
    have hkd : kDisabled = 536870912 := rfl
    have hrange : 0 ≤ w.getD x 0 ∧ w.getD x 0 < n.D1 := by
      rcases hwx with h | h
      · omega
      · exact h
    refine ⟨w.getD x 0, (copy_word_mem _ _ _ _).2 ⟨x, hx, rfl, hrange.1, hrange.2⟩, ?_, ?_⟩
    · simp only [Neuron.delays_at, Int.toNat_ofNat]
      exact hal
    · have : n.containers_at (x : Int) = (i0 : Int) := by
        simp only [Neuron.containers_at, Int.toNat_ofNat]
        exact hci
      rw [this]
      exact hfire

theorem origCleanLoop_spec (frozen : List Bool) :
    ∀ (k i : Nat) (count : Int) (delays : List Int), i + k ≤ frozen.length →
      i + k ≤ delays.length →
      ∃ count1 delays1, origCleanLoop frozen k i (count, delays) = .ok (count1, delays1) ∧
        delays1.length = delays.length ∧
        ∀ j, delays1.getD j 0
          = if (i ≤ j ∧ j < i + k) ∧ frozen.getD j false = false then kDisabled
            else delays.getD j 0 := by
  intro k
  induction k with
  | zero =>
    intro i count delays _ _
    refine ⟨count, delays, rfl, rfl, fun j => ?_⟩
    rw [if_neg (by omega)]
  | succ k ih =>
    intro i count delays h1 h2
    unfold origCleanLoop
    have hi : i < frozen.length := by omega
    have hi2 : i < delays.length := by omega
    simp only [hi, hi2, not_true_eq_false, if_false]
    by_cases hf : frozen.getD i false = true
    · simp only [hf, if_true]
      obtain ⟨c1, d1, e1, e2, e3⟩ := ih (i + 1) (count + 1) delays (by omega) (by omega)
      refine ⟨c1, d1, e1, e2, fun j => ?_⟩
      rw [e3]
      by_cases hj : j = i
      · subst hj
        rw [if_neg (by omega), if_neg (by rw [hf]; simp)]
      · have : (i + 1 ≤ j ∧ j < i + 1 + k) ↔ (i ≤ j ∧ j < i + (k + 1)) := by omega
        simp only [this]
    · have hf1 : frozen.getD i false = false := by simpa using hf
      simp only [hf1, Bool.false_eq_true, if_false]
      obtain ⟨c1, d1, e1, e2, e3⟩ :=
        ih (i + 1) count (delays.set i kDisabled) (by omega) (by rw [List.length_set]; omega)
      refine ⟨c1, d1, e1, by rw [e2, List.length_set], fun j => ?_⟩
      rw [e3]
      by_cases hj : j = i
      · subst hj
        rw [if_neg (by omega), getD_set_self _ _ _ _ hi2, if_pos ⟨by omega, hf1⟩]
      · have : (i + 1 ≤ j ∧ j < i + 1 + k) ↔ (i ≤ j ∧ j < i + (k + 1)) := by omega
        have hne : i ≠ j := fun h => hj h.symm
        simp only [this]
        rw [getD_set_other _ _ _ _ _ hne]

theorem origCountLoop_ok (frozen : List Bool) :
    ∀ (k i : Nat) (count : Int), i + k ≤ frozen.length →
      ∃ count1, origCountLoop frozen k i count = .ok count1 := by
  intro k
  induction k with
  | zero => intro i count _; exact ⟨count, rfl⟩
  | succ k ih =>
    intro i count h1
    unfold origCountLoop
    have hi : i < frozen.length := by omega
    simp only [hi, not_true_eq_false, if_false]
    split
    · exact ih (i + 1) (count + 1) (by omega)
    · exact ih (i + 1) count (by omega)

/-- One training step of the original and of the new atrophy neuron, from
states with the same frozen flags, when the step fires with a single container
at the threshold: the same value is returned and the frozen flags are the same
afterwards. -/
theorem sim_step_plain (o0 : OrigNeuron F) (n0 : Neuron F) (w : List Int)
    (hc : Corresponds o0 n0) (hslots : n0.D1 + n0.D2 ≤ kDisabled)
    (hw : DenseWord n0.length n0.D1 w) (hH : o0.H = n0.H)
    (hone : ∀ i : Nat, (i : Int) < n0.length →
      n0.strength.getD i 0 = 1 ∨ n0.delays.getD i 0 = kDisabled)
    (hla : n0.learn = some .LearnSynapseAtrophy)
    (s : List F) (f : List Bool) (s' : List F)
    (hs : (s.length : Int) = n0.C) (hf : (f.length : Int) = n0.length)
    (hs' : (s'.length : Int) = n0.C)
    (hsf : ∀ d n1,
      ({ n0 with frozen := f, sum := s' } : Neuron F).Train (copy_word n0.D1 n0.length w)
        = .ok (d, n1) → d ≠ kDisabled →
      SingleFire ({ n0 with frozen := f, sum := s' } : Neuron F)
        (copy_word n0.D1 n0.length w) d) :
    ∃ (r : Int) (s1 : List F) (f1 : List Bool) (s1' : List F),
      ({ o0 with sum := s, frozen := f } : OrigNeuron F).train w true
        = .ok (r, { o0 with sum := s1, frozen := f1 }) ∧
      ({ n0 with frozen := f, sum := s' } : Neuron F).Train (copy_word n0.D1 n0.length w)
        = .ok (r, { n0 with frozen := f1, sum := s1' }) ∧
      (s1.length : Int) = n0.C ∧ (f1.length : Int) = n0.length ∧
      (s1'.length : Int) = n0.C := by
  obtain ⟨h1, h2, h3, h4, h5, h6, h7, h8, ⟨c1, c2, c3, c4, c5⟩, hcont, hd⟩ := hc
  obtain ⟨o, ho⟩ : ∃ o : OrigNeuron F, o = { o0 with sum := s, frozen := f } := ⟨_, rfl⟩
  obtain ⟨n, hn⟩ : ∃ n : Neuron F, n = { n0 with frozen := f, sum := s' } := ⟨_, rfl⟩
  have hcons : Consistent n := by rw [hn]; exact ⟨hs', c2, c3, c4, hf⟩
  have hcontn : ContainersInRange n := by rw [hn]; exact hcont
  have hcn : Corresponds o n := by
    rw [ho, hn]
    exact ⟨h1, h2, h3, h4, h5, h6, by rw [← h2] at hs; exact hs, by rw [← h1] at hf; exact hf,
      ⟨hs', c2, c3, c4, hf⟩, hcont, hd⟩
  have hwn : DenseWord n.length n.D1 w := by rw [hn]; exact hw
  have hla1 : n.learn = some .LearnSynapseAtrophy := by rw [hn]; exact hla
  obtain ⟨r, sum1, s1, frozen1, a1, a2, a3, a4, _, a6, a7, a8, a9⟩ :=
    orig_train_plain o n w hcn (by rw [hn]; exact hslots) hwn (by rw [ho, hn]; exact hH)
      (by rw [hn]; exact hone)
  obtain ⟨r', sum1', n2, t1, t2, t3, t4, t5, t6⟩ :=
    train_spec n (copy_word n.D1 n.length w) hcons hcontn (copy_word_valid n w) (Or.inl hla1)
  have e := a1.symm.trans t1
  simp only [Except.ok.injEq, Prod.mk.injEq] at e
  obtain ⟨er, es⟩ := e
  subst er
  have es1 : sum1 = sum1' := congrArg Neuron.sum es
  subst es1
  have hnD : n.D1 = n0.D1 := by rw [hn]
  have hnl : n.length = n0.length := by rw [hn]
  have hnC : n.C = n0.C := by rw [hn]
  have hnf : n.frozen = f := by rw [hn]
  have hof : o.frozen = f := by rw [ho]
  rw [← hn, ← hnD, ← hnl] at hsf
  rw [← ho, ← hn, ← hnD, ← hnl]
  by_cases hr : r = kDisabled
  · refine ⟨r, s1, f, sum1, ?_, ?_, by rw [← hnC]; exact a4, by rw [hnl]; exact hf,
      by rw [← hnC]; exact a3⟩
    · rw [a6, a8 hr, ho]
    · rw [t2, t5 hr, hn]
  · obtain ⟨_, i0, b1, b2⟩ := a9 hr
    obtain ⟨L, u1, u2, u3, u4, u5⟩ := t6 hr
    have hi0 := ((origFired_spec n.C n.H sum1).2 i0 b1).1
    have hfz : n2.frozen = frozen1 := by
      apply bool_list_ext
      · rw [u4, foldl_set_true_length, a7, hnf, hof]
      · intro x
        rw [u4, foldl_set_true_getD, b2, hnf, hof,
          ← contributing_dense n w r hcons hcontn (by rw [hn]; exact hd)
            (hsf r n2 t2 hr) (by rw [hn]; exact hslots) hwn a2 hr L u2 i0 hi0
            (fired_specSum n _ hcons hcontn (copy_word_valid n w) r sum1 t1 hr i0 b1) x]
        have : x < f.length ↔ (x : Int) < n.length := by rw [hnl]; omega
        rw [this]
    have hst : n2.strength = n0.strength := by rw [u5 hla1, hn]
    refine ⟨r, s1, frozen1, sum1, ?_, ?_, by rw [← hnC]; exact a4, ?_,
      by rw [← hnC]; exact a3⟩
    · rw [a6, ho]
    · rw [t2, u3, hfz, hst, hn]
    · rw [a7, hof, hnl]
      exact hf

/-- The training loops of the original and of the new atrophy neuron return
the same values and end with the same frozen flags, when every step that fires
does so with a single container at the threshold. -/
theorem sim_each_plain (o0 : OrigNeuron F) (n0 : Neuron F)
    (hc : Corresponds o0 n0) (hslots : n0.D1 + n0.D2 ≤ kDisabled)
    (hH : o0.H = n0.H)
    (hone : ∀ i : Nat, (i : Int) < n0.length →
      n0.strength.getD i 0 = 1 ∨ n0.delays.getD i 0 = kDisabled)
    (hla : n0.learn = some .LearnSynapseAtrophy) :
    ∀ (ws : List (List Int)) (s : List F) (f : List Bool) (s' : List F),
      (∀ w ∈ ws, DenseWord n0.length n0.D1 w) →
      (s.length : Int) = n0.C → (f.length : Int) = n0.length → (s'.length : Int) = n0.C →
      singleFireRun (ws.map (copy_word n0.D1 n0.length))
        ({ n0 with frozen := f, sum := s' } : Neuron F) = true →
      ∃ (ds : List Int) (s1 : List F) (f1 : List Bool) (s1' : List F),
        origTrainEach ws ({ o0 with sum := s, frozen := f } : OrigNeuron F)
          = .ok (ds, { o0 with sum := s1, frozen := f1 }) ∧
        trainEach (ws.map (copy_word n0.D1 n0.length))
            ({ n0 with frozen := f, sum := s' } : Neuron F)
          = .ok (ds, { n0 with frozen := f1, sum := s1' }) ∧
        (s1.length : Int) = n0.C ∧ (f1.length : Int) = n0.length ∧
        (s1'.length : Int) = n0.C := by
  intro ws
  induction ws with
  | nil =>
    intro s f s' _ hs hf hs' _
    exact ⟨[], s, f, s', rfl, rfl, hs, hf, hs'⟩
  | cons w rest ih =>
    intro s f s' hw hs hf hs' hrun
    rw [List.map_cons] at hrun
    obtain ⟨r, s1, f1, s1', a1, a2, a3, a4, a5⟩ :=
      sim_step_plain o0 n0 w hc hslots (hw w (List.mem_cons_self _ _)) hH hone hla s f s'
        hs hf hs' (fun d n1 ht hd => (singleFireRun_cons _ _ _ hrun d n1 ht).1 hd)
    obtain ⟨ds, s2, f2, s2', b1, b2, b3, b4, b5⟩ :=
      ih s1 f1 s1' (fun x hx => hw x (List.mem_cons_of_mem _ hx)) a3 a4 a5
        (singleFireRun_cons _ _ _ hrun _ _ a2).2
    refine ⟨r :: ds, s2, f2, s2', ?_, ?_, b3, b4, b5⟩
    · unfold origTrainEach
      rw [a1]
      simp only [b1]
    · rw [List.map_cons]
      unfold trainEach
      rw [a2]
      simp only [b2]

/-- One training step of the original and of the new strength neuron, from
states with the same frozen flags and strengths, when the step fires with a
single container at the threshold: the same value is returned and the frozen
flags and the strengths are the same afterwards. -/
theorem sim_step_strength (o0 : OrigNeuronStrength F) (n0 : Neuron F) (w : List Int)
    (hc : Corresponds o0.toOrigNeuron n0)
    (hslots : n0.D1 + n0.D2 ≤ kDisabled) (hw : DenseWord n0.length n0.D1 w)
    (hH : o0.H = n0.H) (hls : n0.learn = some .LearnSynapseStrength)
    (hg : n0.config.g_m = some o0.G_m)
    (s : List F) (f : List Bool) (st s' : List F)
    (hs : (s.length : Int) = n0.C) (hf : (f.length : Int) = n0.length)
    (hst : (st.length : Int) = n0.length) (hs' : (s'.length : Int) = n0.C)
    (hsf : ∀ d n1,
      ({ n0 with frozen := f, strength := st, sum := s' } : Neuron F).Train
          (copy_word n0.D1 n0.length w) = .ok (d, n1) → d ≠ kDisabled →
      SingleFire ({ n0 with frozen := f, strength := st, sum := s' } : Neuron F)
        (copy_word n0.D1 n0.length w) d) :
    ∃ (r : Int) (s1 : List F) (f1 : List Bool) (st1 s1' : List F),
      ({ o0 with sum := s, frozen := f, strength := st } : OrigNeuronStrength F).train w true
        = .ok (r, { o0 with sum := s1, frozen := f1, strength := st1 }) ∧
      ({ n0 with frozen := f, strength := st, sum := s' } : Neuron F).Train
          (copy_word n0.D1 n0.length w)
        = .ok (r, { n0 with frozen := f1, strength := st1, sum := s1' }) ∧
      (s1.length : Int) = n0.C ∧ (f1.length : Int) = n0.length ∧
      (st1.length : Int) = n0.length ∧ (s1'.length : Int) = n0.C := by
  obtain ⟨h1, h2, h3, h4, h5, h6, h7, h8, ⟨c1, c2, c3, c4, c5⟩, hcont, hd⟩ := hc
  obtain ⟨o, ho⟩ : ∃ o : OrigNeuronStrength F,
      o = { o0 with sum := s, frozen := f, strength := st } := ⟨_, rfl⟩
  obtain ⟨n, hn⟩ : ∃ n : Neuron F, n = { n0 with frozen := f, strength := st, sum := s' } :=
    ⟨_, rfl⟩
  have hcons : Consistent n := by rw [hn]; exact ⟨hs', c2, hst, c4, hf⟩
  have hcontn : ContainersInRange n := by rw [hn]; exact hcont
  have hcn : Corresponds o.toOrigNeuron n := by
    rw [ho, hn]
    exact ⟨h1, h2, h3, h4, h5, h6, by rw [← h2] at hs; exact hs, by rw [← h1] at hf; exact hf,
      ⟨hs', c2, hst, c4, hf⟩, hcont, hd⟩
  have hwn : DenseWord n.length n.D1 w := by rw [hn]; exact hw
  have hls1 : n.learn = some .LearnSynapseStrength := by rw [hn]; exact hls
  have hg1 : n.config.g_m = some o0.G_m := by rw [hn]; exact hg
  have hstr : o.strength = n.strength := by rw [ho, hn]
  have hHn : (if true = true then o.H else o.H_m) = n.H := by
    rw [if_pos rfl, ho, hn]
    exact hH
  obtain ⟨r, sum1, s1, frozen1, strength1, a1, a2, a3, a4, _, a6, a7, a7', a8, a9⟩ :=
    orig_train_strength o n w hcn (by rw [hn]; exact hslots) hwn hstr true hHn
  have a6 := a6 rfl
  obtain ⟨r', sum1', n2, t1, t2, t3, t4, t5, t6⟩ :=
    train_spec n (copy_word n.D1 n.length w) hcons hcontn (copy_word_valid n w)
      (Or.inr ⟨hls1, by rw [hg1]; rfl⟩)
  have e := a1.symm.trans t1
  simp only [Except.ok.injEq, Prod.mk.injEq] at e
  obtain ⟨er, es⟩ := e
  subst er
  have es1 : sum1 = sum1' := congrArg Neuron.sum es
  subst es1
  have hnD : n.D1 = n0.D1 := by rw [hn]
  have hnl : n.length = n0.length := by rw [hn]
  have hnC : n.C = n0.C := by rw [hn]
  have hnf : n.frozen = f := by rw [hn]
  have hof : o.frozen = f := by rw [ho]
  have hnst : n.strength = st := by rw [hn]
  have host : o.strength = st := by rw [ho]
  have hoG : o.G_m = o0.G_m := by rw [ho]
  rw [← hn, ← hnD, ← hnl] at hsf
  rw [← ho, ← hn, ← hnD, ← hnl]
  by_cases hr : r = kDisabled
  · refine ⟨r, s1, f, st, sum1, ?_, ?_, by rw [← hnC]; exact a4, by rw [hnl]; exact hf,
      by rw [hnl]; exact hst, by rw [← hnC]; exact a3⟩
    · rw [a6, (a8 hr).1, (a8 hr).2, ho]
    · rw [t2, t5 hr, hn]
  · obtain ⟨_, i0, b1, b2, b3⟩ := a9 hr
    obtain ⟨L, u1, u2, u3, u4, _⟩ := t6 hr
    have u5 : n2.strength = L.foldl (fun f s => f.set s.toNat o0.G_m) n.strength :=
      updateAll_strength o0.G_m L { n with sum := sum1 } n2 hls1 hg1 u1
    have hi0 := ((origFired_spec n.C n.H sum1).2 i0 b1).1
    have key := contributing_dense n w r hcons hcontn (by rw [hn]; exact hd)
      (hsf r n2 t2 hr) (by rw [hn]; exact hslots) hwn a2 hr L u2 i0 hi0
      (fired_specSum n _ hcons hcontn (copy_word_valid n w) r sum1 t1 hr i0 b1)
    have hfz : n2.frozen = frozen1 := by
      apply bool_list_ext
      · rw [u4, foldl_set_true_length, a7, hnf, hof]
      · intro x
        rw [u4, foldl_set_true_getD, b2, hnf, hof, ← key x]
        have : x < f.length ↔ (x : Int) < n.length := by rw [hnl]; omega
        rw [this]
    have hsz : n2.strength = strength1 := by
      apply list_ext_getD 0
      · rw [u5, foldl_set_length, a7', hnst, host]
      · intro x
        rw [u5, foldl_set_getD, b3, hnst, host, hoG]
        have : x < st.length ↔ (x : Int) < n.length := by rw [hnl]; omega
        by_cases hx : (x : Int) < n.length ∧ ∃ s ∈ L, s.toNat = x
        · rw [if_pos ⟨this.2 hx.1, hx.2⟩, if_pos ((key x).1 hx)]
        · rw [if_neg (fun h => hx ⟨this.1 h.1, h.2⟩), if_neg (fun h => hx ((key x).2 h))]
    refine ⟨r, s1, frozen1, strength1, sum1, ?_, ?_, by rw [← hnC]; exact a4, ?_, ?_,
      by rw [← hnC]; exact a3⟩
    · rw [a6, ho]
    · rw [t2, u3, hfz, hsz, hn]
    · rw [a7, hof, hnl]
      exact hf
    · rw [a7', host, hnl]
      exact hst

/-- The training loops of the original and of the new strength neuron return
the same values and end with the same frozen flags and strengths, when every
step that fires does so with a single container at the threshold. -/
theorem sim_each_strength (o0 : OrigNeuronStrength F) (n0 : Neuron F)
    (hc : Corresponds o0.toOrigNeuron n0)
    (hslots : n0.D1 + n0.D2 ≤ kDisabled) (hH : o0.H = n0.H)
    (hls : n0.learn = some .LearnSynapseStrength) (hg : n0.config.g_m = some o0.G_m) :
    ∀ (ws : List (List Int)) (s : List F) (f : List Bool) (st s' : List F),
      (∀ w ∈ ws, DenseWord n0.length n0.D1 w) →
      (s.length : Int) = n0.C → (f.length : Int) = n0.length →
      (st.length : Int) = n0.length → (s'.length : Int) = n0.C →
      singleFireRun (ws.map (copy_word n0.D1 n0.length))
        ({ n0 with frozen := f, strength := st, sum := s' } : Neuron F) = true →
      ∃ (ds : List Int) (s1 : List F) (f1 : List Bool) (st1 s1' : List F),
        origStrengthTrainEach ws
            ({ o0 with sum := s, frozen := f, strength := st } : OrigNeuronStrength F)
          = .ok (ds, { o0 with sum := s1, frozen := f1, strength := st1 }) ∧
        trainEach (ws.map (copy_word n0.D1 n0.length))
            ({ n0 with frozen := f, strength := st, sum := s' } : Neuron F)
          = .ok (ds, { n0 with frozen := f1, strength := st1, sum := s1' }) ∧
        (s1.length : Int) = n0.C ∧ (f1.length : Int) = n0.length ∧
        (st1.length : Int) = n0.length ∧ (s1'.length : Int) = n0.C := by
  intro ws
  induction ws with
  | nil =>
    intro s f st s' _ hs hf hst hs' _
    exact ⟨[], s, f, st, s', rfl, rfl, hs, hf, hst, hs'⟩
  | cons w rest ih =>
    intro s f st s' hw hs hf hst hs' hrun
    rw [List.map_cons] at hrun
    obtain ⟨r, s1, f1, st1, s1', a1, a2, a3, a4, a5, a6⟩ :=
      sim_step_strength o0 n0 w hc hslots (hw w (List.mem_cons_self _ _)) hH hls hg s f st s'
        hs hf hst hs' (fun d n1 ht hd => (singleFireRun_cons _ _ _ hrun d n1 ht).1 hd)
    obtain ⟨ds, s2, f2, st2, s2', b1, b2, b3, b4, b5, b6⟩ :=
      ih s1 f1 st1 s1' (fun x hx => hw x (List.mem_cons_of_mem _ hx)) a3 a4 a5 a6
        (singleFireRun_cons _ _ _ hrun _ _ a2).2
    refine ⟨r :: ds, s2, f2, st2, s2', ?_, ?_, b3, b4, b5, b6⟩
    · unfold origStrengthTrainEach
      rw [a1]
      simp only [b1]
    · rw [List.map_cons]
      unfold trainEach
      rw [a2]
      simp only [b2]

theorem orig_clean_of_loop (o : OrigNeuron F) (count : Int) (delays1 : List Int)
    (h : origCleanLoop o.frozen o.l.toNat 0 (0, o.delays) = .ok (count, delays1)) :
    ∃ q, o.clean = .ok { o with delays := delays1, Qafter := q } := by
  unfold OrigNeuron.clean
  rw [h]
  exact ⟨_, rfl⟩

theorem orig_strength_clean_of_loop (o : OrigNeuronStrength F) (count : Int)
    (h : origCountLoop o.frozen o.l.toNat 0 0 = .ok count) :
    ∃ q, o.clean = .ok { o with Qafter := q } := by
  unfold OrigNeuronStrength.clean
  rw [h]
  exact ⟨_, rfl⟩

/-- The functions `clean()` of the original neuron and `FinishTraining()` of
the new atrophy neuron, from states with the same delays and frozen flags,
return and leave the same delays and frozen flags. -/
theorem sim_finish_plain (o0 : OrigNeuron F) (n0 : Neuron F) (hc : Corresponds o0 n0)
    (hla : n0.learn = some .LearnSynapseAtrophy) (s1 : List F) (f1 : List Bool) (s1' : List F)
    (hf : (f1.length : Int) = n0.length) :
    ∃ o3 n3, ({ o0 with sum := s1, frozen := f1 } : OrigNeuron F).clean = .ok o3 ∧
      ({ n0 with frozen := f1, sum := s1' } : Neuron F).FinishTraining = .ok n3 ∧
      o3.frozen = n3.frozen ∧ o3.delays = n3.delays := by
  obtain ⟨h1, h2, h3, h4, h5, h6, h7, h8, ⟨c1, c2, c3, c4, c5⟩, hcont, hd⟩ := hc
  obtain ⟨count1, delays1, e1, e2, e3⟩ :=
    origCleanLoop_spec f1 o0.l.toNat 0 0 o0.delays (by omega) (by rw [h5]; omega)
  obtain ⟨q, hq⟩ := orig_clean_of_loop ({ o0 with sum := s1, frozen := f1 } : OrigNeuron F)
    count1 delays1 e1
  obtain ⟨n2, hn2⟩ : ∃ n2 : Neuron F, n2 = { n0 with frozen := f1, sum := s1' } := ⟨_, rfl⟩
  have hnl : n2.length = n0.length := by rw [hn2]
  have hnd : n2.delays = n0.delays := by rw [hn2]
  have hns : n2.strength = n0.strength := by rw [hn2]
  have hnf : n2.frozen = f1 := by rw [hn2]
  have hnla : n2.learn = some .LearnSynapseAtrophy := by rw [hn2]; exact hla
  obtain ⟨g1, g2, g3, g4⟩ :=
    atrophyLoop_spec n2 (by rw [hnd, hns]; omega) n0.length.toNat (by rw [hnd]; omega)
  have hfin := (finishTraining_cases n2).2.2.1 hnla (by rw [hnf, hnl]; exact hf)
  rw [← hn2]
  refine ⟨_, _, hq, hfin, ?_, ?_⟩
  · show f1 = (atrophyFinish n2).frozen
    unfold atrophyFinish
    rw [hnl, g1, hnf]
  · show delays1 = (atrophyFinish n2).delays
    unfold atrophyFinish
    rw [hnl]
    apply list_ext_getD 0
    · rw [e2, g2, hnd, h5]
    · intro j
      rw [e3, (g4 j).1, hnf, hnd, h5, h1]
      have : ((0 ≤ j ∧ j < 0 + n0.length.toNat) ∧ f1.getD j false = false) ↔
          (j < n0.length.toNat ∧ f1.getD j false = false) := by
        constructor
        · rintro ⟨⟨_, a⟩, b⟩
          exact ⟨by omega, b⟩
        · rintro ⟨a, b⟩
          exact ⟨⟨by omega, by omega⟩, b⟩
      simp only [this]

/-- The functions `clean()` of the original strength neuron and
`FinishTraining()` of the new strength neuron, from states with the same
delays, frozen flags and strengths, return and leave them the same. -/
theorem sim_finish_strength (o0 : OrigNeuronStrength F) (n0 : Neuron F)
    (hc : Corresponds o0.toOrigNeuron n0) (hls : n0.learn = some .LearnSynapseStrength)
    (hm : F) (hhm : n0.config.h_m = some hm) (s1 : List F) (f1 : List Bool) (st1 s1' : List F)
    (hf : (f1.length : Int) = n0.length) :
    ∃ o3 n3,
      ({ o0 with sum := s1, frozen := f1, strength := st1 } : OrigNeuronStrength F).clean
        = .ok o3 ∧
      ({ n0 with frozen := f1, strength := st1, sum := s1' } : Neuron F).FinishTraining
        = .ok n3 ∧
      o3.frozen = n3.frozen ∧ o3.delays = n3.delays ∧ o3.strength = n3.strength := by
  obtain ⟨h1, h2, h3, h4, h5, h6, h7, h8, ⟨c1, c2, c3, c4, c5⟩, hcont, hd⟩ := hc
  obtain ⟨count1, e1⟩ := origCountLoop_ok f1 o0.l.toNat 0 0 (by omega)
  obtain ⟨q, hq⟩ := orig_strength_clean_of_loop
    ({ o0 with sum := s1, frozen := f1, strength := st1 } : OrigNeuronStrength F) count1 e1
  have hfin := (finishTraining_cases
    ({ n0 with frozen := f1, strength := st1, sum := s1' } : Neuron F)).2.2.2.2 hm hls hf hhm
  exact ⟨_, _, hq, hfin, rfl, h5, rfl⟩

theorem addSample_ok_iff (v : F) (s s1 : Statistic F) :
    AddSample v s = .ok s1 ↔
      checkValues s ∧ checkSums s ∧ s.count + 1 ≤ int32Max ∧
      s1 = { count_ := some (s.count + 1)
             sum_ := some (s.sum + v)
             ssum_ := some (s.ssum + v * v)
             values_ :=
               if ¬ s.has_count = true ∨ s.count = 0 ∨ s.count = s.values_size then
                 s.values_ ++ [v]
               else s.values_ } := by
  unfold AddSample
  by_cases h1 : checkValues s
  · by_cases h2 : checkSums s
    · by_cases h3 : int32Max < s.count + 1
      · simp only [h1, h2, h3, not_true_eq_false, if_false, if_true, true_and]
        constructor
        · intro h
          exact absurd h (by simp)
        · rintro ⟨h, _⟩
          omega
      · simp only [h1, h2, h3, not_true_eq_false, if_false, true_and, Except.ok.injEq]
        constructor
        · intro h
          exact ⟨by omega, h.symm⟩
        · rintro ⟨_, h⟩
          exact h.symm
    · simp only [h1, h2, not_true_eq_false, not_false_eq_true, if_false, if_true, true_and,
        false_and, iff_false]
      simp
  · simp only [h1, not_false_eq_true, if_true, false_and, iff_false]
    simp

/-- The failures of `AddSample`: a failed `CHECK`, or the overflow of the
count. -/
theorem addSample_error (v : F) (s : Statistic F) (e : Fault) :
    AddSample v s = .error e →
      (e = .check ∧ ¬ (checkValues s ∧ checkSums s)) ∨
      (e = .undefined ∧ checkValues s ∧ checkSums s ∧ int32Max < s.count + 1) := by
  unfold AddSample
  intro h
  by_cases h1 : checkValues s
  · by_cases h2 : checkSums s
    · by_cases h3 : int32Max < s.count + 1
      · simp only [h1, h2, h3, not_true_eq_false, if_false, if_true, Except.error.injEq] at h
        exact Or.inr ⟨h.symm, h1, h2, h3⟩
      · simp [h1, h2, h3] at h
    · simp only [h1, h2, not_true_eq_false, not_false_eq_true, if_false, if_true,
        Except.error.injEq] at h
      exact Or.inl ⟨h.symm, fun hh => h2 hh.2⟩
  · simp only [h1, not_false_eq_true, if_true, Except.error.injEq] at h
    exact Or.inl ⟨h.symm, fun hh => h1 hh.1⟩

/-- The samples added to a statistic that holds the complete list of its
`c > 0` samples. -/
theorem addSamples_complete (vs : List F) :
    ∀ (c : Int) (x y : F) (vals : List F), 0 < c → c = (vals.length : Int) → c ≤ int32Max →
      addSamples vs ⟨some c, some x, some y, vals⟩
        = if c + (vs.length : Int) ≤ int32Max then
            .ok ⟨some (c + (vs.length : Int)), some (vs.foldl (fun a v => a + v) x),
              some (vs.foldl (fun a v => a + v * v) y), vals ++ vs⟩
          else .error .undefined := by
  induction vs with
  | nil =>
    intro c x y vals _ _ hmax
    simp only [addSamples, List.length_nil, Nat.cast_zero, add_zero, hmax, if_true,
      List.foldl_nil, List.append_nil]
  | cons v rest ih =>
    intro c x y vals hc hlen hmax
    have hcv : checkValues (⟨some c, some x, some y, vals⟩ : Statistic F) :=
      Or.inr ⟨rfl, Or.inr hlen⟩
    have hcs : checkSums (⟨some c, some x, some y, vals⟩ : Statistic F) :=
      Or.inr (Or.inr ⟨hc, rfl, rfl⟩)
    unfold addSamples
    by_cases h3 : c + 1 ≤ int32Max
    · have e : AddSample v (⟨some c, some x, some y, vals⟩ : Statistic F)
          = .ok ⟨some (c + 1), some (x + v), some (y + v * v), vals ++ [v]⟩ := by
        rw [addSample_ok_iff]
        refine ⟨hcv, hcs, h3, ?_⟩
        have : (⟨some c, some x, some y, vals⟩ : Statistic F).count
            = (⟨some c, some x, some y, vals⟩ : Statistic F).values_size := hlen
        rw [if_pos (Or.inr (Or.inr this))]
        rfl
      rw [e]
      simp only []
      rw [ih (c + 1) (x + v) (y + v * v) (vals ++ [v]) (by omega)
        (by rw [List.length_append]; simp only [List.length_singleton]; push_cast; omega) h3]
      have e1 : c + 1 + (rest.length : Int) = c + ((v :: rest).length : Int) := by
        rw [List.length_cons]; push_cast; omega
      rw [e1, List.append_assoc]
      rfl
    · have e : AddSample v (⟨some c, some x, some y, vals⟩ : Statistic F)
          = .error .undefined := by
        unfold AddSample
        have h4 : int32Max < (⟨some c, some x, some y, vals⟩ : Statistic F).count + 1 := by
          show int32Max < c + 1
          omega
        simp only [hcv, hcs, h4, not_true_eq_false, if_false, if_true]
      rw [e]
      have : ¬ (c + ((v :: rest).length : Int) ≤ int32Max) := by
        rw [List.length_cons]; push_cast; omega
      simp only [this, if_false]

/-- The samples added to an empty statistic. -/
theorem addSamples_empty (v : F) (rest : List F) :
    addSamples (v :: rest) Statistic.empty
      = if (((v :: rest).length : Nat) : Int) ≤ int32Max then
          .ok ⟨some (((v :: rest).length : Nat) : Int), some ((v :: rest).foldl (fun a v => a + v) 0),
            some ((v :: rest).foldl (fun a v => a + v * v) 0), v :: rest⟩
        else .error .undefined := by
  have e : AddSample v (Statistic.empty : Statistic F)
      = .ok ⟨some 1, some (0 + v), some (0 + v * v), [v]⟩ := by
    rw [addSample_ok_iff]
    refine ⟨Or.inl ⟨by simp [Statistic.has_count, Statistic.empty], rfl⟩,
      Or.inl (by simp [Statistic.has_count, Statistic.empty]),
      by simp [Statistic.count, Statistic.empty, int32Max], ?_⟩
    simp [Statistic.has_count, Statistic.empty, Statistic.count, Statistic.sum,
      Statistic.ssum]
  unfold addSamples
  rw [e]
  simp only []
  rw [addSamples_complete rest 1 (0 + v) (0 + v * v) [v] (by decide) rfl (by decide)]
  have e1 : (1 : Int) + (rest.length : Int) = (((v :: rest).length : Nat) : Int) := by
    rw [List.length_cons]; push_cast; omega
  rw [e1]
  rfl

theorem mean_of_present (c : Int) (x y : F) (vals : List F) (hc : 0 < c)
    (hv : vals = [] ∨ c = (vals.length : Int)) :
    Mean (⟨some c, some x, some y, vals⟩ : Statistic F) = .ok (x / DoubleModel.ofInt c) := by
  have hcv : checkValues (⟨some c, some x, some y, vals⟩ : Statistic F) := by
    rcases hv with h | h
    · exact Or.inr ⟨rfl, Or.inl (by simp [Statistic.values_size, h])⟩
    · exact Or.inr ⟨rfl, Or.inr h⟩
  have hcs : checkSums (⟨some c, some x, some y, vals⟩ : Statistic F) :=
    Or.inr (Or.inr ⟨hc, rfl, rfl⟩)
  unfold Mean
  have h3 : (⟨some c, some x, some y, vals⟩ : Statistic F).has_count = true ∧
      (⟨some c, some x, some y, vals⟩ : Statistic F).has_sum = true ∧
      0 < (⟨some c, some x, some y, vals⟩ : Statistic F).count := ⟨rfl, rfl, hc⟩
  simp only [hcv, hcs, h3, not_true_eq_false, if_false, and_self, if_true]
  rfl

/-- C21: whenever the calls `AddSample(v_1)`, ..., `AddSample(v_n)` on an
empty `Statistic` return, for a non-empty sequence, `count` is present and is
`n`, `sum` is present and is `v_1 + ... + v_n` (added in this order, starting
from the `0.0` of the empty statistic), `ssum` is present and is the sum of
the squares added in the same way, the retained list of values is
`[v_1, ..., v_n]`, and `Mean` returns `sum / n`.  The calls return exactly when
`n` is an `int32` value (`n <= 2^31 - 1`); with more samples the `int32`
increment of the count overflows.  `Mean` of a statistic with no samples
returns `-1`. -/
theorem c21_add_sample_mean (vs : List F) :
    (vs ≠ [] → ∀ s, addSamples vs Statistic.empty = .ok s →
      s.has_count = true ∧ s.count = (vs.length : Int) ∧
      s.has_sum = true ∧ s.sum = vs.foldl (fun a v => a + v) 0 ∧
      s.has_ssum = true ∧ s.ssum = vs.foldl (fun a v => a + v * v) 0 ∧
      s.values_ = vs ∧
      Mean s = .ok (vs.foldl (fun a v => a + v) 0 / DoubleModel.ofInt (vs.length : Int))) ∧
    ((∃ s, addSamples vs Statistic.empty = .ok s) ↔ (vs.length : Int) ≤ 2147483647) ∧
    Mean (Statistic.empty : Statistic F) = .ok (-1) := by
  refine ⟨fun hne s hs => ?_, ?_, ?_⟩
  · obtain ⟨v, rest, rfl⟩ := List.exists_cons_of_ne_nil hne
    rw [addSamples_empty] at hs
    split at hs
    · simp only [Except.ok.injEq] at hs
      subst hs
      refine ⟨rfl, rfl, rfl, rfl, rfl, rfl, rfl, ?_⟩
      exact mean_of_present _ _ _ _ (by rw [List.length_cons]; push_cast; omega) (Or.inr rfl)
    · exact absurd hs (by simp)
  · cases vs with
    | nil =>
      constructor
      · intro _
        simp
      · intro _
        exact ⟨_, rfl⟩
    | cons v rest =>
      rw [addSamples_empty]
      constructor
      · rintro ⟨s, hs⟩
        split at hs
        · rename_i h
          exact h
        · exact absurd hs (by simp)
      · intro h
        have h1 : (((v :: rest).length : Nat) : Int) ≤ int32Max := h
        rw [if_pos h1]
        exact ⟨_, rfl⟩
  · unfold Mean
    have hcv : checkValues (Statistic.empty : Statistic F) :=
      Or.inl ⟨by simp [Statistic.has_count, Statistic.empty], rfl⟩
    have hcs : checkSums (Statistic.empty : Statistic F) :=
      Or.inl (by simp [Statistic.has_count, Statistic.empty])
    have h3 : ¬ ((Statistic.empty : Statistic F).has_count = true ∧
        (Statistic.empty : Statistic F).has_sum = true ∧
        0 < (Statistic.empty : Statistic F).count) := by
      simp [Statistic.has_count, Statistic.empty]
    simp only [hcv, hcs, h3, not_true_eq_false, if_false]

/-- C21 on the samples 3, 4, 5: count 3, sum 12, sum of squares 50, mean 4. -/
theorem c21_add_sample_mean_witness :
    exampleSamples ≠ [] ∧ addSamples exampleSamples Statistic.empty = .ok exampleStatistic ∧
      exampleStatistic.count = 3 ∧ exampleStatistic.values_ = [3, 4, 5] ∧
      Mean exampleStatistic = .ok 4 :=
  ⟨by decide, by decide!, by decide,
    ((c21_add_sample_mean exampleSamples).1 (by decide) exampleStatistic (by decide!)).2.2.2.2.2.2.1,
    by decide!⟩

/-- The product `count * (count - 1)` fits in `int32` exactly up to
`count = 46341`. -/
theorem count_product_bound (c : Int) (h1 : 1 < c) :
    int32Max < c * (c - 1) ↔ 46342 ≤ c := by
  unfold int32Max
  constructor
  · intro h
    by_contra hc
    have h2 : c ≤ 46341 := by omega
    nlinarith
  · intro h
    nlinarith

theorem stddev_of_checks (g : F → F) (t : Statistic F) (hcv : checkValues t)
    (hcs : checkSums t) (hc : 1 < t.count) :
    Stddev g t
      = if int32Max < t.count * (t.count - 1) then .error .undefined
        else .ok (if 0 ≤ (DoubleModel.ofInt t.count * t.ssum + -(t.sum * t.sum))
                  / DoubleModel.ofInt (t.count * (t.count - 1))
             then g ((DoubleModel.ofInt t.count * t.ssum + -(t.sum * t.sum))
                  / DoubleModel.ofInt (t.count * (t.count - 1)))
             else 0) := by
  have hp : t.has_count = true ∧ 1 < t.count ∧ t.has_sum = true ∧ t.has_ssum = true := by
    rcases hcs with h | h | ⟨_, h1, h2⟩
    · have : t.count = 0 := by
        unfold Statistic.has_count at h
        unfold Statistic.count
        cases hh : t.count_ with
        | none => rfl
        | some c => rw [hh] at h; simp at h
      omega
    · omega
    · refine ⟨?_, hc, h1, h2⟩
      unfold Statistic.has_count
      unfold Statistic.count at hc
      cases hh : t.count_ with
      | none => rw [hh] at hc; simp at hc
      | some c => rfl
  unfold Stddev
  simp only [hcv, hcs, hp, not_true_eq_false, if_false, and_self, if_true]

/-- C22: `Stddev` computes the divisor `count * (count - 1)` in `int32`
before converting it to `double`, and the product leaves the `int32` range
from `count = 46342` on, far below the `2^31 - 1` of the claim.  For a
statistic that passes the two checks: with `1 < count <= 46341` the result is
`sqrt(v)` for `v = (count * ssum - sum * sum) / (count * (count - 1))`, or 0
when `v` is negative; with `count <= 1` (or no count) it is `-1`; with
`count >= 46342` the multiplication overflows.  The samples 3, 4, 5 give
`sqrt(1)`, a single sample gives `-1`, and on `wideStatistic` (count 65536, sum
0, sum of squares 65536) the product overflows; its two's complement value is
`-65536`, which makes `v` negative. -/
theorem c22_stddev_overflow (sqrt : F → F) (s : Statistic F) :
    (checkValues s → checkSums s → 1 < s.count → s.count ≤ 46341 →
      Stddev sqrt s
        = .ok (if 0 ≤ (DoubleModel.ofInt s.count * s.ssum + -(s.sum * s.sum))
                    / DoubleModel.ofInt (s.count * (s.count - 1))
               then sqrt ((DoubleModel.ofInt s.count * s.ssum + -(s.sum * s.sum))
                    / DoubleModel.ofInt (s.count * (s.count - 1)))
               else 0)) ∧
    (checkValues s → checkSums s → s.count ≤ 1 → Stddev sqrt s = .ok (-1)) ∧
    (checkValues s → checkSums s → 46342 ≤ s.count → Stddev sqrt s = .error .undefined) ∧
    (∀ f : ℚ → ℚ, Stddev f exampleStatistic = .ok (f 1)) ∧
    (∀ f : ℚ → ℚ, Stddev f singleStatistic = .ok (-1)) ∧
    (∀ f : ℚ → ℚ, Stddev f wideStatistic = .error .undefined) ∧
    checkValues wideStatistic ∧ checkSums wideStatistic ∧
    wideStatistic.count ≤ 2147483647 ∧
    toInt32 (toUInt32 (wideStatistic.count * (wideStatistic.count - 1))) = -65536 ∧
    ((wideStatistic.count : ℚ) * wideStatistic.ssum + -(wideStatistic.sum * wideStatistic.sum))
      / ((-65536 : Int) : ℚ) < 0 := by
  refine ⟨fun hcv hcs h1 h2 => ?_, fun hcv hcs h1 => ?_, fun hcv hcs h1 => ?_,
    fun f => ?_, fun f => ?_, fun f => ?_, by decide, by decide, by decide, by decide,
    by decide!⟩
  · rw [stddev_of_checks sqrt s hcv hcs h1, if_neg]
    rw [count_product_bound _ h1]
    omega
  · unfold Stddev
    have hn : ¬ (s.has_count = true ∧ 1 < s.count ∧ s.has_sum = true ∧ s.has_ssum = true) :=
      fun h => by omega
    simp only [hcv, hcs, hn, not_true_eq_false, if_false]
  · rw [stddev_of_checks sqrt s hcv hcs (by omega), if_pos]
    rw [count_product_bound _ (by omega)]
    exact h1
  · rw [stddev_of_checks f exampleStatistic (by decide) (by decide) (by decide)]
    have e : (if 0 ≤ ((DoubleModel.ofInt exampleStatistic.count : ℚ) * exampleStatistic.ssum
          + -(exampleStatistic.sum * exampleStatistic.sum))
          / DoubleModel.ofInt (exampleStatistic.count * (exampleStatistic.count - 1))
        then f (((DoubleModel.ofInt exampleStatistic.count : ℚ) * exampleStatistic.ssum
          + -(exampleStatistic.sum * exampleStatistic.sum))
          / DoubleModel.ofInt (exampleStatistic.count * (exampleStatistic.count - 1)))
        else 0) = f 1 := by
      have e1 : ((DoubleModel.ofInt exampleStatistic.count : ℚ) * exampleStatistic.ssum
          + -(exampleStatistic.sum * exampleStatistic.sum))
          / DoubleModel.ofInt (exampleStatistic.count * (exampleStatistic.count - 1)) = 1 := by
        decide!
      rw [e1, if_pos (by norm_num)]
    rw [e, if_neg (by decide)]
  · unfold Stddev
    have hn : ¬ (singleStatistic.has_count = true ∧ 1 < singleStatistic.count ∧
        singleStatistic.has_sum = true ∧ singleStatistic.has_ssum = true) := by decide
    have h1 : checkValues singleStatistic := by decide
    have h2 : checkSums singleStatistic := by decide
    simp only [h1, h2, hn, not_true_eq_false, if_false]
  · rw [stddev_of_checks f wideStatistic (by decide) (by decide) (by decide), if_pos (by decide)]

theorem count_of_no_count (s : Statistic F) (h : ¬ s.has_count = true) : s.count = 0 := by
  unfold Statistic.has_count at h
  unfold Statistic.count
  cases hh : s.count_ with
  | none => rfl
  | some c => rw [hh] at h; simp at h

theorem has_count_of_pos (s : Statistic F) (h : 0 < s.count) : s.has_count = true := by
  by_contra hn
  have := count_of_no_count s hn
  omega

theorem count_nonneg_of_checkSums (s : Statistic F) (h : checkSums s) : 0 ≤ s.count := by
  rcases h with h | h | ⟨h, _⟩
  · rw [count_of_no_count s h]
  · omega
  · omega

theorem values_nil_of_size (s : Statistic F) (h : s.values_size = 0) : s.values_ = [] := by
  unfold Statistic.values_size at h
  exact List.length_eq_zero.1 (by omega)

theorem plusCount_spec (a b c : Option Int) (h : plusCount a b = .ok c) :
    c.getD 0 = a.getD 0 + b.getD 0 ∧ c.isSome = (a.isSome || b.isSome) ∧
      (a.isSome = true → b.isSome = true → a.getD 0 + b.getD 0 ≤ int32Max) := by
  cases a with
  | none =>
    cases b with
    | none =>
      simp only [plusCount, Except.ok.injEq] at h
      subst h
      simp
    | some y =>
      simp only [plusCount, Except.ok.injEq] at h
      subst h
      simp
  | some x =>
    cases b with
    | none =>
      simp only [plusCount, Except.ok.injEq] at h
      subst h
      simp
    | some y =>
      simp only [plusCount] at h
      split at h
      · exact absurd h (by simp)
      · rename_i hn
        simp only [Except.ok.injEq] at h
        subst h
        simp only [Option.getD_some, Option.isSome_some, Bool.or_self, true_and, forall_const]
        omega

theorem plusCount_ok (a b : Option Int) (ha : 0 ≤ a.getD 0) (hb : 0 ≤ b.getD 0)
    (h : a.getD 0 + b.getD 0 ≤ int32Max) : ∃ c, plusCount a b = .ok c := by
  cases a with
  | none =>
    cases b with
    | none => exact ⟨_, rfl⟩
    | some y => exact ⟨_, rfl⟩
  | some x =>
    cases b with
    | none => exact ⟨_, rfl⟩
    | some y =>
      simp only [Option.getD_some] at ha hb h
      have hn : ¬ (int32Max < x + y ∨ x + y < -2147483648) := by
        unfold int32Max at h ⊢
        omega
      exact ⟨some (x + y), by simp only [plusCount, hn, if_false]⟩

theorem plusValue_spec (a b : Option F) :
    (a.isSome = true → b.isSome = true →
      (plusValue a b).isSome = true ∧ (plusValue a b).getD 0 = a.getD 0 + b.getD 0) ∧
    (a.isSome = false → plusValue a b = b) ∧ (b.isSome = false → plusValue a b = a) ∧
    (plusValue a b).isSome = (a.isSome || b.isSome) := by
  cases a <;> cases b <;> simp [plusValue]

theorem plusAssign_ok_iff (a b r : Statistic F) :
    a.plusAssign b = .ok r ↔
      checkValues a ∧ checkValues b ∧ checkSums a ∧ checkSums b ∧
      ∃ c, plusCount a.count_ b.count_ = .ok c ∧
        r = { count_ := c
              sum_ := plusValue a.sum_ b.sum_
              ssum_ := plusValue a.ssum_ b.ssum_
              values_ :=
                if a.has_count = true ∧ 0 < a.count ∧ b.has_count = true ∧ 0 < b.count ∧
                    (a.count ≠ a.values_size ∨ b.count ≠ b.values_size) then []
                else a.values_ ++ b.values_ } := by
  unfold Statistic.plusAssign
  by_cases h1 : checkValues a
  swap
  · simp [h1]
  by_cases h2 : checkValues b
  swap
  · simp [h1, h2]
  by_cases h3 : checkSums a
  swap
  · simp [h1, h2, h3]
  by_cases h4 : checkSums b
  swap
  · simp [h1, h2, h3, h4]
  simp only [h1, h2, h3, h4, not_true_eq_false, if_false, true_and]
  cases hc : plusCount a.count_ b.count_ with
  | error e => simp
  | ok c =>
    simp only [Except.ok.injEq, exists_eq_left']
    exact eq_comm

/-- The failures of `operator+=`: a failed `CHECK`, or the overflow of the
count. -/
theorem plusAssign_error (a b : Statistic F) (e : Fault) (h : a.plusAssign b = .error e) :
    (e = .check ∧ ¬ (checkValues a ∧ checkValues b ∧ checkSums a ∧ checkSums b)) ∨
    (e = .undefined ∧ checkValues a ∧ checkValues b ∧ checkSums a ∧ checkSums b) := by
  unfold Statistic.plusAssign at h
  by_cases h1 : checkValues a
  swap
  · simp only [h1, not_false_eq_true, if_true, Except.error.injEq] at h
    exact Or.inl ⟨h.symm, fun hh => h1 hh.1⟩
  by_cases h2 : checkValues b
  swap
  · simp only [h1, h2, not_true_eq_false, not_false_eq_true, if_false, if_true,
      Except.error.injEq] at h
    exact Or.inl ⟨h.symm, fun hh => h2 hh.2.1⟩
  by_cases h3 : checkSums a
  swap
  · simp only [h1, h2, h3, not_true_eq_false, not_false_eq_true, if_false, if_true,
      Except.error.injEq] at h
    exact Or.inl ⟨h.symm, fun hh => h3 hh.2.2.1⟩
  by_cases h4 : checkSums b
  swap
  · simp only [h1, h2, h3, h4, not_true_eq_false, not_false_eq_true, if_false, if_true,
      Except.error.injEq] at h
    exact Or.inl ⟨h.symm, fun hh => h4 hh.2.2.2⟩
  simp only [h1, h2, h3, h4, not_true_eq_false, if_false] at h
  refine Or.inr ⟨?_, h1, h2, h3, h4⟩
  cases hx : a.count_ with
  | none =>
    cases hy : b.count_ with
    | none => rw [hx, hy] at h; simp [plusCount] at h
    | some y => rw [hx, hy] at h; simp [plusCount] at h
  | some x =>
    cases hy : b.count_ with
    | none => rw [hx, hy] at h; simp [plusCount] at h
    | some y =>
      rw [hx, hy] at h
      by_cases hov : int32Max < x + y ∨ x + y < -2147483648
      · simp only [plusCount, hov, if_true, Except.error.injEq] at h
        exact h.symm
      · simp [plusCount, hov] at h

/-- The list of values after `operator+=`, for operands that pass the
checks. -/
theorem plusAssign_values (a b : Statistic F) (h1 : checkValues a) (h2 : checkValues b)
    (h3 : checkSums a) (h4 : checkSums b) :
    (a.complete → b.complete →
      (if a.has_count = true ∧ 0 < a.count ∧ b.has_count = true ∧ 0 < b.count ∧
          (a.count ≠ a.values_size ∨ b.count ≠ b.values_size) then ([] : List F)
        else a.values_ ++ b.values_) = a.values_ ++ b.values_) ∧
    (¬ (a.complete ∧ b.complete) →
      (if a.has_count = true ∧ 0 < a.count ∧ b.has_count = true ∧ 0 < b.count ∧
          (a.count ≠ a.values_size ∨ b.count ≠ b.values_size) then ([] : List F)
        else a.values_ ++ b.values_) = []) := by
  have key : ∀ s : Statistic F, checkValues s → checkSums s →
      (¬ s.complete → s.has_count = true ∧ 0 < s.count ∧ s.values_ = []) ∧
      (s.count = 0 → s.values_ = []) := by
    intro s hv hs
    have hnn := count_nonneg_of_checkSums s hs
    constructor
    · intro hc
      unfold Statistic.complete at hc
      rcases hv with ⟨hn, hz⟩ | ⟨hp, hz | he⟩
      · exfalso
        apply hc
        rw [count_of_no_count s hn, hz]
      · have hne : s.count ≠ 0 := fun h0 => hc (by rw [h0, hz])
        exact ⟨hp, by omega, values_nil_of_size s hz⟩
      · exact absurd he hc
    · intro h0
      rcases hv with ⟨_, hz⟩ | ⟨_, hz | he⟩
      · exact values_nil_of_size s hz
      · exact values_nil_of_size s hz
      · exact values_nil_of_size s (by rw [← he, h0])
  obtain ⟨ka1, ka2⟩ := key a h1 h3
  obtain ⟨kb1, kb2⟩ := key b h2 h4
  constructor
  · intro ca cb
    rw [if_neg]
    rintro ⟨_, _, _, _, h | h⟩
    · exact h ca
    · exact h cb
  · intro hn
    by_cases hcond : a.has_count = true ∧ 0 < a.count ∧ b.has_count = true ∧ 0 < b.count ∧
        (a.count ≠ a.values_size ∨ b.count ≠ b.values_size)
    · rw [if_pos hcond]
    · rw [if_neg hcond]
      have hna := count_nonneg_of_checkSums a h3
      have hnb := count_nonneg_of_checkSums b h4
      by_cases ca : a.complete
      · have cb : ¬ b.complete := fun cb => hn ⟨ca, cb⟩
        obtain ⟨b1, b2, b3⟩ := kb1 cb
        have ha0 : a.count = 0 := by
          by_contra hne
          exact hcond ⟨has_count_of_pos a (by omega), by omega, b1, b2, Or.inr cb⟩
        rw [ka2 ha0, b3]
        rfl
      · obtain ⟨a1, a2, a3⟩ := ka1 ca
        have hb0 : b.count = 0 := by
          by_contra hne
          exact hcond ⟨a1, a2, has_count_of_pos b (by omega), by omega, Or.inl ca⟩
        rw [a3, kb2 hb0]
        rfl

/-- When `operator+=` returns, for counts that are `int32` values. -/
theorem plusAssign_returns (a b : Statistic F) (hamax : a.count ≤ 2147483647)
    (hbmax : b.count ≤ 2147483647) :
    (∃ r, a.plusAssign b = .ok r) ↔
      checkValues a ∧ checkValues b ∧ checkSums a ∧ checkSums b ∧
      a.count + b.count ≤ 2147483647 := by
  constructor
  · rintro ⟨r, hr⟩
    rw [plusAssign_ok_iff] at hr
    obtain ⟨h1, h2, h3, h4, c, hc, _⟩ := hr
    refine ⟨h1, h2, h3, h4, ?_⟩
    obtain ⟨_, _, c3⟩ := plusCount_spec _ _ _ hc
    by_cases ha : a.has_count = true
    · by_cases hb : b.has_count = true
      · exact c3 ha hb
      · rw [count_of_no_count b hb, add_zero]
        exact hamax
    · rw [count_of_no_count a ha, zero_add]
      exact hbmax
  · rintro ⟨h1, h2, h3, h4, h5⟩
    obtain ⟨c, hc⟩ := plusCount_ok a.count_ b.count_ (count_nonneg_of_checkSums a h3)
      (count_nonneg_of_checkSums b h4) h5
    exact ⟨_, (plusAssign_ok_iff a b _).2 ⟨h1, h2, h3, h4, c, hc, rfl⟩⟩

/-- C23: whenever `a += b` returns, the count of the result is the sum of the
counts (an absent count reading as 0) and is present when one of them is; its
`sum` is `a.sum + b.sum` when both are present, the one that is present when
only one is, and absent when none is, and likewise for `ssum`; its list of
values is `a.values` followed by `b.values` when both lists are complete, and
empty otherwise.  It returns exactly when both operands pass the two `CHECK`s
and the sum of the counts is an `int32` value.  `a + b` is `a += b` on a copy
of `a`.  The empty statistic is a left and a right identity on the statistics
that pass the checks. -/
theorem c23_statistic_combine (a b : Statistic F) :
    (∀ r, a.plusAssign b = .ok r →
      r.count = a.count + b.count ∧
      r.has_count = (a.has_count || b.has_count) ∧
      (a.has_sum = true → b.has_sum = true → r.has_sum = true ∧ r.sum = a.sum + b.sum) ∧
      (a.has_sum = false → r.sum_ = b.sum_) ∧ (b.has_sum = false → r.sum_ = a.sum_) ∧
      (a.has_ssum = true → b.has_ssum = true →
        r.has_ssum = true ∧ r.ssum = a.ssum + b.ssum) ∧
      (a.has_ssum = false → r.ssum_ = b.ssum_) ∧ (b.has_ssum = false → r.ssum_ = a.ssum_) ∧
      (a.complete → b.complete → r.values_ = a.values_ ++ b.values_) ∧
      (¬ (a.complete ∧ b.complete) → r.values_ = [])) ∧
    (a.count ≤ 2147483647 → b.count ≤ 2147483647 →
      ((∃ r, a.plusAssign b = .ok r) ↔
        checkValues a ∧ checkValues b ∧ checkSums a ∧ checkSums b ∧
        a.count + b.count ≤ 2147483647)) ∧
    a.plus b = a.plusAssign b ∧
    (checkValues a → checkSums a →
      Statistic.empty.plus a = .ok a ∧ a.plus Statistic.empty = .ok a ∧
      Statistic.empty.plusAssign a = .ok a ∧ a.plusAssign Statistic.empty = .ok a) := by
  refine ⟨fun r hr => ?_, fun hamax hbmax => ?_, rfl, fun hv hs => ?_⟩
  · rw [plusAssign_ok_iff] at hr
    obtain ⟨h1, h2, h3, h4, c, hc, rfl⟩ := hr
    obtain ⟨c1, c2, _⟩ := plusCount_spec _ _ _ hc
    obtain ⟨s1, s2, s3, _⟩ := plusValue_spec a.sum_ b.sum_
    obtain ⟨t1, t2, t3, _⟩ := plusValue_spec a.ssum_ b.ssum_
    obtain ⟨v1, v2⟩ := plusAssign_values a b h1 h2 h3 h4
    exact ⟨c1, c2, s1, s2, s3, t1, t2, t3, v1, v2⟩
  · exact plusAssign_returns a b hamax hbmax
  · have he1 : checkValues (Statistic.empty : Statistic F) :=
      Or.inl ⟨by simp [Statistic.has_count, Statistic.empty], rfl⟩
    have he2 : checkSums (Statistic.empty : Statistic F) :=
      Or.inl (by simp [Statistic.has_count, Statistic.empty])
    have l : Statistic.empty.plusAssign a = .ok a := by
      rw [plusAssign_ok_iff]
      refine ⟨he1, hv, he2, hs, a.count_, ?_, ?_⟩
      · show plusCount none a.count_ = _
        cases a.count_ <;> rfl
      · have hn : ¬ ((Statistic.empty : Statistic F).has_count = true ∧
            0 < (Statistic.empty : Statistic F).count ∧ a.has_count = true ∧ 0 < a.count ∧
            ((Statistic.empty : Statistic F).count ≠ (Statistic.empty : Statistic F).values_size ∨
              a.count ≠ a.values_size)) := by
          simp [Statistic.has_count, Statistic.empty]
        rw [if_neg hn]
        have e1 : plusValue (Statistic.empty : Statistic F).sum_ a.sum_ = a.sum_ :=
          (plusValue_spec _ _).2.1 rfl
        have e2 : plusValue (Statistic.empty : Statistic F).ssum_ a.ssum_ = a.ssum_ :=
          (plusValue_spec _ _).2.1 rfl
        rw [e1, e2]
        rfl
    have r : a.plusAssign Statistic.empty = .ok a := by
      rw [plusAssign_ok_iff]
      refine ⟨hv, he1, hs, he2, a.count_, ?_, ?_⟩
      · show plusCount a.count_ none = _
        cases a.count_ <;> rfl
      · have hn : ¬ (a.has_count = true ∧ 0 < a.count ∧
            (Statistic.empty : Statistic F).has_count = true ∧
            0 < (Statistic.empty : Statistic F).count ∧
            (a.count ≠ a.values_size ∨
              (Statistic.empty : Statistic F).count
                ≠ (Statistic.empty : Statistic F).values_size)) := by
          simp [Statistic.has_count, Statistic.empty]
        rw [if_neg hn]
        have e1 : plusValue a.sum_ (Statistic.empty : Statistic F).sum_ = a.sum_ :=
          (plusValue_spec _ _).2.2.1 rfl
        have e2 : plusValue a.ssum_ (Statistic.empty : Statistic F).ssum_ = a.ssum_ :=
          (plusValue_spec _ _).2.2.1 rfl
        rw [e1, e2]
        show a = { count_ := a.count_, sum_ := a.sum_, ssum_ := a.ssum_,
                   values_ := a.values_ ++ [] }
        rw [List.append_nil]
    exact ⟨l, r, l, r⟩

/-- C23 on the statistics of the samples 3, 4, 5 and 5, 6, 7: the combination
has count 6, sum 30, sum of squares 160 and the six values in order. -/
theorem c23_statistic_combine_witness :
    exampleStatistic.plusAssign secondStatistic = .ok combinedStatistic ∧
      exampleStatistic.complete ∧ secondStatistic.complete ∧
      combinedStatistic.count = exampleStatistic.count + secondStatistic.count ∧
      combinedStatistic.values_ = exampleStatistic.values_ ++ secondStatistic.values_ ∧
      Statistic.empty.plus exampleStatistic = .ok exampleStatistic :=
  ⟨by decide!, by decide, by decide,
    ((c23_statistic_combine exampleStatistic secondStatistic).1 combinedStatistic
      (by decide!)).1,
    ((c23_statistic_combine exampleStatistic secondStatistic).1 combinedStatistic
      (by decide!)).2.2.2.2.2.2.2.2.1 (by decide) (by decide),
    ((c23_statistic_combine exampleStatistic secondStatistic).2.2.2 (by decide)
      (by decide)).1⟩

/-- The invariant is kept by `operator+=`. -/
theorem plusAssign_inv (a b r : Statistic F)
    (ha : 0 ≤ a.count ∧ (a.values_ = [] ∨ a.values_size = a.count) ∧
      (0 < a.count → a.has_sum = true ∧ a.has_ssum = true))
    (hb : 0 ≤ b.count ∧ (b.values_ = [] ∨ b.values_size = b.count) ∧
      (0 < b.count → b.has_sum = true ∧ b.has_ssum = true))
    (hr : a.plusAssign b = .ok r) :
    0 ≤ r.count ∧ (r.values_ = [] ∨ r.values_size = r.count) ∧
      (0 < r.count → r.has_sum = true ∧ r.has_ssum = true) := by
  obtain ⟨a1, a2, a3⟩ := ha
  obtain ⟨b1, b2, b3⟩ := hb
  rw [plusAssign_ok_iff] at hr
  obtain ⟨h1, h2, h3, h4, c, hc, hreq⟩ := hr
  obtain ⟨c1, _, _⟩ := plusCount_spec _ _ _ hc
  have rc : r.count_ = c := by rw [hreq]
  have rs : r.sum_ = plusValue a.sum_ b.sum_ := by rw [hreq]
  have rss : r.ssum_ = plusValue a.ssum_ b.ssum_ := by rw [hreq]
  have rv : r.values_ = if a.has_count = true ∧ 0 < a.count ∧ b.has_count = true ∧
      0 < b.count ∧ (a.count ≠ a.values_size ∨ b.count ≠ b.values_size) then []
      else a.values_ ++ b.values_ := by rw [hreq]
  have hcount : r.count = a.count + b.count := by
    unfold Statistic.count
    rw [rc]
    exact c1
  refine ⟨by rw [hcount]; omega, ?_, ?_⟩
  · by_cases ca : a.complete
    · by_cases cb : b.complete
      · right
        unfold Statistic.values_size
        rw [rv, (plusAssign_values a b h1 h2 h3 h4).1 ca cb, hcount, List.length_append]
        unfold Statistic.complete Statistic.values_size at ca cb
        push_cast
        omega
      · left
        rw [rv]
        exact (plusAssign_values a b h1 h2 h3 h4).2 (fun h => cb h.2)
    · left
      rw [rv]
      exact (plusAssign_values a b h1 h2 h3 h4).2 (fun h => ca h.1)
  · intro hpos
    rw [hcount] at hpos
    have hs := (plusValue_spec a.sum_ b.sum_).2.2.2
    have hss := (plusValue_spec a.ssum_ b.ssum_).2.2.2
    unfold Statistic.has_sum Statistic.has_ssum
    rw [rs, rss, hs, hss]
    by_cases ha : 0 < a.count
    · obtain ⟨x, y⟩ := a3 ha
      unfold Statistic.has_sum at x
      unfold Statistic.has_ssum at y
      rw [x, y]
      exact ⟨rfl, rfl⟩
    · obtain ⟨x, y⟩ := b3 (by omega)
      unfold Statistic.has_sum at x
      unfold Statistic.has_ssum at y
      rw [x, y]
      simp

/-- The invariant of the reachable statistics: the count is not negative, the
list of values is empty or complete, and `sum` and `ssum` are present when the
count is positive. -/
theorem reachable_inv (s : Statistic F) (h : Reachable s) :
    0 ≤ s.count ∧ (s.values_ = [] ∨ s.values_size = s.count) ∧
      (0 < s.count → s.has_sum = true ∧ s.has_ssum = true) := by
  induction h with
  | empty =>
    refine ⟨le_refl _, Or.inl rfl, fun h => ?_⟩
    exact absurd h (by simp [Statistic.count, Statistic.empty])
  | addSample v s s1 _ hs ih =>
    obtain ⟨i1, i2, i3⟩ := ih
    rw [addSample_ok_iff] at hs
    obtain ⟨_, _, _, hreq⟩ := hs
    have rc : s1.count = s.count + 1 := by rw [hreq]; rfl
    have rv : s1.values_ = if ¬ s.has_count = true ∨ s.count = 0 ∨ s.count = s.values_size
        then s.values_ ++ [v] else s.values_ := by rw [hreq]
    have rs : s1.has_sum = true ∧ s1.has_ssum = true := by rw [hreq]; exact ⟨rfl, rfl⟩
    refine ⟨by rw [rc]; omega, ?_, fun _ => rs⟩
    by_cases hc : ¬ s.has_count = true ∨ s.count = 0 ∨ s.count = s.values_size
    · right
      unfold Statistic.values_size
      rw [rv, rc, if_pos hc, List.length_append]
      simp only [List.length_singleton]
      push_cast
      have hz : s.count = (s.values_.length : Int) := by
        rcases hc with h | h | h
        · have h0 := count_of_no_count s h
          rcases i2 with h2 | h2
          · rw [h0, h2]; rfl
          · rw [← h2]; rfl
        · rcases i2 with h2 | h2
          · rw [h, h2]; rfl
          · rw [← h2]; rfl
        · exact h
      omega
    · left
      rw [rv, if_neg hc]
      rcases i2 with h2 | h2
      · exact h2
      · exact absurd (Or.inr (Or.inr h2.symm)) hc
  | plusAssign a b r _ _ hr iha ihb => exact plusAssign_inv a b r iha ihb hr
  | plus a b r _ _ hr iha ihb => exact plusAssign_inv a b r iha ihb hr
  | strip s _ ih =>
    obtain ⟨i1, _, i3⟩ := ih
    exact ⟨i1, Or.inl rfl, i3⟩

theorem checks_of_inv (s : Statistic F)
    (h : 0 ≤ s.count ∧ (s.values_ = [] ∨ s.values_size = s.count) ∧
      (0 < s.count → s.has_sum = true ∧ s.has_ssum = true)) :
    checkValues s ∧ checkSums s := by
  obtain ⟨h1, h2, h3⟩ := h
  constructor
  · by_cases hc : s.has_count = true
    · right
      refine ⟨hc, ?_⟩
      rcases h2 with h | h
      · left
        unfold Statistic.values_size
        rw [h]
        rfl
      · right
        exact h.symm
    · left
      refine ⟨hc, ?_⟩
      rcases h2 with h | h
      · unfold Statistic.values_size
        rw [h]
        rfl
      · rw [h, count_of_no_count s hc]
  · by_cases hz : s.count = 0
    · exact Or.inr (Or.inl hz)
    · exact Or.inr (Or.inr ⟨by omega, h3 (by omega)⟩)

/-- C25: every statistic reachable from an empty `Statistic` by `AddSample`,
`operator+=`, `operator+` (with reachable operands) and
`StatisticStripValues` has a list of values that is empty or has exactly
`count` entries, and has `sum` and `ssum` present when `count > 0`; it passes
the two `CHECK`s, so that `AddSample`, `Mean`, `Stddev` and `operator+=` (with
a reachable operand on either side) never stop on a failed `CHECK`. -/
theorem c25_statistic_invariant (s : Statistic F) (h : Reachable s) :
    (s.values_ = [] ∨ s.values_size = s.count) ∧
    (0 < s.count → s.has_sum = true ∧ s.has_ssum = true) ∧
    checkValues s ∧ checkSums s ∧
    (∀ v, AddSample v s ≠ .error .check) ∧
    (∃ m, Mean s = .ok m) ∧
    (∀ sqrt : F → F, Stddev sqrt s ≠ .error .check) ∧
    (∀ b, Reachable b → s.plusAssign b ≠ .error .check ∧ b.plusAssign s ≠ .error .check ∧
      s.plus b ≠ .error .check ∧ b.plus s ≠ .error .check) := by
  have hi := reachable_inv s h
  obtain ⟨hv, hs⟩ := checks_of_inv s hi
  refine ⟨hi.2.1, hi.2.2, hv, hs, fun v he => ?_, ?_, fun sqrt he => ?_, fun b hb => ?_⟩
  · rcases addSample_error v s _ he with ⟨_, hn⟩ | ⟨hn, _⟩
    · exact hn ⟨hv, hs⟩
    · exact absurd hn (by decide)
  · unfold Mean
    simp only [hv, hs, not_true_eq_false, if_false]
    split
    · exact ⟨_, rfl⟩
    · exact ⟨_, rfl⟩
  · unfold Stddev at he
    simp only [hv, hs, not_true_eq_false, if_false] at he
    split at he
    · split at he
      · exact absurd he (by simp)
      · exact absurd he (by simp)
    · exact absurd he (by simp)
  · obtain ⟨bv, bs⟩ := checks_of_inv b (reachable_inv b hb)
    have l : s.plusAssign b ≠ .error .check := by
      intro he
      rcases plusAssign_error s b _ he with ⟨_, hn⟩ | ⟨hn, _⟩
      · exact hn ⟨hv, bv, hs, bs⟩
      · exact absurd hn (by decide)
    have r : b.plusAssign s ≠ .error .check := by
      intro he
      rcases plusAssign_error b s _ he with ⟨_, hn⟩ | ⟨hn, _⟩
      · exact hn ⟨bv, hv, bs, hs⟩
      · exact absurd hn (by decide)
    exact ⟨l, r, l, r⟩

/-- C25 on the statistic of the samples 3, 4, 5 with its values stripped, and
one more sample added: count 4 and no list of values. -/
theorem c25_statistic_invariant_witness :
    Reachable (⟨some 4, some 18, some 86, []⟩ : Statistic ℚ) ∧
      checkValues (⟨some 4, some 18, some 86, []⟩ : Statistic ℚ) ∧
      checkSums (⟨some 4, some 18, some 86, []⟩ : Statistic ℚ) :=
  have hr : Reachable (⟨some 4, some 18, some 86, []⟩ : Statistic ℚ) :=
    Reachable.addSample 6 (StatisticStripValues exampleStatistic) _
      (Reachable.strip _
        (Reachable.addSample 5 ⟨some 2, some 7, some 25, [3, 4]⟩ _
          (Reachable.addSample 4 ⟨some 1, some 3, some 9, [3]⟩ _
            (Reachable.addSample 3 Statistic.empty _ Reachable.empty (by decide!))
            (by decide!))
          (by decide!)))
      (by decide!)
  ⟨hr, (c25_statistic_invariant _ hr).2.2.1, (c25_statistic_invariant _ hr).2.2.2.1⟩

/-! ## Histogram -/

theorem addZeros_eq (k : Nat) :
    ∀ s : Statistic F, addZeros k s = addSamples (List.replicate k 0) s := by
  induction k with
  | zero => intro s; rfl
  | succ k ih =>
    intro s
    rw [List.replicate_succ]
    unfold addZeros addSamples
    cases AddSample 0 s with
    | error e => rfl
    | ok s1 => exact ih s1

theorem addSamples_count (vs : List F) :
    ∀ s s1 : Statistic F, addSamples vs s = .ok s1 → s1.count = s.count + (vs.length : Int) := by
  induction vs with
  | nil =>
    intro s s1 h
    simp only [addSamples, Except.ok.injEq] at h
    rw [← h]
    simp
  | cons v rest ih =>
    intro s s1 h
    unfold addSamples at h
    cases hs : AddSample v s with
    | error e => rw [hs] at h; simp at h
    | ok s2 =>
      rw [hs] at h
      simp only [] at h
      have h2 := ih s2 s1 h
      rw [addSample_ok_iff] at hs
      obtain ⟨_, _, _, hreq⟩ := hs
      have : s2.count = s.count + 1 := by rw [hreq]; rfl
      rw [h2, this, List.length_cons]
      push_cast
      omega

theorem plusAssign_count (a b r : Statistic F) (h : a.plusAssign b = .ok r) :
    r.count = a.count + b.count ∧ 0 ≤ a.count ∧ 0 ≤ b.count := by
  rw [plusAssign_ok_iff] at h
  obtain ⟨_, _, h3, h4, c, hc, hreq⟩ := h
  obtain ⟨c1, _, _⟩ := plusCount_spec _ _ _ hc
  have rc : r.count_ = c := by rw [hreq]
  refine ⟨?_, count_nonneg_of_checkSums a h3, count_nonneg_of_checkSums b h4⟩
  unfold Statistic.count
  rw [rc]
  exact c1

theorem drop_cons_getD {α : Type} (l : List α) (i : Nat) (x : α) (rest : List α) (d : α)
    (h : x :: rest = l.drop i) : i < l.length ∧ x = l.getD i d ∧ rest = l.drop (i + 1) := by
  have hi : i < l.length := by
    by_contra hn
    rw [List.drop_eq_nil_of_le (by omega)] at h
    exact absurd h (by simp)
  have h1 := List.drop_eq_getElem_cons hi
  rw [h1] at h
  simp only [List.cons.injEq] at h
  refine ⟨hi, ?_, h.2⟩
  rw [List.getD_eq_getElem _ _ hi]
  exact h.1

theorem getD_append_single {α : Type} (l : List α) (x d : α) (j : Nat) :
    (l ++ [x]).getD j d = if j < l.length then l.getD j d else if j = l.length then x else d := by
  by_cases h1 : j < l.length
  · rw [if_pos h1, List.getD_eq_getElem _ _ (by rw [List.length_append]; simp; omega),
      List.getD_eq_getElem _ _ h1, List.getElem_append_left h1]
  · rw [if_neg h1]
    by_cases h2 : j = l.length
    · rw [if_pos h2]
      subst h2
      rw [List.getD_eq_getElem _ _ (by rw [List.length_append]; simp)]
      simp
    · rw [if_neg h2, List.getD_eq_default]
      rw [List.length_append]
      simp only [List.length_singleton]
      omega

/-- The first loop of the histogram `operator+=`: what it leaves in every
bucket. -/
theorem histMergeLoop_spec (n_a : Int) (ball : List (Statistic F)) :
    ∀ (bs : List (Statistic F)) (i : Nat) (cur res : List (Statistic F)),
      bs = ball.drop i → i ≤ ball.length → i ≤ cur.length →
      histMergeLoop n_a bs i cur = .ok res →
      res.length = max cur.length ball.length ∧
      (∀ j, j < i → res.getD j Statistic.empty = cur.getD j Statistic.empty) ∧
      (∀ j, i ≤ j → j < ball.length → j < cur.length →
        (cur.getD j Statistic.empty).plusAssign (ball.getD j Statistic.empty)
          = .ok (res.getD j Statistic.empty)) ∧
      (∀ j, i ≤ j → j < ball.length → cur.length ≤ j →
        ∃ z, addZeros n_a.toNat Statistic.empty = .ok z ∧
          z.plusAssign (ball.getD j Statistic.empty) = .ok (res.getD j Statistic.empty)) ∧
      (∀ j, ball.length ≤ j → res.getD j Statistic.empty = cur.getD j Statistic.empty) := by
  intro bs
  induction bs with
  | nil =>
    intro i cur res hd hi hc h
    simp only [histMergeLoop, Except.ok.injEq] at h
    subst h
    have hi2 : ball.length ≤ i := by
      by_contra hn
      have : (ball.drop i).length = ball.length - i := List.length_drop _ _
      rw [← hd] at this
      simp only [List.length_nil] at this
      omega
    refine ⟨by omega, fun _ _ => rfl, fun j h1 h2 _ => by omega, fun j h1 h2 _ => by omega,
      fun _ _ => rfl⟩
  | cons bi rest ih =>
    intro i cur res hd hi hc h
    obtain ⟨hlt, hbi, hrest⟩ := drop_cons_getD ball i bi rest Statistic.empty hd
    unfold histMergeLoop at h
    by_cases hic : i < cur.length
    · rw [if_pos hic] at h
      cases hp : (cur.getD i Statistic.empty).plusAssign bi with
      | error e => rw [hp] at h; simp at h
      | ok s =>
        rw [hp] at h
        simp only [] at h
        obtain ⟨r1, r2, r3, r4, r5⟩ :=
          ih (i + 1) (cur.set i s) res hrest (by omega) (by rw [List.length_set]; omega) h
        rw [List.length_set] at r1
        have hri : res.getD i Statistic.empty = s := by
          rw [r2 i (by omega), getD_set_self _ _ _ _ hic]
        refine ⟨r1, fun j hj => ?_, fun j h1 h2 h3 => ?_, fun j h1 h2 h3 => ?_, fun j hj => ?_⟩
        · rw [r2 j (by omega), getD_set_other _ _ _ _ _ (by omega)]
        · by_cases hji : j = i
          · subst hji
            rw [hri, ← hbi]
            exact hp
          · have := r3 j (by omega) h2 (by rw [List.length_set]; exact h3)
            rw [getD_set_other _ _ _ _ _ (fun h => hji h.symm)] at this
            exact this
        · have hji : j ≠ i := by omega
          have := r4 j (by omega) h2 (by rw [List.length_set]; exact h3)
          exact this
        · rw [r5 j hj, getD_set_other _ _ _ _ _ (by omega)]
    · rw [if_neg hic] at h
      have hil : i = cur.length := by omega
      cases hz : addZeros n_a.toNat (Statistic.empty : Statistic F) with
      | error e => rw [hz] at h; simp at h
      | ok s0 =>
        rw [hz] at h
        simp only [] at h
        have hlen : i < (cur ++ [s0]).length := by
          rw [List.length_append]
          simp only [List.length_singleton]
          omega
        rw [if_neg (by simp only [not_not]; exact hlen)] at h
        have hget : (cur ++ [s0]).getD i Statistic.empty = s0 := by
          rw [getD_append_single, if_neg hic, if_pos hil]
        rw [hget] at h
        cases hp : s0.plusAssign bi with
        | error e => rw [hp] at h; simp at h
        | ok s =>
          rw [hp] at h
          simp only [] at h
          have hset : (cur ++ [s0]).set i s = cur ++ [s] := by
            rw [hil, List.set_append_right _ _ (le_refl _)]
            simp
          rw [hset] at h
          obtain ⟨r1, r2, r3, r4, r5⟩ :=
            ih (i + 1) (cur ++ [s]) res hrest (by omega)
              (by rw [List.length_append]; simp only [List.length_singleton]; omega) h
          rw [List.length_append] at r1
          simp only [List.length_singleton] at r1
          have hri : res.getD i Statistic.empty = s := by
            rw [r2 i (by omega), getD_append_single, if_neg hic, if_pos hil]
          refine ⟨by omega, fun j hj => ?_, fun j h1 h2 h3 => by omega, fun j h1 h2 h3 => ?_,
            fun j hj => ?_⟩
          · rw [r2 j (by omega), getD_append_single, if_pos (by omega)]
          · by_cases hji : j = i
            · subst hji
              exact ⟨s0, rfl, by rw [hri, ← hbi]; exact hp⟩
            · have := r4 j (by omega) h2
                (by rw [List.length_append]; simp only [List.length_singleton]; omega)
              rw [hz] at this
              exact this
          · rw [r5 j hj, getD_append_single, if_neg (by omega), if_neg (by omega),
              List.getD_eq_default _ _ (by omega)]

/-- The first loop of the histogram `operator+=` returns when the
operations on the buckets do. -/
theorem histMergeLoop_total (n_a : Int) (ball : List (Statistic F)) :
    ∀ (bs : List (Statistic F)) (i : Nat) (cur : List (Statistic F)),
      bs = ball.drop i → i ≤ cur.length →
      (∀ j, i ≤ j → j < ball.length → j < cur.length →
        ∃ s, (cur.getD j Statistic.empty).plusAssign (ball.getD j Statistic.empty) = .ok s) →
      (∀ j, i ≤ j → j < ball.length → cur.length ≤ j →
        ∃ z s, addZeros n_a.toNat Statistic.empty = .ok z ∧
          z.plusAssign (ball.getD j Statistic.empty) = .ok s) →
      ∃ res, histMergeLoop n_a bs i cur = .ok res := by
  intro bs
  induction bs with
  | nil =>
    intro i cur _ _ _ _
    exact ⟨cur, rfl⟩
  | cons bi rest ih =>
    intro i cur hd hc h1 h2
    obtain ⟨hlt, hbi, hrest⟩ := drop_cons_getD ball i bi rest Statistic.empty hd
    unfold histMergeLoop
    by_cases hic : i < cur.length
    · rw [if_pos hic]
      obtain ⟨s, hs⟩ := h1 i (le_refl _) hlt hic
      rw [← hbi] at hs
      rw [hs]
      simp only []
      apply ih (i + 1) (cur.set i s) hrest (by rw [List.length_set]; omega)
      · intro j a1 a2 a3
        rw [List.length_set] at a3
        rw [getD_set_other _ _ _ _ _ (by omega)]
        exact h1 j (by omega) a2 a3
      · intro j a1 a2 a3
        rw [List.length_set] at a3
        exact h2 j (by omega) a2 a3
    · rw [if_neg hic]
      have hil : i = cur.length := by omega
      obtain ⟨z, s, hz, hs⟩ := h2 i (le_refl _) hlt (by omega)
      rw [hz]
      simp only []
      have hlen : i < (cur ++ [z]).length := by
        rw [List.length_append]
        simp only [List.length_singleton]
        omega
      rw [if_neg (by simp only [not_not]; exact hlen)]
      have hget : (cur ++ [z]).getD i Statistic.empty = z := by
        rw [getD_append_single, if_neg hic, if_pos hil]
      rw [hget, hbi, hs]
      simp only []
      have hset : (cur ++ [z]).set i s = cur ++ [s] := by
        rw [hil, List.set_append_right _ _ (le_refl _)]
        simp
      rw [hset]
      apply ih (i + 1) (cur ++ [s]) hrest
        (by rw [List.length_append]; simp only [List.length_singleton]; omega)
      · intro j a1 a2 a3
        rw [List.length_append] at a3
        simp only [List.length_singleton] at a3
        omega
      · intro j a1 a2 a3
        rw [List.length_append] at a3
        simp only [List.length_singleton] at a3
        exact h2 j (by omega) a2 (by omega)

/-- The second loop of the histogram `operator+=`: what it leaves in every
bucket. -/
theorem histPadLoop_spec (n_b : Int) :
    ∀ (k i : Nat) (cur res : List (Statistic F)), i + k ≤ cur.length →
      histPadLoop n_b k i cur = .ok res →
      res.length = cur.length ∧
      (∀ j, i ≤ j → j < i + k →
        addZeros n_b.toNat (cur.getD j Statistic.empty) = .ok (res.getD j Statistic.empty)) ∧
      (∀ j, j < i ∨ i + k ≤ j → res.getD j Statistic.empty = cur.getD j Statistic.empty) := by
  intro k
  induction k with
  | zero =>
    intro i cur res _ h
    simp only [histPadLoop, Except.ok.injEq] at h
    subst h
    exact ⟨rfl, fun j h1 h2 => by omega, fun _ _ => rfl⟩
  | succ k ih =>
    intro i cur res hlen h
    unfold histPadLoop at h
    cases hz : addZeros n_b.toNat (cur.getD i Statistic.empty) with
    | error e => rw [hz] at h; simp at h
    | ok s =>
      rw [hz] at h
      simp only [] at h
      obtain ⟨r1, r2, r3⟩ := ih (i + 1) (cur.set i s) res (by rw [List.length_set]; omega) h
      rw [List.length_set] at r1
      refine ⟨r1, fun j h1 h2 => ?_, fun j hj => ?_⟩
      · by_cases hji : j = i
        · subst hji
          rw [r3 j (Or.inl (by omega)), getD_set_self _ _ _ _ (by omega)]
          exact hz
        · have := r2 j (by omega) (by omega)
          rw [getD_set_other _ _ _ _ _ (fun h => hji h.symm)] at this
          exact this
      · rw [r3 j (by omega), getD_set_other _ _ _ _ _ (by omega)]

/-- The second loop of the histogram `operator+=` returns when the
operations on the buckets do. -/
theorem histPadLoop_total (n_b : Int) :
    ∀ (k i : Nat) (cur : List (Statistic F)),
      (∀ j, i ≤ j → j < i + k →
        ∃ s, addZeros n_b.toNat (cur.getD j Statistic.empty) = .ok s) →
      ∃ res, histPadLoop n_b k i cur = .ok res := by
  intro k
  induction k with
  | zero => intro i cur _; exact ⟨cur, rfl⟩
  | succ k ih =>
    intro i cur h
    unfold histPadLoop
    obtain ⟨s, hs⟩ := h i (le_refl _) (by omega)
    rw [hs]
    simp only []
    apply ih (i + 1) (cur.set i s)
    intro j h1 h2
    rw [getD_set_other _ _ _ _ _ (by omega)]
    exact h j (by omega) (by omega)

/-- The value of the histogram `operator+=`, bucket by bucket. -/
theorem histogram_plusAssign_spec (a b r : Histogram F) (h : a.plusAssign b = .ok r) :
    r.values_.length = max a.values_.length b.values_.length ∧
    (∀ i, i < a.values_.length → i < b.values_.length →
      (a.values i).plusAssign (b.values i) = .ok (r.values i)) ∧
    (∀ i, i < a.values_.length → b.values_.length ≤ i →
      addSamples (List.replicate b.firstCount.toNat 0) (a.values i) = .ok (r.values i)) ∧
    (∀ i, a.values_.length ≤ i → i < b.values_.length →
      ∃ z, addSamples (List.replicate a.firstCount.toNat 0) Statistic.empty = .ok z ∧
        z.plusAssign (b.values i) = .ok (r.values i)) := by
  unfold Histogram.plusAssign at h
  cases h1 : histMergeLoop a.firstCount b.values_ 0 a.values_ with
  | error e => rw [h1] at h; simp at h
  | ok a1 =>
    rw [h1] at h
    simp only [] at h
    cases h2 : histPadLoop b.firstCount (a1.length - b.values_.length) b.values_.length a1 with
    | error e => rw [h2] at h; simp at h
    | ok a2 =>
      rw [h2] at h
      simp only [Except.ok.injEq] at h
      obtain ⟨m1, _, m3, m4, m5⟩ :=
        histMergeLoop_spec a.firstCount b.values_ b.values_ 0 a.values_ a1 rfl (Nat.zero_le _)
          (Nat.zero_le _) h1
      obtain ⟨p1, p2, p3⟩ :=
        histPadLoop_spec b.firstCount (a1.length - b.values_.length) b.values_.length a1 a2
          (by omega) h2
      have hr : r.values_ = a2 := by rw [← h]
      unfold Histogram.values
      rw [hr]
      refine ⟨by omega, fun i i1 i2 => ?_, fun i i1 i2 => ?_, fun i i1 i2 => ?_⟩
      · rw [p3 i (Or.inl i2)]
        exact m3 i (Nat.zero_le _) i2 i1
      · rw [← addZeros_eq, ← m5 i i2]
        exact p2 i i2 (by omega)
      · obtain ⟨z, z1, z2⟩ := m4 i (Nat.zero_le _) i2 i1
        rw [p3 i (Or.inl i2)]
        exact ⟨z, by rw [← addZeros_eq]; exact z1, z2⟩

theorem getD_append_replicate {α : Type} (l : List α) (n : Nat) (d : α) (j : Nat) :
    (l ++ List.replicate n d).getD j d = l.getD j d := by
  by_cases h1 : j < l.length
  · rw [List.getD_eq_getElem _ _ (by rw [List.length_append]; omega),
      List.getD_eq_getElem _ _ h1, List.getElem_append_left h1]
  · rw [List.getD_eq_default l d (by omega)]
    by_cases h2 : j < (l ++ List.replicate n d).length
    · rw [List.getD_eq_getElem _ _ h2, List.getElem_append_right (by omega)]
      simp
    · rw [List.getD_eq_default _ d (by omega)]

theorem mem_iff_getD {α : Type} (l : List α) (d x : α) :
    x ∈ l ↔ ∃ i, i < l.length ∧ l.getD i d = x := by
  rw [List.mem_iff_getElem]
  constructor
  · rintro ⟨i, hi, h⟩
    exact ⟨i, hi, by rw [List.getD_eq_getElem _ _ hi]; exact h⟩
  · rintro ⟨i, hi, h⟩
    exact ⟨i, hi, by rw [List.getD_eq_getElem _ _ hi] at h; exact h⟩

/-- The histogram `AddSample` into a bucket that is empty or does not exist
yet. -/
theorem histogram_addSample_fresh (k : Nat) (v : F) (h : Histogram F)
    (hk : h.values_.getD k Statistic.empty = Statistic.empty) :
    Histogram.AddSample (k : Int) v h
      = .ok ⟨(h.values_ ++ List.replicate (k + 1 - h.values_.length) Statistic.empty).set k
          ⟨some 1, some (0 + v), some (0 + v * v), [v]⟩⟩ := by
  unfold Histogram.AddSample
  have e1 : ((k : Int) + 1 - h.values_size).toNat = k + 1 - h.values_.length := by
    unfold Histogram.values_size
    omega
  simp only [e1, Int.toNat_ofNat]
  have hlen : (h.values_ ++ List.replicate (k + 1 - h.values_.length)
      (Statistic.empty : Statistic F)).length = max h.values_.length (k + 1) := by
    rw [List.length_append, List.length_replicate]
    omega
  have hin : (0 : Int) ≤ (k : Int) ∧ (k : Int) < ((h.values_ ++ List.replicate
      (k + 1 - h.values_.length) (Statistic.empty : Statistic F)).length : Int) := by
    rw [hlen]
    omega
  rw [if_neg (by simp only [not_not]; exact hin), getD_append_replicate, hk]
  have e : AddSample v (Statistic.empty : Statistic F)
      = .ok ⟨some 1, some (0 + v), some (0 + v * v), [v]⟩ := by
    have := addSamples_empty v ([] : List F)
    unfold addSamples at this
    cases hs : AddSample v (Statistic.empty : Statistic F) with
    | error e =>
      rw [hs] at this
      simp only [List.length_singleton, Nat.cast_one] at this
      rw [if_pos (by decide)] at this
      exact absurd this (by simp)
    | ok s1 =>
      rw [hs] at this
      simp only [addSamples, List.length_singleton, Nat.cast_one] at this
      rw [if_pos (by decide)] at this
      rw [this]
      rfl
  rw [e]

/-- The loop of `SetHistogram` on a histogram whose first `k` buckets, as far
as they exist, are empty. -/
theorem setHistogramLoop_spec (data : List Int) :
    ∀ (k : Nat) (h : Histogram F),
      (∀ j, j < k → h.values_.getD j Statistic.empty = Statistic.empty) →
      ∃ res : List (Statistic F), setHistogramLoop data k h = .ok ⟨res⟩ ∧
        res.length = max h.values_.length k ∧
        ∀ j, res.getD j Statistic.empty
          = if j < k then
              ⟨some 1, some (0 + DoubleModel.ofInt (data.getD j 0)),
                some (0 + DoubleModel.ofInt (data.getD j 0) * DoubleModel.ofInt (data.getD j 0)),
                [DoubleModel.ofInt (data.getD j 0)]⟩
            else h.values_.getD j Statistic.empty := by
  intro k
  induction k with
  | zero =>
    intro h _
    exact ⟨h.values_, rfl, by omega, fun j => by rw [if_neg (by omega)]⟩
  | succ k ih =>
    intro h hk
    unfold setHistogramLoop
    rw [histogram_addSample_fresh k _ h (hk k (by omega))]
    simp only []
    have hlen : (h.values_ ++ List.replicate (k + 1 - h.values_.length)
        (Statistic.empty : Statistic F)).length = max h.values_.length (k + 1) := by
      rw [List.length_append, List.length_replicate]
      omega
    obtain ⟨res, r1, r2, r3⟩ := ih ⟨(h.values_ ++ List.replicate (k + 1 - h.values_.length)
        Statistic.empty).set k ⟨some 1, some (0 + DoubleModel.ofInt (data.getD k 0)),
          some (0 + DoubleModel.ofInt (data.getD k 0) * DoubleModel.ofInt (data.getD k 0)),
          [DoubleModel.ofInt (data.getD k 0)]⟩⟩ (by
      intro j hj
      show List.getD (List.set _ _ _) _ _ = _
      rw [getD_set_other _ _ _ _ _ (by omega), getD_append_replicate]
      exact hk j (by omega))
    refine ⟨res, r1, ?_, fun j => ?_⟩
    · rw [r2]
      show max (List.set _ _ _).length k = _
      rw [List.length_set, hlen]
      omega
    · rw [r3 j]
      by_cases hj : j < k
      · rw [if_pos hj, if_pos (by omega)]
      · rw [if_neg hj]
        show List.getD (List.set _ _ _) _ _ = _
        by_cases hjk : j = k
        · subst hjk
          rw [getD_set_self _ _ _ _ (by rw [hlen]; omega), if_pos (by omega)]
        · rw [getD_set_other _ _ _ _ _ (fun h => hjk h.symm), getD_append_replicate,
            if_neg (by omega)]

/-- The histogram that `SetHistogram` builds on an empty histogram: one
bucket for each entry of the data, holding that entry as its only sample. -/
theorem setHistogram_empty (data : List Int) :
    ∃ res : List (Statistic F), SetHistogram data Histogram.empty = .ok ⟨res⟩ ∧
      res.length = data.length ∧
      ∀ j, j < data.length → res.getD j Statistic.empty
        = ⟨some 1, some (0 + DoubleModel.ofInt (data.getD j 0)),
            some (0 + DoubleModel.ofInt (data.getD j 0) * DoubleModel.ofInt (data.getD j 0)),
            [DoubleModel.ofInt (data.getD j 0)]⟩ := by
  obtain ⟨res, r1, r2, r3⟩ := setHistogramLoop_spec data data.length
    (Histogram.empty : Histogram F) (fun j _ => rfl)
  refine ⟨res, r1, ?_, fun j hj => ?_⟩
  · rw [r2]
    show max 0 data.length = data.length
    omega
  · rw [r3 j, if_pos hj]

/-- C26: whenever `a += b` on histograms with `k` and `m` buckets returns,
the result has `max(k, m)` buckets; where both `a[i]` and `b[i]` exist,
bucket `i` is the value of `a[i] += b[i]`; where only `a[i]` exists, it is
`a[i]` after `n_b` calls `AddSample(0.0)`; where only `b[i]` exists, it is the
value of `z += b[i]` for the statistic `z` that `n_a` calls `AddSample(0.0)`
build from an empty one; `n_a` and `n_b` are the counts of bucket 0 of `a` and
of `b`, 0 for a histogram without buckets.  The operation returns when these
operations on the buckets return.  `a + b` is `a += b` on a copy of `a`. -/
theorem c26_histogram_combine (a b : Histogram F) :
    (∀ r, a.plusAssign b = .ok r →
      r.values_size = max a.values_size b.values_size ∧
      (∀ i : Nat, (i : Int) < a.values_size → (i : Int) < b.values_size →
        (a.values i).plusAssign (b.values i) = .ok (r.values i)) ∧
      (∀ i : Nat, (i : Int) < a.values_size → b.values_size ≤ (i : Int) →
        addSamples (List.replicate b.firstCount.toNat 0) (a.values i) = .ok (r.values i)) ∧
      (∀ i : Nat, a.values_size ≤ (i : Int) → (i : Int) < b.values_size →
        ∃ z, addSamples (List.replicate a.firstCount.toNat 0) Statistic.empty = .ok z ∧
          z.plusAssign (b.values i) = .ok (r.values i))) ∧
    ((∀ i : Nat, (i : Int) < a.values_size → (i : Int) < b.values_size →
        ∃ s, (a.values i).plusAssign (b.values i) = .ok s) →
      (∀ i : Nat, (i : Int) < a.values_size → b.values_size ≤ (i : Int) →
        ∃ s, addSamples (List.replicate b.firstCount.toNat 0) (a.values i) = .ok s) →
      (∀ i : Nat, a.values_size ≤ (i : Int) → (i : Int) < b.values_size →
        ∃ z s, addSamples (List.replicate a.firstCount.toNat 0) Statistic.empty = .ok z ∧
          z.plusAssign (b.values i) = .ok s) →
      ∃ r, a.plusAssign b = .ok r) ∧
    a.plus b = a.plusAssign b := by
  refine ⟨fun r hr => ?_, fun t1 t2 t3 => ?_, rfl⟩
  · obtain ⟨s1, s2, s3, s4⟩ := histogram_plusAssign_spec a b r hr
    unfold Histogram.values_size
    refine ⟨by rw [s1]; push_cast; rfl, fun i i1 i2 => s2 i (by omega) (by omega),
      fun i i1 i2 => s3 i (by omega) (by omega), fun i i1 i2 => s4 i (by omega) (by omega)⟩
  · unfold Histogram.values_size Histogram.values at t1 t2 t3
    obtain ⟨a1, h1⟩ := histMergeLoop_total a.firstCount b.values_ b.values_ 0 a.values_ rfl
      (Nat.zero_le _) (fun j _ j2 j3 => t1 j (by omega) (by omega))
      (fun j _ j2 j3 => by
        obtain ⟨z, s, z1, z2⟩ := t3 j (by omega) (by omega)
        exact ⟨z, s, by rw [addZeros_eq]; exact z1, z2⟩)
    obtain ⟨m1, _, _, _, m5⟩ :=
      histMergeLoop_spec a.firstCount b.values_ b.values_ 0 a.values_ a1 rfl (Nat.zero_le _)
        (Nat.zero_le _) h1
    obtain ⟨a2, h2⟩ := histPadLoop_total b.firstCount (a1.length - b.values_.length)
      b.values_.length a1 (fun j j1 j2 => by
        rw [m5 j j1, addZeros_eq]
        exact t2 j (by omega) (by omega))
    unfold Histogram.plusAssign
    rw [h1]
    simp only []
    rw [h2]
    exact ⟨_, rfl⟩

/-- C26 on the histograms of the data 0, 3, 5, 1 and 1, 4: the combination
has four buckets with the means 1/2, 7/2, 5/2, 1/2 and count 2. -/
theorem c26_histogram_combine_witness :
    SetHistogram [0, 3, 5, 1] Histogram.empty = .ok histogramA ∧
      SetHistogram [1, 4] Histogram.empty = .ok histogramB ∧
      histogramA.plus histogramB = .ok histogramAB ∧
      histogramAB.values_size = max histogramA.values_size histogramB.values_size ∧
      histogramAB.values_.map Mean = [.ok (1 / 2), .ok (7 / 2), .ok (5 / 2), .ok (1 / 2)] ∧
      histogramAB.values_.map Statistic.count = [2, 2, 2, 2] ∧
      addSamples (List.replicate histogramB.firstCount.toNat 0) (histogramA.values 2)
        = .ok (histogramAB.values 2) :=
  ⟨by decide!, by decide!, by decide!,
    ((c26_histogram_combine histogramA histogramB).1 histogramAB (by decide!)).1,
    by decide!, by decide,
    ((c26_histogram_combine histogramA histogramB).1 histogramAB (by decide!)).2.2.1 2
      (by decide) (by decide)⟩

/-- C27, as stated, fails: in `histogramA += histogramBB` the bucket 2 exists
in `histogramA` only, where it holds 1 sample, and it is merged with 2
samples `0.0`, the count of bucket 0 of `histogramBB`: the merged bucket holds
3 samples, not twice the 1 sample of the bucket that is present
(`src/cognon_test.cc:549-566` expects these counts of 3). -/
theorem c27_histogram_zero_padding_counterexample :
    histogramB.plus histogramB = .ok histogramBB ∧
      histogramA.plusAssign histogramBB = .ok histogramABB ∧
      (2 : Int) < histogramA.values_size ∧ histogramBB.values_size ≤ (2 : Int) ∧
      (histogramA.values 2).count = 1 ∧ histogramBB.firstCount = 2 ∧
      (histogramABB.values 2).count = 3 ∧
      (histogramABB.values 2).count ≠ 2 * (histogramA.values 2).count ∧
      (histogramABB.values 2).values_ = [5, 0, 0] :=
  ⟨by decide!, by decide!, by decide, by decide, by decide, by decide, by decide, by decide,
    by decide⟩

/-- The counts of the buckets that exist in one operand of the histogram
`operator+=` only. -/
theorem histogram_padding_count (a b r : Histogram F) (h : a.plusAssign b = .ok r) :
    (∀ i : Nat, (i : Int) < a.values_size → b.values_size ≤ (i : Int) →
      addSamples (List.replicate b.firstCount.toNat 0) (a.values i) = .ok (r.values i) ∧
      0 ≤ b.firstCount ∧
      (r.values i).count = (a.values i).count + b.firstCount ∧
      ((r.values i).count = 2 * (a.values i).count ↔ b.firstCount = (a.values i).count)) ∧
    (∀ i : Nat, a.values_size ≤ (i : Int) → (i : Int) < b.values_size →
      (∃ z, addSamples (List.replicate a.firstCount.toNat 0) Statistic.empty = .ok z ∧
        z.plusAssign (b.values i) = .ok (r.values i)) ∧
      0 ≤ a.firstCount ∧
      (r.values i).count = a.firstCount + (b.values i).count ∧
      ((r.values i).count = 2 * (b.values i).count ↔ a.firstCount = (b.values i).count)) := by
  obtain ⟨s1, s2, s3, s4⟩ := histogram_plusAssign_spec a b r h
  have hfirst : (0 < a.values_.length → 0 < b.values_.length →
      0 ≤ a.firstCount ∧ 0 ≤ b.firstCount) := by
    intro ha hb
    obtain ⟨_, c2, c3⟩ := plusAssign_count _ _ _ (s2 0 ha hb)
    unfold Histogram.firstCount Histogram.values_size
    rw [if_pos (by omega), if_pos (by omega)]
    exact ⟨c2, c3⟩
  have hzero : ∀ x : Histogram F, x.values_.length = 0 → x.firstCount = 0 := by
    intro x hx
    unfold Histogram.firstCount Histogram.values_size
    rw [if_neg (by omega)]
  unfold Histogram.values_size
  constructor
  · intro i i1 i2
    have e := s3 i (by omega) (by omega)
    have hnb : 0 ≤ b.firstCount := by
      by_cases hb : 0 < b.values_.length
      · exact (hfirst (by omega) hb).2
      · rw [hzero b (by omega)]
    have hc := addSamples_count _ _ _ e
    rw [List.length_replicate] at hc
    have hcast : ((b.firstCount.toNat : Nat) : Int) = b.firstCount := by omega
    rw [hcast] at hc
    refine ⟨e, hnb, hc, ?_⟩
    rw [hc]
    constructor <;> intro hh <;> omega
  · intro i i1 i2
    obtain ⟨z, z1, z2⟩ := s4 i (by omega) (by omega)
    have hna : 0 ≤ a.firstCount := by
      by_cases ha : 0 < a.values_.length
      · exact (hfirst ha (by omega)).1
      · rw [hzero a (by omega)]
    have hc := addSamples_count _ _ _ z1
    rw [List.length_replicate] at hc
    have hcast : ((a.firstCount.toNat : Nat) : Int) = a.firstCount := by omega
    have h0 : (Statistic.empty : Statistic F).count = 0 := rfl
    rw [hcast, h0, zero_add] at hc
    obtain ⟨c1, _, _⟩ := plusAssign_count _ _ _ z2
    rw [hc] at c1
    refine ⟨⟨z, z1, z2⟩, hna, c1, ?_⟩
    rw [c1]
    constructor <;> intro hh <;> omega

/-- C27, amended: whenever `a += b` returns, a bucket `i` that exists in `a`
only is `a[i]` after `n_b` calls `AddSample(0.0)`, where `n_b` is the count of
bucket 0 of `b` (0 when `b` has no bucket), and its count is the count of
`a[i]` plus `n_b`; a bucket `i` that exists in `b` only is the combination of
`n_a` samples `0.0` with `b[i]`, where `n_a` is the count of bucket 0 of `a`,
and its count is `n_a` plus the count of `b[i]`.  The merged bucket has twice
the count of the bucket that is present exactly when the count of bucket 0 of
the other operand equals the count of that bucket. -/
theorem c27_histogram_zero_padding (a b r : Histogram F) (h : a.plusAssign b = .ok r) :
    (∀ i : Nat, (i : Int) < a.values_size → b.values_size ≤ (i : Int) →
      addSamples (List.replicate b.firstCount.toNat 0) (a.values i) = .ok (r.values i) ∧
      0 ≤ b.firstCount ∧
      (r.values i).count = (a.values i).count + b.firstCount ∧
      ((r.values i).count = 2 * (a.values i).count ↔ b.firstCount = (a.values i).count)) ∧
    (∀ i : Nat, a.values_size ≤ (i : Int) → (i : Int) < b.values_size →
      (∃ z, addSamples (List.replicate a.firstCount.toNat 0) Statistic.empty = .ok z ∧
        z.plusAssign (b.values i) = .ok (r.values i)) ∧
      0 ≤ a.firstCount ∧
      (r.values i).count = a.firstCount + (b.values i).count ∧
      ((r.values i).count = 2 * (b.values i).count ↔ a.firstCount = (b.values i).count)) :=
  histogram_padding_count a b r h

/-- C27 (amended) on `histogramA += histogramBB`: the bucket 2 has the count
`1 + 2`. -/
theorem c27_histogram_zero_padding_witness :
    histogramA.plusAssign histogramBB = .ok histogramABB ∧
      (histogramABB.values 2).count = (histogramA.values 2).count + histogramBB.firstCount ∧
      (histogramABB.values 2).count = 3 :=
  ⟨by decide!,
    ((c27_histogram_zero_padding histogramA histogramBB histogramABB (by decide!)).1 2
      (by decide) (by decide)).2.2.1,
    by decide⟩

/-- C28: if every bucket of `a` has the count `n_a` of its bucket 0 and every
bucket of `b` has the count `n_b` of its bucket 0 (0 for a histogram without
buckets), then, whenever `a += b` returns, every bucket of the result has the
count `n_a + n_b`, whatever the two lengths are, and the result has the same
property again.  The histograms that `SetHistogram` builds on an empty
histogram have one bucket for each entry of the data, each with count 1. -/
theorem c28_histogram_count_parity (a b : Histogram F) (data : List Int) :
    (∀ r, a.plusAssign b = .ok r →
      (∀ s ∈ a.values_, s.count = a.firstCount) → (∀ s ∈ b.values_, s.count = b.firstCount) →
      (∀ s ∈ r.values_, s.count = a.firstCount + b.firstCount) ∧
      (∀ s ∈ r.values_, s.count = r.firstCount)) ∧
    (∃ h : Histogram F, SetHistogram data Histogram.empty = .ok h ∧
      h.values_size = (data.length : Int) ∧ (∀ s ∈ h.values_, s.count = 1) ∧
      (∀ s ∈ h.values_, s.count = h.firstCount)) := by
  constructor
  · intro r hr ha hb
    obtain ⟨s1, s2, s3, s4⟩ := histogram_plusAssign_spec a b r hr
    obtain ⟨p1, p2⟩ := histogram_padding_count a b r hr
    have hall : ∀ s ∈ r.values_, s.count = a.firstCount + b.firstCount := by
      intro s hs
      obtain ⟨i, hi, rfl⟩ := (mem_iff_getD r.values_ Statistic.empty s).1 hs
      have hai : i < a.values_.length → (a.values i).count = a.firstCount := fun h =>
        ha _ ((mem_iff_getD a.values_ Statistic.empty _).2 ⟨i, h, rfl⟩)
      have hbi : i < b.values_.length → (b.values i).count = b.firstCount := fun h =>
        hb _ ((mem_iff_getD b.values_ Statistic.empty _).2 ⟨i, h, rfl⟩)
      by_cases i1 : i < a.values_.length
      · by_cases i2 : i < b.values_.length
        · obtain ⟨c1, _, _⟩ := plusAssign_count _ _ _ (s2 i i1 i2)
          rw [hai i1, hbi i2] at c1
          exact c1
        · have := (p1 i (by unfold Histogram.values_size; omega)
            (by unfold Histogram.values_size; omega)).2.2.1
          rw [hai i1] at this
          exact this
      · have i2 : i < b.values_.length := by omega
        have := (p2 i (by unfold Histogram.values_size; omega)
          (by unfold Histogram.values_size; omega)).2.2.1
        rw [hbi i2] at this
        exact this
    refine ⟨hall, fun s hs => ?_⟩
    rw [hall s hs]
    have hpos : 0 < r.values_.length := List.length_pos_of_mem hs
    have hr0 : r.firstCount = (r.values 0).count := by
      unfold Histogram.firstCount
      rw [if_pos (by unfold Histogram.values_size; omega)]
    rw [hr0]
    exact (hall _ ((mem_iff_getD r.values_ Statistic.empty _).2 ⟨0, hpos, rfl⟩)).symm
  · obtain ⟨res, r1, r2, r3⟩ := setHistogram_empty (F := F) data
    have hone : ∀ s ∈ res, s.count = 1 := by
      intro s hs
      obtain ⟨i, hi, rfl⟩ := (mem_iff_getD res Statistic.empty s).1 hs
      rw [r3 i (by omega)]
      rfl
    refine ⟨⟨res⟩, r1, by unfold Histogram.values_size; rw [r2], hone, fun s hs => ?_⟩
    rw [hone s hs]
    have hpos : 0 < res.length := List.length_pos_of_mem hs
    unfold Histogram.firstCount
    rw [if_pos (by unfold Histogram.values_size; show (0 : Int) < (res.length : Int); omega)]
    exact (hone _ ((mem_iff_getD res Statistic.empty _).2 ⟨0, hpos, rfl⟩)).symm

/-- C28 on `histogramA` (counts 1) and `histogramBB` (counts 2): every bucket
of the combination has count 3. -/
theorem c28_histogram_count_parity_witness :
    histogramA.plusAssign histogramBB = .ok histogramABB ∧
      (∀ s ∈ histogramA.values_, s.count = histogramA.firstCount) ∧
      (∀ s ∈ histogramBB.values_, s.count = histogramBB.firstCount) ∧
      histogramA.firstCount + histogramBB.firstCount = 3 ∧
      (∀ s ∈ histogramABB.values_, s.count = histogramA.firstCount + histogramBB.firstCount) :=
  ⟨by decide!, by decide, by decide, by decide,
    ((c28_histogram_count_parity histogramA histogramBB [0, 3, 5, 1]).1 histogramABB
      (by decide!) (by decide) (by decide)).1⟩

/-! ## Generation of wordsets -/

/-- The entries that the loop of `InitOrig` over the synapses appends: the
synapse indices increase strictly and stay below the loop bound, the delays
are in `[0, num_delays)`. -/
theorem origWordLoop_spec (rand64 : Nat → Nat) (R nd nbits : Int) (hnd : 1 ≤ nd)
    (hnd2 : nd ≤ 2147483647) :
    ∀ (k : Nat) (j : Int) (st : Scratch) (word : Word),
      0 ≤ j → (word.map Prod.fst).Pairwise (fun x y => x < y) →
      (∀ e ∈ word, 0 ≤ e.1 ∧ e.1 < j ∧ 0 ≤ e.2 ∧ e.2 < nd) →
      ∃ res st1, origWordLoop rand64 R nd nbits k j st word = .ok (res, st1) ∧
        (res.map Prod.fst).Pairwise (fun x y => x < y) ∧
        (∀ e ∈ res, 0 ≤ e.1 ∧ e.1 < j + (k : Int) ∧ 0 ≤ e.2 ∧ e.2 < nd) := by
  have hu : toUInt64 nd = nd.toNat := by
    unfold toUInt64
    rw [Int.emod_eq_of_lt (by omega) (by omega)]
  have hu0 : ¬ toUInt64 nd = 0 := by rw [hu]; omega
  intro k
  induction k with
  | zero =>
    intro j st word _ hp he
    exact ⟨word, st, rfl, hp, fun e h => by
      have := he e h
      simp only [Nat.cast_zero, add_zero]
      exact this⟩
  | succ k ih =>
    intro j st word hj hp he
    unfold origWordLoop
    by_cases hz : (randomUpdate rand64 nbits st).scratch % toUInt64 R = 0
    · rw [if_pos hz, if_neg hu0]
      have hval : ∀ x : Nat, 0 ≤ toInt32 (x % toUInt64 nd) ∧ toInt32 (x % toUInt64 nd) < nd := by
        intro x
        rw [hu]
        have h1 : x % nd.toNat < nd.toNat := Nat.mod_lt _ (by omega)
        unfold toInt32
        have h2 : x % nd.toNat % 4294967296 = x % nd.toNat := Nat.mod_eq_of_lt (by omega)
        rw [h2, if_pos (by omega)]
        omega
      obtain ⟨res, st1, r1, r2, r3⟩ := ih (j + 1)
        (randomUpdate rand64 nbits (randomUpdate rand64 nbits st))
        (word ++ [(j, toInt32
          ((randomUpdate rand64 nbits (randomUpdate rand64 nbits st)).scratch % toUInt64 nd))])
        (by omega)
        (by
          rw [List.map_append, List.pairwise_append]
          refine ⟨hp, by simp, fun x hx y hy => ?_⟩
          simp only [List.map_cons, List.map_nil, List.mem_singleton] at hy
          obtain ⟨e, he1, rfl⟩ := List.mem_map.1 hx
          rw [hy]
          exact (he e he1).2.1)
        (by
          intro e hm
          rcases List.mem_append.1 hm with h | h
          · have := he e h
            exact ⟨this.1, by omega, this.2.2⟩
          · simp only [List.mem_singleton] at h
            rw [h]
            exact ⟨hj, by simp, (hval _).1, (hval _).2⟩)
      exact ⟨res, st1, r1, r2, fun e h => by
        have := r3 e h
        push_cast
        exact ⟨this.1, by omega, this.2.2⟩⟩
    · rw [if_neg hz]
      obtain ⟨res, st1, r1, r2, r3⟩ := ih (j + 1) (randomUpdate rand64 nbits st) word (by omega)
        hp (fun e h => by
          have := he e h
          exact ⟨this.1, by omega, this.2.2⟩)
      exact ⟨res, st1, r1, r2, fun e h => by
        have := r3 e h
        push_cast
        exact ⟨this.1, by omega, this.2.2⟩⟩

/-- The loop of `InitOrig` over the words: the sizes are kept, every word
from `i` on is one that the loop over the synapses builds from the empty
word, and its delay is `kDisabled`. -/
theorem origWordsLoop_spec (rand64 : Nat → Nat) (wl R nd nbits : Int) :
    ∀ (k i : Nat) (st : Scratch) (words : List Word) (delays : List Int)
      (words1 : List Word) (delays1 : List Int) (st1 : Scratch),
      origWordsLoop rand64 wl R nd nbits k i st words delays = .ok (words1, delays1, st1) →
      words1.length = words.length ∧ delays1.length = delays.length ∧
      (∀ j, i ≤ j → j < i + k → j < delays.length → delays1.getD j 0 = kDisabled) ∧
      (∀ j, j < i → delays1.getD j 0 = delays.getD j 0 ∧ words1.getD j [] = words.getD j []) ∧
      (∀ j, i ≤ j → j < i + k → j < words.length →
        ∃ s s1, origWordLoop rand64 R nd nbits wl.toNat 0 s [] = .ok (words1.getD j [], s1)) := by
  intro k
  induction k with
  | zero =>
    intro i st words delays words1 delays1 st1 h
    simp only [origWordsLoop, Except.ok.injEq, Prod.mk.injEq] at h
    obtain ⟨rfl, rfl, _⟩ := h
    exact ⟨rfl, rfl, fun j _ _ _ => by omega, fun j _ => ⟨rfl, rfl⟩, fun j _ _ _ => by omega⟩
  | succ k ih =>
    intro i st words delays words1 delays1 st1 h
    unfold origWordsLoop at h
    cases hw : origWordLoop rand64 R nd nbits wl.toNat 0 st [] with
    | error e => rw [hw] at h; simp at h
    | ok r =>
      obtain ⟨word, s1⟩ := r
      rw [hw] at h
      simp only [] at h
      obtain ⟨r1, r2, r3, r4, r5⟩ := ih (i + 1) s1 _ _ _ _ _ h
      rw [List.length_set] at r1 r2 r3 r5
      refine ⟨r1, r2, fun j j1 j2 j3 => ?_, fun j j1 => ?_, fun j j1 j2 j3 => ?_⟩
      · by_cases hji : j = i
        · subst hji
          rw [(r4 j (by omega)).1, getD_set_self _ _ _ _ j3]
        · exact r3 j (by omega) (by omega) j3
      · obtain ⟨a, b⟩ := r4 j (by omega)
        rw [a, b, getD_set_other _ _ _ _ _ (by omega), getD_set_other _ _ _ _ _ (by omega)]
        exact ⟨rfl, rfl⟩
      · by_cases hji : j = i
        · subst hji
          rw [(r4 j (by omega)).2, getD_set_self _ _ _ _ j3]
          exact ⟨st, s1, hw⟩
        · exact r5 j (by omega) (by omega) j3

/-- The loop of `InitOrig` over the words returns when `num_delays` is a
positive `int32` value. -/
theorem origWordsLoop_total (rand64 : Nat → Nat) (wl R nd nbits : Int) (hnd : 1 ≤ nd)
    (hnd2 : nd ≤ 2147483647) :
    ∀ (k i : Nat) (st : Scratch) (words : List Word) (delays : List Int),
      ∃ r, origWordsLoop rand64 wl R nd nbits k i st words delays = .ok r := by
  intro k
  induction k with
  | zero => intro i st words delays; exact ⟨_, rfl⟩
  | succ k ih =>
    intro i st words delays
    unfold origWordsLoop
    obtain ⟨res, st1, r1, _⟩ := origWordLoop_spec rand64 R nd nbits hnd hnd2 wl.toNat 0 st []
      (le_refl _) (by simp) (by simp)
    rw [r1]
    exact ih _ _ _ _

/-- The loop of `InitFixed` over the words: the sizes are kept and the
delays from `i` on are `kDisabled`. -/
theorem fixedWordsLoop_spec (rand64 : Nat → Nat) (wl nd na : Int) (fuel : Nat) :
    ∀ (k i p : Nat) (words : List Word) (delays : List Int)
      (words1 : List Word) (delays1 : List Int) (p1 : Nat),
      fixedWordsLoop rand64 wl nd na fuel k i p words delays = some (.ok (words1, delays1, p1)) →
      words1.length = words.length ∧ delays1.length = delays.length ∧
      (∀ j, i ≤ j → j < i + k → j < delays.length → delays1.getD j 0 = kDisabled) ∧
      (∀ j, j < i → delays1.getD j 0 = delays.getD j 0) := by
  intro k
  induction k with
  | zero =>
    intro i p words delays words1 delays1 p1 h
    simp only [fixedWordsLoop, Option.some.injEq, Except.ok.injEq, Prod.mk.injEq] at h
    obtain ⟨rfl, rfl, _⟩ := h
    exact ⟨rfl, rfl, fun j _ _ _ => by omega, fun j _ => rfl⟩
  | succ k ih =>
    intro i p words delays words1 delays1 p1 h
    unfold fixedWordsLoop at h
    cases hw : fixedWordLoop rand64 wl nd fuel na.toNat p [] [] with
    | none => rw [hw] at h; simp at h
    | some r =>
      cases r with
      | error e => rw [hw] at h; simp at h
      | ok r =>
        obtain ⟨word, s1⟩ := r
        rw [hw] at h
        simp only [] at h
        obtain ⟨r1, r2, r3, r4⟩ := ih (i + 1) s1 _ _ _ _ _ h
        rw [List.length_set] at r1 r2 r3
        refine ⟨r1, r2, fun j j1 j2 j3 => ?_, fun j j1 => ?_⟩
        · by_cases hji : j = i
          · subst hji
            rw [r4 j (by omega), getD_set_self _ _ _ _ j3]
          · exact r3 j (by omega) (by omega) j3
        · rw [r4 j (by omega), getD_set_other _ _ _ _ _ (by omega)]

theorem resize_length_eq {α : Type} (v : List α) (k : Nat) (d : α) :
    (resize v k d).length = k := by
  unfold resize
  rw [List.length_append, List.length_take, List.length_replicate]
  omega

/-- The wordset after `Init`: `num_words` words, all delays `kDisabled`, the
configuration unchanged. -/
theorem wordset_init_spec (rand64 : Nat → Nat) (fuel p : Nat) (w w1 : Wordset) (p1 : Nat)
    (h : w.Init rand64 fuel p = some (.ok (w1, p1))) :
    0 ≤ w.num_words ∧ w1.size = w.num_words ∧
      (w1.delays.length : Int) = w.num_words ∧
      (∀ i : Int, 0 ≤ i → i < w1.size → w1.delay i = kDisabled) ∧
      w1 = { w with words := w1.words, delays := w1.delays } := by
  have key : ∀ (words1 : List Word) (delays1 : List Int), 0 ≤ w.num_words →
      words1.length = w.num_words.toNat → delays1.length = w.num_words.toNat →
      (∀ j, j < delays1.length → delays1.getD j 0 = kDisabled) →
      w1 = { w with words := words1, delays := delays1 } →
      0 ≤ w.num_words ∧ w1.size = w.num_words ∧
      (w1.delays.length : Int) = w.num_words ∧
      (∀ i : Int, 0 ≤ i → i < w1.size → w1.delay i = kDisabled) ∧
      w1 = { w with words := w1.words, delays := w1.delays } := by
    intro words1 delays1 h0 hl1 hl2 hd hw
    have e1 : w1.words = words1 := by rw [hw]
    have e2 : w1.delays = delays1 := by rw [hw]
    refine ⟨h0, ?_, ?_, fun i i1 i2 => ?_, ?_⟩
    · unfold Wordset.size
      rw [e1, hl1]
      omega
    · rw [e2, hl2]
      omega
    · unfold Wordset.size at i2
      rw [e1, hl1] at i2
      unfold Wordset.delay
      rw [e2, if_pos ⟨i1, by rw [hl2]; omega⟩]
      exact hd i.toNat (by rw [hl2]; omega)
    · rw [e1, e2]
      exact hw
  unfold Wordset.Init at h
  split at h
  · simp at h
  · split at h
    · simp only [Option.some.injEq] at h
      unfold Wordset.InitOrig at h
      split at h
      · simp at h
      · rename_i hn
        split at h
        · simp at h
        · rename_i words1 delays1 st hloop
          simp only [Except.ok.injEq, Prod.mk.injEq] at h
          obtain ⟨r1, r2, r3, _, _⟩ := origWordsLoop_spec _ _ _ _ _ _ _ _ _ _ _ _ _ hloop
          rw [resize_length_eq] at r1 r2 r3
          exact key words1 delays1 (by omega) r1 r2
            (fun j hj => r3 j (Nat.zero_le _) (by omega) (by omega)) h.1.symm
    · unfold Wordset.InitFixed at h
      split at h
      · simp at h
      · rename_i hn
        split at h
        · simp at h
        · split at h
          · simp at h
          · simp at h
          · rename_i words1 delays1 p2 hloop
            simp only [Option.some.injEq, Except.ok.injEq, Prod.mk.injEq] at h
            obtain ⟨r1, r2, r3, _⟩ := fixedWordsLoop_spec _ _ _ _ _ _ _ _ _ _ _ _ _ hloop
            rw [resize_length_eq] at r1 r2 r3
            exact key words1 delays1 (by omega) r1 r2
              (fun j hj => r3 j (Nat.zero_le _) (by omega) (by omega)) h.1.symm

/-- With a positive refractory period and a positive `int32` number of
delays, `Config` returns for every number of words that is not negative,
without using the fuel. -/
theorem config_orig_returns (rand64 : Nat → Nat) (fuel p : Nat) (w : Wordset)
    (nw wl nd R : Int) (hnw : 0 ≤ nw) (hR : 1 ≤ R) (hnd : 1 ≤ nd) (hnd2 : nd ≤ 2147483647) :
    ∃ w1 p1, w.Config rand64 fuel p nw wl nd R = some (.ok (w1, p1)) := by
  unfold Wordset.Config Wordset.Init
  have h1 : (0 : Int) < R := by omega
  simp only [h1, true_or, not_true_eq_false, if_false, if_true]
  unfold Wordset.InitOrig
  simp only []
  rw [if_neg (by omega)]
  obtain ⟨r, hr⟩ := origWordsLoop_total rand64 wl R nd
    (countBits 32 (toUInt32 (max R nd)) 0) hnd hnd2 nw.toNat 0
    ⟨64, rand64 p % 18446744073709551616, p + 1⟩ (resize w.words nw.toNat [])
    (resize w.delays nw.toNat 0)
  rw [hr]
  exact ⟨_, _, rfl⟩

/-- A list with fewer than `wl` entries leaves out a value of `[0, wl)`. -/
theorem exists_fresh (active : List Int) (wl : Int) (h : (active.length : Int) < wl) :
    ∃ v : Int, 0 ≤ v ∧ v < wl ∧ v ∉ active := by
  by_contra hcon
  push_neg at hcon
  have hsub : (List.range wl.toNat).map (fun i : Nat => (i : Int)) ⊆ active := by
    intro x hx
    rw [List.mem_map] at hx
    obtain ⟨a, ha, rfl⟩ := hx
    have := List.mem_range.1 ha
    exact hcon _ (by omega) (by omega)
  have hnd : ((List.range wl.toNat).map (fun i : Nat => (i : Int))).Nodup :=
    (List.nodup_range _).map Nat.cast_injective
  have hle := (List.subperm_of_subset hnd hsub).length_le
  rw [List.length_map, List.length_range] at hle
  omega

/-- The redraw loop of `InitFixed` returns when one of the next `fuel` values
of the stream is a synapse that is not active yet. -/
theorem fixedDraw_returns (rand64 : Nat → Nat) (wl : Int) (active : List Int) (v : Int)
    (hv : v ∉ active) :
    ∀ (fuel p : Nat),
      (∃ k, k < fuel ∧
        toInt32 ((rand64 (p + k) % 18446744073709551616) % toUInt64 wl) = v) →
      ∃ s p1, fixedDraw rand64 wl active fuel p = some (s, p1) := by
  intro fuel
  induction fuel with
  | zero =>
    rintro p ⟨k, hk, _⟩
    exact absurd hk (by omega)
  | succ fuel ih =>
    rintro p ⟨k, hk, hkv⟩
    unfold fixedDraw
    by_cases hin : toInt32 ((rand64 p % 18446744073709551616) % toUInt64 wl) ∈ active
    · rw [if_pos hin]
      cases k with
      | zero =>
        rw [Nat.add_zero] at hkv
        rw [hkv] at hin
        exact absurd hin hv
      | succ j =>
        refine ih (p + 1) ⟨j, by omega, ?_⟩
        rw [← hkv]
        congr 4
        omega
    · rw [if_neg hin]
      exact ⟨_, _, rfl⟩

/-- The loop of `InitFixed` over the active synapses of one word returns when
every window of `fuel` values of the stream reaches every synapse. -/
theorem fixedWordLoop_returns (rand64 : Nat → Nat) (wl nd : Int) (fuel : Nat)
    (hcov : ∀ p : Nat, ∀ v : Int, 0 ≤ v → v < wl → ∃ k, k < fuel ∧
      toInt32 ((rand64 (p + k) % 18446744073709551616) % toUInt64 wl) = v)
    (hnd : toUInt64 nd ≠ 0) :
    ∀ (k p : Nat) (active : List Int) (word : Word), ((active.length + k : Nat) : Int) ≤ wl →
      ∃ r, fixedWordLoop rand64 wl nd fuel k p active word = some (.ok r) := by
  intro k
  induction k with
  | zero =>
    intro p active word _
    exact ⟨_, rfl⟩
  | succ k ih =>
    intro p active word hlen
    obtain ⟨v, v0, v1, v2⟩ := exists_fresh active wl (by omega)
    obtain ⟨s, p1, hd⟩ := fixedDraw_returns rand64 wl active v v2 fuel p (hcov p v v0 v1)
    unfold fixedWordLoop
    rw [hd]
    simp only [hnd, if_false]
    exact ih _ _ _ (by rw [List.length_append, List.length_singleton]; omega)

/-- The loop of `InitFixed` over the words returns when every window of
`fuel` values of the stream reaches every synapse. -/
theorem fixedWordsLoop_returns (rand64 : Nat → Nat) (wl nd na : Int) (fuel : Nat)
    (hcov : ∀ p : Nat, ∀ v : Int, 0 ≤ v → v < wl → ∃ k, k < fuel ∧
      toInt32 ((rand64 (p + k) % 18446744073709551616) % toUInt64 wl) = v)
    (hnd : toUInt64 nd ≠ 0) (hna : 0 ≤ na) (hnw : na ≤ wl) :
    ∀ (k i p : Nat) (words : List Word) (delays : List Int),
      ∃ r, fixedWordsLoop rand64 wl nd na fuel k i p words delays = some (.ok r) := by
  intro k
  induction k with
  | zero =>
    intro i p words delays
    exact ⟨_, rfl⟩
  | succ k ih =>
    intro i p words delays
    obtain ⟨⟨word, p1⟩, hw⟩ := fixedWordLoop_returns rand64 wl nd fuel hcov hnd na.toNat p [] []
      (by rw [List.length_nil]; omega)
    unfold fixedWordsLoop
    rw [hw]
    exact ih _ _ _ _

/-- The function `Init` returns: with a positive refractory period for every
stream and every fuel, and with the fixed policy (`0 < num_active <
word_length`) when every window of `fuel` values of the stream reaches every
synapse; in both cases for a number of words that is not negative and a
positive `int32` number of delays. -/
theorem wordset_init_returns (rand64 : Nat → Nat) (fuel p : Nat) (w : Wordset)
    (hnw : 0 ≤ w.num_words) (hnd : 1 ≤ w.num_delays) (hnd2 : w.num_delays ≤ 2147483647)
    (hpol : 0 < w.refractory_period ∨
      (0 < w.num_active ∧ w.num_active < w.word_length ∧
        ∀ p : Nat, ∀ v : Int, 0 ≤ v → v < w.word_length → ∃ k, k < fuel ∧
          toInt32 ((rand64 (p + k) % 18446744073709551616) % toUInt64 w.word_length) = v)) :
    ∃ w1 p1, w.Init rand64 fuel p = some (.ok (w1, p1)) := by
  unfold Wordset.Init
  by_cases hR : 0 < w.refractory_period
  · simp only [hR, true_or, not_true_eq_false, if_false, if_true]
    unfold Wordset.InitOrig
    rw [if_neg (by omega)]
    obtain ⟨r, hr⟩ := origWordsLoop_total rand64 w.word_length w.refractory_period w.num_delays
      (countBits 32 (toUInt32 (max w.refractory_period w.num_delays)) 0) hnd hnd2
      w.num_words.toNat 0
      ⟨64, rand64 p % 18446744073709551616, p + 1⟩ (resize w.words w.num_words.toNat [])
      (resize w.delays w.num_words.toNat 0)
    rw [hr]
    exact ⟨_, _, rfl⟩
  · obtain ⟨ha, hawl, hcov⟩ := hpol.resolve_left hR
    rw [if_neg (by simp only [not_not]; exact Or.inr ha), if_neg hR]
    unfold Wordset.InitFixed
    rw [if_neg (by omega), if_neg (by simp only [not_not]; exact ⟨ha, hawl⟩)]
    have hnd0 : toUInt64 w.num_delays ≠ 0 := by
      unfold toUInt64
      omega
    obtain ⟨⟨words1, delays1, p2⟩, hr⟩ :=
      fixedWordsLoop_returns rand64 w.word_length w.num_delays w.num_active fuel hcov hnd0
        (by omega) (by omega) w.num_words.toNat 0 p (resize w.words w.num_words.toNat [])
        (resize w.delays w.num_words.toNat 0)
    rw [hr]
    exact ⟨_, _, rfl⟩

/-- Every window of eight values of the counting stream reaches every synapse
of a word of length 8. -/
theorem counting_covers (p : Nat) (v : Int) (h0 : 0 ≤ v) (h1 : v < 8) :
    ∃ k, k < 8 ∧
      toInt32 ((countingRand64 (p + k) % 18446744073709551616) % toUInt64 8) = v := by
  have e8 : toUInt64 8 = 8 := by decide
  refine ⟨(v.toNat + 8 - p % 8) % 8, by omega, ?_⟩
  rw [e8]
  unfold countingRand64 toInt32
  have hlt : (p + (v.toNat + 8 - p % 8) % 8) % 18446744073709551616 % 8 = v.toNat := by omega
  rw [hlt]
  have hv : v.toNat % 4294967296 = v.toNat := by omega
  rw [hv, if_pos (by omega)]
  omega

/-- C29: `Init`, `Config`, `ConfigFixed` and `set_size` return, and whenever
they return `size()` is the configured number of words, the delay vector has
that many entries, and `delay(i) == kDisabled` for every `i` in `[0, size)`,
whatever the wordset held before.  They return for a number of words that is
not negative and a positive `int32` number of delays: with a positive
refractory period for every stream of random numbers, and with the fixed
policy (`0 < num_active < word_length`) when every window of `fuel` values of
the stream reaches every synapse, so that the redraw loop of `InitFixed`,
which has no bound in the code, finds a new synapse.  A delay recorded with
`set_delay(i, d)` for `i` inside the delay vector is what `delay(i)` returns
afterwards, and recording it changes no word and no other delay. -/
theorem c29_wordset_delays (rand64 : Nat → Nat) (fuel p : Nat) (w : Wordset) :
    (∀ w1 p1, w.Init rand64 fuel p = some (.ok (w1, p1)) →
      w1.size = w.num_words ∧ (w1.delays.length : Int) = w1.size ∧
      ∀ i : Int, 0 ≤ i → i < w1.size → w1.delay i = kDisabled) ∧
    (∀ nw wl nd R w1 p1, w.Config rand64 fuel p nw wl nd R = some (.ok (w1, p1)) →
      w1.size = nw ∧ (w1.delays.length : Int) = w1.size ∧
      ∀ i : Int, 0 ≤ i → i < w1.size → w1.delay i = kDisabled) ∧
    (∀ nw wl nd na w1 p1, w.ConfigFixed rand64 fuel p nw wl nd na = some (.ok (w1, p1)) →
      w1.size = nw ∧ (w1.delays.length : Int) = w1.size ∧
      ∀ i : Int, 0 ≤ i → i < w1.size → w1.delay i = kDisabled) ∧
    (∀ nw w1 p1, w.set_size rand64 fuel p nw = some (.ok (w1, p1)) →
      w1.size = nw ∧ (w1.delays.length : Int) = w1.size ∧
      ∀ i : Int, 0 ≤ i → i < w1.size → w1.delay i = kDisabled) ∧
    (∀ i d : Int, 0 ≤ i → i < (w.delays.length : Int) →
      (w.set_delay i d).delay i = d ∧ (w.set_delay i d).words = w.words ∧
      (w.set_delay i d).size = w.size ∧
      ∀ j : Int, j ≠ i → (w.set_delay i d).delay j = w.delay j) ∧
    (∀ nw wl nd R : Int, 0 ≤ nw → 1 ≤ R → 1 ≤ nd → nd ≤ 2147483647 →
      ∃ w1 p1, w.Config rand64 fuel p nw wl nd R = some (.ok (w1, p1))) ∧
    (0 ≤ w.num_words → 1 ≤ w.num_delays → w.num_delays ≤ 2147483647 →
      (0 < w.refractory_period ∨
        (0 < w.num_active ∧ w.num_active < w.word_length ∧
          ∀ q : Nat, ∀ v : Int, 0 ≤ v → v < w.word_length → ∃ k, k < fuel ∧
            toInt32 ((rand64 (q + k) % 18446744073709551616) % toUInt64 w.word_length)
              = v)) →
      ∃ w1 p1, w.Init rand64 fuel p = some (.ok (w1, p1)) ∧ w1.size = w.num_words ∧
        ∀ i : Int, 0 ≤ i → i < w1.size → w1.delay i = kDisabled) ∧
    (∀ nw wl nd na : Int, 0 ≤ nw → 1 ≤ nd → nd ≤ 2147483647 → 0 < na → na < wl →
      (∀ q : Nat, ∀ v : Int, 0 ≤ v → v < wl → ∃ k, k < fuel ∧
        toInt32 ((rand64 (q + k) % 18446744073709551616) % toUInt64 wl) = v) →
      ∃ w1 p1, w.ConfigFixed rand64 fuel p nw wl nd na = some (.ok (w1, p1)) ∧
        w1.size = nw ∧ ∀ i : Int, 0 ≤ i → i < w1.size → w1.delay i = kDisabled) ∧
    (∀ nw : Int, 0 ≤ nw → 1 ≤ w.num_delays → w.num_delays ≤ 2147483647 →
      (0 < w.refractory_period ∨
        (0 < w.num_active ∧ w.num_active < w.word_length ∧
          ∀ q : Nat, ∀ v : Int, 0 ≤ v → v < w.word_length → ∃ k, k < fuel ∧
            toInt32 ((rand64 (q + k) % 18446744073709551616) % toUInt64 w.word_length)
              = v)) →
      ∃ w1 p1, w.set_size rand64 fuel p nw = some (.ok (w1, p1)) ∧ w1.size = nw ∧
        ∀ i : Int, 0 ≤ i → i < w1.size → w1.delay i = kDisabled) := by
  refine ⟨fun w1 p1 h => ?_, fun nw wl nd R w1 p1 h => ?_, fun nw wl nd na w1 p1 h => ?_,
    fun nw w1 p1 h => ?_, fun i d i1 i2 => ?_,
    fun nw wl nd R a b c d => config_orig_returns rand64 fuel p w nw wl nd R a b c d,
    fun a b c d => ?_, fun nw wl nd na a b c d e f => ?_, fun nw a b c d => ?_⟩
  · obtain ⟨_, r2, r3, r4, _⟩ := wordset_init_spec rand64 fuel p w w1 p1 h
    exact ⟨r2, by rw [r3, r2], r4⟩
  · obtain ⟨_, r2, r3, r4, _⟩ := wordset_init_spec rand64 fuel p _ w1 p1 h
    exact ⟨r2, by rw [r3, r2], r4⟩
  · obtain ⟨_, r2, r3, r4, _⟩ := wordset_init_spec rand64 fuel p _ w1 p1 h
    exact ⟨r2, by rw [r3, r2], r4⟩
  · obtain ⟨_, r2, r3, r4, _⟩ := wordset_init_spec rand64 fuel p _ w1 p1 h
    exact ⟨r2, by rw [r3, r2], r4⟩
  · have hs : w.set_delay i d = { w with delays := w.delays.set i.toNat d } := by
      unfold Wordset.set_delay
      rw [if_pos ⟨i1, i2⟩]
    rw [hs]
    refine ⟨?_, rfl, rfl, fun j hj => ?_⟩
    · unfold Wordset.delay
      simp only [List.length_set]
      rw [if_pos ⟨i1, i2⟩, getD_set_self _ _ _ _ (by omega)]
    · unfold Wordset.delay
      simp only [List.length_set]
      by_cases hc : 0 ≤ j ∧ j < (w.delays.length : Int)
      · rw [if_pos hc, if_pos hc, getD_set_other _ _ _ _ _ (by omega)]
      · rw [if_neg hc, if_neg hc]
  · obtain ⟨w1, p1, h⟩ := wordset_init_returns rand64 fuel p w a b c d
    obtain ⟨_, r2, _, r4, _⟩ := wordset_init_spec rand64 fuel p w w1 p1 h
    exact ⟨w1, p1, h, r2, r4⟩
  · obtain ⟨w1, p1, h⟩ := wordset_init_returns rand64 fuel p
      { w with
          num_active := na
          num_words := nw
          word_length := wl
          num_delays := nd
          refractory_period := -1 } a b c (Or.inr ⟨d, e, f⟩)
    obtain ⟨_, r2, _, r4, _⟩ := wordset_init_spec rand64 fuel p _ w1 p1 h
    exact ⟨w1, p1, h, r2, r4⟩
  · obtain ⟨w1, p1, h⟩ := wordset_init_returns rand64 fuel p { w with num_words := nw } a b c d
    obtain ⟨_, r2, _, r4, _⟩ := wordset_init_spec rand64 fuel p _ w1 p1 h
    exact ⟨w1, p1, h, r2, r4⟩

/-- C29 on the example wordsets: `Config(2, 6, 3, 2)` and
`ConfigFixed(2, 8, 4, 3)` on a new `Wordset` leave two words with the delay
`kDisabled`; a delay recorded for the word 1 is returned by `delay(1)`;
`Init` sets it to `kDisabled` again, and so does `set_size(3)`, which leaves
three words; with the counting stream `ConfigFixed(2, 8, 4, 3)`, `Init` and
`set_size(1)` return for the fixed policy. -/
theorem c29_wordset_delays_witness :
    Wordset.new.Config exampleRand64 0 0 2 6 3 2 = some (.ok (exampleOrigWordset, 1)) ∧
      Wordset.new.ConfigFixed exampleRand64 5 0 2 8 4 3
        = some (.ok (exampleFixedWordset, 12)) ∧
      exampleOrigWordset.size = 2 ∧
      (∀ i : Int, 0 ≤ i → i < exampleOrigWordset.size →
        exampleOrigWordset.delay i = kDisabled) ∧
      (exampleOrigWordset.set_delay 1 2).delay 1 = 2 ∧
      ((exampleOrigWordset.set_delay 1 2).Init exampleRand64 0 0).map
          (fun r => r.map fun x => x.1.delays)
        = some (.ok [kDisabled, kDisabled]) ∧
      (∃ w1 p1, (exampleOrigWordset.set_delay 1 2).Init exampleRand64 0 0
          = some (.ok (w1, p1)) ∧ w1.size = 2 ∧
        ∀ i : Int, 0 ≤ i → i < w1.size → w1.delay i = kDisabled) ∧
      (exampleOrigWordset.set_delay 1 2).set_size exampleRand64 0 1 3
        = some (.ok (exampleResizedWordset, 2)) ∧
      (∃ w1 p1, (exampleOrigWordset.set_delay 1 2).set_size exampleRand64 0 1 3
          = some (.ok (w1, p1)) ∧ w1.size = 3 ∧
        ∀ i : Int, 0 ≤ i → i < w1.size → w1.delay i = kDisabled) ∧
      (exampleResizedWordset.size = 3 ∧
        ∀ i : Int, 0 ≤ i → i < exampleResizedWordset.size →
          exampleResizedWordset.delay i = kDisabled) ∧
      Wordset.new.ConfigFixed countingRand64 8 0 2 8 4 3
        = some (.ok (exampleCountingWordset, 12)) ∧
      (∃ w1 p1, Wordset.new.ConfigFixed countingRand64 8 0 2 8 4 3 = some (.ok (w1, p1)) ∧
        w1.size = 2 ∧ ∀ i : Int, 0 ≤ i → i < w1.size → w1.delay i = kDisabled) ∧
      (∃ w1 p1, (exampleCountingWordset.set_delay 0 1).Init countingRand64 8 3
          = some (.ok (w1, p1)) ∧ w1.size = 2 ∧
        ∀ i : Int, 0 ≤ i → i < w1.size → w1.delay i = kDisabled) ∧
      (∃ w1 p1, (exampleCountingWordset.set_delay 0 1).set_size countingRand64 8 3 1
          = some (.ok (w1, p1)) ∧ w1.size = 1 ∧
        ∀ i : Int, 0 ≤ i → i < w1.size → w1.delay i = kDisabled) :=
  ⟨by decide!, by decide!,
    ((c29_wordset_delays exampleRand64 0 0 Wordset.new).2.1 2 6 3 2 exampleOrigWordset 1
      (by decide!)).1,
    ((c29_wordset_delays exampleRand64 0 0 Wordset.new).2.1 2 6 3 2 exampleOrigWordset 1
      (by decide!)).2.2,
    ((c29_wordset_delays exampleRand64 0 0 exampleOrigWordset).2.2.2.2.1 1 2 (by decide)
      (by decide)).1,
    by decide!,
    (c29_wordset_delays exampleRand64 0 0 (exampleOrigWordset.set_delay 1 2)).2.2.2.2.2.2.1
      (by decide) (by decide) (by decide) (Or.inl (by decide)),
    by decide!,
    (c29_wordset_delays exampleRand64 0 1 (exampleOrigWordset.set_delay 1 2)).2.2.2.2.2.2.2.2 3
      (by decide) (by decide) (by decide) (Or.inl (by decide)),
    ⟨((c29_wordset_delays exampleRand64 0 1 (exampleOrigWordset.set_delay 1 2)).2.2.2.1 3
        exampleResizedWordset 2 (by decide!)).1,
      ((c29_wordset_delays exampleRand64 0 1 (exampleOrigWordset.set_delay 1 2)).2.2.2.1 3
        exampleResizedWordset 2 (by decide!)).2.2⟩,
    by decide!,
    (c29_wordset_delays countingRand64 8 0 Wordset.new).2.2.2.2.2.2.2.1 2 8 4 3 (by decide)
      (by decide) (by decide) (by decide) (by decide) counting_covers,
    (c29_wordset_delays countingRand64 8 3 (exampleCountingWordset.set_delay 0 1)).2.2.2.2.2.2.1
      (by decide) (by decide) (by decide)
      (Or.inr ⟨by decide, by decide, counting_covers⟩),
    (c29_wordset_delays countingRand64 8 3
      (exampleCountingWordset.set_delay 0 1)).2.2.2.2.2.2.2.2 1
      (by decide) (by decide) (by decide)
      (Or.inr ⟨by decide, by decide, counting_covers⟩)⟩

/-- C30: for every stream of random numbers and every
`Config(numWords, wordLength, numDelays, R)` with `R >= 1` and `numDelays >= 1`
(an `int32` value), the call returns when `numWords` is not negative, and
whenever it returns each generated word lists its entries with strictly
increasing synapse indices, so that no synapse appears twice, every synapse
index lies in `[0, wordLength)` and every delay value lies in
`[0, numDelays)`. -/
theorem c30_orig_words (rand64 : Nat → Nat) (fuel p : Nat) (w : Wordset)
    (nw wl nd R : Int) (hR : 1 ≤ R) (hnd : 1 ≤ nd) (hnd2 : nd ≤ 2147483647) :
    (0 ≤ nw → ∃ w1 p1, w.Config rand64 fuel p nw wl nd R = some (.ok (w1, p1))) ∧
    (∀ w1 p1, w.Config rand64 fuel p nw wl nd R = some (.ok (w1, p1)) →
      w1.size = nw ∧
      ∀ word ∈ w1.words,
        (word.map Prod.fst).Pairwise (fun x y => x < y) ∧ (word.map Prod.fst).Nodup ∧
        ∀ e ∈ word, 0 ≤ e.1 ∧ e.1 < wl ∧ 0 ≤ e.2 ∧ e.2 < nd) := by
  refine ⟨fun hnw => config_orig_returns rand64 fuel p w nw wl nd R hnw hR hnd hnd2,
    fun w1 p1 h => ?_⟩
  have hsize := (wordset_init_spec rand64 fuel p _ w1 p1 h).2.1
  refine ⟨hsize, fun word hword => ?_⟩
  unfold Wordset.Config Wordset.Init at h
  have h1 : (0 : Int) < R := by omega
  simp only [h1, true_or, not_true_eq_false, if_false, if_true, Option.some.injEq] at h
  unfold Wordset.InitOrig at h
  simp only [] at h
  split at h
  · simp at h
  · rename_i hn
    split at h
    · simp at h
    · rename_i words1 delays1 st hloop
      simp only [Except.ok.injEq, Prod.mk.injEq] at h
      have e1 : w1.words = words1 := by rw [← h.1]
      rw [e1] at hword
      obtain ⟨r1, _, _, _, r5⟩ := origWordsLoop_spec _ _ _ _ _ _ _ _ _ _ _ _ _ hloop
      rw [resize_length_eq] at r1 r5
      obtain ⟨j, hj, hjw⟩ := (mem_iff_getD words1 [] word).1 hword
      obtain ⟨s, s1, hs⟩ := r5 j (Nat.zero_le _) (by omega) (by omega)
      obtain ⟨res, st1, q1, q2, q3⟩ :=
        origWordLoop_spec rand64 R nd (countBits 32 (toUInt32 (max R nd)) 0) hnd hnd2
          wl.toNat 0 s [] (le_refl _) (by simp) (by simp)
      rw [hs] at q1
      simp only [Except.ok.injEq, Prod.mk.injEq] at q1
      rw [hjw] at q1
      rw [q1.1]
      refine ⟨q2, ?_, fun e he => ?_⟩
      · exact List.Pairwise.imp (fun hxy => ne_of_lt hxy) q2
      · have := q3 e he
        exact ⟨this.1, by omega, this.2.2⟩

/-- C30 on `Config(2, 6, 3, 2)` with the stream `exampleRand64`: the first
word has the synapses 0, 1, 2, 3, 5. -/
theorem c30_orig_words_witness :
    (1 : Int) ≤ 2 ∧ (1 : Int) ≤ 3 ∧
      Wordset.new.Config exampleRand64 0 0 2 6 3 2 = some (.ok (exampleOrigWordset, 1)) ∧
      exampleOrigWordset.words.map (fun word => word.map Prod.fst)
        = [[0, 1, 2, 3, 5], [0, 2, 3, 4]] ∧
      (∀ word ∈ exampleOrigWordset.words,
        (word.map Prod.fst).Pairwise (fun x y => x < y) ∧ (word.map Prod.fst).Nodup ∧
        ∀ e ∈ word, 0 ≤ e.1 ∧ e.1 < 6 ∧ 0 ≤ e.2 ∧ e.2 < 3) :=
  ⟨by decide, by decide, by decide!, by decide,
    ((c30_orig_words exampleRand64 0 0 Wordset.new 2 6 3 2 (by decide) (by decide)
      (by decide)).2 exampleOrigWordset 1 (by decide!)).2⟩



theorem binade_of_bounds (x : ℚ) (hx : 0 < x) (k : ℤ) (h1 : (2 : ℚ) ^ (k + 52) ≤ x)
    (h2 : x < (2 : ℚ) ^ (k + 53)) : binade x = k := by
  unfold binade
  have a1 := (Int.zpow_le_iff_le_log (b := 2) (by norm_num) hx (x := k + 52)).1
    (by simpa using h1)
  have a2 := (Int.lt_zpow_iff_log_lt (b := 2) (by norm_num) hx (x := k + 53)).1
    (by simpa using h2)
  omega

/-- The rounding of a positive value whose binade and rounded significand are
known. -/
theorem round53_eval (q : ℚ) (k m : ℤ) (hq : 0 < q) (h1 : (2 : ℚ) ^ (k + 52) ≤ q)
    (h2 : q < (2 : ℚ) ^ (k + 53)) (hm : roundHalfEven (q / 2 ^ k) = m) :
    round53 q = (m : ℚ) * 2 ^ k := by
  unfold round53
  rw [if_pos hq]
  unfold roundPos
  rw [binade_of_bounds q hq k h1 h2, hm]

theorem round53_zero : round53 0 = 0 := by simp [round53]

theorem round53_one : round53 1 = 1 := by
  rw [round53_eval 1 (-52) 4503599627370496 (by norm_num) (by norm_num) (by norm_num)
    (by norm_num; decide!)]
  norm_num

theorem round53_two : round53 2 = 2 := by
  rw [round53_eval 2 (-51) 4503599627370496 (by norm_num) (by norm_num) (by norm_num)
    (by norm_num; decide!)]
  norm_num

theorem round53_big : round53 9007199254740992 = 9007199254740992 := by
  rw [round53_eval 9007199254740992 1 4503599627370496 (by norm_num) (by norm_num) (by norm_num)
    (by norm_num; decide!)]
  norm_num

theorem round53_big_one : round53 9007199254740993 = 9007199254740992 := by
  rw [round53_eval 9007199254740993 1 4503599627370496 (by norm_num) (by norm_num) (by norm_num)
    (by norm_num; decide!)]
  norm_num

theorem round53_big_two : round53 9007199254740994 = 9007199254740994 := by
  rw [round53_eval 9007199254740994 1 4503599627370497 (by norm_num) (by norm_num) (by norm_num)
    (by norm_num; decide!)]
  norm_num

theorem round53_three : round53 3 = 3 := by
  rw [round53_eval 3 (-51) 6755399441055744 (by norm_num) (by norm_num) (by norm_num)
    (by norm_num; decide!)]
  norm_num

theorem round53_square : round53 81129638414606681695789005144064
    = 81129638414606681695789005144064 := by
  rw [round53_eval 81129638414606681695789005144064 54 4503599627370496 (by norm_num)
    (by norm_num) (by norm_num) (by norm_num; decide!)]
  norm_num

theorem round53_square_one : round53 81129638414606681695789005144065
    = 81129638414606681695789005144064 := by
  rw [round53_eval 81129638414606681695789005144065 54 4503599627370496 (by norm_num)
    (by norm_num) (by norm_num) (by norm_num; decide!)]
  norm_num

theorem round53_square_two : round53 81129638414606681695789005144066
    = 81129638414606681695789005144064 := by
  rw [round53_eval 81129638414606681695789005144066 54 4503599627370496 (by norm_num)
    (by norm_num) (by norm_num) (by norm_num; decide!)]
  norm_num

theorem round53_left_mean : round53 (9007199254740992 / 3) = 6004799503160661 / 2 := by
  rw [round53_eval (9007199254740992 / 3) (-1) 6004799503160661 (by norm_num) (by norm_num)
    (by norm_num) (by norm_num; decide!)]
  norm_num

theorem round53_right_mean : round53 (9007199254740994 / 3) = 6004799503160663 / 2 := by
  rw [round53_eval (9007199254740994 / 3) (-1) 6004799503160663 (by norm_num) (by norm_num)
    (by norm_num) (by norm_num; decide!)]
  norm_num

/-- Two `double` values with the same rational value are equal. -/
theorem binary64_ext (a b : Binary64) (h : a.val = b.val) : a = b := by
  cases a
  cases b
  simp only at h
  subst h
  rfl

theorem binary64_add_val (a b : Binary64) : (a + b).val = round53 (a.val + b.val) := rfl

theorem binary64_mul_val (a b : Binary64) : (a * b).val = round53 (a.val * b.val) := rfl

theorem binary64_div_val (a b : Binary64) : (a / b).val = round53 (a.val / b.val) := rfl

theorem binary64_round_val (q : ℚ) : (Binary64.round q).val = round53 q := rfl

theorem binary64_zero_val : (0 : Binary64).val = 0 := round53_zero

theorem binary64_one_val : (1 : Binary64).val = 1 := round53_one

theorem bigValue_val : bigValue.val = 9007199254740992 := round53_big

theorem bigSquare_val : bigSquare.val = 81129638414606681695789005144064 := round53_square

/-- The result of `operator+=` from its fields. -/
theorem plusAssign_of_fields (a b r : Statistic F) (h1 : checkValues a) (h2 : checkValues b)
    (h3 : checkSums a) (h4 : checkSums b) (hc : plusCount a.count_ b.count_ = .ok r.count_)
    (hs : plusValue a.sum_ b.sum_ = r.sum_) (hss : plusValue a.ssum_ b.ssum_ = r.ssum_)
    (hv : (if a.has_count = true ∧ 0 < a.count ∧ b.has_count = true ∧ 0 < b.count ∧
        (a.count ≠ a.values_size ∨ b.count ≠ b.values_size) then []
      else a.values_ ++ b.values_) = r.values_) :
    a.plusAssign b = .ok r := by
  rw [plusAssign_ok_iff]
  refine ⟨h1, h2, h3, h4, r.count_, hc, ?_⟩
  rw [hs, hss, hv]

theorem bigSample_built : AddSample bigValue Statistic.empty = .ok bigSample := by
  rw [addSample_ok_iff]
  refine ⟨by decide, by decide, by decide, ?_⟩
  have e1 : (Statistic.empty : Statistic Binary64).sum + bigValue = bigValue := by
    apply binary64_ext
    show round53 ((0 : Binary64).val + bigValue.val) = bigValue.val
    rw [binary64_zero_val, bigValue_val, zero_add, round53_big]
  have e2 : (Statistic.empty : Statistic Binary64).ssum + bigValue * bigValue = bigSquare := by
    apply binary64_ext
    show round53 ((0 : Binary64).val + round53 (bigValue.val * bigValue.val)) = bigSquare.val
    rw [binary64_zero_val, bigValue_val, bigSquare_val, zero_add]
    norm_num
    rw [round53_square, round53_square]
  rw [e1, e2]
  rfl

theorem oneSample_built : AddSample 1 Statistic.empty = .ok oneSample := by
  rw [addSample_ok_iff]
  refine ⟨by decide, by decide, by decide, ?_⟩
  have e1 : (Statistic.empty : Statistic Binary64).sum + 1 = 1 := by
    apply binary64_ext
    show round53 ((0 : Binary64).val + (1 : Binary64).val) = (1 : Binary64).val
    rw [binary64_zero_val, binary64_one_val, zero_add, round53_one]
  have e2 : (Statistic.empty : Statistic Binary64).ssum + 1 * 1 = 1 := by
    apply binary64_ext
    show round53 ((0 : Binary64).val + round53 ((1 : Binary64).val * (1 : Binary64).val))
      = (1 : Binary64).val
    rw [binary64_zero_val, binary64_one_val, zero_add, mul_one, round53_one, round53_one]
  rw [e1, e2]
  rfl

theorem big_plus_one : bigValue + 1 = bigValue := by
  apply binary64_ext
  rw [binary64_add_val, bigValue_val, binary64_one_val]
  norm_num
  exact round53_big_one

theorem square_plus_one : bigSquare + 1 = bigSquare := by
  apply binary64_ext
  rw [binary64_add_val, bigSquare_val, binary64_one_val]
  norm_num
  exact round53_square_one

theorem one_plus_one : (1 : Binary64) + 1 = Binary64.round 2 := by
  apply binary64_ext
  rw [binary64_add_val, binary64_one_val, binary64_round_val]
  norm_num

theorem big_plus_two : bigValue + Binary64.round 2 = Binary64.round 9007199254740994 := by
  apply binary64_ext
  rw [binary64_add_val, bigValue_val, binary64_round_val, binary64_round_val, round53_two]
  norm_num

theorem two_plus_big : Binary64.round 2 + bigValue = Binary64.round 9007199254740994 := by
  apply binary64_ext
  rw [binary64_add_val, bigValue_val, binary64_round_val, binary64_round_val, round53_two]
  norm_num

theorem square_plus_two : bigSquare + Binary64.round 2 = bigSquare := by
  apply binary64_ext
  rw [binary64_add_val, bigSquare_val, binary64_round_val, round53_two]
  norm_num
  exact round53_square_two

theorem two_plus_square : Binary64.round 2 + bigSquare = bigSquare := by
  apply binary64_ext
  rw [binary64_add_val, bigSquare_val, binary64_round_val, round53_two]
  norm_num
  exact round53_square_two

theorem bigOne_built : bigSample.plusAssign oneSample = .ok bigOne :=
  plusAssign_of_fields bigSample oneSample bigOne (by decide) (by decide) (by decide)
    (by decide) rfl (congrArg some big_plus_one) (congrArg some square_plus_one) rfl

theorem leftSum_built : bigOne.plusAssign oneSample = .ok leftSum :=
  plusAssign_of_fields bigOne oneSample leftSum (by decide) (by decide) (by decide)
    (by decide) rfl (congrArg some big_plus_one) (congrArg some square_plus_one) rfl

theorem oneOne_built : oneSample.plusAssign oneSample = .ok oneOne :=
  plusAssign_of_fields oneSample oneSample oneOne (by decide) (by decide) (by decide)
    (by decide) rfl (congrArg some one_plus_one) (congrArg some one_plus_one) rfl

theorem rightSum_built : bigSample.plusAssign oneOne = .ok rightSum :=
  plusAssign_of_fields bigSample oneOne rightSum (by decide) (by decide) (by decide)
    (by decide) rfl (congrArg some big_plus_two) (congrArg some square_plus_two) rfl

theorem lastSum_built : oneOne.plusAssign bigSample = .ok lastSum :=
  plusAssign_of_fields oneOne bigSample lastSum (by decide) (by decide) (by decide)
    (by decide) rfl (congrArg some two_plus_big) (congrArg some two_plus_square) rfl

theorem empty_plus_built (s : Statistic Binary64) (hv : checkValues s) (hs : checkSums s) :
    (Statistic.empty : Statistic Binary64).plusAssign s = .ok s := by
  apply plusAssign_of_fields _ _ _ (by decide) hv (by decide) hs
  · show plusCount none s.count_ = _
    cases s.count_ <;> rfl
  · exact (plusValue_spec _ _).2.1 rfl
  · exact (plusValue_spec _ _).2.1 rfl
  · rw [if_neg (by simp [Statistic.has_count, Statistic.empty])]
    rfl

theorem mergeAll_cons_ok (acc t : Statistic F) (ts : List (Statistic F)) (acc1 : Statistic F)
    (h : acc.plusAssign t = .ok acc1) : mergeAll acc (t :: ts) = mergeAll acc1 ts := by
  rw [mergeAll, h]

theorem mergeAll_cons_error (acc t : Statistic F) (ts : List (Statistic F)) (e : Fault)
    (h : acc.plusAssign t = .error e) : mergeAll acc (t :: ts) = .error e := by
  rw [mergeAll, h]

theorem leftSum_mean : ∃ m, Mean leftSum = .ok m ∧ m.val = 6004799503160661 / 2 := by
  refine ⟨leftSum.sum / DoubleModel.ofInt leftSum.count, ?_, ?_⟩
  · rw [Mean, if_neg (by decide), if_neg (by decide), if_pos (by decide)]
  · show round53 (bigValue.val / round53 ((3 : Int) : ℚ)) = _
    rw [bigValue_val]
    norm_num
    rw [round53_three]
    exact round53_left_mean

theorem rightSum_mean : ∃ m, Mean rightSum = .ok m ∧ m.val = 6004799503160663 / 2 := by
  refine ⟨rightSum.sum / DoubleModel.ofInt rightSum.count, ?_, ?_⟩
  · rw [Mean, if_neg (by decide), if_neg (by decide), if_pos (by decide)]
  · show round53 (round53 9007199254740994 / round53 ((3 : Int) : ℚ)) = _
    rw [round53_big_two]
    norm_num
    rw [round53_three]
    exact round53_right_mean

/-- C24 fails in the arithmetic of `double`.  For the statistic `a` of the one
sample `2^53` and the statistics `b` and `c` of the one sample `1.0`, the sum
of `(a + b) + c` is `2^53` (`2^53 + 1` is rounded to `2^53`, twice) and the
sum of `a + (b + c)` is `2^53 + 2`, so that the two means differ as well; and
merging the three statistics into an empty one gives the sum `2^53` in the
order `a, b, c` and the sum `2^53 + 2` in the order `b, c, a`. -/
theorem c24_combine_order_counterexample :
    AddSample bigValue Statistic.empty = .ok bigSample ∧
    AddSample 1 Statistic.empty = .ok oneSample ∧
    bigSample.plus oneSample = .ok bigOne ∧ bigOne.plus oneSample = .ok leftSum ∧
    oneSample.plus oneSample = .ok oneOne ∧ bigSample.plus oneOne = .ok rightSum ∧
    leftSum.sum.val = 9007199254740992 ∧ rightSum.sum.val = 9007199254740994 ∧
    leftSum.sum ≠ rightSum.sum ∧
    (∃ m1 m2, Mean leftSum = .ok m1 ∧ Mean rightSum = .ok m2 ∧
      m1.val = 6004799503160661 / 2 ∧ m2.val = 6004799503160663 / 2) ∧
    mergeAll Statistic.empty [bigSample, oneSample, oneSample] = .ok leftSum ∧
    mergeAll Statistic.empty [oneSample, oneSample, bigSample] = .ok lastSum ∧
    lastSum.sum.val = 9007199254740994 := by
  have hl : leftSum.sum.val = 9007199254740992 := bigValue_val
  have hr : rightSum.sum.val = 9007199254740994 := round53_big_two
  have hne : leftSum.sum ≠ rightSum.sum := by
    intro h
    have h2 := congrArg Binary64.val h
    rw [hl, hr] at h2
    exact absurd h2 (by norm_num)
  obtain ⟨m1, hm1, hv1⟩ := leftSum_mean
  obtain ⟨m2, hm2, hv2⟩ := rightSum_mean
  refine ⟨bigSample_built, oneSample_built, bigOne_built, leftSum_built, oneOne_built,
    rightSum_built, hl, hr, hne, ⟨m1, m2, hm1, hm2, hv1, hv2⟩, ?_, ?_, round53_big_two⟩
  · rw [mergeAll_cons_ok _ _ _ _ (empty_plus_built bigSample (by decide) (by decide)),
      mergeAll_cons_ok _ _ _ _ bigOne_built, mergeAll_cons_ok _ _ _ _ leftSum_built]
    rfl
  · rw [mergeAll_cons_ok _ _ _ _ (empty_plus_built oneSample (by decide) (by decide)),
      mergeAll_cons_ok _ _ _ _ oneOne_built, mergeAll_cons_ok _ _ _ _ lastSum_built]
    rfl

/-- A statistic that passes the two checks has the invariant. -/
theorem inv_of_checks (s : Statistic F) (hv : checkValues s) (hs : checkSums s) :
    0 ≤ s.count ∧ (s.values_ = [] ∨ s.values_size = s.count) ∧
      (0 < s.count → s.has_sum = true ∧ s.has_ssum = true) := by
  refine ⟨count_nonneg_of_checkSums s hs, ?_, fun hpos => ?_⟩
  · rcases hv with ⟨_, hz⟩ | ⟨_, hz | he⟩
    · exact Or.inl (values_nil_of_size s hz)
    · exact Or.inl (values_nil_of_size s hz)
    · exact Or.inr he.symm
  · rcases hs with h | h | h
    · rw [count_of_no_count s h] at hpos
      exact absurd hpos (by decide)
    · rw [h] at hpos
      exact absurd hpos (by decide)
    · exact h.2

/-- The result of `operator+=` passes the two checks. -/
theorem plusAssign_checks (a b r : Statistic F) (h : a.plusAssign b = .ok r) :
    checkValues r ∧ checkSums r := by
  have h0 := h
  rw [plusAssign_ok_iff] at h0
  obtain ⟨h1, h2, h3, h4, _⟩ := h0
  exact checks_of_inv r (plusAssign_inv a b r (inv_of_checks a h1 h3) (inv_of_checks b h2 h4) h)

/-- The summary fields of the result of `operator+=`. -/
theorem plusAssign_summary (a b r : Statistic F) (h : a.plusAssign b = .ok r) :
    plusCount a.count_ b.count_ = .ok r.count_ ∧ r.sum_ = plusValue a.sum_ b.sum_ ∧
      r.ssum_ = plusValue a.ssum_ b.ssum_ := by
  rw [plusAssign_ok_iff] at h
  obtain ⟨_, _, _, _, c, hc, hreq⟩ := h
  rw [hreq]
  exact ⟨hc, rfl, rfl⟩

theorem option_eq_of_getD (x y : Option Int) (h1 : x.getD 0 = y.getD 0)
    (h2 : x.isSome = y.isSome) : x = y := by
  cases x with
  | none =>
    cases y with
    | none => rfl
    | some v => exact absurd h2 (by simp)
  | some u =>
    cases y with
    | none => exact absurd h2 (by simp)
    | some v =>
      simp only [Option.getD_some] at h1
      rw [h1]

theorem plusCount_assoc (a b c ab abc bc abc2 : Option Int) (h1 : plusCount a b = .ok ab)
    (h2 : plusCount ab c = .ok abc) (h3 : plusCount b c = .ok bc)
    (h4 : plusCount a bc = .ok abc2) : abc = abc2 := by
  obtain ⟨a1, a2, _⟩ := plusCount_spec _ _ _ h1
  obtain ⟨b1, b2, _⟩ := plusCount_spec _ _ _ h2
  obtain ⟨c1, c2, _⟩ := plusCount_spec _ _ _ h3
  obtain ⟨d1, d2, _⟩ := plusCount_spec _ _ _ h4
  apply option_eq_of_getD
  · rw [b1, a1, d1, c1, add_assoc]
  · rw [b2, a2, d2, c2, Bool.or_assoc]

theorem plusCount_comm (a b ab ba : Option Int) (h1 : plusCount a b = .ok ab)
    (h2 : plusCount b a = .ok ba) : ab = ba := by
  obtain ⟨a1, a2, _⟩ := plusCount_spec _ _ _ h1
  obtain ⟨b1, b2, _⟩ := plusCount_spec _ _ _ h2
  apply option_eq_of_getD
  · rw [a1, b1, add_comm]
  · rw [a2, b2, Bool.or_comm]

theorem plusValue_assoc_iff (x y z : Option F) :
    plusValue (plusValue x y) z = plusValue x (plusValue y z) ↔
      (x.isSome = true → y.isSome = true → z.isSome = true →
        x.getD 0 + y.getD 0 + z.getD 0 = x.getD 0 + (y.getD 0 + z.getD 0)) := by
  cases x <;> cases y <;> cases z <;> simp [plusValue]

theorem plusValue_comm_iff (x y : Option F) :
    plusValue x y = plusValue y x ↔
      (x.isSome = true → y.isSome = true → x.getD 0 + y.getD 0 = y.getD 0 + x.getD 0) := by
  cases x <;> cases y <;> simp [plusValue]

/-- The function `Mean` reads the summary fields only, on statistics that pass
the checks. -/
theorem mean_congr (r1 r2 : Statistic F) (h1 : checkValues r1 ∧ checkSums r1)
    (h2 : checkValues r2 ∧ checkSums r2) (hc : r1.count_ = r2.count_)
    (hs : r1.sum_ = r2.sum_) : Mean r1 = Mean r2 := by
  unfold Mean
  simp only [h1.1, h1.2, h2.1, h2.2, not_true_eq_false, if_false]
  unfold Statistic.has_count Statistic.has_sum Statistic.count Statistic.sum
  rw [hc, hs]

/-- The function `Stddev` reads the summary fields only, on statistics that
pass the checks. -/
theorem stddev_congr (sqrt : F → F) (r1 r2 : Statistic F) (h1 : checkValues r1 ∧ checkSums r1)
    (h2 : checkValues r2 ∧ checkSums r2) (hc : r1.count_ = r2.count_)
    (hs : r1.sum_ = r2.sum_) (hss : r1.ssum_ = r2.ssum_) :
    Stddev sqrt r1 = Stddev sqrt r2 := by
  unfold Stddev
  simp only [h1.1, h1.2, h2.1, h2.2, not_true_eq_false, if_false]
  unfold Statistic.has_count Statistic.has_sum Statistic.has_ssum Statistic.count
    Statistic.sum Statistic.ssum
  rw [hc, hs, hss]

theorem counts_sum_nonneg (l : List (Statistic F)) (h : ∀ t ∈ l, checkSums t) :
    0 ≤ (l.map Statistic.count).sum := by
  apply List.sum_nonneg
  intro x hx
  rw [List.mem_map] at hx
  obtain ⟨t, ht, rfl⟩ := hx
  exact count_nonneg_of_checkSums t (h t ht)

/-- The summary of the statistics merged into an accumulator. -/
theorem mergeAll_summary (l : List (Statistic F)) : ∀ acc r : Statistic F,
    mergeAll acc l = .ok r →
      r.count = acc.count + (l.map Statistic.count).sum ∧
      (r.has_count = true ↔ acc.has_count = true ∨ ∃ t ∈ l, t.has_count = true) ∧
      r.sum_ = l.foldl (fun s t => plusValue s t.sum_) acc.sum_ ∧
      r.ssum_ = l.foldl (fun s t => plusValue s t.ssum_) acc.ssum_ ∧
      (l ≠ [] → checkValues r ∧ checkSums r) := by
  induction l with
  | nil =>
    intro acc r h
    simp only [mergeAll, Except.ok.injEq] at h
    subst h
    simp
  | cons t ts ih =>
    intro acc r h
    cases hp : acc.plusAssign t with
    | error e =>
      rw [mergeAll_cons_error acc t ts e hp] at h
      exact absurd h (by simp)
    | ok acc1 =>
      rw [mergeAll_cons_ok acc t ts acc1 hp] at h
      obtain ⟨i1, i2, i3, i4, i5⟩ := ih acc1 r h
      obtain ⟨s1, s2, s3⟩ := plusAssign_summary acc t acc1 hp
      obtain ⟨c1, c2, _⟩ := plusCount_spec _ _ _ s1
      have hc1 : acc1.count = acc.count + t.count := c1
      have hc2 : acc1.has_count = (acc.has_count || t.has_count) := c2
      refine ⟨?_, ?_, ?_, ?_, fun _ => ?_⟩
      · rw [i1, hc1, List.map_cons, List.sum_cons]
        ring
      · rw [i2, hc2, Bool.or_eq_true, or_assoc]
        simp only [List.mem_cons, exists_eq_or_imp]
      · rw [i3, s2, List.foldl_cons]
      · rw [i4, s3, List.foldl_cons]
      · by_cases hts : ts = []
        · subst hts
          simp only [mergeAll, Except.ok.injEq] at h
          subst h
          exact plusAssign_checks acc t _ hp
        · exact i5 hts

/-- When merging a list of statistics into an accumulator returns, for counts
that are `int32` values. -/
theorem mergeAll_returns (l : List (Statistic F)) : ∀ acc : Statistic F,
    acc.count ≤ 2147483647 → (∀ t ∈ l, t.count ≤ 2147483647) →
      ((∃ r, mergeAll acc l = .ok r) ↔
        l = [] ∨ (checkValues acc ∧ checkSums acc ∧ (∀ t ∈ l, checkValues t ∧ checkSums t) ∧
          acc.count + (l.map Statistic.count).sum ≤ 2147483647)) := by
  induction l with
  | nil =>
    intro acc _ _
    simp [mergeAll]
  | cons t ts ih =>
    intro acc hacc hl
    have ht : t.count ≤ 2147483647 := hl t (List.mem_cons_self _ _)
    have hts : ∀ u ∈ ts, u.count ≤ 2147483647 := fun u hu => hl u (List.mem_cons_of_mem _ hu)
    constructor
    · rintro ⟨r, hr⟩
      right
      cases hp : acc.plusAssign t with
      | error e =>
        rw [mergeAll_cons_error acc t ts e hp] at hr
        exact absurd hr (by simp)
      | ok acc1 =>
        rw [mergeAll_cons_ok acc t ts acc1 hp] at hr
        obtain ⟨h1, h2, h3, h4, h5⟩ := (plusAssign_returns acc t hacc ht).1 ⟨acc1, hp⟩
        obtain ⟨s1, _, _⟩ := plusAssign_summary acc t acc1 hp
        obtain ⟨c1, _, _⟩ := plusCount_spec _ _ _ s1
        have hc1 : acc1.count = acc.count + t.count := c1
        have hacc1 : acc1.count ≤ 2147483647 := by rw [hc1]; exact h5
        rcases (ih acc1 hacc1 hts).1 ⟨r, hr⟩ with he | ⟨_, _, k3, k4⟩
        · subst he
          refine ⟨h1, h3, ?_, ?_⟩
          · intro u hu
            rw [List.mem_singleton] at hu
            subst hu
            exact ⟨h2, h4⟩
          · simp only [List.map_cons, List.map_nil, List.sum_cons, List.sum_nil, add_zero]
            exact h5
        · refine ⟨h1, h3, ?_, ?_⟩
          · intro u hu
            rcases List.mem_cons.1 hu with hu | hu
            · subst hu
              exact ⟨h2, h4⟩
            · exact k3 u hu
          · rw [List.map_cons, List.sum_cons, ← add_assoc, ← hc1]
            exact k4
    · rintro (he | ⟨h1, h3, k3, k4⟩)
      · exact absurd he (by simp)
      · obtain ⟨h2, h4⟩ := k3 t (List.mem_cons_self _ _)
        have k3t : ∀ u ∈ ts, checkValues u ∧ checkSums u :=
          fun u hu => k3 u (List.mem_cons_of_mem _ hu)
        have hnn := counts_sum_nonneg ts (fun u hu => (k3t u hu).2)
        rw [List.map_cons, List.sum_cons, ← add_assoc] at k4
        have h5 : acc.count + t.count ≤ 2147483647 := by omega
        obtain ⟨acc1, hp⟩ := (plusAssign_returns acc t hacc ht).2 ⟨h1, h2, h3, h4, h5⟩
        obtain ⟨s1, _, _⟩ := plusAssign_summary acc t acc1 hp
        obtain ⟨c1, _, _⟩ := plusCount_spec _ _ _ s1
        have hc1 : acc1.count = acc.count + t.count := c1
        have hacc1 : acc1.count ≤ 2147483647 := by rw [hc1]; exact h5
        obtain ⟨v1, v2⟩ := plusAssign_checks acc t acc1 hp
        obtain ⟨r, hr⟩ := (ih acc1 hacc1 hts).2 (Or.inr ⟨v1, v2, k3t, by rw [hc1]; exact k4⟩)
        exact ⟨r, by rw [mergeAll_cons_ok acc t ts acc1 hp]; exact hr⟩

theorem plusValue_right_comm (hcomm : ∀ x y : F, x + y = y + x)
    (hassoc : ∀ x y z : F, x + y + z = x + (y + z)) (z x y : Option F) :
    plusValue (plusValue z x) y = plusValue (plusValue z y) x := by
  cases z with
  | none =>
    cases x with
    | none => cases y <;> rfl
    | some u =>
      cases y with
      | none => rfl
      | some v => exact congrArg some (hcomm u v)
  | some w =>
    cases x with
    | none => cases y <;> rfl
    | some u =>
      cases y with
      | none => rfl
      | some v =>
        show some (w + u + v) = some (w + v + u)
        rw [hassoc, hcomm u v, ← hassoc]

/-- When `(a + b) + c` returns, for counts that are `int32` values. -/
theorem plus_left_returns (a b c : Statistic F) (ha : a.count ≤ 2147483647)
    (hb : b.count ≤ 2147483647) (hc : c.count ≤ 2147483647) :
    (∃ ab abc, a.plusAssign b = .ok ab ∧ ab.plusAssign c = .ok abc) ↔
      (checkValues a ∧ checkSums a) ∧ (checkValues b ∧ checkSums b) ∧
      (checkValues c ∧ checkSums c) ∧ a.count + b.count + c.count ≤ 2147483647 := by
  constructor
  · rintro ⟨ab, abc, h1, h2⟩
    obtain ⟨p1, p2, p3, p4, p5⟩ := (plusAssign_returns a b ha hb).1 ⟨ab, h1⟩
    obtain ⟨s1, _, _⟩ := plusAssign_summary a b ab h1
    obtain ⟨c1, _, _⟩ := plusCount_spec _ _ _ s1
    have hc1 : ab.count = a.count + b.count := c1
    obtain ⟨_, q2, _, q4, q5⟩ := (plusAssign_returns ab c (by rw [hc1]; exact p5) hc).1 ⟨abc, h2⟩
    rw [hc1] at q5
    exact ⟨⟨p1, p3⟩, ⟨p2, p4⟩, ⟨q2, q4⟩, q5⟩
  · rintro ⟨⟨p1, p3⟩, ⟨p2, p4⟩, ⟨q2, q4⟩, q5⟩
    have hcn := count_nonneg_of_checkSums c q4
    obtain ⟨ab, h1⟩ := (plusAssign_returns a b ha hb).2 ⟨p1, p2, p3, p4, by omega⟩
    obtain ⟨s1, _, _⟩ := plusAssign_summary a b ab h1
    obtain ⟨c1, _, _⟩ := plusCount_spec _ _ _ s1
    have hc1 : ab.count = a.count + b.count := c1
    obtain ⟨v1, v2⟩ := plusAssign_checks a b ab h1
    obtain ⟨abc, h2⟩ := (plusAssign_returns ab c (by rw [hc1]; omega) hc).2
      ⟨v1, q2, v2, q4, by rw [hc1]; exact q5⟩
    exact ⟨ab, abc, h1, h2⟩

/-- When `a + (b + c)` returns, for counts that are `int32` values. -/
theorem plus_right_returns (a b c : Statistic F) (ha : a.count ≤ 2147483647)
    (hb : b.count ≤ 2147483647) (hc : c.count ≤ 2147483647) :
    (∃ bc abc, b.plusAssign c = .ok bc ∧ a.plusAssign bc = .ok abc) ↔
      (checkValues a ∧ checkSums a) ∧ (checkValues b ∧ checkSums b) ∧
      (checkValues c ∧ checkSums c) ∧ a.count + b.count + c.count ≤ 2147483647 := by
  constructor
  · rintro ⟨bc, abc, h1, h2⟩
    obtain ⟨p1, p2, p3, p4, p5⟩ := (plusAssign_returns b c hb hc).1 ⟨bc, h1⟩
    obtain ⟨s1, _, _⟩ := plusAssign_summary b c bc h1
    obtain ⟨c1, _, _⟩ := plusCount_spec _ _ _ s1
    have hc1 : bc.count = b.count + c.count := c1
    obtain ⟨q1, _, q3, _, q5⟩ := (plusAssign_returns a bc ha (by rw [hc1]; exact p5)).1 ⟨abc, h2⟩
    rw [hc1, ← add_assoc] at q5
    exact ⟨⟨q1, q3⟩, ⟨p1, p3⟩, ⟨p2, p4⟩, q5⟩
  · rintro ⟨⟨q1, q3⟩, ⟨p1, p3⟩, ⟨p2, p4⟩, q5⟩
    have han := count_nonneg_of_checkSums a q3
    obtain ⟨bc, h1⟩ := (plusAssign_returns b c hb hc).2 ⟨p1, p2, p3, p4, by omega⟩
    obtain ⟨s1, _, _⟩ := plusAssign_summary b c bc h1
    obtain ⟨c1, _, _⟩ := plusCount_spec _ _ _ s1
    have hc1 : bc.count = b.count + c.count := c1
    obtain ⟨v1, v2⟩ := plusAssign_checks b c bc h1
    obtain ⟨abc, h2⟩ := (plusAssign_returns a bc ha (by rw [hc1]; omega)).2
      ⟨q1, v1, q3, v2, by rw [hc1]; omega⟩
    exact ⟨bc, abc, h1, h2⟩

/-- The summaries of two merges of the same statistics in two orders. -/
theorem mergeAll_perm (acc : Statistic F) (l1 l2 : List (Statistic F)) (hp : l1.Perm l2)
    (r1 r2 : Statistic F) (h1 : mergeAll acc l1 = .ok r1) (h2 : mergeAll acc l2 = .ok r2) :
    r1.count_ = r2.count_ ∧
      ((∀ x y : F, x + y = y + x) → (∀ x y z : F, x + y + z = x + (y + z)) →
        r1.sum_ = r2.sum_ ∧ r1.ssum_ = r2.ssum_ ∧ Mean r1 = Mean r2 ∧
        ∀ sqrt : F → F, Stddev sqrt r1 = Stddev sqrt r2) := by
  obtain ⟨a1, a2, a3, a4, a5⟩ := mergeAll_summary l1 acc r1 h1
  obtain ⟨b1, b2, b3, b4, b5⟩ := mergeAll_summary l2 acc r2 h2
  have hcount : r1.count_ = r2.count_ := by
    apply option_eq_of_getD
    · show r1.count = r2.count
      rw [a1, b1, (hp.map Statistic.count).sum_eq]
    · show r1.has_count = r2.has_count
      rw [Bool.eq_iff_iff, a2, b2]
      constructor
      · rintro (h | ⟨t, ht, hh⟩)
        · exact Or.inl h
        · exact Or.inr ⟨t, hp.mem_iff.1 ht, hh⟩
      · rintro (h | ⟨t, ht, hh⟩)
        · exact Or.inl h
        · exact Or.inr ⟨t, hp.mem_iff.2 ht, hh⟩
  refine ⟨hcount, fun hcomm hassoc => ?_⟩
  have hsum : r1.sum_ = r2.sum_ := by
    rw [a3, b3]
    exact hp.foldl_eq' (fun x _ y _ z => plusValue_right_comm hcomm hassoc z x.sum_ y.sum_) _
  have hssum : r1.ssum_ = r2.ssum_ := by
    rw [a4, b4]
    exact hp.foldl_eq' (fun x _ y _ z => plusValue_right_comm hcomm hassoc z x.ssum_ y.ssum_) _
  by_cases hl : l1 = []
  · subst hl
    have hl2 : l2 = [] := hp.nil_eq.symm
    subst hl2
    simp only [mergeAll, Except.ok.injEq] at h1 h2
    subst h1
    subst h2
    exact ⟨rfl, rfl, rfl, fun _ => rfl⟩
  · have hl2 : l2 ≠ [] := fun h => hl (by rw [h] at hp; exact hp.eq_nil)
    exact ⟨hsum, hssum, mean_congr r1 r2 (a5 hl) (b5 hl2) hcount hsum,
      fun sqrt => stddev_congr sqrt r1 r2 (a5 hl) (b5 hl2) hcount hsum hssum⟩

/-- Merging the same statistics in two orders returns in both or in none. -/
theorem mergeAll_perm_returns (acc : Statistic F) (l1 l2 : List (Statistic F))
    (hp : l1.Perm l2) (hacc : acc.count ≤ 2147483647) (hl : ∀ t ∈ l1, t.count ≤ 2147483647) :
    (∃ r1, mergeAll acc l1 = .ok r1) ↔ (∃ r2, mergeAll acc l2 = .ok r2) := by
  have hl2 : ∀ t ∈ l2, t.count ≤ 2147483647 := fun t ht => hl t (hp.mem_iff.2 ht)
  rw [mergeAll_returns l1 acc hacc hl, mergeAll_returns l2 acc hacc hl2,
    (hp.map Statistic.count).sum_eq]
  constructor
  · rintro (h | ⟨h1, h2, h3, h4⟩)
    · left
      rw [h] at hp
      exact hp.nil_eq.symm
    · exact Or.inr ⟨h1, h2, fun t ht => h3 t (hp.mem_iff.2 ht), h4⟩
  · rintro (h | ⟨h1, h2, h3, h4⟩)
    · left
      rw [h] at hp
      exact hp.eq_nil
    · exact Or.inr ⟨h1, h2, fun t ht => h3 t (hp.mem_iff.1 ht), h4⟩

/-- C24, amended: the count of a combination does not depend on the grouping
or on the order of the operands.  Whenever `(a + b) + c` and `a + (b + c)`
return, their counts are equal, and their `sum`s are equal exactly when the
three sums associate, `(a.sum + b.sum) + c.sum = a.sum + (b.sum + c.sum)` (a
condition on the three values when all are present), and likewise their
`ssum`s; whenever `a + b` and `b + a` return, their counts are equal and their
`sum`s (`ssum`s) are equal exactly when the two sums commute.  Summaries that
are equal give the same `Mean` and `Stddev`.  For counts that are `int32`
values, `(a + b) + c` and `a + (b + c)` return under the same condition (all
three operands pass the checks and the total count is an `int32` value), and
`a + b` returns exactly when `b + a` does.  Merging the statistics of a list
into an accumulator in two orders gives the same count whenever both merges
return, and the same `sum`, `ssum`, `Mean` and `Stddev` where the addition
of `double` is commutative and associative (exact arithmetic); the two merges
return together. -/
theorem c24_combine_order (a b c : Statistic F) :
    (∀ ab abc bc abc2, a.plus b = .ok ab → ab.plus c = .ok abc → b.plus c = .ok bc →
      a.plus bc = .ok abc2 →
      abc.count_ = abc2.count_ ∧
      (abc.sum_ = abc2.sum_ ↔
        (a.has_sum = true → b.has_sum = true → c.has_sum = true →
          a.sum + b.sum + c.sum = a.sum + (b.sum + c.sum))) ∧
      (abc.ssum_ = abc2.ssum_ ↔
        (a.has_ssum = true → b.has_ssum = true → c.has_ssum = true →
          a.ssum + b.ssum + c.ssum = a.ssum + (b.ssum + c.ssum))) ∧
      (abc.sum_ = abc2.sum_ → Mean abc = Mean abc2) ∧
      (abc.sum_ = abc2.sum_ → abc.ssum_ = abc2.ssum_ →
        ∀ sqrt : F → F, Stddev sqrt abc = Stddev sqrt abc2)) ∧
    (∀ ab ba, a.plus b = .ok ab → b.plus a = .ok ba →
      ab.count_ = ba.count_ ∧
      (ab.sum_ = ba.sum_ ↔
        (a.has_sum = true → b.has_sum = true → a.sum + b.sum = b.sum + a.sum)) ∧
      (ab.ssum_ = ba.ssum_ ↔
        (a.has_ssum = true → b.has_ssum = true → a.ssum + b.ssum = b.ssum + a.ssum)) ∧
      (ab.sum_ = ba.sum_ → Mean ab = Mean ba) ∧
      (ab.sum_ = ba.sum_ → ab.ssum_ = ba.ssum_ →
        ∀ sqrt : F → F, Stddev sqrt ab = Stddev sqrt ba)) ∧
    (a.count ≤ 2147483647 → b.count ≤ 2147483647 → c.count ≤ 2147483647 →
      ((∃ ab abc, a.plus b = .ok ab ∧ ab.plus c = .ok abc) ↔
        (checkValues a ∧ checkSums a) ∧ (checkValues b ∧ checkSums b) ∧
        (checkValues c ∧ checkSums c) ∧ a.count + b.count + c.count ≤ 2147483647) ∧
      ((∃ bc abc2, b.plus c = .ok bc ∧ a.plus bc = .ok abc2) ↔
        (checkValues a ∧ checkSums a) ∧ (checkValues b ∧ checkSums b) ∧
        (checkValues c ∧ checkSums c) ∧ a.count + b.count + c.count ≤ 2147483647) ∧
      ((∃ ab, a.plus b = .ok ab) ↔ (∃ ba, b.plus a = .ok ba))) ∧
    (∀ l1 l2 : List (Statistic F), l1.Perm l2 →
      (∀ r1 r2, mergeAll a l1 = .ok r1 → mergeAll a l2 = .ok r2 →
        r1.count_ = r2.count_ ∧
        ((∀ x y : F, x + y = y + x) → (∀ x y z : F, x + y + z = x + (y + z)) →
          r1.sum_ = r2.sum_ ∧ r1.ssum_ = r2.ssum_ ∧ Mean r1 = Mean r2 ∧
          ∀ sqrt : F → F, Stddev sqrt r1 = Stddev sqrt r2)) ∧
      (a.count ≤ 2147483647 → (∀ t ∈ l1, t.count ≤ 2147483647) →
        ((∃ r1, mergeAll a l1 = .ok r1) ↔ (∃ r2, mergeAll a l2 = .ok r2)))) := by
  refine ⟨fun ab abc bc abc2 h1 h2 h3 h4 => ?_, fun ab ba h1 h2 => ?_,
    fun ha hb hc => ⟨plus_left_returns a b c ha hb hc, plus_right_returns a b c ha hb hc, ?_⟩,
    fun l1 l2 hp => ⟨fun r1 r2 h1 h2 => mergeAll_perm a l1 l2 hp r1 r2 h1 h2,
      fun ha hl => mergeAll_perm_returns a l1 l2 hp ha hl⟩⟩
  · obtain ⟨a1, a2, a3⟩ := plusAssign_summary a b ab h1
    obtain ⟨b1, b2, b3⟩ := plusAssign_summary ab c abc h2
    obtain ⟨c1, c2, c3⟩ := plusAssign_summary b c bc h3
    obtain ⟨d1, d2, d3⟩ := plusAssign_summary a bc abc2 h4
    have hcount : abc.count_ = abc2.count_ := plusCount_assoc _ _ _ _ _ _ _ a1 b1 c1 d1
    have v1 := plusAssign_checks ab c abc h2
    have v2 := plusAssign_checks a bc abc2 h4
    refine ⟨hcount, ?_, ?_, fun hs => mean_congr abc abc2 v1 v2 hcount hs,
      fun hs hss sqrt => stddev_congr sqrt abc abc2 v1 v2 hcount hs hss⟩
    · rw [b2, a2, d2, c2]
      exact plusValue_assoc_iff a.sum_ b.sum_ c.sum_
    · rw [b3, a3, d3, c3]
      exact plusValue_assoc_iff a.ssum_ b.ssum_ c.ssum_
  · obtain ⟨a1, a2, a3⟩ := plusAssign_summary a b ab h1
    obtain ⟨b1, b2, b3⟩ := plusAssign_summary b a ba h2
    have hcount : ab.count_ = ba.count_ := plusCount_comm _ _ _ _ a1 b1
    have v1 := plusAssign_checks a b ab h1
    have v2 := plusAssign_checks b a ba h2
    refine ⟨hcount, ?_, ?_, fun hs => mean_congr ab ba v1 v2 hcount hs,
      fun hs hss sqrt => stddev_congr sqrt ab ba v1 v2 hcount hs hss⟩
    · rw [a2, b2]
      exact plusValue_comm_iff a.sum_ b.sum_
    · rw [a3, b3]
      exact plusValue_comm_iff a.ssum_ b.ssum_
  · rw [show a.plus b = a.plusAssign b from rfl, show b.plus a = b.plusAssign a from rfl,
      plusAssign_returns a b ha hb, plusAssign_returns b a hb ha, add_comm b.count a.count]
    tauto

/-- C24 on the statistics of the samples 3, 4, 5 and 5, 6, 7 and 3, in exact
arithmetic: both groupings return, with the same count 7, sum 33 and sum of
squares 169, and merging the last two into the first in the two orders gives
the same sum. -/
theorem c24_combine_order_witness :
    exampleStatistic.plus secondStatistic = .ok combinedStatistic ∧
      combinedStatistic.plus singleStatistic = .ok tripleStatistic ∧
      secondStatistic.plus singleStatistic = .ok tailStatistic ∧
      exampleStatistic.plus tailStatistic = .ok tripleStatistic ∧
      tripleStatistic.sum_ = tripleStatistic.sum_ ∧
      mergeAll exampleStatistic [secondStatistic, singleStatistic] = .ok tripleStatistic ∧
      mergeAll exampleStatistic [singleStatistic, secondStatistic] = .ok swappedStatistic ∧
      tripleStatistic.sum_ = swappedStatistic.sum_ ∧
      Mean tripleStatistic = Mean swappedStatistic :=
  ⟨by decide!, by decide!, by decide!, by decide!,
    ((c24_combine_order exampleStatistic secondStatistic singleStatistic).1
      combinedStatistic tripleStatistic tailStatistic tripleStatistic
      (by decide!) (by decide!) (by decide!) (by decide!)).2.1.2 (fun _ _ _ => by decide!),
    by decide!, by decide!,
    ((((c24_combine_order exampleStatistic secondStatistic singleStatistic).2.2.2
      [secondStatistic, singleStatistic] [singleStatistic, secondStatistic]
      (List.Perm.swap _ _ _)).1 tripleStatistic swappedStatistic (by decide!) (by decide!)).2
      add_comm add_assoc).1,
    ((((c24_combine_order exampleStatistic secondStatistic singleStatistic).2.2.2
      [secondStatistic, singleStatistic] [singleStatistic, secondStatistic]
      (List.Perm.swap _ _ _)).1 tripleStatistic swappedStatistic (by decide!) (by decide!)).2
      add_comm add_assoc).2.2.1⟩

/-- The loop of `mean` stops before it returns when it is asked for more
elements than the array holds: on a failed `assert`, or on the read outside
the array. -/
theorem meanLoop_overrun (prob : List F) :
    ∀ (k i : Nat) (acc : F × F), 0 < k → prob.length < i + k →
      (∃ e, meanLoop prob k i acc = .error e) ∧
      ((∀ x ∈ prob, 0 ≤ x ∧ x ≤ 1) → meanLoop prob k i acc = .error .undefined) := by
  intro k
  induction k with
  | zero =>
    intro i acc hk _
    exact absurd hk (by decide)
  | succ k ih =>
    intro i acc _ h
    obtain ⟨result, prob_sum⟩ := acc
    cases hp : prob.get? i with
    | none =>
      have e : meanLoop prob (k + 1) i (result, prob_sum) = .error .undefined := by
        simp only [meanLoop, hp]
      rw [e]
      exact ⟨⟨_, rfl⟩, fun _ => rfl⟩
    | some x =>
      have hi : i < prob.length := by
        by_contra hn
        rw [List.get?_eq_none.2 (by omega)] at hp
        exact absurd hp (by simp)
      have hmem : x ∈ prob := List.get?_mem hp
      obtain ⟨i1, i2⟩ := ih (i + 1)
        (result + DoubleModel.ofInt (i : Int) * x, prob_sum + x) (by omega) (by omega)
      simp only [meanLoop, hp]
      by_cases hx : 0 ≤ x ∧ x ≤ 1
      · rw [if_neg (not_not.2 hx)]
        exact ⟨i1, i2⟩
      · rw [if_pos hx]
        exact ⟨⟨_, rfl⟩, fun hall => absurd (hall x hmem) hx⟩

/-- The loop of `mean` reads inside the array when the array holds the
elements it is asked for. -/
theorem meanLoop_inside (prob : List F) :
    ∀ (k i : Nat) (acc : F × F), i + k ≤ prob.length →
      meanLoop prob k i acc ≠ .error .undefined := by
  intro k
  induction k with
  | zero =>
    intro i acc _ h
    simp [meanLoop] at h
  | succ k ih =>
    intro i acc h
    obtain ⟨result, prob_sum⟩ := acc
    have hi : i < prob.length := by omega
    rw [meanLoop, List.get?_eq_get hi]
    simp only []
    split
    · simp
    · exact ih (i + 1) _ (by omega)

theorem mean_overrun (n : Int) (prob : List F) (hn : 0 ≤ n) (hlen : (prob.length : Int) ≤ n) :
    (∃ e, mean n prob = .error e) ∧
      ((∀ x ∈ prob, 0 ≤ x ∧ x ≤ 1) → mean n prob = .error .undefined) := by
  obtain ⟨⟨e, h1⟩, h2⟩ := meanLoop_overrun prob (n + 1).toNat 0 (0, 0) (by omega) (by omega)
  constructor
  · exact ⟨e, by rw [mean, h1]⟩
  · intro hall
    rw [mean, h2 hall]

theorem mean_inside (n : Int) (prob : List F) (hlen : n + 1 ≤ (prob.length : Int)) :
    mean n prob ≠ .error .undefined := by
  have h := meanLoop_inside prob (n + 1).toNat 0 (0, 0) (by omega)
  rw [mean]
  cases hm : meanLoop prob (n + 1).toNat 0 (0, 0) with
  | error e =>
    intro he
    simp only [Except.error.injEq] at he
    rw [hm, he] at h
    exact h rfl
  | ok r =>
    obtain ⟨result, prob_sum⟩ := r
    simp only []
    split
    · simp
    · simp

/-- C40: `mean(n, prob)` reads the elements `prob[0], ..., prob[n]`, so it
reads inside the array exactly when the array holds `n + 1` elements at least.
With an array of `n` elements or fewer (`n >= 0`) it never returns: it stops
on a failed `assert` or reaches the read of an element outside the array, and
reaches that read whenever all the elements are in `[0, 1]`.  The call
`mean(nSynapses + 1, probs[i])` of `expected_strengthen_synapses` is made on
rows of `nSynapses + 1` elements (those of
`malloc2D(w + 1, nSynapses + 1)`), whose last index is `nSynapses`: for
`nSynapses >= 0` and `w >= 0` the function never returns, and on the row
`[1, 0]` that `prob_strengthen_synapses(1, rate, G, H, 0)` returns, the call
`mean(2, probs[0])` reads `probs[0][2]`, outside the row, while `mean(1,
probs[0])` returns the mean 0. -/
theorem c40_mean_reads_outside (nSynapses w : Int) (probs : List (List F)) :
    (∀ (n : Int) (prob : List F), n + 1 ≤ (prob.length : Int) →
      mean n prob ≠ .error .undefined) ∧
    (∀ (n : Int) (prob : List F), 0 ≤ n → (prob.length : Int) ≤ n →
      (∃ e, mean n prob = .error e) ∧
      ((∀ x ∈ prob, 0 ≤ x ∧ x ≤ 1) → mean n prob = .error .undefined)) ∧
    (∀ row ∈ (malloc2D (w + 1) (nSynapses + 1) : List (List F)),
      0 ≤ nSynapses → (row.length : Int) = nSynapses + 1 ∧
        (∃ e, mean (nSynapses + 1) row = .error e) ∧
        ((0 : F) ≤ 1 → mean (nSynapses + 1) row = .error .undefined)) ∧
    (0 ≤ nSynapses → 0 ≤ w → (probs.length : Int) = w + 1 →
      (∀ row ∈ probs, (row.length : Int) = nSynapses + 1) →
      (∃ e, expected_strengthen_synapses nSynapses w probs = .error e) ∧
      ((∀ row ∈ probs, ∀ x ∈ row, 0 ≤ x ∧ x ≤ 1) →
        expected_strengthen_synapses nSynapses w probs = .error .undefined)) ∧
    ((malloc2D 1 2 : List (List ℚ)).set 0 (((malloc2D 1 2 : List (List ℚ)).getD 0 []).set 0 1)
      = [[1, 0]]) ∧
    mean 2 ([1, 0] : List ℚ) = .error .undefined ∧
    expected_strengthen_synapses 1 0 ([[1, 0]] : List (List ℚ)) = .error .undefined ∧
    mean 1 ([1, 0] : List ℚ) = .ok 0 := by
  refine ⟨fun n prob h => mean_inside n prob h, fun n prob h1 h2 => mean_overrun n prob h1 h2,
    ?_, ?_, by decide!, by decide!, by decide!, by decide!⟩
  · intro row hrow hn
    unfold malloc2D at hrow
    have hr := List.eq_of_mem_replicate hrow
    have hl : (row.length : Int) = nSynapses + 1 := by
      rw [hr, List.length_replicate]
      omega
    refine ⟨hl, (mean_overrun (nSynapses + 1) row (by omega) (by omega)).1, fun h01 => ?_⟩
    apply (mean_overrun (nSynapses + 1) row (by omega) (by omega)).2
    intro x hx
    rw [hr] at hx
    rw [List.eq_of_mem_replicate hx]
    exact ⟨le_refl _, h01⟩
  · intro hn hw hlen hrows
    have h0 : 0 < probs.length := by omega
    obtain ⟨row, hrow⟩ : ∃ row, probs.get? 0 = some row := ⟨_, List.get?_eq_get h0⟩
    have hmem : row ∈ probs := List.get?_mem hrow
    have hk : (w + 1).toNat = (w.toNat) + 1 := by omega
    obtain ⟨⟨e, h1⟩, h2⟩ := mean_overrun (nSynapses + 1) row (by omega)
      (by rw [hrows row hmem])
    constructor
    · refine ⟨e, ?_⟩
      rw [expected_strengthen_synapses, hk, expectedLoop, hrow]
      simp only [h1]
    · intro hall
      rw [expected_strengthen_synapses, hk, expectedLoop, hrow]
      simp only [h2 (hall row hmem)]

theorem pairLess_iff (a b : Int × Int) : pairLess a b = true ↔ lexPair a b := by
  unfold pairLess lexPair
  by_cases h1 : a.1 < b.1
  · simp [h1]
  · by_cases h2 : a.1 = b.1 ∧ a.2 < b.2
    · simp [h1, h2]
    · simp only [h1, h2, if_false, or_self]
      simp

theorem lexPair_irrefl (a : Int × Int) : ¬ lexPair a a := by
  unfold lexPair
  omega

theorem lexPair_trans (a b c : Int × Int) (h1 : lexPair a b) (h2 : lexPair b c) :
    lexPair a c := by
  unfold lexPair at *
  omega

theorem lexPair_trichotomous (a b : Int × Int) : lexPair a b ∨ a = b ∨ lexPair b a := by
  unfold lexPair
  by_cases h : a = b
  · exact Or.inr (Or.inl h)
  · have : a.1 ≠ b.1 ∨ a.2 ≠ b.2 := by
      by_contra hn
      push_neg at hn
      exact h (Prod.ext hn.1 hn.2)
    omega

theorem lexWord_cons (a b : Int × Int) (as bs : Word) :
    lexWord (a :: as) (b :: bs) ↔ lexPair a b ∨ (a = b ∧ lexWord as bs) := by
  unfold lexWord
  constructor
  · intro h
    cases h with
    | cons h1 => exact Or.inr ⟨rfl, h1⟩
    | rel h1 => exact Or.inl h1
  · rintro (h | ⟨rfl, h⟩)
    · exact List.Lex.rel h
    · exact List.Lex.cons h

/-- The function `operator<` on words is the lexicographic order. -/
theorem wordLess_iff : ∀ a b : Word, wordLess a b = true ↔ lexWord a b := by
  intro a
  induction a with
  | nil =>
    intro b
    cases b with
    | nil =>
      simp only [wordLess, lexWord]
      constructor
      · intro h
        exact absurd h (by decide)
      · intro h
        cases h
    | cons b bs =>
      simp only [wordLess, lexWord, true_iff]
      exact List.Lex.nil
  | cons a as ih =>
    intro b
    cases b with
    | nil =>
      simp only [wordLess, lexWord]
      constructor
      · intro h
        exact absurd h (by decide)
      · intro h
        cases h
    | cons b bs =>
      rw [lexWord_cons, wordLess]
      by_cases h1 : pairLess a b = true
      · rw [if_pos h1]
        simp only [true_iff]
        exact Or.inl ((pairLess_iff a b).1 h1)
      · rw [if_neg h1]
        have n1 : ¬ lexPair a b := fun h => h1 ((pairLess_iff a b).2 h)
        by_cases h2 : pairLess b a = true
        · rw [if_pos h2]
          have l2 := (pairLess_iff b a).1 h2
          constructor
          · intro h
            exact absurd h (by decide)
          · rintro (h | ⟨h, _⟩)
            · exact absurd h n1
            · rw [h] at l2
              exact absurd l2 (lexPair_irrefl b)
        · rw [if_neg h2]
          have n2 : ¬ lexPair b a := fun h => h2 ((pairLess_iff b a).2 h)
          have hab : a = b := by
            rcases lexPair_trichotomous a b with h | h | h
            · exact absurd h n1
            · exact h
            · exact absurd h n2
          subst hab
          rw [if_neg (lt_irrefl _), if_neg (lt_irrefl _), if_neg (lt_irrefl _),
            if_neg (lt_irrefl _), ih bs]
          constructor
          · intro h
            exact Or.inr ⟨rfl, h⟩
          · rintro (h | ⟨_, h⟩)
            · exact absurd h n1
            · exact h

theorem lexWord_irrefl : ∀ a : Word, ¬ lexWord a a := by
  intro a
  induction a with
  | nil =>
    intro h
    cases h
  | cons x xs ih =>
    rw [lexWord_cons]
    rintro (h | ⟨_, h⟩)
    · exact lexPair_irrefl x h
    · exact ih h

theorem lexWord_trans : ∀ a b c : Word, lexWord a b → lexWord b c → lexWord a c := by
  intro a
  induction a with
  | nil =>
    intro b c h1 h2
    cases b with
    | nil => cases h1
    | cons y ys =>
      cases c with
      | nil => cases h2
      | cons z zs => exact List.Lex.nil
  | cons x xs ih =>
    intro b c h1 h2
    cases b with
    | nil => cases h1
    | cons y ys =>
      cases c with
      | nil => cases h2
      | cons z zs =>
        rw [lexWord_cons] at h1 h2 ⊢
        rcases h1 with h1 | ⟨rfl, h1⟩
        · rcases h2 with h2 | ⟨rfl, _⟩
          · exact Or.inl (lexPair_trans _ _ _ h1 h2)
          · exact Or.inl h1
        · rcases h2 with h2 | ⟨rfl, h2⟩
          · exact Or.inl h2
          · exact Or.inr ⟨rfl, ih ys zs h1 h2⟩

theorem lexWord_trichotomous : ∀ a b : Word, lexWord a b ∨ a = b ∨ lexWord b a := by
  intro a
  induction a with
  | nil =>
    intro b
    cases b with
    | nil => exact Or.inr (Or.inl rfl)
    | cons y ys => exact Or.inl List.Lex.nil
  | cons x xs ih =>
    intro b
    cases b with
    | nil => exact Or.inr (Or.inr List.Lex.nil)
    | cons y ys =>
      rw [lexWord_cons, lexWord_cons]
      rcases lexPair_trichotomous x y with h | h | h
      · exact Or.inl (Or.inl h)
      · subst h
        rcases ih ys with h | h | h
        · exact Or.inl (Or.inr ⟨rfl, h⟩)
        · exact Or.inr (Or.inl (by rw [h]))
        · exact Or.inr (Or.inr (Or.inr ⟨rfl, h⟩))
      · exact Or.inr (Or.inr (Or.inl h))

/-- C36: `operator<` on words is exactly the lexicographic order on the
sequences of pairs, the pairs being compared by `operator<` on pairs, that is
by synapse and then by delay, and a proper prefix being smaller.  It is
irreflexive and transitive, of two different words exactly one is smaller
than the other, and two words are equivalent for it (none is smaller) exactly
when they are equal, so that a `set<Word>` finds a word exactly when it holds
an equal word. -/
theorem c36_word_order (a b c : Word) :
    (∀ x y : Int × Int, pairLess x y = true ↔ lexPair x y) ∧
    (wordLess a b = true ↔ lexWord a b) ∧
    wordLess a a = false ∧
    (wordLess a b = true → wordLess b c = true → wordLess a c = true) ∧
    (a ≠ b → (wordLess a b = true ∧ wordLess b a = false) ∨
      (wordLess a b = false ∧ wordLess b a = true)) ∧
    ((wordLess a b = false ∧ wordLess b a = false) ↔ a = b) ∧
    (∀ training : List Word,
      (∃ t ∈ training, wordLess t a = false ∧ wordLess a t = false) ↔ a ∈ training) := by
  have hirr : ∀ x : Word, wordLess x x = false := by
    intro x
    cases h : wordLess x x with
    | false => rfl
    | true => exact absurd ((wordLess_iff x x).1 h) (lexWord_irrefl x)
  have hasym : ∀ x y : Word, wordLess x y = true → wordLess y x = false := by
    intro x y h
    cases h2 : wordLess y x with
    | false => rfl
    | true =>
      exact absurd (lexWord_trans x y x ((wordLess_iff x y).1 h) ((wordLess_iff y x).1 h2))
        (lexWord_irrefl x)
  have heq : ∀ x y : Word, (wordLess x y = false ∧ wordLess y x = false) ↔ x = y := by
    intro x y
    constructor
    · rintro ⟨h1, h2⟩
      rcases lexWord_trichotomous x y with h | h | h
      · rw [(wordLess_iff x y).2 h] at h1
        exact absurd h1 (by decide)
      · exact h
      · rw [(wordLess_iff y x).2 h] at h2
        exact absurd h2 (by decide)
    · rintro rfl
      exact ⟨hirr x, hirr x⟩
  refine ⟨pairLess_iff, wordLess_iff a b, hirr a, fun h1 h2 => ?_, fun hne => ?_, heq a b,
    fun training => ?_⟩
  · exact (wordLess_iff a c).2
      (lexWord_trans a b c ((wordLess_iff a b).1 h1) ((wordLess_iff b c).1 h2))
  · rcases lexWord_trichotomous a b with h | h | h
    · have := (wordLess_iff a b).2 h
      exact Or.inl ⟨this, hasym a b this⟩
    · exact absurd h hne
    · have := (wordLess_iff b a).2 h
      exact Or.inr ⟨hasym b a this, this⟩
  · constructor
    · rintro ⟨t, ht, h⟩
      rw [← (heq t a).1 h]
      exact ht
    · intro h
      exact ⟨a, h, hirr a, hirr a⟩

/-- C36 on three words: the proper prefix `[(0,1)]` is smaller than
`[(0,1), (2,0)]`, which is smaller than `[(0,1), (2,1)]`, hence the first is
smaller than the third. -/
theorem c36_word_order_witness :
    wordLess [(0, 1)] [(0, 1), (2, 0)] = true ∧
      wordLess [(0, 1), (2, 0)] [(0, 1), (2, 1)] = true ∧
      wordLess [(0, 1)] [(0, 1), (2, 1)] = true ∧
      wordLess [(0, 1), (2, 1)] [(0, 1)] = false :=
  ⟨by decide, by decide,
    (c36_word_order [(0, 1)] [(0, 1), (2, 0)] [(0, 1), (2, 1)]).2.2.2.1 (by decide) (by decide),
    by decide⟩

/-- The quotient that the code rounds up, `q = a / w; if (a % w) q++`, is the
ceiling of `a / w` for positive `a` and `w`. -/
theorem ceil_div_spec (a w : Int) (ha : 0 < a) (hw : 1 ≤ w) :
    (if Int.tmod a w ≠ 0 then Int.tdiv a w + 1 else Int.tdiv a w) = (a + w - 1) / w ∧
      ((a + w - 1) / w - 1) * w < a ∧ a ≤ (a + w - 1) / w * w ∧ 1 ≤ (a + w - 1) / w := by
  have hw0 : 0 < w := by omega
  have e1 : Int.tdiv a w = a / w := Int.tdiv_eq_ediv (le_of_lt ha) (by omega)
  have e2 : Int.tmod a w = a % w := Int.tmod_eq_emod (le_of_lt ha) (by omega)
  have hdm := Int.emod_add_ediv a w
  have hm1 := Int.emod_nonneg a (ne_of_gt hw0)
  have hm2 := Int.emod_lt_of_pos a hw0
  have key : (a + w - 1) / w = if a % w ≠ 0 then a / w + 1 else a / w := by
    by_cases hz : a % w = 0
    · rw [if_neg (not_not.2 hz)]
      have : a + w - 1 = (w - 1) + w * (a / w) := by
        have := hdm
        rw [hz] at this
        linarith
      rw [this, Int.add_mul_ediv_left _ _ (ne_of_gt hw0), Int.ediv_eq_zero_of_lt (by omega) (by omega)]
      ring
    · rw [if_pos hz]
      have : a + w - 1 = (a % w - 1) + w * (a / w + 1) := by linarith
      rw [this, Int.add_mul_ediv_left _ _ (ne_of_gt hw0),
        Int.ediv_eq_zero_of_lt (by omega) (by omega)]
      ring
  have hpos : a % w ≠ 0 → 0 < a % w := fun h => by omega
  rw [e1, e2]
  refine ⟨key.symm, ?_, ?_, ?_⟩
  · rw [key]
    by_cases hz : a % w = 0
    · rw [if_neg (not_not.2 hz)]
      rw [hz] at hdm
      nlinarith
    · rw [if_pos hz]
      have := hpos hz
      nlinarith
  · rw [key]
    by_cases hz : a % w = 0
    · rw [if_neg (not_not.2 hz)]
      rw [hz] at hdm
      nlinarith
    · rw [if_pos hz]
      have := hpos hz
      nlinarith
  · rw [key]
    have hq : 0 ≤ a / w := Int.ediv_nonneg (le_of_lt ha) (le_of_lt hw0)
    by_cases hz : a % w = 0
    · rw [if_neg (not_not.2 hz)]
      rw [hz] at hdm
      by_contra hn
      have : a / w = 0 := by omega
      rw [this] at hdm
      omega
    · rw [if_pos hz]
      omega

/-- The value of `RunConfiguration` for `w >= 1`. -/
theorem runConfiguration_eq (repetitions : Int) (config : TrainConfig F) (w : Int)
    (hw : config.w = some w) (hw1 : 1 ≤ w) :
    RunConfiguration repetitions config =
      if 2147483647 < repetitions * w ∨ repetitions * w < -2147483648 then .error .undefined
      else
        .ok (List.replicate (max repetitions ((10000 + w - 1) / w)).toNat
          { config with
              num_test_words :=
                match config.num_test_words with
                | some k => some k
                | none => some (defaultTestWords (max repetitions ((10000 + w - 1) / w))) }) := by
  obtain ⟨c1, c2, c3, c4⟩ := ceil_div_spec 10000 w (by decide) hw1
  unfold RunConfiguration
  rw [hw]
  simp only [Option.getD_some]
  by_cases hov : 2147483647 < repetitions * w ∨ repetitions * w < -2147483648
  · rw [if_pos hov, if_pos (by unfold int32Max; exact hov)]
  · rw [if_neg hov, if_neg (by unfold int32Max; exact hov)]
    have hw0 : ¬ (repetitions * w < 10000 ∧ w = 0) := fun h => by omega
    rw [if_neg hw0, c1]
    by_cases hsmall : repetitions * w < 10000
    · have hlt : repetitions < (10000 + w - 1) / w := by
        by_contra hn
        have : (10000 + w - 1) / w * w ≤ repetitions * w :=
          Int.mul_le_mul_of_nonneg_right (not_lt.1 hn) (by omega)
        omega
      have hmax : max repetitions ((10000 + w - 1) / w) = (10000 + w - 1) / w :=
        max_eq_right (le_of_lt hlt)
      simp only [hsmall, if_true, hmax]
      rw [if_neg (not_not.2 (le_of_lt hlt)), if_neg (not_not.2 (by omega))]
    · have hge : (10000 + w - 1) / w ≤ repetitions := by
        by_contra hn
        have h1 : repetitions ≤ (10000 + w - 1) / w - 1 := by omega
        have : repetitions * w ≤ ((10000 + w - 1) / w - 1) * w :=
          Int.mul_le_mul_of_nonneg_right h1 (by omega)
        omega
      have hmax : max repetitions ((10000 + w - 1) / w) = repetitions := max_eq_left hge
      simp only [hsmall, if_false, hmax]
      rw [if_neg (not_not.2 (le_refl _)), if_neg (not_not.2 (by omega))]

/-- The default number of test words for `N >= 1` experiments. -/
theorem defaultTestWords_spec (N : Int) (hN : 1 ≤ N) :
    defaultTestWords N = max 1000 ((1000000 + N - 1) / N) ∧
      ((1000000 + N - 1) / N - 1) * N < 1000000 ∧ 1000000 ≤ (1000000 + N - 1) / N * N ∧
      1000000 ≤ N * defaultTestWords N := by
  obtain ⟨c1, c2, c3, c4⟩ := ceil_div_spec 1000000 N (by decide) hN
  have e : defaultTestWords N = max 1000 ((1000000 + N - 1) / N) := by
    unfold defaultTestWords
    rw [c1]
    by_cases h : (1000000 + N - 1) / N < 1000
    · rw [if_pos h, max_eq_left (le_of_lt h)]
    · rw [if_neg h, max_eq_right (not_lt.1 h)]
  refine ⟨e, c2, c3, ?_⟩
  rw [e]
  have h1 : (1000000 + N - 1) / N ≤ max 1000 ((1000000 + N - 1) / N) := le_max_right _ _
  have h2 : (1000000 + N - 1) / N * N ≤ max 1000 ((1000000 + N - 1) / N) * N :=
    Int.mul_le_mul_of_nonneg_right h1 (by omega)
  rw [mul_comm N]
  omega

/-- C32: for `config.w >= 1`, `RunConfiguration(repetitions, config)`
returns exactly when the `int32` product `repetitions * w` of the code does
not overflow.  Whenever it returns it has created exactly
`N = max(repetitions, ceil(10000 / w))` jobs, one experiment each, so that
`N * w >= 10000` and `N >= repetitions`; every experiment gets the
configuration of the call, with `num_test_words` unchanged when it is present
and `max(1000, ceil(1000000 / N))` when it is absent, and this is the number
of test words the experiment uses; in the second case `N` times that number
is at least 1000000.  Where the product overflows the code does not do what
the claim says: for `repetitions = 65536` and `w = 65536` the claim asks for
`max(65536, 1) = 65536` experiments, and the multiplication `N * w`
overflows (on wrapping to 0 the code continues with `N = 1` and stops on
`CHECK(repetitions <= N)`). -/
theorem c32_run_configuration (repetitions : Int) (config : TrainConfig F) (w : Int)
    (hw : config.w = some w) (hw1 : 1 ≤ w) :
    ((∃ jobs, RunConfiguration repetitions config = .ok jobs) ↔
      (-2147483648 ≤ repetitions * w ∧ repetitions * w ≤ 2147483647)) ∧
    (∀ jobs, RunConfiguration repetitions config = .ok jobs →
      (jobs.length : Int) = max repetitions ((10000 + w - 1) / w) ∧
      ((10000 + w - 1) / w - 1) * w < 10000 ∧ 10000 ≤ (10000 + w - 1) / w * w ∧
      10000 ≤ (jobs.length : Int) * w ∧ repetitions ≤ (jobs.length : Int) ∧
      ∀ cfg ∈ jobs,
        cfg.config = config.config ∧ cfg.w = config.w ∧ cfg.num_active = config.num_active ∧
        (∀ k, config.num_test_words = some k →
          cfg.num_test_words = some k ∧ testWordCount cfg.num_test_words = k) ∧
        (config.num_test_words = none →
          cfg.num_test_words
            = some (max 1000 ((1000000 + (jobs.length : Int) - 1) / (jobs.length : Int))) ∧
          testWordCount cfg.num_test_words
            = max 1000 ((1000000 + (jobs.length : Int) - 1) / (jobs.length : Int)) ∧
          ((1000000 + (jobs.length : Int) - 1) / (jobs.length : Int) - 1) * (jobs.length : Int)
            < 1000000 ∧
          1000000 ≤ (1000000 + (jobs.length : Int) - 1) / (jobs.length : Int)
            * (jobs.length : Int) ∧
          1000000 ≤ (jobs.length : Int) * testWordCount cfg.num_test_words)) ∧
    (max (65536 : Int) ((10000 + 65536 - 1) / 65536) = 65536 ∧
      RunConfiguration 65536 (⟨some exampleConfig, some 65536, none, none⟩ : TrainConfig ℚ)
        = .error .undefined ∧
      toInt32 (toUInt32 (65536 * 65536)) = 0 ∧ ¬ ((65536 : Int) ≤ 1)) := by
  obtain ⟨c1, c2, c3, c4⟩ := ceil_div_spec 10000 w (by decide) hw1
  have heq := runConfiguration_eq repetitions config w hw hw1
  refine ⟨?_, ?_, by decide, ?_, by decide, by decide⟩
  rotate_left 2
  · rw [runConfiguration_eq 65536 _ 65536 rfl (by decide)]
    rfl
  · rw [heq]
    by_cases hov : 2147483647 < repetitions * w ∨ repetitions * w < -2147483648
    · rw [if_pos hov]
      constructor
      · rintro ⟨jobs, h⟩
        exact absurd h (by simp)
      · intro h
        omega
    · rw [if_neg hov]
      exact ⟨fun _ => by omega, fun _ => ⟨_, rfl⟩⟩
  · intro jobs h
    rw [heq] at h
    by_cases hov : 2147483647 < repetitions * w ∨ repetitions * w < -2147483648
    · rw [if_pos hov] at h
      exact absurd h (by simp)
    · rw [if_neg hov] at h
      simp only [Except.ok.injEq] at h
      have hN1 : 1 ≤ max repetitions ((10000 + w - 1) / w) := le_trans c4 (le_max_right _ _)
      have hlen : (jobs.length : Int) = max repetitions ((10000 + w - 1) / w) := by
        rw [← h, List.length_replicate]
        omega
      have hNw : 10000 ≤ (jobs.length : Int) * w := by
        rw [hlen]
        have : (10000 + w - 1) / w * w ≤ max repetitions ((10000 + w - 1) / w) * w :=
          Int.mul_le_mul_of_nonneg_right (le_max_right _ _) (by omega)
        omega
      refine ⟨hlen, c2, c3, hNw, by rw [hlen]; exact le_max_left _ _, ?_⟩
      intro cfg hcfg
      rw [← h] at hcfg
      have hc := List.eq_of_mem_replicate hcfg
      obtain ⟨d1, d2, d3, d4⟩ := defaultTestWords_spec _ hN1
      refine ⟨by rw [hc], by rw [hc], by rw [hc], ?_, ?_⟩
      · intro k hk
        have : cfg.num_test_words = some k := by rw [hc]; simp only [hk]
        exact ⟨this, by rw [this]; rfl⟩
      · intro hk
        have e : cfg.num_test_words
            = some (defaultTestWords (max repetitions ((10000 + w - 1) / w))) := by
          rw [hc]
          simp only [hk]
        have e2 : testWordCount cfg.num_test_words
            = defaultTestWords (max repetitions ((10000 + w - 1) / w)) := by
          rw [e]
          rfl
        rw [hlen, e2]
        exact ⟨by rw [e, d1], d1, d2, d3, d4⟩

/-- C32 on `RunConfiguration(2, config)` with `w = 3000` and no number of test
words: 4 experiments of 250000 test words each. -/
theorem c32_run_configuration_witness :
    exampleTrainConfig.w = some 3000 ∧ (1 : Int) ≤ 3000 ∧
      (∃ jobs, RunConfiguration 2 exampleTrainConfig = .ok jobs ∧ jobs.length = 4 ∧
        ∀ cfg ∈ jobs, testWordCount cfg.num_test_words = 250000) := by
  refine ⟨rfl, by decide, ?_⟩
  obtain ⟨jobs, hj⟩ :=
    (c32_run_configuration 2 exampleTrainConfig 3000 rfl (by decide)).1.2 (by decide)
  have hs := (c32_run_configuration 2 exampleTrainConfig 3000 rfl (by decide)).2.1 jobs hj
  have hlen : (jobs.length : Int) = 4 := by
    rw [hs.1]
    decide
  refine ⟨jobs, hj, by omega, fun cfg hcfg => ?_⟩
  have h2 := (hs.2.2.2.2.2 cfg hcfg).2.2.2.2 rfl
  rw [h2.2.1, hlen]
  decide

theorem delays_at_mem (n : Neuron F) (s : Int) (h0 : 0 ≤ s) (h1 : s < (n.delays.length : Int)) :
    n.delays_at s ∈ n.delays := by
  unfold Neuron.delays_at
  have hlt : s.toNat < n.delays.length := by omega
  rw [List.getD_eq_getElem _ _ hlt]
  exact List.getElem_mem _

/-- A disabled entry is aligned with no delay slot, when `D1 + D2 <= 2^29`. -/
theorem disabled_not_aligned (n : Neuron F) (word : Word) (hD : n.D1 + n.D2 ≤ 536870912)
    (hdel : ∀ x ∈ n.delays, x = kDisabled ∨ (0 ≤ x ∧ x < n.D2))
    (hlen : (n.delays.length : Int) = n.length) (hv : ValidWord n word)
    (d : Int) (hd0 : 0 ≤ d) (hd1 : d < n.D1 + n.D2) (e : Int × Int) (he : e ∈ word)
    (hdis : enabledEntry n e = false) :
    n.delays_at e.1 + e.2 ≠ d ∧
      (0 ≤ n.D1 → 0 ≤ n.D2 →
        0 ≤ n.delays_at e.1 + e.2 ∧ n.delays_at e.1 + e.2 ≤ 1073741824) := by
  obtain ⟨⟨s0, s1⟩, hin⟩ := hv e he
  have hm := hdel _ (delays_at_mem n e.1 s0 (by omega))
  unfold enabledEntry at hdis
  simp only [decide_eq_false_iff_not, not_and_or, not_not] at hdis
  unfold kDisabled at *
  constructor
  · omega
  · intro hD1 hD2
    omega

theorem accumulate_enabled (n : Neuron F) (hD : n.D1 + n.D2 ≤ 536870912)
    (hdel : ∀ x ∈ n.delays, x = kDisabled ∨ (0 ≤ x ∧ x < n.D2))
    (hlen : (n.delays.length : Int) = n.length) (d : Int) (hd0 : 0 ≤ d)
    (hd1 : d < n.D1 + n.D2) :
    ∀ (word : Word) (sum : List F), ValidWord n word →
      accumulate n d word sum = accumulate n d (word.filter (enabledEntry n)) sum := by
  intro word
  induction word with
  | nil =>
    intro sum _
    rfl
  | cons e rest ih =>
    intro sum hv
    have hvr : ValidWord n rest := fun x hx => hv x (List.mem_cons_of_mem _ hx)
    obtain ⟨hs, hin⟩ := hv e (List.mem_cons_self _ _)
    obtain ⟨s, t⟩ := e
    by_cases hen : enabledEntry n (s, t) = true
    · rw [List.filter_cons_of_pos hen]
      simp only [accumulate]
      rw [if_neg (not_not.2 hs), if_neg (not_not.2 hin), if_neg (not_not.2 hs),
        if_neg (not_not.2 hin)]
      split
      · split
        · rfl
        · exact ih _ hvr
      · exact ih _ hvr
    · have hdis : enabledEntry n (s, t) = false := by
        cases h : enabledEntry n (s, t) with
        | false => rfl
        | true => exact absurd h hen
      rw [List.filter_cons_of_neg hen]
      have hne := (disabled_not_aligned n ((s, t) :: rest) hD hdel hlen hv d hd0 hd1 (s, t)
        (List.mem_cons_self _ _) hdis).1
      simp only [accumulate]
      rw [if_neg (not_not.2 hs), if_neg (not_not.2 hin), if_neg hne]
      exact ih _ hvr

theorem exposeLoop_enabled (n : Neuron F) (word : Word)
    (hD : n.D1 + n.D2 ≤ 536870912)
    (hdel : ∀ x ∈ n.delays, x = kDisabled ∨ (0 ≤ x ∧ x < n.D2))
    (hlen : (n.delays.length : Int) = n.length) (hv : ValidWord n word) :
    ∀ (k : Nat) (d : Int) (sum : List F), 0 ≤ d → d + k ≤ n.D1 + n.D2 →
      exposeLoop n word k d sum = exposeLoop n (word.filter (enabledEntry n)) k d sum := by
  intro k
  induction k with
  | zero =>
    intro d sum _ _
    rfl
  | succ k ih =>
    intro d sum hd0 hdk
    simp only [exposeLoop]
    rw [accumulate_enabled n hD hdel hlen d hd0 (by omega) word _ hv]
    cases accumulate n d (word.filter (enabledEntry n)) (clearSums n.C sum) with
    | error e => rfl
    | ok sum1 =>
      simp only []
      split
      · rfl
      · exact ih (d + 1) sum1 (by omega) (by push_cast at hdk; omega)

/-- C37: `kDisabled` is `2^29` and `kDisabled + kDisabled = 2^30` is an
`int32` value.  For `D1 + D2 <= 2^29`, `x` in `[0, D1 + D2)` and a slot `d` in
`[0, D1 + D2)`, neither `x + kDisabled` nor `kDisabled + kDisabled` is `d`, and
`x + kDisabled` is an `int32` value.  Hence, on a neuron with
`D1 + D2 <= 2^29` whose synapse delays are `kDisabled` or in `[0, D2)` and a
valid word (input delays `kDisabled` or in `[0, D1)`), a word entry whose
synapse delay or input delay is `kDisabled` is aligned with no slot (the sum of
the two delays being an `int32` value when `D1` and `D2` are not negative)
and contributes to no container sum: the loop over the
word entries of `Expose` leaves the same sums as on the word without these
entries, `Expose` returns the same on both words, and when `Train` fires the
synapses it updates all belong to entries without `kDisabled`. -/
theorem c37_disabled_sentinel (n : Neuron F) (word : Word) (hD : n.D1 + n.D2 ≤ 536870912)
    (hdel : ∀ x ∈ n.delays, x = kDisabled ∨ (0 ≤ x ∧ x < n.D2))
    (hlen : (n.delays.length : Int) = n.length) (hv : ValidWord n word) :
    kDisabled = 536870912 ∧ kDisabled + kDisabled = 1073741824 ∧
    toInt32 (toUInt32 (kDisabled + kDisabled)) = kDisabled + kDisabled ∧
    (∀ D1 D2 x d : Int, D1 + D2 ≤ 536870912 → 0 ≤ x → x < D1 + D2 → 0 ≤ d → d < D1 + D2 →
      x + kDisabled ≠ d ∧ kDisabled + x ≠ d ∧ kDisabled + kDisabled ≠ d ∧
      x + kDisabled ≤ 2147483647) ∧
    (∀ d : Int, 0 ≤ d → d < n.slots → ∀ e ∈ word, enabledEntry n e = false →
      n.delays_at e.1 + e.2 ≠ d ∧
      (0 ≤ n.D1 → 0 ≤ n.D2 → n.delays_at e.1 + e.2 ≤ 2147483647) ∧
      e ∉ contributing n word d) ∧
    (∀ d : Int, 0 ≤ d → d < n.slots → ∀ sum : List F,
      accumulate n d word sum = accumulate n d (word.filter (enabledEntry n)) sum) ∧
    n.Expose word = n.Expose (word.filter (enabledEntry n)) ∧
    (Consistent n → ContainersInRange n → LearnReady n →
      ∀ r n2, n.Train word = .ok (r, n2) → r ≠ kDisabled →
        ∃ L : List Int, (∃ n1, n.Expose word = .ok (r, n1) ∧
            L.foldlM UpdateSynapse n1 = .ok n2) ∧
          ∀ s ∈ L, ∃ t, (s, t) ∈ word ∧ enabledEntry n (s, t) = true ∧
            n.delays_at s + t = r) := by
  refine ⟨rfl, by decide, by decide, ?_, ?_, ?_, ?_, ?_⟩
  · intro D1 D2 x d h1 h2 h3 h4 h5
    unfold kDisabled
    omega
  · intro d hd0 hd1 e he hdis
    obtain ⟨a1, a3⟩ := disabled_not_aligned n word hD hdel hlen hv d hd0 hd1 e he hdis
    refine ⟨a1, fun hD1 hD2 => by have := (a3 hD1 hD2).2; omega, fun hmem => ?_⟩
    unfold contributing at hmem
    rw [List.mem_filter] at hmem
    have := hmem.2
    simp only [decide_eq_true_eq] at this
    exact a1 this.1
  · intro d hd0 hd1 sum
    exact accumulate_enabled n hD hdel hlen d hd0 hd1 word sum hv
  · unfold Neuron.Expose
    by_cases hs : 0 ≤ n.slots
    · rw [exposeLoop_enabled n word hD hdel hlen hv n.slots.toNat 0 n.sum (le_refl _)
        (by unfold Neuron.slots at hs ⊢; omega)]
    · have h0 : n.slots.toNat = 0 := by omega
      rw [h0]
      rfl
  · intro hc hcont hl r n2 ht hr
    obtain ⟨r1, sum1, n3, h1, h2, h3, _, _, h6⟩ := train_spec n word hc hcont hv hl
    rw [ht] at h2
    simp only [Except.ok.injEq, Prod.mk.injEq] at h2
    obtain ⟨e1, e2⟩ := h2
    subst e1
    subst e2
    obtain ⟨L, l1, l2, _⟩ := h6 hr
    refine ⟨L, ⟨_, h1, l1⟩, fun s hs => ?_⟩
    obtain ⟨t, t1, t2, _⟩ := (mem_contributing n word r s).1 ((l2 s).1 hs)
    refine ⟨t, t1, ?_, t2⟩
    have hr0 : 0 ≤ r ∧ r < n.D1 + n.D2 := by
      rcases h3 with ⟨a, b, _⟩ | ⟨a, _⟩
      · exact ⟨a, b⟩
      · exact absurd a hr
    cases hen : enabledEntry n (s, t) with
    | true => rfl
    | false =>
      exact absurd t2 (disabled_not_aligned n word hD hdel hlen hv r hr0.1 hr0.2
        (s, t) t1 hen).1

/-- C37 on `exampleCycled`, whose synapses 3, 4 and 7 are disabled, and
`disabledWord`: the entries of the synapses 3 and 2 are left out, and `Expose`
returns the slot 1 on the word and on the word without them. -/
theorem c37_disabled_sentinel_witness :
    (0 : Int) ≤ exampleCycled.D1 ∧ exampleCycled.D1 + exampleCycled.D2 ≤ 536870912 ∧
      ValidWord exampleCycled disabledWord ∧
      disabledWord.filter (enabledEntry exampleCycled) = [(0, 1), (6, 1)] ∧
      exampleCycled.Expose disabledWord = exampleCycled.Expose [(0, 1), (6, 1)] ∧
      (exampleCycled.Expose disabledWord).map Prod.fst = .ok 1 :=
  ⟨by decide, by decide, by decide, by decide,
    (c37_disabled_sentinel exampleCycled disabledWord (by decide) (by decide) (by decide)
      (by decide)).2.2.2.2.2.2.1,
    by decide!⟩

/-- The sum of the specification is `0.0` in a slot with which no entry of the
word is aligned. -/
theorem specSum_of_not_aligned (n : Neuron F) (word : Word) (c d : Int)
    (h : ∀ e ∈ word, n.delays_at e.1 + e.2 ≠ d) : specSum n word c d = 0 := by
  unfold specSum
  have : (word.filter fun e => decide (n.delays_at e.1 + e.2 = d ∧ n.containers_at e.1 = c))
      = [] := by
    rw [List.filter_eq_nil_iff]
    intro e he
    simp only [decide_eq_true_eq, not_and]
    intro h1
    exact absurd h1 (h e he)
  rw [this]
  rfl

/-- A neuron whose threshold exceeds `kEpsilon` does not fire in a slot with
which no entry of the word is aligned. -/
theorem not_fires_of_not_aligned (n : Neuron F) (word : Word) (d : Int)
    (hH : 0 + kEpsilon < n.H) (h : ∀ e ∈ word, n.delays_at e.1 + e.2 ≠ d) :
    ¬ Fires n word d := by
  rintro ⟨c, _, _, hc⟩
  rw [specSum_of_not_aligned n word c d h] at hc
  exact absurd hc (not_le.2 hH)

/-- No entry of a valid word is aligned with the last slot or a later one,
when `D1 + D2 <= 2^29`. -/
theorem last_slot_not_aligned (n : Neuron F) (word : Word) (hD1 : 1 ≤ n.D1) (hD2 : 1 ≤ n.D2)
    (hD : n.D1 + n.D2 ≤ 536870912)
    (hdel : ∀ x ∈ n.delays, x = kDisabled ∨ (0 ≤ x ∧ x < n.D2))
    (hlen : (n.delays.length : Int) = n.length) (hv : ValidWord n word) :
    ∀ e ∈ word, n.delays_at e.1 + e.2 ≠ n.D1 + n.D2 - 1 := by
  intro e he
  cases hen : enabledEntry n e with
  | false =>
    exact (disabled_not_aligned n word hD hdel hlen hv _ (by omega) (by omega) e he hen).1
  | true =>
    unfold enabledEntry at hen
    simp only [decide_eq_true_eq] at hen
    obtain ⟨⟨s0, s1⟩, hin⟩ := hv e he
    have hm := hdel _ (delays_at_mem n e.1 s0 (by omega))
    omega

/-- C38, in the documented domain `D1 + D2 <= kDisabled = 2^29`
(`src/cognon.h:96-99`): if every synapse delay is in `[0, D2)` or `kDisabled`,
the threshold exceeds `kEpsilon` (`0.0 + 1e-6 < H`), `D1 >= 1`, `D2 >= 1` and
the word is valid (input delays in `[0, D1)` or `kDisabled`), then whenever
`Expose(word)` returns, its value is `kDisabled` or a delay in
`[0, D1 + D2 - 2]`: the last slot `D1 + D2 - 1` is never returned.  On the
empty word the value is `kDisabled`, for any `D1` and `D2`.  `Expose` does
return on a consistent neuron whose containers are in range. -/
theorem c38_expose_range (n : Neuron F) (word : Word) (hH : 0 + kEpsilon < n.H) :
    (1 ≤ n.D1 → 1 ≤ n.D2 → n.D1 + n.D2 ≤ 536870912 →
      (∀ x ∈ n.delays, x = kDisabled ∨ (0 ≤ x ∧ x < n.D2)) →
      (n.delays.length : Int) = n.length → ValidWord n word →
      (∀ r n1, n.Expose word = .ok (r, n1) →
        (r = kDisabled ∨ (0 ≤ r ∧ r ≤ n.D1 + n.D2 - 2)) ∧ r ≠ n.D1 + n.D2 - 1) ∧
      (Consistent n → ContainersInRange n → ∃ r n1, n.Expose word = .ok (r, n1))) ∧
    (∀ r n1, n.Expose [] = .ok (r, n1) → r = kDisabled) ∧
    (Consistent n → ContainersInRange n → ∃ n1, n.Expose [] = .ok (kDisabled, n1)) := by
  have hempty : ∀ r n1, n.Expose [] = .ok (r, n1) → r = kDisabled := by
    intro r n1 h
    rcases expose_ok_firstFire n [] r n1 h with ⟨_, _, hf, _⟩ | ⟨hr, _⟩
    · exact absurd hf (not_fires_of_not_aligned n [] r hH (fun e he => by cases he))
    · exact hr
  refine ⟨fun hD1 hD2 hD hdel hlen hv => ⟨fun r n1 h => ?_, fun hc hcont => ?_⟩, hempty,
    fun hc hcont => ?_⟩
  · have hlast := last_slot_not_aligned n word hD1 hD2 hD hdel hlen hv
    rcases expose_ok_firstFire n word r n1 h with ⟨h0, h1, hf, _⟩ | ⟨hr, _⟩
    · have hne : r ≠ n.D1 + n.D2 - 1 := by
        intro he
        rw [he] at hf
        exact not_fires_of_not_aligned n word _ hH hlast hf
      exact ⟨Or.inr ⟨h0, by omega⟩, hne⟩
    · refine ⟨Or.inl hr, ?_⟩
      rw [hr]
      unfold kDisabled
      omega
  · obtain ⟨r, sum1, h, _⟩ := expose_spec n word hc hcont hv
    exact ⟨r, _, h⟩
  · obtain ⟨r, sum1, h, _⟩ := expose_spec n [] hc hcont (fun e he => by cases he)
    have hr := hempty r _ h
    rw [hr] at h
    exact ⟨_, h⟩

/-- C38 on `exampleNeuron` (`D1 = 2`, `D2 = 3`, `H = 2`) and `exampleWord`:
`Expose` returns the slot 1, which is at most `D1 + D2 - 2 = 3`. -/
theorem c38_expose_range_witness :
    (0 : ℚ) + kEpsilon < exampleNeuron.H ∧ ValidWord exampleNeuron exampleWord ∧
      exampleNeuron.Expose exampleWord = .ok (1, exampleExposed) ∧
      ((1 : Int) = kDisabled ∨ ((0 : Int) ≤ 1 ∧ (1 : Int) ≤ exampleNeuron.D1 + exampleNeuron.D2 - 2)) :=
  ⟨by decide!, by decide, by decide!,
    (((c38_expose_range exampleNeuron exampleWord (by decide!)).1 (by decide) (by decide)
      (by decide) (by decide) (by decide) (by decide)).1 1 exampleExposed (by decide!)).1⟩

/-- The value `Rand64() % m` for a positive `int32` value `m`, converted to
`int32`. -/
theorem rand64_mod_range (x : Nat) (m : Int) (h0 : 0 < m) (h1 : m ≤ 2147483647) :
    0 ≤ toInt32 ((x % 18446744073709551616) % toUInt64 m) ∧
      toInt32 ((x % 18446744073709551616) % toUInt64 m) < m := by
  have hm : toUInt64 m = m.toNat := by
    unfold toUInt64
    rw [Int.emod_eq_of_lt (by omega) (by omega)]
  have hpos : 0 < m.toNat := by omega
  have hlt : (x % 18446744073709551616) % m.toNat < m.toNat := Nat.mod_lt _ hpos
  rw [hm]
  unfold toInt32
  have hsmall : (x % 18446744073709551616) % m.toNat % 4294967296
      = (x % 18446744073709551616) % m.toNat := Nat.mod_eq_of_lt (by omega)
  rw [hsmall, if_pos (by omega)]
  omega

/-- The synapse that the redraw loop of `InitFixed` finds is not active yet
and lies in `[0, word_length)`. -/
theorem fixedDraw_spec (rand64 : Nat → Nat) (wl : Int) (active : List Int) (h0 : 0 < wl)
    (h1 : wl ≤ 2147483647) :
    ∀ (fuel p : Nat) (s : Int) (p1 : Nat),
      fixedDraw rand64 wl active fuel p = some (s, p1) →
      s ∉ active ∧ 0 ≤ s ∧ s < wl := by
  intro fuel
  induction fuel with
  | zero =>
    intro p s p1 h
    simp [fixedDraw] at h
  | succ fuel ih =>
    intro p s p1 h
    rw [fixedDraw] at h
    split at h
    · exact ih _ _ _ h
    · rename_i hn
      simp only [Option.some.injEq, Prod.mk.injEq] at h
      rw [← h.1]
      exact ⟨hn, rand64_mod_range _ wl h0 h1⟩

/-- The word that the loop of `InitFixed` over the active synapses builds:
`k` entries more, with synapses that are new and in `[0, word_length)` and
delays in `[0, num_delays)`. -/
theorem fixedWordLoop_spec (rand64 : Nat → Nat) (wl nd : Int) (fuel : Nat) (h0 : 0 < wl)
    (h1 : wl ≤ 2147483647) (hnd : 1 ≤ nd) (hnd2 : nd ≤ 2147483647) :
    ∀ (k p : Nat) (active : List Int) (word res : Word) (p1 : Nat),
      active = word.map Prod.fst → (word.map Prod.fst).Nodup →
      (∀ e ∈ word, 0 ≤ e.1 ∧ e.1 < wl ∧ 0 ≤ e.2 ∧ e.2 < nd) →
      fixedWordLoop rand64 wl nd fuel k p active word = some (.ok (res, p1)) →
      res.length = word.length + k ∧ (res.map Prod.fst).Nodup ∧
        (∀ e ∈ res, 0 ≤ e.1 ∧ e.1 < wl ∧ 0 ≤ e.2 ∧ e.2 < nd) := by
  intro k
  induction k with
  | zero =>
    intro p active word res p1 _ hnd hr h
    simp only [fixedWordLoop, Option.some.injEq, Except.ok.injEq, Prod.mk.injEq] at h
    rw [← h.1]
    exact ⟨rfl, hnd, hr⟩
  | succ k ih =>
    intro p active word res p1 hact hnodup hr h
    rw [fixedWordLoop] at h
    cases hd : fixedDraw rand64 wl active fuel p with
    | none =>
      rw [hd] at h
      simp at h
    | some sp =>
      obtain ⟨s, p2⟩ := sp
      rw [hd] at h
      simp only [] at h
      obtain ⟨d1, d2, d3⟩ := fixedDraw_spec rand64 wl active h0 h1 fuel p s p2 hd
      have hz : ¬ toUInt64 nd = 0 := by
        unfold toUInt64
        rw [Int.emod_eq_of_lt (by omega) (by omega)]
        omega
      rw [if_neg hz] at h
      obtain ⟨r1, r2, r3⟩ := ih (p2 + 1) (active ++ [s])
        (word ++ [(s, toInt32 ((rand64 p2 % 18446744073709551616) % toUInt64 nd))]) res p1
        (by rw [List.map_append, hact]; rfl)
        (by
          rw [List.map_append, List.map_singleton]
          rw [List.nodup_append]
          refine ⟨hnodup, List.nodup_singleton _, ?_⟩
          intro x hx hx2
          rw [List.mem_singleton] at hx2
          rw [hx2, ← hact] at hx
          exact d1 hx)
        (by
          intro e he
          rcases List.mem_append.1 he with he | he
          · exact hr e he
          · rw [List.mem_singleton] at he
            rw [he]
            exact ⟨d2, d3, rand64_mod_range _ nd (by omega) hnd2⟩)
        h
      refine ⟨?_, r2, r3⟩
      rw [r1, List.length_append, List.length_singleton]
      omega

/-- A sorted word has the properties of the word it was sorted from, and its
synapse indices increase strictly when they are pairwise distinct. -/
theorem sorted_word_spec (word : Word) (wl nd : Int) (hnodup : (word.map Prod.fst).Nodup)
    (hr : ∀ e ∈ word, 0 ≤ e.1 ∧ e.1 < wl ∧ 0 ≤ e.2 ∧ e.2 < nd) :
    (word.insertionSort pairLe).length = word.length ∧
      ((word.insertionSort pairLe).map Prod.fst).Pairwise (fun x y => x < y) ∧
      ((word.insertionSort pairLe).map Prod.fst).Nodup ∧
      (∀ e ∈ word.insertionSort pairLe, 0 ≤ e.1 ∧ e.1 < wl ∧ 0 ≤ e.2 ∧ e.2 < nd) ∧
      (word.insertionSort pairLe).Perm word := by
  have hperm := List.perm_insertionSort pairLe word
  have hsorted : (word.insertionSort pairLe).Pairwise pairLe :=
    List.sorted_insertionSort pairLe word
  have hnd2 : ((word.insertionSort pairLe).map Prod.fst).Nodup :=
    (List.Perm.nodup_iff (hperm.map Prod.fst)).2 hnodup
  refine ⟨hperm.length_eq, ?_, hnd2, fun e he => hr e (hperm.mem_iff.1 he), hperm⟩
  rw [List.pairwise_map]
  have hne : (word.insertionSort pairLe).Pairwise (fun a b => a.1 ≠ b.1) := by
    have := hnd2
    unfold List.Nodup at this
    rw [List.pairwise_map] at this
    exact this
  refine (hsorted.and hne).imp ?_
  intro a b ⟨h1, h2⟩
  unfold pairLe at h1
  omega

/-- The loop of `InitFixed` over the words: every word from `i` on is the
sorted word that the loop over the active synapses builds from the empty
word. -/
theorem fixedWordsLoop_words (rand64 : Nat → Nat) (wl nd na : Int) (fuel : Nat) :
    ∀ (k i p : Nat) (words : List Word) (delays : List Int)
      (words1 : List Word) (delays1 : List Int) (p1 : Nat),
      fixedWordsLoop rand64 wl nd na fuel k i p words delays = some (.ok (words1, delays1, p1)) →
      words1.length = words.length ∧
      (∀ j, j < i → words1.getD j [] = words.getD j []) ∧
      (∀ j, i ≤ j → j < i + k → j < words.length →
        ∃ p0 word0 p2, fixedWordLoop rand64 wl nd fuel na.toNat p0 [] [] = some (.ok (word0, p2)) ∧
          words1.getD j [] = word0.insertionSort pairLe) := by
  intro k
  induction k with
  | zero =>
    intro i p words delays words1 delays1 p1 h
    simp only [fixedWordsLoop, Option.some.injEq, Except.ok.injEq, Prod.mk.injEq] at h
    rw [← h.1]
    exact ⟨rfl, fun _ _ => rfl, fun j h1 h2 _ => by omega⟩
  | succ k ih =>
    intro i p words delays words1 delays1 p1 h
    rw [fixedWordsLoop] at h
    cases hw : fixedWordLoop rand64 wl nd fuel na.toNat p [] [] with
    | none =>
      rw [hw] at h
      simp at h
    | some r =>
      cases r with
      | error e =>
        rw [hw] at h
        simp at h
      | ok wp =>
        obtain ⟨word, p2⟩ := wp
        rw [hw] at h
        simp only [] at h
        obtain ⟨r1, r2, r3⟩ := ih (i + 1) p2 _ _ words1 delays1 p1 h
        rw [List.length_set] at r1 r3
        refine ⟨r1, fun j hj => ?_, fun j hj1 hj2 hj3 => ?_⟩
        · rw [r2 j (by omega), getD_set_other _ _ _ _ _ (by omega)]
        · by_cases hji : j = i
          · subst hji
            rw [r2 j (by omega), getD_set_self _ _ _ _ hj3]
            exact ⟨p, word, p2, hw, rfl⟩
          · exact r3 j (by omega) (by omega) hj3

/-- C31: for every stream of random numbers and every
`ConfigFixed(numWords, wordLength, numDelays, numActive)` with
`0 < numActive < wordLength` and `numDelays >= 1` (`int32` values), whenever
the generation completes each generated word has exactly `numActive` entries,
their synapse indices are pairwise distinct, lie in `[0, wordLength)` and
increase strictly, and every delay lies in `[0, numDelays)`. -/
theorem c31_fixed_words (rand64 : Nat → Nat) (fuel p : Nat) (w : Wordset)
    (nw wl nd na : Int) (hna : 0 < na) (hnawl : na < wl) (hwl : wl ≤ 2147483647)
    (hnd : 1 ≤ nd) (hnd2 : nd ≤ 2147483647) :
    ∀ w1 p1, w.ConfigFixed rand64 fuel p nw wl nd na = some (.ok (w1, p1)) →
      w1.size = nw ∧
      ∀ word ∈ w1.words,
        (word.length : Int) = na ∧
        (word.map Prod.fst).Pairwise (fun x y => x < y) ∧ (word.map Prod.fst).Nodup ∧
        ∀ e ∈ word, 0 ≤ e.1 ∧ e.1 < wl ∧ 0 ≤ e.2 ∧ e.2 < nd := by
  intro w1 p1 h
  have hsize := (wordset_init_spec rand64 fuel p _ w1 p1 h).2.1
  refine ⟨hsize, fun word hword => ?_⟩
  unfold Wordset.ConfigFixed Wordset.Config Wordset.Init at h
  have h1 : ¬ ((0 : Int) < -1) := by decide
  simp only [h1, hna, false_or, not_true_eq_false, if_false] at h
  unfold Wordset.InitFixed at h
  simp only [] at h
  split at h
  · simp at h
  · split at h
    · simp at h
    · split at h
      · simp at h
      · simp at h
      · rename_i words1 delays1 p2 hloop
        simp only [Option.some.injEq, Except.ok.injEq, Prod.mk.injEq] at h
        have e1 : w1.words = words1 := by rw [← h.1]
        rw [e1] at hword
        obtain ⟨r1, _, r3⟩ := fixedWordsLoop_words _ _ _ _ _ _ _ _ _ _ _ _ _ hloop
        rw [resize_length_eq] at r1 r3
        obtain ⟨j, hj, hjw⟩ := (mem_iff_getD words1 [] word).1 hword
        obtain ⟨p0, word0, p3, hw0, hsort⟩ := r3 j (Nat.zero_le _) (by omega) (by omega)
        obtain ⟨q1, q2, q3⟩ := fixedWordLoop_spec rand64 wl nd fuel (by omega) hwl hnd hnd2
          na.toNat p0 [] [] word0 p3 rfl (by simp) (by simp) hw0
        obtain ⟨s1, s2, s3, s4, _⟩ := sorted_word_spec word0 wl nd q2 q3
        rw [hjw] at hsort
        rw [hsort]
        refine ⟨?_, s2, s3, s4⟩
        rw [s1, q1]
        simp only [List.length_nil, zero_add]
        omega

/-- C31 on `ConfigFixed(2, 8, 4, 3)` with the stream `exampleRand64`: two
words of three entries, with the synapses 0, 2, 6 and 0, 2, 4. -/
theorem c31_fixed_words_witness :
    (0 : Int) < 3 ∧ (3 : Int) < 8 ∧ (1 : Int) ≤ 4 ∧
      Wordset.new.ConfigFixed exampleRand64 5 0 2 8 4 3
        = some (.ok (exampleFixedWordset, 12)) ∧
      exampleFixedWordset.words = [[(0, 0), (2, 2), (6, 2)], [(0, 0), (2, 2), (4, 0)]] ∧
      (∀ word ∈ exampleFixedWordset.words,
        (word.length : Int) = 3 ∧
        (word.map Prod.fst).Pairwise (fun x y => x < y) ∧ (word.map Prod.fst).Nodup ∧
        ∀ e ∈ word, 0 ≤ e.1 ∧ e.1 < 8 ∧ 0 ≤ e.2 ∧ e.2 < 4) :=
  ⟨by decide, by decide, by decide, by decide!, by decide,
    ((c31_fixed_words exampleRand64 5 0 Wordset.new 2 8 4 3 (by decide) (by decide)
      (by decide) (by decide) (by decide)) exampleFixedWordset 12 (by decide!)).2⟩

/-- Every call of `Init` on a wordset of the tiny fixed configuration draws
`[(0, 0)]` or `[(1, 0)]`, with two calls of `Rand64()`. -/
theorem tinyFixed_init (rand64 : Nat → Nat) (fuel p : Nat) (t : Wordset) (ht : TinyFixed t) :
    ∃ t1 : Wordset, t.Init rand64 (fuel + 1) p = some (.ok (t1, p + 2)) ∧
      (t1.get_word 0 = [(0, 0)] ∨ t1.get_word 0 = [(1, 0)]) ∧ TinyFixed t1 ∧
      t1.words.length = 1 := by
  obtain ⟨h1, h2, h3, h4, h5⟩ := ht
  obtain ⟨s0, s1⟩ := rand64_mod_range (rand64 p) 2 (by decide) (by decide)
  have hd : toInt32 ((rand64 (p + 1) % 18446744073709551616) % toUInt64 1) = 0 := by
    have := rand64_mod_range (rand64 (p + 1)) 1 (by decide) (by decide)
    omega
  have hz : ¬ toUInt64 1 = 0 := by decide
  unfold Wordset.Init Wordset.InitFixed
  rw [h1, h2, h3, h4, h5]
  simp only [show ¬ ((0 : Int) < -1) from by decide, show (0 : Int) < 1 from by decide,
    show (1 : Int) < 2 from by decide, show ¬ ((1 : Int) < 0) from by decide, false_or,
    not_true_eq_false, true_and, and_self, if_false, if_true, not_false_eq_true]
  have e1 : (1 : Int).toNat = 1 := rfl
  rw [e1]
  simp only [fixedWordsLoop, fixedWordLoop, fixedDraw, List.not_mem_nil, if_false, hz, hd,
    List.nil_append, List.insertionSort, List.orderedInsert]
  refine ⟨_, rfl, ?_, ⟨rfl, rfl, rfl, rfl, rfl⟩, ?_⟩
  · have hl : (resize t.words 1 ([] : Word)).length = 1 := resize_length_eq _ _ _
    have : ((resize t.words 1 ([] : Word)).set 0
        [(toInt32 ((rand64 p % 18446744073709551616) % toUInt64 2), (0 : Int))]).getD 0 []
        = [(toInt32 ((rand64 p % 18446744073709551616) % toUInt64 2), (0 : Int))] :=
      getD_set_self _ _ _ _ (by omega)
    unfold Wordset.get_word
    simp only [Int.toNat_zero]
    rw [this]
    have hs : toInt32 ((rand64 p % 18446744073709551616) % toUInt64 2) = 0 ∨
        toInt32 ((rand64 p % 18446744073709551616) % toUInt64 2) = 1 := by omega
    rcases hs with hs | hs
    · left
      rw [hs]
    · right
      rw [hs]
  · simp only [List.length_set]
    exact resize_length_eq _ _ _

/-- Without fuel the redraw loop of `InitFixed` gives no result. -/
theorem tinyFixed_init_zero (rand64 : Nat → Nat) (p : Nat) (t : Wordset) (ht : TinyFixed t) :
    t.Init rand64 0 p = none := by
  obtain ⟨h1, h2, h3, h4, h5⟩ := ht
  unfold Wordset.Init Wordset.InitFixed
  rw [h1, h2, h3, h4, h5]
  simp only [show ¬ ((0 : Int) < -1) from by decide, show (0 : Int) < 1 from by decide,
    show (1 : Int) < 2 from by decide, show ¬ ((1 : Int) < 0) from by decide, false_or,
    not_true_eq_false, true_and, and_self, if_false, if_true, not_false_eq_true]
  have e1 : (1 : Int).toNat = 1 := rfl
  rw [e1]
  simp only [fixedWordsLoop, fixedWordLoop, fixedDraw]

/-- Whenever a call of `Init` on a wordset of the tiny fixed configuration
returns, it has drawn `[(0, 0)]` or `[(1, 0)]`. -/
theorem tinyFixed_init_ok (rand64 : Nat → Nat) (fuel p : Nat) (t t1 : Wordset) (p1 : Nat)
    (ht : TinyFixed t) (h : t.Init rand64 fuel p = some (.ok (t1, p1))) :
    (t1.get_word 0 = [(0, 0)] ∨ t1.get_word 0 = [(1, 0)]) ∧ TinyFixed t1 ∧ p1 = p + 2 := by
  cases fuel with
  | zero =>
    rw [tinyFixed_init_zero rand64 p t ht] at h
    exact absurd h (by simp)
  | succ fuel =>
    obtain ⟨t2, h2, hw, hc, _⟩ := tinyFixed_init rand64 fuel p t ht
    rw [h2] at h
    simp only [Option.some.injEq, Except.ok.injEq, Prod.mk.injEq] at h
    rw [← h.1, ← h.2]
    exact ⟨hw, hc, rfl⟩

/-- The redraw loop of `TestTestSet` gives no result, whatever the fuel, when
every word drawn is a word of the training set. -/
theorem drawFresh_none (draw : Nat → Except Fault Word) (training : List Word)
    (hdraw : ∀ j, ∃ w, draw j = .ok w ∧ w ∈ training) :
    ∀ fuel j : Nat, drawFresh draw training fuel j = none := by
  intro fuel
  induction fuel with
  | zero =>
    intro j
    rfl
  | succ fuel ih =>
    intro j
    obtain ⟨w, hw, hmem⟩ := hdraw j
    rw [drawFresh, hw]
    simp only [hmem, if_true]
    exact ih (j + 1)

theorem testTestSet_none (draw : Nat → Except Fault Word) (words : Wordset) (n : Neuron F)
    (num_test_words false_true false_false : Int) (hk : 1 ≤ num_test_words)
    (hdraw : ∀ j, ∃ w, draw j = .ok w ∧ w ∈ words.words) (fuel : Nat) :
    Bob.TestTestSet draw fuel words n num_test_words false_true false_false = none := by
  obtain ⟨w, hw, _⟩ := hdraw 0
  obtain ⟨k, hk2⟩ : ∃ k : Nat, num_test_words.toNat = k + 1 := ⟨num_test_words.toNat - 1, by omega⟩
  unfold Bob.TestTestSet
  rw [hw, hk2]
  simp only [testTestSetLoop, drawFresh_none draw words.words hdraw]

/-- C39: the redraw loop of `Bob::TestTestSet` has no bound.  For the fixed
policy with `wordLength = 2`, `numActive = 1` and `numDelays = 1`, every call
of `Init` on the one-word wordset `test`, whatever the random stream and the
position in it, draws `[(0, 0)]` or `[(1, 0)]` (and returns, with two calls of
`Rand64()`), and `test.CopyFrom(1, words)` gives `test` this configuration.
So when the training set holds both words and a test word is asked for, every
word drawn is a training word and the loop never ends: `TestTestSet` gives no
result for any amount of fuel.  This holds for every training set that
contains every word that is drawn. -/
theorem c39_test_set_no_bound (words : Wordset) (n : Neuron F)
    (draw : Nat → Except Fault Word) (num_test_words false_true false_false : Int) :
    (∀ (rand64 : Nat → Nat) (fuel p : Nat) (t : Wordset), TinyFixed t →
      (∀ t1 p1, t.Init rand64 fuel p = some (.ok (t1, p1)) →
        (t1.get_word 0 = [(0, 0)] ∨ t1.get_word 0 = [(1, 0)]) ∧ TinyFixed t1 ∧ p1 = p + 2) ∧
      (1 ≤ fuel → ∃ t1, t.Init rand64 fuel p = some (.ok (t1, p + 2)))) ∧
    (∀ (rand64 : Nat → Nat) (fuel p : Nat) (t0 t : Wordset) (p1 : Nat),
      words.word_length = 2 → words.num_delays = 1 → words.num_active = 1 →
      words.refractory_period ≤ 0 →
      t0.CopyFrom rand64 fuel p 1 words = some (.ok (t, p1)) → TinyFixed t) ∧
    (1 ≤ num_test_words → [(0, 0)] ∈ words.words → [(1, 0)] ∈ words.words →
      (∀ j, ∃ (rand64 : Nat → Nat) (fuel p : Nat) (t t1 : Wordset) (p1 : Nat),
        TinyFixed t ∧ t.Init rand64 fuel p = some (.ok (t1, p1)) ∧
        draw j = .ok (t1.get_word 0)) →
      ∀ fuel, Bob.TestTestSet draw fuel words n num_test_words false_true false_false = none) ∧
    (1 ≤ num_test_words → (∀ j, ∃ w, draw j = .ok w ∧ w ∈ words.words) →
      ∀ fuel, Bob.TestTestSet draw fuel words n num_test_words false_true false_false = none) := by
  refine ⟨fun rand64 fuel p t ht => ⟨fun t1 p1 h => tinyFixed_init_ok rand64 fuel p t t1 p1 ht h,
    fun hf => ?_⟩, ?_, fun hk h0 h1 hdraw fuel => ?_,
    fun hk hdraw fuel => testTestSet_none draw words n _ _ _ hk hdraw fuel⟩
  · obtain ⟨f, hf2⟩ : ∃ f : Nat, fuel = f + 1 := ⟨fuel - 1, by omega⟩
    rw [hf2]
    obtain ⟨t1, h, _⟩ := tinyFixed_init rand64 f p t ht
    exact ⟨t1, h⟩
  · intro rand64 fuel p t0 t p1 h1 h2 h3 h4 h
    unfold Wordset.CopyFrom at h
    rw [if_neg (by omega), h1, h2, h3] at h
    unfold Wordset.ConfigFixed Wordset.Config at h
    obtain ⟨_, _, _, _, hcfg⟩ := wordset_init_spec rand64 fuel p _ t p1 h
    rw [hcfg]
    exact ⟨rfl, rfl, rfl, rfl, rfl⟩
  · apply testTestSet_none draw words n _ _ _ hk
    intro j
    obtain ⟨rand64, fi, p, t, t1, p1, ht, hinit, hd⟩ := hdraw j
    rcases (tinyFixed_init_ok rand64 fi p t t1 p1 ht hinit).1 with hw | hw
    · exact ⟨_, hd, by rw [hw]; exact h0⟩
    · exact ⟨_, hd, by rw [hw]; exact h1⟩

/-- C39 on `tinyWordset`, which holds `[(0, 0)]` and `[(1, 0)]`, with a stream
of zeros: `test.CopyFrom(1, words)` and every `test.Init()` draw `[(0, 0)]`,
and `TestTestSet` asked for one test word gives no result with fuel 1000. -/
theorem c39_test_set_no_bound_witness :
    Wordset.new.CopyFrom (fun _ => 0) 1 0 1 tinyWordset = some (.ok (tinyTest, 2)) ∧
      TinyFixed tinyTest ∧
      tinyTest.Init (fun _ => 0) 1 0 = some (.ok (tinyTest, 2)) ∧
      (1 : Int) ≤ 1 ∧ [(0, 0)] ∈ tinyWordset.words ∧ [(1, 0)] ∈ tinyWordset.words ∧
      Bob.TestTestSet (fun _ => .ok [(0, 0)]) 1000 tinyWordset exampleNeuron 1 0 0 = none :=
  ⟨by decide, by decide, by decide, by decide, by decide, by decide,
    (c39_test_set_no_bound tinyWordset exampleNeuron (fun _ => .ok [(0, 0)]) 1 0 0).2.2.1
      (by decide) (by decide) (by decide)
      (fun _ => ⟨fun _ => 0, 1, 0, tinyTest, tinyTest, 2, by decide, by decide, rfl⟩) 1000⟩

theorem strengthCount_eq (n : Neuron F) (g : F) :
    strengthCount n g
      = (((List.range n.length.toNat).filter
          fun i => decide (n.strength.getD i 0 = g)).length : Int) := by
  unfold strengthCount
  have := foldl_count (fun i => decide (n.strength.getD i 0 = g)) (List.range n.length.toNat) 0
  simp only [zero_add, decide_eq_true_eq] at this
  rw [← this]
  rfl

/-- One `Train` call of a strength training cycle changes the strength of
frozen synapses only. -/
theorem train_strength_unfrozen (n0 n : Neuron F) (g : F) (word : Word) (hc : Consistent n0)
    (hcont : ContainersInRange n0) (hls : n0.learn = some .LearnSynapseStrength)
    (hg : n0.config.g_m = some g) (hv : ValidWord n0 word)
    (hn : n = { n0 with frozen := n.frozen, strength := n.strength, sum := n.sum })
    (hfl : n.frozen.length = n0.frozen.length) (hstl : n.strength.length = n0.strength.length)
    (hsl : (n.sum.length : Int) = n0.C) (r : Int) (n1 : Neuron F)
    (ht : n.Train word = .ok (r, n1)) :
    ∀ j, n1.frozen.getD j false = false → n1.strength.getD j 0 = n.strength.getD j 0 := by
  obtain ⟨c1, c2, c3, c4, c5⟩ := hc
  have e1 : n.delays = n0.delays := by rw [hn]
  have e2 : n.containers = n0.containers := by rw [hn]
  have e4 : n.C = n0.C := by rw [hn]
  have e6 : n.D1 = n0.D1 := by rw [hn]
  have e8 : n.length = n0.length := by rw [hn]
  have e9 : n.learn = n0.learn := by rw [hn]
  have e10 : n.config = n0.config := by rw [hn]
  have hcn : Consistent n := by
    unfold Consistent
    rw [e1, e2, e4, e8, hfl, hstl]
    exact ⟨hsl, c2, c3, c4, c5⟩
  have hcontn : ContainersInRange n := by
    unfold ContainersInRange
    rw [e2, e4]
    exact hcont
  have hvn : ValidWord n word := by
    unfold ValidWord
    rw [e8, e6]
    exact hv
  have hln : LearnReady n := Or.inr ⟨by rw [e9, hls], by rw [e10, hg]; rfl⟩
  obtain ⟨r2, sum1, n2, _, t2, _, _, t5, t6⟩ := train_spec n word hcn hcontn hvn hln
  rw [ht] at t2
  simp only [Except.ok.injEq, Prod.mk.injEq] at t2
  obtain ⟨rfl, rfl⟩ := t2
  intro j hj
  by_cases hr : r = kDisabled
  · rw [t5 hr]
  · obtain ⟨L, u1, _, _, u4, _⟩ := t6 hr
    have u5 : n1.strength = L.foldl (fun f s => f.set s.toNat g) n.strength :=
      updateAll_strength g L { n with sum := sum1 } n1 (e9.trans hls)
        ((congrArg NeuronConfig.g_m e10).trans hg) u1
    have hnot : ¬ (j < n.frozen.length ∧ ∃ s ∈ L, s.toNat = j) := by
      intro h
      have := (foldl_set_true_getD L n.frozen j).2 (Or.inr h)
      rw [← u4, hj] at this
      exact absurd this (by decide)
    have a1 : (n.frozen.length : Int) = n.length := hcn.2.2.2.2
    have a2 : (n.strength.length : Int) = n.length := hcn.2.2.1
    rw [u5, foldl_set_getD, if_neg]
    rintro ⟨h1, h2⟩
    exact hnot ⟨by omega, h2⟩

/-- The `Train` calls of a strength training cycle change the strength of
frozen synapses only. -/
theorem trainEach_strength_unfrozen (n0 : Neuron F) (g : F) (hc : Consistent n0)
    (hcont : ContainersInRange n0) (hls : n0.learn = some .LearnSynapseStrength)
    (hg : n0.config.g_m = some g) :
    ∀ (ws : List Word) (n : Neuron F), (∀ w ∈ ws, ValidWord n0 w) →
      n = { n0 with frozen := n.frozen, strength := n.strength, sum := n.sum } →
      n.frozen.length = n0.frozen.length → n.strength.length = n0.strength.length →
      (n.sum.length : Int) = n0.C →
      ∀ ds n1, trainEach ws n = .ok (ds, n1) →
        ∀ j, n1.frozen.getD j false = false → n1.strength.getD j 0 = n.strength.getD j 0 := by
  intro ws
  induction ws with
  | nil =>
    intro n _ _ _ _ _ ds n1 h j _
    simp only [trainEach, Except.ok.injEq, Prod.mk.injEq] at h
    rw [← h.2]
  | cons w rest ih =>
    intro n hv hn hfl hstl hsl ds n2 h j hj
    obtain ⟨r, n1, a1, _, a3, a4, a5, a6, _⟩ :=
      train_strength_step n0 n g w hc hcont hls hg (hv w (List.mem_cons_self _ _)) hn hfl hstl
        hsl
    have hvr : ∀ x ∈ rest, ValidWord n0 x := fun x hx => hv x (List.mem_cons_of_mem _ hx)
    obtain ⟨ds2, n3, b1, _, _, _, _, b6, _⟩ :=
      trainEach_strength n0 g hc hcont hls hg rest n1 hvr a3 a4 a5 a6
    have hrest : n3 = n2 := by
      unfold trainEach at h
      rw [a1] at h
      simp only [b1, Except.ok.injEq, Prod.mk.injEq] at h
      exact h.2
    subst hrest
    have h1 := ih n1 hvr a3 a4 a5 a6 ds2 n3 b1 j hj
    have hj1 : n1.frozen.getD j false = false := by
      cases hb : n1.frozen.getD j false with
      | false => rfl
      | true =>
        rw [b6 j hb] at hj
        exact absurd hj (by decide)
    rw [h1]
    exact train_strength_unfrozen n0 n g w hc hcont hls hg (hv w (List.mem_cons_self _ _)) hn
      hfl hstl hsl r n1 a1 j hj1

/-- A strength training cycle changes the strength of frozen synapses
only. -/
theorem cycle_strength_unfrozen (n0 : Neuron F) (ws : List Word) (h g hm : F)
    (hlen : (n0.delays.length : Int) = n0.length ∧ (n0.strength.length : Int) = n0.length ∧
      (n0.containers.length : Int) = n0.length ∧ (n0.frozen.length : Int) = n0.length)
    (hsum : (n0.sum.length : Int) = n0.C)
    (hcont : ContainersInRange n0) (hls : n0.learn = some .LearnSynapseStrength)
    (hh : n0.config.h = some h) (hg : n0.config.g_m = some g) (hhm : n0.config.h_m = some hm)
    (hv : ∀ w ∈ ws, ValidWord n0 w) (ds : List Int) (n3 : Neuron F)
    (hcyc : trainingCycle ws n0 = .ok (ds, n3)) :
    ∀ j, n3.frozen.getD j false = false → n3.strength.getD j 0 = n0.strength.getD j 0 := by
  obtain ⟨l1, l2, l3, l4⟩ := hlen
  have hst : n0.StartTraining = .ok (n0.set_H h) := by
    unfold Neuron.StartTraining
    rw [hls, hh]
  obtain ⟨ds2, n2, b1, b2, b3, _⟩ :=
    trainEach_strength (n0.set_H h) g ⟨hsum, l1, l2, l3, l4⟩ hcont hls hg ws (n0.set_H h) hv rfl
      rfl rfl hsum
  have hun := trainEach_strength_unfrozen (n0.set_H h) g ⟨hsum, l1, l2, l3, l4⟩ hcont hls hg ws
    (n0.set_H h) hv rfl rfl rfl hsum ds2 n2 b1
  have hfin : n2.FinishTraining = .ok { n2.set_H hm with
      Q_after := DoubleModel.ofInt (frozenCount n2) / DoubleModel.ofInt n2.length } := by
    have k1 : n2.learn = some .LearnSynapseStrength := by rw [b2]; exact hls
    have k2 : n2.config.h_m = some hm := by rw [b2]; exact hhm
    have k3 : (n2.frozen.length : Int) = n2.length := by
      rw [b3, b2]
      exact l4
    unfold Neuron.FinishTraining
    rw [k1]
    simp only [k3, not_true_eq_false, if_false, k2]
  unfold trainingCycle at hcyc
  rw [hst] at hcyc
  simp only [b1, hfin, Except.ok.injEq, Prod.mk.injEq] at hcyc
  obtain ⟨_, rfl⟩ := hcyc
  exact hun

/-- After a strength training cycle on one firing word without a repeated
synapse, started on a neuron whose synapses all have strength `1.0` and are
not frozen, the synapses of strength `G_m` are as many as the contributing
word entries, provided `G_m` is not `1.0`. -/
theorem cycle_single_count (n0 : Neuron F) (word : Word) (h g : F)
    (hlen : (n0.delays.length : Int) = n0.length ∧ (n0.strength.length : Int) = n0.length ∧
      (n0.containers.length : Int) = n0.length ∧ (n0.frozen.length : Int) = n0.length)
    (hcont : ContainersInRange n0) (hls : n0.learn = some .LearnSynapseStrength)
    (hh : n0.config.h = some h) (hg : n0.config.g_m = some g)
    (hone : ∀ x ∈ n0.strength, x = 1) (hfresh : ∀ b ∈ n0.frozen, b = false)
    (hv : ValidWord n0 word) (hnd : (word.map Prod.fst).Nodup) (hg1 : g ≠ 1)
    (ds : List Int) (n3 : Neuron F) (hcyc : trainingCycle [word] n0 = .ok (ds, n3)) :
    ∃ d, ds = [d] ∧ (d ≠ kDisabled →
      strengthCount n3 g = ((contributing (n0.set_H h) word d).length : Int) ∧
      frozenCount n3 = ((contributing (n0.set_H h) word d).length : Int)) := by
  obtain ⟨l1, l2, l3, l4⟩ := hlen
  have hst : n0.StartTraining = .ok (n0.set_H h) := by
    unfold Neuron.StartTraining
    rw [hls, hh]
  unfold trainingCycle at hcyc
  rw [hst] at hcyc
  simp only [trainEach] at hcyc
  cases ht : (n0.set_H h).Train word with
  | error e => rw [ht] at hcyc; simp at hcyc
  | ok p =>
    obtain ⟨d, n2⟩ := p
    rw [ht] at hcyc
    simp only [] at hcyc
    cases hf : n2.FinishTraining with
    | error e => rw [hf] at hcyc; simp at hcyc
    | ok m =>
      rw [hf] at hcyc
      simp only [Except.ok.injEq, Prod.mk.injEq] at hcyc
      obtain ⟨rfl, rfl⟩ := hcyc
      refine ⟨d, rfl, fun hd => ?_⟩
      have hsum : (n0.sum.length : Int) = n0.C := by
        by_contra hne
        unfold Neuron.Train at ht
        have : ¬ (((n0.set_H h).sum.length : Int) = (n0.set_H h).C) := hne
        simp [this] at ht
      have hc1 : Consistent (n0.set_H h) := ⟨hsum, l1, l2, l3, l4⟩
      have hl1 : LearnReady (n0.set_H h) := Or.inr ⟨hls, by
        show n0.config.g_m.isSome = true
        rw [hg]; rfl⟩
      obtain ⟨r, sum1, n2a, _, t2, _, _, _, t6⟩ := train_spec (n0.set_H h) word hc1 hcont hv hl1
      rw [ht] at t2
      simp only [Except.ok.injEq, Prod.mk.injEq] at t2
      obtain ⟨rfl, rfl⟩ := t2
      obtain ⟨L, u1, u2, u3, u4, _⟩ := t6 hd
      have u5 : n2.strength = L.foldl (fun f s => f.set s.toNat g) n0.strength :=
        updateAll_strength g L { n0.set_H h with sum := sum1 } n2 hls hg u1
      have u4b : n2.frozen = L.foldl (fun f s => f.set s.toNat true) n0.frozen := u4
      have hn2len : n2.length = n0.length := by rw [u3]; rfl
      have hvalid : ∀ s ∈ (contributing (n0.set_H h) word d).map Prod.fst,
          0 ≤ s ∧ s < n0.length := by
        intro s hs
        obtain ⟨t, m1, _, _⟩ := (mem_contributing (n0.set_H h) word d s).1 hs
        exact (hv (s, t) m1).1
      have hget : ∀ j, n2.frozen.getD j false = true ↔
          n0.frozen.getD j false = true ∨
            (j < n0.frozen.length ∧
              ∃ s ∈ (contributing (n0.set_H h) word d).map Prod.fst, s.toNat = j) := by
        intro j
        rw [u4b, foldl_set_true_getD]
        constructor
        · rintro (k | ⟨k1, s, k2, k3⟩)
          · exact Or.inl k
          · exact Or.inr ⟨k1, s, (u2 s).1 k2, k3⟩
        · rintro (k | ⟨k1, s, k2, k3⟩)
          · exact Or.inl k
          · exact Or.inr ⟨k1, s, (u2 s).2 k2, k3⟩
      have hnd2 : ((contributing (n0.set_H h) word d).map Prod.fst).Nodup := by
        unfold contributing
        exact hnd.sublist ((List.filter_sublist _).map Prod.fst)
      have hfc : frozenCount n2 = ((contributing (n0.set_H h) word d).length : Int) := by
        have := frozenCount_after n0 n2 _ hfresh l4 hn2len hget hvalid hnd2
        rw [this, List.length_map]
      have hm : m = { n2.set_H (m.H) with Q_after := m.Q_after } ∧ m.frozen = n2.frozen ∧
          m.strength = n2.strength ∧ m.length = n2.length := by
        unfold Neuron.FinishTraining at hf
        have k1 : n2.learn = some .LearnSynapseStrength := by rw [u3]; exact hls
        rw [k1] at hf
        simp only at hf
        split at hf
        · simp at hf
        · split at hf
          · simp at hf
          · simp only [Except.ok.injEq] at hf
            rw [← hf]
            exact ⟨rfl, rfl, rfl, rfl⟩
      obtain ⟨_, m2, m3, m4⟩ := hm
      have hsame : strengthCount m g = frozenCount n2 := by
        rw [strengthCount_eq, frozenCount_eq, m3, m4]
        congr 2
        apply List.filter_congr
        intro i hi
        rw [List.mem_range] at hi
        have hi0 : (i : Int) < n0.length := by omega
        have hs1 : n0.strength.getD i 0 = 1 := by
          have hil : i < n0.strength.length := by omega
          rw [List.getD_eq_getElem _ _ hil]
          exact hone _ (List.getElem_mem hil)
        have hf0 : n0.frozen.getD i false = false := getD_false_of_all_false _ hfresh i
        rw [u5, foldl_set_getD, u4b]
        by_cases hex : ∃ s ∈ L, s.toNat = i
        · have e1 : (L.foldl (fun f s => f.set s.toNat true) n0.frozen).getD i false = true :=
            (foldl_set_true_getD L n0.frozen i).2 (Or.inr ⟨by omega, hex⟩)
          rw [if_pos ⟨by omega, hex⟩, e1]
          simp
        · have e1 : (L.foldl (fun f s => f.set s.toNat true) n0.frozen).getD i false = false := by
            cases hb : (L.foldl (fun f s => f.set s.toNat true) n0.frozen).getD i false with
            | false => rfl
            | true =>
              rcases (foldl_set_true_getD L n0.frozen i).1 hb with k | ⟨_, k⟩
              · rw [hf0] at k
                exact absurd k (by decide)
              · exact absurd k hex
          rw [if_neg (fun k => hex k.2), e1, hs1]
          simp only [decide_eq_false_iff_not]
          exact fun k => hg1 k.symm
      have hfz : frozenCount m = frozenCount n2 := by
        rw [frozenCount_eq, frozenCount_eq, m2, m4]
      exact ⟨hsame.trans hfc, hfz.trans hfc⟩

/-- C33 (amended): for a strength neuron, training is non-destructive.  Let
`Init` build the neuron `n0` from a configuration with `G_m = g` and
`H_m = hm`.  A training cycle (`StartTraining`, `Train` on every word of a
list of valid words, `FinishTraining`) returns when the vector of sums has
`C` entries; and whenever it returns, every synapse has the delay and the
container that `Init` gave it, the delay in `[0, D2)` and the container in
`[0, C)`, every frozen synapse has strength exactly `g` and every other
synapse has strength exactly `1.0`.  After a cycle on a single firing word in
which no synapse occurs twice, and with `g` other than `1.0`, the number of
synapses of strength `g` is the number of word entries that contributed to a
container that fired. -/
theorem c33_strength_nondestructive (self : Neuron F) (cfg : NeuronConfig F) (rand : Nat → Nat)
    (n0 : Neuron F) (g hm : F) (ha : Aligned self) (hinit : self.Init cfg rand = .ok n0)
    (hg : cfg.g_m = some g) (hhm : cfg.h_m = some hm) :
    (∀ ws : List Word, (∀ w ∈ ws, ValidWord n0 w) → (n0.sum.length : Int) = n0.C →
      ∃ ds n3, trainingCycle ws n0 = .ok (ds, n3)) ∧
    (∀ (ws : List Word) (ds : List Int) (n3 : Neuron F), (∀ w ∈ ws, ValidWord n0 w) →
      trainingCycle ws n0 = .ok (ds, n3) →
      n3.length = n0.length ∧ n3.D2 = n0.D2 ∧ n3.C = n0.C ∧
      ∀ i : Int, 0 ≤ i → i < n0.length →
        n3.delays_at i = n0.delays_at i ∧ 0 ≤ n3.delays_at i ∧ n3.delays_at i < n0.D2 ∧
        n3.containers_at i = n0.containers_at i ∧
        0 ≤ n3.containers_at i ∧ n3.containers_at i < n0.C ∧
        (n3.frozen_at i = true → n3.strength_at i = g) ∧
        (n3.frozen_at i = false → n3.strength_at i = 1)) ∧
    (∀ (word : Word) (ds : List Int) (n3 : Neuron F), ValidWord n0 word →
      (word.map Prod.fst).Nodup → g ≠ 1 → trainingCycle [word] n0 = .ok (ds, n3) →
      ∃ d, ds = [d] ∧
        (d ≠ kDisabled → strengthCount n3 g = ((contributing n0 word d).length : Int))) := by
  obtain ⟨c, d1, d2, hh, q, r, _, _, _, f4, _, _, _, _, _, f10, _, _, _, f14, _, _, _, _, _, _,
    _, _, _⟩ := init_spec self cfg rand n0 hinit
  obtain ⟨g1, g2, g3, g4, g5, g6, g7, g8, g9⟩ := init_ready self cfg rand n0 ha hinit
  have hls : n0.learn = some .LearnSynapseStrength := by
    rw [g9, hg, hhm]
    simp
  have ch : n0.config.h = some hh := by rw [f10, f4]
  have cg : n0.config.g_m = some g := by rw [f10, hg]
  have chm : n0.config.h_m = some hm := by rw [f10, hhm]
  have hset : n0.set_H hh = n0 := by
    rw [← f14]
    rfl
  refine ⟨fun ws hv hsum => ?_, fun ws ds n3 hv hcyc => ?_, fun word ds n3 hv hnd hg1 hcyc => ?_⟩
  · obtain ⟨ds, n3, k, _⟩ := cycle_strength n0 ws hh g hm ⟨g5, g6, g7, g8⟩ hsum g1 hls ch cg chm hv
    exact ⟨ds, n3, k⟩
  · have hst : n0.StartTraining = .ok (n0.set_H hh) := by
      unfold Neuron.StartTraining
      rw [hls, ch]
    have hfresh0 : ∀ j, n0.frozen.getD j false = false := getD_false_of_all_false _ g3
    have hstr0 : ∀ j : Nat, (j : Int) < n0.length → n0.strength.getD j 0 = 1 := by
      intro j hj
      have hil : j < n0.strength.length := by omega
      rw [List.getD_eq_getElem _ _ hil]
      exact g2 _ (List.getElem_mem hil)
    have hmain : n3.delays = n0.delays ∧ n3.containers = n0.containers ∧
        n3.length = n0.length ∧ n3.D2 = n0.D2 ∧ n3.C = n0.C ∧
        (∀ j, n3.frozen.getD j false = true → n3.strength.getD j 0 = g) ∧
        (∀ j, n3.frozen.getD j false = false → n3.strength.getD j 0 = n0.strength.getD j 0) := by
      by_cases hsum : (n0.sum.length : Int) = n0.C
      · obtain ⟨ds2, n4, k1, k2, _, _, _, _, _, _, k9, _⟩ :=
          cycle_strength n0 ws hh g hm ⟨g5, g6, g7, g8⟩ hsum g1 hls ch cg chm hv
        have hun := cycle_strength_unfrozen n0 ws hh g hm ⟨g5, g6, g7, g8⟩ hsum g1 hls ch cg chm
          hv ds n3 hcyc
        rw [hcyc] at k1
        simp only [Except.ok.injEq, Prod.mk.injEq] at k1
        obtain ⟨_, rfl⟩ := k1
        refine ⟨by rw [k2], by rw [k2], by rw [k2], by rw [k2], by rw [k2], fun j hj => ?_, hun⟩
        rcases k9 j hj with k | k
        · rw [hfresh0 j] at k
          exact absurd k (by decide)
        · exact k
      · unfold trainingCycle at hcyc
        rw [hst] at hcyc
        cases ws with
        | nil =>
          simp only [trainEach] at hcyc
          have hfin := (finishTraining_cases (n0.set_H hh)).2.2.2.2 hm hls g8 chm
          rw [hfin] at hcyc
          simp only [Except.ok.injEq, Prod.mk.injEq] at hcyc
          obtain ⟨_, rfl⟩ := hcyc
          refine ⟨rfl, rfl, rfl, rfl, rfl, fun j hj => ?_, fun j _ => rfl⟩
          have : n0.frozen.getD j false = true := hj
          rw [hfresh0 j] at this
          exact absurd this (by decide)
        | cons w rest =>
          have ht : (n0.set_H hh).Train w = .error .check := by
            unfold Neuron.Train
            have : ¬ (((n0.set_H hh).sum.length : Int) = (n0.set_H hh).C) := hsum
            simp [this]
          simp only [trainEach, ht] at hcyc
          exact absurd hcyc (by simp)
    obtain ⟨m1, m2, m3, m4, m5, m6, m7⟩ := hmain
    refine ⟨m3, m4, m5, fun i hi0 hi1 => ?_⟩
    have hi : i.toNat < n0.delays.length := by omega
    have hic : i.toNat < n0.containers.length := by omega
    have hd := g4 _ (List.getElem_mem hi)
    have hcn := g1 _ (List.getElem_mem hic)
    unfold Neuron.delays_at Neuron.containers_at Neuron.frozen_at Neuron.strength_at
    rw [m1, m2, List.getD_eq_getElem _ _ hi, List.getD_eq_getElem _ _ hic]
    refine ⟨rfl, hd.1, hd.2, rfl, hcn.1, hcn.2, m6 _, fun hf => ?_⟩
    rw [m7 _ hf]
    exact hstr0 _ (by omega)
  · obtain ⟨d, e1, e2⟩ := cycle_single_count n0 word hh g ⟨g5, g6, g7, g8⟩ g1 hls ch cg g2 g3 hv
      hnd hg1 ds n3 hcyc
    rw [hset] at e2
    exact ⟨d, e1, fun hd => (e2 hd).1⟩

/-- C33 (amended) on the neuron built from `strengthConfig` (`G_m = 2`,
`H_m = 4`): the cycle on the two `strengthWords` keeps the delays and
containers, the two frozen synapses have strength 2 and the other two
strength 1; and after the cycle on the single word `[(0, 0), (1, 0)]`, which
fires in slot 0 with two contributing entries, two synapses have strength
2. -/
theorem c33_strength_nondestructive_witness :
    Aligned (newNeuron : Neuron ℚ) ∧
      (newNeuron : Neuron ℚ).Init strengthConfig exampleRand = .ok strengthNeuron ∧
      strengthConfig.g_m = some 2 ∧ strengthConfig.h_m = some 4 ∧
      (∀ w ∈ strengthWords, ValidWord strengthNeuron w) ∧
      (∃ ds n3, trainingCycle strengthWords strengthNeuron = .ok (ds, n3)) ∧
      trainingCycle strengthWords strengthNeuron = .ok ([0, 0], strengthCycled) ∧
      (∀ i : Int, 0 ≤ i → i < strengthNeuron.length →
        strengthCycled.delays_at i = strengthNeuron.delays_at i ∧
        0 ≤ strengthCycled.delays_at i ∧ strengthCycled.delays_at i < strengthNeuron.D2 ∧
        strengthCycled.containers_at i = strengthNeuron.containers_at i ∧
        0 ≤ strengthCycled.containers_at i ∧ strengthCycled.containers_at i < strengthNeuron.C ∧
        (strengthCycled.frozen_at i = true → strengthCycled.strength_at i = 2) ∧
        (strengthCycled.frozen_at i = false → strengthCycled.strength_at i = 1)) ∧
      strengthCycled.frozen = [true, true, false, false] ∧
      strengthCycled.strength = [2, 2, 1, 1] ∧
      trainingCycle [[(0, 0), (1, 0)]] strengthNeuron = .ok ([0], strengthCycled) ∧
      (0 : Int) ≠ kDisabled ∧
      strengthCount strengthCycled 2
        = ((contributing strengthNeuron [(0, 0), (1, 0)] 0).length : Int) ∧
      (contributing strengthNeuron [(0, 0), (1, 0)] 0).length = 2 := by
  have key := c33_strength_nondestructive newNeuron strengthConfig exampleRand strengthNeuron 2 4
    (by decide) (by decide!) rfl rfl
  have hv : ∀ w ∈ strengthWords, ValidWord strengthNeuron w := by decide
  have hc : trainingCycle strengthWords strengthNeuron = .ok ([0, 0], strengthCycled) := by
    decide!
  have hs : trainingCycle [[(0, 0), (1, 0)]] strengthNeuron = .ok ([0], strengthCycled) := by
    decide!
  obtain ⟨d, e1, e2⟩ := key.2.2 [(0, 0), (1, 0)] [0] strengthCycled (by decide) (by decide)
    (by decide!) hs
  have hd : d = 0 := by
    simp only [List.cons.injEq, and_true] at e1
    exact e1.symm
  subst hd
  exact ⟨by decide, by decide!, rfl, rfl, hv, key.1 strengthWords hv (by decide),
    hc, (key.2.1 strengthWords [0, 0] strengthCycled hv hc).2.2.2, rfl, rfl, hs, by decide,
    e2 (by decide), by decide!⟩

/-- C33, as stated, fails in its last part, in two ways.  On the strength
neuron built from `strengthConfig` (`H = 2`, `G_m = 2`) the valid word
`[(0, 0), (0, 0)]`, which lists synapse 0 twice, fires in slot 0; both of its
entries contributed to the container that fired, and one synapse has strength
`G_m` afterwards.  On the strength neuron built from `unitGainConfig`
(`G_m = 1`) the word `[(0, 0), (1, 0)]` fires in slot 0 with two contributing
entries, and all four synapses have strength `G_m` afterwards. -/
theorem c33_strength_nondestructive_counterexample :
    ((newNeuron : Neuron ℚ).Init strengthConfig exampleRand = .ok strengthNeuron ∧
      strengthConfig.g_m = some 2 ∧ strengthConfig.h_m = some 4 ∧
      ValidWord strengthNeuron [(0, 0), (0, 0)] ∧
      trainingCycle [[(0, 0), (0, 0)]] strengthNeuron = .ok ([0], strengthDuplicate) ∧
      (0 : Int) ≠ kDisabled ∧
      strengthCount strengthDuplicate 2 = 1 ∧
      (contributing strengthNeuron [(0, 0), (0, 0)] 0).length = 2) ∧
    ((newNeuron : Neuron ℚ).Init unitGainConfig exampleRand = .ok unitGainNeuron ∧
      unitGainConfig.g_m = some 1 ∧ unitGainConfig.h_m = some 4 ∧
      ValidWord unitGainNeuron [(0, 0), (1, 0)] ∧
      trainingCycle [[(0, 0), (1, 0)]] unitGainNeuron = .ok ([0], unitGainCycled) ∧
      strengthCount unitGainCycled 1 = 4 ∧
      (contributing unitGainNeuron [(0, 0), (1, 0)] 0).length = 2) :=
  ⟨⟨by decide!, rfl, rfl, by decide, by decide!, by decide, by decide!, by decide!⟩,
    ⟨by decide!, rfl, rfl, by decide, by decide!, by decide!, by decide!⟩⟩

theorem plusValue_getD (hz : ∀ x : F, x + 0 = x) (hz2 : ∀ x : F, 0 + x = x) (x y : Option F) :
    (plusValue x y).getD 0 = x.getD 0 + y.getD 0 := by
  cases x <;> cases y <;> simp [plusValue, hz, hz2]

theorem addSamples_zeros_sum (hz : ∀ x : F, x + 0 = x) (h00 : (0 : F) * 0 = 0) (k : Nat) :
    ∀ s s1 : Statistic F, addSamples (List.replicate k 0) s = .ok s1 →
      s1.sum = s.sum ∧ s1.ssum = s.ssum := by
  induction k with
  | zero =>
    intro s s1 h
    simp only [List.replicate, addSamples, Except.ok.injEq] at h
    rw [h]
    exact ⟨rfl, rfl⟩
  | succ k ih =>
    intro s s1 h
    simp only [List.replicate, addSamples] at h
    cases h1 : AddSample 0 s with
    | error e => rw [h1] at h; simp at h
    | ok s2 =>
      rw [h1] at h
      simp only [] at h
      obtain ⟨e1, e2⟩ := ih s2 s1 h
      obtain ⟨_, _, _, e3⟩ := (addSample_ok_iff 0 s s2).1 h1
      rw [e1, e2, e3]
      exact ⟨by show s.sum + 0 = s.sum; exact hz _,
        by show s.ssum + 0 * 0 = s.ssum; rw [h00]; exact hz _⟩

theorem paddedCount_zero (h : Histogram F) : h.paddedCount 0 = h.firstCount := by
  unfold Histogram.paddedCount Histogram.firstCount Histogram.values_size
  by_cases h0 : 0 < h.values_.length
  · rw [if_pos h0, if_pos (by omega)]
  · rw [if_neg h0]

theorem firstCount_of_empty (h : Histogram F) (h0 : h.values_.length = 0) : h.firstCount = 0 := by
  unfold Histogram.firstCount Histogram.values_size
  rw [if_neg (by omega)]

/-- The histogram `operator+=` adds the padded summaries of its operands,
index by index. -/
theorem histogram_plus_summary (a b r : Histogram F) (h : a.plusAssign b = .ok r) :
    r.values_.length = max a.values_.length b.values_.length ∧
    (∀ i, r.paddedCount i = a.paddedCount i + b.paddedCount i) ∧
    ((∀ x : F, x + 0 = x) → (∀ x : F, 0 + x = x) → (0 : F) * 0 = 0 →
      ∀ i, r.paddedSum i = a.paddedSum i + b.paddedSum i ∧
        r.paddedSsum i = a.paddedSsum i + b.paddedSsum i) := by
  obtain ⟨s1, s2, s3, s4⟩ := histogram_plusAssign_spec a b r h
  obtain ⟨p1, p2⟩ := histogram_padding_count a b r h
  unfold Histogram.values_size at p1 p2
  have hin : ∀ i, i < r.values_.length → r.paddedCount i = a.paddedCount i + b.paddedCount i := by
    intro i hi
    unfold Histogram.paddedCount
    rw [if_pos hi]
    by_cases i1 : i < a.values_.length
    · by_cases i2 : i < b.values_.length
      · rw [if_pos i1, if_pos i2]
        exact (plusAssign_count _ _ _ (s2 i i1 i2)).1
      · rw [if_pos i1, if_neg i2]
        exact (p1 i (by omega) (by omega)).2.2.1
    · rw [if_neg i1, if_pos (by omega)]
      exact (p2 i (by omega) (by omega)).2.2.1
  have hfirst : r.firstCount = a.firstCount + b.firstCount := by
    by_cases h0 : 0 < r.values_.length
    · rw [← paddedCount_zero, ← paddedCount_zero a, ← paddedCount_zero b]
      exact hin 0 h0
    · rw [firstCount_of_empty r (by omega), firstCount_of_empty a (by omega),
        firstCount_of_empty b (by omega)]
      rfl
  refine ⟨s1, fun i => ?_, fun hz hz2 h00 i => ?_⟩
  · by_cases hi : i < r.values_.length
    · exact hin i hi
    · unfold Histogram.paddedCount
      rw [if_neg hi, if_neg (by omega), if_neg (by omega)]
      exact hfirst
  · unfold Histogram.paddedSum Histogram.paddedSsum
    by_cases hi : i < r.values_.length
    · rw [if_pos hi, if_pos hi]
      by_cases i1 : i < a.values_.length
      · by_cases i2 : i < b.values_.length
        · rw [if_pos i1, if_pos i2, if_pos i1, if_pos i2]
          obtain ⟨_, e2, e3⟩ := plusAssign_summary _ _ _ (s2 i i1 i2)
          unfold Statistic.sum Statistic.ssum
          rw [e2, e3]
          exact ⟨plusValue_getD hz hz2 _ _, plusValue_getD hz hz2 _ _⟩
        · rw [if_pos i1, if_neg i2, if_pos i1, if_neg i2]
          obtain ⟨e1, e2⟩ := addSamples_zeros_sum hz h00 _ _ _ (s3 i i1 (by omega))
          rw [e1, e2, hz, hz]
          exact ⟨rfl, rfl⟩
      · rw [if_neg i1, if_pos (by omega), if_neg i1, if_pos (by omega)]
        obtain ⟨z, z1, z2⟩ := s4 i (by omega) (by omega)
        obtain ⟨e1, e2⟩ := addSamples_zeros_sum hz h00 _ _ _ z1
        obtain ⟨_, e3, e4⟩ := plusAssign_summary _ _ _ z2
        have k1 : (r.values i).sum = z.sum + (b.values i).sum := by
          unfold Statistic.sum
          rw [e3]
          exact plusValue_getD hz hz2 _ _
        have k2 : (r.values i).ssum = z.ssum + (b.values i).ssum := by
          unfold Statistic.ssum
          rw [e4]
          exact plusValue_getD hz hz2 _ _
        rw [k1, k2, e1, e2]
        exact ⟨rfl, rfl⟩
    · rw [if_neg hi, if_neg (by omega), if_neg (by omega), if_neg hi, if_neg (by omega),
        if_neg (by omega), hz]
      exact ⟨rfl, rfl⟩

/-- Histograms with the same number of buckets and the same padded counts
have the same count in every bucket. -/
theorem count_of_padded (r1 r2 : Histogram F) (hl : r1.values_.length = r2.values_.length)
    (hc : ∀ i, r1.paddedCount i = r2.paddedCount i) (i : Nat) :
    (r1.values i).count = (r2.values i).count := by
  by_cases hi : i < r1.values_.length
  · have := hc i
    unfold Histogram.paddedCount at this
    rw [if_pos hi, if_pos (by omega)] at this
    exact this
  · unfold Histogram.values
    rw [List.getD_eq_default _ _ (by omega), List.getD_eq_default _ _ (by omega)]

/-- Histograms with the same number of buckets and the same padded sums have
the same sum in every bucket. -/
theorem sum_of_padded (r1 r2 : Histogram F) (hl : r1.values_.length = r2.values_.length)
    (hc : ∀ i, r1.paddedSum i = r2.paddedSum i ∧ r1.paddedSsum i = r2.paddedSsum i) (i : Nat) :
    (r1.values i).sum = (r2.values i).sum ∧ (r1.values i).ssum = (r2.values i).ssum := by
  by_cases hi : i < r1.values_.length
  · have := hc i
    unfold Histogram.paddedSum Histogram.paddedSsum at this
    rw [if_pos hi, if_pos (by omega), if_pos hi, if_pos (by omega)] at this
    exact this
  · unfold Histogram.values
    rw [List.getD_eq_default _ _ (by omega), List.getD_eq_default _ _ (by omega)]
    exact ⟨rfl, rfl⟩

/-- The histogram `operator+=` returns when the operations on the buckets
do. -/
theorem histogram_plusAssign_total (a b : Histogram F)
    (t1 : ∀ i, i < a.values_.length → i < b.values_.length →
      ∃ s, (a.values i).plusAssign (b.values i) = .ok s)
    (t2 : ∀ i, i < a.values_.length → b.values_.length ≤ i →
      ∃ s, addSamples (List.replicate b.firstCount.toNat 0) (a.values i) = .ok s)
    (t3 : ∀ i, a.values_.length ≤ i → i < b.values_.length →
      ∃ z s, addSamples (List.replicate a.firstCount.toNat 0) Statistic.empty = .ok z ∧
        z.plusAssign (b.values i) = .ok s) :
    ∃ r, a.plusAssign b = .ok r := by
  unfold Histogram.values at t1 t2 t3
  obtain ⟨a1, h1⟩ := histMergeLoop_total a.firstCount b.values_ b.values_ 0 a.values_ rfl
    (Nat.zero_le _) (fun j _ j2 j3 => t1 j j3 j2)
    (fun j _ j2 j3 => by
      obtain ⟨z, s, z1, z2⟩ := t3 j j3 j2
      exact ⟨z, s, by rw [addZeros_eq]; exact z1, z2⟩)
  obtain ⟨m1, _, _, _, m5⟩ :=
    histMergeLoop_spec a.firstCount b.values_ b.values_ 0 a.values_ a1 rfl (Nat.zero_le _)
      (Nat.zero_le _) h1
  obtain ⟨a2, h2⟩ := histPadLoop_total b.firstCount (a1.length - b.values_.length)
    b.values_.length a1 (fun j j1 j2 => by
      rw [m5 j j1, addZeros_eq]
      exact t2 j (by omega) j1)
  unfold Histogram.plusAssign
  rw [h1]
  simp only []
  rw [h2]
  exact ⟨_, rfl⟩

/-- Adding samples to a reachable statistic returns when the count stays an
`int32` value. -/
theorem addSamples_returns (vs : List F) :
    ∀ s : Statistic F, Reachable s → s.count + (vs.length : Int) ≤ int32Max →
      ∃ s1, addSamples vs s = .ok s1 ∧ Reachable s1 := by
  induction vs with
  | nil => intro s hs _; exact ⟨s, rfl, hs⟩
  | cons v rest ih =>
    intro s hs hb
    rw [List.length_cons] at hb
    push_cast at hb
    obtain ⟨c1, c2⟩ := checks_of_inv s (reachable_inv s hs)
    obtain ⟨s2, h2⟩ : ∃ s2, AddSample v s = .ok s2 :=
      ⟨_, (addSample_ok_iff v s _).2 ⟨c1, c2, by omega, rfl⟩⟩
    have hr2 : Reachable s2 := Reachable.addSample v s s2 hs h2
    have hc2 : s2.count = s.count + 1 := by
      have := addSamples_count [v] s s2 (by simp only [addSamples, h2])
      simpa using this
    obtain ⟨s1, h1, hr1⟩ := ih s2 hr2 (by rw [hc2]; omega)
    exact ⟨s1, by simp only [addSamples, h2, h1], hr1⟩

theorem firstCount_nonneg (h : Histogram F) (hr : ∀ s ∈ h.values_, Reachable s) :
    0 ≤ h.firstCount := by
  unfold Histogram.firstCount Histogram.values_size
  by_cases h0 : 0 < h.values_.length
  · rw [if_pos (by omega)]
    exact (reachable_inv _ (hr _ ((mem_iff_getD h.values_ Statistic.empty _).2 ⟨0, h0, rfl⟩))).1
  · rw [if_neg (by omega)]

theorem paddedCount_nonneg (h : Histogram F) (hr : ∀ s ∈ h.values_, Reachable s) (i : Nat) :
    0 ≤ h.paddedCount i := by
  unfold Histogram.paddedCount
  by_cases h0 : i < h.values_.length
  · rw [if_pos h0]
    exact (reachable_inv _ (hr _ ((mem_iff_getD h.values_ Statistic.empty _).2 ⟨i, h0, rfl⟩))).1
  · rw [if_neg h0]
    exact firstCount_nonneg h hr

/-- The histogram `operator+=` on histograms of reachable statistics returns
when every padded count of the result is an `int32` value, and the buckets of
the result are reachable statistics again. -/
theorem histogram_plus_returns (a b : Histogram F) (ha : ∀ s ∈ a.values_, Reachable s)
    (hb : ∀ s ∈ b.values_, Reachable s)
    (hbound : ∀ i, a.paddedCount i + b.paddedCount i ≤ int32Max) :
    ∃ r, a.plusAssign b = .ok r ∧ ∀ s ∈ r.values_, Reachable s := by
  have hai : ∀ i, i < a.values_.length → Reachable (a.values i) := fun i hi =>
    ha _ ((mem_iff_getD a.values_ Statistic.empty _).2 ⟨i, hi, rfl⟩)
  have hbi : ∀ i, i < b.values_.length → Reachable (b.values i) := fun i hi =>
    hb _ ((mem_iff_getD b.values_ Statistic.empty _).2 ⟨i, hi, rfl⟩)
  have fa := firstCount_nonneg a ha
  have fb := firstCount_nonneg b hb
  have t1 : ∀ i, i < a.values_.length → i < b.values_.length →
      ∃ s, (a.values i).plusAssign (b.values i) = .ok s ∧ Reachable s := by
    intro i i1 i2
    have k := hbound i
    unfold Histogram.paddedCount at k
    rw [if_pos i1, if_pos i2] at k
    obtain ⟨x1, x2⟩ := checks_of_inv _ (reachable_inv _ (hai i i1))
    obtain ⟨y1, y2⟩ := checks_of_inv _ (reachable_inv _ (hbi i i2))
    have n1 := (reachable_inv _ (hai i i1)).1
    have n2 := (reachable_inv _ (hbi i i2)).1
    unfold int32Max at k
    obtain ⟨s, hs⟩ := (plusAssign_returns (a.values i) (b.values i) (by omega) (by omega)).2
      ⟨x1, y1, x2, y2, k⟩
    exact ⟨s, hs, Reachable.plusAssign _ _ _ (hai i i1) (hbi i i2) hs⟩
  have t2 : ∀ i, i < a.values_.length → b.values_.length ≤ i →
      ∃ s, addSamples (List.replicate b.firstCount.toNat 0) (a.values i) = .ok s ∧
        Reachable s := by
    intro i i1 i2
    have k := hbound i
    unfold Histogram.paddedCount at k
    rw [if_pos i1, if_neg (by omega)] at k
    exact addSamples_returns _ _ (hai i i1) (by rw [List.length_replicate]; omega)
  have t3 : ∀ i, a.values_.length ≤ i → i < b.values_.length →
      ∃ z s, addSamples (List.replicate a.firstCount.toNat 0) Statistic.empty = .ok z ∧
        z.plusAssign (b.values i) = .ok s ∧ Reachable s := by
    intro i i1 i2
    have k := hbound i
    unfold Histogram.paddedCount at k
    rw [if_neg (by omega), if_pos i2] at k
    have n2 := (reachable_inv _ (hbi i i2)).1
    obtain ⟨z, hz, rz⟩ := addSamples_returns (List.replicate a.firstCount.toNat (0 : F))
      Statistic.empty Reachable.empty (by
        rw [List.length_replicate]
        have : (Statistic.empty : Statistic F).count = 0 := rfl
        omega)
    have zc : z.count = a.firstCount := by
      have := addSamples_count _ _ _ hz
      rw [List.length_replicate] at this
      have e0 : (Statistic.empty : Statistic F).count = 0 := rfl
      omega
    obtain ⟨x1, x2⟩ := checks_of_inv _ (reachable_inv _ rz)
    obtain ⟨y1, y2⟩ := checks_of_inv _ (reachable_inv _ (hbi i i2))
    unfold int32Max at k
    obtain ⟨s, hs⟩ := (plusAssign_returns z (b.values i) (by omega) (by omega)).2
      ⟨x1, y1, x2, y2, by omega⟩
    exact ⟨z, s, hz, hs, Reachable.plusAssign _ _ _ rz (hbi i i2) hs⟩
  obtain ⟨r, hr⟩ := histogram_plusAssign_total a b
    (fun i i1 i2 => by obtain ⟨s, hs, _⟩ := t1 i i1 i2; exact ⟨s, hs⟩)
    (fun i i1 i2 => by obtain ⟨s, hs, _⟩ := t2 i i1 i2; exact ⟨s, hs⟩)
    (fun i i1 i2 => by obtain ⟨z, s, hz, hs, _⟩ := t3 i i1 i2; exact ⟨z, s, hz, hs⟩)
  refine ⟨r, hr, fun s hs => ?_⟩
  obtain ⟨s1, s2, s3, s4⟩ := histogram_plusAssign_spec a b r hr
  obtain ⟨i, hi, rfl⟩ := (mem_iff_getD r.values_ Statistic.empty s).1 hs
  by_cases i1 : i < a.values_.length
  · by_cases i2 : i < b.values_.length
    · obtain ⟨s, hs, rs⟩ := t1 i i1 i2
      have := s2 i i1 i2
      rw [hs] at this
      simp only [Except.ok.injEq] at this
      rw [show r.values_.getD i Statistic.empty = r.values i from rfl, ← this]
      exact rs
    · obtain ⟨s, hs, rs⟩ := t2 i i1 (by omega)
      have := s3 i i1 (by omega)
      rw [hs] at this
      simp only [Except.ok.injEq] at this
      rw [show r.values_.getD i Statistic.empty = r.values i from rfl, ← this]
      exact rs
  · obtain ⟨z, s, hz, hs, rs⟩ := t3 i (by omega) (by omega)
    obtain ⟨z2, hz2, hs2⟩ := s4 i (by omega) (by omega)
    rw [hz] at hz2
    simp only [Except.ok.injEq] at hz2
    subst hz2
    rw [hs] at hs2
    simp only [Except.ok.injEq] at hs2
    rw [show r.values_.getD i Statistic.empty = r.values i from rfl, ← hs2]
    exact rs

/-- The histogram `operator+=` on two histograms of one bucket each. -/
theorem histogram_plus_single (x y r : Statistic F) (h : x.plusAssign y = .ok r) :
    (⟨[x]⟩ : Histogram F).plus ⟨[y]⟩ = .ok ⟨[r]⟩ := by
  show Histogram.plusAssign ⟨[x]⟩ ⟨[y]⟩ = .ok ⟨[r]⟩
  unfold Histogram.plusAssign
  have e1 : histMergeLoop (Histogram.firstCount (⟨[x]⟩ : Histogram F)) [y] 0 [x] = .ok [r] := by
    have e0 : ([x] : List (Statistic F)).getD 0 Statistic.empty = x := rfl
    unfold histMergeLoop
    rw [if_pos (by simp), e0, h]
    rfl
  rw [e1]
  rfl

/-- C35 (amended): the histogram combine is commutative and associative on
the number of buckets and on the count of every bucket, whatever the counts
of the buckets are: whenever `a + b` and `b + a` return they have the same
number of buckets and the same count in every bucket, and so have
`(a + b) + c` and `a + (b + c)`.  The `sum` and `ssum` of every bucket agree
as well where the addition of `double` has the laws used: `x + 0.0 = x`,
`0.0 + x = x`, `0.0 * 0.0 = 0.0` and commutativity for `a + b` against
`b + a`, and associativity in addition for the two groupings.  For histograms
whose buckets are reachable statistics, `a + b` and `b + a` both return when
the counts that are added stay `int32` values, and so do both groupings of
three. -/
theorem c35_histogram_combine_order (a b c : Histogram F) :
    (∀ ab ba, a.plus b = .ok ab → b.plus a = .ok ba →
      ab.values_size = ba.values_size ∧
      ∀ i : Nat, (ab.values i).count = (ba.values i).count ∧
        ((∀ x : F, x + 0 = x) → (∀ x : F, 0 + x = x) → (0 : F) * 0 = 0 →
          (∀ x y : F, x + y = y + x) →
          (ab.values i).sum = (ba.values i).sum ∧ (ab.values i).ssum = (ba.values i).ssum)) ∧
    (∀ ab abc bc abc2, a.plus b = .ok ab → ab.plus c = .ok abc → b.plus c = .ok bc →
      a.plus bc = .ok abc2 →
      abc.values_size = abc2.values_size ∧
      ∀ i : Nat, (abc.values i).count = (abc2.values i).count ∧
        ((∀ x : F, x + 0 = x) → (∀ x : F, 0 + x = x) → (0 : F) * 0 = 0 →
          (∀ x y z : F, x + y + z = x + (y + z)) →
          (abc.values i).sum = (abc2.values i).sum ∧
          (abc.values i).ssum = (abc2.values i).ssum)) ∧
    ((∀ s ∈ a.values_, Reachable s) → (∀ s ∈ b.values_, Reachable s) →
      (∀ s ∈ c.values_, Reachable s) →
      ((∀ i, a.paddedCount i + b.paddedCount i ≤ int32Max) →
        (∃ ab, a.plus b = .ok ab) ∧ (∃ ba, b.plus a = .ok ba)) ∧
      ((∀ i, a.paddedCount i + b.paddedCount i + c.paddedCount i ≤ int32Max) →
        (∃ ab abc, a.plus b = .ok ab ∧ ab.plus c = .ok abc) ∧
        (∃ bc abc2, b.plus c = .ok bc ∧ a.plus bc = .ok abc2))) := by
  refine ⟨fun ab ba h1 h2 => ?_, fun ab abc bc abc2 h1 h2 h3 h4 => ?_, fun ha hb hc => ⟨?_, ?_⟩⟩
  · obtain ⟨l1, c1, v1⟩ := histogram_plus_summary a b ab h1
    obtain ⟨l2, c2, v2⟩ := histogram_plus_summary b a ba h2
    have hl : ab.values_.length = ba.values_.length := by rw [l1, l2, max_comm]
    refine ⟨by unfold Histogram.values_size; rw [hl], fun i => ⟨?_, fun hz hz2 h00 hcomm => ?_⟩⟩
    · exact count_of_padded ab ba hl (fun j => by rw [c1, c2, add_comm]) i
    · exact sum_of_padded ab ba hl (fun j => by
        rw [(v1 hz hz2 h00 j).1, (v2 hz hz2 h00 j).1, (v1 hz hz2 h00 j).2, (v2 hz hz2 h00 j).2]
        exact ⟨hcomm _ _, hcomm _ _⟩) i
  · obtain ⟨l1, c1, v1⟩ := histogram_plus_summary a b ab h1
    obtain ⟨l2, c2, v2⟩ := histogram_plus_summary ab c abc h2
    obtain ⟨l3, c3, v3⟩ := histogram_plus_summary b c bc h3
    obtain ⟨l4, c4, v4⟩ := histogram_plus_summary a bc abc2 h4
    have hl : abc.values_.length = abc2.values_.length := by rw [l2, l1, l4, l3, max_assoc]
    refine ⟨by unfold Histogram.values_size; rw [hl], fun i => ⟨?_, fun hz hz2 h00 hassoc => ?_⟩⟩
    · exact count_of_padded abc abc2 hl (fun j => by rw [c2, c1, c4, c3, add_assoc]) i
    · exact sum_of_padded abc abc2 hl (fun j => by
        rw [(v2 hz hz2 h00 j).1, (v1 hz hz2 h00 j).1, (v4 hz hz2 h00 j).1, (v3 hz hz2 h00 j).1,
          (v2 hz hz2 h00 j).2, (v1 hz hz2 h00 j).2, (v4 hz hz2 h00 j).2, (v3 hz hz2 h00 j).2]
        exact ⟨hassoc _ _ _, hassoc _ _ _⟩) i
  · intro hbound
    obtain ⟨ab, h1, _⟩ := histogram_plus_returns a b ha hb hbound
    obtain ⟨ba, h2, _⟩ := histogram_plus_returns b a hb ha (fun i => by
      rw [add_comm]
      exact hbound i)
    exact ⟨⟨ab, h1⟩, ⟨ba, h2⟩⟩
  · intro hbound
    have na := paddedCount_nonneg a ha
    have nb := paddedCount_nonneg b hb
    have nc := paddedCount_nonneg c hc
    obtain ⟨ab, h1, r1⟩ := histogram_plus_returns a b ha hb (fun i => by
      have := hbound i
      have := nc i
      omega)
    obtain ⟨_, c1, _⟩ := histogram_plus_summary a b ab h1
    obtain ⟨abc, h2, _⟩ := histogram_plus_returns ab c r1 hc (fun i => by
      rw [c1]
      exact hbound i)
    obtain ⟨bc, h3, r3⟩ := histogram_plus_returns b c hb hc (fun i => by
      have := hbound i
      have := na i
      omega)
    obtain ⟨_, c3, _⟩ := histogram_plus_summary b c bc h3
    obtain ⟨abc2, h4, _⟩ := histogram_plus_returns a bc ha r3 (fun i => by
      rw [c3, ← add_assoc]
      exact hbound i)
    exact ⟨⟨ab, abc, h1, h2⟩, ⟨bc, abc2, h3, h4⟩⟩

/-- C35 (amended) on `histogramA` (four buckets of count 1), `histogramBB`
(two buckets of count 2) and `histogramB` (two buckets of count 1), in exact
arithmetic: `histogramA + histogramBB` and `histogramBB + histogramA` have
four buckets of count 3 with the same sums, and the two groupings of the three
histograms give the same histogram with four buckets of count 4. -/
theorem c35_histogram_combine_order_witness :
    histogramA.plus histogramBB = .ok histogramABB ∧
      histogramBB.plus histogramA = .ok histogramBBA ∧
      histogramABB.plus histogramB = .ok histogramABBB ∧
      histogramBB.plus histogramB = .ok histogramBBB ∧
      histogramA.plus histogramBBB = .ok histogramABBB ∧
      histogramABB.values_size = histogramBBA.values_size ∧
      (∀ i : Nat, (histogramABB.values i).count = (histogramBBA.values i).count ∧
        (histogramABB.values i).sum = (histogramBBA.values i).sum ∧
        (histogramABB.values i).ssum = (histogramBBA.values i).ssum) ∧
      histogramABB.values_.map Statistic.count = [3, 3, 3, 3] ∧
      histogramBBA.values_.map Statistic.sum = [2, 11, 5, 1] ∧
      histogramABBB.values_.map Statistic.count = [4, 4, 4, 4] := by
  have key := c35_histogram_combine_order histogramA histogramBB histogramB
  have h1 : histogramA.plus histogramBB = .ok histogramABB := by decide!
  have h2 : histogramBB.plus histogramA = .ok histogramBBA := by decide!
  have k := key.1 histogramABB histogramBBA h1 h2
  exact ⟨h1, h2, by decide!, by decide!, by decide!, k.1,
    fun i => ⟨(k.2 i).1, (k.2 i).2 add_zero zero_add (by norm_num) add_comm⟩,
    by decide, by decide!, by decide⟩

/-- C35 fails in the arithmetic of `double` for the sums.  Take the
histograms `a` with the one sample `2^53` in bucket 0 and `b = c` with the one
sample `1.0` in bucket 0.  The bucket 0 of `(a + b) + c` has the sum `2^53`
(`2^53 + 1` is rounded to `2^53`, twice) and the bucket 0 of `a + (b + c)` has
the sum `2^53 + 2`. -/
theorem c35_histogram_combine_order_counterexample :
    Histogram.AddSample 0 bigValue Histogram.empty = .ok bigHistogram ∧
    Histogram.AddSample 0 1 Histogram.empty = .ok oneHistogram ∧
    bigHistogram.plus oneHistogram = .ok ⟨[bigOne]⟩ ∧
    (⟨[bigOne]⟩ : Histogram Binary64).plus oneHistogram = .ok ⟨[leftSum]⟩ ∧
    oneHistogram.plus oneHistogram = .ok ⟨[oneOne]⟩ ∧
    bigHistogram.plus ⟨[oneOne]⟩ = .ok ⟨[rightSum]⟩ ∧
    ((⟨[leftSum]⟩ : Histogram Binary64).values 0).sum.val = 9007199254740992 ∧
    ((⟨[rightSum]⟩ : Histogram Binary64).values 0).sum.val = 9007199254740994 ∧
    ((⟨[leftSum]⟩ : Histogram Binary64).values 0).sum
      ≠ ((⟨[rightSum]⟩ : Histogram Binary64).values 0).sum := by
  have hl : leftSum.sum.val = 9007199254740992 := bigValue_val
  have hr : rightSum.sum.val = 9007199254740994 := round53_big_two
  have hne : leftSum.sum ≠ rightSum.sum := by
    intro h
    have h2 := congrArg Binary64.val h
    rw [hl, hr] at h2
    exact absurd h2 (by norm_num)
  have b1 : Histogram.AddSample 0 bigValue Histogram.empty = .ok bigHistogram := by
    unfold Histogram.AddSample
    simp only [Histogram.empty, Histogram.values_size, List.length_nil, List.nil_append]
    rw [if_neg (by decide)]
    have e0 : (List.replicate (0 + 1 - ((0 : Nat) : Int)).toNat
        (Statistic.empty : Statistic Binary64)).getD (0 : Int).toNat Statistic.empty
        = Statistic.empty := rfl
    rw [e0, bigSample_built]
    rfl
  have b2 : Histogram.AddSample 0 1 Histogram.empty = .ok oneHistogram := by
    unfold Histogram.AddSample
    simp only [Histogram.empty, Histogram.values_size, List.length_nil, List.nil_append]
    rw [if_neg (by decide)]
    have e0 : (List.replicate (0 + 1 - ((0 : Nat) : Int)).toNat
        (Statistic.empty : Statistic Binary64)).getD (0 : Int).toNat Statistic.empty
        = Statistic.empty := rfl
    rw [e0, oneSample_built]
    rfl
  exact ⟨b1, b2, histogram_plus_single _ _ _ bigOne_built,
    histogram_plus_single _ _ _ leftSum_built, histogram_plus_single _ _ _ oneOne_built,
    histogram_plus_single _ _ _ rightSum_built, hl, hr, hne⟩

/-- The value of `Bob::BitsPerNeuron` in terms of `clampProbability` and
`infoValue`. -/
theorem bitsPerNeuron_eq (m : MathFns F) (num_words true_true true_false false_true
    false_false : Int) (h1 : true_true + true_false ≠ 0) (h2 : false_false + false_true ≠ 0) :
    Bob.BitsPerNeuron m num_words true_true true_false false_true false_false
      = if (DoubleModel.ofInt true_true : F) / DoubleModel.ofInt (true_true + true_false)
            < 1 / DoubleModel.ofInt 360
              + (DoubleModel.ofInt false_true : F) / DoubleModel.ofInt (false_false + false_true)
        then .ok 0
        else .ok ((DoubleModel.ofInt num_words
          * infoValue m
              (clampProbability ((DoubleModel.ofInt true_true : F)
                / DoubleModel.ofInt (true_true + true_false)))
              (clampProbability (1 / DoubleModel.ofInt 360
                + (DoubleModel.ofInt false_true : F)
                  / DoubleModel.ofInt (false_false + false_true))))
          / m.log (DoubleModel.ofInt 2)) := by
  unfold Bob.BitsPerNeuron divByCount
  rw [if_neg h2, if_neg h1]
  rfl

theorem lit_exact {K : Type} [LinearOrderedField K] [FloorRing K] (a b : Int) :
    @lit K (exactModel K) a b = (a : K) / (b : K) := rfl

/-- In exact arithmetic the clamped probability lies in
`[0.0000001, 0.999999]`. -/
theorem clampProbability_bounds {K : Type} [LinearOrderedField K] [FloorRing K] (p : K) :
    (1 : K) / 10000000 ≤ @clampProbability K (exactModel K) p ∧
      @clampProbability K (exactModel K) p ≤ 999999 / 1000000 := by
  have e1 : @lit K (exactModel K) 999999 1000000 = (999999 : K) / 1000000 := by
    rw [lit_exact]
    norm_num
  have e2 : @lit K (exactModel K) 1 10000000 = (1 : K) / 10000000 := by
    rw [lit_exact]
    norm_num
  have hlt : (1 : K) / 10000000 ≤ 999999 / 1000000 := by norm_num
  unfold clampProbability
  simp only [e1, e2]
  by_cases h1 : (999999 : K) / 1000000 ≤ p
  · rw [if_pos h1]
    by_cases h2 : (999999 : K) / 1000000 < 1 / 10000000
    · rw [if_pos h2]
      exact ⟨le_refl _, hlt⟩
    · rw [if_neg h2]
      exact ⟨hlt, le_refl _⟩
  · rw [if_neg h1]
    by_cases h2 : p < 1 / 10000000
    · rw [if_pos h2]
      exact ⟨le_refl _, hlt⟩
    · rw [if_neg h2]
      exact ⟨not_lt.1 h2, le_of_lt (not_le.1 h1)⟩

/-- In exact arithmetic, with a function `log` that satisfies
`1 - y / x <= log x - log y` for positive `x` and `y`, the information
expression is not negative on probabilities strictly between 0 and 1: it is
the Kullback-Leibler divergence of two Bernoulli distributions. -/
theorem infoValue_nonneg {K : Type} [LinearOrderedField K] [FloorRing K] (m : MathFns K)
    (hlog : ∀ x y : K, 0 < x → 0 < y → 1 - y / x ≤ m.log x - m.log y)
    (p q : K) (hp0 : 0 < p) (hp1 : p < 1) (hq0 : 0 < q) (hq1 : q < 1) :
    0 ≤ @infoValue K (exactModel K) m p q := by
  have a := hlog p q hp0 hq0
  have b := hlog (1 - p) (1 - q) (by linarith) (by linarith)
  have a1 : p * (1 - q / p) ≤ p * (m.log p - m.log q) :=
    mul_le_mul_of_nonneg_left a (le_of_lt hp0)
  have b1 : (1 - p) * (1 - (1 - q) / (1 - p)) ≤ (1 - p) * (m.log (1 - p) - m.log (1 - q)) :=
    mul_le_mul_of_nonneg_left b (by linarith)
  have a2 : p * (1 - q / p) = p - q := by
    field_simp
  have b2 : (1 - p) * (1 - (1 - q) / (1 - p)) = (1 - p) - (1 - q) := by
    have : (1 - p) ≠ 0 := by linarith
    field_simp
  show 0 ≤ m.log (1 + -p) + -(m.log (1 + -q)) + -(p * m.log (1 + -p)) + p * m.log (1 + -q)
    + p * m.log p + -(p * m.log q)
  have e1 : (1 : K) + -p = 1 - p := by ring
  have e2 : (1 : K) + -q = 1 - q := by ring
  rw [e1, e2]
  rw [a2] at a1
  rw [b2] at b1
  nlinarith [a1, b1]

/-- C34, amended to exact arithmetic: over the reals `Bob::BitsPerNeuron`
never returns a negative value (in the rounded arithmetic of `double` it can).
The arithmetic is exact (an ordered field `K`, such as the real numbers) and
`log` is a function with `1 - y / x <= log x - log y` for positive `x` and `y`
and `0 < log 2`, as the natural logarithm is.  The information expression is
not negative on all probabilities in `[0.0000001, 0.999999]`, which is where
the clamping puts them; and for `num_words >= 0` and counts with
`true_true + true_false > 0` and `false_true + false_false > 0` (that the
single counts are not negative is not needed) the function returns a value,
which is `0.0` (the early return) or `num_words * infoValue / log 2.0` on the
clamped probabilities, and this value is not negative. -/
theorem c34_bits_nonneg {K : Type} [LinearOrderedField K] [FloorRing K] (m : MathFns K)
    (hlog : ∀ x y : K, 0 < x → 0 < y → 1 - y / x ≤ m.log x - m.log y)
    (hlog2 : 0 < m.log 2)
    (num_words true_true true_false false_true false_false : Int) (hn : 0 ≤ num_words)
    (h5 : 0 < true_true + true_false) (h6 : 0 < false_true + false_false) :
    (∀ pL pF : K, 1 / 10000000 ≤ pL → pL ≤ 999999 / 1000000 → 1 / 10000000 ≤ pF →
      pF ≤ 999999 / 1000000 → 0 ≤ @infoValue K (exactModel K) m pL pF) ∧
    ∃ r : K, @Bob.BitsPerNeuron K (exactModel K) m num_words true_true true_false false_true
        false_false = .ok r ∧ 0 ≤ r ∧
      (r = 0 ∨ ∃ pL pF : K, 1 / 10000000 ≤ pL ∧ pL ≤ 999999 / 1000000 ∧ 1 / 10000000 ≤ pF ∧
        pF ≤ 999999 / 1000000 ∧
        r = (num_words : K) * @infoValue K (exactModel K) m pL pF / m.log 2) := by
  have hinfo : ∀ pL pF : K, 1 / 10000000 ≤ pL → pL ≤ 999999 / 1000000 → 1 / 10000000 ≤ pF →
      pF ≤ 999999 / 1000000 → 0 ≤ @infoValue K (exactModel K) m pL pF := by
    intro pL pF a1 a2 a3 a4
    have k1 : (0 : K) < 1 / 10000000 := by norm_num
    have k2 : (999999 : K) / 1000000 < 1 := by norm_num
    exact infoValue_nonneg m hlog pL pF (by linarith) (by linarith) (by linarith) (by linarith)
  refine ⟨hinfo, ?_⟩
  rw [@bitsPerNeuron_eq K (exactModel K) m num_words true_true true_false false_true false_false
    (by omega) (by omega)]
  split
  · exact ⟨0, rfl, le_refl _, Or.inl rfl⟩
  · obtain ⟨b1, b2⟩ := clampProbability_bounds
      ((true_true : K) / ((true_true + true_false : Int) : K))
    obtain ⟨b3, b4⟩ := clampProbability_bounds
      (1 / ((360 : Int) : K) + (false_true : K) / ((false_false + false_true : Int) : K))
    have e2 : (((2 : Int) : K)) = 2 := by norm_num
    refine ⟨_, rfl, ?_, Or.inr ⟨_, _, b1, b2, b3, b4, ?_⟩⟩
    · show 0 ≤ (num_words : K) * _ / m.log ((2 : Int) : K)
      rw [e2]
      exact div_nonneg (mul_nonneg (by exact_mod_cast hn) (hinfo _ _ b1 b2 b3 b4))
        (le_of_lt hlog2)
    · show (num_words : K) * _ / m.log ((2 : Int) : K) = _
      rw [e2]
      rfl

/-- C34 (amended) over the real numbers with the natural logarithm: for 100
words, 9 of 10 training words learned and 1 of 10 test words accepted, and for
100 words, 107 of 120 training words learned and 8 of 9 test words accepted,
the function returns a value that is not negative. -/
theorem c34_bits_nonneg_witness :
    (∀ x y : ℝ, 0 < x → 0 < y → 1 - y / x ≤ Real.log x - Real.log y) ∧
      0 < Real.log 2 ∧
      (∃ r : ℝ, @Bob.BitsPerNeuron ℝ (exactModel ℝ) ⟨Real.log, Real.log, fun x _ => x, Real.log⟩
        100 9 1 1 9 = .ok r ∧ 0 ≤ r) ∧
      ∃ r : ℝ, @Bob.BitsPerNeuron ℝ (exactModel ℝ) ⟨Real.log, Real.log, fun x _ => x, Real.log⟩
        100 107 13 8 1 = .ok r ∧ 0 ≤ r := by
  have hlog : ∀ x y : ℝ, 0 < x → 0 < y → 1 - y / x ≤ Real.log x - Real.log y := by
    intro x y hx hy
    have h := Real.log_le_sub_one_of_pos (div_pos hy hx)
    rw [Real.log_div (ne_of_gt hy) (ne_of_gt hx)] at h
    linarith
  have hlog2 : 0 < Real.log 2 := Real.log_pos (by norm_num)
  obtain ⟨r, hr, hr0, _⟩ :=
    (c34_bits_nonneg (⟨Real.log, Real.log, fun x _ => x, Real.log⟩ : MathFns ℝ) hlog hlog2
      100 9 1 1 9 (by decide) (by decide) (by decide)).2
  obtain ⟨r1, hr1, hr10, _⟩ :=
    (c34_bits_nonneg (⟨Real.log, Real.log, fun x _ => x, Real.log⟩ : MathFns ℝ) hlog hlog2
      100 107 13 8 1 (by decide) (by decide) (by decide)).2
  exact ⟨hlog, hlog2, ⟨r, hr, hr0⟩, r1, hr1, hr10⟩

theorem dy_pos (m k : ℤ) (h : 0 < m) : 0 < dy m k := by
  unfold dy
  have : (0 : ℚ) < (m : ℚ) := by exact_mod_cast h
  positivity

theorem dy_half (m k : ℤ) : dy (2 * m) (k - 1) = dy m k := by
  unfold dy
  rw [zpow_sub₀ (by norm_num : (2 : ℚ) ≠ 0), zpow_one]
  push_cast
  ring

/-- A value with a significand of 53 bits is kept by rounding. -/
theorem round53_dy_exact (m k : ℤ) (h1 : 4503599627370496 ≤ m) (h2 : m < 9007199254740992) :
    round53 (dy m k) = dy m k := by
  have hp : (0 : ℚ) < 2 ^ k := by positivity
  have hm1 : (4503599627370496 : ℚ) ≤ (m : ℚ) := by exact_mod_cast h1
  have hm2 : (m : ℚ) < 9007199254740992 := by exact_mod_cast h2
  have e52 : (2 : ℚ) ^ (k + 52) = 4503599627370496 * 2 ^ k := by
    rw [zpow_add₀ (by norm_num : (2 : ℚ) ≠ 0)]
    norm_num
    ring
  have e53 : (2 : ℚ) ^ (k + 53) = 9007199254740992 * 2 ^ k := by
    rw [zpow_add₀ (by norm_num : (2 : ℚ) ≠ 0)]
    norm_num
    ring
  unfold dy
  refine round53_eval _ k m (by positivity) ?_ ?_ ?_
  · rw [e52]
    exact mul_le_mul_of_nonneg_right hm1 (le_of_lt hp)
  · rw [e53]
    exact mul_lt_mul_of_pos_right hm2 hp
  · rw [mul_div_assoc, div_self (ne_of_gt hp), mul_one]
    unfold roundHalfEven
    rw [Int.floor_intCast, sub_self, if_pos (by norm_num)]

/-- A value nearer to `m * 2^k` than half a unit in the last place is rounded
to it. -/
theorem round53_dy_near (q : ℚ) (m k : ℤ) (h1 : 4503599627370496 < m)
    (h2 : m < 9007199254740992) (hlo : dy (2 * m - 1) (k - 1) < q)
    (hhi : q < dy (2 * m + 1) (k - 1)) : round53 q = dy m k := by
  have hp : (0 : ℚ) < 2 ^ k := by positivity
  have hm1 : (4503599627370496 : ℚ) + 1 ≤ (m : ℚ) := by exact_mod_cast h1
  have hm2 : (m : ℚ) + 1 ≤ 9007199254740992 := by exact_mod_cast h2
  have ek : (2 : ℚ) ^ (k - 1) = 2 ^ k / 2 := by
    rw [zpow_sub₀ (by norm_num : (2 : ℚ) ≠ 0), zpow_one]
  have e52 : (2 : ℚ) ^ (k + 52) = 4503599627370496 * 2 ^ k := by
    rw [zpow_add₀ (by norm_num : (2 : ℚ) ≠ 0)]
    norm_num
    ring
  have e53 : (2 : ℚ) ^ (k + 53) = 9007199254740992 * 2 ^ k := by
    rw [zpow_add₀ (by norm_num : (2 : ℚ) ≠ 0)]
    norm_num
    ring
  unfold dy at hlo hhi
  rw [ek] at hlo hhi
  push_cast at hlo hhi
  have hlo1 : ((m : ℚ) - 1 / 2) * 2 ^ k < q := by linarith
  have hhi1 : q < ((m : ℚ) + 1 / 2) * 2 ^ k := by linarith
  have hq1 : (m : ℚ) - 1 / 2 < q / 2 ^ k := by
    rw [lt_div_iff₀ hp]
    exact hlo1
  have hq2 : q / 2 ^ k < (m : ℚ) + 1 / 2 := by
    rw [div_lt_iff₀ hp]
    exact hhi1
  have hq : 0 < q := by
    have : (0 : ℚ) < ((m : ℚ) - 1 / 2) * 2 ^ k := mul_pos (by linarith) hp
    linarith
  unfold dy
  refine round53_eval q k m hq ?_ ?_ ?_
  · rw [e52]
    have : (4503599627370496 : ℚ) * 2 ^ k ≤ ((m : ℚ) - 1 / 2) * 2 ^ k :=
      mul_le_mul_of_nonneg_right (by linarith) (le_of_lt hp)
    linarith
  · rw [e53]
    have : ((m : ℚ) + 1 / 2) * 2 ^ k ≤ (9007199254740992 : ℚ) * 2 ^ k :=
      mul_le_mul_of_nonneg_right (by linarith) (le_of_lt hp)
    linarith
  · have hf1 : m - 1 ≤ ⌊q / 2 ^ k⌋ := by
      rw [Int.le_floor]
      push_cast
      linarith
    have hf2 : ⌊q / 2 ^ k⌋ ≤ m := by
      have : ⌊q / 2 ^ k⌋ < m + 1 := by
        rw [Int.floor_lt]
        push_cast
        linarith
      omega
    unfold roundHalfEven
    rcases (by omega : ⌊q / 2 ^ k⌋ = m - 1 ∨ ⌊q / 2 ^ k⌋ = m) with hfl | hfl
    · rw [hfl]
      push_cast
      rw [if_neg (by linarith), if_pos (by linarith)]
      ring
    · rw [hfl, if_pos (by linarith)]

/-- The rounding of a negative value nearer to `-(m * 2^k)` than half a unit
in the last place. -/
theorem round53_dy_near_neg (q : ℚ) (m k : ℤ) (h1 : 4503599627370496 < m)
    (h2 : m < 9007199254740992) (hlo : dy (2 * m - 1) (k - 1) < -q)
    (hhi : -q < dy (2 * m + 1) (k - 1)) : round53 q = -dy m k := by
  have h := round53_dy_near (-q) m k h1 h2 hlo hhi
  rw [Rounding.neg (r := round53)] at h
  linarith

theorem round53_dy_exact_neg (m k : ℤ) (h1 : 4503599627370496 ≤ m)
    (h2 : m < 9007199254740992) : round53 (-dy m k) = -dy m k := by
  rw [Rounding.neg (r := round53), round53_dy_exact m k h1 h2]

theorem dyadic_val (m k : ℤ) (h1 : 4503599627370496 ≤ m) (h2 : m < 9007199254740992) :
    (dyadic m k).val = dy m k := round53_dy_exact m k h1 h2

theorem binary64_neg_val (a : Binary64) : (-a).val = -a.val := rfl

theorem binary64_ofInt_val (z : ℤ) : (DoubleModel.ofInt z : Binary64).val = round53 (z : ℚ) :=
  rfl

theorem binary64_lt_iff (a b : Binary64) : a < b ↔ a.val < b.val := Iff.rfl

theorem binary64_le_iff (a b : Binary64) : a ≤ b ↔ a.val ≤ b.val := Iff.rfl

theorem log64_val (x : Binary64) : (log64 x).val = round53 (logApprox x.val) := rfl

/-- The partial sums of the series as real numbers. -/
theorem logSeries_cast (x : ℚ) (n : ℕ) :
    ((logSeries x n : ℚ) : ℝ)
      = Finset.sum (Finset.range n) (fun i => (x : ℝ) ^ (i + 1) / ((i : ℝ) + 1)) := by
  induction n with
  | zero => simp [logSeries]
  | succ n ih =>
    rw [Finset.sum_range_succ, ← ih]
    show ((logSeries x n + x ^ (n + 1) / ((n : ℚ) + 1) : ℚ) : ℝ) = _
    push_cast
    rfl

/-- The partial sum of `n` terms is nearer to `-log (1 - x)` than
`x^(n+1) / (1 - x)`. -/
theorem logSeries_error (x : ℚ) (h0 : 0 ≤ x) (h1 : x < 1) (n : ℕ) :
    |((logSeries x n : ℚ) : ℝ) + Real.log (1 - (x : ℝ))|
      ≤ ((x ^ (n + 1) / (1 - x) : ℚ) : ℝ) := by
  have hx0 : (0 : ℝ) ≤ (x : ℝ) := by exact_mod_cast h0
  have hx1 : (x : ℝ) < 1 := by exact_mod_cast h1
  have hx2 : |(x : ℝ)| < 1 := by
    rw [abs_of_nonneg hx0]
    exact hx1
  have h := Real.abs_log_sub_add_sum_range_le hx2 n
  rw [abs_of_nonneg hx0] at h
  rw [logSeries_cast]
  push_cast
  exact h

/-- The error of `logApprox` on `(0, 1]`. -/
theorem logApprox_error_low (v : ℚ) (hv0 : 0 < v) (hv1 : v ≤ 1) :
    |Real.log (v : ℝ) - ((logApprox v : ℚ) : ℝ)|
      ≤ (((1 - v) ^ (logTerms + 1) / v : ℚ) : ℝ) := by
  have h := logSeries_error (1 - v) (by linarith) (by linarith) logTerms
  have e1 : (1 : ℝ) - ((1 - v : ℚ) : ℝ) = (v : ℝ) := by
    push_cast
    ring
  have e2 : (1 : ℚ) - (1 - v) = v := by ring
  rw [e1, e2] at h
  unfold logApprox
  rw [if_neg (by linarith), if_pos (by linarith)]
  push_cast
  have e3 : Real.log (v : ℝ) - -((logSeries (1 - v) logTerms : ℚ) : ℝ)
      = ((logSeries (1 - v) logTerms : ℚ) : ℝ) + Real.log (v : ℝ) := by ring
  rw [e3]
  push_cast at h
  exact h

/-- The error of `logApprox` from `3/2` on. -/
theorem logApprox_error_high (v : ℚ) (hv : 3 / 2 ≤ v) :
    |Real.log (v : ℝ) - ((logApprox v : ℚ) : ℝ)|
      ≤ (((1 - 1 / v) ^ (logTerms + 1) / (1 / v) : ℚ) : ℝ) := by
  have hv0 : (0 : ℚ) < v := by linarith
  have hinv : 0 < 1 / v := by positivity
  have hinv1 : 1 / v < 1 := by
    rw [div_lt_one hv0]
    linarith
  have h := logSeries_error (1 - 1 / v) (by linarith) (by linarith) logTerms
  have e1 : (1 : ℝ) - ((1 - 1 / v : ℚ) : ℝ) = ((v : ℝ))⁻¹ := by
    push_cast
    ring
  have e2 : (1 : ℚ) - (1 - 1 / v) = 1 / v := by ring
  rw [e1, e2, Real.log_inv] at h
  unfold logApprox
  rw [if_neg (by linarith), if_neg (by linarith)]
  have e3 : Real.log (v : ℝ) - ((logSeries (1 - 1 / v) logTerms : ℚ) : ℝ)
      = -(((logSeries (1 - 1 / v) logTerms : ℚ) : ℝ) + -Real.log (v : ℝ)) := by ring
  rw [e3, abs_neg]
  exact h

/-- From bounds on the approximation to the nearness of a value to the
natural logarithm. -/
theorem log_near_of_bounds (v l h e E : ℚ)
    (hA : |Real.log (v : ℝ) - ((logApprox v : ℚ) : ℝ)| ≤ ((E : ℚ) : ℝ)) (hE : E ≤ e)
    (h1 : l - h + e < logApprox v) (h2 : logApprox v < l + h - e) :
    |Real.log (v : ℝ) - (l : ℝ)| < (h : ℝ) := by
  have hE1 : (E : ℝ) ≤ (e : ℝ) := by exact_mod_cast hE
  have h11 : (l : ℝ) - (h : ℝ) + (e : ℝ) < ((logApprox v : ℚ) : ℝ) := by exact_mod_cast h1
  have h21 : ((logApprox v : ℚ) : ℝ) < (l : ℝ) + (h : ℝ) - (e : ℝ) := by exact_mod_cast h2
  obtain ⟨a1, a2⟩ := abs_le.1 hA
  rw [abs_lt]
  constructor <;> linarith

/-- The conversion of the `int32` value 107 to `double`. -/
theorem int64_107 :
    (DoubleModel.ofInt (107) : Binary64) = dyadic 7529455627010048 (-46) := by
  apply binary64_ext
  rw [binary64_ofInt_val, dyadic_val 7529455627010048 (-46) (by norm_num) (by norm_num)]
  have e : ((107 : ℤ) : ℚ) = dy 7529455627010048 (-46) := by
    unfold dy
    norm_num
  rw [e]
  exact round53_dy_exact 7529455627010048 (-46) (by norm_num) (by norm_num)

/-- The conversion of the `int32` value 120 to `double`. -/
theorem int64_120 :
    (DoubleModel.ofInt (107 + 13) : Binary64) = dyadic 8444249301319680 (-46) := by
  apply binary64_ext
  rw [binary64_ofInt_val, dyadic_val 8444249301319680 (-46) (by norm_num) (by norm_num)]
  have e : ((107 + 13 : ℤ) : ℚ) = dy 8444249301319680 (-46) := by
    unfold dy
    norm_num
  rw [e]
  exact round53_dy_exact 8444249301319680 (-46) (by norm_num) (by norm_num)

/-- The conversion of the `int32` value 360 to `double`. -/
theorem int64_360 :
    (DoubleModel.ofInt (360) : Binary64) = dyadic 6333186975989760 (-44) := by
  apply binary64_ext
  rw [binary64_ofInt_val, dyadic_val 6333186975989760 (-44) (by norm_num) (by norm_num)]
  have e : ((360 : ℤ) : ℚ) = dy 6333186975989760 (-44) := by
    unfold dy
    norm_num
  rw [e]
  exact round53_dy_exact 6333186975989760 (-44) (by norm_num) (by norm_num)

/-- The conversion of the `int32` value 8 to `double`. -/
theorem int64_8 :
    (DoubleModel.ofInt (8) : Binary64) = dyadic 4503599627370496 (-49) := by
  apply binary64_ext
  rw [binary64_ofInt_val, dyadic_val 4503599627370496 (-49) (by norm_num) (by norm_num)]
  have e : ((8 : ℤ) : ℚ) = dy 4503599627370496 (-49) := by
    unfold dy
    norm_num
  rw [e]
  exact round53_dy_exact 4503599627370496 (-49) (by norm_num) (by norm_num)

/-- The conversion of the `int32` value 9 to `double`. -/
theorem int64_9 :
    (DoubleModel.ofInt (1 + 8) : Binary64) = dyadic 5066549580791808 (-49) := by
  apply binary64_ext
  rw [binary64_ofInt_val, dyadic_val 5066549580791808 (-49) (by norm_num) (by norm_num)]
  have e : ((1 + 8 : ℤ) : ℚ) = dy 5066549580791808 (-49) := by
    unfold dy
    norm_num
  rw [e]
  exact round53_dy_exact 5066549580791808 (-49) (by norm_num) (by norm_num)

/-- The conversion of the `int32` value 100 to `double`. -/
theorem int64_100 :
    (DoubleModel.ofInt (100) : Binary64) = dyadic 7036874417766400 (-46) := by
  apply binary64_ext
  rw [binary64_ofInt_val, dyadic_val 7036874417766400 (-46) (by norm_num) (by norm_num)]
  have e : ((100 : ℤ) : ℚ) = dy 7036874417766400 (-46) := by
    unfold dy
    norm_num
  rw [e]
  exact round53_dy_exact 7036874417766400 (-46) (by norm_num) (by norm_num)

/-- The conversion of the `int32` value 2 to `double`. -/
theorem int64_2 :
    (DoubleModel.ofInt (2) : Binary64) = dyadic 4503599627370496 (-51) := by
  apply binary64_ext
  rw [binary64_ofInt_val, dyadic_val 4503599627370496 (-51) (by norm_num) (by norm_num)]
  have e : ((2 : ℤ) : ℚ) = dy 4503599627370496 (-51) := by
    unfold dy
    norm_num
  rw [e]
  exact round53_dy_exact 4503599627370496 (-51) (by norm_num) (by norm_num)

/-- The conversion of the `int32` value 999999 to `double`. -/
theorem int64_999999 :
    (DoubleModel.ofInt (999999) : Binary64) = dyadic 8589926002065408 (-33) := by
  apply binary64_ext
  rw [binary64_ofInt_val, dyadic_val 8589926002065408 (-33) (by norm_num) (by norm_num)]
  have e : ((999999 : ℤ) : ℚ) = dy 8589926002065408 (-33) := by
    unfold dy
    norm_num
  rw [e]
  exact round53_dy_exact 8589926002065408 (-33) (by norm_num) (by norm_num)

/-- The conversion of the `int32` value 1000000 to `double`. -/
theorem int64_1000000 :
    (DoubleModel.ofInt (1000000) : Binary64) = dyadic 8589934592000000 (-33) := by
  apply binary64_ext
  rw [binary64_ofInt_val, dyadic_val 8589934592000000 (-33) (by norm_num) (by norm_num)]
  have e : ((1000000 : ℤ) : ℚ) = dy 8589934592000000 (-33) := by
    unfold dy
    norm_num
  rw [e]
  exact round53_dy_exact 8589934592000000 (-33) (by norm_num) (by norm_num)

/-- The conversion of the `int32` value 1 to `double`. -/
theorem int64_1 :
    (DoubleModel.ofInt (1) : Binary64) = dyadic 4503599627370496 (-52) := by
  apply binary64_ext
  rw [binary64_ofInt_val, dyadic_val 4503599627370496 (-52) (by norm_num) (by norm_num)]
  have e : ((1 : ℤ) : ℚ) = dy 4503599627370496 (-52) := by
    unfold dy
    norm_num
  rw [e]
  exact round53_dy_exact 4503599627370496 (-52) (by norm_num) (by norm_num)

/-- The conversion of the `int32` value 10000000 to `double`. -/
theorem int64_10000000 :
    (DoubleModel.ofInt (10000000) : Binary64) = dyadic 5368709120000000 (-29) := by
  apply binary64_ext
  rw [binary64_ofInt_val, dyadic_val 5368709120000000 (-29) (by norm_num) (by norm_num)]
  have e : ((10000000 : ℤ) : ℚ) = dy 5368709120000000 (-29) := by
    unfold dy
    norm_num
  rw [e]
  exact round53_dy_exact 5368709120000000 (-29) (by norm_num) (by norm_num)

/-- The value `1.0`. -/
theorem one64 : (1 : Binary64) = dyadic 4503599627370496 (-52) := by
  apply binary64_ext
  rw [binary64_one_val, dyadic_val 4503599627370496 (-52) (by norm_num) (by norm_num)]
  unfold dy
  norm_num

/-- The quotient `107 / 120.0`, that is `prob_learn`. -/
theorem probLearn64 :
    (dyadic 7529455627010048 (-46) / dyadic 8444249301319680 (-46) : Binary64)
      = dyadic 8031419335477385 (-53) := by
  apply binary64_ext
  rw [binary64_div_val]
  rw [dyadic_val 7529455627010048 (-46) (by norm_num) (by norm_num)]
  rw [dyadic_val 8444249301319680 (-46) (by norm_num) (by norm_num)]
  rw [dyadic_val 8031419335477385 (-53) (by norm_num) (by norm_num)]
  refine round53_dy_near _ 8031419335477385 (-53) (by norm_num) (by norm_num) ?_ ?_
  · unfold dy
    norm_num
  · unfold dy
    norm_num

/-- The quotient `1.0 / 360.0`. -/
theorem inv360_64 :
    (dyadic 4503599627370496 (-52) / dyadic 6333186975989760 (-44) : Binary64)
      = dyadic 6405119470038039 (-61) := by
  apply binary64_ext
  rw [binary64_div_val]
  rw [dyadic_val 4503599627370496 (-52) (by norm_num) (by norm_num)]
  rw [dyadic_val 6333186975989760 (-44) (by norm_num) (by norm_num)]
  rw [dyadic_val 6405119470038039 (-61) (by norm_num) (by norm_num)]
  refine round53_dy_near _ 6405119470038039 (-61) (by norm_num) (by norm_num) ?_ ?_
  · unfold dy
    norm_num
  · unfold dy
    norm_num

/-- The quotient `8 / 9.0`. -/
theorem ratio89_64 :
    (dyadic 4503599627370496 (-49) / dyadic 5066549580791808 (-49) : Binary64)
      = dyadic 8006399337547548 (-53) := by
  apply binary64_ext
  rw [binary64_div_val]
  rw [dyadic_val 4503599627370496 (-49) (by norm_num) (by norm_num)]
  rw [dyadic_val 5066549580791808 (-49) (by norm_num) (by norm_num)]
  rw [dyadic_val 8006399337547548 (-53) (by norm_num) (by norm_num)]
  refine round53_dy_near _ 8006399337547548 (-53) (by norm_num) (by norm_num) ?_ ?_
  · unfold dy
    norm_num
  · unfold dy
    norm_num

/-- The sum `1.0 / 360.0 + 8 / 9.0`, that is `prob_false`: one unit in the last
place below `prob_learn`. -/
theorem probFalse64 :
    (dyadic 6405119470038039 (-61) + dyadic 8006399337547548 (-53) : Binary64)
      = dyadic 8031419335477384 (-53) := by
  apply binary64_ext
  rw [binary64_add_val]
  rw [dyadic_val 6405119470038039 (-61) (by norm_num) (by norm_num)]
  rw [dyadic_val 8006399337547548 (-53) (by norm_num) (by norm_num)]
  rw [dyadic_val 8031419335477384 (-53) (by norm_num) (by norm_num)]
  refine round53_dy_near _ 8031419335477384 (-53) (by norm_num) (by norm_num) ?_ ?_
  · unfold dy
    norm_num
  · unfold dy
    norm_num

/-- `prob_learn < prob_false` is false: there is no early return. -/
theorem probLearn64_not_lt :
    ¬ ((dyadic 8031419335477385 (-53) : Binary64) < dyadic 8031419335477384 (-53)) := by
  rw [binary64_lt_iff]
  rw [dyadic_val 8031419335477385 (-53) (by norm_num) (by norm_num)]
  rw [dyadic_val 8031419335477384 (-53) (by norm_num) (by norm_num)]
  unfold dy
  norm_num

/-- The literal `0.999999`. -/
theorem lit64_high :
    (dyadic 8589926002065408 (-33) / dyadic 8589934592000000 (-33) : Binary64)
      = dyadic 9007190247541737 (-53) := by
  apply binary64_ext
  rw [binary64_div_val]
  rw [dyadic_val 8589926002065408 (-33) (by norm_num) (by norm_num)]
  rw [dyadic_val 8589934592000000 (-33) (by norm_num) (by norm_num)]
  rw [dyadic_val 9007190247541737 (-53) (by norm_num) (by norm_num)]
  refine round53_dy_near _ 9007190247541737 (-53) (by norm_num) (by norm_num) ?_ ?_
  · unfold dy
    norm_num
  · unfold dy
    norm_num

/-- The literal `0.0000001`. -/
theorem lit64_low :
    (dyadic 4503599627370496 (-52) / dyadic 5368709120000000 (-29) : Binary64)
      = dyadic 7555786372591432 (-76) := by
  apply binary64_ext
  rw [binary64_div_val]
  rw [dyadic_val 4503599627370496 (-52) (by norm_num) (by norm_num)]
  rw [dyadic_val 5368709120000000 (-29) (by norm_num) (by norm_num)]
  rw [dyadic_val 7555786372591432 (-76) (by norm_num) (by norm_num)]
  refine round53_dy_near _ 7555786372591432 (-76) (by norm_num) (by norm_num) ?_ ?_
  · unfold dy
    norm_num
  · unfold dy
    norm_num

/-- `0.999999 <= prob_learn` is false. -/
theorem high_not_le_learn :
    ¬ ((dyadic 9007190247541737 (-53) : Binary64) ≤ dyadic 8031419335477385 (-53)) := by
  rw [binary64_le_iff]
  rw [dyadic_val 9007190247541737 (-53) (by norm_num) (by norm_num)]
  rw [dyadic_val 8031419335477385 (-53) (by norm_num) (by norm_num)]
  unfold dy
  norm_num

/-- `prob_learn < 0.0000001` is false. -/
theorem learn_not_lt_low :
    ¬ ((dyadic 8031419335477385 (-53) : Binary64) < dyadic 7555786372591432 (-76)) := by
  rw [binary64_lt_iff]
  rw [dyadic_val 8031419335477385 (-53) (by norm_num) (by norm_num)]
  rw [dyadic_val 7555786372591432 (-76) (by norm_num) (by norm_num)]
  unfold dy
  norm_num

/-- `0.999999 <= prob_false` is false. -/
theorem high_not_le_false :
    ¬ ((dyadic 9007190247541737 (-53) : Binary64) ≤ dyadic 8031419335477384 (-53)) := by
  rw [binary64_le_iff]
  rw [dyadic_val 9007190247541737 (-53) (by norm_num) (by norm_num)]
  rw [dyadic_val 8031419335477384 (-53) (by norm_num) (by norm_num)]
  unfold dy
  norm_num

/-- `prob_false < 0.0000001` is false. -/
theorem false_not_lt_low :
    ¬ ((dyadic 8031419335477384 (-53) : Binary64) < dyadic 7555786372591432 (-76)) := by
  rw [binary64_lt_iff]
  rw [dyadic_val 8031419335477384 (-53) (by norm_num) (by norm_num)]
  rw [dyadic_val 7555786372591432 (-76) (by norm_num) (by norm_num)]
  unfold dy
  norm_num

/-- The difference `1.0 - prob_learn`. -/
theorem oneMinusLearn64 :
    (dyadic 4503599627370496 (-52) + -dyadic 8031419335477385 (-53) : Binary64)
      = dyadic 7806239354108856 (-56) := by
  apply binary64_ext
  rw [binary64_add_val]
  simp only [binary64_neg_val]
  rw [dyadic_val 4503599627370496 (-52) (by norm_num) (by norm_num)]
  rw [dyadic_val 8031419335477385 (-53) (by norm_num) (by norm_num)]
  rw [dyadic_val 7806239354108856 (-56) (by norm_num) (by norm_num)]
  have e : dy 4503599627370496 (-52) + -dy 8031419335477385 (-53) = dy 7806239354108856 (-56) := by
    unfold dy
    norm_num
  rw [e]
  exact round53_dy_exact 7806239354108856 (-56) (by norm_num) (by norm_num)

/-- The difference `1.0 - prob_false`. -/
theorem oneMinusFalse64 :
    (dyadic 4503599627370496 (-52) + -dyadic 8031419335477384 (-53) : Binary64)
      = dyadic 7806239354108864 (-56) := by
  apply binary64_ext
  rw [binary64_add_val]
  simp only [binary64_neg_val]
  rw [dyadic_val 4503599627370496 (-52) (by norm_num) (by norm_num)]
  rw [dyadic_val 8031419335477384 (-53) (by norm_num) (by norm_num)]
  rw [dyadic_val 7806239354108864 (-56) (by norm_num) (by norm_num)]
  have e : dy 4503599627370496 (-52) + -dy 8031419335477384 (-53) = dy 7806239354108864 (-56) := by
    unfold dy
    norm_num
  rw [e]
  exact round53_dy_exact 7806239354108864 (-56) (by norm_num) (by norm_num)

/-- The approximation of the logarithm of `0x1.bbbbbbbbbbbb8p-4`: it is nearer to
`-0x1.1c7c44d576742p+1` than half a unit in the last place, by more than `2^-90`, which
bounds its error. -/
theorem logOneMinusLearn64_bounds :
    (-(2751374207797094610804670463 / 1237940039285380274899124224) : ℚ)
        < logApprox (975779919263607 / 9007199254740992) ∧
      logApprox (975779919263607 / 9007199254740992)
        < (-(2751374207797094061048856577 / 1237940039285380274899124224) : ℚ) ∧
      (1 - (975779919263607 / 9007199254740992 : ℚ)) ^ (logTerms + 1) / (975779919263607 / 9007199254740992)
        ≤ (1 / 1237940039285380274899124224 : ℚ) :=
  ⟨by decide!, by decide!, by decide!⟩

/-- The value `log(1.0 - prob_learn)`. -/
theorem logOneMinusLearn64 :
    log64 (dyadic 7806239354108856 (-56)) = -dyadic 5004720529172290 (-51) := by
  apply binary64_ext
  rw [log64_val]
  simp only [binary64_neg_val]
  rw [dyadic_val 7806239354108856 (-56) (by norm_num) (by norm_num)]
  rw [dyadic_val 5004720529172290 (-51) (by norm_num) (by norm_num)]
  have ev : dy 7806239354108856 (-56) = (975779919263607 / 9007199254740992 : ℚ) := by
    unfold dy
    norm_num
  rw [ev]
  obtain ⟨b1, b2, _⟩ := logOneMinusLearn64_bounds
  refine round53_dy_near_neg _ 5004720529172290 (-51) (by norm_num) (by norm_num) ?_ ?_
  · have e1 : dy 10009441058344579 (-52)
        ≤ -(-(2751374207797094061048856577 / 1237940039285380274899124224) : ℚ) := by
      unfold dy
      norm_num
    linarith
  · have e2 : -(-(2751374207797094610804670463 / 1237940039285380274899124224) : ℚ)
        ≤ dy 10009441058344581 (-52) := by
      unfold dy
      norm_num
    linarith

/-- The value of `log64` at `0x1.bbbbbbbbbbbb8p-4` is the `double` nearest to the
natural logarithm: the error is below half a unit in the last place. -/
theorem logOneMinusLearn64_nearest :
    |Real.log (((dyadic 7806239354108856 (-56)).val : ℚ) : ℝ)
        - (((log64 (dyadic 7806239354108856 (-56))).val : ℚ) : ℝ)| < ((dy 1 (-52) : ℚ) : ℝ) := by
  rw [logOneMinusLearn64]
  simp only [binary64_neg_val]
  rw [dyadic_val 7806239354108856 (-56) (by norm_num) (by norm_num)]
  rw [dyadic_val 5004720529172290 (-51) (by norm_num) (by norm_num)]
  have ev : dy 7806239354108856 (-56) = (975779919263607 / 9007199254740992 : ℚ) := by
    unfold dy
    norm_num
  have el : -dy 5004720529172290 (-51) = (-(2502360264586145 / 1125899906842624) : ℚ) := by
    unfold dy
    norm_num
  have eh : dy 1 (-52) = (1 / 4503599627370496 : ℚ) := by
    unfold dy
    norm_num
  rw [ev, el, eh]
  obtain ⟨b1, b2, b3⟩ := logOneMinusLearn64_bounds
  have e1 : ((-(2502360264586145 / 1125899906842624) : ℚ) - (1 / 4503599627370496)
      + (1 / 1237940039285380274899124224) : ℚ)
      = (-(2751374207797094610804670463 / 1237940039285380274899124224) : ℚ) := by norm_num
  have e2 : ((-(2502360264586145 / 1125899906842624) : ℚ) + (1 / 4503599627370496)
      - (1 / 1237940039285380274899124224) : ℚ)
      = (-(2751374207797094061048856577 / 1237940039285380274899124224) : ℚ) := by norm_num
  exact log_near_of_bounds _ _ _ _ _
    (logApprox_error_low (975779919263607 / 9007199254740992) (by norm_num) (by norm_num)) b3
    (by rw [e1]; exact b1) (by rw [e2]; exact b2)

/-- The approximation of the logarithm of `0x1.bbbbbbbbbbbc0p-4`: it is nearer to
`-0x1.1c7c44d576740p+1` than half a unit in the last place, by more than `2^-90`, which
bounds its error. -/
theorem logOneMinusFalse64_bounds :
    (-(2751374207797093511293042687 / 1237940039285380274899124224) : ℚ)
        < logApprox (121972489907951 / 1125899906842624) ∧
      logApprox (121972489907951 / 1125899906842624)
        < (-(2751374207797092961537228801 / 1237940039285380274899124224) : ℚ) ∧
      (1 - (121972489907951 / 1125899906842624 : ℚ)) ^ (logTerms + 1) / (121972489907951 / 1125899906842624)
        ≤ (1 / 1237940039285380274899124224 : ℚ) :=
  ⟨by decide!, by decide!, by decide!⟩

/-- The value `log(1.0 - prob_false)`. -/
theorem logOneMinusFalse64 :
    log64 (dyadic 7806239354108864 (-56)) = -dyadic 5004720529172288 (-51) := by
  apply binary64_ext
  rw [log64_val]
  simp only [binary64_neg_val]
  rw [dyadic_val 7806239354108864 (-56) (by norm_num) (by norm_num)]
  rw [dyadic_val 5004720529172288 (-51) (by norm_num) (by norm_num)]
  have ev : dy 7806239354108864 (-56) = (121972489907951 / 1125899906842624 : ℚ) := by
    unfold dy
    norm_num
  rw [ev]
  obtain ⟨b1, b2, _⟩ := logOneMinusFalse64_bounds
  refine round53_dy_near_neg _ 5004720529172288 (-51) (by norm_num) (by norm_num) ?_ ?_
  · have e1 : dy 10009441058344575 (-52)
        ≤ -(-(2751374207797092961537228801 / 1237940039285380274899124224) : ℚ) := by
      unfold dy
      norm_num
    linarith
  · have e2 : -(-(2751374207797093511293042687 / 1237940039285380274899124224) : ℚ)
        ≤ dy 10009441058344577 (-52) := by
      unfold dy
      norm_num
    linarith

/-- The value of `log64` at `0x1.bbbbbbbbbbbc0p-4` is the `double` nearest to the
natural logarithm: the error is below half a unit in the last place. -/
theorem logOneMinusFalse64_nearest :
    |Real.log (((dyadic 7806239354108864 (-56)).val : ℚ) : ℝ)
        - (((log64 (dyadic 7806239354108864 (-56))).val : ℚ) : ℝ)| < ((dy 1 (-52) : ℚ) : ℝ) := by
  rw [logOneMinusFalse64]
  simp only [binary64_neg_val]
  rw [dyadic_val 7806239354108864 (-56) (by norm_num) (by norm_num)]
  rw [dyadic_val 5004720529172288 (-51) (by norm_num) (by norm_num)]
  have ev : dy 7806239354108864 (-56) = (121972489907951 / 1125899906842624 : ℚ) := by
    unfold dy
    norm_num
  have el : -dy 5004720529172288 (-51) = (-(78198758268317 / 35184372088832) : ℚ) := by
    unfold dy
    norm_num
  have eh : dy 1 (-52) = (1 / 4503599627370496 : ℚ) := by
    unfold dy
    norm_num
  rw [ev, el, eh]
  obtain ⟨b1, b2, b3⟩ := logOneMinusFalse64_bounds
  have e1 : ((-(78198758268317 / 35184372088832) : ℚ) - (1 / 4503599627370496)
      + (1 / 1237940039285380274899124224) : ℚ)
      = (-(2751374207797093511293042687 / 1237940039285380274899124224) : ℚ) := by norm_num
  have e2 : ((-(78198758268317 / 35184372088832) : ℚ) + (1 / 4503599627370496)
      - (1 / 1237940039285380274899124224) : ℚ)
      = (-(2751374207797092961537228801 / 1237940039285380274899124224) : ℚ) := by norm_num
  exact log_near_of_bounds _ _ _ _ _
    (logApprox_error_low (121972489907951 / 1125899906842624) (by norm_num) (by norm_num)) b3
    (by rw [e1]; exact b1) (by rw [e2]; exact b2)

/-- The approximation of the logarithm of `0x1.c888888888889p-1`: it is nearer to
`-0x1.d5a8c614c9b6dp-4` than half a unit in the last place, by more than `2^-90`, which
bounds its error. -/
theorem logLearn64_bounds :
    (-(141945805230409791932727295 / 1237940039285380274899124224) : ℚ)
        < logApprox (8031419335477385 / 9007199254740992) ∧
      logApprox (8031419335477385 / 9007199254740992)
        < (-(141945805230409774752858113 / 1237940039285380274899124224) : ℚ) ∧
      (1 - (8031419335477385 / 9007199254740992 : ℚ)) ^ (logTerms + 1) / (8031419335477385 / 9007199254740992)
        ≤ (1 / 1237940039285380274899124224 : ℚ) :=
  ⟨by decide!, by decide!, by decide!⟩

/-- The value `log(prob_learn)`. -/
theorem logLearn64 :
    log64 (dyadic 8031419335477385 (-53)) = -dyadic 8262333298940781 (-56) := by
  apply binary64_ext
  rw [log64_val]
  simp only [binary64_neg_val]
  rw [dyadic_val 8031419335477385 (-53) (by norm_num) (by norm_num)]
  rw [dyadic_val 8262333298940781 (-56) (by norm_num) (by norm_num)]
  have ev : dy 8031419335477385 (-53) = (8031419335477385 / 9007199254740992 : ℚ) := by
    unfold dy
    norm_num
  rw [ev]
  obtain ⟨b1, b2, _⟩ := logLearn64_bounds
  refine round53_dy_near_neg _ 8262333298940781 (-56) (by norm_num) (by norm_num) ?_ ?_
  · have e1 : dy 16524666597881561 (-57)
        ≤ -(-(141945805230409774752858113 / 1237940039285380274899124224) : ℚ) := by
      unfold dy
      norm_num
    linarith
  · have e2 : -(-(141945805230409791932727295 / 1237940039285380274899124224) : ℚ)
        ≤ dy 16524666597881563 (-57) := by
      unfold dy
      norm_num
    linarith

/-- The value of `log64` at `0x1.c888888888889p-1` is the `double` nearest to the
natural logarithm: the error is below half a unit in the last place. -/
theorem logLearn64_nearest :
    |Real.log (((dyadic 8031419335477385 (-53)).val : ℚ) : ℝ)
        - (((log64 (dyadic 8031419335477385 (-53))).val : ℚ) : ℝ)| < ((dy 1 (-57) : ℚ) : ℝ) := by
  rw [logLearn64]
  simp only [binary64_neg_val]
  rw [dyadic_val 8031419335477385 (-53) (by norm_num) (by norm_num)]
  rw [dyadic_val 8262333298940781 (-56) (by norm_num) (by norm_num)]
  have ev : dy 8031419335477385 (-53) = (8031419335477385 / 9007199254740992 : ℚ) := by
    unfold dy
    norm_num
  have el : -dy 8262333298940781 (-56) = (-(8262333298940781 / 72057594037927936) : ℚ) := by
    unfold dy
    norm_num
  have eh : dy 1 (-57) = (1 / 144115188075855872 : ℚ) := by
    unfold dy
    norm_num
  rw [ev, el, eh]
  obtain ⟨b1, b2, b3⟩ := logLearn64_bounds
  have e1 : ((-(8262333298940781 / 72057594037927936) : ℚ) - (1 / 144115188075855872)
      + (1 / 1237940039285380274899124224) : ℚ)
      = (-(141945805230409791932727295 / 1237940039285380274899124224) : ℚ) := by norm_num
  have e2 : ((-(8262333298940781 / 72057594037927936) : ℚ) + (1 / 144115188075855872)
      - (1 / 1237940039285380274899124224) : ℚ)
      = (-(141945805230409774752858113 / 1237940039285380274899124224) : ℚ) := by norm_num
  exact log_near_of_bounds _ _ _ _ _
    (logApprox_error_low (8031419335477385 / 9007199254740992) (by norm_num) (by norm_num)) b3
    (by rw [e1]; exact b1) (by rw [e2]; exact b2)

/-- The approximation of the logarithm of `0x1.c888888888888p-1`: it is nearer to
`-0x1.d5a8c614c9b75p-4` than half a unit in the last place, by more than `2^-90`, which
bounds its error. -/
theorem logFalse64_bounds :
    (-(141945805230409929371680767 / 1237940039285380274899124224) : ℚ)
        < logApprox (1003927416934673 / 1125899906842624) ∧
      logApprox (1003927416934673 / 1125899906842624)
        < (-(141945805230409912191811585 / 1237940039285380274899124224) : ℚ) ∧
      (1 - (1003927416934673 / 1125899906842624 : ℚ)) ^ (logTerms + 1) / (1003927416934673 / 1125899906842624)
        ≤ (1 / 1237940039285380274899124224 : ℚ) :=
  ⟨by decide!, by decide!, by decide!⟩

/-- The value `log(prob_false)`. -/
theorem logFalse64 :
    log64 (dyadic 8031419335477384 (-53)) = -dyadic 8262333298940789 (-56) := by
  apply binary64_ext
  rw [log64_val]
  simp only [binary64_neg_val]
  rw [dyadic_val 8031419335477384 (-53) (by norm_num) (by norm_num)]
  rw [dyadic_val 8262333298940789 (-56) (by norm_num) (by norm_num)]
  have ev : dy 8031419335477384 (-53) = (1003927416934673 / 1125899906842624 : ℚ) := by
    unfold dy
    norm_num
  rw [ev]
  obtain ⟨b1, b2, _⟩ := logFalse64_bounds
  refine round53_dy_near_neg _ 8262333298940789 (-56) (by norm_num) (by norm_num) ?_ ?_
  · have e1 : dy 16524666597881577 (-57)
        ≤ -(-(141945805230409912191811585 / 1237940039285380274899124224) : ℚ) := by
      unfold dy
      norm_num
    linarith
  · have e2 : -(-(141945805230409929371680767 / 1237940039285380274899124224) : ℚ)
        ≤ dy 16524666597881579 (-57) := by
      unfold dy
      norm_num
    linarith

/-- The value of `log64` at `0x1.c888888888888p-1` is the `double` nearest to the
natural logarithm: the error is below half a unit in the last place. -/
theorem logFalse64_nearest :
    |Real.log (((dyadic 8031419335477384 (-53)).val : ℚ) : ℝ)
        - (((log64 (dyadic 8031419335477384 (-53))).val : ℚ) : ℝ)| < ((dy 1 (-57) : ℚ) : ℝ) := by
  rw [logFalse64]
  simp only [binary64_neg_val]
  rw [dyadic_val 8031419335477384 (-53) (by norm_num) (by norm_num)]
  rw [dyadic_val 8262333298940789 (-56) (by norm_num) (by norm_num)]
  have ev : dy 8031419335477384 (-53) = (1003927416934673 / 1125899906842624 : ℚ) := by
    unfold dy
    norm_num
  have el : -dy 8262333298940789 (-56) = (-(8262333298940789 / 72057594037927936) : ℚ) := by
    unfold dy
    norm_num
  have eh : dy 1 (-57) = (1 / 144115188075855872 : ℚ) := by
    unfold dy
    norm_num
  rw [ev, el, eh]
  obtain ⟨b1, b2, b3⟩ := logFalse64_bounds
  have e1 : ((-(8262333298940789 / 72057594037927936) : ℚ) - (1 / 144115188075855872)
      + (1 / 1237940039285380274899124224) : ℚ)
      = (-(141945805230409929371680767 / 1237940039285380274899124224) : ℚ) := by norm_num
  have e2 : ((-(8262333298940789 / 72057594037927936) : ℚ) + (1 / 144115188075855872)
      - (1 / 1237940039285380274899124224) : ℚ)
      = (-(141945805230409912191811585 / 1237940039285380274899124224) : ℚ) := by norm_num
  exact log_near_of_bounds _ _ _ _ _
    (logApprox_error_low (1003927416934673 / 1125899906842624) (by norm_num) (by norm_num)) b3
    (by rw [e1]; exact b1) (by rw [e2]; exact b2)

/-- The approximation of the logarithm of `0x1.0000000000000p+1`: it is nearer to
`0x1.62e42fefa39efp-1` than half a unit in the last place, by more than `2^-90`, which
bounds its error. -/
theorem logTwo64_bounds :
    (858074647932929173683699713 / 1237940039285380274899124224 : ℚ)
        < logApprox (2) ∧
      logApprox (2)
        < (858074647932929311122653183 / 1237940039285380274899124224 : ℚ) ∧
      (1 - 1 / (2 : ℚ)) ^ (logTerms + 1) / (1 / (2))
        ≤ (1 / 1237940039285380274899124224 : ℚ) :=
  ⟨by decide!, by decide!, by decide!⟩

/-- The value `log(2.0)`. -/
theorem logTwo64 :
    log64 (dyadic 4503599627370496 (-51)) = dyadic 6243314768165359 (-53) := by
  apply binary64_ext
  rw [log64_val]
  rw [dyadic_val 4503599627370496 (-51) (by norm_num) (by norm_num)]
  rw [dyadic_val 6243314768165359 (-53) (by norm_num) (by norm_num)]
  have ev : dy 4503599627370496 (-51) = (2 : ℚ) := by
    unfold dy
    norm_num
  rw [ev]
  obtain ⟨b1, b2, _⟩ := logTwo64_bounds
  refine round53_dy_near _ 6243314768165359 (-53) (by norm_num) (by norm_num) ?_ ?_
  · have e1 : dy 12486629536330717 (-54)
        ≤ (858074647932929173683699713 / 1237940039285380274899124224 : ℚ) := by
      unfold dy
      norm_num
    exact lt_of_le_of_lt e1 b1
  · have e2 : (858074647932929311122653183 / 1237940039285380274899124224 : ℚ)
        ≤ dy 12486629536330719 (-54) := by
      unfold dy
      norm_num
    exact lt_of_lt_of_le b2 e2

/-- The value of `log64` at `0x1.0000000000000p+1` is the `double` nearest to the
natural logarithm: the error is below half a unit in the last place. -/
theorem logTwo64_nearest :
    |Real.log (((dyadic 4503599627370496 (-51)).val : ℚ) : ℝ)
        - (((log64 (dyadic 4503599627370496 (-51))).val : ℚ) : ℝ)| < ((dy 1 (-54) : ℚ) : ℝ) := by
  rw [logTwo64]
  rw [dyadic_val 4503599627370496 (-51) (by norm_num) (by norm_num)]
  rw [dyadic_val 6243314768165359 (-53) (by norm_num) (by norm_num)]
  have ev : dy 4503599627370496 (-51) = (2 : ℚ) := by
    unfold dy
    norm_num
  have el : dy 6243314768165359 (-53) = (6243314768165359 / 9007199254740992 : ℚ) := by
    unfold dy
    norm_num
  have eh : dy 1 (-54) = (1 / 18014398509481984 : ℚ) := by
    unfold dy
    norm_num
  rw [ev, el, eh]
  obtain ⟨b1, b2, b3⟩ := logTwo64_bounds
  have e1 : ((6243314768165359 / 9007199254740992 : ℚ) - (1 / 18014398509481984)
      + (1 / 1237940039285380274899124224) : ℚ)
      = (858074647932929173683699713 / 1237940039285380274899124224 : ℚ) := by norm_num
  have e2 : ((6243314768165359 / 9007199254740992 : ℚ) + (1 / 18014398509481984)
      - (1 / 1237940039285380274899124224) : ℚ)
      = (858074647932929311122653183 / 1237940039285380274899124224 : ℚ) := by norm_num
  exact log_near_of_bounds _ _ _ _ _
    (logApprox_error_high (2) (by norm_num)) b3
    (by rw [e1]; exact b1) (by rw [e2]; exact b2)

/-- The first difference of `infoValue`. -/
theorem info64_1 :
    (-dyadic 5004720529172290 (-51) + -(-dyadic 5004720529172288 (-51)) : Binary64)
      = -dyadic 4503599627370496 (-102) := by
  apply binary64_ext
  rw [binary64_add_val]
  simp only [binary64_neg_val]
  rw [dyadic_val 5004720529172290 (-51) (by norm_num) (by norm_num)]
  rw [dyadic_val 5004720529172288 (-51) (by norm_num) (by norm_num)]
  rw [dyadic_val 4503599627370496 (-102) (by norm_num) (by norm_num)]
  have e : -dy 5004720529172290 (-51) + -(-dy 5004720529172288 (-51)) = -dy 4503599627370496 (-102) := by
    unfold dy
    norm_num
  rw [e]
  exact round53_dy_exact_neg 4503599627370496 (-102) (by norm_num) (by norm_num)

/-- The product `prob_learn * log(1.0 - prob_learn)`. -/
theorem info64_p1 :
    (dyadic 8031419335477385 (-53) * -dyadic 5004720529172290 (-51) : Binary64)
      = -dyadic 8925084943690584 (-52) := by
  apply binary64_ext
  rw [binary64_mul_val]
  simp only [binary64_neg_val]
  rw [dyadic_val 8031419335477385 (-53) (by norm_num) (by norm_num)]
  rw [dyadic_val 5004720529172290 (-51) (by norm_num) (by norm_num)]
  rw [dyadic_val 8925084943690584 (-52) (by norm_num) (by norm_num)]
  refine round53_dy_near_neg _ 8925084943690584 (-52) (by norm_num) (by norm_num) ?_ ?_
  · unfold dy
    norm_num
  · unfold dy
    norm_num

/-- The second partial sum of `infoValue`. -/
theorem info64_2 :
    (-dyadic 4503599627370496 (-102) + -(-dyadic 8925084943690584 (-52)) : Binary64)
      = dyadic 8925084943690580 (-52) := by
  apply binary64_ext
  rw [binary64_add_val]
  simp only [binary64_neg_val]
  rw [dyadic_val 4503599627370496 (-102) (by norm_num) (by norm_num)]
  rw [dyadic_val 8925084943690584 (-52) (by norm_num) (by norm_num)]
  rw [dyadic_val 8925084943690580 (-52) (by norm_num) (by norm_num)]
  have e : -dy 4503599627370496 (-102) + -(-dy 8925084943690584 (-52)) = dy 8925084943690580 (-52) := by
    unfold dy
    norm_num
  rw [e]
  exact round53_dy_exact 8925084943690580 (-52) (by norm_num) (by norm_num)

/-- The product `prob_learn * log(1.0 - prob_false)`. -/
theorem info64_p2 :
    (dyadic 8031419335477385 (-53) * -dyadic 5004720529172288 (-51) : Binary64)
      = -dyadic 8925084943690581 (-52) := by
  apply binary64_ext
  rw [binary64_mul_val]
  simp only [binary64_neg_val]
  rw [dyadic_val 8031419335477385 (-53) (by norm_num) (by norm_num)]
  rw [dyadic_val 5004720529172288 (-51) (by norm_num) (by norm_num)]
  rw [dyadic_val 8925084943690581 (-52) (by norm_num) (by norm_num)]
  refine round53_dy_near_neg _ 8925084943690581 (-52) (by norm_num) (by norm_num) ?_ ?_
  · unfold dy
    norm_num
  · unfold dy
    norm_num

/-- The third partial sum of `infoValue`. -/
theorem info64_3 :
    (dyadic 8925084943690580 (-52) + -dyadic 8925084943690581 (-52) : Binary64)
      = -dyadic 4503599627370496 (-104) := by
  apply binary64_ext
  rw [binary64_add_val]
  simp only [binary64_neg_val]
  rw [dyadic_val 8925084943690580 (-52) (by norm_num) (by norm_num)]
  rw [dyadic_val 8925084943690581 (-52) (by norm_num) (by norm_num)]
  rw [dyadic_val 4503599627370496 (-104) (by norm_num) (by norm_num)]
  have e : dy 8925084943690580 (-52) + -dy 8925084943690581 (-52) = -dy 4503599627370496 (-104) := by
    unfold dy
    norm_num
  rw [e]
  exact round53_dy_exact_neg 4503599627370496 (-104) (by norm_num) (by norm_num)

/-- The product `prob_learn * log(prob_learn)`. -/
theorem info64_p3 :
    (dyadic 8031419335477385 (-53) * -dyadic 8262333298940781 (-56) : Binary64)
      = -dyadic 7367247191555530 (-56) := by
  apply binary64_ext
  rw [binary64_mul_val]
  simp only [binary64_neg_val]
  rw [dyadic_val 8031419335477385 (-53) (by norm_num) (by norm_num)]
  rw [dyadic_val 8262333298940781 (-56) (by norm_num) (by norm_num)]
  rw [dyadic_val 7367247191555530 (-56) (by norm_num) (by norm_num)]
  refine round53_dy_near_neg _ 7367247191555530 (-56) (by norm_num) (by norm_num) ?_ ?_
  · unfold dy
    norm_num
  · unfold dy
    norm_num

/-- The fourth partial sum of `infoValue`. -/
theorem info64_4 :
    (-dyadic 4503599627370496 (-104) + -dyadic 7367247191555530 (-56) : Binary64)
      = -dyadic 7367247191555546 (-56) := by
  apply binary64_ext
  rw [binary64_add_val]
  simp only [binary64_neg_val]
  rw [dyadic_val 4503599627370496 (-104) (by norm_num) (by norm_num)]
  rw [dyadic_val 7367247191555530 (-56) (by norm_num) (by norm_num)]
  rw [dyadic_val 7367247191555546 (-56) (by norm_num) (by norm_num)]
  have e : -dy 4503599627370496 (-104) + -dy 7367247191555530 (-56) = -dy 7367247191555546 (-56) := by
    unfold dy
    norm_num
  rw [e]
  exact round53_dy_exact_neg 7367247191555546 (-56) (by norm_num) (by norm_num)

/-- The product `prob_learn * log(prob_false)`. -/
theorem info64_p4 :
    (dyadic 8031419335477385 (-53) * -dyadic 8262333298940789 (-56) : Binary64)
      = -dyadic 7367247191555537 (-56) := by
  apply binary64_ext
  rw [binary64_mul_val]
  simp only [binary64_neg_val]
  rw [dyadic_val 8031419335477385 (-53) (by norm_num) (by norm_num)]
  rw [dyadic_val 8262333298940789 (-56) (by norm_num) (by norm_num)]
  rw [dyadic_val 7367247191555537 (-56) (by norm_num) (by norm_num)]
  refine round53_dy_near_neg _ 7367247191555537 (-56) (by norm_num) (by norm_num) ?_ ?_
  · unfold dy
    norm_num
  · unfold dy
    norm_num

/-- The value of `infoValue`: it is negative. -/
theorem info64_5 :
    (-dyadic 7367247191555546 (-56) + -(-dyadic 7367247191555537 (-56)) : Binary64)
      = -dyadic 5066549580791808 (-105) := by
  apply binary64_ext
  rw [binary64_add_val]
  simp only [binary64_neg_val]
  rw [dyadic_val 7367247191555546 (-56) (by norm_num) (by norm_num)]
  rw [dyadic_val 7367247191555537 (-56) (by norm_num) (by norm_num)]
  rw [dyadic_val 5066549580791808 (-105) (by norm_num) (by norm_num)]
  have e : -dy 7367247191555546 (-56) + -(-dy 7367247191555537 (-56)) = -dy 5066549580791808 (-105) := by
    unfold dy
    norm_num
  rw [e]
  exact round53_dy_exact_neg 5066549580791808 (-105) (by norm_num) (by norm_num)

/-- The product `num_words * infoValue`. -/
theorem bits64_product :
    (dyadic 7036874417766400 (-46) * -dyadic 5066549580791808 (-105) : Binary64)
      = -dyadic 7916483719987200 (-99) := by
  apply binary64_ext
  rw [binary64_mul_val]
  simp only [binary64_neg_val]
  rw [dyadic_val 7036874417766400 (-46) (by norm_num) (by norm_num)]
  rw [dyadic_val 5066549580791808 (-105) (by norm_num) (by norm_num)]
  rw [dyadic_val 7916483719987200 (-99) (by norm_num) (by norm_num)]
  have e : dy 7036874417766400 (-46) * -dy 5066549580791808 (-105) = -dy 7916483719987200 (-99) := by
    unfold dy
    norm_num
  rw [e]
  exact round53_dy_exact_neg 7916483719987200 (-99) (by norm_num) (by norm_num)

/-- The quotient `(num_words * infoValue) / log(2.0)`. -/
theorem bits64_quotient :
    (-dyadic 7916483719987200 (-99) / dyadic 6243314768165359 (-53) : Binary64)
      = -dyadic 5710535902051874 (-98) := by
  apply binary64_ext
  rw [binary64_div_val]
  simp only [binary64_neg_val]
  rw [dyadic_val 7916483719987200 (-99) (by norm_num) (by norm_num)]
  rw [dyadic_val 6243314768165359 (-53) (by norm_num) (by norm_num)]
  rw [dyadic_val 5710535902051874 (-98) (by norm_num) (by norm_num)]
  refine round53_dy_near_neg _ 5710535902051874 (-98) (by norm_num) (by norm_num) ?_ ?_
  · unfold dy
    norm_num
  · unfold dy
    norm_num

/-- The literal `0.999999` as the model writes it. -/
theorem lit64_high_eq : (lit 999999 1000000 : Binary64) = dyadic 9007190247541737 (-53) := by
  unfold lit
  rw [int64_999999, int64_1000000]
  exact lit64_high

/-- The literal `0.0000001` as the model writes it. -/
theorem lit64_low_eq : (lit 1 10000000 : Binary64) = dyadic 7555786372591432 (-76) := by
  unfold lit
  rw [int64_1, int64_10000000]
  exact lit64_low

/-- The clamping leaves `prob_learn` as it is. -/
theorem clamp64_learn : clampProbability (dyadic 8031419335477385 (-53) : Binary64) = dyadic 8031419335477385 (-53) := by
  have h1 : ¬ ((lit 999999 1000000 : Binary64) ≤ dyadic 8031419335477385 (-53)) := by
    rw [lit64_high_eq]
    exact high_not_le_learn
  have h2 : ¬ ((dyadic 8031419335477385 (-53) : Binary64) < lit 1 10000000) := by
    rw [lit64_low_eq]
    exact learn_not_lt_low
  unfold clampProbability
  simp only []
  rw [if_neg h1, if_neg h2]

/-- The clamping leaves `prob_false` as it is. -/
theorem clamp64_false : clampProbability (dyadic 8031419335477384 (-53) : Binary64) = dyadic 8031419335477384 (-53) := by
  have h1 : ¬ ((lit 999999 1000000 : Binary64) ≤ dyadic 8031419335477384 (-53)) := by
    rw [lit64_high_eq]
    exact high_not_le_false
  have h2 : ¬ ((dyadic 8031419335477384 (-53) : Binary64) < lit 1 10000000) := by
    rw [lit64_low_eq]
    exact false_not_lt_low
  unfold clampProbability
  simp only []
  rw [if_neg h1, if_neg h2]

/-- The value of `infoValue` on `prob_learn` and `prob_false` in `double`
arithmetic: `-0x1.2p-53`, about `-1.25e-16`. -/
theorem info64_value :
    infoValue mathLog64 (dyadic 8031419335477385 (-53)) (dyadic 8031419335477384 (-53))
      = -dyadic 5066549580791808 (-105) := by
  unfold infoValue
  show log64 (1 + -dyadic 8031419335477385 (-53))
      + -(log64 (1 + -dyadic 8031419335477384 (-53)))
      + -(dyadic 8031419335477385 (-53) * log64 (1 + -dyadic 8031419335477385 (-53)))
      + dyadic 8031419335477385 (-53) * log64 (1 + -dyadic 8031419335477384 (-53))
      + dyadic 8031419335477385 (-53) * log64 (dyadic 8031419335477385 (-53))
      + -(dyadic 8031419335477385 (-53) * log64 (dyadic 8031419335477384 (-53))) = _
  rw [one64, oneMinusLearn64, oneMinusFalse64, logOneMinusLearn64, logOneMinusFalse64,
    logLearn64, logFalse64, info64_1, info64_p1, info64_2, info64_p2, info64_3, info64_p3,
    info64_4, info64_p4, info64_5]

/-- The run of `Bob::BitsPerNeuron(100, 107, 13, 8, 1)` in `double`
arithmetic. -/
theorem bits64_value :
    Bob.BitsPerNeuron mathLog64 100 107 13 8 1 = .ok (-dyadic 5710535902051874 (-98)) := by
  rw [bitsPerNeuron_eq mathLog64 100 107 13 8 1 (by decide) (by decide)]
  rw [int64_107, int64_120, int64_360, int64_8, int64_9, one64, probLearn64, inv360_64,
    ratio89_64, probFalse64, if_neg probLearn64_not_lt, clamp64_learn, clamp64_false,
    info64_value, int64_100, int64_2]
  show Except.ok (dyadic 7036874417766400 (-46) * -dyadic 5066549580791808 (-105)
    / log64 (dyadic 4503599627370496 (-51))) = _
  rw [bits64_product, logTwo64, bits64_quotient]

/-- C34, as stated, fails in the arithmetic of `double`:
`BitsPerNeuron(100, 107, 13, 8, 1)` returns `-0x1.449b3bfeb3e22p-46`, about
`-1.8e-14`.  The counts satisfy the conditions of the claim.  The value
`prob_learn = 107 / 120.0 = 0x1.c888888888889p-1` is one unit in the last place
above `prob_false = 1.0 / 360.0 + 8 / 9.0 = 0x1.c888888888888p-1` (the two are
equal over the reals), so there is no early return; no probability is clamped;
and the six terms of `infoValue`, each rounded, add up to `-0x1.2000000000000p-53`.  Every
operation is rounded to nearest, and `log` is `log64`, whose five values used
here are the `double` values nearest to the natural logarithm:
`log(1.0 - prob_learn) = -0x1.1c7c44d576742p+1`,
`log(1.0 - prob_false) = -0x1.1c7c44d576740p+1`,
`log(prob_learn) = -0x1.d5a8c614c9b6dp-4`,
`log(prob_false) = -0x1.d5a8c614c9b75p-4` and
`log(2.0) = 0x1.62e42fefa39efp-1`. -/
theorem c34_bits_nonneg_counterexample :
    Bob.BitsPerNeuron mathLog64 100 107 13 8 1 = .ok (-dyadic 5710535902051874 (-98)) ∧
      (-dyadic 5710535902051874 (-98) : Binary64) < 0 ∧
      ((0 : Int) ≤ 100 ∧ (0 : Int) ≤ 107 ∧ (0 : Int) ≤ 13 ∧ (0 : Int) ≤ 8 ∧ (0 : Int) ≤ 1 ∧
        (0 : Int) < 107 + 13 ∧ (0 : Int) < 8 + 1) ∧
      (107 : ℚ) / (107 + 13) = 1 / 360 + 8 / (1 + 8) ∧
      (DoubleModel.ofInt 107 / DoubleModel.ofInt (107 + 13) : Binary64)
        = dyadic 8031419335477385 (-53) ∧
      (1 / DoubleModel.ofInt 360 + DoubleModel.ofInt 8 / DoubleModel.ofInt (1 + 8) : Binary64)
        = dyadic 8031419335477384 (-53) ∧
      log64 (dyadic 7806239354108856 (-56)) = -dyadic 5004720529172290 (-51) ∧
      |Real.log (((dyadic 7806239354108856 (-56)).val : ℚ) : ℝ)
          - (((log64 (dyadic 7806239354108856 (-56))).val : ℚ) : ℝ)| < ((dy 1 (-52) : ℚ) : ℝ) ∧
      log64 (dyadic 7806239354108864 (-56)) = -dyadic 5004720529172288 (-51) ∧
      |Real.log (((dyadic 7806239354108864 (-56)).val : ℚ) : ℝ)
          - (((log64 (dyadic 7806239354108864 (-56))).val : ℚ) : ℝ)| < ((dy 1 (-52) : ℚ) : ℝ) ∧
      log64 (dyadic 8031419335477385 (-53)) = -dyadic 8262333298940781 (-56) ∧
      |Real.log (((dyadic 8031419335477385 (-53)).val : ℚ) : ℝ)
          - (((log64 (dyadic 8031419335477385 (-53))).val : ℚ) : ℝ)| < ((dy 1 (-57) : ℚ) : ℝ) ∧
      log64 (dyadic 8031419335477384 (-53)) = -dyadic 8262333298940789 (-56) ∧
      |Real.log (((dyadic 8031419335477384 (-53)).val : ℚ) : ℝ)
          - (((log64 (dyadic 8031419335477384 (-53))).val : ℚ) : ℝ)| < ((dy 1 (-57) : ℚ) : ℝ) ∧
      log64 (dyadic 4503599627370496 (-51)) = dyadic 6243314768165359 (-53) ∧
      |Real.log (((dyadic 4503599627370496 (-51)).val : ℚ) : ℝ)
          - (((log64 (dyadic 4503599627370496 (-51))).val : ℚ) : ℝ)| < ((dy 1 (-54) : ℚ) : ℝ) := by
  refine ⟨bits64_value, ?_, by decide, by norm_num, ?_, ?_,
    logOneMinusLearn64, logOneMinusLearn64_nearest,
    logOneMinusFalse64, logOneMinusFalse64_nearest,
    logLearn64, logLearn64_nearest,
    logFalse64, logFalse64_nearest,
    logTwo64, logTwo64_nearest⟩
  · rw [binary64_lt_iff, binary64_neg_val,
      dyadic_val 5710535902051874 (-98) (by norm_num) (by norm_num), binary64_zero_val]
    unfold dy
    norm_num
  · rw [int64_107, int64_120, probLearn64]
  · rw [one64, int64_360, int64_8, int64_9, inv360_64, ratio89_64, probFalse64]

end Proofs

end Cognon
